import Mathlib

/-!
# Verification development for the container and smart-pointer library

Shallow embedding of `tasks/deque/deque.h`, `tasks/list/stackallocator.h`,
`tasks/shared_ptr/smart_pointers.h` and `tasks/unordered_map/unordered_map.h`.

Conventions of the embedding
* `size_t` quantities are natural numbers. Every counter below is bounded by the
  number of live objects or allocated buckets, so the 64-bit wrap of `++` is out
  of reach; the wrap of `--` at zero is only reachable through calls that are
  undefined behaviour, and those are modelled as failure (`none`).
* Raw storage is a sequence of slots of type `Option T`: `none` is storage that
  holds no constructed object, `some v` is a live object.
* An operation returns `none` when the C++ call would read or write outside the
  storage it indexes, or destroy or read an object that was never constructed.
-/

namespace SeqRef

/-! ## Reference sequence container -/

/-- The four end operations of a sequence container. -/
inductive Op (T : Type) where
  | push_back (value : T)
  | push_front (value : T)
  | pop_back
  | pop_front
deriving DecidableEq, Repr

/-- The same call on the reference sequence; `none` is a pop on an empty sequence. -/
def refApply {T : Type} (l : List T) : Op T → Option (List T)
  | .push_back v => some (l ++ [v])
  | .push_front v => some (v :: l)
  | .pop_back => if l.isEmpty then none else some l.dropLast
  | .pop_front => if l.isEmpty then none else some l.tail

/-- The reference sequence after a sequence of calls. -/
def refRun {T : Type} (l : List T) : List (Op T) → Option (List T)
  | [] => some l
  | op :: ops =>
    match refApply l op with
    | none => none
    | some l1 => refRun l1 ops

/-- Number of pushes in a sequence of calls. -/
def pushes {T : Type} : List (Op T) → Nat
  | [] => 0
  | .push_back _ :: ops => pushes ops + 1
  | .push_front _ :: ops => pushes ops + 1
  | _ :: ops => pushes ops

/-- Number of pops in a sequence of calls. -/
def pops {T : Type} : List (Op T) → Nat
  | [] => 0
  | .pop_back :: ops => pops ops + 1
  | .pop_front :: ops => pops ops + 1
  | _ :: ops => pops ops

/-- Every pop of the sequence is issued on a non-empty container, `n` being the number
of elements held before the sequence starts. -/
def popsGuarded {T : Type} : Nat → List (Op T) → Prop
  | _, [] => True
  | n, .push_back _ :: ops => popsGuarded (n + 1) ops
  | n, .push_front _ :: ops => popsGuarded (n + 1) ops
  | n, .pop_back :: ops => n ≠ 0 ∧ popsGuarded (n - 1) ops
  | n, .pop_front :: ops => n ≠ 0 ∧ popsGuarded (n - 1) ops

end SeqRef

namespace DequeH

open SeqRef

/-! ## deque.h : data model -/

/-- The constant `Bucket::size`. -/
def Bucket.size : Nat := 32

/-- The struct `Bucket`: the raw storage `elements_` points to. A bucket is identified
with the storage it owns: the pointer copy `new_buckets[i] = buckets_[i]` hands the
storage over to the new array, the old array being discarded right after it. -/
structure Bucket (T : Type) where
  elements_ : List (Option T)
deriving DecidableEq, Repr

/-- The constructor `Bucket()`: `Bucket::size` slots of raw storage. -/
def Bucket.mk0 (T : Type) : Bucket T := ⟨List.replicate Bucket.size none⟩

/-- The expression `new Bucket[n]`. -/
def newBuckets (T : Type) (n : Nat) : List (Bucket T) := List.replicate n (Bucket.mk0 T)

/-- The data members of `Deque<T>`. -/
structure Deque (T : Type) where
  size_ : Nat
  begin_bucket_ : Nat
  begin_index_ : Nat
  bucket_quantity_ : Nat
  buckets_ : List (Bucket T)
deriving DecidableEq, Repr

/-- The default constructor `Deque()`. -/
def Deque.mk0 (T : Type) : Deque T :=
  { size_ := 0, begin_bucket_ := 1, begin_index_ := 0, bucket_quantity_ := 2,
    buckets_ := newBuckets T 2 }

/-- The member `size()`. -/
def Deque.size {T : Type} (d : Deque T) : Nat := d.size_

/-- The member `bucket_index`. -/
def bucket_index (position : Nat) : Nat := position / Bucket.size

/-- The member `in_bucket_index`. -/
def in_bucket_index (position : Nat) : Nat := position % Bucket.size

/-- Reading the slot `buckets[i].elements_[j]` (`none` outside the storage). -/
def slot {T : Type} (buckets : List (Bucket T)) (i j : Nat) : Option (Option T) :=
  match buckets[i]? with
  | none => none
  | some b => b.elements_[j]?

/-- Writing the slot `buckets[i].elements_[j]` (`none` outside the storage). -/
def setSlot {T : Type} (buckets : List (Bucket T)) (i j : Nat) (x : Option T) :
    Option (List (Bucket T)) :=
  match buckets[i]? with
  | none => none
  | some b =>
    if j < b.elements_.length then some (buckets.set i ⟨b.elements_.set j x⟩) else none

/-- Placement construction `new (buckets[i].elements_ + j) T(value)`. -/
def construct {T : Type} (buckets : List (Bucket T)) (i j : Nat) (value : T) :
    Option (List (Bucket T)) :=
  setSlot buckets i j (some value)

/-- The destructor call `(buckets[i].elements_ + j)->~T()`: the slot must hold an
object. -/
def destroy {T : Type} (buckets : List (Bucket T)) (i j : Nat) : Option (List (Bucket T)) :=
  match slot buckets i j with
  | some (some _) => setSlot buckets i j none
  | _ => none

/-- The member `get_rbegin`. -/
def Deque.get_rbegin {T : Type} (d : Deque T) : Nat × Nat :=
  if d.size_ = 0 then (d.begin_bucket_ - 1, Bucket.size - 1)
  else
    let index1 := d.begin_index_ + d.size_ - 1
    let index2 := d.begin_bucket_ + index1 / Bucket.size
    (index2, index1 % Bucket.size)

/-- The member `get_end`. -/
def Deque.get_end {T : Type} (d : Deque T) : Nat × Nat :=
  let index1 := d.begin_index_ + d.size_
  let index2 := d.begin_bucket_ + index1 / Bucket.size
  (index2, index1 % Bucket.size)

/-- The loop `for (i = first; i <= last_bucket; ++i) new_buckets[i + shift] = buckets_[i]`
of `push_back` (`shift = 0`) and `push_front` (`shift = bucket_quantity_`), with `n` the
number of iterations left. -/
def copyBuckets {T : Type} (buckets : List (Bucket T)) (shift : Nat) :
    Nat → Nat → List (Bucket T) → Option (List (Bucket T))
  | 0, _, new_buckets => some new_buckets
  | n + 1, i, new_buckets =>
    match buckets[i]? with
    | none => none
    | some b =>
      if i + shift < new_buckets.length then
        copyBuckets buckets shift n (i + 1) (new_buckets.set (i + shift) b)
      else none

/-- The member `push_back`. -/
def Deque.push_back {T : Type} (d : Deque T) (value : T) : Option (Deque T) :=
  let pos0 := d.get_rbegin
  let pos1 : Nat × Nat := (pos0.1, pos0.2 + 1)
  let pos : Nat × Nat := if pos1.2 = Bucket.size then (pos1.1 + 1, pos1.2 - Bucket.size) else pos1
  if pos.1 = d.bucket_quantity_ - 1 ∧ pos.2 = Bucket.size - 1 then
    let new_buckets := newBuckets T (d.bucket_quantity_ <<< 1)
    let last_bucket := d.get_rbegin.1
    match copyBuckets d.buckets_ 0 (last_bucket + 1 - d.begin_bucket_) d.begin_bucket_
        new_buckets with
    | none => none
    | some nb =>
      match construct nb pos.1 pos.2 value with
      | none => none
      | some nb2 =>
        some { d with buckets_ := nb2, bucket_quantity_ := d.bucket_quantity_ <<< 1,
                      size_ := d.size_ + 1 }
  else
    match construct d.buckets_ pos.1 pos.2 value with
    | none => none
    | some nb => some { d with buckets_ := nb, size_ := d.size_ + 1 }

/-- The member `push_front`. -/
def Deque.push_front {T : Type} (d : Deque T) (value : T) : Option (Deque T) :=
  if d.begin_bucket_ = 1 ∧ d.begin_index_ = 0 then
    let new_buckets := newBuckets T (d.bucket_quantity_ <<< 1)
    let last_bucket := d.get_rbegin.1
    match copyBuckets d.buckets_ d.bucket_quantity_ (last_bucket + 1 - d.begin_bucket_)
        d.begin_bucket_ new_buckets with
    | none => none
    | some nb =>
      match construct nb d.bucket_quantity_ (Bucket.size - 1) value with
      | none => none
      | some nb2 =>
        some { buckets_ := nb2, begin_bucket_ := d.bucket_quantity_,
               begin_index_ := Bucket.size - 1,
               bucket_quantity_ := d.bucket_quantity_ <<< 1, size_ := d.size_ + 1 }
  else
    let d1 : Deque T :=
      if d.begin_index_ > 0 then { d with begin_index_ := d.begin_index_ - 1 }
      else { d with begin_bucket_ := d.begin_bucket_ - 1, begin_index_ := Bucket.size - 1 }
    match construct d1.buckets_ d1.begin_bucket_ d1.begin_index_ value with
    | none => none
    | some nb => some { d1 with buckets_ := nb, size_ := d1.size_ + 1 }

/-- The member `pop_back`. -/
def Deque.pop_back {T : Type} (d : Deque T) : Option (Deque T) :=
  let pos := d.get_rbegin
  match destroy d.buckets_ pos.1 pos.2 with
  | none => none
  | some nb =>
    let d1 : Deque T := { d with buckets_ := nb, size_ := d.size_ - 1 }
    if d1.size_ = 0 then
      some { d1 with begin_index_ := 0, begin_bucket_ := d1.bucket_quantity_ >>> 1 }
    else some d1

/-- The member `pop_front`. -/
def Deque.pop_front {T : Type} (d : Deque T) : Option (Deque T) :=
  match destroy d.buckets_ d.begin_bucket_ d.begin_index_ with
  | none => none
  | some nb =>
    let d1 : Deque T := { d with buckets_ := nb, begin_index_ := d.begin_index_ + 1 }
    let d2 : Deque T :=
      if d1.begin_index_ = Bucket.size then
        { d1 with begin_index_ := 0, begin_bucket_ := d1.begin_bucket_ + 1 }
      else d1
    let d3 : Deque T := { d2 with size_ := d2.size_ - 1 }
    if d3.size_ = 0 then
      some { d3 with begin_index_ := 0, begin_bucket_ := d3.bucket_quantity_ >>> 1 }
    else some d3

/-- The member `operator[]`: the object in the addressed slot (`none` when the slot is
outside the storage or holds no object). -/
def Deque.index {T : Type} (d : Deque T) (position : Nat) : Option T :=
  let position := position + (d.begin_bucket_ * Bucket.size + d.begin_index_)
  (slot d.buckets_ (bucket_index position) (in_bucket_index position)).join

/-- One call on the deque. -/
def Deque.apply {T : Type} (d : Deque T) : Op T → Option (Deque T)
  | .push_back v => d.push_back v
  | .push_front v => d.push_front v
  | .pop_back => d.pop_back
  | .pop_front => d.pop_front

/-- A sequence of calls on the deque, left to right. -/
def Deque.run {T : Type} (d : Deque T) : List (Op T) → Option (Deque T)
  | [] => some d
  | op :: ops =>
    match d.apply op with
    | none => none
    | some d1 => d1.run ops

/-- Every bucket of the array owns `Bucket::size` slots. -/
def WF {T : Type} (bs : List (Bucket T)) : Prop :=
  ∀ (i : Nat) (b : Bucket T), bs[i]? = some b → b.elements_.length = Bucket.size

/-- The slot at the bucket-major position `p` of the bucket array. -/
def cell {T : Type} (bs : List (Bucket T)) (p : Nat) : Option (Option T) :=
  slot bs (bucket_index p) (in_bucket_index p)

/-- Bucket-major position of the first live element. -/
def Deque.first {T : Type} (d : Deque T) : Nat :=
  d.begin_bucket_ * Bucket.size + d.begin_index_

/-- The position `pos` that `push_back` computes before its capacity test. -/
def Deque.backSlot {T : Type} (d : Deque T) : Nat × Nat :=
  let pos0 := d.get_rbegin
  let pos1 : Nat × Nat := (pos0.1, pos0.2 + 1)
  if pos1.2 = Bucket.size then (pos1.1 + 1, pos1.2 - Bucket.size) else pos1

/-- The deque `d` is well formed and holds exactly the elements of `l`, in order. -/
def Repr {T : Type} (d : Deque T) (l : List T) : Prop :=
  d.buckets_.length = d.bucket_quantity_ ∧ WF d.buckets_ ∧ 2 ≤ d.bucket_quantity_ ∧
  1 ≤ d.begin_bucket_ ∧ d.begin_index_ < Bucket.size ∧
  d.first + d.size_ + 1 ≤ Bucket.size * d.bucket_quantity_ ∧
  (d.size_ = 0 → d.begin_index_ = 0) ∧ d.size_ = l.length ∧
  ∀ i, i < l.length → cell d.buckets_ (d.first + i) = some l[i]?

end DequeH

namespace ListH

open SeqRef

/-! ## stackallocator.h / unordered_map.h : the doubly linked `List`

Both headers carry the same node-level code for `begin`, `end`, `emplace`, `erase`,
`insert`, `push_*` and `pop_*`; the definitions below embed it once. Pointers are
addresses (natural numbers) into a heap of nodes. -/

/-- A `BaseNode` (`value = none`, as the sentinel `end_`) or a `Node` (`value = some v`). -/
structure Node (T : Type) where
  next : Nat
  previous : Nat
  value : Option T

/-- The memory the list's pointers range over: `none` is an address holding no node. -/
abbrev Heap (T : Type) := Nat → Option (Node T)

/-- Storing a whole node at address `p` (or releasing the address, with `none`). -/
def Heap.store {T : Type} (h : Heap T) (p : Nat) (c : Option (Node T)) : Heap T :=
  fun q => if q = p then c else h q

/-- Reading `p->next`. -/
def nextOf {T : Type} (h : Heap T) (p : Nat) : Option Nat := (h p).map Node.next

/-- Reading `p->previous`. -/
def prevOf {T : Type} (h : Heap T) (p : Nat) : Option Nat := (h p).map Node.previous

/-- Reading `static_cast<Node*>(p)->value`; `none` when `p` holds no `Node`. -/
def valueOf {T : Type} (h : Heap T) (p : Nat) : Option T := (h p).bind Node.value

/-- The assignment `p->next = v`. -/
def setNext {T : Type} (h : Heap T) (p v : Nat) : Option (Heap T) :=
  match h p with
  | none => none
  | some c => some (h.store p (some { c with next := v }))

/-- The assignment `p->previous = v`. -/
def setPrevious {T : Type} (h : Heap T) (p v : Nat) : Option (Heap T) :=
  match h p with
  | none => none
  | some c => some (h.store p (some { c with previous := v }))

/-- The data members of `List<T, Allocator>`. The member `end_` lives at the address
`end_` of the heap; `node_allocator_` is the allocator state, the next address it hands
out (an address is never handed out twice). -/
structure LinkedList (T : Type) where
  heap : Heap T
  node_allocator_ : Nat
  end_ : Nat
  size_ : Nat

/-- The default constructor `List()`: `end_` is linked to itself, `size_ = 0`. -/
def LinkedList.mk0 (T : Type) : LinkedList T :=
  { heap := Heap.store (fun _ => none) 0 (some ⟨0, 0, none⟩),
    node_allocator_ := 1, end_ := 0, size_ := 0 }

/-- The member `size()`. -/
def LinkedList.size {T : Type} (l : LinkedList T) : Nat := l.size_

/-- The member `begin()`: `iterator(end_.next)`. -/
def LinkedList.begin {T : Type} (l : LinkedList T) : Option Nat := nextOf l.heap l.end_

/-- The member `end()`: `iterator(&end_)`. -/
def LinkedList.end {T : Type} (l : LinkedList T) : Nat := l.end_

/-- The member `emplace(iter, args...)`, the payload constructed from `args` being
`value`. -/
def LinkedList.emplace {T : Type} (l : LinkedList T) (iter : Nat) (value : T) :
    Option (LinkedList T) :=
  -- Node* new_node = allocate(node_allocator_, 1); construct(node_allocator_, new_node, args...)
  let new_node := l.node_allocator_
  let h0 := l.heap.store new_node (some ⟨new_node, new_node, some value⟩)
  -- new_node->previous = iter.node_->previous
  match prevOf h0 iter with
  | none => none
  | some ip =>
  match setPrevious h0 new_node ip with
  | none => none
  | some h1 =>
  -- new_node->previous->next = new_node
  match prevOf h1 new_node with
  | none => none
  | some np =>
  match setNext h1 np new_node with
  | none => none
  | some h2 =>
  -- new_node->next = iter.node_
  match setNext h2 new_node iter with
  | none => none
  | some h3 =>
  -- iter.node_->previous = new_node
  match setPrevious h3 iter new_node with
  | none => none
  | some h4 =>
  -- ++size_
  some { l with heap := h4, node_allocator_ := new_node + 1, size_ := l.size_ + 1 }

/-- The member `insert(iter, value)`. -/
def LinkedList.insert {T : Type} (l : LinkedList T) (iter : Nat) (value : T) :
    Option (LinkedList T) :=
  l.emplace iter value

/-- The member `erase(iter)`. -/
def LinkedList.erase {T : Type} (l : LinkedList T) (iter : Nat) : Option (LinkedList T) :=
  -- iter.node_->previous->next = iter.node_->next
  match prevOf l.heap iter, nextOf l.heap iter with
  | some ip, some inx =>
    match setNext l.heap ip inx with
    | none => none
    | some h1 =>
    -- iter.node_->next->previous = iter.node_->previous
    match nextOf h1 iter, prevOf h1 iter with
    | some inx2, some ip2 =>
      match setPrevious h1 inx2 ip2 with
      | none => none
      | some h2 =>
      -- destroy(static_cast<Node*>(iter.node_)); deallocate(...)
      match valueOf h2 iter with
      | none => none
      | some _ =>
        -- --size_
        some { l with heap := h2.store iter none, size_ := l.size_ - 1 }
    | _, _ => none
  | _, _ => none

/-- The member `push_front`. -/
def LinkedList.push_front {T : Type} (l : LinkedList T) (value : T) : Option (LinkedList T) :=
  match l.begin with
  | none => none
  | some b => l.insert b value

/-- The member `push_back`. -/
def LinkedList.push_back {T : Type} (l : LinkedList T) (value : T) : Option (LinkedList T) :=
  l.insert l.end value

/-- The member `pop_front`. -/
def LinkedList.pop_front {T : Type} (l : LinkedList T) : Option (LinkedList T) :=
  match l.begin with
  | none => none
  | some b => l.erase b

/-- The member `pop_back`: `rbeg = end(); --rbeg; erase(rbeg)`. -/
def LinkedList.pop_back {T : Type} (l : LinkedList T) : Option (LinkedList T) :=
  match prevOf l.heap l.end with
  | none => none
  | some rbeg => l.erase rbeg

/-- The loop `for (; it != end(); ++it) out.push_back(*it)`, at most `fuel` elements. -/
def LinkedList.walk {T : Type} (l : LinkedList T) : Nat → Nat → Option (List T)
  | 0, it => if it = l.end then some [] else none
  | fuel + 1, it =>
    if it = l.end then some []
    else
      match valueOf l.heap it, nextOf l.heap it with
      | some v, some n =>
        match l.walk fuel n with
        | none => none
        | some rest => some (v :: rest)
      | _, _ => none

/-- Traversal from `begin()` to `end()`: the elements met, in order. -/
def LinkedList.toList {T : Type} (l : LinkedList T) (fuel : Nat) : Option (List T) :=
  match l.begin with
  | none => none
  | some b => l.walk fuel b

/-- One call on the list. -/
def LinkedList.apply {T : Type} (l : LinkedList T) : Op T → Option (LinkedList T)
  | .push_back v => l.push_back v
  | .push_front v => l.push_front v
  | .pop_back => l.pop_back
  | .pop_front => l.pop_front

/-- A sequence of calls on the list, left to right. -/
def LinkedList.run {T : Type} (l : LinkedList T) : List (Op T) → Option (LinkedList T)
  | [] => some l
  | op :: ops =>
    match l.apply op with
    | none => none
    | some l1 => l1.run ops

/-! ### Representation invariant of the list -/

/-- Following the link `f` (`next` or `previous`) along `L` visits the addresses of `L`
in order and then reaches `e`. -/
def Chain (f : Nat → Option Nat) (e : Nat) : List Nat → Prop
  | [] => True
  | x :: rest => f x = some (rest.headD e) ∧ Chain f e rest

/-- The addresses of the nodes, in list order. -/
def addrs {T : Type} (nodes : List (Nat × T)) : List Nat := nodes.map Prod.fst

/-- The list `l` is the closed ring `end_, nodes..., end_`, linked in both directions:
`nodes` gives the address and the payload of every element, in order. -/
def ListRepr {T : Type} (l : LinkedList T) (nodes : List (Nat × T)) : Prop :=
  Chain (nextOf l.heap) l.end_ (l.end_ :: addrs nodes) ∧
  Chain (prevOf l.heap) l.end_ (l.end_ :: (addrs nodes).reverse) ∧
  (l.end_ :: addrs nodes).Nodup ∧
  l.end_ < l.node_allocator_ ∧
  (∀ a ∈ addrs nodes, a < l.node_allocator_) ∧
  valueOf l.heap l.end_ = none ∧
  (∀ x ∈ nodes, valueOf l.heap x.1 = some x.2) ∧
  l.size_ = nodes.length

end ListH
namespace SmartPointersH

/-! ## smart_pointers.h : `SharedPtr`, `WeakPtr` and their control blocks

Control blocks live in a heap addressed by natural numbers; `SharedPtr` and `WeakPtr`
objects are numbered in the order of their construction. The two fields `deleted` and
`released` of a block are ghost counters: they record how often `delete_object()` and
`~BaseControlBlock()` (which deallocates the block) were invoked on it. The increment
`++` of a counter is exact (there are fewer than `2^64` handles); the decrement `--` is
the `size_t` one. -/

/-- The two concrete control blocks: `ControlBlock<U, Deleter, Alloc>` adopting the
pointer `ptr`, and `SpecificControlBlock<Alloc>` holding the object in its member
`object`. -/
inductive BlockKind where
  | adopting (ptr : Nat)
  | inplace
deriving DecidableEq, Repr

/-- The value of a `T*` handed out by `get()`: the adopted raw pointer, or the address of
the member `object` of the control block at address `block`. -/
inductive Ptr where
  | raw (p : Nat)
  | object_of (block : Nat)
deriving DecidableEq, Repr

/-- The struct `BaseControlBlock` with the two ghost counters. -/
structure BaseControlBlock where
  count_shared : Nat
  count_weak : Nat
  kind : BlockKind
  deleted : Nat
  released : Nat
deriving DecidableEq, Repr

/-- The virtual member `get_ptr()` of the block at address `b`. -/
def BaseControlBlock.get_ptr (blk : BaseControlBlock) (b : Nat) : Ptr :=
  match blk.kind with
  | .adopting p => .raw p
  | .inplace => .object_of b

/-- The data member of `SharedPtr<T>`: `block_`, with `none` for `nullptr`. -/
structure SharedPtr where
  block_ : Option Nat
deriving DecidableEq, Repr

/-- The data member of `WeakPtr<T>`: `block_`, with `none` for `nullptr`. -/
structure WeakPtr where
  block_ : Option Nat
deriving DecidableEq, Repr

/-- The program state: the heap of control blocks, the next address the allocator hands
out, and the `SharedPtr` and `WeakPtr` objects constructed so far (`none` is an object
whose lifetime has ended). -/
structure World where
  blocks : Nat → BaseControlBlock
  next_block : Nat
  shared : List (Option SharedPtr)
  weak : List (Option WeakPtr)

/-- Memory that holds no control block. -/
def noBlock : BaseControlBlock :=
  { count_shared := 0, count_weak := 0, kind := .inplace, deleted := 0, released := 0 }

/-- The state before any object is constructed. -/
def World.init : World :=
  { blocks := fun _ => noBlock, next_block := 0, shared := [], weak := [] }

/-- The `size_t` decrement `--n`. -/
def dec (n : Nat) : Nat := if n = 0 then 2 ^ 64 - 1 else n - 1

/-- Updating the control block at address `b`. -/
def World.modify (w : World) (b : Nat) (f : BaseControlBlock → BaseControlBlock) : World :=
  { w with blocks := fun x => if x = b then f (w.blocks x) else w.blocks x }

/-- The member `block_` of the live `SharedPtr` number `i` (`none`: no such object). -/
def World.sharedBlock (w : World) (i : Nat) : Option (Option Nat) :=
  match w.shared[i]? with
  | some (some s) => some s.block_
  | _ => none

/-- The member `block_` of the live `WeakPtr` number `i` (`none`: no such object). -/
def World.weakBlock (w : World) (i : Nat) : Option (Option Nat) :=
  match w.weak[i]? with
  | some (some s) => some s.block_
  | _ => none

/-- The assignment `block_ = b` in `SharedPtr` number `i`. -/
def World.setShared (w : World) (i : Nat) (b : Option Nat) : World :=
  { w with shared := w.shared.set i (some ⟨b⟩) }

/-- The assignment `block_ = b` in `WeakPtr` number `i`. -/
def World.setWeak (w : World) (i : Nat) (b : Option Nat) : World :=
  { w with weak := w.weak.set i (some ⟨b⟩) }

/-- The statement `++block_->count_shared`. -/
def World.incShared (w : World) (b : Nat) : World :=
  w.modify b (fun blk => { blk with count_shared := blk.count_shared + 1 })

/-- The statement `++block_->count_weak`. -/
def World.incWeak (w : World) (b : Nat) : World :=
  w.modify b (fun blk => { blk with count_weak := blk.count_weak + 1 })

/-- The call `block_->delete_object()` on a block whose managed object owns no handle:
the invocation of the deleter or destructor is counted. The destructor of a managed
object that has `SharedPtr` or `WeakPtr` data members also destroys these; that case is
`Owning.delete_object`. -/
def World.delete_object (w : World) (b : Nat) : World :=
  w.modify b (fun blk => { blk with deleted := blk.deleted + 1 })

/-- The call `block_->~BaseControlBlock()`, which deallocates the block. -/
def World.release (w : World) (b : Nat) : World :=
  w.modify b (fun blk => { blk with released := blk.released + 1 })

/-- Allocating and constructing a control block of the given kind: both counts are zero
(the default member initialisers). Returns the address with the new state. -/
def World.newBlock (w : World) (kind : BlockKind) : Nat × World :=
  (w.next_block,
   { w with
     blocks := fun x => if x = w.next_block then
       { count_shared := 0, count_weak := 0, kind := kind, deleted := 0, released := 0 }
       else w.blocks x,
     next_block := w.next_block + 1 })

/-! ### SharedPtr -/

/-- The member `SharedPtr::delete_block` of object `self`. -/
def SharedPtr.delete_block (w : World) (self : Nat) : Option World :=
  match w.sharedBlock self with
  | none => none
  | some none => some w
  | some (some b) =>
    let w1 := w.modify b (fun blk => { blk with count_shared := dec blk.count_shared })
    let w2 :=
      if (w1.blocks b).count_shared = 0 then
        let w3 := w1.delete_object b
        if (w3.blocks b).count_weak = 0 then w3.release b else w3
      else w1
    some (w2.setShared self none)

/-- The constructor `SharedPtr() = default`: a new object with `block_ = nullptr`. -/
def SharedPtr.ctor_default (w : World) : World :=
  { w with shared := w.shared ++ [some ⟨none⟩] }

/-- The private constructor `SharedPtr(BaseControlBlock* block)`. -/
def SharedPtr.ctor_block (w : World) (block : Option Nat) : World :=
  let w1 : World := { w with shared := w.shared ++ [some ⟨block⟩] }
  match block with
  | none => w1
  | some b => w1.incShared b

/-- The constructors `SharedPtr(U* ptr)`, `SharedPtr(U* ptr, const Deleter&)` and
`SharedPtr(U* ptr, const Deleter&, const Alloc&)`: a new `ControlBlock` adopting `ptr`,
then `++block_->count_shared`. -/
def SharedPtr.ctor_raw (w : World) (ptr : Nat) : World :=
  let (b, w1) := w.newBlock (.adopting ptr)
  let w2 : World := { w1 with shared := w1.shared ++ [some ⟨some b⟩] }
  w2.incShared b

/-- The function `makeShared`: a new `SpecificControlBlock` holding the object, then
`++result.block_->count_shared`. -/
def makeShared (w : World) : World :=
  let (b, w1) := w.newBlock .inplace
  let w2 : World := { w1 with shared := w1.shared ++ [some ⟨some b⟩] }
  w2.incShared b

/-- The function `allocateShared`: as `makeShared`, the block coming from the given
allocator; the test `result.block_ != nullptr` holds for the block just allocated. -/
def allocateShared (w : World) : World :=
  let (b, w1) := w.newBlock .inplace
  let w2 : World := { w1 with shared := w1.shared ++ [some ⟨some b⟩] }
  match (some b : Option Nat) with
  | none => w2
  | some b' => w2.incShared b'

/-- The copy constructors `SharedPtr(const SharedPtr&)` and
`SharedPtr(const SharedPtr<U>&)`, from object `other`. -/
def SharedPtr.ctor_copy (w : World) (other : Nat) : Option World :=
  match w.sharedBlock other with
  | none => none
  | some ob =>
    let w1 : World := { w with shared := w.shared ++ [some ⟨ob⟩] }
    match ob with
    | none => some w1
    | some b => some (w1.incShared b)

/-- The move constructors `SharedPtr(SharedPtr&&)` and `SharedPtr(SharedPtr<U>&&)`. -/
def SharedPtr.ctor_move (w : World) (other : Nat) : Option World :=
  match w.sharedBlock other with
  | none => none
  | some ob =>
    let w1 : World := { w with shared := w.shared ++ [some ⟨ob⟩] }
    some (w1.setShared other none)

/-- The copy assignments `operator=(const SharedPtr&)` and
`operator=(const SharedPtr<U>&)`. -/
def SharedPtr.assign_copy (w : World) (self other : Nat) : Option World :=
  match SharedPtr.delete_block w self with
  | none => none
  | some w1 =>
    match w1.sharedBlock other with
    | none => none
    | some ob =>
      let w2 := w1.setShared self ob
      match ob with
      | none => some w2
      | some b => some (w2.incShared b)

/-- The move assignments `operator=(SharedPtr&&)` and `operator=(SharedPtr<U>&&)`. -/
def SharedPtr.assign_move (w : World) (self other : Nat) : Option World :=
  match SharedPtr.delete_block w self with
  | none => none
  | some w1 =>
    match w1.sharedBlock other with
    | none => none
    | some ob =>
      let w2 := w1.setShared self ob
      some (w2.setShared other none)

/-- The member `reset()`. -/
def SharedPtr.reset (w : World) (self : Nat) : Option World :=
  SharedPtr.delete_block w self

/-- The member `reset(U* ptr)`. -/
def SharedPtr.reset_raw (w : World) (self : Nat) (ptr : Nat) : Option World :=
  match SharedPtr.delete_block w self with
  | none => none
  | some w1 =>
    let (b, w2) := w1.newBlock (.adopting ptr)
    some ((w2.setShared self (some b)).incShared b)

/-- The destructor `~SharedPtr()`: `delete_block()`, then the object is gone. -/
def SharedPtr.dtor (w : World) (self : Nat) : Option World :=
  match SharedPtr.delete_block w self with
  | none => none
  | some w1 => some { w1 with shared := w1.shared.set self none }

/-- The member `swap`. -/
def SharedPtr.swap (w : World) (self other : Nat) : Option World :=
  match w.sharedBlock self, w.sharedBlock other with
  | some sb, some ob => some ((w.setShared self ob).setShared other sb)
  | _, _ => none

/-- The member `get()`: the outer `none` is a call on no object, the inner one is
`nullptr`. -/
def SharedPtr.get (w : World) (self : Nat) : Option (Option Ptr) :=
  match w.sharedBlock self with
  | none => none
  | some none => some none
  | some (some b) => some (some ((w.blocks b).get_ptr b))

/-- The member `use_count()`: `block_->count_shared` (`none` when `block_` is null). -/
def SharedPtr.use_count (w : World) (self : Nat) : Option Nat :=
  match w.sharedBlock self with
  | some (some b) => some (w.blocks b).count_shared
  | _ => none

/-! ### WeakPtr -/

/-- The member `WeakPtr::delete_block` of object `self`. -/
def WeakPtr.delete_block (w : World) (self : Nat) : Option World :=
  match w.weakBlock self with
  | none => none
  | some none => some w
  | some (some b) =>
    let w1 := w.modify b (fun blk => { blk with count_weak := dec blk.count_weak })
    let w2 :=
      if (w1.blocks b).count_shared = 0 ∧ (w1.blocks b).count_weak = 0 then w1.release b
      else w1
    some (w2.setWeak self none)

/-- The constructor `WeakPtr() = default`. -/
def WeakPtr.ctor_default (w : World) : World :=
  { w with weak := w.weak ++ [some ⟨none⟩] }

/-- The constructor `WeakPtr(const SharedPtr<U>&)`. -/
def WeakPtr.ctor_shared (w : World) (ptr : Nat) : Option World :=
  match w.sharedBlock ptr with
  | none => none
  | some ob =>
    let w1 : World := { w with weak := w.weak ++ [some ⟨ob⟩] }
    match ob with
    | none => some w1
    | some b => some (w1.incWeak b)

/-- The copy constructors `WeakPtr(const WeakPtr&)` and `WeakPtr(const WeakPtr<U>&)`. -/
def WeakPtr.ctor_copy (w : World) (ptr : Nat) : Option World :=
  match w.weakBlock ptr with
  | none => none
  | some ob =>
    let w1 : World := { w with weak := w.weak ++ [some ⟨ob⟩] }
    match ob with
    | none => some w1
    | some b => some (w1.incWeak b)

/-- The move constructors `WeakPtr(WeakPtr&&)` and `WeakPtr(WeakPtr<U>&&)`:
`delete_block()` on the new object (whose `block_` is the default `nullptr`), then the
transfer. -/
def WeakPtr.ctor_move (w : World) (ptr : Nat) : Option World :=
  let self := w.weak.length
  let w0 : World := { w with weak := w.weak ++ [some ⟨none⟩] }
  match WeakPtr.delete_block w0 self with
  | none => none
  | some w1 =>
    match w1.weakBlock ptr with
    | none => none
    | some ob => some ((w1.setWeak self ob).setWeak ptr none)

/-- The copy assignments `operator=(const WeakPtr&)` and `operator=(const WeakPtr<U>&)`. -/
def WeakPtr.assign_copy (w : World) (self other : Nat) : Option World :=
  match WeakPtr.delete_block w self with
  | none => none
  | some w1 =>
    match w1.weakBlock other with
    | none => none
    | some ob =>
      let w2 := w1.setWeak self ob
      match ob with
      | none => some w2
      | some b => some (w2.incWeak b)

/-- The move assignments `operator=(WeakPtr&&)` and `operator=(WeakPtr<U>&&)`. -/
def WeakPtr.assign_move (w : World) (self other : Nat) : Option World :=
  match WeakPtr.delete_block w self with
  | none => none
  | some w1 =>
    match w1.weakBlock other with
    | none => none
    | some ob => some ((w1.setWeak self ob).setWeak other none)

/-- The destructor `~WeakPtr()`. -/
def WeakPtr.dtor (w : World) (self : Nat) : Option World :=
  match WeakPtr.delete_block w self with
  | none => none
  | some w1 => some { w1 with weak := w1.weak.set self none }

/-- The member `expired()`. -/
def WeakPtr.expired (w : World) (self : Nat) : Option Bool :=
  match w.weakBlock self with
  | none => none
  | some none => some true
  | some (some b) => some (decide ((w.blocks b).count_shared = 0))

/-- The member `lock()`: `return SharedPtr<T>(block_)`; the result is the new
`SharedPtr` object, numbered `w.shared.length`. -/
def WeakPtr.lock (w : World) (self : Nat) : Option World :=
  match w.weakBlock self with
  | none => none
  | some ob => some (SharedPtr.ctor_block w ob)

/-- The member `WeakPtr::use_count()`. -/
def WeakPtr.use_count (w : World) (self : Nat) : Option Nat :=
  match w.weakBlock self with
  | some (some b) => some (w.blocks b).count_shared
  | _ => none

/-! ### Sequences of operations -/

/-- The state-changing operations of the two classes. Objects are named by their
construction number. -/
inductive Op where
  | sp_default
  | sp_raw (ptr : Nat)
  | sp_make
  | sp_allocate
  | sp_copy (other : Nat)
  | sp_move (other : Nat)
  | sp_assign_copy (self other : Nat)
  | sp_assign_move (self other : Nat)
  | sp_reset (self : Nat)
  | sp_reset_raw (self ptr : Nat)
  | sp_swap (self other : Nat)
  | sp_dtor (self : Nat)
  | wp_default
  | wp_shared (ptr : Nat)
  | wp_copy (ptr : Nat)
  | wp_move (ptr : Nat)
  | wp_assign_copy (self other : Nat)
  | wp_assign_move (self other : Nat)
  | wp_dtor (self : Nat)
  | wp_lock (self : Nat)
deriving DecidableEq, Repr

/-- One operation; `none` when it names an object that is not alive. -/
def step (w : World) : Op → Option World
  | .sp_default => some (SharedPtr.ctor_default w)
  | .sp_raw p => some (SharedPtr.ctor_raw w p)
  | .sp_make => some (makeShared w)
  | .sp_allocate => some (allocateShared w)
  | .sp_copy o => SharedPtr.ctor_copy w o
  | .sp_move o => SharedPtr.ctor_move w o
  | .sp_assign_copy s o => SharedPtr.assign_copy w s o
  | .sp_assign_move s o => SharedPtr.assign_move w s o
  | .sp_reset s => SharedPtr.reset w s
  | .sp_reset_raw s p => SharedPtr.reset_raw w s p
  | .sp_swap s o => SharedPtr.swap w s o
  | .sp_dtor s => SharedPtr.dtor w s
  | .wp_default => some (WeakPtr.ctor_default w)
  | .wp_shared p => WeakPtr.ctor_shared w p
  | .wp_copy p => WeakPtr.ctor_copy w p
  | .wp_move p => WeakPtr.ctor_move w p
  | .wp_assign_copy s o => WeakPtr.assign_copy w s o
  | .wp_assign_move s o => WeakPtr.assign_move w s o
  | .wp_dtor s => WeakPtr.dtor w s
  | .wp_lock s => WeakPtr.lock w s

/-- A sequence of operations, left to right. -/
def run (w : World) : List Op → Option World
  | [] => some w
  | op :: ops =>
    match step w op with
    | none => none
    | some w1 => run w1 ops

/-- The state a sequence of operations leads to from the initial state (the initial
state itself when the sequence names an object that is not alive). -/
def stateAfter (ops : List Op) : World := (run World.init ops).getD World.init

/-- Number of entries of a list equal to `x`. -/
def occ {α : Type} [DecidableEq α] (x : α) : List α → Nat
  | [] => 0
  | y :: rest => (if y = x then 1 else 0) + occ x rest

/-- Number of live `SharedPtr` objects whose `block_` is `b`. -/
def World.sharedOn (w : World) (b : Nat) : Nat := occ (some ⟨some b⟩) w.shared

/-- Number of live `WeakPtr` objects whose `block_` is `b`. -/
def World.weakOn (w : World) (b : Nat) : Nat := occ (some ⟨some b⟩) w.weak

/-- The counts of every block are the numbers of live handles on it, a block is released
at most once, and it is released exactly when it is allocated and both counts are zero;
memory not yet allocated carries no counts. -/
def Inv (w : World) : Prop :=
  ∀ b, (w.blocks b).count_shared = w.sharedOn b ∧ (w.blocks b).count_weak = w.weakOn b ∧
    (w.blocks b).released ≤ 1 ∧
    ((w.blocks b).released = 1 ↔
      (b < w.next_block ∧ (w.blocks b).count_shared = 0 ∧ (w.blocks b).count_weak = 0)) ∧
    (w.next_block ≤ b → (w.blocks b).count_shared = 0 ∧ (w.blocks b).count_weak = 0)

/-- The state `w'` is well counted, and relative to `w` no block address is reused and no
release is undone. -/
def Advances (w w' : World) : Prop :=
  Inv w' ∧ w.next_block ≤ w'.next_block ∧
    ∀ b, (w.blocks b).released ≤ (w'.blocks b).released

end SmartPointersH
namespace UnorderedMapH

open ListH

/-! ## unordered_map.h : `UnorderedMap`

The map keeps its entries in a `List<HashedNode>` (`storage_`) and an index array
`bucket_iterators_` of list positions. A list position is the address of a list node.
The loops of `find` and `emplace` are bounded by a fuel argument; running out of fuel is
`none`, as is undefined behaviour. -/

/-- The struct `HashedNode`: the pair `node` and its precomputed `hash`. -/
structure HashedNode (K V : Type) where
  node : K × V
  hash : Nat

/-- The member `max_load_factor_` through the two floating-point computations of
`emplace` that read it: `exceeds size buckets` is `load_factor() > max_load_factor_` and
`target size` is `size_t(2 * (storage_.size() / max_load_factor_ + 2))`. -/
structure LoadPolicy where
  exceeds : Nat → Nat → Bool
  target : Nat → Nat

/-- The policy of the default `max_load_factor_ = 0.5`, in exact arithmetic (the `float`
computations are exact for sizes below `2^22`). -/
def LoadPolicy.half : LoadPolicy :=
  { exceeds := fun size buckets => decide (buckets < 2 * size),
    target := fun size => 2 * (2 * size + 2) }

/-- The data members of `UnorderedMap`; `hasher_` and `equaler_` are the function objects
of the `Hash` and `Equal` template arguments. -/
structure UnorderedMap (K V : Type) where
  buckets_count_ : Nat
  hasher_ : K → Nat
  equaler_ : K → K → Bool
  storage_ : LinkedList (HashedNode K V)
  bucket_iterators_ : List Nat
  max_load_factor_ : LoadPolicy

section
variable {K V : Type}

/-- The default constructor `UnorderedMap()`. -/
def UnorderedMap.mk0 (hasher : K → Nat) (equaler : K → K → Bool) (policy : LoadPolicy) :
    UnorderedMap K V :=
  { buckets_count_ := 2, hasher_ := hasher, equaler_ := equaler,
    storage_ := LinkedList.mk0 (HashedNode K V),
    bucket_iterators_ := List.replicate 2 (LinkedList.mk0 (HashedNode K V)).end,
    max_load_factor_ := policy }

/-- The member `size()`. -/
def UnorderedMap.size (m : UnorderedMap K V) : Nat := m.storage_.size

/-- The member `end()`. -/
def UnorderedMap.end (m : UnorderedMap K V) : Nat := m.storage_.end

/-- The member `get_hash`. -/
def UnorderedMap.get_hash (m : UnorderedMap K V) (hash : Nat) : Nat :=
  hash % m.buckets_count_

/-- The loop `while (iter != storage_.end() && get_hash(iter->hash) == get_hash(myhash))`
of `find` and `emplace` with its body `if (equaler_(iter->node.first, key)) return iter;
++iter;`. The result `some (some it)` is the early return, `some none` the end of the
loop. -/
def UnorderedMap.scan (m : UnorderedMap K V) (key : K) (myhash : Nat) :
    Nat → Nat → Option (Option Nat)
  | 0, _ => none
  | fuel + 1, iter =>
    if iter = m.storage_.end then some none
    else
      match valueOf m.storage_.heap iter with
      | none => none
      | some hn =>
        if m.get_hash hn.hash = m.get_hash myhash then
          if m.equaler_ hn.node.1 key then some (some iter)
          else
            match nextOf m.storage_.heap iter with
            | none => none
            | some n => m.scan key myhash fuel n
        else some none

/-- The member `find(key)`. -/
def UnorderedMap.find (m : UnorderedMap K V) (fuel : Nat) (key : K) : Option Nat :=
  let myhash := m.hasher_ key
  match m.bucket_iterators_[m.get_hash myhash]? with
  | none => none
  | some iter =>
    match m.scan key myhash fuel iter with
    | none => none
    | some (some it) => some it
    | some none => some m.end

/-- The conversion of a `size_t` to `int` (32 bits, two's complement). -/
def toInt (n : Nat) : Int :=
  if n % 2 ^ 32 < 2 ^ 31 then ((n % 2 ^ 32 : Nat) : Int) else ((n % 2 ^ 32 : Nat) : Int) - 2 ^ 32

/-- The body of the loop of `rehash`, `n` times: the first entry of the list is moved in
front of the run of its new bucket, and the index entry of that bucket is stepped back
onto it. -/
def rehashLoop (new_size : Nat) :
    Nat → LinkedList (HashedNode K V) × List Nat →
      Option (LinkedList (HashedNode K V) × List Nat)
  | 0, s => some s
  | n + 1, (storage, new_vector) =>
    -- auto iter = storage_.begin(); size_t new_hash = iter->hash % new_size;
    match storage.begin with
    | none => none
    | some iter =>
    match valueOf storage.heap iter with
    | none => none
    | some hn =>
    let new_hash := hn.hash % new_size
    -- storage_.emplace(new_vector[new_hash], std::move(*iter));
    match new_vector[new_hash]? with
    | none => none
    | some pos =>
    match storage.emplace pos hn with
    | none => none
    | some storage1 =>
    -- --new_vector[new_hash];
    match prevOf storage1.heap pos with
    | none => none
    | some p =>
    -- storage_.erase(iter);
    match storage1.erase iter with
    | none => none
    | some storage2 => rehashLoop new_size n (storage2, new_vector.set new_hash p)

/-- The member `rehash(new_size)`; the loop counter is `int i = storage_.size()`. -/
def UnorderedMap.rehash (m : UnorderedMap K V) (new_size : Nat) : Option (UnorderedMap K V) :=
  if new_size < m.size then some m
  else
    let new_size := max new_size 2
    let new_vector := List.replicate new_size m.storage_.end
    match rehashLoop new_size (toInt m.storage_.size).toNat (m.storage_, new_vector) with
    | none => none
    | some (storage, new_vector) =>
      some { m with storage_ := storage, buckets_count_ := new_size,
                    bucket_iterators_ := new_vector }

/-- The member `reserve`. -/
def UnorderedMap.reserve (m : UnorderedMap K V) (new_size : Nat) : Option (UnorderedMap K V) :=
  m.rehash new_size

/-- The member `emplace(args...)`, the entry constructed from `args` being `(key, value)`:
the new state with the returned pair. -/
def UnorderedMap.emplace (m : UnorderedMap K V) (fuel : Nat) (key : K) (value : V) :
    Option (UnorderedMap K V × Nat × Bool) :=
  -- construct(hnode_allocator_, node, hasher_, args...); current_hash = node->hash
  let node : HashedNode K V := { node := (key, value), hash := m.hasher_ key }
  let current_hash := node.hash
  match m.bucket_iterators_[m.get_hash current_hash]? with
  | none => none
  | some iter =>
    match m.scan node.node.1 current_hash fuel iter with
    | none => none
    | some (some it) => some (m, it, false)
    | some none =>
      -- storage_.emplace(bucket_iterators_[get_hash(current_hash)], *node)
      match m.storage_.emplace iter node with
      | none => none
      | some storage1 =>
      -- --bucket_iterators_[get_hash(current_hash)]
      match prevOf storage1.heap iter with
      | none => none
      | some p =>
      let m1 : UnorderedMap K V :=
        { m with storage_ := storage1,
                 bucket_iterators_ := m.bucket_iterators_.set (m.get_hash current_hash) p }
      -- if (load_factor() > max_load_factor_) rehash(...)
      let m2 : Option (UnorderedMap K V) :=
        if m1.max_load_factor_.exceeds m1.size m1.buckets_count_ then
          m1.rehash (m1.max_load_factor_.target m1.storage_.size)
        else some m1
      match m2 with
      | none => none
      | some m2 =>
        match m2.bucket_iterators_[m2.get_hash current_hash]? with
        | none => none
        | some r => some (m2, r, true)

/-- The members `insert(const NodeType&)` and `insert(NodeType&&)`. -/
def UnorderedMap.insert (m : UnorderedMap K V) (fuel : Nat) (node : K × V) :
    Option (UnorderedMap K V × Nat × Bool) :=
  m.emplace fuel node.1 node.2

/-- The member `erase(iterator)`. -/
def UnorderedMap.erase (m : UnorderedMap K V) (iter : Nat) : Option (UnorderedMap K V) :=
  -- size_t myhash = get_hash(iter.hash())
  match valueOf m.storage_.heap iter with
  | none => none
  | some hn =>
    let myhash := m.get_hash hn.hash
    match m.bucket_iterators_[myhash]? with
    | none => none
    | some head =>
      let bis : Option (List Nat) :=
        if iter = head then
          -- ++bucket_iterators_[myhash]
          match nextOf m.storage_.heap head with
          | none => none
          | some nx =>
            if nx = m.storage_.end then some (m.bucket_iterators_.set myhash nx)
            else
              match valueOf m.storage_.heap nx with
              | none => none
              | some hn2 =>
                if m.get_hash hn2.hash ≠ myhash then
                  some (m.bucket_iterators_.set myhash m.storage_.end)
                else some (m.bucket_iterators_.set myhash nx)
        else some m.bucket_iterators_
      match bis with
      | none => none
      | some bis =>
        -- storage_.erase(iter.iter_)
        match m.storage_.erase iter with
        | none => none
        | some storage1 => some { m with storage_ := storage1, bucket_iterators_ := bis }

/-- The outcome of `at`. -/
inductive AtResult (V : Type) where
  | value (v : V)
  | out_of_range
deriving DecidableEq, Repr

/-- The member `at(key)`. -/
def UnorderedMap.at (m : UnorderedMap K V) (fuel : Nat) (key : K) : Option (AtResult V) :=
  match m.find fuel key with
  | none => none
  | some iter =>
    if iter = m.end then some .out_of_range
    else
      match valueOf m.storage_.heap iter with
      | none => none
      | some hn => some (.value hn.node.2)

/-- The calls of the claims on a map: `insert`/`emplace` of an entry, and
`erase(find(key))`. -/
inductive MapOp (K V : Type) where
  | insert (key : K) (value : V)
  | erase_found (key : K)

/-- One call. -/
def UnorderedMap.apply (m : UnorderedMap K V) (fuel : Nat) : MapOp K V → Option (UnorderedMap K V)
  | .insert k v =>
    match m.emplace fuel k v with
    | none => none
    | some (m1, _, _) => some m1
  | .erase_found k =>
    match m.find fuel k with
    | none => none
    | some it => m.erase it

/-- A sequence of calls, left to right. -/
def UnorderedMap.run (m : UnorderedMap K V) (fuel : Nat) : List (MapOp K V) → Option (UnorderedMap K V)
  | [] => some m
  | op :: ops =>
    match m.apply fuel op with
    | none => none
    | some m1 => m1.run fuel ops

/-! ### Representation invariant of the map -/

/-- The hash function is consistent with the equality predicate, an equivalence. -/
structure KeyEquiv (hasher : K → Nat) (equaler : K → K → Bool) : Prop where
  refl : ∀ a, equaler a a = true
  symm : ∀ a b, equaler a b = true → equaler b a = true
  trans : ∀ a b c, equaler a b = true → equaler b c = true → equaler a c = true
  hash_eq : ∀ a b, equaler a b = true → hasher a = hasher b

/-- A run of the list: the bucket it belongs to and its entries (address and payload),
in list order. -/
abbrev Group (K V : Type) := Nat × List (Nat × HashedNode K V)

/-- The list entries of a sequence of runs. -/
def flatten : List (Group K V) → List (Nat × HashedNode K V)
  | [] => []
  | g :: gs => g.2 ++ flatten gs

/-- The run of bucket `b`, when there is one. -/
def groupOf : List (Group K V) → Nat → Option (List (Nat × HashedNode K V))
  | [], _ => none
  | g :: gs, b => if g.1 = b then some g.2 else groupOf gs b

/-- The list position of the first entry of the run of bucket `b`, or the end sentinel
`e` when the bucket has no run. -/
def headOf (groups : List (Group K V)) (e b : Nat) : Nat :=
  match groupOf groups b with
  | some g => (addrs g).headD e
  | none => e

/-- Every bucket has at most one run, no run is empty, and the entries of a run hash to
its bucket. -/
def GroupsOK (count : Nat) (groups : List (Group K V)) : Prop :=
  (groups.map Prod.fst).Nodup ∧
  ∀ bg ∈ groups, bg.2 ≠ [] ∧ bg.1 < count ∧ ∀ x ∈ bg.2, x.2.hash % count = bg.1

/-- The index array has `count` entries, the entry of a bucket being the head of its
run. -/
def IndexOK (e count : Nat) (bis : List Nat) (groups : List (Group K V)) : Prop :=
  bis.length = count ∧ ∀ b, b < count → bis[b]? = some (headOf groups e b)

/-- The map `m` is well formed and its list is the sequence of runs `groups`: the list is
a closed ring, the runs and the index array are consistent, every entry carries the hash
of its key, and no two entries have equal keys. -/
def MapRepr (m : UnorderedMap K V) (groups : List (Group K V)) : Prop :=
  ListRepr m.storage_ (flatten groups) ∧ 0 < m.buckets_count_ ∧
  GroupsOK m.buckets_count_ groups ∧
  IndexOK m.storage_.end_ m.buckets_count_ m.bucket_iterators_ groups ∧
  (∀ x ∈ flatten groups, x.2.hash = m.hasher_ x.2.node.1) ∧
  (flatten groups).Pairwise (fun x y => m.equaler_ x.2.node.1 y.2.node.1 = false)

/-- The default-constructed `UnorderedMap<size_t, size_t>`: the hash of an integer is the
integer, the equality is `std::equal_to`, and `max_load_factor_` is `0.5`. -/
def natMap : UnorderedMap Nat Nat :=
  UnorderedMap.mk0 (fun k => k) (fun a b => decide (a = b)) LoadPolicy.half

/-! ### The history of calls -/

/-- The key `k` "has been inserted and not erased since", the calls being listed latest
first: the latest call on a key equal to `k` is an insert. -/
def insertedNotErasedRev (equaler : K → K → Bool) (k : K) : List (MapOp K V) → Bool
  | [] => false
  | .insert k1 _ :: earlier => equaler k1 k || insertedNotErasedRev equaler k earlier
  | .erase_found k1 :: earlier => !equaler k1 k && insertedNotErasedRev equaler k earlier

/-- The key `k` "has been inserted and not erased since" in the calls `ops`, listed in the
order they are made. -/
def insertedNotErased (equaler : K → K → Bool) (k : K) (ops : List (MapOp K V)) : Bool :=
  insertedNotErasedRev equaler k ops.reverse

/-- Every call `erase(find(k))` is made when `k` is in the map, the calls being listed
latest first; `erase(end())` is undefined. -/
def erasesOfPresentKeysRev (equaler : K → K → Bool) : List (MapOp K V) → Bool
  | [] => true
  | .insert _ _ :: earlier => erasesOfPresentKeysRev equaler earlier
  | .erase_found k :: earlier =>
    insertedNotErasedRev equaler k earlier && erasesOfPresentKeysRev equaler earlier

/-- Every call `erase(find(k))` of `ops` is made when `k` is in the map. -/
def erasesOfPresentKeys (equaler : K → K → Bool) (ops : List (MapOp K V)) : Bool :=
  erasesOfPresentKeysRev equaler ops.reverse

/-- The well formed map `m` holds the keys that the calls `rops` (latest first) have
inserted and not erased since. -/
def HistoryRepr (hasher : K → Nat) (equaler : K → K → Bool) (policy : LoadPolicy)
    (m : UnorderedMap K V) (groups : List (Group K V)) (rops : List (MapOp K V)) : Prop :=
  MapRepr m groups ∧ m.hasher_ = hasher ∧ m.equaler_ = equaler ∧
  m.max_load_factor_ = policy ∧ m.size ≤ rops.length ∧
  ∀ k, (∃ x ∈ flatten groups, equaler x.2.node.1 k = true) ↔
    insertedNotErasedRev equaler k rops = true

end

end UnorderedMapH
namespace SmartPointersH

/-! ### The lifetime operations of `WeakPtr` -/

/-- The operations that construct, assign or destroy a `WeakPtr`. -/
def Op.isWeakPtrOp : Op → Bool
  | .wp_default => true
  | .wp_shared _ => true
  | .wp_copy _ => true
  | .wp_move _ => true
  | .wp_assign_copy _ _ => true
  | .wp_assign_move _ _ => true
  | .wp_dtor _ => true
  | _ => false

end SmartPointersH
namespace StackAllocatorH

/-! ## stackallocator.h : `StackStorage` and `StackAllocator`

Addresses are natural numbers. A value of type `size_t` is a natural number below `2^64`,
and the `size_t` operations of `allocate` are taken modulo `2^64`. The alignment and the
size of the element type `T` are the arguments `alignT = alignof(T)` and
`sizeT = sizeof(T)`. -/

/-- The data members of `StackStorage<N>`: the address of the array `data_` and the
cursor `shift_`. -/
structure StackStorage where
  data_ : Nat
  shift_ : Nat
deriving DecidableEq, Repr

/-- The constructor `StackStorage() = default` of a storage whose array is at `data`. -/
def StackStorage.mk0 (data : Nat) : StackStorage := { data_ := data, shift_ := 0 }

/-- The first address not below `ptr` that is a multiple of `alignment`. -/
def alignUp (alignment ptr : Nat) : Nat := (ptr + alignment - 1) / alignment * alignment

/-- The library function `std::align(alignment, size, ptr, space)` by its contract in the
C++ standard: when `size` bytes aligned by `alignment` fit into the buffer of `space`
bytes at `ptr`, the result is the first such address with `space` decreased by the bytes
used for alignment; otherwise the result is `none` (a null pointer) and nothing
changes. -/
def std_align (alignment size ptr space : Nat) : Option (Nat × Nat) :=
  let aligned := alignUp alignment ptr
  if aligned - ptr + size ≤ space then some (aligned, space - (aligned - ptr)) else none

/-- The outcome of `allocate`: the pointer returned with the storage after the call, or
the exception `std::bad_alloc` with the storage after the call. -/
inductive Allocated where
  | returned (p : Nat) (s : StackStorage)
  | bad_alloc (s : StackStorage)
deriving DecidableEq, Repr

/-- The member `StackStorage<N>::allocate<T>(n)`. -/
def StackStorage.allocate (N : Nat) (s : StackStorage) (alignT sizeT n : Nat) : Allocated :=
  -- void* result = data_ + shift_; size_t left = N - shift_;
  let result := s.data_ + s.shift_
  let left := (N + 2 ^ 64 - s.shift_ % 2 ^ 64) % 2 ^ 64
  -- result = std::align(alignof(T), n * sizeof(T), result, left);
  match std_align alignT (n * sizeT % 2 ^ 64) result left with
  | none => .bad_alloc s
  | some (result, _) =>
    -- shift_ = reinterpret_cast<char*>(result) - data_ + n * sizeof(T);
    .returned result { s with shift_ := (result - s.data_ + n * sizeT % 2 ^ 64) % 2 ^ 64 }

/-- The padding of a request: the number of bytes from `data_ + shift_` to the next
address aligned by `alignT`. -/
def StackStorage.padding (s : StackStorage) (alignT : Nat) : Nat :=
  alignUp alignT (s.data_ + s.shift_) - (s.data_ + s.shift_)

/-- The calls made through the allocators `StackAllocator<T, N>` that share one storage:
`allocate(n)` for an element type of alignment `alignT` and size `sizeT`, and
`deallocate(p, n)`. -/
inductive Call where
  | allocate (alignT sizeT n : Nat)
  | deallocate (p n : Nat)
deriving DecidableEq, Repr

/-- A successful allocation: the pointer returned for `n` objects of size `sizeT`. -/
structure Grant where
  p : Nat
  n : Nat
  sizeT : Nat
deriving DecidableEq, Repr

/-- The byte `x` lies in the range `[p, p + n * sizeof(T))` of the allocation. -/
def Grant.covers (g : Grant) (x : Nat) : Prop := g.p ≤ x ∧ x < g.p + g.n * g.sizeT

/-- One call through an allocator on the storage: the members
`StackAllocator::allocate` (which is `storage_->allocate<T>(n)`) and
`StackAllocator::deallocate` (whose body is empty). The result is the storage after the
call with the allocation made, if any. -/
def StackStorage.call (N : Nat) (s : StackStorage) : Call → StackStorage × Option Grant
  | .allocate alignT sizeT n =>
    match s.allocate N alignT sizeT n with
    | .returned p s1 => (s1, some { p := p, n := n, sizeT := sizeT })
    | .bad_alloc s1 => (s1, none)
  | .deallocate _ _ => (s, none)

/-- A sequence of calls on the storage: the storage after each call, in order, and the
successful allocations, in order. -/
def StackStorage.runCalls (N : Nat) (s : StackStorage) :
    List Call → List StackStorage × List Grant
  | [] => ([], [])
  | c :: cs =>
    let r := s.call N c
    let rest := StackStorage.runCalls N r.1 cs
    (r.1 :: rest.1, (match r.2 with
      | some g => [g]
      | none => []) ++ rest.2)

end StackAllocatorH
namespace ListH

/-! ## stackallocator.h : positions, `clear`, the filling constructors and the copy
constructor of `List`

The allocator calls and the constructor and destructor calls on nodes are recorded in a
ghost log. A payload constructor that throws is a constructor argument `none`. -/

/-- The calls `allocate`, `construct`, `destroy` and `deallocate` of
`node_allocator_traits` on the node at address `a`. -/
inductive MemEvent where
  | allocate (a : Nat)
  | construct (a : Nat)
  | destroy (a : Nat)
  | deallocate (a : Nat)
deriving DecidableEq, Repr

/-- How a call ends: it returns (`done`) or an exception leaves it (`threw`), in both
cases with the state it leaves behind. -/
inductive Outcome (α : Type) where
  | done (a : α)
  | threw (a : α)

/-- The log of building the nodes at the addresses `as`, in order: each is allocated and
constructed. -/
def buildLog (as : List Nat) : List MemEvent :=
  as.flatMap (fun a => [.allocate a, .construct a])

/-- The log of tearing down the nodes at the addresses `as`, last one first: each is
destroyed and deallocated. -/
def teardownLog (as : List Nat) : List MemEvent :=
  as.reverse.flatMap (fun a => [.destroy a, .deallocate a])

/-- The iterator `std::next(begin(), k)`: `begin()` incremented `k` times. -/
def LinkedList.iterAt {T : Type} (l : LinkedList T) : Nat → Option Nat
  | 0 => l.begin
  | k + 1 =>
    match l.iterAt k with
    | none => none
    | some it => nextOf l.heap it

/-- The assignment `*iter = value` through `iterator::operator*`, which is
`static_cast<Node*>(node_)->value`. -/
def LinkedList.assign {T : Type} (l : LinkedList T) (iter : Nat) (value : T) :
    Option (LinkedList T) :=
  match l.heap iter with
  | some c =>
    match c.value with
    | some _ => some { l with heap := l.heap.store iter (some { c with value := some value }) }
    | none => none
  | none => none

/-- The events of `emplace(iter, args...)` when `construct` returns. -/
def emplaceLog {T : Type} (l : LinkedList T) : List MemEvent :=
  [.allocate l.node_allocator_, .construct l.node_allocator_]

/-- The member `emplace(iter, args...)` when `construct` throws: the node allocated is
deallocated in the handler and the exception is thrown on. The list is as before. -/
def LinkedList.emplace_throwing {T : Type} (l : LinkedList T) :
    LinkedList T × List MemEvent :=
  ({ l with node_allocator_ := l.node_allocator_ + 1 },
   [.allocate l.node_allocator_, .deallocate l.node_allocator_])

/-- The member `pop_back` with its events: `erase` destroys and deallocates the node. -/
def LinkedList.pop_backE {T : Type} (l : LinkedList T) :
    Option (LinkedList T × List MemEvent) :=
  match prevOf l.heap l.end with
  | none => none
  | some rbeg =>
    match l.erase rbeg with
    | none => none
    | some l1 => some (l1, [.destroy rbeg, .deallocate rbeg])

/-- The member `clear`: `while (size_ > 0) pop_back();`, at most `fuel` rounds. -/
def LinkedList.clearE {T : Type} : Nat → LinkedList T → Option (LinkedList T × List MemEvent)
  | 0, l => if 0 < l.size_ then none else some (l, [])
  | fuel + 1, l =>
    if 0 < l.size_ then
      match l.pop_backE with
      | none => none
      | some (l1, ev1) =>
        match LinkedList.clearE fuel l1 with
        | none => none
        | some (l2, ev2) => some (l2, ev1 ++ ev2)
    else some (l, [])

/-- The member `clear`, without the log. -/
def LinkedList.clear {T : Type} (l : LinkedList T) (fuel : Nat) : Option (LinkedList T) :=
  match LinkedList.clearE fuel l with
  | none => none
  | some (l1, _) => some l1

/-- The loop `for (size_t i = 0; i < size; ++i) emplace(end(), args...)` of `make_list`
from its round `i` on, `n` rounds being left; `ctor i` is the payload that `construct`
makes in round `i`, or `none` when it throws. -/
def LinkedList.make_list_loop {T : Type} (ctor : Nat → Option T) :
    Nat → Nat → LinkedList T → Option (Outcome (LinkedList T) × List MemEvent)
  | 0, _, l => some (.done l, [])
  | n + 1, i, l =>
    match ctor i with
    | none => some (.threw l.emplace_throwing.1, l.emplace_throwing.2)
    | some v =>
      match l.emplace l.end v with
      | none => none
      | some l1 =>
        match LinkedList.make_list_loop ctor n (i + 1) l1 with
        | none => none
        | some (o, ev) => some (o, emplaceLog l ++ ev)

/-- The member `make_list(size, args...)`: the loop, and the handler
`catch (...) { clear(); throw; }`. -/
def LinkedList.make_list {T : Type} (l : LinkedList T) (size : Nat) (ctor : Nat → Option T)
    (fuel : Nat) : Option (Outcome (LinkedList T) × List MemEvent) :=
  match LinkedList.make_list_loop ctor size 0 l with
  | none => none
  | some (.done l1, ev) => some (.done l1, ev)
  | some (.threw l1, ev) =>
    match LinkedList.clearE fuel l1 with
    | none => none
    | some (l2, ev2) => some (.threw l2, ev ++ ev2)

/-- The constructors `List(size, value, alloc)`, `List(size, value)`, `List(size, alloc)`
and `List(size)`: the members are initialised (`end_` linked to itself, `size_ = 0`) and
`make_list` fills the list. -/
def LinkedList.ctor_fill {T : Type} (size : Nat) (ctor : Nat → Option T) (fuel : Nat) :
    Option (Outcome (LinkedList T) × List MemEvent) :=
  (LinkedList.mk0 T).make_list size ctor fuel

/-- The list object `l` seen in the memory that `m` holds. -/
def LinkedList.inMemoryOf {T : Type} (l m : LinkedList T) : LinkedList T :=
  { l with heap := m.heap, node_allocator_ := m.node_allocator_ }

/-- The loop `for (auto& x : other) push_back(x)` of the copy constructor from the
iterator `it` on, round `i`: `other_end` is `other.end()`, and `ctor i x` is the copy of
`x` that `construct` makes, or `none` when it throws. At most `fuel` rounds. -/
def LinkedList.copy_loop {T : Type} (ctor : Nat → T → Option T) (other_end : Nat) :
    Nat → Nat → Nat → LinkedList T → Option (Outcome (LinkedList T) × List MemEvent)
  | 0, _, it, self => if it = other_end then some (.done self, []) else none
  | fuel + 1, i, it, self =>
    if it = other_end then some (.done self, [])
    else
      match valueOf self.heap it with
      | none => none
      | some x =>
        match ctor i x with
        | none => some (.threw self.emplace_throwing.1, self.emplace_throwing.2)
        | some v =>
          match self.push_back v with
          | none => none
          | some self1 =>
            match nextOf self1.heap it with
            | none => none
            | some nx =>
              match LinkedList.copy_loop ctor other_end fuel (i + 1) nx self1 with
              | none => none
              | some (o, ev) => some (o, emplaceLog self ++ ev)

/-- The members of the object under construction when the body of the copy constructor
`List(const List& other)` starts, in the memory of `other`: the new object has its `end_`
at a fresh address, linked to itself, and `size_ = 0`. -/
def LinkedList.copy_init {T : Type} (other : LinkedList T) : LinkedList T :=
  { heap := other.heap.store other.node_allocator_
      (some ⟨other.node_allocator_, other.node_allocator_, none⟩),
    node_allocator_ := other.node_allocator_ + 1, end_ := other.node_allocator_, size_ := 0 }

/-- The copy constructor `List(const List& other)`: the members are initialised, then the
loop, and the handler `catch (...) { clear(); throw; }`. -/
def LinkedList.copy_ctor {T : Type} (other : LinkedList T) (ctor : Nat → T → Option T)
    (fuel : Nat) : Option (Outcome (LinkedList T) × List MemEvent) :=
  match other.begin with
  | none => none
  | some b =>
    match LinkedList.copy_loop ctor other.end fuel 0 b other.copy_init with
    | none => none
    | some (.done l1, ev) => some (.done l1, ev)
    | some (.threw l1, ev) =>
      match LinkedList.clearE fuel l1 with
      | none => none
      | some (l2, ev2) => some (.threw l2, ev ++ ev2)

/-- The calls on a list, a position being given by its distance `k` from `begin()`. -/
inductive ListCall (T : Type) where
  | emplace (k : Nat) (v : T)
  | insert (k : Nat) (v : T)
  | erase (k : Nat)
  | assign (k : Nat) (v : T)
  | push_front (v : T)
  | push_back (v : T)
  | pop_front
  | pop_back
  | clear

/-- One call on the list. -/
def LinkedList.call {T : Type} (l : LinkedList T) (fuel : Nat) :
    ListCall T → Option (LinkedList T)
  | .emplace k v =>
    match l.iterAt k with
    | none => none
    | some it => l.emplace it v
  | .insert k v =>
    match l.iterAt k with
    | none => none
    | some it => l.insert it v
  | .erase k =>
    match l.iterAt k with
    | none => none
    | some it => l.erase it
  | .assign k v =>
    match l.iterAt k with
    | none => none
    | some it => l.assign it v
  | .push_front v => l.push_front v
  | .push_back v => l.push_back v
  | .pop_front => l.pop_front
  | .pop_back => l.pop_back
  | .clear => l.clear fuel

/-- A sequence of calls on the list, left to right. -/
def LinkedList.calls {T : Type} (l : LinkedList T) (fuel : Nat) :
    List (ListCall T) → Option (LinkedList T)
  | [] => some l
  | c :: cs =>
    match l.call fuel c with
    | none => none
    | some l1 => l1.calls fuel cs

/-- The same call on the sequence of elements; `none` when the position is not one of the
sequence (for `erase` and `assign`, not one of an element) or a pop finds it empty. -/
def refCall {T : Type} (ref : List T) : ListCall T → Option (List T)
  | .emplace k v => if k ≤ ref.length then some (ref.take k ++ v :: ref.drop k) else none
  | .insert k v => if k ≤ ref.length then some (ref.take k ++ v :: ref.drop k) else none
  | .erase k => if k < ref.length then some (ref.take k ++ ref.drop (k + 1)) else none
  | .assign k v => if k < ref.length then some (ref.take k ++ v :: ref.drop (k + 1)) else none
  | .push_front v => some (v :: ref)
  | .push_back v => some (ref ++ [v])
  | .pop_front => if ref.isEmpty then none else some ref.tail
  | .pop_back => if ref.isEmpty then none else some ref.dropLast
  | .clear => some []

/-- A sequence of calls on the sequence of elements. -/
def refCalls {T : Type} (ref : List T) : List (ListCall T) → Option (List T)
  | [] => some ref
  | c :: cs =>
    match refCall ref c with
    | none => none
    | some ref1 => refCalls ref1 cs

/-- The ring invariant: starting at the sentinel and following `next` visits exactly
`size()` nodes, each holding a value, and then returns to the sentinel, which holds none;
every node `x` of the ring has `x.next.previous == x` and `x.previous.next == x`; and the
nodes of the ring are memory that the allocator has handed out. -/
def RingInv {T : Type} (l : LinkedList T) : Prop :=
  ∃ ring : List Nat, ring.length = l.size ∧
    Chain (nextOf l.heap) l.end_ (l.end_ :: ring) ∧
    valueOf l.heap l.end_ = none ∧
    (∀ a ∈ ring, (valueOf l.heap a).isSome = true) ∧
    (∀ x ∈ l.end_ :: ring,
      (nextOf l.heap x).bind (prevOf l.heap) = some x ∧
      (prevOf l.heap x).bind (nextOf l.heap) = some x) ∧
    (∀ x ∈ l.end_ :: ring, x < l.node_allocator_)

/-- What a call on the list with nodes `nodes` leaves alone: the sentinel stays where it
is, no address is handed out again, the nodes afterwards are nodes from before or newly
allocated ones, and memory that was allocated and is not part of the list reads as
before. -/
def Frame {T : Type} (l l' : LinkedList T) (nodes nodes' : List (Nat × T)) : Prop :=
  l'.end_ = l.end_ ∧ l.node_allocator_ ≤ l'.node_allocator_ ∧
  (∀ a ∈ addrs nodes', a ∈ addrs nodes ∨ l.node_allocator_ ≤ a) ∧
  (∀ x, x ∉ l.end_ :: addrs nodes → x < l.node_allocator_ →
    nextOf l'.heap x = nextOf l.heap x ∧ prevOf l'.heap x = prevOf l.heap x ∧
    valueOf l'.heap x = valueOf l.heap x)

/-- Which of two lists in one memory a call is made on. -/
inductive Side where
  | source
  | copy
deriving DecidableEq, Repr

/-- One call on one of two lists that live in one memory: the other list object is
untouched, and sees the memory after the call. -/
def callTwo {T : Type} (fuel : Nat) (st : LinkedList T × LinkedList T) :
    Side × ListCall T → Option (LinkedList T × LinkedList T)
  | (.source, c) =>
    match st.1.call fuel c with
    | none => none
    | some s1 => some (s1, st.2.inMemoryOf s1)
  | (.copy, c) =>
    match st.2.call fuel c with
    | none => none
    | some c1 => some (st.1.inMemoryOf c1, c1)

/-- A sequence of calls on two lists in one memory. -/
def callsTwo {T : Type} (fuel : Nat) (st : LinkedList T × LinkedList T) :
    List (Side × ListCall T) → Option (LinkedList T × LinkedList T)
  | [] => some st
  | c :: cs =>
    match callTwo fuel st c with
    | none => none
    | some st1 => callsTwo fuel st1 cs

/-- The calls of a sequence that are made on one side. -/
def callsOn {T : Type} (side : Side) (cs : List (Side × ListCall T)) : List (ListCall T) :=
  (cs.filter (fun c => decide (c.1 = side))).map Prod.snd

/-- The loop `for (; it != end(); ++it)` collecting the positions it visits, at most
`fuel` of them. -/
def LinkedList.walkNodes {T : Type} (l : LinkedList T) : Nat → Nat → Option (List Nat)
  | 0, it => if it = l.end then some [] else none
  | fuel + 1, it =>
    if it = l.end then some []
    else
      match nextOf l.heap it with
      | none => none
      | some n =>
        match l.walkNodes fuel n with
        | none => none
        | some rest => some (it :: rest)

/-- The addresses of the nodes of the list, from `begin()` to `end()`. -/
def LinkedList.nodesOf {T : Type} (l : LinkedList T) (fuel : Nat) : Option (List Nat) :=
  match l.begin with
  | none => none
  | some b => l.walkNodes fuel b

/-- Two well formed lists `a` and `b` in one memory that share no node. -/
def TwoRepr {T : Type} (a b : LinkedList T) (na nb : List (Nat × T)) : Prop :=
  ListRepr a na ∧ ListRepr b nb ∧ a.heap = b.heap ∧ a.node_allocator_ = b.node_allocator_ ∧
  ∀ x ∈ a.end_ :: addrs na, x ∉ b.end_ :: addrs nb

end ListH
namespace ListH

/-! ## unordered_map.h : the move constructor and the move assignment of `List`

The list object under construction has its member `end_` at a fresh address of the
memory it shares with the source. -/

/-- The constructor `BaseNode(BaseNode&& other)` of the node at address `self`. -/
def BaseNode.move_ctor {T : Type} (h : Heap T) (self other : Nat) : Option (Heap T) :=
  -- : next(other.next), previous(other.previous)
  match nextOf h other, prevOf h other with
  | some nx, some pv =>
    let h0 := h.store self (some ⟨nx, pv, none⟩)
    -- next->previous = this;
    match nextOf h0 self with
    | none => none
    | some n1 =>
    match setPrevious h0 n1 self with
    | none => none
    | some h1 =>
    -- previous->next = this;
    match prevOf h1 self with
    | none => none
    | some p1 =>
    match setNext h1 p1 self with
    | none => none
    | some h2 =>
    -- other.next = &other;
    match setNext h2 other other with
    | none => none
    | some h3 =>
    -- other.previous = &other;
    setPrevious h3 other other
  | _, _ => none

/-- The assignment `BaseNode::operator=(BaseNode&& other)` to the node at address
`self`. -/
def BaseNode.move_assign {T : Type} (h : Heap T) (self other : Nat) : Option (Heap T) :=
  match nextOf h other, prevOf h other with
  | some nx, some pv =>
    -- next = other.next;
    match setNext h self nx with
    | none => none
    | some h0 =>
    -- previous = other.previous;
    match setPrevious h0 self pv with
    | none => none
    | some h1 =>
    -- next->previous = this;
    match nextOf h1 self with
    | none => none
    | some n1 =>
    match setPrevious h1 n1 self with
    | none => none
    | some h2 =>
    -- previous->next = this;
    match prevOf h2 self with
    | none => none
    | some p1 =>
    match setNext h2 p1 self with
    | none => none
    | some h3 =>
    -- other.next = &other;
    match setNext h3 other other with
    | none => none
    | some h4 =>
    -- other.previous = &other;
    setPrevious h4 other other
  | _, _ => none

/-- The move constructor `List(List&& other)`: `end_(std::move(other.end_))`,
`size_(other.size_)` and `other.size_ = 0`. The result is the new list and what is
left of `other`. -/
def LinkedList.move_ctor {T : Type} (other : LinkedList T) :
    Option (LinkedList T × LinkedList T) :=
  let e := other.node_allocator_
  match BaseNode.move_ctor other.heap e other.end_ with
  | none => none
  | some h =>
    some ({ heap := h, node_allocator_ := e + 1, end_ := e, size_ := other.size_ },
          { heap := h, node_allocator_ := e + 1, end_ := other.end_, size_ := 0 })

/-- The default constructor `List()` of a second list object in the memory of `m`: its
`end_`, at a fresh address, is linked to itself. -/
def LinkedList.default_in {T : Type} (m : LinkedList T) : LinkedList T :=
  { heap := m.heap.store m.node_allocator_
      (some ⟨m.node_allocator_, m.node_allocator_, none⟩),
    node_allocator_ := m.node_allocator_ + 1, end_ := m.node_allocator_, size_ := 0 }

/-- The loop `for (auto iter = other.begin(); i < other.size_; ++i, ++iter)
emplace(end(), std::move(*iter));` of the move assignment, `n` rounds being left:
`ctor i x` is the payload that `construct` makes from `x` in round `i`, or `none` when it
throws. The result carries the counter `i`. -/
def LinkedList.relocate_loop {T : Type} (ctor : Nat → T → Option T) :
    Nat → Nat → Nat → LinkedList T → Option (Outcome (LinkedList T) × Nat)
  | 0, i, _, self => some (.done self, i)
  | n + 1, i, iter, self =>
    match valueOf self.heap iter with
    | none => none
    | some x =>
      match ctor i x with
      | none => some (.threw self.emplace_throwing.1, i)
      | some v =>
        match self.emplace self.end v with
        | none => none
        | some self1 =>
          match nextOf self1.heap iter with
          | none => none
          | some nx => LinkedList.relocate_loop ctor n (i + 1) nx self1

/-- The loop `for (size_t j = 0; j < i; ++j) pop_back();` of the handler. -/
def LinkedList.pop_backs {T : Type} : Nat → LinkedList T → Option (LinkedList T)
  | 0, self => some self
  | n + 1, self =>
    match self.pop_back with
    | none => none
    | some self1 => LinkedList.pop_backs n self1

/-- The loop `for (size_t j = 0; j < size_ - i; ++j) pop_front();` from its round `j` on:
the bound `size_ - i` is evaluated in every round, with the `size_` that the pops so far
have left. At most `fuel` rounds. -/
def LinkedList.pop_front_loop {T : Type} (i : Nat) :
    Nat → Nat → LinkedList T → Option (LinkedList T)
  | 0, j, self => if j < self.size_ - i then none else some self
  | fuel + 1, j, self =>
    if j < self.size_ - i then
      match self.pop_front with
      | none => none
      | some self1 => LinkedList.pop_front_loop i fuel (j + 1) self1
    else some self

/-- The move assignment `List::operator=(List&& other)` of `self`, both lists living in
one memory: `alloc_equal` is `node_allocator_ == other.node_allocator_` and `propagate` is
`propagate_on_container_move_assignment::value`. The result is `self` and `other`
afterwards. -/
def LinkedList.move_assign {T : Type} (self other : LinkedList T)
    (alloc_equal propagate : Bool) (ctor : Nat → T → Option T) (fuel : Nat) :
    Option (Outcome (LinkedList T × LinkedList T)) :=
  if alloc_equal || propagate then
    -- end_ = std::move(other.end_); size_ = other.size_; other.size_ = 0;
    match BaseNode.move_assign self.heap self.end_ other.end_ with
    | none => none
    | some h =>
      some (.done ({ self with heap := h, size_ := other.size_ },
                   { other with heap := h, size_ := 0 }))
  else
    match other.begin with
    | none => none
    | some b =>
      match LinkedList.relocate_loop ctor other.size_ 0 b self with
      | none => none
      | some (.threw self1, i) =>
        match LinkedList.pop_backs i self1 with
        | none => none
        | some self2 => some (.threw (self2, other.inMemoryOf self2))
      | some (.done self1, i) =>
        match LinkedList.pop_front_loop i fuel 0 self1 with
        | none => none
        | some self2 => some (.done (self2, other.inMemoryOf self2))

/-- The lists `a` holding 1, 2 and `b` holding 7 in one memory. -/
def twoLists : Option (LinkedList Nat × LinkedList Nat) :=
  match (LinkedList.mk0 Nat).push_back 1 with
  | none => none
  | some a1 =>
    match a1.push_back 2 with
    | none => none
    | some a2 =>
      match a2.default_in.push_back 7 with
      | none => none
      | some b1 => some (a2.inMemoryOf b1, b1)

end ListH
namespace DequeH

open ListH (Outcome)

/-! ## deque.h : `at`, the iterators, the copy constructor and the copy assignment -/

/-- The outcome of `at`: a reference to an element, or `std::out_of_range` thrown. -/
inductive AtOutcome (T : Type) where
  | value (v : T)
  | out_of_range
deriving DecidableEq

/-- The member `at(position)`. -/
def Deque.at {T : Type} (d : Deque T) (position : Nat) : Option (AtOutcome T) :=
  if position ≥ d.size_ then some .out_of_range
  else
    match d.index position with
    | none => none
    | some v => some (.value v)

/-! ### Iterators

An iterator into the bucket array of a deque with `q` buckets is its members `bucket_`,
as the index `bucket_ - buckets_` of the bucket it points to, and `position_`; the member
`pointer_` is `bucket_->elements_ + position_` throughout. Reading `bucket_->elements_`
of a bucket outside the array is undefined (`none`). -/

/-- The least value of an `int` (32 bits). -/
def INT_MIN : Int := -2 ^ 31

/-- The greatest value of an `int` (32 bits). -/
def INT_MAX : Int := 2 ^ 31 - 1

/-- The members `bucket_` and `position_` of `base_iterator`. -/
structure Iter where
  bucket_ : Int
  position_ : Nat
deriving DecidableEq

/-- The constructor `base_iterator(bucket, position)`, which reads
`bucket->elements_`. -/
def Iter.make (q : Nat) (bucket : Int) (position : Nat) : Option Iter :=
  if 0 ≤ bucket ∧ bucket < q then some ⟨bucket, position⟩ else none

/-- The member `operator+=(int shift)`. The parameter is an `int`: an argument that is
not a value of `int` comes from a computation of the caller that overflows, which is
undefined. -/
def Iter.addAssign (q : Nat) (it : Iter) (shift : Int) : Option Iter :=
  if shift < INT_MIN ∨ INT_MAX < shift then none
  else
  -- difference_type new_position = position_; new_position += shift;
  let new_position : Int := (it.position_ : Int) + shift
  -- bucket_ += new_position / (difference_type)Bucket::size;
  let bucket : Int := it.bucket_ + new_position.tdiv (Bucket.size : Int)
  -- new_position %= (difference_type)Bucket::size;
  let new_position : Int := new_position.tmod (Bucket.size : Int)
  -- if (new_position < 0) { --bucket_; new_position += Bucket::size; }
  let bucket : Int := if new_position < 0 then bucket - 1 else bucket
  let new_position : Int :=
    if new_position < 0 then new_position + (Bucket.size : Int) else new_position
  -- position_ = new_position; pointer_ = bucket_->elements_ + position_;
  if 0 ≤ bucket ∧ bucket < q then some ⟨bucket, new_position.toNat⟩ else none

/-- The member `operator-=(int shift)`, which is `(*this) += -shift`; the parameter is an
`int`, and the negation of `INT_MIN` overflows. -/
def Iter.subAssign (q : Nat) (it : Iter) (shift : Int) : Option Iter :=
  if shift < INT_MIN ∨ INT_MAX < shift then none
  else if shift = INT_MIN then none else it.addAssign q (-shift)

/-- The member `operator+(int shift)`. -/
def Iter.add (q : Nat) (it : Iter) (shift : Int) : Option Iter :=
  it.addAssign q shift

/-- The member `operator-(int shift)`. -/
def Iter.sub (q : Nat) (it : Iter) (shift : Int) : Option Iter :=
  it.subAssign q shift

/-- The conversion of a `size_t` value to `difference_type` (64 bits, two's
complement). -/
def toPtrdiff (u : Int) : Int := if u < 2 ^ 63 then u else u - 2 ^ 64

/-- The member `operator-(const base_iterator& other)`: the product with the `size_t`
constant `Bucket::size` and the two sums are computed in `size_t`, and the result is
converted to `difference_type`. -/
def Iter.diff (it other : Iter) : Int :=
  toPtrdiff (((it.bucket_ - other.bucket_) * (Bucket.size : Int) + (it.position_ : Int)
    - (other.position_ : Int)) % 2 ^ 64)

/-- The member `begin()`. -/
def Deque.begin {T : Type} (d : Deque T) : Option Iter :=
  Iter.make d.bucket_quantity_ d.begin_bucket_ d.begin_index_

/-- The member `end()`. -/
def Deque.end {T : Type} (d : Deque T) : Option Iter :=
  Iter.make d.bucket_quantity_ d.get_end.1 d.get_end.2

/-- The member `operator*` of an iterator into the deque `d`. -/
def Deque.deref {T : Type} (d : Deque T) (it : Iter) : Option T :=
  (slot d.buckets_ it.bucket_.toNat it.position_).join

/-- The expression `it + n` for a `size_t` value `n`: the argument is converted to
`int`. -/
def Iter.addSize (q : Nat) (it : Iter) (n : Nat) : Option Iter :=
  it.add q (UnorderedMapH.toInt n)

/-! ### The copy constructor and the copy assignment

An element copy that throws is a `copy` argument `none`. A bucket array that has been
deleted, and the null pointer, are the empty array. -/

/-- The loop of `delete_all(last)`, `n` rounds being left. -/
def destroyLoop {T : Type} : Nat → Nat → Nat → List (Bucket T) → Option (List (Bucket T))
  | 0, _, _, bs => some bs
  | n + 1, i, j, bs =>
    -- (buckets_[i].elements_ + j)->~T();
    match destroy bs i j with
    | none => none
    | some bs1 =>
      if j + 1 = Bucket.size then destroyLoop n (i + 1) 0 bs1
      else destroyLoop n i (j + 1) bs1

/-- The member `delete_all(last)`: the first `last` elements are destroyed, the bucket
array is deleted and the members are reset. -/
def Deque.delete_all {T : Type} (d : Deque T) (last : Nat) : Option (Deque T) :=
  match destroyLoop last d.begin_bucket_ d.begin_index_ d.buckets_ with
  | none => none
  | some _ =>
    some { size_ := 0, bucket_quantity_ := 2, begin_index_ := 0, begin_bucket_ := 1,
           buckets_ := [] }

/-- The destructor `~Deque()`. -/
def Deque.dtor {T : Type} (d : Deque T) : Option (Deque T) := d.delete_all d.size_

/-- The loop `for (; current < size_; ++current) buckets_[i][j] = other.buckets_[i][j]`
of the copy constructor, `n` rounds being left: `copy current x` is the copy of `x` that
the assignment makes, or `none` when it throws. The result carries `current`. -/
def copyLoop {T : Type} (copy : Nat → T → Option T) (other_buckets : List (Bucket T)) :
    Nat → Nat → Nat → Nat → List (Bucket T) → Option (Outcome (List (Bucket T)) × Nat)
  | 0, current, _, _, bs => some (.done bs, current)
  | n + 1, current, i, j, bs =>
    match slot other_buckets i j with
    | some (some x) =>
      match copy current x with
      | none => some (.threw bs, current)
      | some v =>
        match setSlot bs i j (some v) with
        | none => none
        | some bs1 =>
          if j + 1 = Bucket.size then copyLoop copy other_buckets n (current + 1) (i + 1) 0 bs1
          else copyLoop copy other_buckets n (current + 1) i (j + 1) bs1
    | _ => none

/-- The copy constructor `Deque(const Deque& other)` with its handler
`catch (...) { delete_all(current); throw; }`. -/
def Deque.copy_ctor {T : Type} (other : Deque T) (copy : Nat → T → Option T) :
    Option (Outcome (Deque T)) :=
  let d0 : Deque T :=
    { size_ := other.size_, begin_bucket_ := other.begin_bucket_,
      begin_index_ := other.begin_index_, bucket_quantity_ := other.bucket_quantity_,
      buckets_ := newBuckets T other.bucket_quantity_ }
  match copyLoop copy other.buckets_ d0.size_ 0 d0.begin_bucket_ d0.begin_index_
      d0.buckets_ with
  | none => none
  | some (.done bs, _) => some (.done { d0 with buckets_ := bs })
  | some (.threw bs, current) =>
    match ({ d0 with buckets_ := bs } : Deque T).delete_all current with
    | none => none
    | some d1 => some (.threw d1)

/-- The copy assignment `operator=(const Deque& other)` of `d`. The local `new_deque` is
destroyed when the `try` block is left; its members `buckets_` and `bucket_quantity_`
have been reset by then, its member `size_` has not. -/
def Deque.assign {T : Type} (d other : Deque T) (copy : Nat → T → Option T) :
    Option (Outcome (Deque T)) :=
  -- Deque new_deque(other);
  match other.copy_ctor copy with
  | none => none
  | some (.threw _) => some (.threw d)
  | some (.done new_deque) =>
    -- delete_all(size_);
    match d.delete_all d.size_ with
    | none => none
    | some _ =>
      -- size_ = new_deque.size_; ...; buckets_ = new_deque.buckets_;
      let d1 : Deque T :=
        { size_ := new_deque.size_, begin_index_ := new_deque.begin_index_,
          begin_bucket_ := new_deque.begin_bucket_,
          bucket_quantity_ := new_deque.bucket_quantity_, buckets_ := new_deque.buckets_ }
      -- new_deque.buckets_ = nullptr; new_deque.bucket_quantity_ = 0;
      let new_deque1 : Deque T := { new_deque with buckets_ := [], bucket_quantity_ := 0 }
      -- } : the destructor of new_deque
      match new_deque1.dtor with
      | none => none
      | some _ => some (.done d1)

end DequeH
namespace UnorderedMapH

open ListH

/-! ## unordered_map.h : `operator[]`, the bucket invariant, the load factor in `float` -/

section
variable {K V : Type}

/-- The member `operator[](key)`, which is
`return (*(emplace(std::move(key), Value()).first)).second;`: the new state and the list
position whose member `node.second` the returned reference designates; `dflt` is
`Value()`. -/
def UnorderedMap.index (m : UnorderedMap K V) (fuel : Nat) (key : K) (dflt : V) :
    Option (UnorderedMap K V × Nat) :=
  match m.emplace fuel key dflt with
  | none => none
  | some (m1, it, _) =>
    match valueOf m1.storage_.heap it with
    | none => none
    | some _ => some (m1, it)

/-- The statement `m[key] = value`: the assignment through the reference that
`operator[]` returns. -/
def UnorderedMap.index_assign (m : UnorderedMap K V) (fuel : Nat) (key : K) (dflt value : V) :
    Option (UnorderedMap K V) :=
  match m.index fuel key dflt with
  | none => none
  | some (m1, it) =>
    match valueOf m1.storage_.heap it with
    | none => none
    | some hn =>
      match m1.storage_.assign it { hn with node := (hn.node.1, value) } with
      | none => none
      | some storage1 => some { m1 with storage_ := storage1 }

/-- The state of `emplace` after the statements
`storage_.emplace(bucket_iterators_[get_hash(current_hash)], *node);
--bucket_iterators_[get_hash(current_hash)];`, the list insertion having given `l1`. -/
def afterInsertion (m : UnorderedMap K V) (key : K) (l1 : LinkedList (HashedNode K V)) :
    UnorderedMap K V :=
  { buckets_count_ := m.buckets_count_, hasher_ := m.hasher_, equaler_ := m.equaler_,
    storage_ := l1,
    bucket_iterators_ :=
      m.bucket_iterators_.set (m.get_hash (m.hasher_ key)) m.storage_.node_allocator_,
    max_load_factor_ := m.max_load_factor_ }

/-- The bucket invariant: the list is a closed ring of entries, the index array has
exactly `bucket_count` entries, and for every bucket `b` the list entries whose hash
modulo `bucket_count` is `b` are one contiguous run `run` of the list, the index entry of
`b` being the list position of the first entry of the run, or the end sentinel, the latter
exactly when the run is empty. -/
def BucketInv (m : UnorderedMap K V) : Prop :=
  ∃ entries : List (Nat × HashedNode K V), ListRepr m.storage_ entries ∧
    m.bucket_iterators_.length = m.buckets_count_ ∧
    ∀ b, b < m.buckets_count_ → ∃ pre run post, entries = pre ++ run ++ post ∧
      (∀ x ∈ run, x.2.hash % m.buckets_count_ = b) ∧
      (∀ x ∈ pre ++ post, x.2.hash % m.buckets_count_ ≠ b) ∧
      m.bucket_iterators_[b]? = some ((addrs run).headD m.storage_.end_) ∧
      (m.bucket_iterators_[b]? = some m.storage_.end_ ↔ run = [])

/-- The calls of the bucket-invariant claim: `emplace` and `insert` of an entry,
`erase(begin() + i)`, `reserve(n)` and `rehash(n)`. -/
inductive MapCall (K V : Type) where
  | emplace (key : K) (value : V)
  | insert (key : K) (value : V)
  | erase (i : Nat)
  | reserve (n : Nat)
  | rehash (n : Nat)

/-- One call. -/
def UnorderedMap.call (m : UnorderedMap K V) (fuel : Nat) :
    MapCall K V → Option (UnorderedMap K V)
  | .emplace k v =>
    match m.emplace fuel k v with
    | none => none
    | some (m1, _, _) => some m1
  | .insert k v =>
    match m.insert fuel (k, v) with
    | none => none
    | some (m1, _, _) => some m1
  | .erase i =>
    match m.storage_.iterAt i with
    | none => none
    | some it => m.erase it
  | .reserve n => m.reserve n
  | .rehash n => m.rehash n

/-- A sequence of calls, left to right. -/
def UnorderedMap.calls (m : UnorderedMap K V) (fuel : Nat) :
    List (MapCall K V) → Option (UnorderedMap K V)
  | [] => some m
  | c :: cs =>
    match m.call fuel c with
    | none => none
    | some m1 => m1.calls fuel cs

end

/-- The state of an `UnorderedMap<size_t, size_t>` after `reserve(bc)` and the inserts of
`(0, 0), (1, 0), ..., (n - 1, 0)` in this order, none of which rehashes: with `n <= bc`
every key is alone in its bucket and has been appended to the list. The node of key `k`
is at address `k + 1`. -/
def rangeMap (n bc : Nat) (policy : LoadPolicy) : UnorderedMap Nat Nat :=
  { buckets_count_ := bc, hasher_ := fun k => k, equaler_ := fun a b => decide (a = b),
    storage_ :=
      { heap := fun a =>
          if a = 0 then some ⟨if n = 0 then 0 else 1, n, none⟩
          else if a ≤ n then
            some ⟨if a = n then 0 else a + 1, a - 1, some ⟨(a - 1, 0), a - 1⟩⟩
          else none,
        node_allocator_ := n + 1, end_ := 0, size_ := n },
    bucket_iterators_ := (List.range bc).map (fun b => if b < n then b + 1 else 0),
    max_load_factor_ := policy }

/-- The entries of `rangeMap n bc policy`, in list order. -/
def rangeEntries (n : Nat) : List (Nat × HashedNode Nat Nat) :=
  (List.range n).map (fun k => (k + 1, ⟨(k, 0), k⟩))

/-- The runs of `rangeMap n bc policy` with `n ≤ bc`: one entry each. -/
def rangeGroups (n : Nat) : List (Group Nat Nat) :=
  (List.range n).map (fun k => (k, [(k + 1, ⟨(k, 0), k⟩)]))

/-! ### `float` arithmetic

A `float` is the rational number it denotes (IEEE 754 binary32: 24 significant bits).
The results of the conversions and operations are rounded to the nearest `float`, ties to
the even significand; the values below are far inside the range of the normal numbers. -/

/-- The integer nearest to `x`, the even one of the two when `x` is half way. -/
def roundHalfEven (x : ℚ) : ℤ :=
  if x - ⌊x⌋ < 1 / 2 then ⌊x⌋
  else if 1 / 2 < x - ⌊x⌋ then ⌊x⌋ + 1
  else if ⌊x⌋ % 2 = 0 then ⌊x⌋ else ⌊x⌋ + 1

/-- The `float` nearest to `x`: with `2^e ≤ |x| < 2^(e+1)` the significand
`x / 2^(e - 23)` is rounded to an integer. -/
def toFloat (x : ℚ) : ℚ :=
  if x = 0 then 0
  else (roundHalfEven (x * 2 ^ (23 - Int.log 2 |x|)) : ℚ) * 2 ^ (Int.log 2 |x| - 23)

/-- The two computations of `emplace` on a `max_load_factor_` that is the `float` `mlf`:
`load_factor() > max_load_factor_` with `load_factor()` being
`float(size()) / float(buckets_count_)`, and
`size_t(2 * (storage_.size() / max_load_factor_ + 2))`. -/
def LoadPolicy.float32 (mlf : ℚ) : LoadPolicy :=
  { exceeds := fun size buckets =>
      decide (mlf < toFloat (toFloat (size : ℚ) / toFloat (buckets : ℚ))),
    target := fun size =>
      (toFloat (2 * toFloat (toFloat (toFloat (size : ℚ) / mlf) + 2))).floor.toNat }

/-- The policy of the member initialiser `max_load_factor_ = 0.5`. -/
def LoadPolicy.default : LoadPolicy := LoadPolicy.float32 (1 / 2)

end UnorderedMapH
namespace UnorderedMapH

open ListH

/-! ## unordered_map.h : `clear` and the move constructor of `UnorderedMap` -/

section
variable {K V : Type}

/-- The member `List::clear` of unordered_map.h: `while (size_ > 0) pop_back();
size_ = 0;`. -/
def clearList {T : Type} (l : LinkedList T) (fuel : Nat) : Option (LinkedList T) :=
  match l.clear fuel with
  | none => none
  | some l1 => some { l1 with size_ := 0 }

/-- The member `clear()`: `bucket_iterators_.clear(); storage_.clear();`. The vector
`bucket_iterators_` is left with no entry; `buckets_count_` is not written. -/
def UnorderedMap.clear (m : UnorderedMap K V) (fuel : Nat) : Option (UnorderedMap K V) :=
  match clearList m.storage_ fuel with
  | none => none
  | some storage1 => some { m with bucket_iterators_ := [], storage_ := storage1 }

/-- The move constructor `UnorderedMap(UnorderedMap&&) = default`, member by member in the
order of declaration: `buckets_count_` is copied, `storage_` is built by `List(List&&)`,
`bucket_iterators_` by the move constructor of `std::vector`, which hands the array over
as it is and leaves the source without entries, and `max_load_factor_` is copied. The
result is the new map and what is left of `other`. -/
def UnorderedMap.move_ctor (other : UnorderedMap K V) :
    Option (UnorderedMap K V × UnorderedMap K V) :=
  match other.storage_.move_ctor with
  | none => none
  | some (storage1, storage0) =>
    some ({ other with storage_ := storage1 },
          { other with storage_ := storage0, bucket_iterators_ := [] })

/-- The index array with every entry that is the position `old` replaced by `new`: what
the loop `for (auto& el : bucket_iterators_) if (el == other.storage_.end())
el = storage_.end();` of the move assignment makes of it. -/
def repoint (old new : Nat) (bis : List Nat) : List Nat :=
  bis.map (fun a => if a = old then new else a)

/-- The map with its index array re-pointed from the position `old` to its own
`storage_.end()`. -/
def UnorderedMap.repointed (m : UnorderedMap K V) (old : Nat) : UnorderedMap K V :=
  { m with bucket_iterators_ := repoint old m.storage_.end_ m.bucket_iterators_ }

end

end UnorderedMapH
namespace ListH

/-! ## stackallocator.h : the copy assignment of `List`

The two list objects and the temporary of `operator=` live in one memory; the allocator
objects are the one allocator state of that memory, so that the exchange of
`node_allocator_` has nothing to exchange. -/

/-- The member `repair_pointers()`:
`end_.next->previous = &end_; end_.previous->next = &end_;`. -/
def LinkedList.repair_pointers {T : Type} (l : LinkedList T) : Option (LinkedList T) :=
  -- end_.next->previous = &end_;
  match nextOf l.heap l.end_ with
  | none => none
  | some nx =>
    match setPrevious l.heap nx l.end_ with
    | none => none
    | some h1 =>
      -- end_.previous->next = &end_;
      match prevOf h1 l.end_ with
      | none => none
      | some pv =>
        match setNext h1 pv l.end_ with
        | none => none
        | some h2 => some { l with heap := h2 }

/-- The call `std::swap(x.previous, y.previous)` on the nodes at `x` and `y`. -/
def swapPrevious {T : Type} (h : Heap T) (x y : Nat) : Option (Heap T) :=
  match prevOf h x, prevOf h y with
  | some px, some py =>
    match setPrevious h x py with
    | none => none
    | some h1 => setPrevious h1 y px
  | _, _ => none

/-- The call `std::swap(x.next, y.next)` on the nodes at `x` and `y`. -/
def swapNext {T : Type} (h : Heap T) (x y : Nat) : Option (Heap T) :=
  match nextOf h x, nextOf h y with
  | some nx, some ny =>
    match setNext h x ny with
    | none => none
    | some h1 => setNext h1 y nx
  | _, _ => none

/-- The copy assignment `operator=(const List& other)` of the list `self`, both lists
living in the memory that `other` holds: `List tmp(other);`, the exchanges of `size_`,
`end_.previous` and `end_.next` with `tmp`, `repair_pointers(); tmp.repair_pointers();`,
and at the `return` the destructor of `tmp`, which runs `clear()` and after which the
object `tmp`, with its member `end_`, is no more. The result is `self` and `other`
afterwards; `threw` is an exception of the copy constructor. -/
def LinkedList.copy_assign {T : Type} (self other : LinkedList T) (ctor : Nat → T → Option T)
    (fuel : Nat) : Option (Outcome (LinkedList T × LinkedList T)) :=
  -- List<T, Allocator> tmp(other);
  match other.copy_ctor ctor fuel with
  | none => none
  | some (.threw t, _) => some (.threw (self.inMemoryOf t, other.inMemoryOf t))
  | some (.done tmp, _) =>
    -- std::swap(end_.previous, tmp.end_.previous);
    match swapPrevious tmp.heap self.end_ tmp.end_ with
    | none => none
    | some h1 =>
    -- std::swap(end_.next, tmp.end_.next);
    match swapNext h1 self.end_ tmp.end_ with
    | none => none
    | some h2 =>
    -- std::swap(size_, tmp.size_); then repair_pointers();
    match ({ heap := h2, node_allocator_ := tmp.node_allocator_, end_ := self.end_,
             size_ := tmp.size_ } : LinkedList T).repair_pointers with
    | none => none
    | some self1 =>
    -- tmp.repair_pointers();
    match ({ heap := self1.heap, node_allocator_ := tmp.node_allocator_, end_ := tmp.end_,
             size_ := self.size_ } : LinkedList T).repair_pointers with
    | none => none
    | some tmp1 =>
    -- return *this; with the destructor of tmp
    match tmp1.clear fuel with
    | none => none
    | some tmp2 =>
      let h3 := tmp2.heap.store tmp2.end_ none
      some (.done ({ self1 with heap := h3, node_allocator_ := tmp2.node_allocator_ },
                   { other with heap := h3, node_allocator_ := tmp2.node_allocator_ }))

/-- The calls `push_back(v)` for the values of a sequence, in order. -/
def LinkedList.push_backs {T : Type} (l : LinkedList T) : List T → Option (LinkedList T)
  | [] => some l
  | v :: vs =>
    match l.push_back v with
    | none => none
    | some l1 => l1.push_backs vs

/-- Two lists in one memory: `a`, default-constructed and filled with `xs` by `push_back`,
and `b`, default-constructed after that and filled with `ys`. -/
def listsOf {T : Type} (xs ys : List T) : Option (LinkedList T × LinkedList T) :=
  match (LinkedList.mk0 T).push_backs xs with
  | none => none
  | some a =>
    match a.default_in.push_backs ys with
    | none => none
    | some b => some (a.inMemoryOf b, b)

/-- What the statement `a = b;` on the lists of `listsOf xs ys` leaves: the size of `a`,
`a.begin()`, `a.end()`, the node that `a.begin()` points to being live or not, the
sequence of `a` from `begin()` to `end()`, and the sequence of `b`. -/
def assignOutcome (xs ys : List Nat) (fuel : Nat) :
    Option (Nat × Option Nat × Nat × Bool × Option (List Nat) × Option (List Nat)) :=
  match listsOf xs ys with
  | none => none
  | some (a, b) =>
    match a.copy_assign b (fun _ x => some x) fuel with
    | some (.done (a1, b1)) =>
      some (a1.size, a1.begin, a1.end,
        (a1.begin.bind (fun p => a1.heap p)).isSome, a1.toList fuel, b1.toList fuel)
    | _ => none

end ListH
namespace DequeH

open ListH (Outcome)

/-! ## deque.h : `insert`, `erase`, the sized constructors, reachable states -/

/-- The member `operator++()` of an iterator into a bucket array of `q` buckets. -/
def Iter.inc (q : Nat) (it : Iter) : Option Iter :=
  -- ++position_; if (position_ == Bucket::size)
  if it.position_ + 1 = Bucket.size then
    -- ++bucket_; position_ = 0; pointer_ = bucket_->elements_;
    Iter.make q (it.bucket_ + 1) 0
  else some ⟨it.bucket_, it.position_ + 1⟩

/-- The member `operator--()` of an iterator into a bucket array of `q` buckets. -/
def Iter.dec (q : Nat) (it : Iter) : Option Iter :=
  if it.position_ = 0 then
    -- --bucket_; position_ = Bucket::size - 1; pointer_ = bucket_->elements_ + Bucket::size - 1;
    Iter.make q (it.bucket_ - 1) (Bucket.size - 1)
  else some ⟨it.bucket_, it.position_ - 1⟩

/-- The member `operator<`. -/
def Iter.lt (it other : Iter) : Bool :=
  (decide (it.bucket_ = other.bucket_) && decide (it.position_ < other.position_)) ||
    decide (it.bucket_ < other.bucket_)

/-- The member `operator>=`, which is `!(*this < other)`. -/
def Iter.ge (it other : Iter) : Bool := !(it.lt other)

/-- The iterator that designates the slot at the bucket-major position `p` of the bucket
array: `iterator(buckets_ + p / Bucket::size, p % Bucket::size)`. -/
def Iter.ofPos (p : Nat) : Iter := ⟨((bucket_index p : Nat) : Int), in_bucket_index p⟩

section
variable {T : Type}

/-- The assignment `(*it) = v` and `buckets_[i][j] = v` to an element: the slot must hold
an object, to which `v` is assigned. -/
def Deque.assignThrough (d : Deque T) (it : Iter) (v : T) : Option (Deque T) :=
  if it.bucket_ < 0 then none
  else
    match slot d.buckets_ it.bucket_.toNat it.position_ with
    | some (some _) =>
      match setSlot d.buckets_ it.bucket_.toNat it.position_ (some v) with
      | none => none
      | some bs => some { d with buckets_ := bs }
    | _ => none

/-- The loop `for (auto iter2 = iter - 1; iter2 >= stop_iter; --iter2, --iter)
(*iter) = (*iter2);` of `insert`, at most `fuel` rounds. -/
def Deque.insertLoop (stop_iter : Iter) : Nat → Deque T → Iter → Iter → Option (Deque T)
  | 0, d, _, iter2 => if iter2.ge stop_iter then none else some d
  | fuel + 1, d, iter, iter2 =>
    if iter2.ge stop_iter then
      -- (*iter) = (*iter2);
      match d.deref iter2 with
      | none => none
      | some x =>
        match d.assignThrough iter x with
        | none => none
        | some d1 =>
          -- --iter2, --iter
          match iter2.dec d1.bucket_quantity_ with
          | none => none
          | some iter2' =>
            match iter.dec d1.bucket_quantity_ with
            | none => none
            | some iter' => Deque.insertLoop stop_iter fuel d1 iter' iter2'
    else some d

/-- The argument `const T& value` of `insert`: a reference to an object outside the
storage of the deque, or to the element in the slot `buckets_[bucket].elements_[position]`
of its storage. The storage of a live bucket stays at the same index of the bucket array
through `push_back`, which copies `new_buckets[i] = buckets_[i]` when it reallocates the
array, so that the pair designates the same object before and after it. -/
inductive ValueRef (T : Type) where
  | outside (v : T)
  | element (bucket : Nat) (position : Nat)

/-- The reference that `operator[](position)` returns. -/
def Deque.ref (d : Deque T) (position : Nat) : ValueRef T :=
  let position := position + (d.begin_bucket_ * Bucket.size + d.begin_index_)
  .element (bucket_index position) (in_bucket_index position)

/-- Reading the object that a reference designates (`none` when the slot holds no
object). -/
def Deque.readRef (d : Deque T) : ValueRef T → Option T
  | .outside v => some v
  | .element bucket position => (slot d.buckets_ bucket position).join

/-- The member `insert(it, value)`. The difference `pos.first -= begin_bucket_` is made in
`size_t`; for an iterator into a bucket before `begin_bucket_` it wraps, and the pointer
sum `buckets_ + begin_bucket_ + pos.first` is then outside the array, which is
undefined. The argument `value` is a reference: it is read by `push_back(value)` and read
again by the last statement, after the loop has moved the elements. -/
def Deque.insert (d : Deque T) (it : Iter) (value : ValueRef T) (fuel : Nat) :
    Option (Deque T) :=
  -- auto pos = get_position(it); pos.first -= begin_bucket_;
  if it.bucket_ < (d.begin_bucket_ : Int) then none
  else
    let pos_first : Nat := (it.bucket_ - (d.begin_bucket_ : Int)).toNat
    let pos_second : Nat := it.position_
    -- push_back(value);
    match d.readRef value with
    | none => none
    | some v0 =>
    match d.push_back v0 with
    | none => none
    | some d1 =>
      -- auto stop_iter = iterator(buckets_ + begin_bucket_ + pos.first, pos.second);
      match Iter.make d1.bucket_quantity_ ((d1.begin_bucket_ + pos_first : Nat) : Int)
          pos_second with
      | none => none
      | some stop_iter =>
        -- auto iter = end() - 1;
        match d1.end with
        | none => none
        | some e =>
          match e.sub d1.bucket_quantity_ 1 with
          | none => none
          | some iter =>
            -- auto iter2 = iter - 1
            match iter.sub d1.bucket_quantity_ 1 with
            | none => none
            | some iter2 =>
              match Deque.insertLoop stop_iter fuel d1 iter iter2 with
              | none => none
              | some d2 =>
                -- buckets_[begin_bucket_ + pos.first][pos.second] = value;
                match d2.readRef value with
                | none => none
                | some v1 =>
                  d2.assignThrough
                    ⟨((d2.begin_bucket_ + pos_first : Nat) : Int), pos_second⟩ v1

/-- The loop `for (; iter2 < end(); ++it, ++iter2) (*it) = (*iter2);` of `erase`, at most
`fuel` rounds. -/
def Deque.eraseLoop : Nat → Deque T → Iter → Iter → Option (Deque T)
  | 0, d, _, iter2 =>
    match d.end with
    | none => none
    | some e => if iter2.lt e then none else some d
  | fuel + 1, d, it, iter2 =>
    match d.end with
    | none => none
    | some e =>
      if iter2.lt e then
        -- (*it) = (*iter2);
        match d.deref iter2 with
        | none => none
        | some x =>
          match d.assignThrough it x with
          | none => none
          | some d1 =>
            -- ++it, ++iter2
            match it.inc d1.bucket_quantity_ with
            | none => none
            | some it' =>
              match iter2.inc d1.bucket_quantity_ with
              | none => none
              | some iter2' => Deque.eraseLoop fuel d1 it' iter2'
      else some d

/-- The member `erase(it)`. -/
def Deque.erase (d : Deque T) (it : Iter) (fuel : Nat) : Option (Deque T) :=
  -- auto iter2 = it + 1;
  match it.add d.bucket_quantity_ 1 with
  | none => none
  | some iter2 =>
    match Deque.eraseLoop fuel d it iter2 with
    | none => none
    | some d1 =>
      -- pop_back();
      d1.pop_back

/-- The expression `begin() + i` for a `size_t` value `i`. -/
def Deque.beginPlus (d : Deque T) (i : Nat) : Option Iter :=
  match d.begin with
  | none => none
  | some b => b.addSize d.bucket_quantity_ i

/-- The call `insert(begin() + i, value)`. -/
def Deque.insertAt (d : Deque T) (i : Nat) (value : ValueRef T) (fuel : Nat) :
    Option (Deque T) :=
  match d.beginPlus i with
  | none => none
  | some it => d.insert it value fuel

/-- The call `erase(begin() + i)`. -/
def Deque.eraseAt (d : Deque T) (i : Nat) (fuel : Nat) : Option (Deque T) :=
  match d.beginPlus i with
  | none => none
  | some it => d.erase it fuel

/-- The iterator that `begin()` followed by `i` increments `++it` gives. -/
def Deque.nth (d : Deque T) : Nat → Option Iter
  | 0 => d.begin
  | i + 1 =>
    match d.nth i with
    | none => none
    | some it => it.inc d.bucket_quantity_

/-- The calls that change a deque: the pushes, the pops, and `insert` and `erase` at the
iterator that `begin()` and `i` increments give, the argument of `insert` being a
reference to an object outside the deque or to one of its elements. -/
inductive DequeCall (T : Type) where
  | push_back (v : T)
  | push_front (v : T)
  | pop_back
  | pop_front
  | insert (i : Nat) (value : ValueRef T)
  | erase (i : Nat)

/-- One call; `fuel` bounds the loops of `insert` and `erase`. -/
def Deque.call (d : Deque T) (fuel : Nat) : DequeCall T → Option (Deque T)
  | .push_back v => d.push_back v
  | .push_front v => d.push_front v
  | .pop_back => d.pop_back
  | .pop_front => d.pop_front
  | .insert i value =>
    match d.nth i with
    | none => none
    | some it => d.insert it value fuel
  | .erase i =>
    match d.nth i with
    | none => none
    | some it => d.erase it fuel

end

end DequeH
namespace SmartPointersH

/-! ## smart_pointers.h : managed objects that own handles

`block_->delete_object()` runs the deleter (`deleter(ptr)`) or the destructor
(`AllocTraitsObject::destroy(alloc, object)`) of the managed object, and the destructor of
an object destroys its data members. When data members of the managed object are
`SharedPtr` or `WeakPtr` objects, their destructors run inside
`SharedPtr::delete_block`, after `--block_->count_shared` and before the test of
`block_->count_weak`. The definitions of this section are those of the operations that
call `SharedPtr::delete_block`, with the managed objects described by the handles they
own; `World.delete_object` is the case of a managed object that owns no handle. The
recursion through the destructors of owned `SharedPtr` objects is bounded by `fuel`. -/

/-- A data member of a managed object that is a handle: the `SharedPtr` or the `WeakPtr`
object of the given number. -/
inductive Member where
  | shared (i : Nat)
  | weak (i : Nat)
deriving DecidableEq, Repr

/-- The handles owned by the managed objects: `members b` are the data members of the
object that the block at address `b` manages, in the order of their destruction. -/
abbrev Members := Nat → List Member

/-- The destructors of the data members `ms`, `del` being `SharedPtr::delete_block`:
`~SharedPtr()` is `delete_block()` followed by the end of the object, `~WeakPtr()` is
`WeakPtr.dtor`. -/
def destroyMembers (del : World → Nat → Option World) : List Member → World → Option World
  | [], w => some w
  | .shared i :: ms, w =>
    match del w i with
    | none => none
    | some w1 => destroyMembers del ms { w1 with shared := w1.shared.set i none }
  | .weak i :: ms, w =>
    match WeakPtr.dtor w i with
    | none => none
    | some w1 => destroyMembers del ms w1

/-- The call `block_->delete_object()` on the block at address `b`: the invocation is
counted, and the destructor of the managed object destroys the handles it owns. -/
def Owning.delete_object (del : World → Nat → Option World) (members : Members) (w : World)
    (b : Nat) : Option World :=
  destroyMembers del (members b) (w.delete_object b)

/-- The member `SharedPtr::delete_block` of object `self`. The last statement
`block_ = nullptr` writes the member of `self`, which is undefined when the destructors
have ended the object `self` meanwhile. -/
def Owning.SharedPtr.delete_block (members : Members) : Nat → World → Nat → Option World
  | 0, _, _ => none
  | fuel + 1, w, self =>
    match w.sharedBlock self with
    | none => none
    | some none => some w
    | some (some b) =>
      -- --block_->count_shared;
      let w1 := w.modify b (fun blk => { blk with count_shared := dec blk.count_shared })
      if (w1.blocks b).count_shared = 0 then
        -- block_->delete_object();
        match Owning.delete_object (Owning.SharedPtr.delete_block members fuel) members w1 b
          with
        | none => none
        | some w3 =>
          -- if (block_->count_weak == 0) block_->~BaseControlBlock();
          let w4 := if (w3.blocks b).count_weak = 0 then w3.release b else w3
          -- block_ = nullptr;
          match w4.sharedBlock self with
          | none => none
          | some _ => some (w4.setShared self none)
      else some (w1.setShared self none)

/-- The state of `SharedPtr::delete_block` of object `self` when
`block_->delete_object()` has returned, before the test of `block_->count_weak`; `none`
when the call does not get there. -/
def Owning.SharedPtr.afterDeleteObject (members : Members) : Nat → World → Nat → Option World
  | 0, _, _ => none
  | fuel + 1, w, self =>
    match w.sharedBlock self with
    | some (some b) =>
      let w1 := w.modify b (fun blk => { blk with count_shared := dec blk.count_shared })
      if (w1.blocks b).count_shared = 0 then
        Owning.delete_object (Owning.SharedPtr.delete_block members fuel) members w1 b
      else none
    | _ => none

/-- The copy assignments `operator=(const SharedPtr&)` and
`operator=(const SharedPtr<U>&)`. -/
def Owning.SharedPtr.assign_copy (members : Members) (fuel : Nat) (w : World)
    (self other : Nat) : Option World :=
  match Owning.SharedPtr.delete_block members fuel w self with
  | none => none
  | some w1 =>
    match w1.sharedBlock other with
    | none => none
    | some ob =>
      let w2 := w1.setShared self ob
      match ob with
      | none => some w2
      | some b => some (w2.incShared b)

/-- The move assignments `operator=(SharedPtr&&)` and `operator=(SharedPtr<U>&&)`. -/
def Owning.SharedPtr.assign_move (members : Members) (fuel : Nat) (w : World)
    (self other : Nat) : Option World :=
  match Owning.SharedPtr.delete_block members fuel w self with
  | none => none
  | some w1 =>
    match w1.sharedBlock other with
    | none => none
    | some ob =>
      let w2 := w1.setShared self ob
      some (w2.setShared other none)

/-- The member `reset()`. -/
def Owning.SharedPtr.reset (members : Members) (fuel : Nat) (w : World) (self : Nat) :
    Option World :=
  Owning.SharedPtr.delete_block members fuel w self

/-- The member `reset(U* ptr)`. -/
def Owning.SharedPtr.reset_raw (members : Members) (fuel : Nat) (w : World) (self : Nat)
    (ptr : Nat) : Option World :=
  match Owning.SharedPtr.delete_block members fuel w self with
  | none => none
  | some w1 =>
    let (b, w2) := w1.newBlock (.adopting ptr)
    some ((w2.setShared self (some b)).incShared b)

/-- The destructor `~SharedPtr()`: `delete_block()`, then the object is gone. -/
def Owning.SharedPtr.dtor (members : Members) (fuel : Nat) (w : World) (self : Nat) :
    Option World :=
  match Owning.SharedPtr.delete_block members fuel w self with
  | none => none
  | some w1 => some { w1 with shared := w1.shared.set self none }

/-- One operation; the operations that do not call `SharedPtr::delete_block` are those of
`step`. -/
def Owning.step (members : Members) (fuel : Nat) (w : World) : Op → Option World
  | .sp_assign_copy s o => Owning.SharedPtr.assign_copy members fuel w s o
  | .sp_assign_move s o => Owning.SharedPtr.assign_move members fuel w s o
  | .sp_reset s => Owning.SharedPtr.reset members fuel w s
  | .sp_reset_raw s p => Owning.SharedPtr.reset_raw members fuel w s p
  | .sp_dtor s => Owning.SharedPtr.dtor members fuel w s
  | .sp_default => SmartPointersH.step w .sp_default
  | .sp_raw p => SmartPointersH.step w (.sp_raw p)
  | .sp_make => SmartPointersH.step w .sp_make
  | .sp_allocate => SmartPointersH.step w .sp_allocate
  | .sp_copy o => SmartPointersH.step w (.sp_copy o)
  | .sp_move o => SmartPointersH.step w (.sp_move o)
  | .sp_swap s o => SmartPointersH.step w (.sp_swap s o)
  | .wp_default => SmartPointersH.step w .wp_default
  | .wp_shared p => SmartPointersH.step w (.wp_shared p)
  | .wp_copy p => SmartPointersH.step w (.wp_copy p)
  | .wp_move p => SmartPointersH.step w (.wp_move p)
  | .wp_assign_copy s o => SmartPointersH.step w (.wp_assign_copy s o)
  | .wp_assign_move s o => SmartPointersH.step w (.wp_assign_move s o)
  | .wp_dtor s => SmartPointersH.step w (.wp_dtor s)
  | .wp_lock s => SmartPointersH.step w (.wp_lock s)

/-- A sequence of operations, left to right. -/
def Owning.run (members : Members) (fuel : Nat) (w : World) : List Op → Option World
  | [] => some w
  | op :: ops =>
    match Owning.step members fuel w op with
    | none => none
    | some w1 => Owning.run members fuel w1 ops

/-- The managed object of the block at address 0 owns the `WeakPtr` object number 0, as
in `struct Node { WeakPtr<Node> self; };`; no other managed object owns a handle. -/
def selfObserver : Members := fun b => if b = 0 then [.weak 0] else []

/-- The program
`Node* n = new Node; SharedPtr<Node> p(n); p->self = p;`
with `struct Node { WeakPtr<Node> self; };`: the member `n->self` is the `WeakPtr` object
number 0, `p` is the `SharedPtr` object number 0, and the assignment converts `p` to a
temporary `WeakPtr` (number 1), move-assigns the member from it and destroys it. -/
def selfObserverSetup : List Op :=
  [.wp_default, .sp_raw 7, .wp_shared 0, .wp_assign_move 0 1, .wp_dtor 1]

end SmartPointersH
namespace UnorderedMapH

/-! ## unordered_map.h : a long run of inserts -/

/-- The calls `insert({0, 0}), insert({1, 0}), ..., insert({n - 1, 0})`, in this
order. -/
def insertsUpTo (n : Nat) : List (MapOp Nat Nat) :=
  (List.range n).map (fun k => MapOp.insert k 0)

/-- The default-constructed `UnorderedMap<size_t, size_t>`: the hash of an integer is the
integer, the equality is `std::equal_to`, and the load factor computations are those of
the member initialiser `max_load_factor_ = 0.5` in `float`. -/
def natMapFloat : UnorderedMap Nat Nat :=
  UnorderedMap.mk0 (fun k => k) (fun a b => decide (a = b)) LoadPolicy.default

/-- The map `m` holds `n` entries whose keys are below `n`, with the hash function, the
equality and the load factor computations of `natMapFloat`; it is well formed, its bucket
count is at most `2^34`, and from `2^31` entries on the bucket count is more than half the
size. -/
def InsertedUpTo (n : Nat) (m : UnorderedMap Nat Nat) : Prop :=
  ∃ groups, MapRepr m groups ∧ m.size = n ∧ m.hasher_ = (fun k => k) ∧
    m.equaler_ = (fun a b => decide (a = b)) ∧ m.max_load_factor_ = LoadPolicy.default ∧
    (∀ x ∈ flatten groups, x.2.node.1 < n) ∧ m.buckets_count_ ≤ 2 ^ 34 ∧
    (2 ^ 31 ≤ n → n < 2 * m.buckets_count_)

end UnorderedMapH
namespace DequeH

open SeqRef

/-! ## deque.h : the deque refines a sequence -/

section
variable {T : Type}

theorem slot_setSlot {bs bs' : List (Bucket T)} {i j : Nat} {x : Option T}
    (h : setSlot bs i j x = some bs') (i' j' : Nat) :
    slot bs' i' j' = if i' = i ∧ j' = j then some x else slot bs i' j' := by
  unfold setSlot at h
  cases hb : bs[i]? with
  | none => simp [hb] at h
  | some b =>
    simp only [hb] at h
    split at h
    · rename_i hj
      injection h with h
      subst h
      have hi : i < bs.length := by
        rcases List.getElem?_eq_some.1 hb with ⟨hi, _⟩
        exact hi
      unfold slot
      by_cases hii : i' = i
      · subst hii
        simp only [List.getElem?_set, hi, if_true, hb, true_and]
        by_cases hjj : j' = j
        · subst hjj; simp [hj]
        · simp [hjj, List.getElem?_set, Ne.symm hjj]
      · simp [List.getElem?_set, Ne.symm hii, hii]
    · simp at h

theorem setSlot_length {bs bs' : List (Bucket T)} {i j : Nat} {x : Option T}
    (h : setSlot bs i j x = some bs') : bs'.length = bs.length := by
  unfold setSlot at h
  cases hb : bs[i]? with
  | none => simp [hb] at h
  | some b =>
    simp only [hb] at h
    split at h
    · injection h with h
      subst h
      simp
    · simp at h

theorem setSlot_WF {bs bs' : List (Bucket T)} {i j : Nat} {x : Option T}
    (h : setSlot bs i j x = some bs') (hwf : WF bs) : WF bs' := by
  unfold setSlot at h
  cases hb : bs[i]? with
  | none => simp [hb] at h
  | some b =>
    simp only [hb] at h
    split at h
    · injection h with h
      subst h
      intro k c hk
      rw [List.getElem?_set] at hk
      split at hk
      · split at hk
        · injection hk with hk
          subst hk
          simpa using hwf i b hb
        · simp at hk
      · exact hwf k c hk
    · simp at h

theorem setSlot_isSome {bs : List (Bucket T)} (hwf : WF bs) {i j : Nat} (x : Option T)
    (hi : i < bs.length) (hj : j < Bucket.size) : ∃ bs', setSlot bs i j x = some bs' := by
  unfold setSlot
  have hb : bs[i]? = some bs[i] := List.getElem?_eq_getElem hi
  rw [hb]
  have := hwf i _ hb
  simp [this, hj]

theorem pos_eq_iff (p p' : Nat) :
    (bucket_index p' = bucket_index p ∧ in_bucket_index p' = in_bucket_index p) ↔ p' = p := by
  unfold bucket_index in_bucket_index Bucket.size
  omega

theorem cell_setSlot {bs bs' : List (Bucket T)} {p : Nat} {x : Option T}
    (h : setSlot bs (bucket_index p) (in_bucket_index p) x = some bs') (p' : Nat) :
    cell bs' p' = if p' = p then some x else cell bs p' := by
  unfold cell
  rw [slot_setSlot h]
  by_cases hp : p' = p
  · subst hp; simp
  · have : ¬ (bucket_index p' = bucket_index p ∧ in_bucket_index p' = in_bucket_index p) := by
      rw [pos_eq_iff]; exact hp
    simp [this, hp]

theorem copyBuckets_spec (old : List (Bucket T)) (shift : Nat) :
    ∀ (n i : Nat) (nb : List (Bucket T)), i + n ≤ old.length → i + n + shift ≤ nb.length →
      ∃ nb', copyBuckets old shift n i nb = some nb' ∧ nb'.length = nb.length ∧
        ∀ k, nb'[k]? = if i + shift ≤ k ∧ k < i + shift + n then old[k - shift]? else nb[k]? := by
  intro n
  induction n with
  | zero =>
    intro i nb _ _
    refine ⟨nb, rfl, rfl, ?_⟩
    intro k
    have : ¬ (i + shift ≤ k ∧ k < i + shift + 0) := by omega
    rw [if_neg this]
  | succ n ih =>
    intro i nb h1 h2
    have hi : i < old.length := by omega
    have hb : old[i]? = some old[i] := List.getElem?_eq_getElem hi
    have hlt : i + shift < nb.length := by omega
    obtain ⟨nb', hrun, hlen, hget⟩ :=
      ih (i + 1) (nb.set (i + shift) old[i]) (by omega) (by simp; omega)
    refine ⟨nb', ?_, ?_, ?_⟩
    · simp only [copyBuckets, hb, hlt, if_true]
      exact hrun
    · simpa using hlen
    · intro k
      rw [hget k, List.getElem?_set]
      by_cases hk : k = i + shift
      · subst hk
        have h3 : ¬ (i + 1 + shift ≤ i + shift ∧ i + shift < i + 1 + shift + n) := by omega
        have h4 : (i + shift ≤ i + shift ∧ i + shift < i + shift + (n + 1)) := by omega
        simp [h3, h4, hlt, hb]
      · have h5 : ¬ (i + shift = k) := fun h => hk h.symm
        by_cases h6 : i + 1 + shift ≤ k ∧ k < i + 1 + shift + n
        · have h7 : i + shift ≤ k ∧ k < i + shift + (n + 1) := by omega
          simp [h6, h7]
        · have h7 : ¬ (i + shift ≤ k ∧ k < i + shift + (n + 1)) := by omega
          simp [h6, h7, h5]

theorem WF_newBuckets (n : Nat) : WF (newBuckets T n) := by
  intro i b hb
  unfold newBuckets at hb
  rw [List.getElem?_replicate] at hb
  split at hb
  · injection hb with hb
    subst hb
    simp [Bucket.mk0]
  · simp at hb

theorem cell_newBuckets (n p : Nat) (h : bucket_index p < n) :
    cell (newBuckets T n) p = some none := by
  unfold cell slot newBuckets
  rw [List.getElem?_replicate]
  have h2 : in_bucket_index p < Bucket.size := by
    unfold in_bucket_index Bucket.size; omega
  simp [h, Bucket.mk0, List.getElem?_replicate, h2]

theorem backSlot_eq {d : Deque T} (hbb : 1 ≤ d.begin_bucket_)
    (hbi : d.begin_index_ < Bucket.size) (h0 : d.size_ = 0 → d.begin_index_ = 0) :
    d.backSlot =
      (bucket_index (d.first + d.size_), in_bucket_index (d.first + d.size_)) := by
  unfold Deque.backSlot Deque.get_rbegin Deque.first bucket_index in_bucket_index
  unfold Bucket.size at *
  by_cases hs : d.size_ = 0
  · have hz := h0 hs
    simp only [hs, hz, if_true]
    refine Prod.ext ?_ ?_
    · simp; omega
    · simp
  · simp only [hs, if_false]
    split
    · refine Prod.ext ?_ ?_ <;> simp <;> omega
    · refine Prod.ext ?_ ?_ <;> simp <;> omega

theorem push_back_eq (d : Deque T) (value : T) :
    d.push_back value =
      if d.backSlot.1 = d.bucket_quantity_ - 1 ∧ d.backSlot.2 = Bucket.size - 1 then
        match copyBuckets d.buckets_ 0 (d.get_rbegin.1 + 1 - d.begin_bucket_) d.begin_bucket_
            (newBuckets T (d.bucket_quantity_ <<< 1)) with
        | none => none
        | some nb =>
          match construct nb d.backSlot.1 d.backSlot.2 value with
          | none => none
          | some nb2 =>
            some { d with buckets_ := nb2, bucket_quantity_ := d.bucket_quantity_ <<< 1,
                          size_ := d.size_ + 1 }
      else
        match construct d.buckets_ d.backSlot.1 d.backSlot.2 value with
        | none => none
        | some nb => some { d with buckets_ := nb, size_ := d.size_ + 1 } := rfl

theorem slot_congr {bs bs' : List (Bucket T)} {i i' : Nat} (h : bs'[i']? = bs[i]?) (j : Nat) :
    slot bs' i' j = slot bs i j := by
  unfold slot
  rw [h]

theorem WF_copy {old nb nb' : List (Bucket T)} {lo hi shift : Nat} (hold : WF old)
    (hnb : WF nb)
    (hget : ∀ k, nb'[k]? = if lo ≤ k ∧ k < hi then old[k - shift]? else nb[k]?) :
    WF nb' := by
  intro k b hb
  rw [hget k] at hb
  split at hb
  · exact hold _ _ hb
  · exact hnb _ _ hb

theorem append_getElem?_last (l : List T) (v : T) : (l ++ [v])[l.length]? = some v := by
  rw [List.getElem?_append_right (Nat.le_refl _)]
  simp

theorem deque_push_back_repr {d : Deque T} {l : List T} (h : Repr d l) (v : T) :
    ∃ d', d.push_back v = some d' ∧ Repr d' (l ++ [v]) := by
  obtain ⟨hlen, hwf, hq, hbb, hbi, hE, h0, hsz, hcells⟩ := h
  rw [push_back_eq, backSlot_eq hbb hbi h0]
  simp only []
  have hjlt : in_bucket_index (d.first + d.size_) < Bucket.size := by
    unfold in_bucket_index Bucket.size; omega
  by_cases hg : bucket_index (d.first + d.size_) = d.bucket_quantity_ - 1 ∧
      in_bucket_index (d.first + d.size_) = Bucket.size - 1
  · rw [if_pos hg]
    have hs : d.size_ ≠ 0 := by
      intro hs
      have hz := h0 hs
      have := hg.2
      unfold in_bucket_index Deque.first Bucket.size at this
      rw [hs, hz] at this
      omega
    have hlast : d.get_rbegin.1 = d.bucket_quantity_ - 1 := by
      have h1 := hg.1
      have h2 := hg.2
      unfold Deque.get_rbegin
      unfold bucket_index in_bucket_index Deque.first Bucket.size at *
      simp only [hs, if_false]
      omega
    have hshift : d.bucket_quantity_ <<< 1 = d.bucket_quantity_ * 2 := by
      simp [Nat.shiftLeft_eq]
    obtain ⟨nb, hcopy, hnblen, hnbget⟩ :=
      copyBuckets_spec d.buckets_ 0 (d.bucket_quantity_ - 1 + 1 - d.begin_bucket_)
        d.begin_bucket_ (newBuckets T (d.bucket_quantity_ <<< 1))
        (by
          have h1 := hg.1
          unfold bucket_index in_bucket_index Deque.first Bucket.size at *
          omega)
        (by
          have h1 := hg.1
          simp only [newBuckets, List.length_replicate, hshift]
          unfold bucket_index in_bucket_index Deque.first Bucket.size at *
          omega)
    rw [hlast, hcopy]
    simp only []
    have hnblen2 : nb.length = d.bucket_quantity_ * 2 := by
      rw [hnblen]; simp [newBuckets, hshift]
    have hwfnb : WF nb := WF_copy hwf (WF_newBuckets _) hnbget
    obtain ⟨nb2, hset⟩ := setSlot_isSome hwfnb (some v)
      (show bucket_index (d.first + d.size_) < nb.length by rw [hg.1, hnblen2]; omega) hjlt
    simp only [construct, hset]
    refine ⟨_, rfl, ?_⟩
    refine ⟨?_, setSlot_WF hset hwfnb, ?_, hbb, hbi, ?_, ?_, ?_, ?_⟩
    · simp only [setSlot_length hset, hnblen2, hshift]
    · simp only [hshift]; omega
    · show d.first + (d.size_ + 1) + 1 ≤ Bucket.size * (d.bucket_quantity_ <<< 1)
      have h1 := hg.1
      have h2 := hg.2
      rw [hshift]
      unfold bucket_index in_bucket_index Deque.first Bucket.size at *
      omega
    · intro hc; simp at hc
    · simp [hsz]
    · intro i hi
      show cell nb2 (d.first + i) = some (l ++ [v])[i]?
      rw [cell_setSlot hset]
      rw [List.length_append, List.length_singleton] at hi
      by_cases hil : i = l.length
      · subst hil
        rw [hsz, if_pos rfl, append_getElem?_last]
      · have hil2 : i < l.length := by omega
        have hne : ¬ (d.first + i = d.first + d.size_) := by omega
        rw [if_neg hne, List.getElem?_append_left hil2, ← hcells i hil2]
        unfold cell
        apply slot_congr
        rw [hnbget]
        have h1 := hg.1
        have hin : d.begin_bucket_ + 0 ≤ bucket_index (d.first + i) ∧
            bucket_index (d.first + i) <
              d.begin_bucket_ + 0 + (d.bucket_quantity_ - 1 + 1 - d.begin_bucket_) := by
          unfold bucket_index in_bucket_index Deque.first Bucket.size at *
          omega
        rw [if_pos hin]
        simp
  · rw [if_neg hg]
    have hlt : d.first + d.size_ + 1 < Bucket.size * d.bucket_quantity_ := by
      rcases Nat.lt_or_ge (d.first + d.size_ + 1) (Bucket.size * d.bucket_quantity_) with h | h
      · exact h
      · exfalso
        apply hg
        unfold bucket_index in_bucket_index Deque.first Bucket.size at *
        omega
    obtain ⟨nb2, hset⟩ := setSlot_isSome hwf (some v)
      (show bucket_index (d.first + d.size_) < d.buckets_.length by
        rw [hlen]
        unfold bucket_index in_bucket_index Deque.first Bucket.size at *
        omega) hjlt
    simp only [construct, hset]
    refine ⟨_, rfl, ?_⟩
    refine ⟨?_, setSlot_WF hset hwf, hq, hbb, hbi, ?_, ?_, ?_, ?_⟩
    · simp only [setSlot_length hset, hlen]
    · show d.first + (d.size_ + 1) + 1 ≤ Bucket.size * d.bucket_quantity_
      omega
    · intro hc; simp at hc
    · simp [hsz]
    · intro i hi
      show cell nb2 (d.first + i) = some (l ++ [v])[i]?
      rw [cell_setSlot hset]
      rw [List.length_append, List.length_singleton] at hi
      by_cases hil : i = l.length
      · subst hil
        rw [hsz, if_pos rfl, append_getElem?_last]
      · have hil2 : i < l.length := by omega
        have hne : ¬ (d.first + i = d.first + d.size_) := by omega
        rw [if_neg hne, List.getElem?_append_left hil2, ← hcells i hil2]

theorem destroy_eq {bs : List (Bucket T)} {i j : Nat} {x : T}
    (h : slot bs i j = some (some x)) : destroy bs i j = setSlot bs i j none := by
  unfold destroy
  rw [h]

theorem deque_push_front_repr {d : Deque T} {l : List T} (h : Repr d l) (v : T) :
    ∃ d', d.push_front v = some d' ∧ Repr d' (v :: l) := by
  obtain ⟨hlen, hwf, hq, hbb, hbi, hE, h0, hsz, hcells⟩ := h
  unfold Deque.push_front
  by_cases hg : d.begin_bucket_ = 1 ∧ d.begin_index_ = 0
  · rw [if_pos hg]
    simp only []
    obtain ⟨hb1, hb0⟩ := hg
    have hshift : d.bucket_quantity_ <<< 1 = d.bucket_quantity_ * 2 := by
      simp [Nat.shiftLeft_eq]
    have hn : d.get_rbegin.1 + 1 - d.begin_bucket_ = (d.size_ + 31) / 32 := by
      unfold Deque.get_rbegin
      by_cases hs : d.size_ = 0
      · simp [hs, hb1]
      · simp only [hs, if_false, hb1, hb0]
        unfold Bucket.size
        omega
    obtain ⟨nb, hcopy, hnblen, hnbget⟩ :=
      copyBuckets_spec d.buckets_ d.bucket_quantity_ ((d.size_ + 31) / 32)
        d.begin_bucket_ (newBuckets T (d.bucket_quantity_ <<< 1))
        (by
          unfold Deque.first Bucket.size at *
          omega)
        (by
          simp only [newBuckets, List.length_replicate, hshift]
          unfold Deque.first Bucket.size at *
          omega)
    rw [hn, hcopy]
    simp only []
    have hnblen2 : nb.length = d.bucket_quantity_ * 2 := by
      rw [hnblen]; simp [newBuckets, hshift]
    have hwfnb : WF nb := WF_copy hwf (WF_newBuckets _) hnbget
    have hbk : bucket_index (d.bucket_quantity_ * 32 + 31) = d.bucket_quantity_ := by
      unfold bucket_index Bucket.size; omega
    have hik : in_bucket_index (d.bucket_quantity_ * 32 + 31) = Bucket.size - 1 := by
      unfold in_bucket_index Bucket.size; omega
    obtain ⟨nb2, hset⟩ := setSlot_isSome hwfnb (some v)
      (show bucket_index (d.bucket_quantity_ * 32 + 31) < nb.length by
        rw [hbk, hnblen2]; omega)
      (show in_bucket_index (d.bucket_quantity_ * 32 + 31) < Bucket.size by
        unfold in_bucket_index Bucket.size; omega)
    have hset2 := hset
    rw [hbk, hik] at hset2
    simp only [construct, hset2]
    refine ⟨_, rfl, ?_⟩
    refine ⟨?_, setSlot_WF hset hwfnb, ?_, ?_, ?_, ?_, ?_, ?_, ?_⟩
    · simp only [setSlot_length hset, hnblen2, hshift]
    · simp only [hshift]; omega
    · show 1 ≤ d.bucket_quantity_
      omega
    · show Bucket.size - 1 < Bucket.size
      unfold Bucket.size; omega
    · show d.bucket_quantity_ * Bucket.size + (Bucket.size - 1) + (d.size_ + 1) + 1
        ≤ Bucket.size * (d.bucket_quantity_ <<< 1)
      rw [hshift]
      unfold Deque.first Bucket.size at *
      omega
    · intro hc; simp at hc
    · simp [hsz]
    · intro i hi
      show cell nb2 (d.bucket_quantity_ * Bucket.size + (Bucket.size - 1) + i)
        = some (v :: l)[i]?
      rw [cell_setSlot hset]
      cases i with
      | zero =>
        have : d.bucket_quantity_ * Bucket.size + (Bucket.size - 1) + 0
            = d.bucket_quantity_ * 32 + 31 := by
          unfold Bucket.size; omega
        rw [if_pos this]
        simp
      | succ j =>
        have hj : j < l.length := by simpa using hi
        have hne : ¬ (d.bucket_quantity_ * Bucket.size + (Bucket.size - 1) + (j + 1)
            = d.bucket_quantity_ * 32 + 31) := by
          unfold Bucket.size; omega
        rw [if_neg hne, List.getElem?_cons_succ, ← hcells j hj]
        unfold cell
        have hin : in_bucket_index
            (d.bucket_quantity_ * Bucket.size + (Bucket.size - 1) + (j + 1))
            = in_bucket_index (d.first + j) := by
          unfold in_bucket_index Deque.first Bucket.size
          rw [hb1, hb0]
          omega
        rw [hin]
        apply slot_congr
        rw [hnbget]
        have hrange : d.begin_bucket_ + d.bucket_quantity_ ≤
              bucket_index (d.bucket_quantity_ * Bucket.size + (Bucket.size - 1) + (j + 1)) ∧
            bucket_index (d.bucket_quantity_ * Bucket.size + (Bucket.size - 1) + (j + 1)) <
              d.begin_bucket_ + d.bucket_quantity_ + (d.size_ + 31) / 32 := by
          unfold bucket_index Bucket.size
          rw [hb1]
          omega
        rw [if_pos hrange]
        congr 1
        unfold bucket_index Deque.first Bucket.size
        rw [hb1, hb0]
        omega
  · rw [if_neg hg]
    simp only []
    have hfirst : 32 < d.first := by
      unfold Deque.first Bucket.size at *
      omega
    by_cases hpos : d.begin_index_ > 0
    · simp only [hpos, if_true]
      have hp : d.begin_bucket_ * Bucket.size + (d.begin_index_ - 1) = d.first - 1 := by
        unfold Deque.first Bucket.size at *
        omega
      have hbk : bucket_index (d.first - 1) = d.begin_bucket_ := by
        unfold bucket_index Deque.first Bucket.size at *
        omega
      have hik : in_bucket_index (d.first - 1) = d.begin_index_ - 1 := by
        unfold in_bucket_index Deque.first Bucket.size at *
        omega
      obtain ⟨nb2, hset⟩ := setSlot_isSome hwf (some v)
        (show bucket_index (d.first - 1) < d.buckets_.length by
          rw [hlen]
          unfold bucket_index Deque.first Bucket.size at *
          omega)
        (show in_bucket_index (d.first - 1) < Bucket.size by
          unfold in_bucket_index Bucket.size; omega)
      have hset2 := hset
      rw [hbk, hik] at hset2
      simp only [construct, hset2]
      refine ⟨_, rfl, ?_⟩
      refine ⟨?_, setSlot_WF hset hwf, hq, hbb, ?_, ?_, ?_, ?_, ?_⟩
      · simp only [setSlot_length hset, hlen]
      · show d.begin_index_ - 1 < Bucket.size
        omega
      · show d.begin_bucket_ * Bucket.size + (d.begin_index_ - 1) + (d.size_ + 1) + 1
          ≤ Bucket.size * d.bucket_quantity_
        rw [hp]; omega
      · intro hc; simp at hc
      · simp [hsz]
      · intro i hi
        show cell nb2 (d.begin_bucket_ * Bucket.size + (d.begin_index_ - 1) + i)
          = some (v :: l)[i]?
        rw [hp, cell_setSlot hset]
        cases i with
        | zero => simp
        | succ j =>
          have hj : j < l.length := by simpa using hi
          have hne : ¬ (d.first - 1 + (j + 1) = d.first - 1) := by omega
          have he : d.first - 1 + (j + 1) = d.first + j := by omega
          rw [if_neg hne, List.getElem?_cons_succ, ← hcells j hj, he]
    · simp only [hpos, if_false]
      have hbi0 : d.begin_index_ = 0 := by omega
      have hp : (d.begin_bucket_ - 1) * Bucket.size + (Bucket.size - 1) = d.first - 1 := by
        unfold Deque.first Bucket.size at *
        omega
      have hbk : bucket_index (d.first - 1) = d.begin_bucket_ - 1 := by
        unfold bucket_index Deque.first Bucket.size at *
        omega
      have hik : in_bucket_index (d.first - 1) = Bucket.size - 1 := by
        unfold in_bucket_index Deque.first Bucket.size at *
        omega
      obtain ⟨nb2, hset⟩ := setSlot_isSome hwf (some v)
        (show bucket_index (d.first - 1) < d.buckets_.length by
          rw [hlen]
          unfold bucket_index Deque.first Bucket.size at *
          omega)
        (show in_bucket_index (d.first - 1) < Bucket.size by
          unfold in_bucket_index Bucket.size; omega)
      have hset2 := hset
      rw [hbk, hik] at hset2
      simp only [construct, hset2]
      refine ⟨_, rfl, ?_⟩
      refine ⟨?_, setSlot_WF hset hwf, hq, ?_, ?_, ?_, ?_, ?_, ?_⟩
      · simp only [setSlot_length hset, hlen]
      · show 1 ≤ d.begin_bucket_ - 1
        unfold Deque.first Bucket.size at *
        omega
      · show Bucket.size - 1 < Bucket.size
        unfold Bucket.size; omega
      · show (d.begin_bucket_ - 1) * Bucket.size + (Bucket.size - 1) + (d.size_ + 1) + 1
          ≤ Bucket.size * d.bucket_quantity_
        rw [hp]; omega
      · intro hc; simp at hc
      · simp [hsz]
      · intro i hi
        show cell nb2 ((d.begin_bucket_ - 1) * Bucket.size + (Bucket.size - 1) + i)
          = some (v :: l)[i]?
        rw [hp, cell_setSlot hset]
        cases i with
        | zero => simp
        | succ j =>
          have hj : j < l.length := by simpa using hi
          have hne : ¬ (d.first - 1 + (j + 1) = d.first - 1) := by omega
          have he : d.first - 1 + (j + 1) = d.first + j := by omega
          rw [if_neg hne, List.getElem?_cons_succ, ← hcells j hj, he]

theorem deque_pop_back_repr {d : Deque T} {l : List T} (h : Repr d l) (hne : l ≠ []) :
    ∃ d', d.pop_back = some d' ∧ Repr d' l.dropLast := by
  obtain ⟨hlen, hwf, hq, hbb, hbi, hE, h0, hsz, hcells⟩ := h
  have hlpos : 0 < l.length := List.length_pos.2 hne
  have hs : d.size_ ≠ 0 := by omega
  have hpos : d.get_rbegin =
      (bucket_index (d.first + (d.size_ - 1)), in_bucket_index (d.first + (d.size_ - 1))) := by
    unfold Deque.get_rbegin bucket_index in_bucket_index Deque.first
    unfold Bucket.size at *
    simp only [hs, if_false]
    refine Prod.ext ?_ ?_
    · simp; omega
    · simp; omega
  have hlast := hcells (d.size_ - 1) (by omega)
  obtain ⟨x, hx⟩ : ∃ x, l[d.size_ - 1]? = some x :=
    ⟨l[d.size_ - 1], List.getElem?_eq_getElem (by omega)⟩
  rw [hx] at hlast
  unfold Deque.pop_back
  rw [hpos]
  simp only []
  rw [destroy_eq hlast]
  obtain ⟨nb, hset⟩ := setSlot_isSome hwf (none : Option T)
    (show bucket_index (d.first + (d.size_ - 1)) < d.buckets_.length by
      rw [hlen]
      unfold bucket_index Deque.first Bucket.size at *
      omega)
    (show in_bucket_index (d.first + (d.size_ - 1)) < Bucket.size by
      unfold in_bucket_index Bucket.size; omega)
  rw [hset]
  simp only []
  by_cases h1 : d.size_ - 1 = 0
  · rw [if_pos h1]
    refine ⟨_, rfl, ?_⟩
    have hhalf : d.bucket_quantity_ >>> 1 = d.bucket_quantity_ / 2 := by
      simp [Nat.shiftRight_eq_div_pow]
    refine ⟨?_, setSlot_WF hset hwf, hq, ?_, ?_, ?_, ?_, ?_, ?_⟩
    · simp only [setSlot_length hset, hlen]
    · show 1 ≤ d.bucket_quantity_ >>> 1
      rw [hhalf]; omega
    · show 0 < Bucket.size
      unfold Bucket.size; omega
    · show d.bucket_quantity_ >>> 1 * Bucket.size + 0 + (d.size_ - 1) + 1
        ≤ Bucket.size * d.bucket_quantity_
      rw [hhalf, h1]
      unfold Bucket.size
      omega
    · intro _; rfl
    · show d.size_ - 1 = l.dropLast.length
      rw [List.length_dropLast, hsz]
    · intro i hi
      rw [List.length_dropLast] at hi
      omega
  · rw [if_neg h1]
    refine ⟨_, rfl, ?_⟩
    refine ⟨?_, setSlot_WF hset hwf, hq, hbb, hbi, ?_, ?_, ?_, ?_⟩
    · simp only [setSlot_length hset, hlen]
    · show d.first + (d.size_ - 1) + 1 ≤ Bucket.size * d.bucket_quantity_
      omega
    · intro hc; exact absurd hc h1
    · show d.size_ - 1 = l.dropLast.length
      rw [List.length_dropLast, hsz]
    · intro i hi
      show cell nb (d.first + i) = some l.dropLast[i]?
      rw [List.length_dropLast] at hi
      have hne2 : ¬ (d.first + i = d.first + (d.size_ - 1)) := by omega
      rw [cell_setSlot hset, if_neg hne2, List.getElem?_dropLast, if_pos hi]
      exact hcells i (by omega)

theorem deque_pop_front_repr {d : Deque T} {l : List T} (h : Repr d l) (hne : l ≠ []) :
    ∃ d', d.pop_front = some d' ∧ Repr d' l.tail := by
  obtain ⟨hlen, hwf, hq, hbb, hbi, hE, h0, hsz, hcells⟩ := h
  have hlpos : 0 < l.length := List.length_pos.2 hne
  have hs : d.size_ ≠ 0 := by omega
  have hbk : bucket_index d.first = d.begin_bucket_ := by
    unfold bucket_index Deque.first Bucket.size at *
    omega
  have hik : in_bucket_index d.first = d.begin_index_ := by
    unfold in_bucket_index Deque.first Bucket.size at *
    omega
  have hhead := hcells 0 hlpos
  obtain ⟨x, hx⟩ : ∃ x, l[0]? = some x := ⟨l[0], List.getElem?_eq_getElem hlpos⟩
  rw [hx, Nat.add_zero] at hhead
  have hhead2 : slot d.buckets_ d.begin_bucket_ d.begin_index_ = some (some x) := by
    unfold cell at hhead
    rw [hbk, hik] at hhead
    exact hhead
  obtain ⟨nb, hset⟩ := setSlot_isSome hwf (none : Option T)
    (show bucket_index d.first < d.buckets_.length by
      rw [hlen]
      unfold bucket_index Deque.first Bucket.size at *
      omega)
    (show in_bucket_index d.first < Bucket.size by
      unfold in_bucket_index Bucket.size; omega)
  have hset2 := hset
  rw [hbk, hik] at hset2
  unfold Deque.pop_front
  rw [destroy_eq hhead2, hset2]
  simp only []
  have hhalf : d.bucket_quantity_ >>> 1 = d.bucket_quantity_ / 2 := by
    simp [Nat.shiftRight_eq_div_pow]
  have hcell : ∀ i, i < l.tail.length → cell nb (d.first + 1 + i) = some l.tail[i]? := by
    intro i hi
    rw [List.length_tail] at hi
    have hne2 : ¬ (d.first + 1 + i = d.first) := by omega
    have he : d.first + 1 + i = d.first + (i + 1) := by omega
    rw [cell_setSlot hset, if_neg hne2, List.getElem?_tail, he]
    exact hcells (i + 1) (by omega)
  by_cases hw : d.begin_index_ + 1 = Bucket.size
  · simp only [hw, if_true]
    by_cases h1 : d.size_ - 1 = 0
    · rw [if_pos h1]
      refine ⟨_, rfl, ?_⟩
      refine ⟨?_, setSlot_WF hset hwf, hq, ?_, ?_, ?_, ?_, ?_, ?_⟩
      · simp only [setSlot_length hset, hlen]
      · show 1 ≤ d.bucket_quantity_ >>> 1
        rw [hhalf]; omega
      · show 0 < Bucket.size
        unfold Bucket.size; omega
      · show d.bucket_quantity_ >>> 1 * Bucket.size + 0 + (d.size_ - 1) + 1
          ≤ Bucket.size * d.bucket_quantity_
        rw [hhalf, h1]
        unfold Bucket.size
        omega
      · intro _; rfl
      · show d.size_ - 1 = l.tail.length
        rw [List.length_tail, hsz]
      · intro i hi
        rw [List.length_tail] at hi
        omega
    · rw [if_neg h1]
      refine ⟨_, rfl, ?_⟩
      have hf : (d.begin_bucket_ + 1) * Bucket.size + 0 = d.first + 1 := by
        unfold Deque.first Bucket.size at *
        omega
      refine ⟨?_, setSlot_WF hset hwf, hq, ?_, ?_, ?_, ?_, ?_, ?_⟩
      · simp only [setSlot_length hset, hlen]
      · show 1 ≤ d.begin_bucket_ + 1
        omega
      · show 0 < Bucket.size
        unfold Bucket.size; omega
      · show (d.begin_bucket_ + 1) * Bucket.size + 0 + (d.size_ - 1) + 1
          ≤ Bucket.size * d.bucket_quantity_
        rw [hf]; omega
      · intro _; rfl
      · show d.size_ - 1 = l.tail.length
        rw [List.length_tail, hsz]
      · intro i hi
        show cell nb ((d.begin_bucket_ + 1) * Bucket.size + 0 + i) = some l.tail[i]?
        rw [hf]
        exact hcell i hi
  · simp only [hw, if_false]
    by_cases h1 : d.size_ - 1 = 0
    · rw [if_pos h1]
      refine ⟨_, rfl, ?_⟩
      refine ⟨?_, setSlot_WF hset hwf, hq, ?_, ?_, ?_, ?_, ?_, ?_⟩
      · simp only [setSlot_length hset, hlen]
      · show 1 ≤ d.bucket_quantity_ >>> 1
        rw [hhalf]; omega
      · show 0 < Bucket.size
        unfold Bucket.size; omega
      · show d.bucket_quantity_ >>> 1 * Bucket.size + 0 + (d.size_ - 1) + 1
          ≤ Bucket.size * d.bucket_quantity_
        rw [hhalf, h1]
        unfold Bucket.size
        omega
      · intro _; rfl
      · show d.size_ - 1 = l.tail.length
        rw [List.length_tail, hsz]
      · intro i hi
        rw [List.length_tail] at hi
        omega
    · rw [if_neg h1]
      refine ⟨_, rfl, ?_⟩
      have hf : d.begin_bucket_ * Bucket.size + (d.begin_index_ + 1) = d.first + 1 := by
        unfold Deque.first Bucket.size at *
        omega
      refine ⟨?_, setSlot_WF hset hwf, hq, hbb, ?_, ?_, ?_, ?_, ?_⟩
      · simp only [setSlot_length hset, hlen]
      · show d.begin_index_ + 1 < Bucket.size
        omega
      · show d.begin_bucket_ * Bucket.size + (d.begin_index_ + 1) + (d.size_ - 1) + 1
          ≤ Bucket.size * d.bucket_quantity_
        rw [hf]; omega
      · intro hc; exact absurd hc h1
      · show d.size_ - 1 = l.tail.length
        rw [List.length_tail, hsz]
      · intro i hi
        show cell nb (d.begin_bucket_ * Bucket.size + (d.begin_index_ + 1) + i)
          = some l.tail[i]?
        rw [hf]
        exact hcell i hi

theorem Repr_mk0 : Repr (Deque.mk0 T) [] := by
  refine ⟨?_, WF_newBuckets 2, ?_, ?_, ?_, ?_, ?_, rfl, ?_⟩
  · simp [Deque.mk0, newBuckets]
  · simp [Deque.mk0]
  · simp [Deque.mk0]
  · simp [Deque.mk0, Bucket.size]
  · simp [Deque.mk0, Deque.first, Bucket.size]
  · intro _; rfl
  · intro i hi
    simp at hi

theorem index_of_repr {d : Deque T} {l : List T} (h : Repr d l) (i : Nat)
    (hi : i < d.size) : d.index i = l[i]? := by
  obtain ⟨_, _, _, _, _, _, _, hsz, hcells⟩ := h
  have hc := hcells i (by unfold Deque.size at hi; omega)
  unfold Deque.index
  simp only []
  have he : i + (d.begin_bucket_ * Bucket.size + d.begin_index_) = d.first + i := by
    unfold Deque.first; omega
  rw [he]
  unfold cell at hc
  rw [hc]
  rfl

theorem deque_run_repr : ∀ (ops : List (Op T)) (d : Deque T) (l : List T), Repr d l →
    popsGuarded l.length ops → ∀ k, ∃ d' l', d.run (ops.take k) = some d' ∧
      refRun l (ops.take k) = some l' ∧ Repr d' l' ∧
      l'.length + pops (ops.take k) = l.length + pushes (ops.take k) := by
  intro ops
  induction ops with
  | nil =>
    intro d l h _ k
    refine ⟨d, l, ?_, ?_, h, ?_⟩ <;> simp [Deque.run, refRun, pops, pushes]
  | cons op ops ih =>
    intro d l h hg k
    cases k with
    | zero => exact ⟨d, l, rfl, rfl, h, rfl⟩
    | succ k =>
      rw [List.take_succ_cons]
      cases op with
      | push_back v =>
        obtain ⟨d1, h1, hr1⟩ := deque_push_back_repr h v
        have hg1 : popsGuarded (l ++ [v]).length ops := by
          simpa [popsGuarded] using hg
        obtain ⟨d', l', hrun, href, hrep, hcount⟩ := ih d1 (l ++ [v]) hr1 hg1 k
        refine ⟨d', l', ?_, ?_, hrep, ?_⟩
        · simp only [Deque.run, Deque.apply, h1]; exact hrun
        · simp only [refRun, refApply]; exact href
        · simp only [pops, pushes]
          simp only [List.length_append, List.length_singleton] at hcount
          omega
      | push_front v =>
        obtain ⟨d1, h1, hr1⟩ := deque_push_front_repr h v
        have hg1 : popsGuarded (v :: l).length ops := by
          simpa [popsGuarded] using hg
        obtain ⟨d', l', hrun, href, hrep, hcount⟩ := ih d1 (v :: l) hr1 hg1 k
        refine ⟨d', l', ?_, ?_, hrep, ?_⟩
        · simp only [Deque.run, Deque.apply, h1]; exact hrun
        · simp only [refRun, refApply]; exact href
        · simp only [pops, pushes]
          simp only [List.length_cons] at hcount
          omega
      | pop_back =>
        obtain ⟨hn, hg1⟩ : l.length ≠ 0 ∧ popsGuarded (l.length - 1) ops := hg
        have hne : l ≠ [] := by
          intro hc; subst hc; exact hn rfl
        obtain ⟨d1, h1, hr1⟩ := deque_pop_back_repr h hne
        have hg2 : popsGuarded l.dropLast.length ops := by
          rw [List.length_dropLast]; exact hg1
        obtain ⟨d', l', hrun, href, hrep, hcount⟩ := ih d1 l.dropLast hr1 hg2 k
        refine ⟨d', l', ?_, ?_, hrep, ?_⟩
        · simp only [Deque.run, Deque.apply, h1]; exact hrun
        · have he : l.isEmpty = false := by
            cases l with
            | nil => exact absurd rfl hne
            | cons a t => rfl
          simp only [refRun, refApply, he]
          exact href
        · simp only [pops, pushes]
          rw [List.length_dropLast] at hcount
          omega
      | pop_front =>
        obtain ⟨hn, hg1⟩ : l.length ≠ 0 ∧ popsGuarded (l.length - 1) ops := hg
        have hne : l ≠ [] := by
          intro hc; subst hc; exact hn rfl
        obtain ⟨d1, h1, hr1⟩ := deque_pop_front_repr h hne
        have hg2 : popsGuarded l.tail.length ops := by
          rw [List.length_tail]; exact hg1
        obtain ⟨d', l', hrun, href, hrep, hcount⟩ := ih d1 l.tail hr1 hg2 k
        refine ⟨d', l', ?_, ?_, hrep, ?_⟩
        · simp only [Deque.run, Deque.apply, h1]; exact hrun
        · have he : l.isEmpty = false := by
            cases l with
            | nil => exact absurd rfl hne
            | cons a t => rfl
          simp only [refRun, refApply, he]
          exact href
        · simp only [pops, pushes]
          rw [List.length_tail] at hcount
          omega

end

end DequeH
namespace ListH

open SeqRef

/-! ## The doubly linked list refines a sequence -/

theorem Chain_congr {f f' : Nat → Option Nat} {e : Nat} :
    ∀ {L : List Nat}, (∀ x ∈ L, f' x = f x) → Chain f e L → Chain f' e L := by
  intro L
  induction L with
  | nil => intro _ _; trivial
  | cons x rest ih =>
    intro hf hc
    refine ⟨?_, ih (fun z hz => hf z (List.mem_cons_of_mem _ hz)) hc.2⟩
    rw [hf x (List.mem_cons_self _ _)]
    exact hc.1

theorem Chain_cons {f : Nat → Option Nat} {e x : Nat} {rest : List Nat} :
    Chain f e (x :: rest) ↔ f x = some (rest.headD e) ∧ Chain f e rest := Iff.rfl

theorem Chain_append {f : Nat → Option Nat} {e : Nat} (B : List Nat) :
    ∀ (A : List Nat), Chain f e (A ++ B) ↔ Chain f (B.headD e) A ∧ Chain f e B := by
  intro A
  induction A with
  | nil => simp [Chain]
  | cons x rest ih =>
    rw [List.cons_append, Chain_cons, Chain_cons, ih, and_assoc]
    cases rest with
    | nil => simp
    | cons y r => simp

theorem getLastD_mem_cons (X : List Nat) : ∀ (x : Nat), X.getLastD x ∈ x :: X := by
  induction X with
  | nil => intro x; simp
  | cons y r ih =>
    intro x
    rw [List.getLastD_cons]
    exact List.mem_cons_of_mem _ (ih y)

theorem Chain_retarget {f f' : Nat → Option Nat} {t t' : Nat} :
    ∀ (X : List Nat) (x : Nat), (x :: X).Nodup → Chain f t (x :: X) →
      (∀ z ∈ x :: X, z ≠ X.getLastD x → f' z = f z) → f' (X.getLastD x) = some t' →
      Chain f' t' (x :: X) := by
  intro X
  induction X with
  | nil =>
    intro x _ _ _ hlast
    exact ⟨by simpa using hlast, trivial⟩
  | cons y r ih =>
    intro x hnd hc hf hlast
    rw [List.getLastD_cons] at hf hlast
    have hnd2 : (y :: r).Nodup := (List.nodup_cons.1 hnd).2
    have hxn : x ∉ y :: r := (List.nodup_cons.1 hnd).1
    refine ⟨?_, ih y hnd2 hc.2 ?_ hlast⟩
    · have hne : x ≠ r.getLastD y := by
        intro he
        exact hxn (he ▸ getLastD_mem_cons r y)
      rw [hf x (List.mem_cons_self _ _) hne]
      exact hc.1
    · intro z hz hne
      exact hf z (List.mem_cons_of_mem _ hz) hne

theorem Chain_insert {f f' : Nat → Option Nat} {e a : Nat} {X Y : List Nat}
    (hc : Chain f e (e :: X ++ Y)) (hnd : (e :: X ++ Y).Nodup) (ha : a ∉ e :: X ++ Y)
    (hfa : f' a = some (Y.headD e)) (hfq : f' (X.getLastD e) = some a)
    (hf : ∀ z, z ≠ a → z ≠ X.getLastD e → f' z = f z) :
    Chain f' e (e :: X ++ a :: Y) := by
  have hc2 : Chain f (Y.headD e) (e :: X) ∧ Chain f e Y :=
    (Chain_append Y (e :: X)).1 (by simpa using hc)
  have hnd' : ((e :: X) ++ Y).Nodup := by simpa using hnd
  have hndX : (e :: X).Nodup := (List.nodup_append.1 hnd').1
  have hdisj := (List.nodup_append.1 hnd').2.2
  have hq : X.getLastD e ∈ e :: X := getLastD_mem_cons X e
  have hgoal : Chain f' e ((e :: X) ++ a :: Y) := by
    rw [Chain_append]
    constructor
    · refine Chain_retarget X e hndX hc2.1 ?_ hfq
      intro z hz hne
      refine hf z ?_ hne
      intro hza
      apply ha
      rw [← hza]
      have : z ∈ (e :: X) ++ Y := List.mem_append_left _ hz
      simpa using this
    · refine ⟨hfa, Chain_congr ?_ hc2.2⟩
      intro z hz
      refine hf z ?_ ?_
      · intro hza
        apply ha
        rw [← hza]
        simp [hz]
      · intro hzq
        exact hdisj (hzq ▸ hq) hz
  simpa using hgoal

theorem Chain_erase {f f' : Nat → Option Nat} {e x : Nat} {X Y : List Nat}
    (hc : Chain f e (e :: X ++ x :: Y)) (hnd : (e :: X ++ x :: Y).Nodup)
    (hfq : f' (X.getLastD e) = some (Y.headD e))
    (hf : ∀ z, z ≠ x → z ≠ X.getLastD e → f' z = f z) :
    Chain f' e (e :: X ++ Y) := by
  have hc2 : Chain f ((x :: Y).headD e) (e :: X) ∧ Chain f e (x :: Y) :=
    (Chain_append (x :: Y) (e :: X)).1 (by simpa using hc)
  have hnd' : ((e :: X) ++ x :: Y).Nodup := by simpa using hnd
  have hndX : (e :: X).Nodup := (List.nodup_append.1 hnd').1
  have hndY : (x :: Y).Nodup := (List.nodup_append.1 hnd').2.1
  have hdisj := (List.nodup_append.1 hnd').2.2
  have hq : X.getLastD e ∈ e :: X := getLastD_mem_cons X e
  have hgoal : Chain f' e ((e :: X) ++ Y) := by
    rw [Chain_append]
    constructor
    · refine Chain_retarget X e hndX hc2.1 ?_ hfq
      intro z hz hne
      refine hf z ?_ hne
      intro hzx
      exact hdisj hz (hzx ▸ List.mem_cons_self _ _)
    · refine Chain_congr ?_ hc2.2.2
      intro z hz
      refine hf z ?_ ?_
      · intro hzx
        exact (List.nodup_cons.1 hndY).1 (hzx ▸ hz)
      · intro hzq
        exact hdisj (hzq ▸ hq) (List.mem_cons_of_mem _ hz)
  simpa using hgoal

section
variable {T : Type}

theorem emplace_heap (l : LinkedList T) (p q : Nat) (v : T) (cp cq : Node T)
    (hp : l.heap p = some cp) (hpq : cp.previous = q) (hq : l.heap q = some cq)
    (hap : p ≠ l.node_allocator_) (haq : q ≠ l.node_allocator_) :
    ∃ l', l.emplace p v = some l' ∧ l'.end_ = l.end_ ∧
      l'.node_allocator_ = l.node_allocator_ + 1 ∧ l'.size_ = l.size_ + 1 ∧
      (∀ x, nextOf l'.heap x = if x = l.node_allocator_ then some p
        else if x = q then some l.node_allocator_ else nextOf l.heap x) ∧
      (∀ x, prevOf l'.heap x = if x = l.node_allocator_ then some q
        else if x = p then some l.node_allocator_ else prevOf l.heap x) ∧
      (∀ x, valueOf l'.heap x = if x = l.node_allocator_ then some v
        else valueOf l.heap x) := by
  subst hpq
  by_cases hpq : p = cp.previous
  · have hcq : cq = cp := by
      rw [← hpq] at hq
      rw [hp] at hq
      exact (Option.some.inj hq).symm
    subst hcq
    simp only [LinkedList.emplace, prevOf, nextOf, valueOf, setPrevious, setNext, Heap.store,
      hp, hap, haq, Ne.symm hap, Ne.symm haq, ← hpq, if_true, if_false, Option.map_some',
      Option.some.injEq, exists_eq_left', true_and]
    refine ⟨?_, ?_, ?_⟩
    · intro x
      by_cases hxa : x = l.node_allocator_
      · simp [hxa, Ne.symm hap, Ne.symm haq]
      · by_cases hxp : x = p
        · simp [hxp, hap]
        · simp [hxa, hxp]
    · intro x
      by_cases hxa : x = l.node_allocator_
      · simp [hxa, Ne.symm hap, Ne.symm haq]
      · by_cases hxp : x = p
        · simp [hxp, hap]
        · simp [hxa, hxp]
    · intro x
      by_cases hxa : x = l.node_allocator_
      · simp [hxa, Ne.symm hap, Ne.symm haq]
      · by_cases hxp : x = p
        · simp [hxp, hap, hp]
        · simp [hxa, hxp]
  · have hqp : ¬ (cp.previous = p) := fun h => hpq h.symm
    simp only [LinkedList.emplace, prevOf, nextOf, valueOf, setPrevious, setNext, Heap.store,
      hp, hq, hap, haq, Ne.symm hap, Ne.symm haq, hpq, hqp, if_true, if_false,
      Option.map_some', Option.some.injEq, exists_eq_left', true_and]
    refine ⟨?_, ?_, ?_⟩
    · intro x
      by_cases hxa : x = l.node_allocator_
      · simp [hxa, Ne.symm hap, Ne.symm haq]
      · by_cases hxp : x = p
        · simp [hxp, hap, hpq, hp]
        · by_cases hxq : x = cp.previous
          · simp [hxq, haq, hqp]
          · simp [hxa, hxp, hxq]
    · intro x
      by_cases hxa : x = l.node_allocator_
      · simp [hxa, Ne.symm hap, Ne.symm haq]
      · by_cases hxp : x = p
        · simp [hxp, hap]
        · by_cases hxq : x = cp.previous
          · simp [hxq, haq, hqp, hq]
          · simp [hxa, hxp, hxq]
    · intro x
      by_cases hxa : x = l.node_allocator_
      · simp [hxa, Ne.symm hap, Ne.symm haq]
      · by_cases hxp : x = p
        · simp [hxp, hap, hp]
        · by_cases hxq : x = cp.previous
          · simp [hxq, haq, hqp, hq]
          · simp [hxa, hxp, hxq]

theorem erase_heap (l : LinkedList T) (x : Nat) (v : T) (cx cq cn : Node T)
    (hx : l.heap x = some cx) (hq : l.heap cx.previous = some cq)
    (hn : l.heap cx.next = some cn) (hv : cx.value = some v)
    (hxq : x ≠ cx.previous) (hxn : x ≠ cx.next) :
    ∃ l', l.erase x = some l' ∧ l'.end_ = l.end_ ∧
      l'.node_allocator_ = l.node_allocator_ ∧ l'.size_ = l.size_ - 1 ∧
      (∀ z, z ≠ x → nextOf l'.heap z =
        if z = cx.previous then some cx.next else nextOf l.heap z) ∧
      (∀ z, z ≠ x → prevOf l'.heap z =
        if z = cx.next then some cx.previous else prevOf l.heap z) ∧
      (∀ z, z ≠ x → valueOf l'.heap z = valueOf l.heap z) := by
  have hqx : ¬ (cx.previous = x) := fun h => hxq h.symm
  have hnx : ¬ (cx.next = x) := fun h => hxn h.symm
  by_cases hqn : cx.previous = cx.next
  · have hcn : cn = cq := by
      rw [hqn] at hq
      rw [hq] at hn
      exact (Option.some.inj hn).symm
    subst hcn
    simp only [LinkedList.erase, prevOf, nextOf, valueOf, setPrevious, setNext, Heap.store,
      hx, hq, hn, hv, hxq, hxn, hqx, hnx, hqn, if_true, if_false,
      Option.map_some', Option.some_bind, Option.some.injEq, exists_eq_left', true_and]
    refine ⟨?_, ?_, ?_⟩
    · intro z hzx
      by_cases hzn : z = cx.next
      · simp [hzn, hnx]
      · simp [hzx, hzn]
    · intro z hzx
      by_cases hzn : z = cx.next
      · simp [hzn, hnx]
      · simp [hzx, hzn]
    · intro z hzx
      by_cases hzn : z = cx.next
      · simp [hzn, hnx, hn]
      · simp [hzx, hzn]
  · have hnq : ¬ (cx.next = cx.previous) := fun h => hqn h.symm
    simp only [LinkedList.erase, prevOf, nextOf, valueOf, setPrevious, setNext, Heap.store,
      hx, hq, hn, hv, hxq, hxn, hqx, hnx, hqn, hnq, if_true, if_false,
      Option.map_some', Option.some_bind, Option.some.injEq, exists_eq_left', true_and]
    refine ⟨?_, ?_, ?_⟩
    · intro z hzx
      by_cases hzn : z = cx.next
      · simp [hzn, hnx, hnq, hn]
      · by_cases hzq : z = cx.previous
        · simp [hzq, hqx, hqn]
        · simp [hzx, hzn, hzq]
    · intro z hzx
      by_cases hzn : z = cx.next
      · simp [hzn, hnx]
      · by_cases hzq : z = cx.previous
        · simp [hzq, hqx, hqn, hq]
        · simp [hzx, hzn, hzq]
    · intro z hzx
      by_cases hzn : z = cx.next
      · simp [hzn, hnx, hnq, hn]
      · by_cases hzq : z = cx.previous
        · simp [hzq, hqx, hqn, hq]
        · simp [hzx, hzn, hzq]

theorem getLastD_reverse (Y : List Nat) (e : Nat) : Y.reverse.getLastD e = Y.headD e := by
  cases Y with
  | nil => rfl
  | cons y r => simp [List.getLastD_eq_getLast?]

theorem headD_reverse (X : List Nat) (e : Nat) : X.reverse.headD e = X.getLastD e := by
  have := getLastD_reverse X.reverse e
  rw [List.reverse_reverse] at this
  exact this.symm

theorem headD_mem_cons (Y : List Nat) (e : Nat) : Y.headD e ∈ e :: Y := by
  cases Y with
  | nil => simp
  | cons y r => simp

theorem Chain_last {f : Nat → Option Nat} {t : Nat} :
    ∀ (X : List Nat) (x : Nat), Chain f t (x :: X) → f (X.getLastD x) = some t := by
  intro X
  induction X with
  | nil => intro x hc; simpa using hc.1
  | cons y r ih =>
    intro x hc
    rw [List.getLastD_cons]
    exact ih y hc.2

theorem alloc_of_link {h : Heap T} {p r : Nat} (hl : nextOf h p = some r ∨ prevOf h p = some r) :
    ∃ c, h p = some c := by
  unfold nextOf prevOf at hl
  cases hc : h p with
  | none => simp [hc] at hl
  | some c => exact ⟨c, rfl⟩

theorem nodup_rev_swap {e : Nat} {X Y : List Nat} (h : (e :: X ++ Y).Nodup) :
    (e :: Y.reverse ++ X.reverse).Nodup := by
  have hp : (e :: Y.reverse ++ X.reverse).Perm (e :: X ++ Y) := by
    refine List.Perm.cons e ?_
    exact (List.perm_append_comm).trans
      (List.Perm.append (List.reverse_perm X) (List.reverse_perm Y))
  exact hp.nodup_iff.2 h

theorem list_emplace_repr {l : LinkedList T} {xs ys : List (Nat × T)} (h : ListRepr l (xs ++ ys))
    (v : T) :
    ∃ l', l.emplace ((addrs ys).headD l.end_) v = some l' ∧
      ListRepr l' (xs ++ (l.node_allocator_, v) :: ys) ∧ l'.end_ = l.end_ ∧
      l'.node_allocator_ = l.node_allocator_ + 1 := by
  obtain ⟨hnx, hpv, hnd, hebump, hbump, hve, hvals, hsz⟩ := h
  have haddrs : addrs (xs ++ ys) = addrs xs ++ addrs ys := by simp [addrs]
  rw [haddrs] at hnx hpv hnd hbump
  rw [List.reverse_append] at hpv
  have hnd' : (l.end_ :: addrs xs ++ addrs ys).Nodup := by simpa using hnd
  have hnx' : Chain (nextOf l.heap) l.end_ ((l.end_ :: addrs xs) ++ addrs ys) := by
    simpa using hnx
  have hpv' : Chain (prevOf l.heap) l.end_
      ((l.end_ :: (addrs ys).reverse) ++ (addrs xs).reverse) := by
    simpa using hpv
  have hpq : prevOf l.heap ((addrs ys).headD l.end_) = some ((addrs xs).getLastD l.end_) := by
    have := Chain_last _ _ ((Chain_append _ _).1 hpv').1
    rw [getLastD_reverse, headD_reverse] at this
    exact this
  have hqp : nextOf l.heap ((addrs xs).getLastD l.end_) = some ((addrs ys).headD l.end_) :=
    Chain_last _ _ ((Chain_append _ _).1 hnx').1
  have hlt : ∀ z ∈ l.end_ :: addrs xs ++ addrs ys, z < l.node_allocator_ := by
    intro z hz
    rcases List.mem_cons.1 hz with hz | hz
    · rw [hz]; exact hebump
    · exact hbump z hz
  have hpmem : (addrs ys).headD l.end_ ∈ l.end_ :: addrs xs ++ addrs ys := by
    have := headD_mem_cons (addrs ys) l.end_
    rcases List.mem_cons.1 this with h1 | h1
    · rw [h1]; exact List.mem_cons_self _ _
    · exact List.mem_cons_of_mem _ (List.mem_append_right _ h1)
  have hqmem : (addrs xs).getLastD l.end_ ∈ l.end_ :: addrs xs ++ addrs ys := by
    have := getLastD_mem_cons (addrs xs) l.end_
    rcases List.mem_cons.1 this with h1 | h1
    · rw [h1]; exact List.mem_cons_self _ _
    · exact List.mem_cons_of_mem _ (List.mem_append_left _ h1)
  have hap : (addrs ys).headD l.end_ ≠ l.node_allocator_ := Nat.ne_of_lt (hlt _ hpmem)
  have haq : (addrs xs).getLastD l.end_ ≠ l.node_allocator_ := Nat.ne_of_lt (hlt _ hqmem)
  have hanot : l.node_allocator_ ∉ l.end_ :: addrs xs ++ addrs ys := by
    intro hm
    exact Nat.lt_irrefl _ (hlt _ hm)
  obtain ⟨cp, hcp⟩ := alloc_of_link (Or.inr hpq)
  obtain ⟨cq, hcq⟩ := alloc_of_link (Or.inl hqp)
  have hcpq : cp.previous = (addrs xs).getLastD l.end_ := by
    unfold prevOf at hpq
    rw [hcp] at hpq
    simpa using hpq
  obtain ⟨l', hrun, hend, hal, hsize, hn', hp', hv'⟩ :=
    emplace_heap l _ _ v cp cq hcp hcpq hcq hap haq
  refine ⟨l', hrun, ?_, hend, hal⟩
  have haddrs2 : addrs (xs ++ (l.node_allocator_, v) :: ys)
      = addrs xs ++ l.node_allocator_ :: addrs ys := by simp [addrs]
  refine ⟨?_, ?_, ?_, ?_, ?_, ?_, ?_, ?_⟩
  · rw [haddrs2, hend]
    refine Chain_insert hnx hnd' hanot ?_ ?_ ?_
    · rw [hn', if_pos rfl]
    · rw [hn', if_neg haq, if_pos rfl]
    · intro z hza hzq
      rw [hn', if_neg hza, if_neg hzq]
  · have hrev : (addrs xs ++ l.node_allocator_ :: addrs ys).reverse
        = (addrs ys).reverse ++ l.node_allocator_ :: (addrs xs).reverse := by simp
    rw [haddrs2, hend, hrev]
    have hnd2 := nodup_rev_swap hnd'
    have hanot2 : l.node_allocator_ ∉ l.end_ :: (addrs ys).reverse ++ (addrs xs).reverse := by
      intro hm
      apply hanot
      simp only [List.mem_cons, List.mem_append, List.mem_reverse] at hm ⊢
      tauto
    refine Chain_insert hpv hnd2 hanot2 ?_ ?_ ?_
    · rw [hp', if_pos rfl, headD_reverse]
    · rw [getLastD_reverse, hp', if_neg hap, if_pos rfl]
    · intro z hza hzq
      rw [getLastD_reverse] at hzq
      rw [hp', if_neg hza, if_neg hzq]
  · rw [haddrs2, hend]
    have : (l.node_allocator_ :: (l.end_ :: addrs xs ++ addrs ys)).Nodup :=
      List.nodup_cons.2 ⟨hanot, hnd'⟩
    have hperm : (l.end_ :: addrs xs ++ l.node_allocator_ :: addrs ys).Perm
        (l.node_allocator_ :: (l.end_ :: addrs xs ++ addrs ys)) := by
      have : (l.end_ :: addrs xs ++ l.node_allocator_ :: addrs ys)
          = (l.end_ :: addrs xs) ++ l.node_allocator_ :: addrs ys := by simp
      rw [this]
      exact List.perm_middle
    exact hperm.nodup_iff.2 this
  · rw [hend, hal]; omega
  · rw [haddrs2, hal]
    intro z hz
    rcases List.mem_append.1 hz with h1 | h1
    · exact Nat.lt_succ_of_lt (hbump z (List.mem_append_left _ h1))
    · rcases List.mem_cons.1 h1 with h2 | h2
      · rw [h2]; exact Nat.lt_succ_self _
      · exact Nat.lt_succ_of_lt (hbump z (List.mem_append_right _ h2))
  · rw [hend, hv', if_neg (Nat.ne_of_lt hebump)]
    exact hve
  · intro x hx
    rw [hv']
    rcases List.mem_append.1 hx with h1 | h1
    · have hx1 : x.1 < l.node_allocator_ :=
        hbump x.1 (List.mem_append_left _ (List.mem_map_of_mem _ h1))
      rw [if_neg (Nat.ne_of_lt hx1)]
      exact hvals x (List.mem_append_left _ h1)
    · rcases List.mem_cons.1 h1 with h2 | h2
      · rw [h2]; simp
      · have hx1 : x.1 < l.node_allocator_ :=
          hbump x.1 (List.mem_append_right _ (List.mem_map_of_mem _ h2))
        rw [if_neg (Nat.ne_of_lt hx1)]
        exact hvals x (List.mem_append_right _ h2)
  · rw [hsize, hsz]
    simp
    omega

theorem list_erase_repr {l : LinkedList T} {xs ys : List (Nat × T)} {x : Nat} {v : T}
    (h : ListRepr l (xs ++ (x, v) :: ys)) :
    ∃ l', l.erase x = some l' ∧ ListRepr l' (xs ++ ys) ∧ l'.end_ = l.end_ ∧
      l'.node_allocator_ = l.node_allocator_ := by
  obtain ⟨hnx, hpv, hnd, hebump, hbump, hve, hvals, hsz⟩ := h
  have haddrs : addrs (xs ++ (x, v) :: ys) = addrs xs ++ x :: addrs ys := by simp [addrs]
  have hrev : (addrs xs ++ x :: addrs ys).reverse
      = (addrs ys).reverse ++ x :: (addrs xs).reverse := by simp
  rw [haddrs] at hnx hpv hnd hbump
  rw [hrev] at hpv
  have hnd' : (l.end_ :: addrs xs ++ x :: addrs ys).Nodup := by simpa using hnd
  have hnx' : Chain (nextOf l.heap) l.end_ ((l.end_ :: addrs xs) ++ x :: addrs ys) := by
    simpa using hnx
  have hpv' : Chain (prevOf l.heap) l.end_
      ((l.end_ :: (addrs ys).reverse) ++ x :: (addrs xs).reverse) := by
    simpa using hpv
  have hnd2 : ((l.end_ :: addrs xs) ++ x :: addrs ys).Nodup := by simpa using hnd
  have hndX : (l.end_ :: addrs xs).Nodup := (List.nodup_append.1 hnd2).1
  have hndY : (x :: addrs ys).Nodup := (List.nodup_append.1 hnd2).2.1
  have hdisj := (List.nodup_append.1 hnd2).2.2
  -- the erased node and its two neighbours
  have hxn : nextOf l.heap x = some ((addrs ys).headD l.end_) :=
    ((Chain_append _ _).1 hnx').2.1
  have hxp : prevOf l.heap x = some ((addrs xs).getLastD l.end_) := by
    have := ((Chain_append _ _).1 hpv').2.1
    rw [headD_reverse] at this
    exact this
  have hqx : nextOf l.heap ((addrs xs).getLastD l.end_) = some x := by
    have := Chain_last _ _ ((Chain_append _ _).1 hnx').1
    simpa using this
  have hnxp : prevOf l.heap ((addrs ys).headD l.end_) = some x := by
    have := Chain_last _ _ ((Chain_append _ _).1 hpv').1
    rw [getLastD_reverse] at this
    simpa using this
  have hxv : valueOf l.heap x = some v := hvals (x, v) (by simp)
  obtain ⟨cx, hcx⟩ := alloc_of_link (Or.inl hxn)
  obtain ⟨cq, hcq⟩ := alloc_of_link (Or.inl hqx)
  obtain ⟨cn, hcn⟩ := alloc_of_link (Or.inr hnxp)
  have hcxn : cx.next = (addrs ys).headD l.end_ := by
    unfold nextOf at hxn
    rw [hcx] at hxn
    simpa using hxn
  have hcxp : cx.previous = (addrs xs).getLastD l.end_ := by
    unfold prevOf at hxp
    rw [hcx] at hxp
    simpa using hxp
  have hcxv : cx.value = some v := by
    unfold valueOf at hxv
    rw [hcx] at hxv
    simpa using hxv
  have hxq : x ≠ (addrs xs).getLastD l.end_ := by
    intro he
    exact hdisj (he ▸ getLastD_mem_cons (addrs xs) l.end_) (List.mem_cons_self _ _)
  have hxe : x ≠ l.end_ := by
    intro he
    exact hdisj (he ▸ List.mem_cons_self _ _) (List.mem_cons_self _ _)
  have hxnn : x ≠ (addrs ys).headD l.end_ := by
    intro he
    rcases List.mem_cons.1 (headD_mem_cons (addrs ys) l.end_) with h1 | h1
    · exact hxe (he.trans h1)
    · exact (List.nodup_cons.1 hndY).1 (he ▸ h1)
  obtain ⟨l', hrun, hend, hal, hsize, hn', hp', hv'⟩ :=
    erase_heap l x v cx cq cn hcx (hcxp ▸ hcq) (hcxn ▸ hcn) hcxv (hcxp ▸ hxq) (hcxn ▸ hxnn)
  rw [hcxp, hcxn] at hn' hp'
  refine ⟨l', hrun, ?_, hend, hal⟩
  have haddrs2 : addrs (xs ++ ys) = addrs xs ++ addrs ys := by simp [addrs]
  have hndr : (l.end_ :: addrs xs ++ addrs ys).Nodup := by
    have hsub : (l.end_ :: addrs xs ++ addrs ys).Sublist (l.end_ :: addrs xs ++ x :: addrs ys) := by
      refine List.Sublist.cons₂ _ ?_
      exact List.Sublist.append (List.Sublist.refl _) (List.sublist_cons_self _ _)
    exact hsub.nodup hnd'
  refine ⟨?_, ?_, ?_, ?_, ?_, ?_, ?_, ?_⟩
  · rw [haddrs2, hend]
    refine Chain_erase hnx hnd' ?_ ?_
    · rw [hn' _ (Ne.symm hxq), if_pos rfl]
    · intro z hzx hzq
      rw [hn' z hzx, if_neg hzq]
  · rw [haddrs2, hend, List.reverse_append]
    have hnd3 : (l.end_ :: (addrs ys).reverse ++ x :: (addrs xs).reverse).Nodup := by
      have h3 := nodup_rev_swap (X := addrs xs) (Y := x :: addrs ys) hnd'
      have h4 : l.end_ :: (x :: addrs ys).reverse ++ (addrs xs).reverse
          = l.end_ :: (addrs ys).reverse ++ x :: (addrs xs).reverse := by simp
      rw [h4] at h3
      exact h3
    refine Chain_erase hpv hnd3 ?_ ?_
    · rw [getLastD_reverse, headD_reverse, hp' _ (Ne.symm hxnn), if_pos rfl]
    · intro z hzx hzq
      rw [getLastD_reverse] at hzq
      rw [hp' z hzx, if_neg hzq]
  · rw [haddrs2, hend]
    exact hndr
  · rw [hend, hal]; exact hebump
  · rw [haddrs2, hal]
    intro z hz
    apply hbump z
    rcases List.mem_append.1 hz with h1 | h1
    · exact List.mem_append_left _ h1
    · exact List.mem_append_right _ (List.mem_cons_of_mem _ h1)
  · rw [hend, hv' _ (Ne.symm hxe)]
    exact hve
  · intro y hy
    have hymem : y ∈ xs ++ (x, v) :: ys := by
      rcases List.mem_append.1 hy with h1 | h1
      · exact List.mem_append_left _ h1
      · exact List.mem_append_right _ (List.mem_cons_of_mem _ h1)
    have hyx : y.1 ≠ x := by
      intro he
      rcases List.mem_append.1 hy with h1 | h1
      · have : y.1 ∈ l.end_ :: addrs xs :=
          List.mem_cons_of_mem _ (List.mem_map_of_mem _ h1)
        exact hdisj this (he ▸ List.mem_cons_self _ _)
      · have : y.1 ∈ addrs ys := List.mem_map_of_mem _ h1
        exact (List.nodup_cons.1 hndY).1 (he ▸ this)
    rw [hv' _ hyx]
    exact hvals y hymem
  · rw [hsize, hsz]
    simp

theorem walk_chain (l : LinkedList T) :
    ∀ (nodes : List (Nat × T)) (fuel : Nat), nodes.length ≤ fuel →
      Chain (nextOf l.heap) l.end_ (addrs nodes) → l.end_ ∉ addrs nodes →
      (∀ x ∈ nodes, valueOf l.heap x.1 = some x.2) →
      l.walk fuel ((addrs nodes).headD l.end_) = some (nodes.map Prod.snd) := by
  intro nodes
  induction nodes with
  | nil =>
    intro fuel _ _ _ _
    cases fuel <;> simp [LinkedList.walk, addrs, LinkedList.end]
  | cons x rest ih =>
    intro fuel hf hc hne hv
    cases fuel with
    | zero => simp at hf
    | succ fuel =>
      have hx : x.1 ≠ l.end_ := by
        intro he
        apply hne
        simp [addrs, he]
      have hc' : nextOf l.heap x.1 = some ((addrs rest).headD l.end_) ∧
          Chain (nextOf l.heap) l.end_ (addrs rest) := hc
      have hrec := ih fuel (by simpa using hf) hc'.2
        (fun hm => hne (by simp only [addrs, List.map_cons] at hm ⊢; exact List.mem_cons_of_mem _ hm))
        (fun y hy => hv y (List.mem_cons_of_mem _ hy))
      have hhead : (addrs (x :: rest)).headD l.end_ = x.1 := rfl
      rw [hhead]
      simp only [LinkedList.walk, LinkedList.end, hx, if_false, hv x (List.mem_cons_self _ _),
        hc'.1, hrec, List.map_cons]

theorem toList_repr {l : LinkedList T} {nodes : List (Nat × T)} (h : ListRepr l nodes)
    (fuel : Nat) (hf : l.size ≤ fuel) : l.toList fuel = some (nodes.map Prod.snd) := by
  obtain ⟨hnx, _, hnd, _, _, _, hvals, hsz⟩ := h
  have hb : l.begin = some ((addrs nodes).headD l.end_) := hnx.1
  unfold LinkedList.toList
  rw [hb]
  exact walk_chain l nodes fuel (by unfold LinkedList.size at hf; omega) hnx.2
    (List.nodup_cons.1 hnd).1 hvals

theorem ListRepr_mk0 : ListRepr (LinkedList.mk0 T) [] := by
  refine ⟨?_, ?_, ?_, ?_, ?_, ?_, ?_, rfl⟩
  · simp [Chain, addrs, LinkedList.mk0, nextOf, Heap.store]
  · simp [Chain, addrs, LinkedList.mk0, prevOf, Heap.store]
  · simp [addrs]
  · simp [LinkedList.mk0]
  · simp [addrs]
  · simp [LinkedList.mk0, valueOf, Heap.store]
  · simp

theorem list_push_back_repr {l : LinkedList T} {nodes : List (Nat × T)} (h : ListRepr l nodes)
    (v : T) : ∃ l' nodes', l.push_back v = some l' ∧ ListRepr l' nodes' ∧
      nodes'.map Prod.snd = nodes.map Prod.snd ++ [v] := by
  have h' : ListRepr l (nodes ++ []) := by simpa using h
  obtain ⟨l', hrun, hrep, _, _⟩ := list_emplace_repr h' v
  exact ⟨l', _, hrun, hrep, by simp⟩

theorem list_push_front_repr {l : LinkedList T} {nodes : List (Nat × T)} (h : ListRepr l nodes)
    (v : T) : ∃ l' nodes', l.push_front v = some l' ∧ ListRepr l' nodes' ∧
      nodes'.map Prod.snd = v :: nodes.map Prod.snd := by
  have hb : l.begin = some ((addrs nodes).headD l.end_) := h.1.1
  have h' : ListRepr l ([] ++ nodes) := by simpa using h
  obtain ⟨l', hrun, hrep, _, _⟩ := list_emplace_repr h' v
  refine ⟨l', _, ?_, hrep, by simp⟩
  unfold LinkedList.push_front LinkedList.insert
  rw [hb]
  exact hrun

theorem list_pop_front_repr {l : LinkedList T} {nodes : List (Nat × T)} (h : ListRepr l nodes)
    (hne : nodes ≠ []) : ∃ l' nodes', l.pop_front = some l' ∧ ListRepr l' nodes' ∧
      nodes'.map Prod.snd = (nodes.map Prod.snd).tail := by
  cases nodes with
  | nil => exact absurd rfl hne
  | cons x rest =>
    have hb : l.begin = some x.1 := h.1.1
    have h' : ListRepr l ([] ++ (x.1, x.2) :: rest) := by simpa using h
    obtain ⟨l', hrun, hrep, _, _⟩ := list_erase_repr h'
    refine ⟨l', _, ?_, hrep, by simp⟩
    unfold LinkedList.pop_front
    rw [hb]
    exact hrun

theorem list_pop_back_repr {l : LinkedList T} {nodes : List (Nat × T)} (h : ListRepr l nodes)
    (hne : nodes ≠ []) : ∃ l' nodes', l.pop_back = some l' ∧ ListRepr l' nodes' ∧
      nodes'.map Prod.snd = (nodes.map Prod.snd).dropLast := by
  rcases List.eq_nil_or_concat nodes with h0 | ⟨init, x, hx⟩
  · exact absurd h0 hne
  · subst hx
    have hb : prevOf l.heap l.end = some x.1 := by
      have := h.2.1.1
      rw [headD_reverse] at this
      simpa [addrs, LinkedList.end] using this
    have h' : ListRepr l (init ++ (x.1, x.2) :: []) := by simpa using h
    obtain ⟨l', hrun, hrep, _, _⟩ := list_erase_repr h'
    refine ⟨l', _, ?_, hrep, by simp⟩
    unfold LinkedList.pop_back
    rw [hb]
    exact hrun

theorem list_run_repr : ∀ (ops : List (Op T)) (l : LinkedList T) (nodes : List (Nat × T)),
    ListRepr l nodes → popsGuarded nodes.length ops → ∀ k, ∃ l' nodes',
      l.run (ops.take k) = some l' ∧
      refRun (nodes.map Prod.snd) (ops.take k) = some (nodes'.map Prod.snd) ∧
      ListRepr l' nodes' ∧
      nodes'.length + pops (ops.take k) = nodes.length + pushes (ops.take k) := by
  intro ops
  induction ops with
  | nil =>
    intro l nodes h _ k
    refine ⟨l, nodes, ?_, ?_, h, ?_⟩ <;> simp [LinkedList.run, refRun, pops, pushes]
  | cons op ops ih =>
    intro l nodes h hg k
    cases k with
    | zero => exact ⟨l, nodes, rfl, rfl, h, rfl⟩
    | succ k =>
      rw [List.take_succ_cons]
      cases op with
      | push_back v =>
        obtain ⟨l1, n1, h1, hr1, hv1⟩ := list_push_back_repr h v
        have hl1 : n1.length = nodes.length + 1 := by
          have := congrArg List.length hv1
          simpa using this
        have hg1 : popsGuarded n1.length ops := by
          rw [hl1]; exact hg
        obtain ⟨l', n', hrun, href, hrep, hcount⟩ := ih l1 n1 hr1 hg1 k
        refine ⟨l', n', ?_, ?_, hrep, ?_⟩
        · simp only [LinkedList.run, LinkedList.apply, h1]; exact hrun
        · simp only [refRun, refApply]; rw [← hv1]; exact href
        · simp only [pops, pushes]
          omega
      | push_front v =>
        obtain ⟨l1, n1, h1, hr1, hv1⟩ := list_push_front_repr h v
        have hl1 : n1.length = nodes.length + 1 := by
          have := congrArg List.length hv1
          simpa using this
        have hg1 : popsGuarded n1.length ops := by
          rw [hl1]; exact hg
        obtain ⟨l', n', hrun, href, hrep, hcount⟩ := ih l1 n1 hr1 hg1 k
        refine ⟨l', n', ?_, ?_, hrep, ?_⟩
        · simp only [LinkedList.run, LinkedList.apply, h1]; exact hrun
        · simp only [refRun, refApply]; rw [← hv1]; exact href
        · simp only [pops, pushes]
          omega
      | pop_back =>
        obtain ⟨hn, hg0⟩ : nodes.length ≠ 0 ∧ popsGuarded (nodes.length - 1) ops := hg
        have hne : nodes ≠ [] := by
          intro hc; subst hc; exact hn rfl
        obtain ⟨l1, n1, h1, hr1, hv1⟩ := list_pop_back_repr h hne
        have hl1 : n1.length = nodes.length - 1 := by
          have := congrArg List.length hv1
          simpa using this
        have hg1 : popsGuarded n1.length ops := by
          rw [hl1]; exact hg0
        obtain ⟨l', n', hrun, href, hrep, hcount⟩ := ih l1 n1 hr1 hg1 k
        refine ⟨l', n', ?_, ?_, hrep, ?_⟩
        · simp only [LinkedList.run, LinkedList.apply, h1]; exact hrun
        · have he : (nodes.map Prod.snd).isEmpty = false := by
            cases nodes with
            | nil => exact absurd rfl hne
            | cons a t => rfl
          simp only [refRun, refApply, he]
          rw [← hv1]; exact href
        · simp only [pops, pushes]
          omega
      | pop_front =>
        obtain ⟨hn, hg0⟩ : nodes.length ≠ 0 ∧ popsGuarded (nodes.length - 1) ops := hg
        have hne : nodes ≠ [] := by
          intro hc; subst hc; exact hn rfl
        obtain ⟨l1, n1, h1, hr1, hv1⟩ := list_pop_front_repr h hne
        have hl1 : n1.length = nodes.length - 1 := by
          have := congrArg List.length hv1
          simpa using this
        have hg1 : popsGuarded n1.length ops := by
          rw [hl1]; exact hg0
        obtain ⟨l', n', hrun, href, hrep, hcount⟩ := ih l1 n1 hr1 hg1 k
        refine ⟨l', n', ?_, ?_, hrep, ?_⟩
        · simp only [LinkedList.run, LinkedList.apply, h1]; exact hrun
        · have he : (nodes.map Prod.snd).isEmpty = false := by
            cases nodes with
            | nil => exact absurd rfl hne
            | cons a t => rfl
          simp only [refRun, refApply, he]
          rw [← hv1]; exact href
        · simp only [pops, pushes]
          omega

end

/-- C2: starting from an empty List, after every step `k` of a sequence of push_back,
push_front, pop_back and pop_front calls whose pops are issued on a non-empty list, the
calls made so far succeed, the reference sequence that underwent the same calls exists,
size() is the number of pushes minus the number of pops, and the traversal from begin()
to end() terminates (any fuel of at least size() steps is enough) and yields exactly the
reference sequence, in the same order. -/
theorem list_refines_reference_sequence (T : Type) (ops : List (Op T))
    (hg : popsGuarded 0 ops) (k : Nat) :
    ∃ l ref, (LinkedList.mk0 T).run (ops.take k) = some l ∧
      refRun [] (ops.take k) = some ref ∧
      pops (ops.take k) ≤ pushes (ops.take k) ∧
      l.size = pushes (ops.take k) - pops (ops.take k) ∧
      ∀ fuel, l.size ≤ fuel → l.toList fuel = some ref := by
  obtain ⟨l, nodes, hrun, href, hrep, hcount⟩ :=
    list_run_repr ops (LinkedList.mk0 T) [] ListRepr_mk0 hg k
  have hsz : l.size = nodes.length := hrep.2.2.2.2.2.2.2
  simp only [List.length_nil] at hcount
  refine ⟨l, nodes.map Prod.snd, hrun, href, by omega, by omega, ?_⟩
  intro fuel hf
  exact toList_repr hrep fuel hf

/-- Witness for C2: pushes at both ends followed by pops at both ends. -/
theorem list_refines_reference_sequence_witness :
    ∃ l ref, (LinkedList.mk0 Nat).run
        (([Op.push_back 1, Op.push_back 2, Op.push_front 0, Op.pop_back, Op.pop_front] :
          List (Op Nat)).take 5) = some l ∧
      refRun [] (([Op.push_back 1, Op.push_back 2, Op.push_front 0, Op.pop_back,
        Op.pop_front] : List (Op Nat)).take 5) = some ref ∧
      pops (([Op.push_back 1, Op.push_back 2, Op.push_front 0, Op.pop_back,
        Op.pop_front] : List (Op Nat)).take 5) ≤
        pushes (([Op.push_back 1, Op.push_back 2, Op.push_front 0, Op.pop_back,
          Op.pop_front] : List (Op Nat)).take 5) ∧
      l.size = pushes (([Op.push_back 1, Op.push_back 2, Op.push_front 0, Op.pop_back,
          Op.pop_front] : List (Op Nat)).take 5) -
        pops (([Op.push_back 1, Op.push_back 2, Op.push_front 0, Op.pop_back,
          Op.pop_front] : List (Op Nat)).take 5) ∧
      ∀ fuel, l.size ≤ fuel → l.toList fuel = some ref :=
  list_refines_reference_sequence Nat
    [Op.push_back 1, Op.push_back 2, Op.push_front 0, Op.pop_back, Op.pop_front]
    (by simp [popsGuarded]) 5

end ListH
namespace ListH

/-! ### Reading a well-formed list at a position -/

section
variable {T : Type}

theorem addrs_append (xs ys : List (Nat × T)) : addrs (xs ++ ys) = addrs xs ++ addrs ys := by
  simp [addrs]

theorem addrs_cons (x : Nat × T) (ys : List (Nat × T)) : addrs (x :: ys) = x.1 :: addrs ys := rfl

/-- Across any cut of the list the two sides are linked to each other. -/
theorem ListRepr_link {l : LinkedList T} {xs ys : List (Nat × T)} (h : ListRepr l (xs ++ ys)) :
    nextOf l.heap ((addrs xs).getLastD l.end_) = some ((addrs ys).headD l.end_) ∧
    prevOf l.heap ((addrs ys).headD l.end_) = some ((addrs xs).getLastD l.end_) := by
  obtain ⟨hnx, hpv, _, _, _, _, _, _⟩ := h
  rw [addrs_append] at hnx hpv
  rw [List.reverse_append] at hpv
  have hnx' : Chain (nextOf l.heap) l.end_ ((l.end_ :: addrs xs) ++ addrs ys) := by
    simpa using hnx
  have hpv' : Chain (prevOf l.heap) l.end_
      ((l.end_ :: (addrs ys).reverse) ++ (addrs xs).reverse) := by
    simpa using hpv
  constructor
  · exact Chain_last _ _ ((Chain_append _ _).1 hnx').1
  · have := Chain_last _ _ ((Chain_append _ _).1 hpv').1
    rw [getLastD_reverse, headD_reverse] at this
    exact this

/-- The node at a position of the list: its address is not the sentinel, it holds its
payload, and its links are its neighbours. -/
theorem ListRepr_at {l : LinkedList T} {xs ys : List (Nat × T)} {x : Nat × T}
    (h : ListRepr l (xs ++ x :: ys)) :
    x.1 ≠ l.end_ ∧ valueOf l.heap x.1 = some x.2 ∧
    nextOf l.heap x.1 = some ((addrs ys).headD l.end_) ∧
    prevOf l.heap x.1 = some ((addrs xs).getLastD l.end_) := by
  have h1 := ListRepr_link h
  have h2 : ListRepr l ((xs ++ [x]) ++ ys) := by simpa using h
  have h3 := ListRepr_link h2
  obtain ⟨_, _, hnd, _, _, _, hvals, _⟩ := h
  refine ⟨?_, hvals x (by simp), ?_, ?_⟩
  · intro he
    have hmem : x.1 ∈ addrs (xs ++ x :: ys) := by simp [addrs]
    exact (List.nodup_cons.1 hnd).1 (he ▸ hmem)
  · have := h3.1
    rw [addrs_append] at this
    simpa [addrs, List.getLastD_eq_getLast?] using this
  · have := h1.2
    simpa [addrs] using this

theorem ListRepr_size {l : LinkedList T} {nodes : List (Nat × T)} (h : ListRepr l nodes) :
    l.size = nodes.length := h.2.2.2.2.2.2.2

theorem ListRepr_begin {l : LinkedList T} {nodes : List (Nat × T)} (h : ListRepr l nodes) :
    l.begin = some ((addrs nodes).headD l.end_) := h.1.1

theorem ListRepr_nodup {l : LinkedList T} {nodes : List (Nat × T)} (h : ListRepr l nodes) :
    (l.end_ :: addrs nodes).Nodup := h.2.2.1

end

end ListH
namespace SmartPointersH

/-! ## smart_pointers.h : reference counting -/

theorem occ_append {α : Type} [DecidableEq α] (x : α) (l₁ l₂ : List α) :
    occ x (l₁ ++ l₂) = occ x l₁ + occ x l₂ := by
  induction l₁ with
  | nil => simp [occ]
  | cons y r ih =>
    have h1 : occ x (y :: r ++ l₂) = (if y = x then 1 else 0) + occ x (r ++ l₂) := rfl
    have h2 : occ x (y :: r) = (if y = x then 1 else 0) + occ x r := rfl
    rw [h1, h2, ih]
    omega

theorem occ_set_balance {α : Type} [DecidableEq α] (old new x : α) :
    ∀ (l : List α) (i : Nat), l[i]? = some old →
      occ x (l.set i new) + (if old = x then 1 else 0)
        = occ x l + (if new = x then 1 else 0) := by
  intro l
  induction l with
  | nil => intro i h; simp at h
  | cons y r ih =>
    intro i h
    cases i with
    | zero =>
      simp only [List.getElem?_cons_zero, Option.some.injEq] at h
      subst h
      simp only [List.set_cons_zero, occ]
      omega
    | succ j =>
      simp only [List.getElem?_cons_succ] at h
      have := ih j h
      simp only [List.set_cons_succ, occ]
      omega

theorem sharedBlock_eq {w : World} {i : Nat} {ob : Option Nat} :
    w.sharedBlock i = some ob ↔ w.shared[i]? = some (some ⟨ob⟩) := by
  unfold World.sharedBlock
  cases h : w.shared[i]? with
  | none => simp
  | some o =>
    cases o with
    | none => simp
    | some s =>
      cases s
      simp

theorem weakBlock_eq {w : World} {i : Nat} {ob : Option Nat} :
    w.weakBlock i = some ob ↔ w.weak[i]? = some (some ⟨ob⟩) := by
  unfold World.weakBlock
  cases h : w.weak[i]? with
  | none => simp
  | some o =>
    cases o with
    | none => simp
    | some s =>
      cases s
      simp

theorem sharedOn_set {w : World} {i : Nat} {ob : Option Nat} (h : w.sharedBlock i = some ob)
    (new : Option SharedPtr) (b : Nat) :
    occ (some ⟨some b⟩) (w.shared.set i new) + (if ob = some b then 1 else 0)
      = w.sharedOn b + (if new = some ⟨some b⟩ then 1 else 0) := by
  have := occ_set_balance (some ⟨ob⟩) new (some ⟨some b⟩) w.shared i (sharedBlock_eq.1 h)
  simpa [World.sharedOn] using this

theorem weakOn_set {w : World} {i : Nat} {ob : Option Nat} (h : w.weakBlock i = some ob)
    (new : Option WeakPtr) (b : Nat) :
    occ (some ⟨some b⟩) (w.weak.set i new) + (if ob = some b then 1 else 0)
      = w.weakOn b + (if new = some ⟨some b⟩ then 1 else 0) := by
  have := occ_set_balance (some ⟨ob⟩) new (some ⟨some b⟩) w.weak i (weakBlock_eq.1 h)
  simpa [World.weakOn] using this

theorem occ_pos_of_getElem? {α : Type} [DecidableEq α] (x : α) :
    ∀ (l : List α) (i : Nat), l[i]? = some x → 0 < occ x l := by
  intro l
  induction l with
  | nil => intro i h; simp at h
  | cons y r ih =>
    intro i h
    cases i with
    | zero =>
      simp only [List.getElem?_cons_zero, Option.some.injEq] at h
      subst h
      simp [occ]
    | succ j =>
      simp only [List.getElem?_cons_succ] at h
      have := ih j h
      simp only [occ]
      omega

theorem sharedOn_pos {w : World} {i b : Nat} (h : w.sharedBlock i = some (some b)) :
    0 < w.sharedOn b :=
  occ_pos_of_getElem? _ _ _ (sharedBlock_eq.1 h)

theorem weakOn_pos {w : World} {i b : Nat} (h : w.weakBlock i = some (some b)) :
    0 < w.weakOn b :=
  occ_pos_of_getElem? _ _ _ (weakBlock_eq.1 h)

theorem dec_pos {n : Nat} (h : 0 < n) : dec n = n - 1 := by
  unfold dec
  rw [if_neg (by omega)]

theorem set_getElem?_same {α : Type} (l : List α) (i : Nat) (x : α) (h : l[i]? = some x) :
    l.set i x = l := by
  apply List.ext_getElem?
  intro j
  rw [List.getElem?_set]
  by_cases hij : i = j
  · subst hij
    have hi : i < l.length := (List.getElem?_eq_some.1 h).1
    simp [hi, h]
  · simp [hij]

theorem modify_blocks_same (w : World) (b : Nat) (f : BaseControlBlock → BaseControlBlock) :
    (w.modify b f).blocks b = f (w.blocks b) := by
  simp [World.modify]

theorem modify_blocks_other (w : World) {b x : Nat} (f : BaseControlBlock → BaseControlBlock)
    (h : x ≠ b) : (w.modify b f).blocks x = w.blocks x := by
  simp [World.modify, h]

/-- What `SharedPtr::delete_block` does to an object whose block is `b0`. -/
theorem shared_delete_block_spec {w : World} {i b0 : Nat}
    (h : w.sharedBlock i = some (some b0)) (hcs : 0 < (w.blocks b0).count_shared) :
    ∃ w', SharedPtr.delete_block w i = some w' ∧
      w'.shared = w.shared.set i (some ⟨none⟩) ∧ w'.weak = w.weak ∧
      w'.next_block = w.next_block ∧ (∀ b, b ≠ b0 → w'.blocks b = w.blocks b) ∧
      (w'.blocks b0).count_shared = (w.blocks b0).count_shared - 1 ∧
      (w'.blocks b0).count_weak = (w.blocks b0).count_weak ∧
      (w'.blocks b0).kind = (w.blocks b0).kind ∧
      (w'.blocks b0).deleted = (w.blocks b0).deleted +
        (if (w.blocks b0).count_shared = 1 then 1 else 0) ∧
      (w'.blocks b0).released = (w.blocks b0).released +
        (if (w.blocks b0).count_shared = 1 ∧ (w.blocks b0).count_weak = 0 then 1 else 0) := by
  simp only [SharedPtr.delete_block, h, Option.some.injEq, exists_eq_left', World.delete_object,
    World.release, modify_blocks_same, dec_pos hcs]
  by_cases h1 : (w.blocks b0).count_shared = 1
  · have h1' : (w.blocks b0).count_shared - 1 = 0 := by omega
    by_cases h2 : (w.blocks b0).count_weak = 0
    · simp only [h1', h2, if_true, h1, and_self]
      refine ⟨rfl, rfl, rfl, ?_, ?_⟩
      · intro b hb
        simp only [World.setShared]
        rw [modify_blocks_other _ _ hb, modify_blocks_other _ _ hb, modify_blocks_other _ _ hb]
      · simp only [World.setShared, modify_blocks_same, h1, and_self]
        exact ⟨rfl, h2, trivial⟩
    · simp only [h1', h2, if_true, if_false, h1, and_false]
      refine ⟨rfl, rfl, rfl, ?_, ?_⟩
      · intro b hb
        simp only [World.setShared]
        rw [modify_blocks_other _ _ hb, modify_blocks_other _ _ hb]
      · simp only [World.setShared, modify_blocks_same, h1, and_self, Nat.add_zero]
        exact ⟨rfl, trivial⟩
  · have h1' : ¬ ((w.blocks b0).count_shared - 1 = 0) := by omega
    simp only [h1', if_false, h1, false_and]
    refine ⟨rfl, rfl, rfl, ?_, ?_⟩
    · intro b hb
      simp only [World.setShared]
      rw [modify_blocks_other _ _ hb]
    · simp only [World.setShared, modify_blocks_same, and_self, Nat.add_zero]
      exact ⟨dec_pos hcs, trivial⟩

/-- Effect of `SharedPtr::delete_block` on a well-counted state. -/
theorem shared_delete_block_inv {w : World} {i : Nat} {ob : Option Nat} (hinv : Inv w)
    (h : w.sharedBlock i = some ob) :
    ∃ w', SharedPtr.delete_block w i = some w' ∧ Inv w' ∧
      w'.shared = w.shared.set i (some ⟨none⟩) ∧ w'.weak = w.weak ∧
      w'.next_block = w.next_block ∧
      (∀ b, (w.blocks b).released ≤ (w'.blocks b).released) := by
  cases ob with
  | none =>
    refine ⟨w, ?_, hinv, ?_, rfl, rfl, fun _ => Nat.le_refl _⟩
    · simp [SharedPtr.delete_block, h]
    · exact (set_getElem?_same _ _ _ (sharedBlock_eq.1 h)).symm
  | some b0 =>
    have hpos := sharedOn_pos h
    have hb0 := hinv b0
    have hcs : 0 < (w.blocks b0).count_shared := by omega
    obtain ⟨w', hrun, hsh, hwk, hnb, hother, hcs', hcw', _, _, hrel'⟩ :=
      shared_delete_block_spec h hcs
    refine ⟨w', hrun, ?_, hsh, hwk, hnb, ?_⟩
    · intro b
      have hb := hinv b
      have hocc := sharedOn_set h (some ⟨none⟩) b
      have hs : w'.sharedOn b = occ (some ⟨some b⟩) (w.shared.set i (some ⟨none⟩)) := by
        unfold World.sharedOn; rw [hsh]
      have hk : w'.weakOn b = w.weakOn b := by
        unfold World.weakOn; rw [hwk]
      have hnone : ¬ ((some ⟨none⟩ : Option SharedPtr) = some ⟨some b⟩) := by simp
      rw [if_neg hnone] at hocc
      rw [hs, hk, hnb]
      by_cases hbb : b = b0
      · subst hbb
        rw [if_pos rfl] at hocc
        rw [hcs', hcw', hrel']
        split_ifs <;> omega
      · have hne : ¬ (some b0 = some b) := by
          intro hc; exact hbb (Option.some.inj hc).symm
        rw [if_neg hne] at hocc
        rw [hother b hbb]
        omega
    · intro b
      by_cases hbb : b = b0
      · subst hbb
        rw [hrel']
        omega
      · rw [hother b hbb]

/-- What `WeakPtr::delete_block` does to an object whose block is `b0`. -/
theorem weak_delete_block_spec {w : World} {i b0 : Nat}
    (h : w.weakBlock i = some (some b0)) (hcw : 0 < (w.blocks b0).count_weak) :
    ∃ w', WeakPtr.delete_block w i = some w' ∧
      w'.weak = w.weak.set i (some ⟨none⟩) ∧ w'.shared = w.shared ∧
      w'.next_block = w.next_block ∧ (∀ b, b ≠ b0 → w'.blocks b = w.blocks b) ∧
      (w'.blocks b0).count_shared = (w.blocks b0).count_shared ∧
      (w'.blocks b0).count_weak = (w.blocks b0).count_weak - 1 ∧
      (w'.blocks b0).kind = (w.blocks b0).kind ∧
      (w'.blocks b0).deleted = (w.blocks b0).deleted ∧
      (w'.blocks b0).released = (w.blocks b0).released +
        (if (w.blocks b0).count_shared = 0 ∧ (w.blocks b0).count_weak = 1 then 1 else 0) := by
  simp only [WeakPtr.delete_block, h, Option.some.injEq, exists_eq_left',
    World.release, modify_blocks_same, dec_pos hcw]
  by_cases h1 : (w.blocks b0).count_shared = 0 ∧ (w.blocks b0).count_weak = 1
  · have h1' : (w.blocks b0).count_shared = 0 ∧ (w.blocks b0).count_weak - 1 = 0 := by omega
    simp only [h1', h1, and_self, if_true]
    refine ⟨rfl, rfl, rfl, ?_, ?_⟩
    · intro b hb
      simp only [World.setWeak]
      rw [modify_blocks_other _ _ hb, modify_blocks_other _ _ hb]
    · simp only [World.setWeak, modify_blocks_same, h1]
      exact ⟨trivial, rfl, trivial, trivial, trivial⟩
  · have h1' : ¬ ((w.blocks b0).count_shared = 0 ∧ (w.blocks b0).count_weak - 1 = 0) := by
      omega
    simp only [h1', h1, if_false]
    refine ⟨rfl, rfl, rfl, ?_, ?_⟩
    · intro b hb
      simp only [World.setWeak]
      rw [modify_blocks_other _ _ hb]
    · simp only [World.setWeak, modify_blocks_same, Nat.add_zero]
      exact ⟨trivial, dec_pos hcw, trivial, trivial, trivial⟩

/-- Effect of `WeakPtr::delete_block` on a well-counted state. -/
theorem weak_delete_block_inv {w : World} {i : Nat} {ob : Option Nat} (hinv : Inv w)
    (h : w.weakBlock i = some ob) :
    ∃ w', WeakPtr.delete_block w i = some w' ∧ Inv w' ∧
      w'.weak = w.weak.set i (some ⟨none⟩) ∧ w'.shared = w.shared ∧
      w'.next_block = w.next_block ∧
      (∀ b, (w.blocks b).released ≤ (w'.blocks b).released) := by
  cases ob with
  | none =>
    refine ⟨w, ?_, hinv, ?_, rfl, rfl, fun _ => Nat.le_refl _⟩
    · simp [WeakPtr.delete_block, h]
    · exact (set_getElem?_same _ _ _ (weakBlock_eq.1 h)).symm
  | some b0 =>
    have hpos := weakOn_pos h
    have hb0 := hinv b0
    have hcw : 0 < (w.blocks b0).count_weak := by omega
    obtain ⟨w', hrun, hwk, hsh, hnb, hother, hcs', hcw', _, _, hrel'⟩ :=
      weak_delete_block_spec h hcw
    refine ⟨w', hrun, ?_, hwk, hsh, hnb, ?_⟩
    · intro b
      have hb := hinv b
      have hocc := weakOn_set h (some ⟨none⟩) b
      have hk : w'.weakOn b = occ (some ⟨some b⟩) (w.weak.set i (some ⟨none⟩)) := by
        unfold World.weakOn; rw [hwk]
      have hs : w'.sharedOn b = w.sharedOn b := by
        unfold World.sharedOn; rw [hsh]
      have hnone : ¬ ((some ⟨none⟩ : Option WeakPtr) = some ⟨some b⟩) := by simp
      rw [if_neg hnone] at hocc
      rw [hs, hk, hnb]
      by_cases hbb : b = b0
      · subst hbb
        rw [if_pos rfl] at hocc
        rw [hcs', hcw', hrel']
        split_ifs <;> omega
      · have hne : ¬ (some b0 = some b) := by
          intro hc; exact hbb (Option.some.inj hc).symm
        rw [if_neg hne] at hocc
        rw [hother b hbb]
        omega
    · intro b
      by_cases hbb : b = b0
      · subst hbb
        rw [hrel']
        omega
      · rw [hother b hbb]

/-- Counts and handles move together, no block is released or allocated: the state stays
well counted. -/
theorem inv_of_balanced {w w' : World} (hinv : Inv w) (hnb : w'.next_block = w.next_block)
    (hrel : ∀ b, (w'.blocks b).released = (w.blocks b).released)
    (hs : ∀ b, (w'.blocks b).count_shared + w.sharedOn b
      = (w.blocks b).count_shared + w'.sharedOn b)
    (hk : ∀ b, (w'.blocks b).count_weak + w.weakOn b
      = (w.blocks b).count_weak + w'.weakOn b)
    (hz : ∀ b, ((w.blocks b).count_shared = 0 ∧ (w.blocks b).count_weak = 0) ↔
      ((w'.blocks b).count_shared = 0 ∧ (w'.blocks b).count_weak = 0)) :
    Inv w' := by
  intro b
  have hb := hinv b
  have h1 := hs b
  have h2 := hk b
  have h3 := hz b
  rw [hnb, hrel b]
  omega

theorem incShared_blocks (w : World) (b x : Nat) :
    (w.incShared b).blocks x =
      if x = b then { w.blocks x with count_shared := (w.blocks x).count_shared + 1 }
      else w.blocks x := rfl

theorem incWeak_blocks (w : World) (b x : Nat) :
    (w.incWeak b).blocks x =
      if x = b then { w.blocks x with count_weak := (w.blocks x).count_weak + 1 }
      else w.blocks x := rfl

theorem sharedOn_setShared {w : World} {i : Nat} {ob : Option Nat}
    (h : w.sharedBlock i = some ob) (nb : Option Nat) (b : Nat) :
    (w.setShared i nb).sharedOn b + (if ob = some b then 1 else 0)
      = w.sharedOn b + (if nb = some b then 1 else 0) := by
  have := sharedOn_set h (some ⟨nb⟩) b
  simpa [World.sharedOn, World.setShared] using this

theorem weakOn_setWeak {w : World} {i : Nat} {ob : Option Nat}
    (h : w.weakBlock i = some ob) (nb : Option Nat) (b : Nat) :
    (w.setWeak i nb).weakOn b + (if ob = some b then 1 else 0)
      = w.weakOn b + (if nb = some b then 1 else 0) := by
  have := weakOn_set h (some ⟨nb⟩) b
  simpa [World.weakOn, World.setWeak] using this

theorem sharedOn_push (w : World) (o : Option SharedPtr) (b : Nat) :
    occ (some ⟨some b⟩) (w.shared ++ [o])
      = w.sharedOn b + (if o = some ⟨some b⟩ then 1 else 0) := by
  rw [occ_append]
  simp [World.sharedOn, occ]

theorem weakOn_push (w : World) (o : Option WeakPtr) (b : Nat) :
    occ (some ⟨some b⟩) (w.weak ++ [o])
      = w.weakOn b + (if o = some ⟨some b⟩ then 1 else 0) := by
  rw [occ_append]
  simp [World.weakOn, occ]

theorem sharedBlock_lt {w : World} {i : Nat} {ob : Option Nat} (h : w.sharedBlock i = some ob) :
    i < w.shared.length :=
  (List.getElem?_eq_some.1 (sharedBlock_eq.1 h)).1

theorem weakBlock_lt {w : World} {i : Nat} {ob : Option Nat} (h : w.weakBlock i = some ob) :
    i < w.weak.length :=
  (List.getElem?_eq_some.1 (weakBlock_eq.1 h)).1

theorem sharedBlock_setShared {w : World} {i : Nat} (hi : i < w.shared.length)
    (v : Option Nat) (j : Nat) :
    (w.setShared i v).sharedBlock j = if j = i then some v else w.sharedBlock j := by
  unfold World.sharedBlock World.setShared
  simp only [List.getElem?_set]
  by_cases hji : j = i
  · subst hji
    simp [hi]
  · have : ¬ (i = j) := fun h => hji h.symm
    simp [hji, this]

theorem weakBlock_setWeak {w : World} {i : Nat} (hi : i < w.weak.length)
    (v : Option Nat) (j : Nat) :
    (w.setWeak i v).weakBlock j = if j = i then some v else w.weakBlock j := by
  unfold World.weakBlock World.setWeak
  simp only [List.getElem?_set]
  by_cases hji : j = i
  · subst hji
    simp [hi]
  · have : ¬ (i = j) := fun h => hji h.symm
    simp [hji, this]

theorem some_eq_some_iff' {a b : Nat} : ((some a : Option Nat) = some b) ↔ a = b := by
  constructor
  · intro h; exact Option.some.inj h
  · intro h; rw [h]

/-- `block_ = other.block_; ++block_->count_shared` on an object that holds no block. -/
theorem inv_shared_attach_set {w : World} {i b0 : Nat} (hinv : Inv w)
    (hi : w.sharedBlock i = some none)
    (hlive : 0 < (w.blocks b0).count_shared + (w.blocks b0).count_weak) :
    Inv ((w.setShared i (some b0)).incShared b0) := by
  refine inv_of_balanced hinv rfl ?_ ?_ ?_ ?_
  · intro b
    rw [incShared_blocks]
    split_ifs <;> rfl
  · intro b
    have hocc := sharedOn_setShared hi (some b0) b
    have hs : ((w.setShared i (some b0)).incShared b0).sharedOn b
        = (w.setShared i (some b0)).sharedOn b := rfl
    rw [hs, incShared_blocks]
    simp only [some_eq_some_iff', reduceCtorEq, if_false] at hocc
    by_cases hb : b = b0
    · subst hb
      simp only [if_true] at hocc ⊢
      have : (w.setShared i (some b)).blocks b = w.blocks b := rfl
      rw [this]
      omega
    · have hb' : ¬ (b0 = b) := fun h => hb h.symm
      simp only [hb, hb', if_false] at hocc ⊢
      have : (w.setShared i (some b0)).blocks b = w.blocks b := rfl
      rw [this]
      omega
  · intro b
    have hk : ((w.setShared i (some b0)).incShared b0).weakOn b = w.weakOn b := rfl
    rw [hk, incShared_blocks]
    have : (w.setShared i (some b0)).blocks b = w.blocks b := rfl
    split_ifs <;> rw [this]
  · intro b
    rw [incShared_blocks]
    have : (w.setShared i (some b0)).blocks b = w.blocks b := rfl
    by_cases hb : b = b0
    · subst hb
      simp only [if_true, this]
      omega
    · simp only [hb, if_false, this]

/-- The same for a newly constructed object. -/
theorem inv_shared_attach_push {w : World} {b0 : Nat} (hinv : Inv w)
    (hlive : 0 < (w.blocks b0).count_shared + (w.blocks b0).count_weak) :
    Inv (World.incShared { w with shared := w.shared ++ [some ⟨some b0⟩] } b0) := by
  refine inv_of_balanced hinv rfl ?_ ?_ ?_ ?_
  · intro b
    rw [incShared_blocks]
    split_ifs <;> rfl
  · intro b
    have hocc := sharedOn_push w (some ⟨some b0⟩) b
    have hs : (World.incShared { w with shared := w.shared ++ [some ⟨some b0⟩] } b0).sharedOn b
        = occ (some ⟨some b⟩) (w.shared ++ [some ⟨some b0⟩]) := rfl
    rw [hs, hocc, incShared_blocks]
    by_cases hb : b = b0
    · subst hb
      simp only [if_true]
      omega
    · have hb' : ¬ ((some ⟨some b0⟩ : Option SharedPtr) = some ⟨some b⟩) := by
        intro h
        injection h with h
        injection h with h
        exact hb (Option.some.inj h).symm
      simp only [hb, hb', if_false]
      omega
  · intro b
    have hk : (World.incShared { w with shared := w.shared ++ [some ⟨some b0⟩] } b0).weakOn b
        = w.weakOn b := rfl
    rw [hk, incShared_blocks]
    split_ifs <;> rfl
  · intro b
    rw [incShared_blocks]
    by_cases hb : b = b0
    · subst hb
      simp only [if_true]
      omega
    · simp only [hb, if_false]

/-- A handle that holds no block may be set to null, appended or ended. -/
theorem inv_shared_only {w w' : World} (hinv : Inv w) (hb : w'.blocks = w.blocks)
    (hn : w'.next_block = w.next_block) (hw : w'.weak = w.weak)
    (hs : ∀ b, w'.sharedOn b = w.sharedOn b) : Inv w' := by
  refine inv_of_balanced hinv hn ?_ ?_ ?_ ?_
  · intro b; rw [hb]
  · intro b; rw [hb, hs b]
  · intro b
    have : w'.weakOn b = w.weakOn b := by unfold World.weakOn; rw [hw]
    rw [hb, this]
  · intro b; rw [hb]

theorem inv_weak_only {w w' : World} (hinv : Inv w) (hb : w'.blocks = w.blocks)
    (hn : w'.next_block = w.next_block) (hw : w'.shared = w.shared)
    (hs : ∀ b, w'.weakOn b = w.weakOn b) : Inv w' := by
  refine inv_of_balanced hinv hn ?_ ?_ ?_ ?_
  · intro b; rw [hb]
  · intro b
    have : w'.sharedOn b = w.sharedOn b := by unfold World.sharedOn; rw [hw]
    rw [hb, this]
  · intro b; rw [hb, hs b]
  · intro b; rw [hb]

/-- `block_ = other.block_; ++block_->count_weak` on an object that holds no block. -/
theorem inv_weak_attach_set {w : World} {i b0 : Nat} (hinv : Inv w)
    (hi : w.weakBlock i = some none)
    (hlive : 0 < (w.blocks b0).count_shared + (w.blocks b0).count_weak) :
    Inv ((w.setWeak i (some b0)).incWeak b0) := by
  refine inv_of_balanced hinv rfl ?_ ?_ ?_ ?_
  · intro b
    rw [incWeak_blocks]
    split_ifs <;> rfl
  · intro b
    have hk : ((w.setWeak i (some b0)).incWeak b0).sharedOn b = w.sharedOn b := rfl
    rw [hk, incWeak_blocks]
    have : (w.setWeak i (some b0)).blocks b = w.blocks b := rfl
    split_ifs <;> rw [this]
  · intro b
    have hocc := weakOn_setWeak hi (some b0) b
    have hs : ((w.setWeak i (some b0)).incWeak b0).weakOn b
        = (w.setWeak i (some b0)).weakOn b := rfl
    rw [hs, incWeak_blocks]
    simp only [some_eq_some_iff', reduceCtorEq, if_false] at hocc
    by_cases hb : b = b0
    · subst hb
      simp only [if_true] at hocc ⊢
      have : (w.setWeak i (some b)).blocks b = w.blocks b := rfl
      rw [this]
      omega
    · have hb' : ¬ (b0 = b) := fun h => hb h.symm
      simp only [hb, hb', if_false] at hocc ⊢
      have : (w.setWeak i (some b0)).blocks b = w.blocks b := rfl
      rw [this]
      omega
  · intro b
    rw [incWeak_blocks]
    have : (w.setWeak i (some b0)).blocks b = w.blocks b := rfl
    by_cases hb : b = b0
    · subst hb
      simp only [if_true, this]
      omega
    · simp only [hb, if_false, this]

/-- The same for a newly constructed `WeakPtr`. -/
theorem inv_weak_attach_push {w : World} {b0 : Nat} (hinv : Inv w)
    (hlive : 0 < (w.blocks b0).count_shared + (w.blocks b0).count_weak) :
    Inv (World.incWeak { w with weak := w.weak ++ [some ⟨some b0⟩] } b0) := by
  refine inv_of_balanced hinv rfl ?_ ?_ ?_ ?_
  · intro b
    rw [incWeak_blocks]
    split_ifs <;> rfl
  · intro b
    have hk : (World.incWeak { w with weak := w.weak ++ [some ⟨some b0⟩] } b0).sharedOn b
        = w.sharedOn b := rfl
    rw [hk, incWeak_blocks]
    split_ifs <;> rfl
  · intro b
    have hocc := weakOn_push w (some ⟨some b0⟩) b
    have hs : (World.incWeak { w with weak := w.weak ++ [some ⟨some b0⟩] } b0).weakOn b
        = occ (some ⟨some b⟩) (w.weak ++ [some ⟨some b0⟩]) := rfl
    rw [hs, hocc, incWeak_blocks]
    by_cases hb : b = b0
    · subst hb
      simp only [if_true]
      omega
    · have hb' : ¬ ((some ⟨some b0⟩ : Option WeakPtr) = some ⟨some b⟩) := by
        intro h
        injection h with h
        injection h with h
        exact hb (Option.some.inj h).symm
      simp only [hb, hb', if_false]
      omega
  · intro b
    rw [incWeak_blocks]
    by_cases hb : b = b0
    · subst hb
      simp only [if_true]
      omega
    · simp only [hb, if_false]

theorem incShared_released (w : World) (b x : Nat) :
    ((w.incShared b).blocks x).released = (w.blocks x).released := by
  rw [incShared_blocks]
  split_ifs <;> rfl

theorem incWeak_released (w : World) (b x : Nat) :
    ((w.incWeak b).blocks x).released = (w.blocks x).released := by
  rw [incWeak_blocks]
  split_ifs <;> rfl

/-- A handle on `b` keeps one of the counts of `b` positive. -/
theorem live_of_shared {w : World} {i b : Nat} (hinv : Inv w)
    (h : w.sharedBlock i = some (some b)) :
    0 < (w.blocks b).count_shared + (w.blocks b).count_weak := by
  have := sharedOn_pos h
  have := hinv b
  omega

theorem live_of_weak {w : World} {i b : Nat} (hinv : Inv w)
    (h : w.weakBlock i = some (some b)) :
    0 < (w.blocks b).count_shared + (w.blocks b).count_weak := by
  have := weakOn_pos h
  have := hinv b
  omega

/-- Allocating a control block and attaching the first `SharedPtr` to it. -/
theorem inv_new_block {w w' : World} (hinv : Inv w) (kind : BlockKind)
    (hnb : w'.next_block = w.next_block + 1) (hw : w'.weak = w.weak)
    (hs : ∀ b, w'.sharedOn b = w.sharedOn b + (if b = w.next_block then 1 else 0))
    (hblk : ∀ b, w'.blocks b = if b = w.next_block then
      { count_shared := 1, count_weak := 0, kind := kind, deleted := 0, released := 0 }
      else w.blocks b) :
    Inv w' ∧ ∀ b, (w.blocks b).released ≤ (w'.blocks b).released := by
  constructor
  · intro b
    have hb := hinv b
    have hk : w'.weakOn b = w.weakOn b := by unfold World.weakOn; rw [hw]
    rw [hs b, hk, hnb, hblk b]
    by_cases hbb : b = w.next_block
    · simp only [hbb, if_true]
      rw [hbb] at hb
      omega
    · simp only [hbb, if_false]
      omega
  · intro b
    have hb := hinv b
    rw [hblk b]
    by_cases hbb : b = w.next_block
    · simp only [hbb, if_true]
      rw [hbb] at hb
      omega
    · simp only [hbb, if_false]
      exact Nat.le_refl _

theorem ptr_eq_iff {ob : Option Nat} {b : Nat} :
    ((some ⟨ob⟩ : Option SharedPtr) = some ⟨some b⟩) ↔ ob = some b := by
  constructor
  · intro h
    injection h with h
    injection h
  · intro h; rw [h]

theorem wptr_eq_iff {ob : Option Nat} {b : Nat} :
    ((some ⟨ob⟩ : Option WeakPtr) = some ⟨some b⟩) ↔ ob = some b := by
  constructor
  · intro h
    injection h with h
    injection h
  · intro h; rw [h]

theorem advances_sp_default {w : World} (hinv : Inv w) :
    Advances w (SharedPtr.ctor_default w) := by
  refine ⟨inv_shared_only hinv rfl rfl rfl ?_, Nat.le_refl _, fun _ => Nat.le_refl _⟩
  intro b
  have := sharedOn_push w (some ⟨none⟩) b
  simp only [ptr_eq_iff, reduceCtorEq, if_false, Nat.add_zero] at this
  exact this

theorem advances_wp_default {w : World} (hinv : Inv w) :
    Advances w (WeakPtr.ctor_default w) := by
  refine ⟨inv_weak_only hinv rfl rfl rfl ?_, Nat.le_refl _, fun _ => Nat.le_refl _⟩
  intro b
  have := weakOn_push w (some ⟨none⟩) b
  simp only [wptr_eq_iff, reduceCtorEq, if_false, Nat.add_zero] at this
  exact this

theorem advances_new_push {w : World} (hinv : Inv w) (kind : BlockKind) :
    Advances w (World.incShared
      { (w.newBlock kind).2 with
        shared := (w.newBlock kind).2.shared ++ [some ⟨some (w.newBlock kind).1⟩] }
      (w.newBlock kind).1) := by
  have h := @inv_new_block w (World.incShared
      { (w.newBlock kind).2 with
        shared := (w.newBlock kind).2.shared ++ [some ⟨some (w.newBlock kind).1⟩] }
      (w.newBlock kind).1) hinv kind rfl rfl ?_ ?_
  · exact ⟨h.1, Nat.le_succ _, h.2⟩
  · intro b
    have := sharedOn_push w (some ⟨some w.next_block⟩) b
    simp only [ptr_eq_iff, some_eq_some_iff'] at this
    have hsym : (w.next_block = b) ↔ (b = w.next_block) := eq_comm
    simp only [hsym] at this
    exact this
  · intro b
    rw [incShared_blocks]
    simp only [World.newBlock]
    by_cases hb : b = w.next_block
    · simp [hb]
    · simp [hb]

theorem advances_sp_raw {w : World} (hinv : Inv w) (p : Nat) :
    Advances w (SharedPtr.ctor_raw w p) :=
  advances_new_push hinv (.adopting p)

theorem advances_makeShared {w : World} (hinv : Inv w) : Advances w (makeShared w) :=
  advances_new_push hinv .inplace

theorem advances_allocateShared {w : World} (hinv : Inv w) :
    Advances w (allocateShared w) :=
  advances_new_push hinv .inplace

theorem advances_ctor_block {w : World} (hinv : Inv w) (ob : Option Nat)
    (hlive : ∀ b, ob = some b → 0 < (w.blocks b).count_shared + (w.blocks b).count_weak) :
    Advances w (SharedPtr.ctor_block w ob) := by
  cases ob with
  | none => exact advances_sp_default hinv
  | some b =>
    refine ⟨inv_shared_attach_push hinv (hlive b rfl), Nat.le_refl _, ?_⟩
    intro x
    simp only [SharedPtr.ctor_block]
    rw [incShared_released]

theorem advances_sp_copy {w w' : World} {o : Nat} (hinv : Inv w)
    (h : SharedPtr.ctor_copy w o = some w') : Advances w w' := by
  unfold SharedPtr.ctor_copy at h
  cases hob : w.sharedBlock o with
  | none => simp [hob] at h
  | some ob =>
    cases ob with
    | none =>
      simp only [hob, Option.some.injEq] at h
      subst h
      exact advances_sp_default hinv
    | some b =>
      simp only [hob, Option.some.injEq] at h
      subst h
      refine ⟨inv_shared_attach_push hinv (live_of_shared hinv hob), Nat.le_refl _, ?_⟩
      intro x
      rw [incShared_released]

theorem advances_wp_shared {w w' : World} {o : Nat} (hinv : Inv w)
    (h : WeakPtr.ctor_shared w o = some w') : Advances w w' := by
  unfold WeakPtr.ctor_shared at h
  cases hob : w.sharedBlock o with
  | none => simp [hob] at h
  | some ob =>
    cases ob with
    | none =>
      simp only [hob, Option.some.injEq] at h
      subst h
      exact advances_wp_default hinv
    | some b =>
      simp only [hob, Option.some.injEq] at h
      subst h
      refine ⟨inv_weak_attach_push hinv (live_of_shared hinv hob), Nat.le_refl _, ?_⟩
      intro x
      rw [incWeak_released]

theorem advances_wp_copy {w w' : World} {o : Nat} (hinv : Inv w)
    (h : WeakPtr.ctor_copy w o = some w') : Advances w w' := by
  unfold WeakPtr.ctor_copy at h
  cases hob : w.weakBlock o with
  | none => simp [hob] at h
  | some ob =>
    cases ob with
    | none =>
      simp only [hob, Option.some.injEq] at h
      subst h
      exact advances_wp_default hinv
    | some b =>
      simp only [hob, Option.some.injEq] at h
      subst h
      refine ⟨inv_weak_attach_push hinv (live_of_weak hinv hob), Nat.le_refl _, ?_⟩
      intro x
      rw [incWeak_released]

theorem advances_wp_lock {w w' : World} {s : Nat} (hinv : Inv w)
    (h : WeakPtr.lock w s = some w') : Advances w w' := by
  unfold WeakPtr.lock at h
  cases hob : w.weakBlock s with
  | none => simp [hob] at h
  | some ob =>
    simp only [hob, Option.some.injEq] at h
    subst h
    refine advances_ctor_block hinv ob ?_
    intro b hb
    subst hb
    exact live_of_weak hinv hob

theorem advances_trans {w w1 w2 : World} (h1 : Advances w w1) (h2 : Advances w1 w2) :
    Advances w w2 :=
  ⟨h2.1, Nat.le_trans h1.2.1 h2.2.1, fun b => Nat.le_trans (h1.2.2 b) (h2.2.2 b)⟩

theorem advances_shared_only {w w' : World} (hinv : Inv w) (hb : w'.blocks = w.blocks)
    (hn : w'.next_block = w.next_block) (hw : w'.weak = w.weak)
    (hs : ∀ b, w'.sharedOn b = w.sharedOn b) : Advances w w' :=
  ⟨inv_shared_only hinv hb hn hw hs, Nat.le_of_eq hn.symm, fun b => by rw [hb]⟩

theorem advances_weak_only {w w' : World} (hinv : Inv w) (hb : w'.blocks = w.blocks)
    (hn : w'.next_block = w.next_block) (hw : w'.shared = w.shared)
    (hs : ∀ b, w'.weakOn b = w.weakOn b) : Advances w w' :=
  ⟨inv_weak_only hinv hb hn hw hs, Nat.le_of_eq hn.symm, fun b => by rw [hb]⟩

theorem sharedBlock_of_set_null {w w' : World} {i : Nat} {ob : Option Nat}
    (h : w.sharedBlock i = some ob) (hs : w'.shared = w.shared.set i (some ⟨none⟩)) (j : Nat) :
    w'.sharedBlock j = if j = i then some none else w.sharedBlock j := by
  have := sharedBlock_setShared (sharedBlock_lt h) none j
  unfold World.sharedBlock at this ⊢
  rw [hs]
  exact this

theorem weakBlock_of_set_null {w w' : World} {i : Nat} {ob : Option Nat}
    (h : w.weakBlock i = some ob) (hs : w'.weak = w.weak.set i (some ⟨none⟩)) (j : Nat) :
    w'.weakBlock j = if j = i then some none else w.weakBlock j := by
  have := weakBlock_setWeak (weakBlock_lt h) none j
  unfold World.weakBlock at this ⊢
  rw [hs]
  exact this

/-- Two successive assignments to `block_` members change the handle counts by the
values written minus the values overwritten. -/
theorem sharedOn_two_sets {w : World} {i j : Nat} {a c : Option Nat} (x y : Option Nat)
    (hi : w.sharedBlock i = some a) (hj : (w.setShared i x).sharedBlock j = some c) (b : Nat) :
    ((w.setShared i x).setShared j y).sharedOn b + (if a = some b then 1 else 0)
        + (if c = some b then 1 else 0)
      = w.sharedOn b + (if x = some b then 1 else 0) + (if y = some b then 1 else 0) := by
  have h1 := sharedOn_setShared hi x b
  have h2 := sharedOn_setShared hj y b
  omega

theorem weakOn_two_sets {w : World} {i j : Nat} {a c : Option Nat} (x y : Option Nat)
    (hi : w.weakBlock i = some a) (hj : (w.setWeak i x).weakBlock j = some c) (b : Nat) :
    ((w.setWeak i x).setWeak j y).weakOn b + (if a = some b then 1 else 0)
        + (if c = some b then 1 else 0)
      = w.weakOn b + (if x = some b then 1 else 0) + (if y = some b then 1 else 0) := by
  have h1 := weakOn_setWeak hi x b
  have h2 := weakOn_setWeak hj y b
  omega

/-- `block_ = other.block_; other.block_ = nullptr` on an object that holds no block. -/
theorem advances_shared_transfer {w : World} {i j : Nat} {ob : Option Nat} (hinv : Inv w)
    (hi : w.sharedBlock i = some none) (hj : w.sharedBlock j = some ob) :
    Advances w ((w.setShared i ob).setShared j none) := by
  refine advances_shared_only hinv rfl rfl rfl ?_
  intro b
  have hj' : (w.setShared i ob).sharedBlock j = some ob := by
    rw [sharedBlock_setShared (sharedBlock_lt hi)]
    split_ifs
    · rfl
    · exact hj
  have := sharedOn_two_sets ob none hi hj' b
  simp only [reduceCtorEq, if_false] at this
  omega

theorem advances_weak_transfer {w : World} {i j : Nat} {ob : Option Nat} (hinv : Inv w)
    (hi : w.weakBlock i = some none) (hj : w.weakBlock j = some ob) :
    Advances w ((w.setWeak i ob).setWeak j none) := by
  refine advances_weak_only hinv rfl rfl rfl ?_
  intro b
  have hj' : (w.setWeak i ob).weakBlock j = some ob := by
    rw [weakBlock_setWeak (weakBlock_lt hi)]
    split_ifs
    · rfl
    · exact hj
  have := weakOn_two_sets ob none hi hj' b
  simp only [reduceCtorEq, if_false] at this
  omega

theorem advances_sp_move {w w' : World} {o : Nat} (hinv : Inv w)
    (h : SharedPtr.ctor_move w o = some w') : Advances w w' := by
  unfold SharedPtr.ctor_move at h
  cases hob : w.sharedBlock o with
  | none => simp [hob] at h
  | some ob =>
    simp only [hob, Option.some.injEq] at h
    subst h
    refine advances_shared_only hinv rfl rfl rfl ?_
    intro b
    have ho : World.sharedBlock { w with shared := w.shared ++ [some ⟨ob⟩] } o = some ob := by
      rw [sharedBlock_eq]
      have := sharedBlock_eq.1 hob
      show (w.shared ++ [some ⟨ob⟩])[o]? = _
      rw [List.getElem?_append_left (sharedBlock_lt hob)]
      exact this
    have h1 := sharedOn_setShared ho none b
    have h2 := sharedOn_push w (some ⟨ob⟩) b
    have h3 : World.sharedOn { w with shared := w.shared ++ [some ⟨ob⟩] } b
        = occ (some ⟨some b⟩) (w.shared ++ [some ⟨ob⟩]) := rfl
    simp only [ptr_eq_iff] at h2
    simp only [reduceCtorEq, if_false] at h1
    omega

theorem advances_sp_reset {w w' : World} {s : Nat} (hinv : Inv w)
    (h : SharedPtr.reset w s = some w') : Advances w w' := by
  unfold SharedPtr.reset at h
  cases hob : w.sharedBlock s with
  | none => simp [SharedPtr.delete_block, hob] at h
  | some ob =>
    obtain ⟨w1, hrun, hinv1, _, _, hnb, hrel⟩ := shared_delete_block_inv hinv hob
    rw [hrun] at h
    injection h with h
    subst h
    exact ⟨hinv1, Nat.le_of_eq hnb.symm, hrel⟩

theorem advances_sp_assign_copy {w w' : World} {s o : Nat} (hinv : Inv w)
    (h : SharedPtr.assign_copy w s o = some w') : Advances w w' := by
  unfold SharedPtr.assign_copy at h
  cases hsb : w.sharedBlock s with
  | none => simp [SharedPtr.delete_block, hsb] at h
  | some sb =>
    obtain ⟨w1, hrun, hinv1, hsh, _, hnb, hrel⟩ := shared_delete_block_inv hinv hsb
    have hadv1 : Advances w w1 := ⟨hinv1, Nat.le_of_eq hnb.symm, hrel⟩
    have hself : w1.sharedBlock s = some none := by
      rw [sharedBlock_of_set_null hsb hsh, if_pos rfl]
    simp only [hrun] at h
    cases hob : w1.sharedBlock o with
    | none => simp [hob] at h
    | some ob =>
      cases ob with
      | none =>
        simp only [hob, Option.some.injEq] at h
        subst h
        refine advances_trans hadv1 (advances_shared_only hinv1 rfl rfl rfl ?_)
        intro b
        have := sharedOn_setShared hself none b
        omega
      | some b0 =>
        simp only [hob, Option.some.injEq] at h
        subst h
        refine advances_trans hadv1
          ⟨inv_shared_attach_set hinv1 hself (live_of_shared hinv1 hob), Nat.le_refl _, ?_⟩
        intro x
        rw [incShared_released]
        exact Nat.le_refl _

theorem advances_sp_assign_move {w w' : World} {s o : Nat} (hinv : Inv w)
    (h : SharedPtr.assign_move w s o = some w') : Advances w w' := by
  unfold SharedPtr.assign_move at h
  cases hsb : w.sharedBlock s with
  | none => simp [SharedPtr.delete_block, hsb] at h
  | some sb =>
    obtain ⟨w1, hrun, hinv1, hsh, _, hnb, hrel⟩ := shared_delete_block_inv hinv hsb
    have hadv1 : Advances w w1 := ⟨hinv1, Nat.le_of_eq hnb.symm, hrel⟩
    have hself : w1.sharedBlock s = some none := by
      rw [sharedBlock_of_set_null hsb hsh, if_pos rfl]
    simp only [hrun] at h
    cases hob : w1.sharedBlock o with
    | none => simp [hob] at h
    | some ob =>
      simp only [hob, Option.some.injEq] at h
      subst h
      exact advances_trans hadv1 (advances_shared_transfer hinv1 hself hob)

theorem advances_sp_dtor {w w' : World} {s : Nat} (hinv : Inv w)
    (h : SharedPtr.dtor w s = some w') : Advances w w' := by
  unfold SharedPtr.dtor at h
  cases hsb : w.sharedBlock s with
  | none => simp [SharedPtr.delete_block, hsb] at h
  | some sb =>
    obtain ⟨w1, hrun, hinv1, hsh, _, hnb, hrel⟩ := shared_delete_block_inv hinv hsb
    have hadv1 : Advances w w1 := ⟨hinv1, Nat.le_of_eq hnb.symm, hrel⟩
    have hself : w1.sharedBlock s = some none := by
      rw [sharedBlock_of_set_null hsb hsh, if_pos rfl]
    simp only [hrun, Option.some.injEq] at h
    subst h
    refine advances_trans hadv1 (advances_shared_only hinv1 rfl rfl rfl ?_)
    intro b
    have := sharedOn_set hself none b
    simp only [reduceCtorEq, if_false] at this
    exact this

theorem advances_sp_swap {w w' : World} {s o : Nat} (hinv : Inv w)
    (h : SharedPtr.swap w s o = some w') : Advances w w' := by
  unfold SharedPtr.swap at h
  cases hsb : w.sharedBlock s with
  | none => simp [hsb] at h
  | some sb =>
    cases hob : w.sharedBlock o with
    | none => simp [hsb, hob] at h
    | some ob =>
      simp only [hsb, hob, Option.some.injEq] at h
      subst h
      refine advances_shared_only hinv rfl rfl rfl ?_
      intro b
      have ho' : (w.setShared s ob).sharedBlock o = some ob := by
        rw [sharedBlock_setShared (sharedBlock_lt hsb)]
        split_ifs
        · rfl
        · exact hob
      have := sharedOn_two_sets ob sb hsb ho' b
      omega

theorem advances_sp_reset_raw {w w' : World} {s p : Nat} (hinv : Inv w)
    (h : SharedPtr.reset_raw w s p = some w') : Advances w w' := by
  unfold SharedPtr.reset_raw at h
  cases hsb : w.sharedBlock s with
  | none => simp [SharedPtr.delete_block, hsb] at h
  | some sb =>
    obtain ⟨w1, hrun, hinv1, hsh, _, hnb, hrel⟩ := shared_delete_block_inv hinv hsb
    have hadv1 : Advances w w1 := ⟨hinv1, Nat.le_of_eq hnb.symm, hrel⟩
    have hself : w1.sharedBlock s = some none := by
      rw [sharedBlock_of_set_null hsb hsh, if_pos rfl]
    simp only [hrun, Option.some.injEq] at h
    subst h
    have hself2 : (w1.newBlock (.adopting p)).2.sharedBlock s = some none := hself
    have hnew := @inv_new_block w1
      (((w1.newBlock (.adopting p)).2.setShared s
        (some (w1.newBlock (.adopting p)).1)).incShared (w1.newBlock (.adopting p)).1)
      hinv1 (.adopting p) rfl rfl ?_ ?_
    · exact advances_trans hadv1 ⟨hnew.1, Nat.le_succ _, hnew.2⟩
    · intro b
      have := sharedOn_setShared hself2 (some w1.next_block) b
      simp only [reduceCtorEq, if_false, some_eq_some_iff'] at this
      have hsym : (w1.next_block = b) ↔ (b = w1.next_block) := eq_comm
      simp only [hsym] at this
      exact this
    · intro b
      rw [incShared_blocks]
      simp only [World.newBlock, World.setShared]
      by_cases hb : b = w1.next_block
      · simp [hb]
      · simp [hb]

theorem weakBlock_push_new (w : World) (ob : Option Nat) :
    World.weakBlock { w with weak := w.weak ++ [some ⟨ob⟩] } w.weak.length = some ob := by
  rw [weakBlock_eq]
  show (w.weak ++ [some ⟨ob⟩])[w.weak.length]? = _
  rw [List.getElem?_append_right (Nat.le_refl _)]
  simp

theorem advances_wp_move {w w' : World} {p : Nat} (hinv : Inv w)
    (h : WeakPtr.ctor_move w p = some w') : Advances w w' := by
  unfold WeakPtr.ctor_move at h
  have hself := weakBlock_push_new w none
  have hdel : WeakPtr.delete_block { w with weak := w.weak ++ [some ⟨none⟩] } w.weak.length
      = some { w with weak := w.weak ++ [some ⟨none⟩] } := by
    simp [WeakPtr.delete_block, hself]
  simp only [hdel] at h
  have hadv0 : Advances w { w with weak := w.weak ++ [some ⟨none⟩] } := advances_wp_default hinv
  cases hob : World.weakBlock { w with weak := w.weak ++ [some ⟨none⟩] } p with
  | none => simp [hob] at h
  | some ob =>
    simp only [hob, Option.some.injEq] at h
    subst h
    exact advances_trans hadv0 (advances_weak_transfer hadv0.1 hself hob)

theorem advances_wp_assign_copy {w w' : World} {s o : Nat} (hinv : Inv w)
    (h : WeakPtr.assign_copy w s o = some w') : Advances w w' := by
  unfold WeakPtr.assign_copy at h
  cases hsb : w.weakBlock s with
  | none => simp [WeakPtr.delete_block, hsb] at h
  | some sb =>
    obtain ⟨w1, hrun, hinv1, hwk, _, hnb, hrel⟩ := weak_delete_block_inv hinv hsb
    have hadv1 : Advances w w1 := ⟨hinv1, Nat.le_of_eq hnb.symm, hrel⟩
    have hself : w1.weakBlock s = some none := by
      rw [weakBlock_of_set_null hsb hwk, if_pos rfl]
    simp only [hrun] at h
    cases hob : w1.weakBlock o with
    | none => simp [hob] at h
    | some ob =>
      cases ob with
      | none =>
        simp only [hob, Option.some.injEq] at h
        subst h
        refine advances_trans hadv1 (advances_weak_only hinv1 rfl rfl rfl ?_)
        intro b
        have := weakOn_setWeak hself none b
        omega
      | some b0 =>
        simp only [hob, Option.some.injEq] at h
        subst h
        refine advances_trans hadv1
          ⟨inv_weak_attach_set hinv1 hself (live_of_weak hinv1 hob), Nat.le_refl _, ?_⟩
        intro x
        rw [incWeak_released]
        exact Nat.le_refl _

theorem advances_wp_assign_move {w w' : World} {s o : Nat} (hinv : Inv w)
    (h : WeakPtr.assign_move w s o = some w') : Advances w w' := by
  unfold WeakPtr.assign_move at h
  cases hsb : w.weakBlock s with
  | none => simp [WeakPtr.delete_block, hsb] at h
  | some sb =>
    obtain ⟨w1, hrun, hinv1, hwk, _, hnb, hrel⟩ := weak_delete_block_inv hinv hsb
    have hadv1 : Advances w w1 := ⟨hinv1, Nat.le_of_eq hnb.symm, hrel⟩
    have hself : w1.weakBlock s = some none := by
      rw [weakBlock_of_set_null hsb hwk, if_pos rfl]
    simp only [hrun] at h
    cases hob : w1.weakBlock o with
    | none => simp [hob] at h
    | some ob =>
      simp only [hob, Option.some.injEq] at h
      subst h
      exact advances_trans hadv1 (advances_weak_transfer hinv1 hself hob)

theorem advances_wp_dtor {w w' : World} {s : Nat} (hinv : Inv w)
    (h : WeakPtr.dtor w s = some w') : Advances w w' := by
  unfold WeakPtr.dtor at h
  cases hsb : w.weakBlock s with
  | none => simp [WeakPtr.delete_block, hsb] at h
  | some sb =>
    obtain ⟨w1, hrun, hinv1, hwk, _, hnb, hrel⟩ := weak_delete_block_inv hinv hsb
    have hadv1 : Advances w w1 := ⟨hinv1, Nat.le_of_eq hnb.symm, hrel⟩
    have hself : w1.weakBlock s = some none := by
      rw [weakBlock_of_set_null hsb hwk, if_pos rfl]
    simp only [hrun, Option.some.injEq] at h
    subst h
    refine advances_trans hadv1 (advances_weak_only hinv1 rfl rfl rfl ?_)
    intro b
    have := weakOn_set hself none b
    simp only [reduceCtorEq, if_false] at this
    exact this

/-- Every operation keeps the state well counted. -/
theorem step_advances {w w' : World} {op : Op} (hinv : Inv w) (h : step w op = some w') :
    Advances w w' := by
  cases op with
  | sp_default => injection h with h; subst h; exact advances_sp_default hinv
  | sp_raw p => injection h with h; subst h; exact advances_sp_raw hinv p
  | sp_make => injection h with h; subst h; exact advances_makeShared hinv
  | sp_allocate => injection h with h; subst h; exact advances_allocateShared hinv
  | sp_copy o => exact advances_sp_copy hinv h
  | sp_move o => exact advances_sp_move hinv h
  | sp_assign_copy s o => exact advances_sp_assign_copy hinv h
  | sp_assign_move s o => exact advances_sp_assign_move hinv h
  | sp_reset s => exact advances_sp_reset hinv h
  | sp_reset_raw s p => exact advances_sp_reset_raw hinv h
  | sp_swap s o => exact advances_sp_swap hinv h
  | sp_dtor s => exact advances_sp_dtor hinv h
  | wp_default => injection h with h; subst h; exact advances_wp_default hinv
  | wp_shared p => exact advances_wp_shared hinv h
  | wp_copy p => exact advances_wp_copy hinv h
  | wp_move p => exact advances_wp_move hinv h
  | wp_assign_copy s o => exact advances_wp_assign_copy hinv h
  | wp_assign_move s o => exact advances_wp_assign_move hinv h
  | wp_dtor s => exact advances_wp_dtor hinv h
  | wp_lock s => exact advances_wp_lock hinv h

theorem Inv_init : Inv World.init := by
  intro b
  simp [World.init, noBlock, World.sharedOn, World.weakOn, occ]

theorem run_inv : ∀ (ops : List Op) (w w' : World), Inv w → run w ops = some w' → Inv w' := by
  intro ops
  induction ops with
  | nil =>
    intro w w' hinv h
    injection h with h
    subst h
    exact hinv
  | cons op ops ih =>
    intro w w' hinv h
    unfold run at h
    cases hs : step w op with
    | none => simp [hs] at h
    | some w1 =>
      simp only [hs] at h
      exact ih w1 w' (step_advances hinv hs).1 h

theorem sharedBlock_push_new (w : World) (ob : Option Nat) :
    World.sharedBlock { w with shared := w.shared ++ [some ⟨ob⟩] } w.shared.length = some ob := by
  rw [sharedBlock_eq]
  show (w.shared ++ [some ⟨ob⟩])[w.shared.length]? = _
  rw [List.getElem?_append_right (Nat.le_refl _)]
  simp

theorem sharedBlock_push_old {w : World} {i : Nat} {x : Option Nat} (ob : Option Nat)
    (h : w.sharedBlock i = some x) :
    World.sharedBlock { w with shared := w.shared ++ [some ⟨ob⟩] } i = some x := by
  rw [sharedBlock_eq]
  show (w.shared ++ [some ⟨ob⟩])[i]? = _
  rw [List.getElem?_append_left (sharedBlock_lt h)]
  exact sharedBlock_eq.1 h

/-- C5 (the code departs from the claim): a `SharedPtr` is made from a raw pointer, a
`WeakPtr` observes it, the `SharedPtr` is reset, which invokes `delete_object` once and
leaves the `WeakPtr` expired; `lock()` on the expired `WeakPtr` then raises the strong
count from 0 to 1, and resetting the `SharedPtr` it returned invokes `delete_object` a
second time on the same block. -/
theorem lock_after_expiry_deletes_object_twice :
    (∃ w, run World.init [.sp_raw 7, .wp_shared 0, .sp_reset 0] = some w ∧
      (w.blocks 0).deleted = 1 ∧ (w.blocks 0).count_shared = 0 ∧
      (w.blocks 0).released = 0 ∧ WeakPtr.expired w 0 = some true) ∧
    (∃ w, run World.init [.sp_raw 7, .wp_shared 0, .sp_reset 0, .wp_lock 0] = some w ∧
      (w.blocks 0).count_shared = 1 ∧ w.sharedBlock 1 = some (some 0)) ∧
    (∃ w, run World.init [.sp_raw 7, .wp_shared 0, .sp_reset 0, .wp_lock 0, .sp_reset 1]
        = some w ∧ (w.blocks 0).deleted = 2) :=
  ⟨⟨_, rfl, rfl, rfl, rfl, rfl⟩, ⟨_, rfl, rfl, rfl⟩, ⟨_, rfl, rfl⟩⟩

/-- C6: after any sequence of SharedPtr/WeakPtr operations, for every control block
count_shared is the number of live SharedPtr objects whose block_ is that block and
count_weak the number of live WeakPtr objects on it; a copy construction (the converting
one is the same code) shares the block of its source and raises the strong count by
exactly one, a move construction leaves every count unchanged and nulls the source; and
for `a` made from a raw pointer and `b` a copy of `a` (copy-constructed or
copy-assigned), both report use_count() == 2. -/
theorem counts_are_numbers_of_live_handles :
    (∀ (ops : List Op) (w : World), run World.init ops = some w → ∀ b,
      (w.blocks b).count_shared = w.sharedOn b ∧ (w.blocks b).count_weak = w.weakOn b) ∧
    (∀ (w : World) (o b : Nat), w.sharedBlock o = some (some b) →
      ∃ w', SharedPtr.ctor_copy w o = some w' ∧
        w'.sharedBlock w.shared.length = some (some b) ∧ w'.sharedBlock o = some (some b) ∧
        (w'.blocks b).count_shared = (w.blocks b).count_shared + 1 ∧
        (w'.blocks b).count_weak = (w.blocks b).count_weak ∧
        ∀ x, x ≠ b → w'.blocks x = w.blocks x) ∧
    (∀ (w : World) (o : Nat) (ob : Option Nat), w.sharedBlock o = some ob →
      ∃ w', SharedPtr.ctor_move w o = some w' ∧
        w'.sharedBlock w.shared.length = some ob ∧ w'.sharedBlock o = some none ∧
        w'.blocks = w.blocks) ∧
    (∀ p, ∃ w, run World.init [.sp_raw p, .sp_copy 0] = some w ∧
      SharedPtr.use_count w 0 = some 2 ∧ SharedPtr.use_count w 1 = some 2) ∧
    (∀ p, ∃ w, run World.init [.sp_raw p, .sp_default, .sp_assign_copy 1 0] = some w ∧
      SharedPtr.use_count w 0 = some 2 ∧ SharedPtr.use_count w 1 = some 2) := by
  refine ⟨?_, ?_, ?_, ?_, ?_⟩
  · intro ops w h b
    have := run_inv ops World.init w Inv_init h b
    exact ⟨this.1, this.2.1⟩
  · intro w o b h
    refine ⟨World.incShared { w with shared := w.shared ++ [some ⟨some b⟩] } b,
      by simp [SharedPtr.ctor_copy, h], ?_, ?_, ?_, ?_, ?_⟩
    · exact sharedBlock_push_new w (some b)
    · exact sharedBlock_push_old (some b) h
    · rw [incShared_blocks]; simp
    · rw [incShared_blocks]; simp
    · intro x hx
      rw [incShared_blocks]; simp [hx]
  · intro w o ob h
    refine ⟨World.setShared { w with shared := w.shared ++ [some ⟨ob⟩] } o none,
      by simp [SharedPtr.ctor_move, h], ?_, ?_, rfl⟩
    · have hlt : o < (w.shared ++ [some (⟨ob⟩ : SharedPtr)]).length := by
        have := sharedBlock_lt h
        simp; omega
      have := sharedBlock_setShared (w := { w with shared := w.shared ++ [some ⟨ob⟩] }) hlt none
        w.shared.length
      rw [this]
      have hne : ¬ (w.shared.length = o) := by
        have := sharedBlock_lt h
        omega
      rw [if_neg hne]
      exact sharedBlock_push_new w ob
    · have hlt : o < (w.shared ++ [some (⟨ob⟩ : SharedPtr)]).length := by
        have := sharedBlock_lt h
        simp; omega
      have := sharedBlock_setShared (w := { w with shared := w.shared ++ [some ⟨ob⟩] }) hlt none o
      rw [this, if_pos rfl]
  · intro p
    exact ⟨_, rfl, rfl, rfl⟩
  · intro p
    exact ⟨_, rfl, rfl, rfl⟩

/-- Witness for C6: two owners and one observer of one block, a second block with one
owner. -/
theorem counts_are_numbers_of_live_handles_witness :
    ∃ w, run World.init [.sp_raw 7, .sp_copy 0, .wp_shared 1, .sp_make, .sp_move 0] = some w ∧
      ((w.blocks 0).count_shared = w.sharedOn 0 ∧ (w.blocks 0).count_weak = w.weakOn 0) ∧
      w.sharedOn 0 = 2 ∧ w.weakOn 0 = 1 :=
  ⟨_, rfl,
    counts_are_numbers_of_live_handles.1
      [.sp_raw 7, .sp_copy 0, .wp_shared 1, .sp_make, .sp_move 0] _ rfl 0, rfl, rfl⟩

/-- Resetting or destroying a non-null SharedPtr whose managed object owns no handle, the
block having strong count `s` and weak count `k`. If `s ≥ 2` the strong count becomes
`s - 1` and neither delete_object nor the release of the block is invoked; if `s = 1` the
strong count becomes 0, delete_object is invoked exactly once and the block is released
iff `k = 0`. In both cases `block_` becomes null (the destructor then ends the object). A
block that survived with `k ≠ 0` is released by the WeakPtr release that takes the weak
count from 1 to 0 while the strong count is 0, and by no WeakPtr release before that
one. -/
theorem shared_release_cases :
    (∀ (w : World) (i b : Nat), w.sharedBlock i = some (some b) →
      (2 ≤ (w.blocks b).count_shared →
        ∃ w', SharedPtr.reset w i = some w' ∧
          SharedPtr.dtor w i = some { w' with shared := w'.shared.set i none } ∧
          (w'.blocks b).count_shared = (w.blocks b).count_shared - 1 ∧
          (w'.blocks b).count_weak = (w.blocks b).count_weak ∧
          (w'.blocks b).deleted = (w.blocks b).deleted ∧
          (w'.blocks b).released = (w.blocks b).released ∧
          w'.sharedBlock i = some none) ∧
      ((w.blocks b).count_shared = 1 →
        ∃ w', SharedPtr.reset w i = some w' ∧
          SharedPtr.dtor w i = some { w' with shared := w'.shared.set i none } ∧
          (w'.blocks b).count_shared = 0 ∧
          (w'.blocks b).count_weak = (w.blocks b).count_weak ∧
          (w'.blocks b).deleted = (w.blocks b).deleted + 1 ∧
          (w'.blocks b).released = (w.blocks b).released +
            (if (w.blocks b).count_weak = 0 then 1 else 0) ∧
          w'.sharedBlock i = some none)) ∧
    (∀ (w : World) (j b : Nat), w.weakBlock j = some (some b) →
      (w.blocks b).count_shared = 0 → 1 ≤ (w.blocks b).count_weak →
        ∃ w', WeakPtr.delete_block w j = some w' ∧
          (w'.blocks b).count_weak = (w.blocks b).count_weak - 1 ∧
          (w'.blocks b).released = (w.blocks b).released +
            (if (w.blocks b).count_weak = 1 then 1 else 0)) := by
  constructor
  · intro w i b h
    constructor
    · intro hs
      obtain ⟨w', hrun, hsh, _, _, _, hcs, hcw, _, hdel, hrel⟩ :=
        shared_delete_block_spec h (by omega)
      have h1 : ¬ ((w.blocks b).count_shared = 1) := by omega
      rw [if_neg h1] at hdel
      rw [if_neg (fun hc => h1 hc.1)] at hrel
      refine ⟨w', hrun, by simp [SharedPtr.dtor, hrun], hcs, hcw, hdel, hrel, ?_⟩
      rw [sharedBlock_of_set_null h hsh, if_pos rfl]
    · intro hs
      obtain ⟨w', hrun, hsh, _, _, _, hcs, hcw, _, hdel, hrel⟩ :=
        shared_delete_block_spec h (by omega)
      rw [if_pos hs] at hdel
      refine ⟨w', hrun, by simp [SharedPtr.dtor, hrun], by omega, hcw, hdel, ?_, ?_⟩
      · rw [hrel]
        by_cases hk : (w.blocks b).count_weak = 0
        · rw [if_pos ⟨hs, hk⟩, if_pos hk]
        · rw [if_neg (fun hc => hk hc.2), if_neg hk]
      · rw [sharedBlock_of_set_null h hsh, if_pos rfl]
  · intro w j b h hs hk
    obtain ⟨w', hrun, _, _, _, _, _, hcw, _, _, hrel⟩ := weak_delete_block_spec h (by omega)
    refine ⟨w', hrun, hcw, ?_⟩
    rw [hrel]
    by_cases h1 : (w.blocks b).count_weak = 1
    · rw [if_pos ⟨hs, h1⟩, if_pos h1]
    · rw [if_neg (fun hc => h1 hc.2), if_neg h1]

theorem new_block_facts (w : World) (kind : BlockKind) :
    (World.incShared
      { (w.newBlock kind).2 with
        shared := (w.newBlock kind).2.shared ++ [some ⟨some (w.newBlock kind).1⟩] }
      (w.newBlock kind).1).sharedBlock w.shared.length = some (some w.next_block) ∧
    (World.incShared
      { (w.newBlock kind).2 with
        shared := (w.newBlock kind).2.shared ++ [some ⟨some (w.newBlock kind).1⟩] }
      (w.newBlock kind).1).blocks w.next_block =
      { count_shared := 1, count_weak := 0, kind := kind, deleted := 0, released := 0 } ∧
    (∀ x, x ≠ w.next_block → (World.incShared
      { (w.newBlock kind).2 with
        shared := (w.newBlock kind).2.shared ++ [some ⟨some (w.newBlock kind).1⟩] }
      (w.newBlock kind).1).blocks x = w.blocks x) := by
  refine ⟨sharedBlock_push_new (w.newBlock kind).2 (some w.next_block), ?_, ?_⟩
  · rw [incShared_blocks]
    simp [World.newBlock]
  · intro x hx
    rw [incShared_blocks]
    simp [World.newBlock, hx]

/-- C8: constructing a SharedPtr from a raw pointer `p` (with or without deleter and
allocator), or through makeShared or allocateShared, allocates a control block at the
next unused address, on which no SharedPtr or WeakPtr of a reachable state sits, with
strong count 1 and weak count 0, and leaves the other blocks as they were; get() of the
new SharedPtr is `p` for the adopting form and the address of the object embedded in the
new block for the in-place forms. -/
theorem construction_makes_fresh_block :
    (∀ (w : World) (p : Nat),
      (SharedPtr.ctor_raw w p).sharedBlock w.shared.length = some (some w.next_block) ∧
      (SharedPtr.ctor_raw w p).next_block = w.next_block + 1 ∧
      ((SharedPtr.ctor_raw w p).blocks w.next_block).count_shared = 1 ∧
      ((SharedPtr.ctor_raw w p).blocks w.next_block).count_weak = 0 ∧
      (∀ x, x ≠ w.next_block → (SharedPtr.ctor_raw w p).blocks x = w.blocks x) ∧
      SharedPtr.get (SharedPtr.ctor_raw w p) w.shared.length = some (some (Ptr.raw p))) ∧
    (∀ (w : World),
      (makeShared w).sharedBlock w.shared.length = some (some w.next_block) ∧
      (makeShared w).next_block = w.next_block + 1 ∧
      ((makeShared w).blocks w.next_block).count_shared = 1 ∧
      ((makeShared w).blocks w.next_block).count_weak = 0 ∧
      (∀ x, x ≠ w.next_block → (makeShared w).blocks x = w.blocks x) ∧
      SharedPtr.get (makeShared w) w.shared.length
        = some (some (Ptr.object_of w.next_block))) ∧
    (∀ (w : World),
      (allocateShared w).sharedBlock w.shared.length = some (some w.next_block) ∧
      (allocateShared w).next_block = w.next_block + 1 ∧
      ((allocateShared w).blocks w.next_block).count_shared = 1 ∧
      ((allocateShared w).blocks w.next_block).count_weak = 0 ∧
      (∀ x, x ≠ w.next_block → (allocateShared w).blocks x = w.blocks x) ∧
      SharedPtr.get (allocateShared w) w.shared.length
        = some (some (Ptr.object_of w.next_block))) ∧
    (∀ (ops : List Op) (w : World), run World.init ops = some w →
      w.sharedOn w.next_block = 0 ∧ w.weakOn w.next_block = 0) := by
  refine ⟨?_, ?_, ?_, ?_⟩
  · intro w p
    obtain ⟨h1, h2, h3⟩ := new_block_facts w (.adopting p)
    have h1' : (SharedPtr.ctor_raw w p).sharedBlock w.shared.length
        = some (some w.next_block) := h1
    have h2' : (SharedPtr.ctor_raw w p).blocks w.next_block =
        { count_shared := 1, count_weak := 0, kind := .adopting p, deleted := 0,
          released := 0 } := h2
    refine ⟨h1', rfl, by rw [h2'], by rw [h2'], h3, ?_⟩
    unfold SharedPtr.get
    rw [h1']
    simp only [h2', BaseControlBlock.get_ptr]
  · intro w
    obtain ⟨h1, h2, h3⟩ := new_block_facts w .inplace
    have h1' : (makeShared w).sharedBlock w.shared.length = some (some w.next_block) := h1
    have h2' : (makeShared w).blocks w.next_block =
        { count_shared := 1, count_weak := 0, kind := .inplace, deleted := 0,
          released := 0 } := h2
    refine ⟨h1', rfl, by rw [h2'], by rw [h2'], h3, ?_⟩
    unfold SharedPtr.get
    rw [h1']
    simp only [h2', BaseControlBlock.get_ptr]
  · intro w
    obtain ⟨h1, h2, h3⟩ := new_block_facts w .inplace
    have h1' : (allocateShared w).sharedBlock w.shared.length
        = some (some w.next_block) := h1
    have h2' : (allocateShared w).blocks w.next_block =
        { count_shared := 1, count_weak := 0, kind := .inplace, deleted := 0,
          released := 0 } := h2
    refine ⟨h1', rfl, by rw [h2'], by rw [h2'], h3, ?_⟩
    unfold SharedPtr.get
    rw [h1']
    simp only [h2', BaseControlBlock.get_ptr]
  · intro ops w h
    have := run_inv ops World.init w Inv_init h w.next_block
    omega

/-- Witness for C8: after two constructions and a copy no handle sits on the next unused
address. -/
theorem construction_makes_fresh_block_witness :
    ∃ w, run World.init [.sp_raw 7, .sp_make, .sp_copy 1] = some w ∧
      w.sharedOn w.next_block = 0 ∧ w.weakOn w.next_block = 0 :=
  ⟨_, rfl, construction_makes_fresh_block.2.2.2 [.sp_raw 7, .sp_make, .sp_copy 1] _ rfl⟩

/-- When no managed object owns a handle: in every state a sequence of SharedPtr and
WeakPtr operations leads to, a block has been released at most once, a released block has
both counts zero, and an allocated block whose counts are both zero has been released; an
operation releases an allocated block exactly when it takes its counts from not both zero
to both zero. This happens in a SharedPtr release that finds strong count 1 and weak
count 0, and in a WeakPtr release that finds strong count 0 and weak count 1. -/
theorem release_cases :
    (∀ (ops : List Op) (w : World), run World.init ops = some w → ∀ b,
      (w.blocks b).released ≤ 1 ∧
      ((w.blocks b).released = 1 →
        (w.blocks b).count_shared = 0 ∧ (w.blocks b).count_weak = 0) ∧
      (b < w.next_block → (w.blocks b).count_shared = 0 → (w.blocks b).count_weak = 0 →
        (w.blocks b).released = 1)) ∧
    (∀ (ops : List Op) (op : Op) (w w' : World), run World.init ops = some w →
      step w op = some w' → ∀ b, b < w.next_block →
      (w'.blocks b).released = (w.blocks b).released +
        (if ¬ ((w.blocks b).count_shared = 0 ∧ (w.blocks b).count_weak = 0) ∧
            ((w'.blocks b).count_shared = 0 ∧ (w'.blocks b).count_weak = 0)
          then 1 else 0)) ∧
    (∀ (w : World) (i b : Nat), w.sharedBlock i = some (some b) →
      (w.blocks b).count_shared = 1 → (w.blocks b).count_weak = 0 →
      ∃ w', SharedPtr.delete_block w i = some w' ∧
        (w'.blocks b).released = (w.blocks b).released + 1 ∧
        (w'.blocks b).count_shared = 0 ∧ (w'.blocks b).count_weak = 0) ∧
    (∀ (w : World) (j b : Nat), w.weakBlock j = some (some b) →
      (w.blocks b).count_shared = 0 → (w.blocks b).count_weak = 1 →
      ∃ w', WeakPtr.delete_block w j = some w' ∧
        (w'.blocks b).released = (w.blocks b).released + 1 ∧
        (w'.blocks b).count_shared = 0 ∧ (w'.blocks b).count_weak = 0) := by
  refine ⟨?_, ?_, ?_, ?_⟩
  · intro ops w h b
    have := run_inv ops World.init w Inv_init h b
    omega
  · intro ops op w w' h hs b hb
    have hinv := run_inv ops World.init w Inv_init h
    obtain ⟨hinv', hnb, hrel⟩ := step_advances hinv hs
    have h1 := hinv b
    have h2 := hinv' b
    have h3 := hrel b
    split_ifs <;> omega
  · intro w i b h hs hk
    obtain ⟨w', hrun, _, _, _, _, hcs, hcw, _, _, hrel⟩ :=
      shared_delete_block_spec h (by omega)
    rw [if_pos ⟨hs, hk⟩] at hrel
    exact ⟨w', hrun, hrel, by omega, by omega⟩
  · intro w j b h hs hk
    obtain ⟨w', hrun, _, _, _, _, hcs, hcw, _, _, hrel⟩ :=
      weak_delete_block_spec h (by omega)
    rw [if_pos ⟨hs, hk⟩] at hrel
    exact ⟨w', hrun, hrel, by omega, by omega⟩

/-- C10: on a WeakPtr whose block is `b`, lock() returns a new SharedPtr whose block_ is
`b`, raises the strong count of `b` by exactly one and leaves its weak count, the other
blocks and every WeakPtr unchanged; on a WeakPtr whose block_ is null it returns a
SharedPtr whose block_ is null (get() is nullptr) and changes no block. -/
theorem lock_shares_the_block :
    (∀ (w : World) (i b : Nat), w.weakBlock i = some (some b) →
      ∃ w', WeakPtr.lock w i = some w' ∧
        w'.sharedBlock w.shared.length = some (some b) ∧
        (w'.blocks b).count_shared = (w.blocks b).count_shared + 1 ∧
        (w'.blocks b).count_weak = (w.blocks b).count_weak ∧
        (∀ x, x ≠ b → w'.blocks x = w.blocks x) ∧ w'.weak = w.weak) ∧
    (∀ (w : World) (i : Nat), w.weakBlock i = some none →
      ∃ w', WeakPtr.lock w i = some w' ∧
        w'.sharedBlock w.shared.length = some none ∧
        SharedPtr.get w' w.shared.length = some none ∧
        w'.blocks = w.blocks ∧ w'.weak = w.weak) := by
  constructor
  · intro w i b h
    refine ⟨World.incShared { w with shared := w.shared ++ [some ⟨some b⟩] } b,
      by simp [WeakPtr.lock, h, SharedPtr.ctor_block], ?_, ?_, ?_, ?_, rfl⟩
    · exact sharedBlock_push_new w (some b)
    · rw [incShared_blocks]; simp
    · rw [incShared_blocks]; simp
    · intro x hx
      rw [incShared_blocks]; simp [hx]
  · intro w i h
    have hnew := sharedBlock_push_new w none
    refine ⟨{ w with shared := w.shared ++ [some ⟨none⟩] },
      by simp [WeakPtr.lock, h, SharedPtr.ctor_block], hnew, ?_, rfl, rfl⟩
    unfold SharedPtr.get
    rw [hnew]

/-- Witness for C10: locking the observer of a block with one owner gives strong count
2. -/
theorem lock_shares_the_block_witness :
    ∃ w', WeakPtr.lock (stateAfter [.sp_raw 7, .wp_shared 0]) 0 = some w' ∧
      w'.sharedBlock (stateAfter [.sp_raw 7, .wp_shared 0]).shared.length = some (some 0) ∧
      (w'.blocks 0).count_shared
        = ((stateAfter [.sp_raw 7, .wp_shared 0]).blocks 0).count_shared + 1 ∧
      (w'.blocks 0).count_weak = ((stateAfter [.sp_raw 7, .wp_shared 0]).blocks 0).count_weak ∧
      (∀ x, x ≠ 0 → w'.blocks x = (stateAfter [.sp_raw 7, .wp_shared 0]).blocks x) ∧
      w'.weak = (stateAfter [.sp_raw 7, .wp_shared 0]).weak :=
  lock_shares_the_block.1 (stateAfter [.sp_raw 7, .wp_shared 0]) 0 0 rfl

end SmartPointersH
namespace UnorderedMapH

open ListH

/-! ## unordered_map.h : lookup and insertion -/

section
variable {K V : Type}

theorem flatten_append (G1 G2 : List (Group K V)) :
    flatten (G1 ++ G2) = flatten G1 ++ flatten G2 := by
  induction G1 with
  | nil => rfl
  | cons g gs ih =>
    show g.2 ++ flatten (gs ++ G2) = (g.2 ++ flatten gs) ++ flatten G2
    rw [ih, List.append_assoc]

theorem flatten_cons (g : Group K V) (gs : List (Group K V)) :
    flatten (g :: gs) = g.2 ++ flatten gs := rfl

theorem mem_flatten {groups : List (Group K V)} {x : Nat × HashedNode K V} :
    x ∈ flatten groups ↔ ∃ bg ∈ groups, x ∈ bg.2 := by
  induction groups with
  | nil => simp [flatten]
  | cons g gs ih =>
    rw [flatten_cons, List.mem_append, ih]
    simp

theorem groupOf_none {groups : List (Group K V)} {b : Nat} :
    groupOf groups b = none ↔ b ∉ groups.map Prod.fst := by
  induction groups with
  | nil => simp [groupOf]
  | cons g gs ih =>
    unfold groupOf
    by_cases hg : g.1 = b
    · simp [hg]
    · have hg' : ¬ (b = g.1) := fun h => hg h.symm
      simp [hg, hg', ih]

theorem groupOf_split {groups : List (Group K V)} {b : Nat} {g : List (Nat × HashedNode K V)}
    (h : groupOf groups b = some g) :
    ∃ G1 G2, groups = G1 ++ (b, g) :: G2 ∧ b ∉ G1.map Prod.fst := by
  induction groups with
  | nil => simp [groupOf] at h
  | cons g0 gs ih =>
    unfold groupOf at h
    by_cases hg : g0.1 = b
    · simp only [hg, if_true, Option.some.injEq] at h
      refine ⟨[], gs, ?_, by simp⟩
      rw [← h, ← hg]
      rfl
    · simp only [hg, if_false] at h
      obtain ⟨G1, G2, hs, hn⟩ := ih h
      refine ⟨g0 :: G1, G2, by rw [hs]; rfl, ?_⟩
      have hg' : ¬ (b = g0.1) := fun h => hg h.symm
      simp [hg', hn]

theorem groupOf_mid {G1 G2 : List (Group K V)} {b : Nat} {g : List (Nat × HashedNode K V)}
    (hn : b ∉ G1.map Prod.fst) : groupOf (G1 ++ (b, g) :: G2) b = some g := by
  induction G1 with
  | nil => simp [groupOf]
  | cons g0 gs ih =>
    have h0 : ¬ (g0.1 = b) := by
      intro hc
      apply hn
      simp [hc.symm]
    have h1 : b ∉ gs.map Prod.fst := by
      intro hc
      apply hn
      simp only [List.map_cons, List.mem_cons]
      exact Or.inr hc
    show groupOf (g0 :: (gs ++ (b, g) :: G2)) b = some g
    unfold groupOf
    rw [if_neg h0]
    exact ih h1

theorem groupOf_mid_other {G1 G2 : List (Group K V)} {b c : Nat}
    (g g' : List (Nat × HashedNode K V)) (hc : c ≠ b) :
    groupOf (G1 ++ (b, g') :: G2) c = groupOf (G1 ++ (b, g) :: G2) c := by
  induction G1 with
  | nil =>
    have hb : ¬ (b = c) := fun h => hc h.symm
    simp [groupOf, hb]
  | cons g0 gs ih =>
    show groupOf (g0 :: (gs ++ (b, g') :: G2)) c = groupOf (g0 :: (gs ++ (b, g) :: G2)) c
    unfold groupOf
    by_cases h0 : g0.1 = c
    · simp [h0]
    · simp only [h0, if_false]
      exact ih

/-- The scan of `find` and `emplace`, started at the head of a run `g` that is followed by
`rest`: it returns the first entry of `g` whose key equals `key`, and ends without one
when there is none. -/
theorem scan_group (m : UnorderedMap K V) (key : K) (myhash : Nat)
    (rest : List (Nat × HashedNode K V))
    (hrest : ∀ y, rest.head? = some y → m.get_hash y.2.hash ≠ m.get_hash myhash) :
    ∀ (g xs : List (Nat × HashedNode K V)) (fuel : Nat),
      ListRepr m.storage_ (xs ++ (g ++ rest)) →
      (∀ x ∈ g, m.get_hash x.2.hash = m.get_hash myhash) → g.length < fuel →
      m.scan key myhash fuel ((addrs (g ++ rest)).headD m.storage_.end_)
        = some ((g.find? (fun x => m.equaler_ x.2.node.1 key)).map Prod.fst) := by
  intro g
  induction g with
  | nil =>
    intro xs fuel h _ hf
    cases fuel with
    | zero => simp at hf
    | succ fuel =>
      cases rest with
      | nil => simp [UnorderedMap.scan, addrs, LinkedList.end]
      | cons y r =>
        have hy0 : ListRepr m.storage_ (xs ++ y :: r) := by simpa using h
        have hy := ListRepr_at hy0
        have hb := hrest y rfl
        have hhead : (addrs ([] ++ y :: r)).headD m.storage_.end_ = y.1 := rfl
        rw [hhead]
        simp [UnorderedMap.scan, LinkedList.end, hy.1, hy.2.1, hb]
  | cons x g ih =>
    intro xs fuel h hg hf
    cases fuel with
    | zero => simp at hf
    | succ fuel =>
      have hx0 : ListRepr m.storage_ (xs ++ x :: (g ++ rest)) := by simpa using h
      have hx := ListRepr_at hx0
      have hbx := hg x (List.mem_cons_self _ _)
      have hhead : (addrs (x :: g ++ rest)).headD m.storage_.end_ = x.1 := rfl
      rw [hhead]
      by_cases heq : m.equaler_ x.2.node.1 key = true
      · simp [UnorderedMap.scan, LinkedList.end, hx.1, hx.2.1, hbx, heq, List.find?]
      · have hrec := ih (xs ++ [x]) fuel (by simpa using h)
          (fun z hz => hg z (List.mem_cons_of_mem _ hz)) (by simpa using hf)
        have heq' : m.equaler_ x.2.node.1 key = false := by
          cases hc : m.equaler_ x.2.node.1 key with
          | true => exact absurd hc heq
          | false => rfl
        simp only [UnorderedMap.scan, LinkedList.end, hx.1, if_false, hx.2.1, hbx, if_true,
          heq', hx.2.2.1, hrec, List.find?, Bool.false_eq_true]

/-- The entries of a map whose key equals `key` sit in the run of the bucket of `key`. -/
theorem mem_run_of_equal {m : UnorderedMap K V} {groups : List (Group K V)}
    (hk : KeyEquiv m.hasher_ m.equaler_) (h : MapRepr m groups) {key : K}
    {x : Nat × HashedNode K V} (hx : x ∈ flatten groups)
    (he : m.equaler_ x.2.node.1 key = true) :
    ∃ g, groupOf groups (m.get_hash (m.hasher_ key)) = some g ∧ x ∈ g := by
  obtain ⟨_, _, hgr, _, hhash, _⟩ := h
  obtain ⟨bg, hbg, hxg⟩ := mem_flatten.1 hx
  have hb := (hgr.2 bg hbg).2.2 x hxg
  have hlabel : bg.1 = m.get_hash (m.hasher_ key) := by
    rw [← hb, hhash x hx, hk.hash_eq _ _ he]
    rfl
  cases hgo : groupOf groups (m.get_hash (m.hasher_ key)) with
  | none =>
    exfalso
    have := groupOf_none.1 hgo
    apply this
    rw [← hlabel]
    exact List.mem_map_of_mem _ hbg
  | some g =>
    refine ⟨g, rfl, ?_⟩
    obtain ⟨G1, G2, hs, _⟩ := groupOf_split hgo
    have hmem : ((m.get_hash (m.hasher_ key)), g) ∈ groups := by
      rw [hs]; simp
    -- labels are distinct, so `bg` is that run
    have hnd := hgr.1
    have : bg = ((m.get_hash (m.hasher_ key)), g) := by
      have hinj := List.inj_on_of_nodup_map hnd hbg hmem
      exact hinj hlabel
    rw [this] at hxg
    exact hxg

theorem rest_head_other {count b : Nat} {G1 G2 : List (Group K V)}
    {g : List (Nat × HashedNode K V)} (hgr : GroupsOK count (G1 ++ (b, g) :: G2)) :
    ∀ y, (flatten G2).head? = some y → y.2.hash % count ≠ b := by
  intro y hy
  cases G2 with
  | nil => simp [flatten] at hy
  | cons g2 G2 =>
    have hmem : g2 ∈ G1 ++ (b, g) :: g2 :: G2 := by simp
    obtain ⟨hne, _, hb⟩ := hgr.2 g2 hmem
    have hy2 : y ∈ g2.2 := by
      rw [flatten_cons] at hy
      cases hg2 : g2.2 with
      | nil => exact absurd hg2 hne
      | cons z zs =>
        rw [hg2] at hy
        simp only [List.cons_append, List.head?_cons, Option.some.injEq] at hy
        rw [← hy]
        exact List.mem_cons_self _ _
    rw [hb y hy2]
    intro hc
    have hnd := hgr.1
    rw [List.map_append, List.map_cons, List.map_cons] at hnd
    have h2 := (List.nodup_append.1 hnd).2.1
    have h3 := (List.nodup_cons.1 h2).1
    apply h3
    rw [hc]
    exact List.mem_cons_self _ _

theorem length_le_of_split {G1 G2 : List (Group K V)} {b : Nat}
    {g : List (Nat × HashedNode K V)} :
    g.length ≤ (flatten (G1 ++ (b, g) :: G2)).length := by
  rw [flatten_append, flatten_cons]
  simp only [List.length_append]
  omega

/-- The scan that `find` and `emplace` run for `key`: it starts at the index entry of the
bucket of `key`, and returns the first entry of that bucket's run whose key equals `key`.
-/
theorem scan_bucket {m : UnorderedMap K V} {groups : List (Group K V)}
    (h : MapRepr m groups) (key : K) (fuel : Nat) (hf : m.size < fuel) :
    m.bucket_iterators_[m.get_hash (m.hasher_ key)]?
      = some (headOf groups m.storage_.end_ (m.get_hash (m.hasher_ key))) ∧
    m.scan key (m.hasher_ key) fuel (headOf groups m.storage_.end_ (m.get_hash (m.hasher_ key)))
      = some (match groupOf groups (m.get_hash (m.hasher_ key)) with
        | some g => (g.find? (fun x => m.equaler_ x.2.node.1 key)).map Prod.fst
        | none => none) := by
  obtain ⟨hl, hbc, hgr, hix, hhash, hpw⟩ := h
  have hb : m.get_hash (m.hasher_ key) < m.buckets_count_ := Nat.mod_lt _ hbc
  refine ⟨hix.2 _ hb, ?_⟩
  have hsz := ListRepr_size hl
  cases hgo : groupOf groups (m.get_hash (m.hasher_ key)) with
  | none =>
    have hfuel : ∃ f, fuel = f + 1 := ⟨fuel - 1, by unfold UnorderedMap.size at hf; omega⟩
    obtain ⟨f, hf'⟩ := hfuel
    subst hf'
    simp [headOf, hgo, UnorderedMap.scan, LinkedList.end]
  | some g =>
    obtain ⟨G1, G2, hs, hn⟩ := groupOf_split hgo
    subst hs
    have hl' : ListRepr m.storage_ (flatten G1 ++ (g ++ flatten G2)) := by
      rw [flatten_append, flatten_cons] at hl
      exact hl
    have hne : g ≠ [] := (hgr.2 (m.get_hash (m.hasher_ key), g) (by simp)).1
    have hall : ∀ x ∈ g, m.get_hash x.2.hash = m.get_hash (m.hasher_ key) := by
      intro x hx
      have := (hgr.2 (m.get_hash (m.hasher_ key), g) (by simp)).2.2 x hx
      have hidem : m.get_hash (m.get_hash (m.hasher_ key)) = m.get_hash (m.hasher_ key) :=
        Nat.mod_mod _ _
      rw [← hidem]
      show x.2.hash % m.buckets_count_ = _
      rw [this]
      exact (Nat.mod_eq_of_lt hb).symm
    have hrest : ∀ y, (flatten G2).head? = some y →
        m.get_hash y.2.hash ≠ m.get_hash (m.get_hash (m.hasher_ key)) := by
      intro y hy
      have := rest_head_other hgr y hy
      rw [show m.get_hash (m.get_hash (m.hasher_ key)) = m.get_hash (m.hasher_ key) from
        Nat.mod_mod _ _]
      exact this
    have hrest' : ∀ y, (flatten G2).head? = some y →
        m.get_hash y.2.hash ≠ m.get_hash (m.hasher_ key) := by
      intro y hy
      exact rest_head_other hgr y hy
    have hlen : g.length < fuel := by
      have := @length_le_of_split K V G1 G2 (m.get_hash (m.hasher_ key)) g
      unfold UnorderedMap.size at hf
      omega
    have hscan := scan_group m key (m.hasher_ key) (flatten G2) hrest' g (flatten G1) fuel hl'
      hall hlen
    have hhead : headOf (G1 ++ (m.get_hash (m.hasher_ key), g) :: G2) m.storage_.end_
        (m.get_hash (m.hasher_ key)) = (addrs (g ++ flatten G2)).headD m.storage_.end_ := by
      unfold headOf
      rw [hgo]
      cases g with
      | nil => exact absurd rfl hne
      | cons z zs => rfl
    rw [hhead, hscan]

theorem groupOf_sub {groups : List (Group K V)} {b : Nat} {g : List (Nat × HashedNode K V)}
    (h : groupOf groups b = some g) : ∀ x ∈ g, x ∈ flatten groups := by
  intro x hx
  obtain ⟨G1, G2, hs, _⟩ := groupOf_split h
  rw [hs, flatten_append, flatten_cons]
  simp [hx]

/-- Two entries of the list whose keys are equal to the same key are the same entry. -/
theorem entry_unique {m : UnorderedMap K V} {groups : List (Group K V)}
    (hk : KeyEquiv m.hasher_ m.equaler_) (h : MapRepr m groups) {key : K}
    {x y : Nat × HashedNode K V} (hx : x ∈ flatten groups) (hy : y ∈ flatten groups)
    (hxe : m.equaler_ x.2.node.1 key = true) (hye : m.equaler_ y.2.node.1 key = true) :
    x = y := by
  by_contra hne
  have hsym : Symmetric (fun x y : Nat × HashedNode K V =>
      m.equaler_ x.2.node.1 y.2.node.1 = false) := by
    intro a b hab
    cases hba : m.equaler_ b.2.node.1 a.2.node.1 with
    | false => rfl
    | true =>
      have := hk.symm _ _ hba
      rw [this] at hab
      exact absurd hab (by simp)
  have := h.2.2.2.2.2.forall hsym hx hy hne
  have h2 : m.equaler_ x.2.node.1 y.2.node.1 = true :=
    hk.trans _ _ _ hxe (hk.symm _ _ hye)
  simp only [h2] at this
  exact absurd this (by simp)

/-- The member `find` on a key that has no equal in the map returns `end()`. -/
theorem find_absent {m : UnorderedMap K V} {groups : List (Group K V)}
    (h : MapRepr m groups) (key : K) (fuel : Nat) (hf : m.size < fuel)
    (hno : ∀ x ∈ flatten groups, m.equaler_ x.2.node.1 key = false) :
    m.find fuel key = some m.end ∧
    ∃ iter, m.bucket_iterators_[m.get_hash (m.hasher_ key)]? = some iter ∧
      iter = headOf groups m.storage_.end_ (m.get_hash (m.hasher_ key)) ∧
      m.scan key (m.hasher_ key) fuel iter = some none := by
  obtain ⟨hix, hscan⟩ := scan_bucket h key fuel hf
  have hres : (match groupOf groups (m.get_hash (m.hasher_ key)) with
        | some g => (g.find? (fun x => m.equaler_ x.2.node.1 key)).map Prod.fst
        | none => none) = none := by
    cases hgo : groupOf groups (m.get_hash (m.hasher_ key)) with
    | none => rfl
    | some g =>
      have : g.find? (fun x => m.equaler_ x.2.node.1 key) = none := by
        rw [List.find?_eq_none]
        intro x hx
        simp [hno x (groupOf_sub hgo x hx)]
      simp [this]
  rw [hres] at hscan
  refine ⟨?_, _, hix, rfl, hscan⟩
  unfold UnorderedMap.find
  simp only [hix, hscan]

/-- The scan for a key that has an equal in the map stops on that entry. -/
theorem scan_present {m : UnorderedMap K V} {groups : List (Group K V)}
    (hk : KeyEquiv m.hasher_ m.equaler_)
    (h : MapRepr m groups) (key : K) (fuel : Nat) (hf : m.size < fuel)
    {x : Nat × HashedNode K V} (hx : x ∈ flatten groups)
    (hxe : m.equaler_ x.2.node.1 key = true) :
    ∃ iter, m.bucket_iterators_[m.get_hash (m.hasher_ key)]? = some iter ∧
      m.scan key (m.hasher_ key) fuel iter = some (some x.1) := by
  obtain ⟨hix, hscan⟩ := scan_bucket h key fuel hf
  obtain ⟨g, hgo, hxg⟩ := mem_run_of_equal hk h hx hxe
  refine ⟨_, hix, ?_⟩
  rw [hscan, hgo]
  cases hfd : g.find? (fun x => m.equaler_ x.2.node.1 key) with
  | none =>
    rw [List.find?_eq_none] at hfd
    have := hfd x hxg
    simp [hxe] at this
  | some y =>
    have hy1 := List.find?_some hfd
    have hy2 := List.mem_of_find?_eq_some hfd
    have : x = y := entry_unique hk h hx (groupOf_sub hgo y hy2) hxe (by simpa using hy1)
    rw [this]
    simp only [hfd, Option.map_some']

/-- The member `find` on a key that has an equal in the map returns the position of that
entry. -/
theorem find_present {m : UnorderedMap K V} {groups : List (Group K V)}
    (hk : KeyEquiv m.hasher_ m.equaler_)
    (h : MapRepr m groups) (key : K) (fuel : Nat) (hf : m.size < fuel)
    {x : Nat × HashedNode K V} (hx : x ∈ flatten groups)
    (hxe : m.equaler_ x.2.node.1 key = true) :
    m.find fuel key = some x.1 := by
  obtain ⟨iter, hix, hscan⟩ := scan_present hk h key fuel hf hx hxe
  unfold UnorderedMap.find
  simp only [hix, hscan]

/-- The member `emplace` on a key that has an equal in the map returns the position of that
entry and `false`, and changes nothing. -/
theorem emplace_present {m : UnorderedMap K V} {groups : List (Group K V)}
    (hk : KeyEquiv m.hasher_ m.equaler_)
    (h : MapRepr m groups) (key : K) (value : V) (fuel : Nat) (hf : m.size < fuel)
    {x : Nat × HashedNode K V} (hx : x ∈ flatten groups)
    (hxe : m.equaler_ x.2.node.1 key = true) :
    m.emplace fuel key value = some (m, x.1, false) := by
  obtain ⟨iter, hix, hscan⟩ := scan_present hk h key fuel hf hx hxe
  unfold UnorderedMap.emplace
  simp only [hix, hscan]

theorem groupOf_append (G1 G2 : List (Group K V)) (c : Nat) :
    groupOf (G1 ++ G2) c = match groupOf G1 c with
      | some g => some g
      | none => groupOf G2 c := by
  induction G1 with
  | nil => rfl
  | cons g0 gs ih =>
    show groupOf (g0 :: (gs ++ G2)) c = _
    by_cases h0 : g0.1 = c
    · simp [groupOf, h0]
    · simp only [groupOf, h0, if_false]
      exact ih

theorem set_index (bis : List Nat) (b a c : Nat) (hb : b < bis.length) :
    (bis.set b a)[c]? = if c = b then some a else bis[c]? := by
  rw [List.getElem?_set]
  by_cases hcb : c = b
  · subst hcb
    simp [hb]
  · have : ¬ (b = c) := fun h => hcb h.symm
    simp [hcb, this]

/-- The two statements `storage_.emplace(index[b], node); --index[b];` on a list that ends
with the runs `groups`: the node is put in the run of its bucket `b` (a new run at the end
of the list when the bucket has none), and the index follows. -/
theorem runs_insert {l : LinkedList (HashedNode K V)} {pre : List (Nat × HashedNode K V)}
    {groups : List (Group K V)} {count : Nat} {bis : List Nat}
    (hl : ListRepr l (pre ++ flatten groups)) (hc : 0 < count)
    (hgr : GroupsOK count groups) (hix : IndexOK l.end_ count bis groups)
    (hn : HashedNode K V) :
    ∃ l1 groups1,
      bis[hn.hash % count]? = some (headOf groups l.end_ (hn.hash % count)) ∧
      l.emplace (headOf groups l.end_ (hn.hash % count)) hn = some l1 ∧
      prevOf l1.heap (headOf groups l.end_ (hn.hash % count)) = some l.node_allocator_ ∧
      ListRepr l1 (pre ++ flatten groups1) ∧ GroupsOK count groups1 ∧
      IndexOK l.end_ count (bis.set (hn.hash % count) l.node_allocator_) groups1 ∧
      (flatten groups1).Perm ((l.node_allocator_, hn) :: flatten groups) ∧
      l1.end_ = l.end_ ∧ l1.node_allocator_ = l.node_allocator_ + 1 := by
  have hb : hn.hash % count < count := Nat.mod_lt _ hc
  have hblen : hn.hash % count < bis.length := by rw [hix.1]; exact hb
  cases hgo : groupOf groups (hn.hash % count) with
  | none =>
    have hhead : headOf groups l.end_ (hn.hash % count) = l.end_ := by
      unfold headOf; rw [hgo]
    have hl0 : ListRepr l ((pre ++ flatten groups) ++ []) := by simpa using hl
    obtain ⟨l1, hem, hl1, hend, hbump⟩ := list_emplace_repr hl0 hn
    have hl1' : ListRepr l1 ((pre ++ flatten groups ++ [(l.node_allocator_, hn)]) ++ []) := by
      simpa using hl1
    have hlink := (ListRepr_link hl1').2
    refine ⟨l1, groups ++ [(hn.hash % count, [(l.node_allocator_, hn)])], hix.2 _ hb, ?_, ?_, ?_,
      ?_, ?_, ?_, hend, hbump⟩
    · rw [hhead]; exact hem
    · rw [hhead]
      rw [hend] at hlink
      simpa [addrs] using hlink
    · rw [flatten_append]
      simpa [flatten] using hl1
    · constructor
      · rw [List.map_append, List.nodup_append]
        refine ⟨hgr.1, by simp, ?_⟩
        intro a ha1 ha2
        simp only [List.map_cons, List.map_nil, List.mem_singleton] at ha2
        subst ha2
        exact (groupOf_none.1 hgo) ha1
      · intro bg hbg
        rw [List.mem_append] at hbg
        rcases hbg with hbg | hbg
        · exact hgr.2 bg hbg
        · simp only [List.mem_singleton] at hbg
          subst hbg
          refine ⟨by simp, hb, ?_⟩
          intro x hx
          simp only [List.mem_singleton] at hx
          subst hx
          rfl
    · refine ⟨by rw [List.length_set]; exact hix.1, ?_⟩
      intro c hcc
      rw [set_index _ _ _ _ hblen]
      unfold headOf
      rw [groupOf_append]
      by_cases hcb : c = hn.hash % count
      · subst hcb
        rw [hgo]
        simp [groupOf, addrs]
      · rw [if_neg hcb, hix.2 c hcc]
        unfold headOf
        cases hgc : groupOf groups c with
        | some g => rfl
        | none =>
          have : ¬ (hn.hash % count = c) := fun h => hcb h.symm
          simp [groupOf, this]
    · rw [flatten_append]
      simp only [flatten, List.append_nil]
      exact List.perm_append_singleton _ _
  | some g =>
    obtain ⟨G1, G2, hs, hnot⟩ := groupOf_split hgo
    subst hs
    have hne : g ≠ [] := (hgr.2 (hn.hash % count, g) (by simp)).1
    have hhead : headOf (G1 ++ (hn.hash % count, g) :: G2) l.end_ (hn.hash % count)
        = (addrs (g ++ flatten G2)).headD l.end_ := by
      unfold headOf
      rw [hgo]
      cases g with
      | nil => exact absurd rfl hne
      | cons z zs => rfl
    have hl0 : ListRepr l ((pre ++ flatten G1) ++ (g ++ flatten G2)) := by
      rw [flatten_append, flatten_cons] at hl
      simpa using hl
    obtain ⟨l1, hem, hl1, hend, hbump⟩ := list_emplace_repr hl0 hn
    have hl1' : ListRepr l1 ((pre ++ flatten G1 ++ [(l.node_allocator_, hn)])
        ++ (g ++ flatten G2)) := by
      simpa using hl1
    have hlink := (ListRepr_link hl1').2
    refine ⟨l1, G1 ++ (hn.hash % count, (l.node_allocator_, hn) :: g) :: G2, hix.2 _ hb, ?_, ?_,
      ?_, ?_, ?_, ?_, hend, hbump⟩
    · rw [hhead]; exact hem
    · rw [hhead]
      rw [hend] at hlink
      simpa [addrs] using hlink
    · rw [flatten_append, flatten_cons]
      simpa using hl1
    · constructor
      · have := hgr.1
        simpa using this
      · intro bg hbg
        rw [List.mem_append, List.mem_cons] at hbg
        rcases hbg with hbg | hbg | hbg
        · exact hgr.2 bg (by simp [hbg])
        · subst hbg
          refine ⟨by simp, hb, ?_⟩
          intro x hx
          rw [List.mem_cons] at hx
          rcases hx with hx | hx
          · subst hx; rfl
          · exact (hgr.2 (hn.hash % count, g) (by simp)).2.2 x hx
        · exact hgr.2 bg (by simp [hbg])
    · refine ⟨by rw [List.length_set]; exact hix.1, ?_⟩
      intro c hcc
      rw [set_index _ _ _ _ hblen]
      by_cases hcb : c = hn.hash % count
      · subst hcb
        unfold headOf
        rw [groupOf_mid hnot]
        simp [addrs]
      · rw [if_neg hcb, hix.2 c hcc]
        unfold headOf
        rw [groupOf_mid_other g ((l.node_allocator_, hn) :: g) hcb]
    · rw [flatten_append, flatten_cons, flatten_append, flatten_cons]
      simp only [List.cons_append]
      exact List.perm_middle

/-! ### rehash -/

theorem toInt_small (n : Nat) (h : n < 2 ^ 31) : (toInt n).toNat = n := by
  unfold toInt
  have h1 : n % 2 ^ 32 = n := Nat.mod_eq_of_lt (by omega)
  rw [h1, if_pos h]
  simp

/-- The loop of `rehash`: the `n` entries `pre` at the front of the list are moved, one by
one, into the runs at the back of the list. -/
theorem rehashLoop_spec (count : Nat) (hc : 0 < count) :
    ∀ (n : Nat) (pre : List (Nat × HashedNode K V)) (l : LinkedList (HashedNode K V))
      (groups : List (Group K V)) (bis : List Nat),
      pre.length = n → ListRepr l (pre ++ flatten groups) → GroupsOK count groups →
      IndexOK l.end_ count bis groups →
      ∃ l1 groups1 bis1, rehashLoop count n (l, bis) = some (l1, bis1) ∧
        ListRepr l1 (flatten groups1) ∧ GroupsOK count groups1 ∧
        IndexOK l.end_ count bis1 groups1 ∧ l1.end_ = l.end_ ∧
        ((flatten groups1).map Prod.snd).Perm
          (pre.map Prod.snd ++ (flatten groups).map Prod.snd) := by
  intro n
  induction n with
  | zero =>
    intro pre l groups bis hlen hl hgr hix
    have hpre : pre = [] := List.length_eq_zero.1 hlen
    subst hpre
    exact ⟨l, groups, bis, rfl, by simpa using hl, hgr, hix, rfl, by simp⟩
  | succ n ih =>
    intro pre l groups bis hlen hl hgr hix
    cases pre with
    | nil => simp at hlen
    | cons x pre =>
      have hlen' : pre.length = n := by simpa using hlen
      have hbegin : l.begin = some x.1 := by
        rw [ListRepr_begin hl]
        rfl
      have hl0 : ListRepr l ([] ++ x :: (pre ++ flatten groups)) := by simpa using hl
      have hval := (ListRepr_at hl0).2.1
      obtain ⟨l1, groups1, hbis, hem, hprev, hl1, hgr1, hix1, hperm, hend1, _⟩ :=
        runs_insert hl hc hgr hix x.2
      have hl1' : ListRepr l1 ([] ++ (x.1, x.2) :: (pre ++ flatten groups1)) := by
        simpa using hl1
      obtain ⟨l2, her, hl2, hend2, _⟩ := list_erase_repr hl1'
      have hl2' : ListRepr l2 (pre ++ flatten groups1) := by simpa using hl2
      have hix2 : IndexOK l2.end_ count (bis.set (x.2.hash % count) l.node_allocator_)
          groups1 := by
        rw [hend2, hend1]
        exact hix1
      obtain ⟨l3, groups3, bis3, hloop, hl3, hgr3, hix3, hend3, hperm3⟩ :=
        ih pre l2 groups1 _ hlen' hl2' hgr1 hix2
      refine ⟨l3, groups3, bis3, ?_, hl3, hgr3, ?_, ?_, ?_⟩
      · unfold rehashLoop
        simp only [hbegin, hval, hbis, hem, hprev, her]
        exact hloop
      · rw [← hend1, ← hend2]
        exact hix3
      · rw [hend3, hend2, hend1]
      · refine hperm3.trans ?_
        have h1 : ((flatten groups1).map Prod.snd).Perm
            (x.2 :: (flatten groups).map Prod.snd) := by
          have := hperm.map Prod.snd
          simpa using this
        refine (List.Perm.append_left _ h1).trans ?_
        simp only [List.map_cons, List.cons_append]
        exact List.perm_middle

theorem rel_symm {hasher : K → Nat} {equaler : K → K → Bool} (hk : KeyEquiv hasher equaler) :
    Symmetric (fun p q : HashedNode K V => equaler p.node.1 q.node.1 = false) := by
  intro a b hab
  cases hba : equaler b.node.1 a.node.1 with
  | false => rfl
  | true =>
    have := hk.symm _ _ hba
    rw [this] at hab
    exact absurd hab (by simp)

/-- A state whose list, runs and index are consistent, and whose payloads are a
rearrangement of payloads with consistent hashes and pairwise different keys, is well
formed. -/
theorem MapRepr_of_perm {m m1 : UnorderedMap K V} {groups1 : List (Group K V)}
    (hk : KeyEquiv m.hasher_ m.equaler_)
    (hh : m1.hasher_ = m.hasher_) (he : m1.equaler_ = m.equaler_)
    (hl : ListRepr m1.storage_ (flatten groups1)) (hc : 0 < m1.buckets_count_)
    (hgr : GroupsOK m1.buckets_count_ groups1)
    (hix : IndexOK m1.storage_.end_ m1.buckets_count_ m1.bucket_iterators_ groups1)
    (payloads : List (HashedNode K V))
    (hperm : ((flatten groups1).map Prod.snd).Perm payloads)
    (hhash : ∀ p ∈ payloads, p.hash = m.hasher_ p.node.1)
    (hpw : payloads.Pairwise (fun p q => m.equaler_ p.node.1 q.node.1 = false)) :
    MapRepr m1 groups1 := by
  refine ⟨hl, hc, hgr, hix, ?_, ?_⟩
  · intro x hx
    rw [hh]
    apply hhash
    rw [← hperm.mem_iff]
    exact List.mem_map_of_mem _ hx
  · rw [he]
    have h1 := (List.Perm.pairwise_iff (fun hxy => rel_symm hk hxy) hperm).2 hpw
    rw [List.pairwise_map] at h1
    exact h1

theorem MapRepr_payloads {m : UnorderedMap K V} {groups : List (Group K V)}
    (h : MapRepr m groups) :
    (∀ p ∈ (flatten groups).map Prod.snd, p.hash = m.hasher_ p.node.1) ∧
    ((flatten groups).map Prod.snd).Pairwise
      (fun p q => m.equaler_ p.node.1 q.node.1 = false) := by
  constructor
  · intro p hp
    rw [List.mem_map] at hp
    obtain ⟨x, hx, rfl⟩ := hp
    exact h.2.2.2.2.1 x hx
  · rw [List.pairwise_map]
    exact h.2.2.2.2.2

/-- The member `rehash` on a map of fewer than `2^31` entries returns, and leaves a well
formed map with the same entries. -/
theorem rehash_repr {m : UnorderedMap K V} {groups : List (Group K V)}
    (hk : KeyEquiv m.hasher_ m.equaler_) (h : MapRepr m groups) (hsz : m.size < 2 ^ 31)
    (n : Nat) :
    ∃ m1 groups1, m.rehash n = some m1 ∧ MapRepr m1 groups1 ∧
      ((flatten groups1).map Prod.snd).Perm ((flatten groups).map Prod.snd) ∧
      m1.hasher_ = m.hasher_ ∧ m1.equaler_ = m.equaler_ ∧
      m1.max_load_factor_ = m.max_load_factor_ := by
  unfold UnorderedMap.rehash
  by_cases hn : n < m.size
  · rw [if_pos hn]
    exact ⟨m, groups, rfl, h, List.Perm.refl _, rfl, rfl, rfl⟩
  · rw [if_neg hn]
    have hc : 0 < max n 2 := by omega
    have hl : ListRepr m.storage_ (flatten groups ++ flatten ([] : List (Group K V))) := by
      simpa [flatten] using h.1
    have hsz0 : m.storage_.size < 2 ^ 31 := hsz
    have hlen : (flatten groups).length = (toInt m.storage_.size).toNat := by
      rw [toInt_small _ hsz0]
      exact (ListRepr_size h.1).symm
    have hgr0 : GroupsOK (max n 2) ([] : List (Group K V)) := ⟨by simp, by simp⟩
    have hix0 : IndexOK m.storage_.end_ (max n 2) (List.replicate (max n 2) m.storage_.end)
        ([] : List (Group K V)) := by
      refine ⟨by simp, ?_⟩
      intro b hb
      simp [headOf, groupOf, hb, LinkedList.end]
    obtain ⟨l1, groups1, bis1, hloop, hl1, hgr1, hix1, hend1, hperm⟩ :=
      rehashLoop_spec (max n 2) hc _ (flatten groups) m.storage_ [] _ hlen hl hgr0 hix0
    have hperm' : ((flatten groups1).map Prod.snd).Perm ((flatten groups).map Prod.snd) := by
      simpa [flatten] using hperm
    simp only [hloop]
    refine ⟨_, groups1, rfl, ?_, hperm', rfl, rfl, rfl⟩
    have hp := MapRepr_payloads h
    refine MapRepr_of_perm hk rfl rfl hl1 hc hgr1 ?_ _ hperm' hp.1 hp.2
    show IndexOK l1.end_ (max n 2) bis1 groups1
    rw [hend1]
    exact hix1

/-- The member `emplace` on a key that has no equal in the map returns `true` and leaves a
well formed map with the new entry added to the entries. -/
theorem emplace_absent {m : UnorderedMap K V} {groups : List (Group K V)}
    (hk : KeyEquiv m.hasher_ m.equaler_) (h : MapRepr m groups) (key : K) (value : V)
    (fuel : Nat) (hf : m.size < fuel) (hsz : m.size + 1 < 2 ^ 31)
    (hno : ∀ x ∈ flatten groups, m.equaler_ x.2.node.1 key = false) :
    ∃ m2 groups2 r, m.emplace fuel key value = some (m2, r, true) ∧ MapRepr m2 groups2 ∧
      ((flatten groups2).map Prod.snd).Perm
        ({ node := (key, value), hash := m.hasher_ key } :: (flatten groups).map Prod.snd) ∧
      m2.hasher_ = m.hasher_ ∧ m2.equaler_ = m.equaler_ ∧
      m2.max_load_factor_ = m.max_load_factor_ := by
  obtain ⟨_, iter, hbis, hiter, hscan⟩ := find_absent h key fuel hf hno
  have hl : ListRepr m.storage_ ([] ++ flatten groups) := by simpa using h.1
  obtain ⟨l1, groups1, _, hem, hprev, hl1, hgr1, hix1, hperm, hend1, _⟩ :=
    runs_insert hl h.2.1 h.2.2.1 h.2.2.2.1
      ({ node := (key, value), hash := m.hasher_ key } : HashedNode K V)
  have hperm1 : ((flatten groups1).map Prod.snd).Perm
      ({ node := (key, value), hash := m.hasher_ key } :: (flatten groups).map Prod.snd) := by
    have := hperm.map Prod.snd
    simpa using this
  have hp := MapRepr_payloads h
  have hm1 : MapRepr (UnorderedMap.mk m.buckets_count_ m.hasher_ m.equaler_ l1
      (m.bucket_iterators_.set (m.get_hash (m.hasher_ key)) m.storage_.node_allocator_)
      m.max_load_factor_) groups1 := by
    refine MapRepr_of_perm hk rfl rfl (by simpa using hl1) h.2.1 hgr1 ?_ _ hperm1 ?_ ?_
    · show IndexOK l1.end_ _ _ _
      rw [hend1]
      exact hix1
    · intro p hpm
      rw [List.mem_cons] at hpm
      rcases hpm with hpm | hpm
      · rw [hpm]
      · exact hp.1 p hpm
    · rw [List.pairwise_cons]
      refine ⟨?_, hp.2⟩
      intro q hq
      rw [List.mem_map] at hq
      obtain ⟨x, hx, rfl⟩ := hq
      exact rel_symm hk (hno x hx)
  have hsz1 : l1.size = m.size + 1 := by
    rw [ListRepr_size hl1]
    have := hperm.length_eq
    simp only [List.nil_append, List.length_cons] at this ⊢
    rw [this]
    unfold UnorderedMap.size
    rw [ListRepr_size h.1]
  have hfinal : ∀ (m2 : UnorderedMap K V) (groups2 : List (Group K V)), MapRepr m2 groups2 →
      m2.hasher_ = m.hasher_ →
      ∃ r, m2.bucket_iterators_[m2.get_hash (m.hasher_ key)]? = some r := by
    intro m2 groups2 h2 _
    exact ⟨_, h2.2.2.2.1.2 _ (Nat.mod_lt _ h2.2.1)⟩
  unfold UnorderedMap.emplace
  simp only [hbis, hscan]
  have hem1 : m.storage_.emplace iter { node := (key, value), hash := m.hasher_ key }
      = some l1 := by
    rw [hiter]
    exact hem
  have hprev1 : prevOf l1.heap iter = some m.storage_.node_allocator_ := by
    rw [hiter]
    exact hprev
  simp only [hem1, hprev1]
  split_ifs with hex
  · obtain ⟨m2, groups2, hre, hm2, hperm2, hh2, he2, hp2⟩ :=
      rehash_repr (m := UnorderedMap.mk m.buckets_count_ m.hasher_ m.equaler_ l1
        (m.bucket_iterators_.set (m.get_hash (m.hasher_ key)) m.storage_.node_allocator_)
        m.max_load_factor_) hk hm1
        (by show l1.size < 2 ^ 31; omega) (m.max_load_factor_.target l1.size)
    obtain ⟨r, hr⟩ := hfinal m2 groups2 hm2 hh2
    refine ⟨m2, groups2, r, ?_, hm2, hperm2.trans hperm1, hh2, he2, hp2⟩
    simp only [hre, hr]
  · obtain ⟨r, hr⟩ := hfinal _ groups1 hm1 rfl
    refine ⟨_, groups1, r, ?_, hm1, hperm1, rfl, rfl, rfl⟩
    simp only [hr]

/-! ### erase -/

theorem groupOf_remove {G1 G2 : List (Group K V)} {b c : Nat}
    (g : List (Nat × HashedNode K V)) (hc : c ≠ b) :
    groupOf (G1 ++ G2) c = groupOf (G1 ++ (b, g) :: G2) c := by
  rw [groupOf_append, groupOf_append]
  have hb : ¬ (b = c) := fun h => hc h.symm
  have : groupOf ((b, g) :: G2) c = groupOf G2 c := by simp [groupOf, hb]
  rw [this]

theorem groupOf_removed {G1 G2 : List (Group K V)} {b : Nat}
    (h1 : b ∉ G1.map Prod.fst) (h2 : b ∉ G2.map Prod.fst) : groupOf (G1 ++ G2) b = none := by
  rw [groupOf_none, List.map_append, List.mem_append]
  exact fun h => h.elim h1 h2

theorem groups_nodup_split {count b : Nat} {G1 G2 : List (Group K V)}
    {g : List (Nat × HashedNode K V)} (hgr : GroupsOK count (G1 ++ (b, g) :: G2)) :
    b ∉ G1.map Prod.fst ∧ b ∉ G2.map Prod.fst ∧ ((G1 ++ G2).map Prod.fst).Nodup := by
  have hnd := hgr.1
  rw [List.map_append, List.map_cons] at hnd
  have h1 := List.nodup_append.1 hnd
  have h2 := List.nodup_cons.1 h1.2.1
  refine ⟨?_, h2.1, ?_⟩
  · intro hb
    exact h1.2.2 hb (List.mem_cons_self _ _)
  · rw [List.map_append, List.nodup_append]
    refine ⟨h1.1, h2.2, ?_⟩
    intro a ha1 ha2
    exact h1.2.2 ha1 (List.mem_cons_of_mem _ ha2)

/-- A state obtained by taking one entry out of a well formed map, with consistent list,
runs and index, is well formed. -/
theorem MapRepr_of_removed {m m1 : UnorderedMap K V} {groups groups1 : List (Group K V)}
    (hk : KeyEquiv m.hasher_ m.equaler_) (h : MapRepr m groups)
    (hh : m1.hasher_ = m.hasher_) (he : m1.equaler_ = m.equaler_)
    (hl : ListRepr m1.storage_ (flatten groups1)) (hc : 0 < m1.buckets_count_)
    (hgr : GroupsOK m1.buckets_count_ groups1)
    (hix : IndexOK m1.storage_.end_ m1.buckets_count_ m1.bucket_iterators_ groups1)
    (x : Nat × HashedNode K V) (hperm : (flatten groups).Perm (x :: flatten groups1)) :
    MapRepr m1 groups1 := by
  have hp := MapRepr_payloads h
  have hperm1 : ((flatten groups).map Prod.snd).Perm
      (x.2 :: (flatten groups1).map Prod.snd) := by
    simpa using hperm.map Prod.snd
  refine MapRepr_of_perm hk hh he hl hc hgr hix _ (List.Perm.refl _) ?_ ?_
  · intro p hpm
    apply hp.1
    rw [hperm1.mem_iff]
    exact List.mem_cons_of_mem _ hpm
  · have := (List.Perm.pairwise_iff (fun hxy => rel_symm hk hxy) hperm1).1 hp.2
    exact (List.pairwise_cons.1 this).2

/-- The member `erase` on the position of an entry of the map returns, and leaves a well
formed map with that entry taken out. -/
theorem erase_repr {m : UnorderedMap K V} {groups : List (Group K V)}
    (hk : KeyEquiv m.hasher_ m.equaler_) (h : MapRepr m groups)
    {x : Nat × HashedNode K V} (hx : x ∈ flatten groups) :
    ∃ m1 groups1, m.erase x.1 = some m1 ∧ MapRepr m1 groups1 ∧
      (flatten groups).Perm (x :: flatten groups1) ∧
      m1.hasher_ = m.hasher_ ∧ m1.equaler_ = m.equaler_ ∧
      m1.max_load_factor_ = m.max_load_factor_ := by
  have hh := h
  obtain ⟨hl, hbc, hgr, hix, hhash, hpw⟩ := h
  obtain ⟨bg, hbg, hxg⟩ := mem_flatten.1 hx
  obtain ⟨G1, G2, hs⟩ := List.append_of_mem hbg
  obtain ⟨g1, g2, hg⟩ := List.append_of_mem hxg
  obtain ⟨b, g⟩ := bg
  simp only at hg
  subst hg
  subst hs
  obtain ⟨hn1, hn2, hnd12⟩ := groups_nodup_split hgr
  have hgb := hgr.2 (b, g1 ++ x :: g2) (by simp)
  have hb : b < m.buckets_count_ := hgb.2.1
  have hxb : m.get_hash x.2.hash = b := hgb.2.2 x (by simp)
  have hfl : flatten (G1 ++ (b, g1 ++ x :: g2) :: G2)
      = (flatten G1 ++ g1) ++ x :: (g2 ++ flatten G2) := by
    rw [flatten_append, flatten_cons]
    simp
  have hlst : ListRepr m.storage_ ((flatten G1 ++ g1) ++ x :: (g2 ++ flatten G2)) := by
    rw [← hfl]
    exact hl
  obtain ⟨hxe, hval, hnext, _⟩ := ListRepr_at hlst
  have hlst0 : ListRepr m.storage_ ((flatten G1 ++ g1) ++ (x.1, x.2) :: (g2 ++ flatten G2)) :=
    hlst
  obtain ⟨l1, her, hl1, hend1, _⟩ := list_erase_repr hlst0
  have hbis : m.bucket_iterators_[m.get_hash x.2.hash]?
      = some ((addrs (g1 ++ x :: g2)).headD m.storage_.end_) := by
    rw [hxb, hix.2 b hb]
    unfold headOf
    rw [groupOf_mid hn1]
  have hblen : b < m.bucket_iterators_.length := by rw [hix.1]; exact hb
  have hothers : ∀ bg ∈ G1 ++ G2, bg.2 ≠ [] ∧ bg.1 < m.buckets_count_ ∧
      ∀ y ∈ bg.2, y.2.hash % m.buckets_count_ = bg.1 := by
    intro bg hbg
    apply hgr.2 bg
    rw [List.mem_append] at hbg ⊢
    rcases hbg with hbg | hbg
    · exact Or.inl hbg
    · exact Or.inr (List.mem_cons_of_mem _ hbg)
  -- the run keeps an entry
  have hkeep : ∀ (g0 : List (Nat × HashedNode K V)) (bis1 : List Nat), g0 = g1 ++ g2 →
      g0 ≠ [] → bis1.length = m.bucket_iterators_.length →
      (∀ c, c < m.buckets_count_ → bis1[c]? =
        if c = b then some ((addrs g0).headD m.storage_.end_) else m.bucket_iterators_[c]?) →
      m.erase x.1 = some (UnorderedMap.mk m.buckets_count_ m.hasher_ m.equaler_ l1 bis1
        m.max_load_factor_) →
      ∃ m1 groups1, m.erase x.1 = some m1 ∧ MapRepr m1 groups1 ∧
        (flatten (G1 ++ (b, g1 ++ x :: g2) :: G2)).Perm (x :: flatten groups1) ∧
        m1.hasher_ = m.hasher_ ∧ m1.equaler_ = m.equaler_ ∧
        m1.max_load_factor_ = m.max_load_factor_ := by
    intro g0 bis1 hg0 hne hlen hb1 hcomp
    have hfl1 : flatten (G1 ++ (b, g0) :: G2) = (flatten G1 ++ g1) ++ (g2 ++ flatten G2) := by
      rw [flatten_append, flatten_cons, hg0]
      simp
    have hperm : (flatten (G1 ++ (b, g1 ++ x :: g2) :: G2)).Perm
        (x :: flatten (G1 ++ (b, g0) :: G2)) := by
      rw [hfl, hfl1]
      exact List.perm_middle
    refine ⟨_, G1 ++ (b, g0) :: G2, hcomp, ?_, hperm, rfl, rfl, rfl⟩
    refine MapRepr_of_removed hk hh rfl rfl ?_ hbc ?_ ?_ x hperm
    · show ListRepr l1 _
      rw [hfl1]
      exact hl1
    · constructor
      · have := hgr.1
        simpa using this
      · intro bg hbg
        rw [List.mem_append, List.mem_cons] at hbg
        rcases hbg with hbg | hbg | hbg
        · exact hothers bg (by simp [hbg])
        · subst hbg
          refine ⟨hne, hb, ?_⟩
          intro y hy
          apply hgb.2.2 y
          rw [hg0] at hy
          simp only [List.mem_append, List.mem_cons] at hy ⊢
          tauto
        · exact hothers bg (by simp [hbg])
    · show IndexOK l1.end_ _ bis1 _
      rw [hend1]
      refine ⟨by rw [hlen]; exact hix.1, ?_⟩
      intro c hcc
      rw [hb1 c hcc]
      by_cases hcb : c = b
      · subst hcb
        rw [if_pos rfl]
        unfold headOf
        rw [groupOf_mid hn1]
      · rw [if_neg hcb, hix.2 c hcc]
        unfold headOf
        rw [groupOf_mid_other (g1 ++ x :: g2) g0 hcb]
  cases g1 with
  | cons z zs =>
    have hzx : ¬ (x.1 = z.1) := by
      intro hc
      have hnd := ListRepr_nodup hlst
      have h1 := (List.nodup_cons.1 hnd).2
      rw [addrs_append, addrs_append] at h1
      have h2 := (List.nodup_append.1 (List.nodup_append.1 h1).1).2.1
      rw [addrs_cons] at h2
      have h3 := (List.nodup_append.1 h1).2.2
      have hz : z.1 ∈ addrs (flatten G1) ++ addrs (z :: zs) := by simp [addrs]
      have hx1 : z.1 ∈ addrs (x :: (g2 ++ flatten G2)) := by
        rw [← hc]
        simp [addrs]
      exact h3 hz hx1
    apply hkeep ((z :: zs) ++ g2) m.bucket_iterators_ rfl (by simp) rfl
    · intro c hcc
      by_cases hcb : c = b
      · subst hcb
        rw [if_pos rfl, hix.2 c hcc]
        unfold headOf
        rw [groupOf_mid hn1]
        rfl
      · rw [if_neg hcb]
    · unfold UnorderedMap.erase
      simp only [hval, hbis]
      simp only [List.cons_append, addrs_cons, List.headD_cons, if_neg hzx, her]
  | nil =>
    have hbis0 : m.bucket_iterators_[m.get_hash x.2.hash]? = some x.1 := by
      rw [hbis]
      rfl
    cases g2 with
    | cons z zs =>
      have hlst2 : ListRepr m.storage_ ((flatten G1 ++ [x]) ++ z :: (zs ++ flatten G2)) := by
        simpa using hlst
      obtain ⟨hze, hvalz, _, _⟩ := ListRepr_at hlst2
      have hzb : m.get_hash z.2.hash = b := hgb.2.2 z (by simp)
      have hnext0 : nextOf m.storage_.heap x.1 = some z.1 := by
        rw [hnext]
        rfl
      apply hkeep ([] ++ z :: zs) (m.bucket_iterators_.set b z.1) rfl (by simp)
        (by rw [List.length_set])
      · intro c hcc
        rw [set_index _ _ _ _ hblen]
        rfl
      · unfold UnorderedMap.erase
        simp only [hval, hbis0, if_true, hnext0]
        have hze0 : ¬ (z.1 = m.storage_.end) := hze
        simp only [if_neg hze0, hvalz, hzb, hxb, ne_eq, not_true_eq_false, if_false, her]
    | nil =>
      have hcomp : m.erase x.1 = some (UnorderedMap.mk m.buckets_count_ m.hasher_ m.equaler_
          l1 (m.bucket_iterators_.set b m.storage_.end_) m.max_load_factor_) := by
        cases G2 with
        | nil =>
          have hnext0 : nextOf m.storage_.heap x.1 = some m.storage_.end_ := by
            rw [hnext]
            rfl
          unfold UnorderedMap.erase
          simp only [hval, hbis0, if_true, hnext0]
          simp only [LinkedList.end, if_true, hxb, her]
        | cons g0 G2 =>
          have hg0 := hothers g0 (by simp)
          obtain ⟨b0, r0⟩ := g0
          cases r0 with
          | nil => exact absurd rfl hg0.1
          | cons w ws =>
            have hlst2 : ListRepr m.storage_
                ((flatten G1 ++ [x]) ++ w :: (ws ++ flatten G2)) := by
              simpa [flatten] using hlst
            obtain ⟨hwe, hvalw, _, _⟩ := ListRepr_at hlst2
            have hwb : m.get_hash w.2.hash = b0 := hg0.2.2 w (by simp)
            have hb0 : ¬ (b0 = b) := by
              intro hc
              apply hn2
              simp [hc]
            have hnext0 : nextOf m.storage_.heap x.1 = some w.1 := by
              rw [hnext]
              rfl
            unfold UnorderedMap.erase
            simp only [hval, hbis0, if_true, hnext0]
            simp only [LinkedList.end, if_neg hwe, hvalw, hwb, hxb, ne_eq, hb0,
              not_false_eq_true, if_true, her]
      have hfl1 : flatten (G1 ++ G2) = (flatten G1 ++ []) ++ ([] ++ flatten G2) := by
        rw [flatten_append]
        simp
      have hperm : (flatten (G1 ++ (b, [] ++ x :: []) :: G2)).Perm
          (x :: flatten (G1 ++ G2)) := by
        rw [hfl, hfl1]
        exact List.perm_middle
      refine ⟨_, G1 ++ G2, hcomp, ?_, hperm, rfl, rfl, rfl⟩
      refine MapRepr_of_removed hk hh rfl rfl ?_ hbc ⟨hnd12, hothers⟩ ?_ x hperm
      · show ListRepr l1 _
        rw [hfl1]
        exact hl1
      · show IndexOK l1.end_ _ (m.bucket_iterators_.set b m.storage_.end_) _
        rw [hend1]
        refine ⟨by rw [List.length_set]; exact hix.1, ?_⟩
        intro c hcc
        rw [set_index _ _ _ _ hblen]
        by_cases hcb : c = b
        · subst hcb
          rw [if_pos rfl]
          unfold headOf
          rw [groupOf_removed hn1 hn2]
        · rw [if_neg hcb, hix.2 c hcc]
          unfold headOf
          rw [← groupOf_remove ([] ++ x :: []) hcb]

/-! ### Sequences of calls -/

theorem map_run_append (m : UnorderedMap K V) (fuel : Nat) (ops : List (MapOp K V))
    (op : MapOp K V) :
    m.run fuel (ops ++ [op]) = match m.run fuel ops with
      | none => none
      | some m1 => m1.apply fuel op := by
  induction ops generalizing m with
  | nil =>
    show (match m.apply fuel op with
      | none => none
      | some m1 => m1.run fuel []) = m.apply fuel op
    cases m.apply fuel op <;> rfl
  | cons o os ih =>
    show (match m.apply fuel o with
      | none => none
      | some m1 => m1.run fuel (os ++ [op])) = (match (match m.apply fuel o with
        | none => none
        | some m1 => m1.run fuel os) with
      | none => none
      | some m1 => m1.apply fuel op)
    cases m.apply fuel o with
    | none => rfl
    | some m1 => exact ih m1

theorem MapRepr_mk0 (hasher : K → Nat) (equaler : K → K → Bool) (policy : LoadPolicy) :
    MapRepr (UnorderedMap.mk0 hasher equaler policy : UnorderedMap K V) [] := by
  have h2 : (0 : Nat) < 2 := by omega
  refine ⟨ListRepr_mk0, h2, ⟨by simp, by simp⟩, ⟨by simp [UnorderedMap.mk0], ?_⟩,
    by simp [flatten], by simp [flatten]⟩
  intro b hb
  have hb2 : b < 2 := hb
  have hb3 : b = 0 ∨ b = 1 := by omega
  rcases hb3 with rfl | rfl <;> simp [UnorderedMap.mk0, headOf, groupOf, LinkedList.end]

theorem MapRepr_length {m : UnorderedMap K V} {groups : List (Group K V)}
    (h : MapRepr m groups) : m.size = (flatten groups).length := ListRepr_size h.1

/-- One `insert` keeps the map in step with the history of calls. -/
theorem insert_history {hasher : K → Nat} {equaler : K → K → Bool} {policy : LoadPolicy}
    (hk : KeyEquiv hasher equaler) {m : UnorderedMap K V} {groups : List (Group K V)}
    {rops : List (MapOp K V)} (h : HistoryRepr hasher equaler policy m groups rops)
    (key : K) (value : V) (fuel : Nat) (hf : rops.length < fuel)
    (hsz : rops.length + 1 < 2 ^ 31) :
    ∃ m1 groups1, m.apply fuel (.insert key value) = some m1 ∧
      HistoryRepr hasher equaler policy m1 groups1 (.insert key value :: rops) := by
  obtain ⟨hrep, hh, he, hp, hlen, hlive⟩ := h
  have hkm : KeyEquiv m.hasher_ m.equaler_ := by rw [hh, he]; exact hk
  by_cases hpres : ∃ x ∈ flatten groups, equaler x.2.node.1 key = true
  · obtain ⟨x, hx, hxe⟩ := hpres
    have hem := emplace_present hkm hrep key value fuel (by omega) hx (by rw [he]; exact hxe)
    refine ⟨m, groups, ?_, hrep, hh, he, hp, ?_, ?_⟩
    · show (match m.emplace fuel key value with
        | none => none
        | some (m1, _, _) => some m1) = some m
      rw [hem]
    · simp only [List.length_cons]
      omega
    · intro k
      show _ ↔ (equaler key k || insertedNotErasedRev equaler k rops) = true
      rw [Bool.or_eq_true, ← hlive k]
      constructor
      · exact fun hex => Or.inr hex
      · intro hor
        rcases hor with hkk | hex
        · exact ⟨x, hx, hk.trans _ _ _ hxe hkk⟩
        · exact hex
  · have hno : ∀ x ∈ flatten groups, m.equaler_ x.2.node.1 key = false := by
      intro x hx
      rw [he]
      cases hc : equaler x.2.node.1 key with
      | false => rfl
      | true => exact absurd ⟨x, hx, hc⟩ hpres
    obtain ⟨m2, groups2, r, hem, hrep2, hperm, hh2, he2, hp2⟩ :=
      emplace_absent hkm hrep key value fuel (by omega) (by omega) hno
    refine ⟨m2, groups2, ?_, hrep2, hh2.trans hh, he2.trans he, hp2.trans hp, ?_, ?_⟩
    · show (match m.emplace fuel key value with
        | none => none
        | some (m1, _, _) => some m1) = some m2
      rw [hem]
    · rw [MapRepr_length hrep2]
      have h1 := hperm.length_eq
      simp only [List.length_map, List.length_cons] at h1 ⊢
      rw [h1, ← MapRepr_length hrep]
      omega
    · intro k
      show _ ↔ (equaler key k || insertedNotErasedRev equaler k rops) = true
      rw [Bool.or_eq_true, ← hlive k]
      constructor
      · rintro ⟨x, hx, hxe⟩
        have hm : x.2 ∈ (flatten groups2).map Prod.snd := List.mem_map_of_mem _ hx
        rw [hperm.mem_iff, List.mem_cons] at hm
        rcases hm with hm | hm
        · left
          rw [hm] at hxe
          exact hxe
        · right
          rw [List.mem_map] at hm
          obtain ⟨y, hy, hyx⟩ := hm
          exact ⟨y, hy, by rw [hyx]; exact hxe⟩
      · intro hor
        have hsub : ∀ p ∈ ({ node := (key, value), hash := m.hasher_ key } ::
            (flatten groups).map Prod.snd : List (HashedNode K V)),
            equaler p.node.1 k = true → ∃ x ∈ flatten groups2, equaler x.2.node.1 k = true := by
          intro p hpm hpe
          rw [← hperm.mem_iff, List.mem_map] at hpm
          obtain ⟨y, hy, hyx⟩ := hpm
          exact ⟨y, hy, by rw [hyx]; exact hpe⟩
        rcases hor with hkk | ⟨x, hx, hxe⟩
        · exact hsub _ (List.mem_cons_self _ _) hkk
        · exact hsub x.2 (List.mem_cons_of_mem _ (List.mem_map_of_mem _ hx)) hxe

/-- One `erase(find(key))` of a key of the map keeps the map in step with the history of
calls. -/
theorem erase_history {hasher : K → Nat} {equaler : K → K → Bool} {policy : LoadPolicy}
    (hk : KeyEquiv hasher equaler) {m : UnorderedMap K V} {groups : List (Group K V)}
    {rops : List (MapOp K V)} (h : HistoryRepr hasher equaler policy m groups rops)
    (key : K) (fuel : Nat) (hf : rops.length < fuel)
    (hv : insertedNotErasedRev equaler key rops = true) :
    ∃ m1 groups1, m.apply fuel (.erase_found key) = some m1 ∧
      HistoryRepr hasher equaler policy m1 groups1 (.erase_found key :: rops) := by
  obtain ⟨hrep, hh, he, hp, hlen, hlive⟩ := h
  have hkm : KeyEquiv m.hasher_ m.equaler_ := by rw [hh, he]; exact hk
  obtain ⟨x, hx, hxe⟩ := (hlive key).2 hv
  have hfind := find_present hkm hrep key fuel (by omega) hx (by rw [he]; exact hxe)
  obtain ⟨m1, groups1, her, hrep1, hperm, hh1, he1, hp1⟩ := erase_repr hkm hrep hx
  have hpw : (x :: flatten groups1).Pairwise
      (fun a b => equaler a.2.node.1 b.2.node.1 = false) := by
    have h0 := hrep.2.2.2.2.2
    rw [he] at h0
    exact (List.Perm.pairwise_iff (fun hxy => rel_symm hk hxy) hperm).1 h0
  refine ⟨m1, groups1, ?_, hrep1, hh1.trans hh, he1.trans he, hp1.trans hp, ?_, ?_⟩
  · show (match m.find fuel key with
      | none => none
      | some it => m.erase it) = some m1
    rw [hfind]
    exact her
  · rw [MapRepr_length hrep1]
    have h1 := hperm.length_eq
    rw [← MapRepr_length hrep] at h1
    simp only [List.length_cons] at h1 ⊢
    omega
  · intro k
    show _ ↔ (!equaler key k && insertedNotErasedRev equaler k rops) = true
    rw [Bool.and_eq_true, ← hlive k, Bool.not_eq_true']
    constructor
    · rintro ⟨y, hy, hye⟩
      refine ⟨?_, y, hperm.mem_iff.2 (List.mem_cons_of_mem _ hy), hye⟩
      cases hc : equaler key k with
      | false => rfl
      | true =>
        have hxy := (List.pairwise_cons.1 hpw).1 y hy
        have hxk : equaler x.2.node.1 k = true := hk.trans _ _ _ hxe hc
        have : equaler x.2.node.1 y.2.node.1 = true := hk.trans _ _ _ hxk (hk.symm _ _ hye)
        rw [this] at hxy
        exact absurd hxy (by simp)
    · rintro ⟨hne, y, hy, hye⟩
      rw [hperm.mem_iff, List.mem_cons] at hy
      rcases hy with hy | hy
      · subst hy
        have : equaler key k = true := hk.trans _ _ _ (hk.symm _ _ hxe) hye
        rw [this] at hne
        exact absurd hne (by simp)
      · exact ⟨y, hy, hye⟩

/-- Every sequence of calls on the default-constructed map returns, and leaves the map in
step with the history of calls. -/
theorem map_run_history {hasher : K → Nat} {equaler : K → K → Bool} (policy : LoadPolicy)
    (hk : KeyEquiv hasher equaler) (fuel : Nat) :
    ∀ ops : List (MapOp K V), erasesOfPresentKeys equaler ops = true → ops.length < 2 ^ 31 →
      ops.length < fuel →
      ∃ m groups, (UnorderedMap.mk0 hasher equaler policy).run fuel ops = some m ∧
        HistoryRepr hasher equaler policy m groups ops.reverse := by
  intro ops
  induction ops using List.reverseRecOn with
  | nil =>
    intro _ _ _
    refine ⟨_, [], rfl, MapRepr_mk0 hasher equaler policy, rfl, rfl, rfl, ?_, ?_⟩
    · show (0 : Nat) ≤ 0
      exact le_refl _
    · intro k
      simp [flatten, insertedNotErasedRev]
  | append_singleton ops op ih =>
    intro hv hlen hf
    have hlen1 : ops.length + 1 < 2 ^ 31 := by simpa using hlen
    have hf1 : ops.length + 1 ≤ fuel := by
      have : (ops ++ [op]).length < fuel := hf
      simp only [List.length_append, List.length_singleton] at this
      omega
    have hrev : (ops ++ [op]).reverse = op :: ops.reverse := by simp
    have hv1 : erasesOfPresentKeysRev equaler (op :: ops.reverse) = true := by
      rw [← hrev]
      exact hv
    have hv0 : erasesOfPresentKeys equaler ops = true := by
      cases op with
      | insert k v => exact hv1
      | erase_found k =>
        have : (insertedNotErasedRev equaler k ops.reverse &&
            erasesOfPresentKeysRev equaler ops.reverse) = true := hv1
        rw [Bool.and_eq_true] at this
        exact this.2
    obtain ⟨m, groups, hrun, hhist⟩ := ih hv0 (by omega) (by omega)
    rw [map_run_append, hrun, hrev]
    have hrl : ops.reverse.length = ops.length := List.length_reverse _
    cases op with
    | insert k v =>
      exact insert_history hk hhist k v fuel (by omega) (by omega)
    | erase_found k =>
      have : (insertedNotErasedRev equaler k ops.reverse &&
          erasesOfPresentKeysRev equaler ops.reverse) = true := hv1
      rw [Bool.and_eq_true] at this
      exact erase_history hk hhist k fuel (by omega) this.1

/-- The member `find` read against the history of calls. -/
theorem find_history {hasher : K → Nat} {equaler : K → K → Bool} {policy : LoadPolicy}
    (hk : KeyEquiv hasher equaler) {m : UnorderedMap K V} {groups : List (Group K V)}
    {rops : List (MapOp K V)} (h : HistoryRepr hasher equaler policy m groups rops)
    (k : K) (fuel : Nat) (hf : rops.length < fuel) :
    ∃ it, m.find fuel k = some it ∧
      (it ≠ m.end ↔ insertedNotErasedRev equaler k rops = true) ∧
      (it ≠ m.end → ∃ hn, valueOf m.storage_.heap it = some hn ∧
        equaler hn.node.1 k = true) := by
  obtain ⟨hrep, hh, he, hp, hlen, hlive⟩ := h
  have hkm : KeyEquiv m.hasher_ m.equaler_ := by rw [hh, he]; exact hk
  by_cases hpres : ∃ x ∈ flatten groups, equaler x.2.node.1 k = true
  · obtain ⟨x, hx, hxe⟩ := hpres
    have hfind := find_present hkm hrep k fuel (by omega) hx (by rw [he]; exact hxe)
    obtain ⟨G1, G2, hs⟩ := List.append_of_mem hx
    have hat : ListRepr m.storage_ (G1 ++ x :: G2) := by
      rw [← hs]
      exact hrep.1
    obtain ⟨hne, hval, _, _⟩ := ListRepr_at hat
    refine ⟨x.1, hfind, ?_, ?_⟩
    · constructor
      · intro _
        exact (hlive k).1 ⟨x, hx, hxe⟩
      · intro _
        exact hne
    · intro _
      exact ⟨x.2, hval, hxe⟩
  · have hno : ∀ x ∈ flatten groups, m.equaler_ x.2.node.1 k = false := by
      intro x hx
      rw [he]
      cases hc : equaler x.2.node.1 k with
      | false => rfl
      | true => exact absurd ⟨x, hx, hc⟩ hpres
    have hfind := (find_absent hrep k fuel (by omega) hno).1
    refine ⟨m.end, hfind, ?_, ?_⟩
    · constructor
      · intro hc
        exact absurd rfl hc
      · intro hc
        exact absurd ((hlive k).2 hc) hpres
    · intro hc
      exact absurd rfl hc

/-- The position of an entry of the map is not `end()` and holds the entry. -/
theorem entry_position {m : UnorderedMap K V} {groups : List (Group K V)}
    (h : MapRepr m groups) {x : Nat × HashedNode K V} (hx : x ∈ flatten groups) :
    x.1 ≠ m.end ∧ valueOf m.storage_.heap x.1 = some x.2 := by
  obtain ⟨G1, G2, hs⟩ := List.append_of_mem hx
  have hat : ListRepr m.storage_ (G1 ++ x :: G2) := by
    rw [← hs]
    exact h.1
  obtain ⟨hne, hval, _, _⟩ := ListRepr_at hat
  exact ⟨hne, hval⟩

/-- The member `at` on a key that has an equal in the map returns the value of that
entry. -/
theorem at_present {m : UnorderedMap K V} {groups : List (Group K V)}
    (hk : KeyEquiv m.hasher_ m.equaler_)
    (h : MapRepr m groups) (key : K) (fuel : Nat) (hf : m.size < fuel)
    {x : Nat × HashedNode K V} (hx : x ∈ flatten groups)
    (hxe : m.equaler_ x.2.node.1 key = true) :
    m.at fuel key = some (.value x.2.node.2) := by
  have hfind := find_present hk h key fuel hf hx hxe
  obtain ⟨hne, hval⟩ := entry_position h hx
  unfold UnorderedMap.at
  simp only [hfind, if_neg hne, hval]

/-- The calls `insert((k1,v1)); insert((k2,v2));` with different keys on the
default-constructed map, followed by an insert of `(k1,v3)`. -/
theorem three_inserts {hasher : K → Nat} {equaler : K → K → Bool} (policy : LoadPolicy)
    (hk : KeyEquiv hasher equaler) (k1 k2 : K) (v1 v2 v3 : V) (fuel : Nat)
    (hne : equaler k1 k2 = false) (hf : 3 ≤ fuel) :
    ∃ m it, (UnorderedMap.mk0 hasher equaler policy).run fuel
        [.insert k1 v1, .insert k2 v2] = some m ∧
      m.insert fuel (k1, v3) = some (m, it, false) ∧
      (UnorderedMap.mk0 hasher equaler policy).run fuel
        [.insert k1 v1, .insert k2 v2, .insert k1 v3] = some m ∧
      m.size = 2 ∧ m.at fuel k1 = some (.value v1) := by
  have h0 := MapRepr_mk0 (V := V) hasher equaler policy
  have hs0 : (UnorderedMap.mk0 hasher equaler policy : UnorderedMap K V).size = 0 := rfl
  obtain ⟨m1, groups1, r1, hem1, hrep1, hperm1, hh1, he1, hp1⟩ :=
    emplace_absent (m := UnorderedMap.mk0 hasher equaler policy) hk h0 k1 v1 fuel
      (by rw [hs0]; omega) (by rw [hs0]; omega) (by simp [flatten])
  have hh1 : m1.hasher_ = hasher := hh1
  have he1 : m1.equaler_ = equaler := he1
  have hperm1 : ((flatten groups1).map Prod.snd).Perm [{ node := (k1, v1), hash := hasher k1 }] := by
    simpa [flatten] using hperm1
  have hs1 : m1.size = 1 := by
    rw [MapRepr_length hrep1]
    simpa using hperm1.length_eq
  have hk1 : KeyEquiv m1.hasher_ m1.equaler_ := by rw [hh1, he1]; exact hk
  have hno1 : ∀ x ∈ flatten groups1, m1.equaler_ x.2.node.1 k2 = false := by
    intro x hx
    have hm : x.2 ∈ (flatten groups1).map Prod.snd := List.mem_map_of_mem _ hx
    rw [hperm1.mem_iff, List.mem_singleton] at hm
    rw [he1, hm]
    exact hne
  obtain ⟨m2, groups2, r2, hem2, hrep2, hperm2, hh2, he2, hp2⟩ :=
    emplace_absent hk1 hrep1 k2 v2 fuel (by rw [hs1]; omega) (by rw [hs1]; omega) hno1
  have hh2 : m2.hasher_ = hasher := hh2.trans hh1
  have he2 : m2.equaler_ = equaler := he2.trans he1
  have hk2 : KeyEquiv m2.hasher_ m2.equaler_ := by rw [hh2, he2]; exact hk
  have hperm2 : ((flatten groups2).map Prod.snd).Perm
      [{ node := (k2, v2), hash := m1.hasher_ k2 }, { node := (k1, v1), hash := hasher k1 }] :=
    hperm2.trans (List.Perm.cons _ hperm1)
  have hs2 : m2.size = 2 := by
    rw [MapRepr_length hrep2]
    simpa using hperm2.length_eq
  have hmem : ({ node := (k1, v1), hash := hasher k1 } : HashedNode K V)
      ∈ (flatten groups2).map Prod.snd := by
    rw [hperm2.mem_iff]
    simp
  rw [List.mem_map] at hmem
  obtain ⟨x, hx, hx2⟩ := hmem
  have hxe : m2.equaler_ x.2.node.1 k1 = true := by
    rw [he2, hx2]
    exact hk.refl k1
  have hem3 := emplace_present hk2 hrep2 k1 v3 fuel (by rw [hs2]; omega) hx hxe
  have hat := at_present hk2 hrep2 k1 fuel (by rw [hs2]; omega) hx hxe
  have hrun2 : (UnorderedMap.mk0 hasher equaler policy).run fuel
      [.insert k1 v1, .insert k2 v2] = some m2 := by
    simp only [UnorderedMap.run, UnorderedMap.apply, hem1, hem2]
  refine ⟨m2, x.1, hrun2, hem3, ?_, hs2, ?_⟩
  · simp only [UnorderedMap.run, UnorderedMap.apply, hem1, hem2, hem3]
  · rw [hat, hx2]

theorem natKeys : KeyEquiv (fun k : Nat => k) (fun a b => decide (a = b)) :=
  ⟨by simp, by simp, by simp, by simp⟩

end

/-- For every hash function consistent with the equality predicate (`KeyEquiv`) and every
sequence `ops` of insert/emplace and erase(find(k)) calls on a default-constructed
UnorderedMap, each erase being of a key that is in the map (erase(end()) is undefined) and
the sequence being shorter than `2^31` calls (the range of the `int` counter of rehash),
the calls return a map on which find(k) returns, for every `k`, a position that is not
end() exactly when `k` has been inserted and not erased since, that position holding an
entry whose key equals `k`. The loops of find and emplace end within `ops.length + 1`
steps, and the load policy is arbitrary. In particular on the map of integers with bucket
count 2, the second insert rehashes to 12 buckets and both keys are found afterwards. -/
theorem find_tracks_below_int_range :
    (∀ (K V : Type) (hasher : K → Nat) (equaler : K → K → Bool) (policy : LoadPolicy),
      KeyEquiv hasher equaler →
      ∀ (ops : List (MapOp K V)) (fuel : Nat), erasesOfPresentKeys equaler ops = true →
        ops.length < 2 ^ 31 → ops.length < fuel →
        ∃ m, (UnorderedMap.mk0 hasher equaler policy).run fuel ops = some m ∧
          ∀ k, ∃ it, m.find fuel k = some it ∧
            (it ≠ m.end ↔ insertedNotErased equaler k ops = true) ∧
            (it ≠ m.end → ∃ hn, ListH.valueOf m.storage_.heap it = some hn ∧
              equaler hn.node.1 k = true)) ∧
    (natMap.run 3 [.insert 1 10]).map (fun m => m.buckets_count_) = some 2 ∧
    (natMap.run 3 [.insert 1 10, .insert 3 30]).map
        (fun m => (m.buckets_count_, m.at 3 1, m.at 3 3, m.at 3 5))
      = some (12, some (.value 10), some (.value 30), some .out_of_range) := by
  refine ⟨?_, by decide, by decide⟩
  intro K V hasher equaler policy hk ops fuel hv hlen hf
  obtain ⟨m, groups, hrun, hhist⟩ := map_run_history policy hk fuel ops hv hlen hf
  refine ⟨m, hrun, ?_⟩
  intro k
  exact find_history hk hhist k fuel (by rw [List.length_reverse]; exact hf)

/-- C4: on every well formed map that holds an entry whose key equals `k`, insert/emplace
of `(k, v)` returns the position of that entry and `false` and leaves the map as it was,
so size() and the stored value are unchanged; the same on every map reached from the
default-constructed one by fewer than `2^31` insert/emplace and erase(find(k)) calls, for
every key inserted and not erased since; and after inserting (k1,v1), (k2,v2), (k1,v3)
with k1 different from k2, for every consistent hash function and every load policy, the
third insert returns `false`, size() is 2 and at(k1) is v1. -/
theorem duplicate_insert_keeps_first_entry :
    (∀ (K V : Type) (m : UnorderedMap K V) (groups : List (Group K V)),
      MapRepr m groups → KeyEquiv m.hasher_ m.equaler_ →
      ∀ (fuel : Nat), m.size < fuel → ∀ x ∈ flatten groups, ∀ (k : K) (v : V),
        m.equaler_ x.2.node.1 k = true →
        m.emplace fuel k v = some (m, x.1, false) ∧
        m.insert fuel (k, v) = some (m, x.1, false) ∧
        x.1 ≠ m.end ∧ ListH.valueOf m.storage_.heap x.1 = some x.2) ∧
    (∀ (K V : Type) (hasher : K → Nat) (equaler : K → K → Bool) (policy : LoadPolicy),
      KeyEquiv hasher equaler →
      ∀ (ops : List (MapOp K V)) (fuel : Nat), erasesOfPresentKeys equaler ops = true →
        ops.length < 2 ^ 31 → ops.length < fuel →
        ∃ m, (UnorderedMap.mk0 hasher equaler policy).run fuel ops = some m ∧
          ∀ (k : K) (v : V), insertedNotErased equaler k ops = true →
            ∃ it hn, m.emplace fuel k v = some (m, it, false) ∧
              m.insert fuel (k, v) = some (m, it, false) ∧ it ≠ m.end ∧
              ListH.valueOf m.storage_.heap it = some hn ∧ equaler hn.node.1 k = true) ∧
    (∀ (K V : Type) (hasher : K → Nat) (equaler : K → K → Bool) (policy : LoadPolicy),
      KeyEquiv hasher equaler →
      ∀ (k1 k2 : K) (v1 v2 v3 : V) (fuel : Nat), equaler k1 k2 = false → 3 ≤ fuel →
        ∃ m it, (UnorderedMap.mk0 hasher equaler policy).run fuel
            [.insert k1 v1, .insert k2 v2] = some m ∧
          m.insert fuel (k1, v3) = some (m, it, false) ∧
          (UnorderedMap.mk0 hasher equaler policy).run fuel
            [.insert k1 v1, .insert k2 v2, .insert k1 v3] = some m ∧
          m.size = 2 ∧ m.at fuel k1 = some (.value v1)) := by
  refine ⟨?_, ?_, ?_⟩
  · intro K V m groups hrep hk fuel hf x hx k v hxe
    have hem := emplace_present hk hrep k v fuel hf hx hxe
    obtain ⟨hne, hval⟩ := entry_position hrep hx
    exact ⟨hem, hem, hne, hval⟩
  · intro K V hasher equaler policy hk ops fuel hv hlen hf
    obtain ⟨m, groups, hrun, hhist⟩ := map_run_history policy hk fuel ops hv hlen hf
    refine ⟨m, hrun, ?_⟩
    intro k v hlive
    obtain ⟨hrep, hh, he, hp, hsz, hl⟩ := hhist
    obtain ⟨x, hx, hxe⟩ := (hl k).2 hlive
    have hkm : KeyEquiv m.hasher_ m.equaler_ := by rw [hh, he]; exact hk
    have hf1 : m.size < fuel := by
      rw [List.length_reverse] at hsz
      omega
    have hem := emplace_present hkm hrep k v fuel hf1 hx (by rw [he]; exact hxe)
    obtain ⟨hne, hval⟩ := entry_position hrep hx
    exact ⟨x.1, x.2, hem, hem, hne, hval, hxe⟩
  · intro K V hasher equaler policy hk k1 k2 v1 v2 v3 fuel hne hf
    exact three_inserts policy hk k1 k2 v1 v2 v3 fuel hne hf

/-- Witness for C4: the three inserts (1,10), (3,30), (1,99) on the map of integers. -/
theorem duplicate_insert_keeps_first_entry_witness :
    KeyEquiv (fun k : Nat => k) (fun a b => decide (a = b)) ∧
    decide ((1 : Nat) = 3) = false ∧ 3 ≤ 3 ∧
    ∃ m it, (UnorderedMap.mk0 (fun k : Nat => k) (fun a b => decide (a = b))
          LoadPolicy.half).run 3 [.insert 1 10, .insert 3 30] = some m ∧
      m.insert 3 (1, 99) = some (m, it, false) ∧
      (UnorderedMap.mk0 (fun k : Nat => k) (fun a b => decide (a = b))
          LoadPolicy.half).run 3 [.insert 1 10, .insert 3 30, .insert 1 99] = some m ∧
      m.size = 2 ∧ m.at 3 1 = some (.value 10) :=
  ⟨natKeys, by decide, by decide,
    duplicate_insert_keeps_first_entry.2.2 Nat Nat _ _ LoadPolicy.half natKeys 1 3 10 30 99 3
      (by decide) (by decide)⟩

end UnorderedMapH
namespace SmartPointersH

/-! ## smart_pointers.h : `WeakPtr::expired`, `WeakPtr::lock` and the weak count -/

theorem occ_pos_getElem? {α : Type} [DecidableEq α] (x : α) :
    ∀ (l : List α), 0 < occ x l → ∃ i : Nat, l[i]? = some x := by
  intro l
  induction l with
  | nil => intro h; simp [occ] at h
  | cons y rest ih =>
    intro h
    by_cases hy : y = x
    · exact ⟨0, by simp [hy]⟩
    · have h1 : 0 < occ x rest := by
        simpa [occ, hy] using h
      obtain ⟨i, hi⟩ := ih h1
      exact ⟨i + 1, by simpa using hi⟩

theorem sharedOn_pos_iff {w : World} {b : Nat} :
    0 < w.sharedOn b ↔ ∃ j, w.sharedBlock j = some (some b) := by
  constructor
  · intro h
    obtain ⟨j, hj⟩ := occ_pos_getElem? _ _ h
    exact ⟨j, sharedBlock_eq.2 hj⟩
  · rintro ⟨j, hj⟩
    exact sharedOn_pos hj

theorem expired_eq {w : World} {i b : Nat} (h : w.weakBlock i = some (some b)) :
    WeakPtr.expired w i = some (decide ((w.blocks b).count_shared = 0)) := by
  simp [WeakPtr.expired, h]

/-- In a well counted state a `WeakPtr` on block `b` is not expired exactly when a live
`SharedPtr` is on `b`. -/
theorem expired_inv {w : World} (hinv : Inv w) {i b : Nat}
    (h : w.weakBlock i = some (some b)) :
    ∃ e, WeakPtr.expired w i = some e ∧
      (e = false ↔ ∃ j, w.sharedBlock j = some (some b)) := by
  refine ⟨_, expired_eq h, ?_⟩
  rw [← sharedOn_pos_iff, ← (hinv b).1]
  simp only [decide_eq_false_iff_not]
  omega

theorem run_append (w : World) (ops : List Op) (op : Op) :
    run w (ops ++ [op]) = match run w ops with
      | none => none
      | some w1 => step w1 op := by
  induction ops generalizing w with
  | nil =>
    show (match step w op with
      | none => none
      | some w1 => run w1 []) = step w op
    cases step w op <;> rfl
  | cons o os ih =>
    show (match step w o with
      | none => none
      | some w1 => run w1 (os ++ [op])) = (match (match step w o with
        | none => none
        | some w1 => run w1 os) with
      | none => none
      | some w1 => step w1 op)
    cases step w o with
    | none => rfl
    | some w1 => exact ih w1

/-- C11: in every state a sequence of SharedPtr and WeakPtr operations leads to, expired()
of a WeakPtr on block `b` is false exactly when a live SharedPtr is on `b`; a WeakPtr
constructed from a SharedPtr on `b` is on `b`; when one SharedPtr is left on `b`, its
reset or destruction makes expired() true for every WeakPtr on `b`; and expired() is true
for a default-constructed WeakPtr. In the scenario `a(new T); w(a); b(a)`, expired() is
false at first and after `a.reset()`, and true after `b` is destroyed as well. -/
theorem expired_iff_no_live_shared :
    (∀ (ops : List Op) (w : World), run World.init ops = some w →
      ∀ i b, w.weakBlock i = some (some b) →
        ∃ e, WeakPtr.expired w i = some e ∧
          (e = false ↔ ∃ j, w.sharedBlock j = some (some b))) ∧
    (∀ (w : World) (j b : Nat), w.sharedBlock j = some (some b) →
      ∃ w', WeakPtr.ctor_shared w j = some w' ∧
        w'.weakBlock w.weak.length = some (some b) ∧ w'.sharedBlock j = some (some b)) ∧
    (∀ (ops : List Op) (w : World), run World.init ops = some w →
      ∀ i j b, w.weakBlock i = some (some b) → w.sharedBlock j = some (some b) →
        w.sharedOn b = 1 →
        ∃ w1 w2, SharedPtr.reset w j = some w1 ∧ SharedPtr.dtor w j = some w2 ∧
          WeakPtr.expired w1 i = some true ∧ WeakPtr.expired w2 i = some true) ∧
    (∀ w : World, WeakPtr.expired (WeakPtr.ctor_default w) w.weak.length = some true) ∧
    (WeakPtr.expired (stateAfter [.sp_raw 7, .wp_shared 0, .sp_copy 0]) 0 = some false ∧
      WeakPtr.expired (stateAfter [.sp_raw 7, .wp_shared 0, .sp_copy 0, .sp_reset 0]) 0
        = some false ∧
      WeakPtr.expired
        (stateAfter [.sp_raw 7, .wp_shared 0, .sp_copy 0, .sp_reset 0, .sp_dtor 1]) 0
        = some true) := by
  refine ⟨?_, ?_, ?_, ?_, ⟨rfl, rfl, rfl⟩⟩
  · intro ops w hrun i b h
    exact expired_inv (run_inv ops World.init w Inv_init hrun) h
  · intro w j b h
    refine ⟨World.incWeak { w with weak := w.weak ++ [some ⟨some b⟩] } b,
      by simp [WeakPtr.ctor_shared, h], ?_, ?_⟩
    · exact weakBlock_push_new w (some b)
    · exact h
  · intro ops w hrun i j b hi hj hone
    have hinv := run_inv ops World.init w Inv_init hrun
    have hcs : (w.blocks b).count_shared = 1 := by rw [(hinv b).1, hone]
    obtain ⟨w1, hdel, _, hweak, _, _, hcs1, _⟩ := shared_delete_block_spec hj (by omega)
    have hi1 : w1.weakBlock i = some (some b) := by
      unfold World.weakBlock at hi ⊢
      rw [hweak]
      exact hi
    refine ⟨w1, { w1 with shared := w1.shared.set j none }, hdel,
      by simp [SharedPtr.dtor, hdel], ?_, ?_⟩
    · rw [expired_eq hi1]
      simp [hcs1, hcs]
    · have hi2 : World.weakBlock { w1 with shared := w1.shared.set j none } i
          = some (some b) := hi1
      rw [expired_eq hi2]
      simp [hcs1, hcs]
  · intro w
    have h := weakBlock_push_new w none
    have h' : (WeakPtr.ctor_default w).weakBlock w.weak.length = some none := h
    simp [WeakPtr.expired, h']

/-- Witness for C11: the last SharedPtr on the block of a WeakPtr is reset or destroyed. -/
theorem expired_iff_no_live_shared_witness :
    ∃ w1 w2, SharedPtr.reset (stateAfter [.sp_raw 7, .wp_shared 0]) 0 = some w1 ∧
      SharedPtr.dtor (stateAfter [.sp_raw 7, .wp_shared 0]) 0 = some w2 ∧
      WeakPtr.expired w1 0 = some true ∧ WeakPtr.expired w2 0 = some true :=
  expired_iff_no_live_shared.2.2.1 [.sp_raw 7, .wp_shared 0]
    (stateAfter [.sp_raw 7, .wp_shared 0]) rfl 0 0 0 rfl rfl rfl

/-- C12 (the code departs from the claim): after `a(new T); w(a); a.reset()` the WeakPtr
`w` is expired and the strong count of its block is zero, yet `w.lock()` returns a
SharedPtr whose get() is the adopted pointer, not nullptr, and the strong count becomes
one. The same holds in every state for every WeakPtr on a block whose strong count is
zero; only a WeakPtr whose `block_` is null gets a SharedPtr holding no object. -/
theorem lock_on_expired_returns_owner :
    (WeakPtr.expired (stateAfter [.sp_raw 7, .wp_shared 0, .sp_reset 0]) 0 = some true ∧
      ((stateAfter [.sp_raw 7, .wp_shared 0, .sp_reset 0]).blocks 0).count_shared = 0 ∧
      ∃ w', WeakPtr.lock (stateAfter [.sp_raw 7, .wp_shared 0, .sp_reset 0]) 0 = some w' ∧
        SharedPtr.get w' 1 = some (some (.raw 7)) ∧ (w'.blocks 0).count_shared = 1) ∧
    (∀ (w : World) (i b : Nat), w.weakBlock i = some (some b) →
      (w.blocks b).count_shared = 0 →
      WeakPtr.expired w i = some true ∧
      ∃ w', WeakPtr.lock w i = some w' ∧
        SharedPtr.get w' w.shared.length = some (some ((w.blocks b).get_ptr b)) ∧
        (w'.blocks b).count_shared = 1) ∧
    (∀ (w : World) (i : Nat), w.weakBlock i = some none →
      WeakPtr.expired w i = some true ∧
      ∃ w', WeakPtr.lock w i = some w' ∧ SharedPtr.get w' w.shared.length = some none ∧
        w'.blocks = w.blocks) := by
  refine ⟨⟨rfl, rfl, _, rfl, rfl, rfl⟩, ?_, ?_⟩
  · intro w i b h hz
    refine ⟨by rw [expired_eq h]; simp [hz], ?_⟩
    refine ⟨World.incShared { w with shared := w.shared ++ [some ⟨some b⟩] } b,
      by simp [WeakPtr.lock, h, SharedPtr.ctor_block], ?_, ?_⟩
    · have hb : (World.incShared { w with shared := w.shared ++ [some ⟨some b⟩] } b).sharedBlock
          w.shared.length = some (some b) := sharedBlock_push_new w (some b)
      simp only [SharedPtr.get, hb, incShared_blocks, if_true]
      rfl
    · rw [incShared_blocks]
      simp [hz]
  · intro w i h
    refine ⟨by simp [WeakPtr.expired, h], ?_⟩
    refine ⟨{ w with shared := w.shared ++ [some ⟨none⟩] },
      by simp [WeakPtr.lock, h, SharedPtr.ctor_block], ?_, rfl⟩
    have hb : World.sharedBlock { w with shared := w.shared ++ [some ⟨none⟩] }
        w.shared.length = some none := sharedBlock_push_new w none
    simp only [SharedPtr.get, hb]

theorem setWeak_blocks (w : World) (i : Nat) (ob : Option Nat) :
    (w.setWeak i ob).blocks = w.blocks := rfl

theorem incWeak_frame (w : World) (b x : Nat) :
    ((w.incWeak b).blocks x).count_shared = (w.blocks x).count_shared ∧
    ((w.incWeak b).blocks x).deleted = (w.blocks x).deleted := by
  rw [incWeak_blocks]
  by_cases hx : x = b <;> simp [hx]

/-- The member `WeakPtr::delete_block` changes no strong count and invokes no
`delete_object`. -/
theorem weak_delete_block_frame {w w' : World} {i : Nat}
    (h : WeakPtr.delete_block w i = some w') (x : Nat) :
    (w'.blocks x).count_shared = (w.blocks x).count_shared ∧
    (w'.blocks x).deleted = (w.blocks x).deleted := by
  unfold WeakPtr.delete_block at h
  cases hb : w.weakBlock i with
  | none => simp [hb] at h
  | some ob =>
    cases ob with
    | none =>
      simp only [hb, Option.some.injEq] at h
      subst h
      exact ⟨rfl, rfl⟩
    | some b =>
      simp only [hb, Option.some.injEq] at h
      subst h
      rw [setWeak_blocks]
      by_cases hx : x = b
      · subst hx
        split_ifs <;> simp [World.release, World.modify]
      · split_ifs <;> simp [World.release, World.modify, hx]

/-- The operations that construct, assign or destroy a `WeakPtr` change no strong count
and invoke no `delete_object`. -/
theorem weak_op_frame {w w' : World} {op : Op} (hop : op.isWeakPtrOp = true)
    (h : step w op = some w') (x : Nat) :
    (w'.blocks x).count_shared = (w.blocks x).count_shared ∧
    (w'.blocks x).deleted = (w.blocks x).deleted := by
  cases op with
  | wp_default =>
    simp only [step, Option.some.injEq] at h
    subst h
    exact ⟨rfl, rfl⟩
  | wp_shared p =>
    simp only [step, WeakPtr.ctor_shared] at h
    cases hb : w.sharedBlock p with
    | none => simp [hb] at h
    | some ob =>
      cases ob with
      | none =>
        simp only [hb, Option.some.injEq] at h
        subst h
        exact ⟨rfl, rfl⟩
      | some b =>
        simp only [hb, Option.some.injEq] at h
        subst h
        exact incWeak_frame _ b x
  | wp_copy p =>
    simp only [step, WeakPtr.ctor_copy] at h
    cases hb : w.weakBlock p with
    | none => simp [hb] at h
    | some ob =>
      cases ob with
      | none =>
        simp only [hb, Option.some.injEq] at h
        subst h
        exact ⟨rfl, rfl⟩
      | some b =>
        simp only [hb, Option.some.injEq] at h
        subst h
        exact incWeak_frame _ b x
  | wp_move p =>
    simp only [step, WeakPtr.ctor_move] at h
    cases hd : WeakPtr.delete_block { w with weak := w.weak ++ [some ⟨none⟩] } w.weak.length with
    | none => simp [hd] at h
    | some w1 =>
      simp only [hd] at h
      cases hb : w1.weakBlock p with
      | none => simp [hb] at h
      | some ob =>
        simp only [hb, Option.some.injEq] at h
        subst h
        exact weak_delete_block_frame hd x
  | wp_assign_copy s o =>
    simp only [step, WeakPtr.assign_copy] at h
    cases hd : WeakPtr.delete_block w s with
    | none => simp [hd] at h
    | some w1 =>
      simp only [hd] at h
      have hf := weak_delete_block_frame hd x
      cases hb : w1.weakBlock o with
      | none => simp [hb] at h
      | some ob =>
        cases ob with
        | none =>
          simp only [hb, Option.some.injEq] at h
          subst h
          exact hf
        | some b =>
          simp only [hb, Option.some.injEq] at h
          subst h
          have h2 := incWeak_frame (w1.setWeak s (some b)) b x
          rw [setWeak_blocks] at h2
          exact ⟨h2.1.trans hf.1, h2.2.trans hf.2⟩
  | wp_assign_move s o =>
    simp only [step, WeakPtr.assign_move] at h
    cases hd : WeakPtr.delete_block w s with
    | none => simp [hd] at h
    | some w1 =>
      simp only [hd] at h
      cases hb : w1.weakBlock o with
      | none => simp [hb] at h
      | some ob =>
        simp only [hb, Option.some.injEq] at h
        subst h
        exact weak_delete_block_frame hd x
  | wp_dtor s =>
    simp only [step, WeakPtr.dtor] at h
    cases hd : WeakPtr.delete_block w s with
    | none => simp [hd] at h
    | some w1 =>
      simp only [hd, Option.some.injEq] at h
      subst h
      exact weak_delete_block_frame hd x
  | _ => simp [Op.isWeakPtrOp] at hop

/-- The member `WeakPtr::delete_block` returns on every live object, nulls it and leaves
every other `WeakPtr` as it was. -/
theorem weak_delete_block_total {w : World} {i : Nat} {ob : Option Nat}
    (h : w.weakBlock i = some ob) :
    ∃ w1, WeakPtr.delete_block w i = some w1 ∧
      ∀ j, w1.weakBlock j = if j = i then some none else w.weakBlock j := by
  unfold WeakPtr.delete_block
  cases ob with
  | none =>
    refine ⟨w, by simp [h], ?_⟩
    intro j
    by_cases hj : j = i
    · rw [if_pos hj, hj, h]
    · rw [if_neg hj]
  | some b =>
    simp only [h, Option.some.injEq, exists_eq_left']
    intro j
    split_ifs with h1 h2 h3
    · rw [h2]
      exact (weakBlock_setWeak (weakBlock_lt h) none i).trans (by simp)
    · exact (weakBlock_setWeak (weakBlock_lt h) none j).trans (by simp [h2])
    · rw [h3]
      exact (weakBlock_setWeak (weakBlock_lt h) none i).trans (by simp)
    · exact (weakBlock_setWeak (weakBlock_lt h) none j).trans (by simp [h3])

/-- The operations that construct, assign or destroy a `WeakPtr` return when the objects
they name are alive. -/
theorem weak_op_total (w : World) :
    (∀ p ob, w.sharedBlock p = some ob → ∃ w', step w (.wp_shared p) = some w') ∧
    (∀ p ob, w.weakBlock p = some ob → ∃ w', step w (.wp_copy p) = some w') ∧
    (∀ p ob, w.weakBlock p = some ob → ∃ w', step w (.wp_move p) = some w') ∧
    (∀ s o sb ob, w.weakBlock s = some sb → w.weakBlock o = some ob →
      ∃ w', step w (.wp_assign_copy s o) = some w') ∧
    (∀ s o sb ob, w.weakBlock s = some sb → w.weakBlock o = some ob →
      ∃ w', step w (.wp_assign_move s o) = some w') ∧
    (∀ s sb, w.weakBlock s = some sb → ∃ w', step w (.wp_dtor s) = some w') := by
  refine ⟨?_, ?_, ?_, ?_, ?_, ?_⟩
  · intro p ob h
    cases ob <;> simp [step, WeakPtr.ctor_shared, h]
  · intro p ob h
    cases ob <;> simp [step, WeakPtr.ctor_copy, h]
  · intro p ob h
    have hnew := weakBlock_push_new w none
    obtain ⟨w1, hd, hw1⟩ := weak_delete_block_total hnew
    have hp : w1.weakBlock p = some ob := by
      rw [hw1 p]
      have hlt := weakBlock_lt h
      rw [if_neg (by omega)]
      unfold World.weakBlock at h ⊢
      show (match (w.weak ++ [some ⟨none⟩])[p]? with
        | some (some s) => some s.block_
        | _ => none) = some ob
      rw [List.getElem?_append_left hlt]
      exact h
    simp [step, WeakPtr.ctor_move, hd, hp]
  · intro s o sb ob hs ho
    obtain ⟨w1, hd, hw1⟩ := weak_delete_block_total hs
    have ho1 := hw1 o
    by_cases hos : o = s
    · rw [if_pos hos] at ho1
      simp [step, WeakPtr.assign_copy, hd, ho1]
    · rw [if_neg hos, ho] at ho1
      cases ob <;> simp [step, WeakPtr.assign_copy, hd, ho1]
  · intro s o sb ob hs ho
    obtain ⟨w1, hd, hw1⟩ := weak_delete_block_total hs
    have ho1 := hw1 o
    by_cases hos : o = s
    · rw [if_pos hos] at ho1
      simp [step, WeakPtr.assign_move, hd, ho1]
    · rw [if_neg hos, ho] at ho1
      simp [step, WeakPtr.assign_move, hd, ho1]
  · intro s sb hs
    obtain ⟨w1, hd, _⟩ := weak_delete_block_total hs
    simp [step, WeakPtr.dtor, hd]

/-- C13: constructing a WeakPtr from a SharedPtr or from a WeakPtr (copy or move), copy-
or move-assigning a WeakPtr and destroying a WeakPtr return whenever the objects they
name are alive, change the strong count of no block and invoke delete_object on no block.
The construction from a SharedPtr and the copy construction from a WeakPtr on block `b`
raise the weak count of `b` by exactly one and release nothing. In every state a sequence
of operations leads to, destroying a WeakPtr on `b` lowers the weak count of `b` by
exactly one, and releases `b` exactly when the strong count is zero and the weak count
has reached zero. -/
theorem weak_ops_leave_object_lifetime :
    (∀ (w w' : World) (op : Op), op.isWeakPtrOp = true → step w op = some w' →
      ∀ b, (w'.blocks b).count_shared = (w.blocks b).count_shared ∧
        (w'.blocks b).deleted = (w.blocks b).deleted) ∧
    (∀ w : World,
      (∀ p ob, w.sharedBlock p = some ob → ∃ w', step w (.wp_shared p) = some w') ∧
      (∀ p ob, w.weakBlock p = some ob → ∃ w', step w (.wp_copy p) = some w') ∧
      (∀ p ob, w.weakBlock p = some ob → ∃ w', step w (.wp_move p) = some w') ∧
      (∀ s o sb ob, w.weakBlock s = some sb → w.weakBlock o = some ob →
        ∃ w', step w (.wp_assign_copy s o) = some w') ∧
      (∀ s o sb ob, w.weakBlock s = some sb → w.weakBlock o = some ob →
        ∃ w', step w (.wp_assign_move s o) = some w') ∧
      (∀ s sb, w.weakBlock s = some sb → ∃ w', step w (.wp_dtor s) = some w')) ∧
    (∀ (w : World) (p b : Nat), w.sharedBlock p = some (some b) →
      ∃ w', WeakPtr.ctor_shared w p = some w' ∧
        w'.weakBlock w.weak.length = some (some b) ∧
        (w'.blocks b).count_weak = (w.blocks b).count_weak + 1 ∧
        (w'.blocks b).released = (w.blocks b).released ∧
        ∀ x, x ≠ b → w'.blocks x = w.blocks x) ∧
    (∀ (w : World) (p b : Nat), w.weakBlock p = some (some b) →
      ∃ w', WeakPtr.ctor_copy w p = some w' ∧
        w'.weakBlock w.weak.length = some (some b) ∧
        (w'.blocks b).count_weak = (w.blocks b).count_weak + 1 ∧
        (w'.blocks b).released = (w.blocks b).released ∧
        ∀ x, x ≠ b → w'.blocks x = w.blocks x) ∧
    (∀ (ops : List Op) (w : World), run World.init ops = some w →
      ∀ i b, w.weakBlock i = some (some b) →
        ∃ w', WeakPtr.dtor w i = some w' ∧ 1 ≤ (w.blocks b).count_weak ∧
          (w'.blocks b).count_weak = (w.blocks b).count_weak - 1 ∧
          (w'.blocks b).released = (w.blocks b).released +
            (if (w'.blocks b).count_shared = 0 ∧ (w'.blocks b).count_weak = 0 then 1
             else 0) ∧
          ∀ x, x ≠ b → w'.blocks x = w.blocks x) := by
  refine ⟨?_, weak_op_total, ?_, ?_, ?_⟩
  · intro w w' op hop h b
    exact weak_op_frame hop h b
  · intro w p b h
    refine ⟨World.incWeak { w with weak := w.weak ++ [some ⟨some b⟩] } b,
      by simp [WeakPtr.ctor_shared, h], weakBlock_push_new w (some b), ?_, ?_, ?_⟩
    · rw [incWeak_blocks]; simp
    · rw [incWeak_blocks]; simp
    · intro x hx
      rw [incWeak_blocks]; simp [hx]
  · intro w p b h
    refine ⟨World.incWeak { w with weak := w.weak ++ [some ⟨some b⟩] } b,
      by simp [WeakPtr.ctor_copy, h], weakBlock_push_new w (some b), ?_, ?_, ?_⟩
    · rw [incWeak_blocks]; simp
    · rw [incWeak_blocks]; simp
    · intro x hx
      rw [incWeak_blocks]; simp [hx]
  · intro ops w hrun i b h
    have hinv := run_inv ops World.init w Inv_init hrun
    have hpos : 0 < (w.blocks b).count_weak := by
      rw [(hinv b).2.1]
      exact weakOn_pos h
    obtain ⟨w1, hd, _, _, _, hoth, hcs, hcw, _, _, hrel⟩ := weak_delete_block_spec h hpos
    refine ⟨{ w1 with weak := w1.weak.set i none }, by simp [WeakPtr.dtor, hd], hpos, hcw, ?_,
      hoth⟩
    show (w1.blocks b).released = (w.blocks b).released +
      (if (w1.blocks b).count_shared = 0 ∧ (w1.blocks b).count_weak = 0 then 1 else 0)
    rw [hrel, hcs, hcw]
    by_cases hc : (w.blocks b).count_shared = 0 ∧ (w.blocks b).count_weak = 1
    · rw [if_pos hc, if_pos ⟨hc.1, by omega⟩]
    · rw [if_neg hc, if_neg (fun h2 => hc ⟨h2.1, by omega⟩)]

/-- Witness for C13: the only WeakPtr of an expired block is destroyed, which releases
the block. -/
theorem weak_ops_leave_object_lifetime_witness :
    ∃ w', WeakPtr.dtor (stateAfter [.sp_raw 7, .wp_shared 0, .sp_reset 0]) 0 = some w' ∧
      1 ≤ ((stateAfter [.sp_raw 7, .wp_shared 0, .sp_reset 0]).blocks 0).count_weak ∧
      (w'.blocks 0).count_weak
        = ((stateAfter [.sp_raw 7, .wp_shared 0, .sp_reset 0]).blocks 0).count_weak - 1 ∧
      (w'.blocks 0).released
        = ((stateAfter [.sp_raw 7, .wp_shared 0, .sp_reset 0]).blocks 0).released +
          (if (w'.blocks 0).count_shared = 0 ∧ (w'.blocks 0).count_weak = 0 then 1 else 0) ∧
      ∀ x, x ≠ 0 → w'.blocks x = (stateAfter [.sp_raw 7, .wp_shared 0, .sp_reset 0]).blocks x :=
  weak_ops_leave_object_lifetime.2.2.2.2 [.sp_raw 7, .wp_shared 0, .sp_reset 0]
    (stateAfter [.sp_raw 7, .wp_shared 0, .sp_reset 0]) rfl 0 0 rfl

end SmartPointersH
namespace StackAllocatorH

/-! ## stackallocator.h : the region allocator -/

theorem alignUp_dvd (a p : Nat) : a ∣ alignUp a p := Nat.dvd_mul_left _ _

theorem alignUp_ge {a : Nat} (ha : 0 < a) (p : Nat) : p ≤ alignUp a p := by
  unfold alignUp
  have h1 := Nat.div_add_mod (p + a - 1) a
  have h2 := Nat.mod_lt (p + a - 1) ha
  have h3 : (p + a - 1) / a * a = a * ((p + a - 1) / a) := Nat.mul_comm _ _
  omega

theorem alignUp_lt {a : Nat} (ha : 0 < a) (p : Nat) : alignUp a p < p + a := by
  unfold alignUp
  have h1 := Nat.div_add_mod (p + a - 1) a
  have h3 : (p + a - 1) / a * a = a * ((p + a - 1) / a) := Nat.mul_comm _ _
  omega

theorem alignUp_least {a : Nat} (ha : 0 < a) (p q : Nat) (hq : p ≤ q) (hd : a ∣ q) :
    alignUp a p ≤ q := by
  obtain ⟨k, rfl⟩ := hd
  unfold alignUp
  have h1 : (p + a - 1) / a ≤ k := by
    rw [Nat.div_le_iff_le_mul_add_pred ha]
    have : a * k = k * a := Nat.mul_comm _ _
    omega
  calc (p + a - 1) / a * a ≤ k * a := Nat.mul_le_mul_right _ h1
    _ = a * k := Nat.mul_comm _ _

/-- The member `allocate` on a storage whose cursor is within the buffer: the request is
granted at the next aligned address exactly when the padding and the `size_t` product
`n * sizeof(T)` fit into the rest of the buffer. -/
theorem allocate_eq {N : Nat} (hN : N < 2 ^ 64) (s : StackStorage) (hs : s.shift_ ≤ N)
    {alignT : Nat} (ha : 0 < alignT) (sizeT n : Nat) :
    s.allocate N alignT sizeT n =
      if s.padding alignT + n * sizeT % 2 ^ 64 ≤ N - s.shift_ then
        .returned (alignUp alignT (s.data_ + s.shift_))
          { s with shift_ := s.shift_ + s.padding alignT + n * sizeT % 2 ^ 64 }
      else .bad_alloc s := by
  have hleft : (N + 2 ^ 64 - s.shift_ % 2 ^ 64) % 2 ^ 64 = N - s.shift_ := by
    have h1 : s.shift_ % 2 ^ 64 = s.shift_ := Nat.mod_eq_of_lt (by omega)
    rw [h1]
    have h2 : N + 2 ^ 64 - s.shift_ = (N - s.shift_) + 2 ^ 64 := by omega
    rw [h2, Nat.add_mod_right]
    exact Nat.mod_eq_of_lt (by omega)
  have hge := alignUp_ge ha (s.data_ + s.shift_)
  unfold StackStorage.allocate std_align
  simp only [hleft]
  unfold StackStorage.padding
  by_cases hfit : alignUp alignT (s.data_ + s.shift_) - (s.data_ + s.shift_)
      + n * sizeT % 2 ^ 64 ≤ N - s.shift_
  · rw [if_pos hfit, if_pos hfit]
    have h3 : (alignUp alignT (s.data_ + s.shift_) - s.data_ + n * sizeT % 2 ^ 64) % 2 ^ 64
        = s.shift_ + (alignUp alignT (s.data_ + s.shift_) - (s.data_ + s.shift_))
          + n * sizeT % 2 ^ 64 := by
      have h4 : alignUp alignT (s.data_ + s.shift_) - s.data_ + n * sizeT % 2 ^ 64
          = s.shift_ + (alignUp alignT (s.data_ + s.shift_) - (s.data_ + s.shift_))
            + n * sizeT % 2 ^ 64 := by omega
      rw [h4]
      exact Nat.mod_eq_of_lt (by omega)
    simp only [h3]
  · rw [if_neg hfit, if_neg hfit]

/-- One call on a storage whose cursor is within the buffer: the array stays where it
is, the cursor does not decrease and stays within the buffer, and an allocation made
begins at or after the old cursor and ends at the new one. -/
theorem call_spec {N : Nat} (hN : N < 2 ^ 64) (s : StackStorage) (hs : s.shift_ ≤ N)
    (c : Call) (hc : ∀ a sz n, c = .allocate a sz n → 0 < a) :
    (s.call N c).1.data_ = s.data_ ∧ s.shift_ ≤ (s.call N c).1.shift_ ∧
    (s.call N c).1.shift_ ≤ N ∧
    ∀ g, (s.call N c).2 = some g →
      s.data_ + s.shift_ ≤ g.p ∧
      g.p + g.n * g.sizeT % 2 ^ 64 = s.data_ + (s.call N c).1.shift_ := by
  cases c with
  | deallocate p n =>
    refine ⟨rfl, Nat.le_refl _, hs, ?_⟩
    intro g hg
    simp [StackStorage.call] at hg
  | allocate a sz n =>
    have ha := hc a sz n rfl
    have hge := alignUp_ge ha (s.data_ + s.shift_)
    simp only [StackStorage.call, allocate_eq hN s hs ha]
    unfold StackStorage.padding
    by_cases hfit : alignUp a (s.data_ + s.shift_) - (s.data_ + s.shift_) + n * sz % 2 ^ 64
        ≤ N - s.shift_
    · simp only [if_pos hfit]
      refine ⟨trivial, ?_, ?_, ?_⟩
      · show s.shift_ ≤ s.shift_ + _ + _
        omega
      · show s.shift_ + _ + _ ≤ N
        omega
      · intro g hg
        simp only [Option.some.injEq] at hg
        subst hg
        show s.data_ + s.shift_ ≤ alignUp a (s.data_ + s.shift_) ∧
          alignUp a (s.data_ + s.shift_) + n * sz % 2 ^ 64
            = s.data_ + (s.shift_ + (alignUp a (s.data_ + s.shift_) - (s.data_ + s.shift_))
              + n * sz % 2 ^ 64)
        omega
    · simp only [if_neg hfit]
      refine ⟨trivial, Nat.le_refl _, hs, ?_⟩
      intro g hg
      simp at hg

/-- A sequence of calls on a storage whose cursor is within the buffer. -/
theorem runCalls_spec {N : Nat} (hN : N < 2 ^ 64) :
    ∀ (calls : List Call) (s : StackStorage), s.shift_ ≤ N →
      (∀ c ∈ calls, ∀ a sz n, c = .allocate a sz n → 0 < a) →
      List.Chain (fun s1 s2 : StackStorage => s1.shift_ ≤ s2.shift_) s (s.runCalls N calls).1 ∧
      (∀ s1 ∈ (s.runCalls N calls).1, s1.shift_ ≤ N ∧ s1.data_ = s.data_) ∧
      (∀ g ∈ (s.runCalls N calls).2,
        s.data_ + s.shift_ ≤ g.p ∧ g.p + g.n * g.sizeT % 2 ^ 64 ≤ s.data_ + N) ∧
      (s.runCalls N calls).2.Pairwise
        (fun g1 g2 => g1.p + g1.n * g1.sizeT % 2 ^ 64 ≤ g2.p) := by
  intro calls
  induction calls with
  | nil =>
    intro s _ _
    simp [StackStorage.runCalls]
  | cons c cs ih =>
    intro s hs hc
    obtain ⟨hd, hmono, hle, hg⟩ := call_spec hN s hs c (hc c (List.mem_cons_self _ _))
    obtain ⟨ih1, ih2, ih3, ih4⟩ := ih (s.call N c).1 hle
      (fun c' hc' => hc c' (List.mem_cons_of_mem _ hc'))
    have hrest : ∀ g ∈ ((s.call N c).1.runCalls N cs).2,
        s.data_ + (s.call N c).1.shift_ ≤ g.p ∧
        g.p + g.n * g.sizeT % 2 ^ 64 ≤ s.data_ + N := by
      intro g hgm
      have := ih3 g hgm
      rw [hd] at this
      exact this
    refine ⟨?_, ?_, ?_, ?_⟩
    · exact List.Chain.cons hmono ih1
    · intro s1 hs1
      have hs1' : s1 = (s.call N c).1 ∨ s1 ∈ ((s.call N c).1.runCalls N cs).1 := by
        simpa [StackStorage.runCalls] using hs1
      rcases hs1' with rfl | hs1'
      · exact ⟨hle, hd⟩
      · have := ih2 s1 hs1'
        exact ⟨this.1, this.2.trans hd⟩
    · intro g hgm
      cases hcall : (s.call N c).2 with
      | none =>
        have hgm' : g ∈ ((s.call N c).1.runCalls N cs).2 := by
          simpa [StackStorage.runCalls, hcall] using hgm
        have := hrest g hgm'
        exact ⟨by omega, this.2⟩
      | some g0 =>
        have hgm' : g = g0 ∨ g ∈ ((s.call N c).1.runCalls N cs).2 := by
          simpa [StackStorage.runCalls, hcall] using hgm
        rcases hgm' with rfl | hgm'
        · have := hg g hcall
          exact ⟨this.1, by omega⟩
        · have := hrest g hgm'
          exact ⟨by omega, this.2⟩
    · cases hcall : (s.call N c).2 with
      | none =>
        have : (s.runCalls N (c :: cs)).2 = ((s.call N c).1.runCalls N cs).2 := by
          simp [StackStorage.runCalls, hcall]
        rw [this]
        exact ih4
      | some g0 =>
        have : (s.runCalls N (c :: cs)).2 = g0 :: ((s.call N c).1.runCalls N cs).2 := by
          simp [StackStorage.runCalls, hcall]
        rw [this, List.pairwise_cons]
        refine ⟨?_, ih4⟩
        intro g hgm
        have h1 := hg g0 hcall
        have h2 := hrest g hgm
        omega

/-- Counterexample for C14: on a fresh `StackStorage<64>` at address 0 the call
`allocate<T>(2^61)` with `alignof(T) = sizeof(T) = 8` succeeds, the product
`n * sizeof(T) = 2^64` having wrapped to 0, and leaves the cursor at 0, which is not
`(returned address - data_) + n * sizeof(T)`. -/
theorem allocate_cursor_overflow :
    ∃ p s', (StackStorage.mk0 0).allocate 64 8 8 (2 ^ 61) = .returned p s' ∧
      s'.shift_ ≠ (p - (StackStorage.mk0 0).data_) + 2 ^ 61 * 8 :=
  ⟨0, ⟨0, 0⟩, by decide, by decide⟩

/-- C14, amended: for every cursor value within the buffer and every `n`, a successful
`StackStorage<N>::allocate<T>(n)` returns the lowest address not below `data_ + cursor`
that is a multiple of `alignof(T)`, and sets the cursor to (returned address - `data_`)
plus the `size_t` product `n * sizeof(T)`; this is (returned address - `data_`) +
`n * sizeof(T)` whenever `n * sizeof(T)` does not overflow `size_t`. -/
theorem allocate_returns_next_aligned (N : Nat) (hN : N < 2 ^ 64) (s : StackStorage)
    (hs : s.shift_ ≤ N) (alignT sizeT n : Nat) (ha : 0 < alignT) (p : Nat)
    (s' : StackStorage) (h : s.allocate N alignT sizeT n = .returned p s') :
    (alignT ∣ p ∧ s.data_ + s.shift_ ≤ p ∧
      ∀ q, s.data_ + s.shift_ ≤ q → alignT ∣ q → p ≤ q) ∧
    s'.data_ = s.data_ ∧
    s'.shift_ = (p - s.data_) + n * sizeT % 2 ^ 64 ∧
    (n * sizeT < 2 ^ 64 → s'.shift_ = (p - s.data_) + n * sizeT) := by
  rw [allocate_eq hN s hs ha] at h
  have hge := alignUp_ge ha (s.data_ + s.shift_)
  split_ifs at h with hfit
  simp only [Allocated.returned.injEq] at h
  obtain ⟨hp, hs'⟩ := h
  subst hp
  subst hs'
  have hshift : s.shift_ + s.padding alignT + n * sizeT % 2 ^ 64
      = alignUp alignT (s.data_ + s.shift_) - s.data_ + n * sizeT % 2 ^ 64 := by
    unfold StackStorage.padding
    omega
  refine ⟨⟨alignUp_dvd _ _, hge, fun q hq hd => alignUp_least ha _ q hq hd⟩, rfl, hshift, ?_⟩
  intro hn
  show s.shift_ + s.padding alignT + n * sizeT % 2 ^ 64 = _
  rw [hshift, Nat.mod_eq_of_lt hn]

/-- Witness for C14: five 4-byte objects aligned by 8 from a `StackStorage<64>` at
address 3 are granted at address 8, the cursor becoming 25. -/
theorem allocate_returns_next_aligned_witness :
    (64 < 2 ^ 64 ∧ (StackStorage.mk0 3).shift_ ≤ 64 ∧ 0 < 8 ∧
      (StackStorage.mk0 3).allocate 64 8 4 5 = .returned 8 ⟨3, 25⟩) ∧
    ((8 ∣ 8 ∧ (StackStorage.mk0 3).data_ + (StackStorage.mk0 3).shift_ ≤ 8 ∧
      ∀ q, (StackStorage.mk0 3).data_ + (StackStorage.mk0 3).shift_ ≤ q → 8 ∣ q → 8 ≤ q) ∧
    (⟨3, 25⟩ : StackStorage).data_ = (StackStorage.mk0 3).data_ ∧
    (⟨3, 25⟩ : StackStorage).shift_ = (8 - (StackStorage.mk0 3).data_) + 5 * 4 % 2 ^ 64 ∧
    (5 * 4 < 2 ^ 64 →
      (⟨3, 25⟩ : StackStorage).shift_ = (8 - (StackStorage.mk0 3).data_) + 5 * 4)) :=
  ⟨⟨by decide, by decide, by decide, by decide⟩,
    allocate_returns_next_aligned 64 (by decide) (StackStorage.mk0 3) (by decide) 8 4 5
      (by decide) 8 ⟨3, 25⟩ (by decide)⟩

/-- C15: for every cursor value within the buffer and every `n` with `n * sizeof(T)` not
overflowing `size_t`, `StackStorage<N>::allocate<T>(n)` throws `std::bad_alloc` exactly
when padding + `n * sizeof(T)` exceeds `N - cursor`, the padding being the number of
bytes from `data_ + cursor` to the next address aligned by `alignof(T)`; when it throws
the storage, the cursor included, is as before, and otherwise it returns a pointer. -/
theorem allocate_throws_iff_no_room (N : Nat) (hN : N < 2 ^ 64) (s : StackStorage)
    (hs : s.shift_ ≤ N) (alignT sizeT n : Nat) (ha : 0 < alignT)
    (hn : n * sizeT < 2 ^ 64) :
    (alignT ∣ s.data_ + s.shift_ + s.padding alignT ∧
      ∀ q, s.data_ + s.shift_ ≤ q → alignT ∣ q → s.data_ + s.shift_ + s.padding alignT ≤ q) ∧
    ((∃ s', s.allocate N alignT sizeT n = .bad_alloc s') ↔
      s.padding alignT + n * sizeT > N - s.shift_) ∧
    (∀ s', s.allocate N alignT sizeT n = .bad_alloc s' → s' = s) ∧
    (¬ (s.padding alignT + n * sizeT > N - s.shift_) →
      ∃ p s', s.allocate N alignT sizeT n = .returned p s') := by
  have hge := alignUp_ge ha (s.data_ + s.shift_)
  have hpad : s.data_ + s.shift_ + s.padding alignT = alignUp alignT (s.data_ + s.shift_) := by
    unfold StackStorage.padding
    omega
  rw [allocate_eq hN s hs ha, Nat.mod_eq_of_lt hn]
  refine ⟨⟨?_, ?_⟩, ?_, ?_, ?_⟩
  · rw [hpad]
    exact alignUp_dvd _ _
  · intro q hq hd
    rw [hpad]
    exact alignUp_least ha _ q hq hd
  · constructor
    · rintro ⟨s', h⟩
      split_ifs at h with hfit
      omega
    · intro hgt
      rw [if_neg (by omega)]
      exact ⟨s, rfl⟩
  · intro s' h
    split_ifs at h with hfit
    simp only [Allocated.bad_alloc.injEq] at h
    exact h.symm
  · intro hle
    rw [if_pos (by omega)]
    exact ⟨_, _, rfl⟩

/-- Witness for C15: with 40 of 64 bytes used, three 8-byte objects fit and four do
not. -/
theorem allocate_throws_iff_no_room_witness :
    (64 < 2 ^ 64 ∧ (⟨0, 40⟩ : StackStorage).shift_ ≤ 64 ∧ 0 < 8 ∧ 4 * 8 < 2 ^ 64) ∧
    ((∃ s', (⟨0, 40⟩ : StackStorage).allocate 64 8 8 4 = .bad_alloc s') ↔
      (⟨0, 40⟩ : StackStorage).padding 8 + 4 * 8 > 64 - (⟨0, 40⟩ : StackStorage).shift_) ∧
    (⟨0, 40⟩ : StackStorage).allocate 64 8 8 4 = .bad_alloc ⟨0, 40⟩ ∧
    (⟨0, 40⟩ : StackStorage).allocate 64 8 8 3 = .returned 40 ⟨0, 64⟩ :=
  ⟨⟨by decide, by decide, by decide, by decide⟩,
    (allocate_throws_iff_no_room 64 (by decide) ⟨0, 40⟩ (by decide) 8 8 4 (by decide)
      (by decide)).2.1, by decide, by decide⟩

/-- Counterexample for C16: on a fresh `StackStorage<64>` at address 0 two calls
`allocate<T>(2^61)` with `alignof(T) = sizeof(T) = 8` both succeed and both return
address 0; the two byte ranges `[0, 2^61 * 8)` share byte 0 and hold byte 64, which is
outside the 64-byte buffer. -/
theorem overflowing_grants_overlap :
    ∃ g1 g2 : Grant,
      ((StackStorage.mk0 0).runCalls 64 [.allocate 8 8 (2 ^ 61), .allocate 8 8 (2 ^ 61)]).2
        = [g1, g2] ∧
      g1.covers 0 ∧ g2.covers 0 ∧ g1.covers 64 ∧ ¬ (0 ≤ 64 ∧ 64 < 0 + 64) :=
  ⟨⟨0, 2 ^ 61, 8⟩, ⟨0, 2 ^ 61, 8⟩, by decide, ⟨by decide, by decide⟩,
    ⟨by decide, by decide⟩, ⟨by decide, by decide⟩, by decide⟩

/-- C16, amended: across any sequence of allocate and deallocate calls through allocators
backed by one `StackStorage<N>`, the cursor never decreases and never exceeds `N`,
deallocate changes nothing, and the byte ranges `[p, p + n * sizeof(T))` of the
successful allocations whose `n * sizeof(T)` does not overflow `size_t` are pairwise
disjoint and contained in the `N`-byte buffer. -/
theorem cursor_grows_and_grants_are_disjoint (N : Nat) (hN : N < 2 ^ 64) (data : Nat)
    (calls : List Call) (hc : ∀ c ∈ calls, ∀ a sz n, c = .allocate a sz n → 0 < a) :
    List.Chain (fun s1 s2 : StackStorage => s1.shift_ ≤ s2.shift_) (StackStorage.mk0 data)
      ((StackStorage.mk0 data).runCalls N calls).1 ∧
    (∀ s ∈ ((StackStorage.mk0 data).runCalls N calls).1, s.shift_ ≤ N ∧ s.data_ = data) ∧
    (∀ (s : StackStorage) (p n : Nat), s.call N (.deallocate p n) = (s, none)) ∧
    ((StackStorage.mk0 data).runCalls N calls).2.Pairwise
      (fun g1 g2 => g1.n * g1.sizeT < 2 ^ 64 → g2.n * g2.sizeT < 2 ^ 64 →
        ∀ x, ¬ (g1.covers x ∧ g2.covers x)) ∧
    (∀ g ∈ ((StackStorage.mk0 data).runCalls N calls).2, g.n * g.sizeT < 2 ^ 64 →
      ∀ x, g.covers x → data ≤ x ∧ x < data + N) := by
  have h0 : (StackStorage.mk0 data).shift_ ≤ N := Nat.zero_le _
  obtain ⟨h1, h2, h3, h4⟩ := runCalls_spec hN calls (StackStorage.mk0 data) h0 hc
  refine ⟨h1, h2, fun _ _ _ => rfl, ?_, ?_⟩
  · refine h4.imp ?_
    intro g1 g2 hle hn1 _ x hx
    obtain ⟨⟨_, hx1⟩, ⟨hx2, _⟩⟩ := hx
    rw [Nat.mod_eq_of_lt hn1] at hle
    omega
  · intro g hg hn x hx
    obtain ⟨hx1, hx2⟩ := hx
    have := h3 g hg
    rw [Nat.mod_eq_of_lt hn] at this
    have hd : (StackStorage.mk0 data).data_ = data := rfl
    have hsh : (StackStorage.mk0 data).shift_ = 0 := rfl
    rw [hd, hsh] at this
    omega

/-- Witness for C16: three allocations and a deallocate on a `StackStorage<64>` at
address 3. -/
theorem cursor_grows_and_grants_are_disjoint_witness :
    (64 < 2 ^ 64 ∧
      ((StackStorage.mk0 3).runCalls 64
        [.allocate 8 4 5, .deallocate 8 5, .allocate 1 1 7, .allocate 16 16 2]).1
        = [⟨3, 25⟩, ⟨3, 25⟩, ⟨3, 32⟩, ⟨3, 32⟩] ∧
      ((StackStorage.mk0 3).runCalls 64
        [.allocate 8 4 5, .deallocate 8 5, .allocate 1 1 7, .allocate 16 16 2]).2
        = [⟨8, 5, 4⟩, ⟨28, 7, 1⟩]) ∧
    ((StackStorage.mk0 3).runCalls 64
        [.allocate 8 4 5, .deallocate 8 5, .allocate 1 1 7, .allocate 16 16 2]).2.Pairwise
      (fun g1 g2 => g1.n * g1.sizeT < 2 ^ 64 → g2.n * g2.sizeT < 2 ^ 64 →
        ∀ x, ¬ (g1.covers x ∧ g2.covers x)) :=
  ⟨⟨by decide, by decide, by decide⟩,
    (cursor_grows_and_grants_are_disjoint 64 (by decide) 3
      [.allocate 8 4 5, .deallocate 8 5, .allocate 1 1 7, .allocate 16 16 2]
      (by
        intro c hc a sz n hcn
        subst hcn
        simp only [List.mem_cons, Call.allocate.injEq, List.mem_singleton, reduceCtorEq,
          false_or, or_false, List.not_mem_nil] at hc
        rcases hc with h | h | h <;> omega)).2.2.2.1⟩

end StackAllocatorH
namespace ListH

/-! ## stackallocator.h : positions, frames and `clear` -/

section
variable {T : Type}

/-- A list object whose ring reads the same in another memory is well formed there. -/
theorem ListRepr_of_readers {l l2 : LinkedList T} {nodes : List (Nat × T)}
    (h : ListRepr l nodes) (he : l2.end_ = l.end_) (hs : l2.size_ = l.size_)
    (hb : l.node_allocator_ ≤ l2.node_allocator_)
    (hr : ∀ x ∈ l.end_ :: addrs nodes, nextOf l2.heap x = nextOf l.heap x ∧
      prevOf l2.heap x = prevOf l.heap x ∧ valueOf l2.heap x = valueOf l.heap x) :
    ListRepr l2 nodes := by
  obtain ⟨hnx, hpv, hnd, hebump, hbump, hve, hvals, hsz⟩ := h
  rw [← he] at hnx hpv hnd hebump hve hr
  refine ⟨?_, ?_, hnd, by omega, ?_, ?_, ?_, by rw [hs]; exact hsz⟩
  · exact Chain_congr (fun x hx => (hr x hx).1) hnx
  · refine Chain_congr (fun x hx => (hr x ?_).2.1) hpv
    rw [List.mem_cons] at hx ⊢
    rcases hx with hx | hx
    · exact Or.inl hx
    · exact Or.inr (List.mem_reverse.1 hx)
  · intro a ha
    have := hbump a ha
    omega
  · rw [(hr l2.end_ (List.mem_cons_self _ _)).2.2]
    exact hve
  · intro x hx
    have hm : x.1 ∈ l2.end_ :: addrs nodes :=
      List.mem_cons_of_mem _ (List.mem_map_of_mem _ hx)
    rw [(hr x.1 hm).2.2]
    exact hvals x hx

/-- The nodes that `emplace` reads and writes are the new node and nodes of the ring. -/
theorem list_emplace_frame {l : LinkedList T} {xs ys : List (Nat × T)}
    (h : ListRepr l (xs ++ ys)) (v : T) :
    ∀ l', l.emplace ((addrs ys).headD l.end_) v = some l' →
      ∀ x, x ∉ l.end_ :: addrs (xs ++ ys) → x ≠ l.node_allocator_ →
        nextOf l'.heap x = nextOf l.heap x ∧ prevOf l'.heap x = prevOf l.heap x ∧
        valueOf l'.heap x = valueOf l.heap x := by
  intro l' hl'
  have hlink := ListRepr_link h
  obtain ⟨cp, hcp⟩ := alloc_of_link (Or.inr hlink.2)
  obtain ⟨cq, hcq⟩ := alloc_of_link (Or.inl hlink.1)
  have hprev : cp.previous = (addrs xs).getLastD l.end_ := by
    have := hlink.2
    unfold prevOf at this
    rw [hcp] at this
    simpa using this
  have hpm : (addrs ys).headD l.end_ ∈ l.end_ :: addrs (xs ++ ys) := by
    have := headD_mem_cons (addrs ys) l.end_
    rw [addrs_append]
    rw [List.mem_cons] at this ⊢
    rcases this with h1 | h1
    · exact Or.inl h1
    · exact Or.inr (List.mem_append_right _ h1)
  have hqm : (addrs xs).getLastD l.end_ ∈ l.end_ :: addrs (xs ++ ys) := by
    have := getLastD_mem_cons (addrs xs) l.end_
    rw [addrs_append]
    rw [List.mem_cons] at this ⊢
    rcases this with h1 | h1
    · exact Or.inl h1
    · exact Or.inr (List.mem_append_left _ h1)
  have hlt : ∀ a ∈ l.end_ :: addrs (xs ++ ys), a < l.node_allocator_ := by
    intro a ha
    rw [List.mem_cons] at ha
    rcases ha with ha | ha
    · rw [ha]; exact h.2.2.2.1
    · exact h.2.2.2.2.1 a ha
  obtain ⟨l1, hem, _, _, _, hn, hp, hv⟩ := emplace_heap l _ _ v cp cq hcp hprev hcq
    (Nat.ne_of_lt (hlt _ hpm)) (Nat.ne_of_lt (hlt _ hqm))
  rw [hem] at hl'
  have hl1 : l1 = l' := Option.some.inj hl'
  subst hl1
  intro x hx hxa
  have hxp : x ≠ (addrs ys).headD l.end_ := fun hc => hx (hc ▸ hpm)
  have hxq : x ≠ (addrs xs).getLastD l.end_ := fun hc => hx (hc ▸ hqm)
  refine ⟨?_, ?_, ?_⟩
  · rw [hn x, if_neg hxa, if_neg hxq]
  · rw [hp x, if_neg hxa, if_neg hxp]
  · rw [hv x, if_neg hxa]

theorem setNext_eq {h h1 : Heap T} {p v : Nat} (hs : setNext h p v = some h1) :
    ∃ c, h p = some c ∧ h1 = h.store p (some { c with next := v }) := by
  unfold setNext at hs
  cases hc : h p with
  | none => simp [hc] at hs
  | some c =>
    simp only [hc, Option.some.injEq] at hs
    exact ⟨c, rfl, hs.symm⟩

theorem setPrevious_eq {h h1 : Heap T} {p v : Nat} (hs : setPrevious h p v = some h1) :
    ∃ c, h p = some c ∧ h1 = h.store p (some { c with previous := v }) := by
  unfold setPrevious at hs
  cases hc : h p with
  | none => simp [hc] at hs
  | some c =>
    simp only [hc, Option.some.injEq] at hs
    exact ⟨c, rfl, hs.symm⟩

/-- The member `erase(iter)` writes the node at `iter` and its two neighbours only. -/
theorem erase_footprint {l l' : LinkedList T} {p : Nat} (h : l.erase p = some l') (x : Nat)
    (hxp : x ≠ p) (hxq : prevOf l.heap p ≠ some x) (hxn : nextOf l.heap p ≠ some x) :
    l'.heap x = l.heap x := by
  unfold LinkedList.erase at h
  cases hq : prevOf l.heap p with
  | none => simp [hq] at h
  | some ip =>
    cases hn : nextOf l.heap p with
    | none => simp [hq, hn] at h
    | some inx =>
      have hxip : x ≠ ip := fun hc => hxq (by rw [hq, hc])
      have hxinx : x ≠ inx := fun hc => hxn (by rw [hn, hc])
      simp only [hq, hn] at h
      cases hs1 : setNext l.heap ip inx with
      | none => simp [hs1] at h
      | some h1 =>
        obtain ⟨c1, hc1, hh1⟩ := setNext_eq hs1
        have hn1 : nextOf h1 p = some inx := by
          rw [hh1]
          unfold nextOf Heap.store
          by_cases hpi : p = ip
          · simp [hpi]
          · simp only [if_neg hpi]
            exact hn
        simp only [hs1, hn1] at h
        cases hp1 : prevOf h1 p with
        | none => simp [hp1] at h
        | some ip2 =>
          simp only [hp1] at h
          cases hs2 : setPrevious h1 inx ip2 with
          | none => simp [hs2] at h
          | some h2 =>
            obtain ⟨c2, hc2, hh2⟩ := setPrevious_eq hs2
            simp only [hs2] at h
            cases hv : valueOf h2 p with
            | none => simp [hv] at h
            | some v =>
              simp only [hv, Option.some.injEq] at h
              subst h
              show (h2.store p none) x = l.heap x
              rw [hh2, hh1]
              simp [Heap.store, hxp, hxip, hxinx]

theorem Frame_refl (l : LinkedList T) (nodes : List (Nat × T)) : Frame l l nodes nodes :=
  ⟨rfl, Nat.le_refl _, fun _ ha => Or.inl ha, fun _ _ _ => ⟨rfl, rfl, rfl⟩⟩

theorem Frame_trans {l l1 l2 : LinkedList T} {n n1 n2 : List (Nat × T)}
    (h1 : Frame l l1 n n1) (h2 : Frame l1 l2 n1 n2) : Frame l l2 n n2 := by
  obtain ⟨he1, hb1, ha1, hr1⟩ := h1
  obtain ⟨he2, hb2, ha2, hr2⟩ := h2
  refine ⟨he2.trans he1, by omega, ?_, ?_⟩
  · intro a ha
    rcases ha2 a ha with h | h
    · exact ha1 a h
    · exact Or.inr (by omega)
  · intro x hx hxb
    have hx1 : x ∉ l1.end_ :: addrs n1 := by
      intro hc
      rw [List.mem_cons] at hc
      rcases hc with hc | hc
      · apply hx
        rw [hc, he1]
        exact List.mem_cons_self _ _
      · rcases ha1 x hc with h | h
        · exact hx (List.mem_cons_of_mem _ h)
        · omega
    have r1 := hr1 x hx hxb
    have r2 := hr2 x hx1 (by omega)
    exact ⟨r2.1.trans r1.1, r2.2.1.trans r1.2.1, r2.2.2.trans r1.2.2⟩

/-- The member `emplace` in front of the position that begins `ys`. -/
theorem emplace_step {l : LinkedList T} {xs ys : List (Nat × T)} (h : ListRepr l (xs ++ ys))
    (v : T) :
    ∃ l', l.emplace ((addrs ys).headD l.end_) v = some l' ∧
      ListRepr l' (xs ++ (l.node_allocator_, v) :: ys) ∧
      l'.node_allocator_ = l.node_allocator_ + 1 ∧
      Frame l l' (xs ++ ys) (xs ++ (l.node_allocator_, v) :: ys) := by
  obtain ⟨l', hem, hrep, hend, hbump⟩ := list_emplace_repr h v
  refine ⟨l', hem, hrep, hbump, hend, by omega, ?_, ?_⟩
  · intro a ha
    simp only [addrs, List.map_append, List.map_cons, List.mem_append, List.mem_cons,
      List.mem_map] at ha ⊢
    rcases ha with ha | ha | ha
    · exact Or.inl (Or.inl ha)
    · exact Or.inr (by omega)
    · exact Or.inl (Or.inr ha)
  · intro x hx hxb
    exact list_emplace_frame h v l' hem x hx (by omega)

/-- The member `erase` on the position of an element. -/
theorem erase_step {l : LinkedList T} {xs ys : List (Nat × T)} {x : Nat} {v : T}
    (h : ListRepr l (xs ++ (x, v) :: ys)) :
    ∃ l', l.erase x = some l' ∧ ListRepr l' (xs ++ ys) ∧
      l'.node_allocator_ = l.node_allocator_ ∧
      Frame l l' (xs ++ (x, v) :: ys) (xs ++ ys) := by
  obtain ⟨l', her, hrep, hend, hbump⟩ := list_erase_repr h
  obtain ⟨_, _, hnext, hprev⟩ := ListRepr_at h
  refine ⟨l', her, hrep, hbump, hend, by omega, ?_, ?_⟩
  · intro a ha
    simp only [addrs, List.map_append, List.map_cons, List.mem_append, List.mem_cons,
      List.mem_map] at ha ⊢
    rcases ha with ha | ha
    · exact Or.inl (Or.inl ha)
    · exact Or.inl (Or.inr (Or.inr ha))
  · intro z hz _
    have hzx : z ≠ x := by
      intro hc
      apply hz
      rw [hc]
      simp [addrs]
    have hzq : prevOf l.heap x ≠ some z := by
      rw [hprev]
      intro hc
      apply hz
      rw [← Option.some.inj hc]
      have := getLastD_mem_cons (addrs xs) l.end_
      rw [addrs_append]
      rw [List.mem_cons] at this ⊢
      rcases this with h1 | h1
      · exact Or.inl h1
      · exact Or.inr (List.mem_append_left _ h1)
    have hzn : nextOf l.heap x ≠ some z := by
      rw [hnext]
      intro hc
      apply hz
      rw [← Option.some.inj hc]
      have := headD_mem_cons (addrs ys) l.end_
      rw [addrs_append, addrs_cons]
      rw [List.mem_cons] at this ⊢
      rcases this with h1 | h1
      · exact Or.inl h1
      · exact Or.inr (List.mem_append_right _ (List.mem_cons_of_mem _ h1))
    have := erase_footprint her z hzx hzq hzn
    unfold nextOf prevOf valueOf
    rw [this]
    exact ⟨rfl, rfl, rfl⟩

/-- The assignment `*iter = value` on the position of an element. -/
theorem assign_step {l : LinkedList T} {xs ys : List (Nat × T)} {a : Nat} {v0 : T}
    (h : ListRepr l (xs ++ (a, v0) :: ys)) (v : T) :
    ∃ l', l.assign a v = some l' ∧ ListRepr l' (xs ++ (a, v) :: ys) ∧
      l'.node_allocator_ = l.node_allocator_ ∧
      Frame l l' (xs ++ (a, v0) :: ys) (xs ++ (a, v) :: ys) := by
  obtain ⟨hae, hval, _, _⟩ := ListRepr_at h
  have hval0 : valueOf l.heap a = some v0 := hval
  obtain ⟨c, hc⟩ : ∃ c, l.heap a = some c := by
    unfold valueOf at hval0
    cases hc : l.heap a with
    | none => simp [hc] at hval0
    | some c => exact ⟨c, rfl⟩
  have hcv : c.value = some v0 := by
    unfold valueOf at hval0
    rw [hc] at hval0
    simpa using hval0
  have hn : ∀ x, nextOf (l.heap.store a (some { c with value := some v })) x
      = nextOf l.heap x := by
    intro x
    unfold nextOf Heap.store
    by_cases hx : x = a
    · simp [hx, hc]
    · simp [hx]
  have hp : ∀ x, prevOf (l.heap.store a (some { c with value := some v })) x
      = prevOf l.heap x := by
    intro x
    unfold prevOf Heap.store
    by_cases hx : x = a
    · simp [hx, hc]
    · simp [hx]
  have hv : ∀ x, valueOf (l.heap.store a (some { c with value := some v })) x
      = if x = a then some v else valueOf l.heap x := by
    intro x
    unfold valueOf Heap.store
    by_cases hx : x = a
    · simp [hx]
    · simp [hx]
  have haddrs : addrs (xs ++ (a, v) :: ys) = addrs (xs ++ (a, v0) :: ys) := by
    simp [addrs]
  obtain ⟨hnx, hpv, hnd, hebump, hbump, hve, hvals, hsz⟩ := h
  refine ⟨{ l with heap := l.heap.store a (some { c with value := some v }) },
    by simp [LinkedList.assign, hc, hcv], ?_, rfl, rfl, Nat.le_refl _, ?_, ?_⟩
  · refine ⟨?_, ?_, ?_, hebump, ?_, ?_, ?_, ?_⟩
    · rw [haddrs]
      exact Chain_congr (fun x _ => hn x) hnx
    · rw [haddrs]
      exact Chain_congr (fun x _ => hp x) hpv
    · rw [haddrs]
      exact hnd
    · rw [haddrs]
      exact hbump
    · show valueOf (l.heap.store a (some { c with value := some v })) l.end_ = none
      rw [hv, if_neg (fun hc' => hae hc'.symm)]
      exact hve
    · intro y hy
      show valueOf (l.heap.store a (some { c with value := some v })) y.1 = some y.2
      rw [hv]
      rw [List.mem_append, List.mem_cons] at hy
      have hnd2 : (addrs xs ++ a :: addrs ys).Nodup := by
        have := (List.nodup_cons.1 hnd).2
        simpa [addrs] using this
      have hdisj := (List.nodup_append.1 hnd2).2.2
      have hnda := (List.nodup_cons.1 (List.nodup_append.1 hnd2).2.1).1
      rcases hy with hy | hy | hy
      · have hne : y.1 ≠ a := by
          intro hc'
          exact hdisj (List.mem_map_of_mem _ hy) (hc' ▸ List.mem_cons_self _ _)
        rw [if_neg hne]
        exact hvals y (by simp [hy])
      · rw [hy]
        simp
      · have hne : y.1 ≠ a := by
          intro hc'
          apply hnda
          rw [← hc']
          exact List.mem_map_of_mem _ hy
        rw [if_neg hne]
        exact hvals y (by simp [hy])
    · simpa using hsz
  · intro x hx
    rw [haddrs] at hx
    exact Or.inl hx
  · intro x hx _
    have hxa : x ≠ a := by
      intro hc'
      apply hx
      rw [hc']
      simp [addrs]
    exact ⟨hn x, hp x, by rw [hv x, if_neg hxa]⟩

/-- The iterator `std::next(begin(), k)` of a well formed list is the position of the
element number `k`, or `end()` when `k` is `size()`. -/
theorem iterAt_repr {l : LinkedList T} {nodes : List (Nat × T)} (h : ListRepr l nodes) :
    ∀ k, k ≤ nodes.length → l.iterAt k = some ((addrs (nodes.drop k)).headD l.end_) := by
  intro k
  induction k with
  | zero =>
    intro _
    exact ListRepr_begin h
  | succ k ih =>
    intro hk
    have hlt : k < nodes.length := by omega
    have hsplit : nodes = nodes.take k ++ nodes[k] :: nodes.drop (k + 1) := by
      rw [← List.drop_eq_getElem_cons hlt, List.take_append_drop]
    have h' : ListRepr l (nodes.take k ++ nodes[k] :: nodes.drop (k + 1)) := by
      rw [← hsplit]
      exact h
    have hat := (ListRepr_at h').2.2.1
    have hdrop : nodes.drop k = nodes[k] :: nodes.drop (k + 1) :=
      List.drop_eq_getElem_cons hlt
    show (match l.iterAt k with
      | none => none
      | some it => nextOf l.heap it) = _
    rw [ih (by omega), hdrop]
    exact hat

/-- The member `pop_back` on a list that is not empty. -/
theorem pop_back_step {l : LinkedList T} {init : List (Nat × T)} {x : Nat × T}
    (h : ListRepr l (init ++ [x])) :
    ∃ l', l.pop_backE = some (l', [.destroy x.1, .deallocate x.1]) ∧
      l.pop_back = some l' ∧ ListRepr l' init ∧
      l'.node_allocator_ = l.node_allocator_ ∧ Frame l l' (init ++ [x]) init := by
  have hb : prevOf l.heap l.end = some x.1 := by
    have h0 : ListRepr l ((init ++ [x]) ++ []) := by simpa using h
    have := (ListRepr_link h0).2
    simpa [addrs, LinkedList.end] using this
  have h' : ListRepr l (init ++ (x.1, x.2) :: []) := h
  obtain ⟨l', her, hrep, hbump, hfr⟩ := erase_step h'
  refine ⟨l', ?_, ?_, by simpa using hrep, hbump, by simpa using hfr⟩
  · simp [LinkedList.pop_backE, hb, her]
  · simp [LinkedList.pop_back, hb, her]

theorem teardownLog_concat (as : List Nat) (a : Nat) :
    teardownLog (as ++ [a]) = [.destroy a, .deallocate a] ++ teardownLog as := by
  simp [teardownLog]

/-- The member `clear` empties a well formed list within `size()` rounds, destroying and
deallocating each node once, the last one first. -/
theorem clearE_spec : ∀ (fuel : Nat) (nodes : List (Nat × T)) (l : LinkedList T),
    ListRepr l nodes → nodes.length ≤ fuel →
    ∃ l', LinkedList.clearE fuel l = some (l', teardownLog (addrs nodes)) ∧
      ListRepr l' [] ∧ l'.node_allocator_ = l.node_allocator_ ∧ Frame l l' nodes [] := by
  intro fuel
  induction fuel with
  | zero =>
    intro nodes l h hf
    have hn : nodes = [] := List.length_eq_zero.1 (by omega)
    subst hn
    have hs : l.size_ = 0 := h.2.2.2.2.2.2.2
    exact ⟨l, by simp [LinkedList.clearE, hs, teardownLog, addrs], h, rfl, Frame_refl _ _⟩
  | succ fuel ih =>
    intro nodes l h hf
    rcases List.eq_nil_or_concat nodes with hn | ⟨init, x, hn⟩
    · subst hn
      have hs : l.size_ = 0 := h.2.2.2.2.2.2.2
      exact ⟨l, by simp [LinkedList.clearE, hs, teardownLog, addrs], h, rfl, Frame_refl _ _⟩
    · rw [List.concat_eq_append] at hn
      subst hn
      have hs : 0 < l.size_ := by
        have := h.2.2.2.2.2.2.2
        simp at this
        omega
      obtain ⟨l1, hpop, _, hrep1, hbump1, hfr1⟩ := pop_back_step h
      obtain ⟨l2, hcl, hrep2, hbump2, hfr2⟩ := ih init l1 hrep1 (by simp at hf; omega)
      refine ⟨l2, ?_, hrep2, hbump2.trans hbump1, Frame_trans hfr1 hfr2⟩
      have hlog : teardownLog (addrs (init ++ [x]))
          = [.destroy x.1, .deallocate x.1] ++ teardownLog (addrs init) := by
        rw [addrs_append]
        exact teardownLog_concat _ _
      rw [hlog]
      show (if 0 < l.size_ then
        match l.pop_backE with
        | none => none
        | some (l1, ev1) =>
          match LinkedList.clearE fuel l1 with
          | none => none
          | some (l2, ev2) => some (l2, ev1 ++ ev2)
        else some (l, [])) = _
      rw [if_pos hs, hpop]
      simp only [hcl]

theorem clear_spec {l : LinkedList T} {nodes : List (Nat × T)} (h : ListRepr l nodes)
    (fuel : Nat) (hf : nodes.length ≤ fuel) :
    ∃ l', l.clear fuel = some l' ∧ ListRepr l' [] ∧
      l'.node_allocator_ = l.node_allocator_ ∧ Frame l l' nodes [] := by
  obtain ⟨l', hcl, hrep, hb, hfr⟩ := clearE_spec fuel nodes l h hf
  exact ⟨l', by simp [LinkedList.clear, hcl], hrep, hb, hfr⟩

/-- One call at a position of a well formed list does what the same call does on the
sequence of elements. -/
theorem call_repr {l : LinkedList T} {nodes : List (Nat × T)} (h : ListRepr l nodes)
    (c : ListCall T) (ref' : List T) (hr : refCall (nodes.map Prod.snd) c = some ref')
    (fuel : Nat) (hf : nodes.length ≤ fuel) :
    ∃ l' nodes', l.call fuel c = some l' ∧ ListRepr l' nodes' ∧
      nodes'.map Prod.snd = ref' ∧ Frame l l' nodes nodes' := by
  have hemp : ∀ k v, k ≤ nodes.length →
      ∃ l' nodes', (match l.iterAt k with
          | none => none
          | some it => l.emplace it v) = some l' ∧ ListRepr l' nodes' ∧
        nodes'.map Prod.snd
          = (nodes.map Prod.snd).take k ++ v :: (nodes.map Prod.snd).drop k ∧
        Frame l l' nodes nodes' := by
    intro k v hk
    have hsplit : nodes.take k ++ nodes.drop k = nodes := List.take_append_drop k nodes
    have h' : ListRepr l (nodes.take k ++ nodes.drop k) := by rw [hsplit]; exact h
    obtain ⟨l', hem, hrep, _, hfr⟩ := emplace_step h' v
    rw [hsplit] at hfr
    refine ⟨l', _, ?_, hrep, by simp [List.map_take, List.map_drop], hfr⟩
    rw [iterAt_repr h k hk]
    exact hem
  have hpos : ∀ k, k < nodes.length →
      ∃ a v0, nodes = nodes.take k ++ (a, v0) :: nodes.drop (k + 1) ∧
        l.iterAt k = some a := by
    intro k hk
    have hsplit : nodes = nodes.take k ++ nodes[k] :: nodes.drop (k + 1) := by
      rw [← List.drop_eq_getElem_cons hk, List.take_append_drop]
    refine ⟨nodes[k].1, nodes[k].2, hsplit, ?_⟩
    rw [iterAt_repr h k (by omega), List.drop_eq_getElem_cons hk]
    rfl
  cases c with
  | emplace k v =>
    simp only [refCall, List.length_map] at hr
    split_ifs at hr with hk
    obtain ⟨l', nodes', h1, h2, h3, h4⟩ := hemp k v hk
    exact ⟨l', nodes', h1, h2, h3.trans (Option.some.inj hr), h4⟩
  | insert k v =>
    simp only [refCall, List.length_map] at hr
    split_ifs at hr with hk
    obtain ⟨l', nodes', h1, h2, h3, h4⟩ := hemp k v hk
    exact ⟨l', nodes', h1, h2, h3.trans (Option.some.inj hr), h4⟩
  | erase k =>
    simp only [refCall, List.length_map] at hr
    split_ifs at hr with hk
    obtain ⟨a, v0, hsplit, hit⟩ := hpos k hk
    have h' : ListRepr l (nodes.take k ++ (a, v0) :: nodes.drop (k + 1)) := by
      rw [← hsplit]; exact h
    obtain ⟨l', her, hrep, _, hfr⟩ := erase_step h'
    rw [← hsplit] at hfr
    refine ⟨l', _, ?_, hrep, ?_, hfr⟩
    · show (match l.iterAt k with
        | none => none
        | some it => l.erase it) = some l'
      rw [hit]
      exact her
    · rw [← Option.some.inj hr]
      simp [List.map_take, List.map_drop]
  | assign k v =>
    simp only [refCall, List.length_map] at hr
    split_ifs at hr with hk
    obtain ⟨a, v0, hsplit, hit⟩ := hpos k hk
    have h' : ListRepr l (nodes.take k ++ (a, v0) :: nodes.drop (k + 1)) := by
      rw [← hsplit]; exact h
    obtain ⟨l', has, hrep, _, hfr⟩ := assign_step h' v
    rw [← hsplit] at hfr
    refine ⟨l', _, ?_, hrep, ?_, hfr⟩
    · show (match l.iterAt k with
        | none => none
        | some it => l.assign it v) = some l'
      rw [hit]
      exact has
    · rw [← Option.some.inj hr]
      simp [List.map_take, List.map_drop]
  | push_front v =>
    simp only [refCall, Option.some.injEq] at hr
    have h' : ListRepr l ([] ++ nodes) := by simpa using h
    obtain ⟨l', hem, hrep, _, hfr⟩ := emplace_step h' v
    refine ⟨l', _, ?_, hrep, by rw [← hr]; simp, by simpa using hfr⟩
    show l.push_front v = some l'
    unfold LinkedList.push_front LinkedList.insert
    rw [ListRepr_begin h]
    exact hem
  | push_back v =>
    simp only [refCall, Option.some.injEq] at hr
    have h' : ListRepr l (nodes ++ []) := by simpa using h
    obtain ⟨l', hem, hrep, _, hfr⟩ := emplace_step h' v
    refine ⟨l', _, ?_, hrep, by rw [← hr]; simp, by simpa using hfr⟩
    exact hem
  | pop_front =>
    simp only [refCall] at hr
    split_ifs at hr with hk
    cases nodes with
    | nil => simp at hk
    | cons x rest =>
      have h' : ListRepr l ([] ++ (x.1, x.2) :: rest) := by simpa using h
      obtain ⟨l', her, hrep, _, hfr⟩ := erase_step h'
      refine ⟨l', _, ?_, hrep, by rw [← Option.some.inj hr]; simp, by simpa using hfr⟩
      show l.pop_front = some l'
      unfold LinkedList.pop_front
      rw [ListRepr_begin h]
      exact her
  | pop_back =>
    simp only [refCall] at hr
    split_ifs at hr with hk
    rcases List.eq_nil_or_concat nodes with hn | ⟨init, x, hn⟩
    · subst hn
      simp at hk
    · rw [List.concat_eq_append] at hn
      subst hn
      obtain ⟨l', _, hpop, hrep, _, hfr⟩ := pop_back_step h
      refine ⟨l', _, hpop, hrep, ?_, hfr⟩
      rw [← Option.some.inj hr]
      simp
  | clear =>
    simp only [refCall, Option.some.injEq] at hr
    obtain ⟨l', hcl, hrep, _, hfr⟩ := clear_spec h fuel hf
    exact ⟨l', [], hcl, hrep, by rw [← hr]; rfl, hfr⟩

theorem refCall_length {ref ref' : List T} {c : ListCall T} (h : refCall ref c = some ref') :
    ref'.length ≤ ref.length + 1 := by
  cases c with
  | emplace k v =>
    simp only [refCall] at h
    split_ifs at h with hk
    rw [← Option.some.inj h]
    simp only [List.length_append, List.length_take, List.length_cons, List.length_drop]
    omega
  | insert k v =>
    simp only [refCall] at h
    split_ifs at h with hk
    rw [← Option.some.inj h]
    simp only [List.length_append, List.length_take, List.length_cons, List.length_drop]
    omega
  | erase k =>
    simp only [refCall] at h
    split_ifs at h with hk
    rw [← Option.some.inj h]
    simp only [List.length_append, List.length_take, List.length_drop]
    omega
  | assign k v =>
    simp only [refCall] at h
    split_ifs at h with hk
    rw [← Option.some.inj h]
    simp only [List.length_append, List.length_take, List.length_cons, List.length_drop]
    omega
  | push_front v =>
    simp only [refCall, Option.some.injEq] at h
    rw [← h]
    simp
  | push_back v =>
    simp only [refCall, Option.some.injEq] at h
    rw [← h]
    simp
  | pop_front =>
    simp only [refCall] at h
    split_ifs at h with hk
    rw [← Option.some.inj h]
    simp only [List.length_tail]
    omega
  | pop_back =>
    simp only [refCall] at h
    split_ifs at h with hk
    rw [← Option.some.inj h]
    simp only [List.length_dropLast]
    omega
  | clear =>
    simp only [refCall, Option.some.injEq] at h
    rw [← h]
    simp

/-- A sequence of calls at positions of a well formed list does what the same calls do on
the sequence of elements. -/
theorem calls_repr (fuel : Nat) : ∀ (calls : List (ListCall T)) (l : LinkedList T)
    (nodes : List (Nat × T)) (ref' : List T), ListRepr l nodes →
    refCalls (nodes.map Prod.snd) calls = some ref' → nodes.length + calls.length ≤ fuel →
    ∃ l' nodes', l.calls fuel calls = some l' ∧ ListRepr l' nodes' ∧
      nodes'.map Prod.snd = ref' ∧ Frame l l' nodes nodes' := by
  intro calls
  induction calls with
  | nil =>
    intro l nodes ref' h hr _
    simp only [refCalls, Option.some.injEq] at hr
    exact ⟨l, nodes, rfl, h, hr, Frame_refl _ _⟩
  | cons c cs ih =>
    intro l nodes ref' h hr hf
    simp only [List.length_cons] at hf
    cases hc : refCall (nodes.map Prod.snd) c with
    | none => simp [refCalls, hc] at hr
    | some ref1 =>
      simp only [refCalls, hc] at hr
      obtain ⟨l1, nodes1, hcall, hrep1, hmap1, hfr1⟩ := call_repr h c ref1 hc fuel (by omega)
      have hlen : nodes1.length ≤ nodes.length + 1 := by
        have := refCall_length hc
        rw [← hmap1] at this
        simpa using this
      rw [← hmap1] at hr
      obtain ⟨l2, nodes2, hcalls, hrep2, hmap2, hfr2⟩ := ih l1 nodes1 ref' hrep1 hr (by omega)
      refine ⟨l2, nodes2, ?_, hrep2, hmap2, Frame_trans hfr1 hfr2⟩
      simp only [LinkedList.calls, hcall]
      exact hcalls

/-! ### The ring invariant -/

/-- A well formed list satisfies the ring invariant. -/
theorem RingInv_of_repr {l : LinkedList T} {nodes : List (Nat × T)} (h : ListRepr l nodes) :
    RingInv l := by
  refine ⟨addrs nodes, ?_, h.1, h.2.2.2.2.2.1, ?_, ?_, ?_⟩
  · rw [ListRepr_size h]
    simp [addrs]
  · intro a ha
    obtain ⟨x, hx, rfl⟩ := List.mem_map.1 ha
    rw [h.2.2.2.2.2.2.1 x hx]
    rfl
  · intro x hx
    rw [List.mem_cons] at hx
    rcases hx with hx | hx
    · subst hx
      have h1 : ListRepr l ([] ++ nodes) := by simpa using h
      have h2 : ListRepr l (nodes ++ []) := by simpa using h
      have l1 := ListRepr_link h1
      have l2 := ListRepr_link h2
      constructor
      · have a := l1.1
        have b := l1.2
        simp only [addrs, List.map_nil, List.getLastD_nil] at a b
        rw [a]
        exact b
      · have a := l2.1
        have b := l2.2
        simp only [addrs, List.map_nil, List.headD_nil] at a b
        rw [b]
        exact a
    · obtain ⟨y, hy, rfl⟩ := List.mem_map.1 hx
      obtain ⟨xs, ys, hs⟩ := List.append_of_mem hy
      have h0 : ListRepr l (xs ++ y :: ys) := by rw [← hs]; exact h
      have h1 : ListRepr l ((xs ++ [y]) ++ ys) := by simpa using h0
      obtain ⟨_, _, hn, hp⟩ := ListRepr_at h0
      have l0 := ListRepr_link h0
      have l1 := ListRepr_link h1
      constructor
      · rw [hn]
        have b := l1.2
        simpa [addrs] using b
      · rw [hp]
        have a := l0.1
        simpa [addrs] using a
  · intro x hx
    rw [List.mem_cons] at hx
    rcases hx with hx | hx
    · rw [hx]
      exact h.2.2.2.1
    · exact h.2.2.2.2.1 x hx

theorem Chain_pred {f : Nat → Option Nat} {e : Nat} :
    ∀ (L : List Nat) (a : Nat), Chain f e (a :: L) → ∀ y ∈ L, ∃ p ∈ a :: L, f p = some y := by
  intro L
  induction L with
  | nil => intro a _ y hy; simp at hy
  | cons x rest ih =>
    intro a hc y hy
    rw [List.mem_cons] at hy
    rcases hy with hy | hy
    · subst hy
      exact ⟨a, List.mem_cons_self _ _, hc.1⟩
    · obtain ⟨p, hp, hfp⟩ := ih x hc.2 y hy
      exact ⟨p, List.mem_cons_of_mem _ hp, hfp⟩

/-- A chain of `next` links whose every link is answered by a `previous` link does not
visit a node twice. -/
theorem Chain_nodup {f g : Nat → Option Nat} {e : Nat} :
    ∀ (L : List Nat) (a : Nat), Chain f e (a :: L) →
      (∀ x ∈ a :: L, ∀ y, f x = some y → g y = some x) → a ∉ L → (a :: L).Nodup := by
  intro L
  induction L with
  | nil => intro a _ _ _; simp
  | cons x rest ih =>
    intro a hc hl ha
    have hx : x ∉ rest := by
      intro hxr
      obtain ⟨p, hp, hfp⟩ := Chain_pred rest x hc.2 x hxr
      have h1 := hl a (List.mem_cons_self _ _) x hc.1
      have h2 := hl p (List.mem_cons_of_mem _ hp) x hfp
      rw [h1] at h2
      have : a = p := Option.some.inj h2
      exact ha (this ▸ hp)
    have := ih x hc.2 (fun z hz => hl z (List.mem_cons_of_mem _ hz)) hx
    exact List.nodup_cons.2 ⟨ha, this⟩

/-- A chain of `next` links whose every link is answered by a `previous` link is a chain
of `previous` links when read backwards. -/
theorem Chain_backwards {f g : Nat → Option Nat} {e : Nat} :
    ∀ (L : List Nat) (a : Nat), Chain f e (a :: L) →
      (∀ x ∈ a :: L, ∀ y, f x = some y → g y = some x) →
      Chain g a L.reverse ∧ g e = some (L.getLastD a) := by
  intro L
  induction L with
  | nil =>
    intro a hc hl
    exact ⟨trivial, hl a (List.mem_cons_self _ _) e hc.1⟩
  | cons x rest ih =>
    intro a hc hl
    obtain ⟨ih1, ih2⟩ := ih x hc.2 (fun z hz => hl z (List.mem_cons_of_mem _ hz))
    have hgx : g x = some a := hl a (List.mem_cons_self _ _) x hc.1
    refine ⟨?_, by rw [List.getLastD_cons]; exact ih2⟩
    rw [List.reverse_cons, Chain_append]
    exact ⟨ih1, hgx, trivial⟩

theorem addrs_payloads (h : Heap T) :
    ∀ (ring : List Nat), (∀ a ∈ ring, (valueOf h a).isSome = true) →
      ∃ nodes : List (Nat × T), addrs nodes = ring ∧ ∀ x ∈ nodes, valueOf h x.1 = some x.2 := by
  intro ring
  induction ring with
  | nil => intro _; exact ⟨[], rfl, by simp⟩
  | cons a rest ih =>
    intro hv
    obtain ⟨nodes, hn, hvals⟩ := ih (fun b hb => hv b (List.mem_cons_of_mem _ hb))
    obtain ⟨v, hva⟩ := Option.isSome_iff_exists.1 (hv a (List.mem_cons_self _ _))
    refine ⟨(a, v) :: nodes, by rw [addrs_cons, hn], ?_⟩
    intro x hx
    rw [List.mem_cons] at hx
    rcases hx with hx | hx
    · rw [hx]
      exact hva
    · exact hvals x hx

/-- A list that satisfies the ring invariant is well formed. -/
theorem repr_of_RingInv {l : LinkedList T} (h : RingInv l) : ∃ nodes, ListRepr l nodes := by
  obtain ⟨ring, hlen, hnx, hve, hvals, hlinks, hfresh⟩ := h
  obtain ⟨nodes, hn, hnv⟩ := addrs_payloads l.heap ring hvals
  have hl : ∀ x ∈ l.end_ :: ring, ∀ y, nextOf l.heap x = some y → prevOf l.heap y = some x := by
    intro x hx y hy
    have := (hlinks x hx).1
    rw [hy] at this
    exact this
  have he : l.end_ ∉ ring := by
    intro hc
    have := hvals l.end_ hc
    rw [hve] at this
    simp at this
  obtain ⟨hb1, hb2⟩ := Chain_backwards ring l.end_ hnx hl
  refine ⟨nodes, ?_, ?_, ?_, ?_, ?_, hve, hnv, ?_⟩
  · rw [hn]; exact hnx
  · rw [hn]
    refine ⟨?_, hb1⟩
    rw [hb2, headD_reverse]
  · rw [hn]
    exact Chain_nodup ring l.end_ hnx hl he
  · exact hfresh l.end_ (List.mem_cons_self _ _)
  · rw [hn]
    intro a ha
    exact hfresh a (List.mem_cons_of_mem _ ha)
  · have : nodes.length = ring.length := by
      rw [← hn]
      simp [addrs]
    rw [this, hlen]
    rfl

end

/-- The list after a sequence of calls on the empty list satisfies the ring invariant and
has the size of the sequence of elements after the same calls. -/
theorem reachable_ring (T : Type) (calls : List (ListCall T)) (ref : List T) (fuel : Nat)
    (hr : refCalls [] calls = some ref) (hf : calls.length ≤ fuel) :
    ∃ l, (LinkedList.mk0 T).calls fuel calls = some l ∧ RingInv l ∧ l.size = ref.length := by
  obtain ⟨l, nodes, hcalls, hrep, hmap, _⟩ :=
    calls_repr fuel calls (LinkedList.mk0 T) [] ref ListRepr_mk0 hr (by simpa using hf)
  refine ⟨l, hcalls, RingInv_of_repr hrep, ?_⟩
  rw [ListRepr_size hrep, ← hmap]
  simp

/-- C17: on a list that satisfies the ring invariant (starting at the sentinel and
following next visits exactly size() value nodes and then returns to the sentinel, and
every node `x` of the ring has x.next.previous == x and x.previous.next == x), emplace
and insert at any position `begin() + k` with `k ≤ size()`, erase at any position of an
element, push_front, push_back, pop_front and pop_back on a non-empty list, and clear
all return and leave a list that satisfies the ring invariant; the empty list satisfies
it, and so does the list after any sequence of such calls on it. -/
theorem list_calls_keep_ring :
    (∀ (T : Type) (l : LinkedList T), RingInv l →
      (∀ k, k ≤ l.size → ∃ p, l.iterAt k = some p ∧ ∀ v, ∃ l', l.emplace p v = some l' ∧
        l.insert p v = some l' ∧ RingInv l' ∧ l'.size = l.size + 1) ∧
      (∀ k, k < l.size → ∃ p, l.iterAt k = some p ∧ ∃ l', l.erase p = some l' ∧
        RingInv l' ∧ l'.size = l.size - 1) ∧
      (∀ v, ∃ l', l.push_front v = some l' ∧ RingInv l' ∧ l'.size = l.size + 1) ∧
      (∀ v, ∃ l', l.push_back v = some l' ∧ RingInv l' ∧ l'.size = l.size + 1) ∧
      (0 < l.size → ∃ l', l.pop_front = some l' ∧ RingInv l' ∧ l'.size = l.size - 1) ∧
      (0 < l.size → ∃ l', l.pop_back = some l' ∧ RingInv l' ∧ l'.size = l.size - 1) ∧
      (∀ fuel, l.size ≤ fuel → ∃ l', l.clear fuel = some l' ∧ RingInv l' ∧ l'.size = 0)) ∧
    (∀ T : Type, RingInv (LinkedList.mk0 T)) ∧
    (∀ (T : Type) (calls : List (ListCall T)) (ref : List T) (fuel : Nat),
      refCalls [] calls = some ref → calls.length ≤ fuel →
      ∃ l, (LinkedList.mk0 T).calls fuel calls = some l ∧ RingInv l ∧
        l.size = ref.length) := by
  refine ⟨?_, fun T => RingInv_of_repr ListRepr_mk0, ?_⟩
  · intro T l h
    obtain ⟨nodes, hrep⟩ := repr_of_RingInv h
    have hsz : l.size = nodes.length := ListRepr_size hrep
    have hstep : ∀ (c : ListCall T) (ref' : List T),
        refCall (nodes.map Prod.snd) c = some ref' →
        ∃ l', l.call l.size c = some l' ∧ RingInv l' ∧ l'.size = ref'.length := by
      intro c ref' hr
      obtain ⟨l', nodes', hcall, hrep', hmap, _⟩ :=
        call_repr hrep c ref' hr l.size (by omega)
      refine ⟨l', hcall, RingInv_of_repr hrep', ?_⟩
      rw [ListRepr_size hrep', ← hmap]
      simp
    refine ⟨?_, ?_, ?_, ?_, ?_, ?_, ?_⟩
    · intro k hk
      refine ⟨_, iterAt_repr hrep k (by omega), ?_⟩
      intro v
      obtain ⟨l', hcall, hring, hsize⟩ := hstep (.emplace k v) _
        (by simp only [refCall, List.length_map]; rw [if_pos (by omega)])
      have hcall' : (match l.iterAt k with
          | none => none
          | some it => l.emplace it v) = some l' := hcall
      rw [iterAt_repr hrep k (by omega)] at hcall'
      refine ⟨l', hcall', hcall', hring, ?_⟩
      rw [hsize]
      simp only [List.length_append, List.length_take, List.length_cons, List.length_drop,
        List.length_map]
      omega
    · intro k hk
      refine ⟨_, iterAt_repr hrep k (by omega), ?_⟩
      obtain ⟨l', hcall, hring, hsize⟩ := hstep (.erase k) _
        (by simp only [refCall, List.length_map]; rw [if_pos (by omega)])
      have hcall' : (match l.iterAt k with
          | none => none
          | some it => l.erase it) = some l' := hcall
      rw [iterAt_repr hrep k (by omega)] at hcall'
      refine ⟨l', hcall', hring, ?_⟩
      rw [hsize]
      simp only [List.length_append, List.length_take, List.length_drop, List.length_map]
      omega
    · intro v
      obtain ⟨l', hcall, hring, hsize⟩ := hstep (.push_front v) _ rfl
      exact ⟨l', hcall, hring, by rw [hsize]; simp; omega⟩
    · intro v
      obtain ⟨l', hcall, hring, hsize⟩ := hstep (.push_back v) _ rfl
      exact ⟨l', hcall, hring, by rw [hsize]; simp; omega⟩
    · intro hpos
      have hne : (nodes.map Prod.snd).isEmpty = false := by
        cases nodes with
        | nil => simp at hsz; omega
        | cons x r => rfl
      obtain ⟨l', hcall, hring, hsize⟩ := hstep .pop_front _
        (by simp only [refCall, hne]; rfl)
      exact ⟨l', hcall, hring, by rw [hsize]; simp; omega⟩
    · intro hpos
      have hne : (nodes.map Prod.snd).isEmpty = false := by
        cases nodes with
        | nil => simp at hsz; omega
        | cons x r => rfl
      obtain ⟨l', hcall, hring, hsize⟩ := hstep .pop_back _
        (by simp only [refCall, hne]; rfl)
      exact ⟨l', hcall, hring, by rw [hsize]; simp; omega⟩
    · intro fuel hf
      obtain ⟨l', hcl, hrep', _, _⟩ := clear_spec hrep fuel (by omega)
      exact ⟨l', hcl, RingInv_of_repr hrep', by rw [ListRepr_size hrep']; rfl⟩
  · intro T calls ref fuel hr hf
    exact reachable_ring T calls ref fuel hr hf

/-- Witness for C17: the calls on the list after two pushes and an emplace in the
middle. -/
theorem list_calls_keep_ring_witness :
    ∃ l : LinkedList Nat,
      (LinkedList.mk0 Nat).calls 3 [.push_back 1, .push_back 3, .emplace 1 2] = some l ∧
      RingInv l ∧ l.size = 3 ∧
      (∀ k, k < l.size → ∃ p, l.iterAt k = some p ∧ ∃ l', l.erase p = some l' ∧
        RingInv l' ∧ l'.size = l.size - 1) :=
  match list_calls_keep_ring.2.2 Nat [.push_back 1, .push_back 3, .emplace 1 2] [1, 2, 3] 3
    rfl (by decide) with
  | ⟨l, h1, h2, h3⟩ => ⟨l, h1, h2, h3, (list_calls_keep_ring.1 Nat l h2).2.1⟩

/-- C18: on every list that satisfies the ring invariant, with elements `ref` in
iteration order, insert(p, v) and emplace(p, v) at the position `p = begin() + k`,
`k ≤ size()`, return and leave a list of size() + 1 that iterates as the first `k`
elements of `ref`, then `v`, then the other elements of `ref`; erase(p) at the position
of element number `k < size()` returns and leaves a list of size() - 1 that iterates as
`ref` without its element number `k`. So push_back of "a", "b", "c" followed by erase of
the iterator to "b" iterates as ["a", "c"]. -/
theorem insert_and_erase_at_position :
    (∀ (T : Type) (l : LinkedList T), RingInv l →
      ∃ ref : List T, ref.length = l.size ∧ (∀ fuel, l.size ≤ fuel → l.toList fuel = some ref) ∧
        (∀ k, k ≤ l.size → ∃ p, l.iterAt k = some p ∧ ∀ v, ∃ l', l.emplace p v = some l' ∧
          l.insert p v = some l' ∧ l'.size = l.size + 1 ∧
          ∀ fuel, l'.size ≤ fuel → l'.toList fuel = some (ref.take k ++ v :: ref.drop k)) ∧
        (∀ k, k < l.size → ∃ p, l.iterAt k = some p ∧ ∃ l', l.erase p = some l' ∧
          l'.size = l.size - 1 ∧
          ∀ fuel, l'.size ≤ fuel → l'.toList fuel = some (ref.take k ++ ref.drop (k + 1)))) ∧
    (∃ l p l', (LinkedList.mk0 String).calls 3 [.push_back "a", .push_back "b", .push_back "c"]
        = some l ∧ l.toList 3 = some ["a", "b", "c"] ∧ l.iterAt 1 = some p ∧
      valueOf l.heap p = some "b" ∧ l.erase p = some l' ∧ l'.toList 2 = some ["a", "c"]) := by
  constructor
  · intro T l h
    obtain ⟨nodes, hrep⟩ := repr_of_RingInv h
    have hsz : l.size = nodes.length := ListRepr_size hrep
    refine ⟨nodes.map Prod.snd, by rw [hsz]; simp, fun fuel hf => toList_repr hrep fuel hf,
      ?_, ?_⟩
    · intro k hk
      refine ⟨_, iterAt_repr hrep k (by omega), ?_⟩
      intro v
      obtain ⟨l', nodes', hcall, hrep', hmap, _⟩ := call_repr hrep (.emplace k v) _
        (by simp only [refCall, List.length_map]; rw [if_pos (by omega)]) l.size (by omega)
      have hcall' : (match l.iterAt k with
          | none => none
          | some it => l.emplace it v) = some l' := hcall
      rw [iterAt_repr hrep k (by omega)] at hcall'
      refine ⟨l', hcall', hcall', ?_, ?_⟩
      · have := congrArg List.length hmap
        rw [ListRepr_size hrep']
        simp only [List.length_map, List.length_append, List.length_take, List.length_cons,
          List.length_drop] at this
        omega
      · intro fuel hf
        rw [toList_repr hrep' fuel hf, hmap]
    · intro k hk
      refine ⟨_, iterAt_repr hrep k (by omega), ?_⟩
      obtain ⟨l', nodes', hcall, hrep', hmap, _⟩ := call_repr hrep (.erase k) _
        (by simp only [refCall, List.length_map]; rw [if_pos (by omega)]) l.size (by omega)
      have hcall' : (match l.iterAt k with
          | none => none
          | some it => l.erase it) = some l' := hcall
      rw [iterAt_repr hrep k (by omega)] at hcall'
      refine ⟨l', hcall', ?_, ?_⟩
      · have := congrArg List.length hmap
        rw [ListRepr_size hrep']
        simp only [List.length_map, List.length_append, List.length_take,
          List.length_drop] at this
        omega
      · intro fuel hf
        rw [toList_repr hrep' fuel hf, hmap]
  · exact ⟨_, _, _, rfl, rfl, rfl, rfl, rfl, rfl⟩

/-- Witness for C18: an insert in the middle of the list of 1 and 3. -/
theorem insert_and_erase_at_position_witness :
    ∃ l : LinkedList Nat, (LinkedList.mk0 Nat).calls 2 [.push_back 1, .push_back 3] = some l ∧
      RingInv l ∧
      ∃ ref : List Nat, ref.length = l.size ∧
        (∀ fuel, l.size ≤ fuel → l.toList fuel = some ref) ∧
        (∀ k, k ≤ l.size → ∃ p, l.iterAt k = some p ∧ ∀ v, ∃ l', l.emplace p v = some l' ∧
          l.insert p v = some l' ∧ l'.size = l.size + 1 ∧
          ∀ fuel, l'.size ≤ fuel → l'.toList fuel = some (ref.take k ++ v :: ref.drop k)) :=
  match reachable_ring Nat [.push_back 1, .push_back 3] [1, 3] 2 rfl (by decide) with
  | ⟨l, h1, h2, _⟩ =>
    match insert_and_erase_at_position.1 Nat l h2 with
    | ⟨ref, r1, r2, r3, _⟩ => ⟨l, h1, h2, ref, r1, r2, r3⟩

/-! ### Two lists in one memory -/

section
variable {T : Type}

theorem TwoRepr_symm {a b : LinkedList T} {na nb : List (Nat × T)} (h : TwoRepr a b na nb) :
    TwoRepr b a nb na := by
  obtain ⟨ha, hb, hh, hbump, hd⟩ := h
  exact ⟨hb, ha, hh.symm, hbump.symm, fun x hx hxa => hd x hxa hx⟩

/-- A call on the list `a` leaves the list `b` in the same memory well formed, with the
nodes it had, and the two lists still share no node. -/
theorem two_step {a a' b : LinkedList T} {na na' nb : List (Nat × T)}
    (h : TwoRepr a b na nb) (ha' : ListRepr a' na') (hfr : Frame a a' na na') :
    TwoRepr a' (b.inMemoryOf a') na' nb := by
  obtain ⟨ha, hb, hh, hbump, hd⟩ := h
  obtain ⟨he, hle, hsub, hread⟩ := hfr
  have hblt : ∀ x ∈ b.end_ :: addrs nb, x < a.node_allocator_ := by
    intro x hx
    rw [hbump]
    rw [List.mem_cons] at hx
    rcases hx with hx | hx
    · rw [hx]; exact hb.2.2.2.1
    · exact hb.2.2.2.2.1 x hx
  have hb' : ListRepr (b.inMemoryOf a') nb := by
    refine ListRepr_of_readers hb rfl rfl (by show b.node_allocator_ ≤ a'.node_allocator_; omega) ?_
    intro x hx
    have hxa : x ∉ a.end_ :: addrs na := fun hc => hd x hc hx
    have := hread x hxa (hblt x hx)
    show nextOf a'.heap x = nextOf b.heap x ∧ prevOf a'.heap x = prevOf b.heap x ∧
      valueOf a'.heap x = valueOf b.heap x
    rw [← hh]
    exact this
  refine ⟨ha', hb', rfl, rfl, ?_⟩
  intro x hx hxb
  have hxb' : x ∈ b.end_ :: addrs nb := hxb
  have hlt := hblt x hxb'
  rw [List.mem_cons] at hx
  rcases hx with hx | hx
  · apply hd x _ hxb'
    rw [hx, he]
    exact List.mem_cons_self _ _
  · rcases hsub x hx with h1 | h1
    · exact hd x (List.mem_cons_of_mem _ h1) hxb'
    · omega

end

/-! ### The copy constructor -/

section
variable {T : Type}

theorem push_back_step {l : LinkedList T} {nodes : List (Nat × T)} (h : ListRepr l nodes)
    (v : T) :
    ∃ l', l.push_back v = some l' ∧ ListRepr l' (nodes ++ [(l.node_allocator_, v)]) ∧
      l'.node_allocator_ = l.node_allocator_ + 1 ∧ l'.end_ = l.end_ ∧
      Frame l l' nodes (nodes ++ [(l.node_allocator_, v)]) := by
  have h0 : ListRepr l (nodes ++ []) := by simpa using h
  obtain ⟨l', hem, hrep, hbump, hfr⟩ := emplace_step h0 v
  refine ⟨l', ?_, hrep, hbump, hfr.1, ?_⟩
  · simpa [LinkedList.push_back, LinkedList.insert, LinkedList.end, addrs] using hem
  · simpa using hfr

/-- One round of the loop of the copy constructor whose `construct` returns. -/
theorem copy_round {self src : LinkedList T} {cnodes done rest : List (Nat × T)}
    {x : Nat × T} (h : TwoRepr self src cnodes (done ++ x :: rest)) (v : T) :
    x.1 ≠ src.end_ ∧ valueOf self.heap x.1 = some x.2 ∧
    ∃ self1, self.push_back v = some self1 ∧
      nextOf self1.heap x.1 = some ((addrs rest).headD src.end_) ∧
      TwoRepr self1 (src.inMemoryOf self1) (cnodes ++ [(self.node_allocator_, v)])
        ((done ++ [x]) ++ rest) ∧
      self1.node_allocator_ = self.node_allocator_ + 1 ∧ self1.end_ = self.end_ := by
  have hsrc := h.2.1
  have hat := ListRepr_at hsrc
  refine ⟨hat.1, ?_, ?_⟩
  · rw [h.2.2.1]
    exact hat.2.1
  · obtain ⟨self1, hpb, hrep, hbump, hend, hfr⟩ := push_back_step h.1 v
    have h2 := two_step h hrep hfr
    have hat2 := ListRepr_at h2.2.1
    refine ⟨self1, hpb, hat2.2.2.1, ?_, hbump, hend⟩
    simpa using h2

theorem emplace_throwing_two {self src : LinkedList T} {cnodes snodes : List (Nat × T)}
    (h : TwoRepr self src cnodes snodes) :
    TwoRepr self.emplace_throwing.1 (src.inMemoryOf self.emplace_throwing.1) cnodes snodes := by
  have hrep : ListRepr self.emplace_throwing.1 cnodes :=
    ListRepr_of_readers h.1 rfl rfl (Nat.le_succ _) (fun _ _ => ⟨rfl, rfl, rfl⟩)
  refine two_step h hrep ⟨rfl, Nat.le_succ _, fun a ha => Or.inl ha, fun _ _ _ => ⟨rfl, rfl, rfl⟩⟩

/-- The loop of the copy constructor when every `construct` returns a copy of its
argument. -/
theorem copy_loop_done : ∀ (rest : List (Nat × T)) (fuel i : Nat) (done : List (Nat × T))
    (src self : LinkedList T) (cnodes : List (Nat × T)),
    TwoRepr self src cnodes (done ++ rest) → rest.length ≤ fuel →
    ∃ self' new, LinkedList.copy_loop (fun _ x => some x) src.end fuel i
        ((addrs rest).headD src.end_) self = some (.done self', buildLog (addrs new)) ∧
      TwoRepr self' (src.inMemoryOf self') (cnodes ++ new) (done ++ rest) ∧
      new.map Prod.snd = rest.map Prod.snd ∧ self'.end_ = self.end_ ∧
      (∀ a ∈ addrs new, self.node_allocator_ ≤ a) := by
  intro rest
  induction rest with
  | nil =>
    intro fuel i done src self cnodes h _
    refine ⟨self, [], ?_, ?_, rfl, rfl, by simp [addrs]⟩
    · cases fuel <;> simp [LinkedList.copy_loop, addrs, LinkedList.end, buildLog]
    · have : TwoRepr self (src.inMemoryOf self) cnodes (done ++ []) :=
        two_step h h.1 (Frame_refl _ _)
      simpa using this
  | cons x rest ih =>
    intro fuel i done src self cnodes h hf
    cases fuel with
    | zero => simp at hf
    | succ fuel =>
      obtain ⟨hne, hval, self1, hpb, hnx, h2, hbump, hend⟩ := copy_round h x.2
      obtain ⟨self', new, hloop, h3, hpay, hend', hfresh⟩ :=
        ih fuel (i + 1) (done ++ [x]) (src.inMemoryOf self1) self1
          (cnodes ++ [(self.node_allocator_, x.2)]) h2 (by simpa using hf)
      refine ⟨self', (self.node_allocator_, x.2) :: new, ?_, ?_, ?_, ?_, ?_⟩
      · have hhead : (addrs (x :: rest)).headD src.end_ = x.1 := rfl
        have hloop' : LinkedList.copy_loop (fun _ x => some x) src.end fuel (i + 1)
            ((addrs rest).headD src.end_) self1 = some (.done self', buildLog (addrs new)) :=
          hloop
        rw [hhead]
        simp only [LinkedList.copy_loop, LinkedList.end, hne, if_false, hval, hpb, hnx]
        simp only [LinkedList.end] at hloop'
        rw [hloop']
        simp [emplaceLog, buildLog, addrs]
      · have h4 : TwoRepr self' (src.inMemoryOf self')
            ((cnodes ++ [(self.node_allocator_, x.2)]) ++ new) ((done ++ [x]) ++ rest) := h3
        simpa using h4
      · simp [hpay]
      · rw [hend', hend]
      · intro a ha
        simp only [addrs, List.map_cons, List.mem_cons] at ha
        rcases ha with ha | ha
        · omega
        · have := hfresh a ha
          omega

end

section
variable {T : Type}

/-- When the body of the copy constructor starts, the list under construction is empty
and shares no node with the source. -/
theorem copy_init_two {other : LinkedList T} {nodes : List (Nat × T)}
    (h : ListRepr other nodes) :
    TwoRepr other.copy_init (other.inMemoryOf other.copy_init) [] nodes := by
  have hlt : ∀ x ∈ other.end_ :: addrs nodes, x < other.node_allocator_ := by
    intro x hx
    rw [List.mem_cons] at hx
    rcases hx with hx | hx
    · rw [hx]; exact h.2.2.2.1
    · exact h.2.2.2.2.1 x hx
  refine ⟨?_, ?_, rfl, rfl, ?_⟩
  · refine ⟨?_, ?_, ?_, ?_, ?_, ?_, ?_, rfl⟩
    · simp [Chain, addrs, LinkedList.copy_init, nextOf, Heap.store]
    · simp [Chain, addrs, LinkedList.copy_init, prevOf, Heap.store]
    · simp [addrs]
    · simp [LinkedList.copy_init]
    · simp [addrs]
    · simp [LinkedList.copy_init, valueOf, Heap.store]
    · simp
  · refine ListRepr_of_readers h rfl rfl (Nat.le_succ _) ?_
    intro x hx
    have hne : x ≠ other.node_allocator_ := Nat.ne_of_lt (hlt x hx)
    simp [LinkedList.inMemoryOf, LinkedList.copy_init, nextOf, prevOf, valueOf, Heap.store, hne]
  · intro x hx hxo
    have hxo' : x ∈ other.end_ :: addrs nodes := hxo
    have := hlt x hxo'
    simp only [addrs, List.map_nil, List.mem_cons, List.not_mem_nil, or_false] at hx
    have hx' : x = other.node_allocator_ := hx
    omega

/-- The copy constructor, every `construct` returning a copy of its argument: it returns
a list of fresh nodes with the payloads of the source, and the source is as it was. -/
theorem copy_ctor_done {other : LinkedList T} {nodes : List (Nat × T)}
    (h : ListRepr other nodes) (fuel : Nat) (hf : nodes.length ≤ fuel) :
    ∃ c new, other.copy_ctor (fun _ x => some x) fuel = some (.done c, buildLog (addrs new)) ∧
      TwoRepr c (other.inMemoryOf c) new nodes ∧ new.map Prod.snd = nodes.map Prod.snd ∧
      ∀ a ∈ c.end_ :: addrs new, other.node_allocator_ ≤ a := by
  have h0 := copy_init_two h
  obtain ⟨c, new, hloop, h2, hpay, hend, hfresh⟩ :=
    copy_loop_done nodes fuel 0 [] (other.inMemoryOf other.copy_init) other.copy_init [] h0 hf
  refine ⟨c, new, ?_, ?_, hpay, ?_⟩
  · have hb : other.begin = some ((addrs nodes).headD other.end_) := ListRepr_begin h
    have hloop' : LinkedList.copy_loop (fun _ x => some x) other.end fuel 0
        ((addrs nodes).headD other.end_) other.copy_init
        = some (.done c, buildLog (addrs new)) := hloop
    simp only [LinkedList.copy_ctor, hb, hloop']
  · have : TwoRepr c (other.inMemoryOf c) ([] ++ new) ([] ++ nodes) := h2
    simpa using this
  · intro a ha
    rw [List.mem_cons] at ha
    rcases ha with ha | ha
    · rw [ha, hend]
      exact Nat.le_refl _
    · have := hfresh a ha
      have h1 : other.copy_init.node_allocator_ = other.node_allocator_ + 1 := rfl
      omega

end

section
variable {T : Type}

theorem walkNodes_chain (l : LinkedList T) :
    ∀ (nodes : List Nat) (fuel : Nat), nodes.length ≤ fuel →
      Chain (nextOf l.heap) l.end_ nodes → l.end_ ∉ nodes →
      l.walkNodes fuel (nodes.headD l.end_) = some nodes := by
  intro nodes
  induction nodes with
  | nil =>
    intro fuel _ _ _
    cases fuel <;> simp [LinkedList.walkNodes, LinkedList.end]
  | cons x rest ih =>
    intro fuel hf hc hne
    cases fuel with
    | zero => simp at hf
    | succ fuel =>
      have hx : x ≠ l.end_ := by
        intro he
        apply hne
        simp [he]
      have hc' : nextOf l.heap x = some (rest.headD l.end_) ∧
          Chain (nextOf l.heap) l.end_ rest := hc
      have hrec := ih fuel (by simpa using hf) hc'.2
        (fun hm => hne (List.mem_cons_of_mem _ hm))
      simp only [List.headD_cons, LinkedList.walkNodes, LinkedList.end, hx, if_false, hc'.1,
        hrec]

theorem nodesOf_repr {l : LinkedList T} {nodes : List (Nat × T)} (h : ListRepr l nodes)
    (fuel : Nat) (hf : l.size ≤ fuel) : l.nodesOf fuel = some (addrs nodes) := by
  have hb := ListRepr_begin h
  have hsz := ListRepr_size h
  unfold LinkedList.nodesOf
  rw [hb]
  exact walkNodes_chain l (addrs nodes) fuel (by simp only [addrs, List.length_map]; omega)
    h.1.2 (List.nodup_cons.1 h.2.2.1).1

theorem callsOn_cons (side : Side) (c : Side × ListCall T) (cs : List (Side × ListCall T)) :
    callsOn side (c :: cs) = if c.1 = side then c.2 :: callsOn side cs else callsOn side cs := by
  unfold callsOn
  by_cases h : c.1 = side <;> simp [List.filter_cons, h]

/-- Calls on two lists in one memory that share no node: each list ends with the elements
that its own calls give. -/
theorem callsTwo_spec (fuel : Nat) : ∀ (cs : List (Side × ListCall T)) (s c : LinkedList T)
    (ns nc : List (Nat × T)) (rs rc : List T), TwoRepr s c ns nc →
    refCalls (ns.map Prod.snd) (callsOn .source cs) = some rs →
    refCalls (nc.map Prod.snd) (callsOn .copy cs) = some rc →
    ns.length + nc.length + cs.length ≤ fuel →
    ∃ s' c' ns' nc', callsTwo fuel (s, c) cs = some (s', c') ∧ TwoRepr s' c' ns' nc' ∧
      ns'.map Prod.snd = rs ∧ nc'.map Prod.snd = rc ∧ ns'.length + nc'.length ≤ fuel := by
  intro cs
  induction cs with
  | nil =>
    intro s c ns nc rs rc h hs hc hf
    simp only [callsOn, List.filter_nil, List.map_nil, refCalls, Option.some.injEq] at hs hc
    exact ⟨s, c, ns, nc, rfl, h, hs, hc, by simpa using hf⟩
  | cons x cs ih =>
    intro s c ns nc rs rc h hs hc hf
    obtain ⟨side, call⟩ := x
    cases side with
    | source =>
      rw [callsOn_cons] at hs hc
      simp only [if_true, refCalls] at hs
      simp only [reduceCtorEq, if_false] at hc
      cases hr1 : refCall (ns.map Prod.snd) call with
      | none => simp [hr1] at hs
      | some r1 =>
        simp only [hr1] at hs
        obtain ⟨s1, ns1, hcall, hrep1, hmap1, hfr⟩ :=
          call_repr h.1 call r1 hr1 fuel (by simp only [List.length_cons] at hf; omega)
        have h2 := two_step h hrep1 hfr
        have hlen := refCall_length hr1
        rw [← hmap1] at hlen hs
        simp only [List.length_map] at hlen
        obtain ⟨s', c', ns', nc', hrun, h3, hm1, hm2, hlen'⟩ :=
          ih s1 (c.inMemoryOf s1) ns1 nc rs rc h2 hs hc
            (by simp only [List.length_cons] at hf; omega)
        refine ⟨s', c', ns', nc', ?_, h3, hm1, hm2, hlen'⟩
        simp only [callsTwo, callTwo, hcall, hrun]
    | copy =>
      rw [callsOn_cons] at hs hc
      simp only [if_true, refCalls] at hc
      simp only [reduceCtorEq, if_false] at hs
      cases hr1 : refCall (nc.map Prod.snd) call with
      | none => simp [hr1] at hc
      | some r1 =>
        simp only [hr1] at hc
        obtain ⟨c1, nc1, hcall, hrep1, hmap1, hfr⟩ :=
          call_repr h.2.1 call r1 hr1 fuel (by simp only [List.length_cons] at hf; omega)
        have h2 := TwoRepr_symm (two_step (TwoRepr_symm h) hrep1 hfr)
        have hlen := refCall_length hr1
        rw [← hmap1] at hlen hc
        simp only [List.length_map] at hlen
        obtain ⟨s', c', ns', nc', hrun, h3, hm1, hm2, hlen'⟩ :=
          ih (s.inMemoryOf c1) c1 ns nc1 rs rc h2 hs hc
            (by simp only [List.length_cons] at hf; omega)
        refine ⟨s', c', ns', nc', ?_, h3, hm1, hm2, hlen'⟩
        simp only [callsTwo, callTwo, hcall, hrun]

end

/-- C20: copy-constructing a list that satisfies the ring invariant returns a list with
the same size and the same elements in the same order; its nodes and its sentinel are
allocated during the copy (the log is the allocation and construction of exactly its
nodes) and none of them is a node of the source, which reads as before in the memory
after the copy. Any later sequence of calls (emplace, insert, erase, element write, push,
pop, clear) made on the two lists in any interleaving returns, and leaves each list with
the elements that its own calls give from the common elements: calls on the copy leave
the element sequence of the source unchanged, and calls on the source that of the copy. -/
theorem copy_is_deep_and_isolated (T : Type) (other : LinkedList T) (h : RingInv other)
    (fuel : Nat) (hf : other.size ≤ fuel) :
    ∃ (c : LinkedList T) (ev : List MemEvent) (ref : List T) (snodes cnodes : List Nat),
      other.copy_ctor (fun _ x => some x) fuel = some (.done c, ev) ∧
      c.size = other.size ∧ other.toList fuel = some ref ∧ c.toList fuel = some ref ∧
      other.nodesOf fuel = some snodes ∧ c.nodesOf fuel = some cnodes ∧
      ev = buildLog cnodes ∧ cnodes.Nodup ∧
      (∀ a ∈ c.end_ :: cnodes, other.node_allocator_ ≤ a ∧ a ∉ other.end_ :: snodes) ∧
      (∀ a ∈ other.end_ :: snodes, a < other.node_allocator_) ∧
      RingInv c ∧ RingInv (other.inMemoryOf c) ∧
      (other.inMemoryOf c).toList fuel = some ref ∧
      (other.inMemoryOf c).nodesOf fuel = some snodes ∧
      ∀ (cs : List (Side × ListCall T)) (rs rc : List T) (fuel2 : Nat),
        refCalls ref (callsOn .source cs) = some rs →
        refCalls ref (callsOn .copy cs) = some rc →
        2 * other.size + cs.length ≤ fuel2 →
        ∃ s' c', callsTwo fuel2 (other.inMemoryOf c, c) cs = some (s', c') ∧
          s'.toList fuel2 = some rs ∧ c'.toList fuel2 = some rc ∧
          RingInv s' ∧ RingInv c' := by
  obtain ⟨nodes, hrep⟩ := repr_of_RingInv h
  have hsz := ListRepr_size hrep
  obtain ⟨c, new, hcopy, h2, hpay, hfresh⟩ := copy_ctor_done hrep fuel (by omega)
  have hlen : new.length = nodes.length := by
    have := congrArg List.length hpay
    simpa using this
  have hcsz : c.size = other.size := by rw [ListRepr_size h2.1, hsz, hlen]
  have hosz : (other.inMemoryOf c).size = other.size := rfl
  refine ⟨c, buildLog (addrs new), nodes.map Prod.snd, addrs nodes, addrs new, hcopy, hcsz,
    toList_repr hrep fuel hf, ?_, nodesOf_repr hrep fuel hf,
    nodesOf_repr h2.1 fuel (by omega), rfl, (List.nodup_cons.1 (ListRepr_nodup h2.1)).2, ?_, ?_,
    RingInv_of_repr h2.1, RingInv_of_repr h2.2.1, toList_repr h2.2.1 fuel (by omega),
    nodesOf_repr h2.2.1 fuel (by omega), ?_⟩
  · rw [toList_repr h2.1 fuel (by omega), hpay]
  · intro a ha
    exact ⟨hfresh a ha, h2.2.2.2.2 a ha⟩
  · intro a ha
    rw [List.mem_cons] at ha
    rcases ha with ha | ha
    · rw [ha]; exact hrep.2.2.2.1
    · exact hrep.2.2.2.2.1 a ha
  · intro cs rs rc fuel2 hs hc hf2
    rw [← hpay] at hc
    obtain ⟨s', c', ns', nc', hrun, h3, hm1, hm2, hl⟩ :=
      callsTwo_spec fuel2 cs (other.inMemoryOf c) c nodes new rs rc (TwoRepr_symm h2) hs hc
        (by omega)
    refine ⟨s', c', hrun, ?_, ?_, RingInv_of_repr h3.1, RingInv_of_repr h3.2.1⟩
    · rw [toList_repr h3.1 fuel2 (by rw [ListRepr_size h3.1]; omega), hm1]
    · rw [toList_repr h3.2.1 fuel2 (by rw [ListRepr_size h3.2.1]; omega), hm2]

/-- Witness for C20: the copy of the list of 1 and 2. -/
theorem copy_is_deep_and_isolated_witness :
    ∃ l : LinkedList Nat, (LinkedList.mk0 Nat).calls 2 [.push_back 1, .push_back 2] = some l ∧
      RingInv l ∧ l.size ≤ 2 ∧
      ∃ (c : LinkedList Nat) (ev : List MemEvent) (ref : List Nat) (snodes cnodes : List Nat),
        l.copy_ctor (fun _ x => some x) 2 = some (.done c, ev) ∧
        c.size = l.size ∧ l.toList 2 = some ref ∧ c.toList 2 = some ref ∧
        l.nodesOf 2 = some snodes ∧ c.nodesOf 2 = some cnodes ∧
        ev = buildLog cnodes ∧ cnodes.Nodup ∧
        (∀ a ∈ c.end_ :: cnodes, l.node_allocator_ ≤ a ∧ a ∉ l.end_ :: snodes) :=
  match reachable_ring Nat [.push_back 1, .push_back 2] [1, 2] 2 rfl (by decide) with
  | ⟨l, h1, h2, h3⟩ =>
    match copy_is_deep_and_isolated Nat l h2 2 (Nat.le_of_eq h3) with
    | ⟨c, ev, ref, sn, cn, r1, r2, r3, r4, r5, r6, r7, r8, r9, _⟩ =>
      ⟨l, h1, h2, Nat.le_of_eq h3, c, ev, ref, sn, cn, r1, r2, r3, r4, r5, r6, r7, r8, r9⟩

/-! ### A payload constructor that throws -/

theorem count_buildLog (as : List Nat) (a : Nat) :
    (buildLog as).count (.allocate a) = as.count a ∧
    (buildLog as).count (.construct a) = as.count a ∧
    (buildLog as).count (.destroy a) = 0 ∧
    (buildLog as).count (.deallocate a) = 0 := by
  induction as with
  | nil => simp [buildLog]
  | cons x as ih =>
    have hb : buildLog (x :: as) = .allocate x :: .construct x :: buildLog as := by
      simp [buildLog]
    rw [hb]
    obtain ⟨h1, h2, h3, h4⟩ := ih
    simp [List.count_cons, h1, h2, h3, h4]

theorem count_flatMap_teardown (as : List Nat) (a : Nat) :
    (as.flatMap (fun a => [MemEvent.destroy a, MemEvent.deallocate a])).count (.allocate a) = 0 ∧
    (as.flatMap (fun a => [MemEvent.destroy a, MemEvent.deallocate a])).count (.construct a) = 0 ∧
    (as.flatMap (fun a => [MemEvent.destroy a, MemEvent.deallocate a])).count (.destroy a)
      = as.count a ∧
    (as.flatMap (fun a => [MemEvent.destroy a, MemEvent.deallocate a])).count (.deallocate a)
      = as.count a := by
  induction as with
  | nil => simp
  | cons x as ih =>
    obtain ⟨h1, h2, h3, h4⟩ := ih
    simp [List.count_cons, h1, h2, h3, h4]

theorem count_teardownLog (as : List Nat) (a : Nat) :
    (teardownLog as).count (.allocate a) = 0 ∧
    (teardownLog as).count (.construct a) = 0 ∧
    (teardownLog as).count (.destroy a) = as.count a ∧
    (teardownLog as).count (.deallocate a) = as.count a := by
  have h := count_flatMap_teardown as.reverse a
  have hr : as.reverse.count a = as.count a := (List.reverse_perm as).count_eq a
  rw [hr] at h
  exact h

/-- In the log of a construction that fails after building the nodes `built`, each of
them is allocated, constructed, destroyed and deallocated exactly once; the node `f`
whose payload constructor threw is allocated and deallocated once, and neither
constructed nor destroyed. -/
theorem count_failed_log (built : List Nat) (f : Nat) (hnd : (f :: built).Nodup) :
    (∀ a ∈ built,
      (buildLog built ++ [MemEvent.allocate f, MemEvent.deallocate f] ++ teardownLog built).count (MemEvent.allocate a)
        = 1 ∧
      (buildLog built ++ [MemEvent.allocate f, MemEvent.deallocate f] ++ teardownLog built).count (MemEvent.construct a)
        = 1 ∧
      (buildLog built ++ [MemEvent.allocate f, MemEvent.deallocate f] ++ teardownLog built).count (MemEvent.destroy a)
        = 1 ∧
      (buildLog built ++ [MemEvent.allocate f, MemEvent.deallocate f] ++ teardownLog built).count (MemEvent.deallocate a)
        = 1) ∧
    (buildLog built ++ [MemEvent.allocate f, MemEvent.deallocate f] ++ teardownLog built).count (MemEvent.allocate f)
      = 1 ∧
    (buildLog built ++ [MemEvent.allocate f, MemEvent.deallocate f] ++ teardownLog built).count (MemEvent.construct f)
      = 0 ∧
    (buildLog built ++ [MemEvent.allocate f, MemEvent.deallocate f] ++ teardownLog built).count (MemEvent.destroy f)
      = 0 ∧
    (buildLog built ++ [MemEvent.allocate f, MemEvent.deallocate f] ++ teardownLog built).count (MemEvent.deallocate f)
      = 1 := by
  obtain ⟨hf, hb⟩ := List.nodup_cons.1 hnd
  have hf0 : built.count f = 0 := List.count_eq_zero_of_not_mem hf
  refine ⟨?_, ?_⟩
  · intro a ha
    have ha1 : built.count a = 1 := List.count_eq_one_of_mem hb ha
    have hne : f ≠ a := fun he => hf (he ▸ ha)
    obtain ⟨b1, b2, b3, b4⟩ := count_buildLog built a
    obtain ⟨t1, t2, t3, t4⟩ := count_teardownLog built a
    simp [List.count_append, List.count_cons, b1, b2, b3, b4, t1, t2, t3, t4, ha1, hne]
  · obtain ⟨b1, b2, b3, b4⟩ := count_buildLog built f
    obtain ⟨t1, t2, t3, t4⟩ := count_teardownLog built f
    simp [List.count_append, List.count_cons, b1, b2, b3, b4, t1, t2, t3, t4, hf0]

section
variable {T : Type}

/-- The loop of `make_list` when `construct` returns in the first `m` rounds and throws
in the next one: the exception leaves the loop with the `m` nodes built linked in. -/
theorem make_list_loop_throw (ctor : Nat → Option T) : ∀ (n m i : Nat) (l : LinkedList T)
    (nodes : List (Nat × T)), ListRepr l nodes → m < n →
    (∀ j, j < m → (ctor (i + j)).isSome = true) → ctor (i + m) = none →
    ∃ l' new, LinkedList.make_list_loop ctor n i l
        = some (.threw l', buildLog (addrs new) ++
            [MemEvent.allocate (l.node_allocator_ + m),
             MemEvent.deallocate (l.node_allocator_ + m)]) ∧
      ListRepr l' (nodes ++ new) ∧ new.length = m ∧
      (∀ a ∈ addrs new, l.node_allocator_ ≤ a ∧ a < l.node_allocator_ + m) ∧
      l'.end_ = l.end_ := by
  intro n
  induction n with
  | zero =>
    intro m i l nodes _ hm
    omega
  | succ n ih =>
    intro m i l nodes h hm hsome hnone
    cases m with
    | zero =>
      have hnone' : ctor i = none := hnone
      refine ⟨l.emplace_throwing.1, [], ?_, ?_, rfl, by simp [addrs], rfl⟩
      · simp [LinkedList.make_list_loop, hnone', LinkedList.emplace_throwing, buildLog, addrs]
      · have : ListRepr l.emplace_throwing.1 nodes :=
          ListRepr_of_readers h rfl rfl (Nat.le_succ _) (fun _ _ => ⟨rfl, rfl, rfl⟩)
        simpa using this
    | succ m =>
      have hs := hsome 0 (Nat.succ_pos _)
      obtain ⟨v, hv⟩ := Option.isSome_iff_exists.1 hs
      have hv' : ctor i = some v := hv
      have h0 : ListRepr l (nodes ++ []) := by simpa using h
      obtain ⟨l1, hem, hrep1, hbump1, hfr⟩ := emplace_step h0 v
      have hem' : l.emplace l.end v = some l1 := by
        simpa [LinkedList.end, addrs] using hem
      obtain ⟨l', new, hloop, hrep', hlen, hrange, hend⟩ :=
        ih m (i + 1) l1 (nodes ++ [(l.node_allocator_, v)]) hrep1 (by omega)
          (fun j hj => by
            have := hsome (j + 1) (by omega)
            rwa [show i + (j + 1) = i + 1 + j by omega] at this)
          (by rwa [show i + (m + 1) = i + 1 + m by omega] at hnone)
      refine ⟨l', (l.node_allocator_, v) :: new, ?_, ?_, ?_, ?_, ?_⟩
      · simp only [LinkedList.make_list_loop, hv', hem', hloop]
        rw [hbump1]
        simp [emplaceLog, buildLog, addrs, Nat.add_assoc, Nat.add_comm 1 m]
      · simpa using hrep'
      · simp [hlen]
      · intro a ha
        simp only [addrs, List.map_cons, List.mem_cons] at ha
        rcases ha with ha | ha
        · omega
        · have := hrange a ha
          omega
      · rw [hend, hfr.1]

/-- The loop of the copy constructor when `construct` returns in the first `m` rounds and
throws in the next one. -/
theorem copy_loop_throw (ctor : Nat → T → Option T) : ∀ (rest : List (Nat × T))
    (m fuel i : Nat) (done : List (Nat × T)) (src self : LinkedList T)
    (cnodes : List (Nat × T)), TwoRepr self src cnodes (done ++ rest) → m < fuel →
    (∀ j x, j < m → rest[j]? = some x → (ctor (i + j) x.2).isSome = true) →
    (∃ x, rest[m]? = some x ∧ ctor (i + m) x.2 = none) →
    ∃ self' new, LinkedList.copy_loop ctor src.end fuel i ((addrs rest).headD src.end_) self
        = some (.threw self', buildLog (addrs new) ++
            [MemEvent.allocate (self.node_allocator_ + m),
             MemEvent.deallocate (self.node_allocator_ + m)]) ∧
      TwoRepr self' (src.inMemoryOf self') (cnodes ++ new) (done ++ rest) ∧ new.length = m ∧
      (∀ a ∈ addrs new, self.node_allocator_ ≤ a ∧ a < self.node_allocator_ + m) ∧
      self'.end_ = self.end_ := by
  intro rest
  induction rest with
  | nil =>
    intro m fuel i done src self cnodes _ _ _ hnone
    obtain ⟨x, hx, _⟩ := hnone
    simp at hx
  | cons x rest ih =>
    intro m fuel i done src self cnodes h hf hsome hnone
    have hhead : (addrs (x :: rest)).headD src.end_ = x.1 := rfl
    cases fuel with
    | zero => omega
    | succ fuel =>
      cases m with
      | zero =>
        obtain ⟨y, hy, hnone'⟩ := hnone
        simp only [List.getElem?_cons_zero, Option.some.injEq] at hy
        subst hy
        have hnone2 : ctor i x.2 = none := hnone'
        obtain ⟨hne, hval, _⟩ := copy_round h x.2
        refine ⟨self.emplace_throwing.1, [], ?_, ?_, rfl, by simp [addrs], rfl⟩
        · rw [hhead]
          simp [LinkedList.copy_loop, LinkedList.end, hne, hval, hnone2,
            LinkedList.emplace_throwing, buildLog, addrs]
        · simpa using emplace_throwing_two h
      | succ m =>
        have hs := hsome 0 x (Nat.succ_pos _) (by simp)
        obtain ⟨v, hv⟩ := Option.isSome_iff_exists.1 hs
        have hv' : ctor i x.2 = some v := hv
        obtain ⟨hne, hval, self1, hpb, hnx, h2, hbump, hend⟩ := copy_round h v
        obtain ⟨y, hy, hnone'⟩ := hnone
        obtain ⟨self', new, hloop, h3, hlen, hrange, hend'⟩ :=
          ih m fuel (i + 1) (done ++ [x]) (src.inMemoryOf self1) self1
            (cnodes ++ [(self.node_allocator_, v)]) h2 (by omega)
            (fun j z hj hz => by
              have := hsome (j + 1) z (by omega) (by simpa using hz)
              rwa [show i + (j + 1) = i + 1 + j by omega] at this)
            ⟨y, by simpa using hy, by rwa [show i + (m + 1) = i + 1 + m by omega] at hnone'⟩
        refine ⟨self', (self.node_allocator_, v) :: new, ?_, ?_, ?_, ?_, ?_⟩
        · have hloop' : LinkedList.copy_loop ctor src.end_ fuel (i + 1)
              ((addrs rest).headD src.end_) self1
              = some (.threw self', buildLog (addrs new) ++
                [MemEvent.allocate (self1.node_allocator_ + m),
                 MemEvent.deallocate (self1.node_allocator_ + m)]) := hloop
          rw [hhead]
          simp only [LinkedList.copy_loop, LinkedList.end, hne, if_false, hval, hv', hpb, hnx,
            hloop']
          rw [hbump]
          simp [emplaceLog, buildLog, addrs, Nat.add_assoc, Nat.add_comm 1 m]
        · have h4 : TwoRepr self' (src.inMemoryOf self')
              ((cnodes ++ [(self.node_allocator_, v)]) ++ new) ((done ++ [x]) ++ rest) := h3
          simpa using h4
        · simp [hlen]
        · intro a ha
          simp only [addrs, List.map_cons, List.mem_cons] at ha
          rcases ha with ha | ha
          · omega
          · have := hrange a ha
            omega
        · rw [hend', hend]

end

section
variable {T : Type}

theorem ListRepr_nil_links {l : LinkedList T} (h : ListRepr l []) :
    l.size = 0 ∧ nextOf l.heap l.end_ = some l.end_ ∧ prevOf l.heap l.end_ = some l.end_ :=
  ⟨ListRepr_size h, h.1.1, h.2.1.1⟩

/-- The filling constructors when `construct` returns in the first `m` rounds and throws
in the next one. -/
theorem ctor_fill_throw (size m : Nat) (ctor : Nat → Option T) (fuel : Nat) (hm : m < size)
    (hsome : ∀ j, j < m → (ctor j).isSome = true) (hnone : ctor m = none) (hf : m ≤ fuel) :
    ∃ l built f, LinkedList.ctor_fill size ctor fuel
        = some (.threw l, buildLog built ++ [MemEvent.allocate f, MemEvent.deallocate f] ++
            teardownLog built) ∧
      ListRepr l [] ∧ built.length = m ∧ (f :: built).Nodup := by
  obtain ⟨l1, new, hloop, hrep1, hlen, hrange, _⟩ :=
    make_list_loop_throw ctor size m 0 (LinkedList.mk0 T) [] ListRepr_mk0 hm
      (fun j hj => by simpa using hsome j hj) (by simpa using hnone)
  have hrep1' : ListRepr l1 new := by simpa using hrep1
  obtain ⟨l2, hclear, hrep2, _, _⟩ := clearE_spec fuel new l1 hrep1' (by omega)
  refine ⟨l2, addrs new, (LinkedList.mk0 T).node_allocator_ + m, ?_, hrep2, ?_, ?_⟩
  · simp only [LinkedList.ctor_fill, LinkedList.make_list, hloop, hclear]
  · simp [addrs, hlen]
  · refine List.nodup_cons.2 ⟨?_, (List.nodup_cons.1 (ListRepr_nodup hrep1')).2⟩
    intro hmem
    have := hrange _ hmem
    omega

/-- The copy constructor when `construct` returns in the first `m` rounds and throws in
the next one. -/
theorem copy_ctor_throw {other : LinkedList T} {nodes : List (Nat × T)}
    (h : ListRepr other nodes) (ctor : Nat → T → Option T) (m fuel : Nat)
    (hf : nodes.length ≤ fuel)
    (hsome : ∀ j x, j < m → nodes[j]? = some x → (ctor j x.2).isSome = true)
    (hnone : ∃ x, nodes[m]? = some x ∧ ctor m x.2 = none) :
    ∃ l built f, other.copy_ctor ctor fuel
        = some (.threw l, buildLog built ++ [MemEvent.allocate f, MemEvent.deallocate f] ++
            teardownLog built) ∧
      TwoRepr l (other.inMemoryOf l) [] nodes ∧ built.length = m ∧ (f :: built).Nodup ∧
      ∀ a ∈ l.end_ :: f :: built, other.node_allocator_ ≤ a := by
  have hmlt : m < nodes.length := by
    obtain ⟨x, hx, _⟩ := hnone
    exact (List.getElem?_eq_some_iff.1 hx).1
  obtain ⟨l1, new, hloop, h2, hlen, hrange, hend⟩ :=
    copy_loop_throw ctor nodes m fuel 0 [] (other.inMemoryOf other.copy_init) other.copy_init []
      (copy_init_two h) (by omega) (fun j x hj hx => by simpa using hsome j x hj hx)
      (by simpa using hnone)
  have h2' : TwoRepr l1 (other.inMemoryOf l1) new nodes := by
    have : TwoRepr l1 (other.inMemoryOf l1) ([] ++ new) ([] ++ nodes) := h2
    simpa using this
  obtain ⟨l2, hclear, hrep2, _, hfr⟩ := clearE_spec fuel new l1 h2'.1 (by omega)
  have h3 : TwoRepr l2 ((other.inMemoryOf l1).inMemoryOf l2) [] nodes :=
    two_step h2' hrep2 hfr
  have hbump : other.copy_init.node_allocator_ = other.node_allocator_ + 1 := rfl
  refine ⟨l2, addrs new, other.copy_init.node_allocator_ + m, ?_, h3, ?_, ?_, ?_⟩
  · have hb : other.begin = some ((addrs nodes).headD other.end_) := ListRepr_begin h
    have hloop' : LinkedList.copy_loop ctor other.end fuel 0
        ((addrs nodes).headD other.end_) other.copy_init
        = some (.threw l1, buildLog (addrs new) ++
          [MemEvent.allocate (other.copy_init.node_allocator_ + m),
           MemEvent.deallocate (other.copy_init.node_allocator_ + m)]) := hloop
    simp only [LinkedList.copy_ctor, hb, hloop', hclear]
  · simp [addrs, hlen]
  · refine List.nodup_cons.2 ⟨?_, (List.nodup_cons.1 (ListRepr_nodup h2'.1)).2⟩
    intro hmem
    have := hrange _ hmem
    omega
  · intro a ha
    simp only [List.mem_cons] at ha
    rcases ha with ha | ha | ha
    · rw [ha, hfr.1, hend]
      exact Nat.le_refl _
    · omega
    · have := hrange a ha
      omega

end

/-- C19: if the payload constructor fails on the `k`-th element, `1 ≤ k ≤ size`, while
`List(size, value)` or `List(size)` is filling the list, or while the copy constructor is
copying a list of at least `k` elements, the constructor ends by throwing and the list
under construction is left empty: size() == 0 and the sentinel is linked to itself in
both directions. In the log of the allocator and constructor calls each of the `k - 1`
nodes already built is allocated, constructed, destroyed and deallocated exactly once,
and the node whose payload failed is allocated and deallocated once and neither
constructed nor destroyed. After a failed copy the source iterates as before. So the call
`List(4, value)` whose third payload constructor throws builds nodes 1 and 2, gives node 3
back, and tears down node 2 and then node 1. -/
theorem failed_construction_leaves_empty_list :
    (∀ (T : Type) (size k : Nat) (ctor : Nat → Option T) (fuel : Nat),
      1 ≤ k → k ≤ size → k ≤ fuel →
      (∀ j, j + 1 < k → (ctor j).isSome = true) → ctor (k - 1) = none →
      ∃ (l : LinkedList T) (log : List MemEvent) (built : List Nat) (f : Nat),
        LinkedList.ctor_fill size ctor fuel = some (.threw l, log) ∧
        l.size = 0 ∧ nextOf l.heap l.end_ = some l.end_ ∧
        prevOf l.heap l.end_ = some l.end_ ∧ l.toList fuel = some [] ∧
        log = buildLog built ++ [MemEvent.allocate f, MemEvent.deallocate f] ++
          teardownLog built ∧
        built.length = k - 1 ∧ (f :: built).Nodup ∧
        (∀ a ∈ built, log.count (MemEvent.allocate a) = 1 ∧
          log.count (MemEvent.construct a) = 1 ∧ log.count (MemEvent.destroy a) = 1 ∧
          log.count (MemEvent.deallocate a) = 1) ∧
        log.count (MemEvent.allocate f) = 1 ∧ log.count (MemEvent.construct f) = 0 ∧
        log.count (MemEvent.destroy f) = 0 ∧ log.count (MemEvent.deallocate f) = 1) ∧
    (∀ (T : Type) (other : LinkedList T) (ref : List T) (k : Nat)
      (ctor : Nat → T → Option T) (fuel : Nat),
      RingInv other → other.size ≤ fuel → other.toList fuel = some ref →
      1 ≤ k → k ≤ other.size →
      (∀ j x, j + 1 < k → ref[j]? = some x → (ctor j x).isSome = true) →
      (∀ x, ref[k - 1]? = some x → ctor (k - 1) x = none) →
      ∃ (l : LinkedList T) (log : List MemEvent) (built : List Nat) (f : Nat),
        other.copy_ctor ctor fuel = some (.threw l, log) ∧
        l.size = 0 ∧ nextOf l.heap l.end_ = some l.end_ ∧
        prevOf l.heap l.end_ = some l.end_ ∧ l.toList fuel = some [] ∧
        log = buildLog built ++ [MemEvent.allocate f, MemEvent.deallocate f] ++
          teardownLog built ∧
        built.length = k - 1 ∧ (f :: built).Nodup ∧
        (∀ a ∈ built, log.count (MemEvent.allocate a) = 1 ∧
          log.count (MemEvent.construct a) = 1 ∧ log.count (MemEvent.destroy a) = 1 ∧
          log.count (MemEvent.deallocate a) = 1) ∧
        log.count (MemEvent.allocate f) = 1 ∧ log.count (MemEvent.construct f) = 0 ∧
        log.count (MemEvent.destroy f) = 0 ∧ log.count (MemEvent.deallocate f) = 1 ∧
        (other.inMemoryOf l).toList fuel = some ref) ∧
    (∃ l : LinkedList Nat,
      LinkedList.ctor_fill 4 (fun i => if i = 2 then none else some 7) 4
        = some (.threw l,
            [.allocate 1, .construct 1, .allocate 2, .construct 2, .allocate 3, .deallocate 3,
             .destroy 2, .deallocate 2, .destroy 1, .deallocate 1]) ∧
      l.size = 0 ∧ nextOf l.heap l.end_ = some l.end_ ∧
      prevOf l.heap l.end_ = some l.end_) := by
  refine ⟨?_, ?_, ?_⟩
  · intro T size k ctor fuel hk1 hks hkf hsome hnone
    obtain ⟨l, built, f, hrun, hrep, hlen, hnd⟩ :=
      ctor_fill_throw size (k - 1) ctor fuel (by omega)
        (fun j hj => hsome j (by omega)) hnone (by omega)
    obtain ⟨hs, hn, hp⟩ := ListRepr_nil_links hrep
    obtain ⟨hc1, hc2⟩ := count_failed_log built f hnd
    exact ⟨l, _, built, f, hrun, hs, hn, hp,
      toList_repr hrep fuel (by rw [hs]; exact Nat.zero_le _), rfl, hlen, hnd, hc1, hc2⟩
  · intro T other ref k ctor fuel hring hf href hk1 hks hsome hnone
    obtain ⟨nodes, hrep⟩ := repr_of_RingInv hring
    have hsz := ListRepr_size hrep
    have href' : ref = nodes.map Prod.snd := by
      rw [toList_repr hrep fuel hf] at href
      exact (Option.some.inj href).symm
    subst href'
    have hmlt : k - 1 < nodes.length := by omega
    obtain ⟨l, built, f, hrun, h2, hlen, hnd, _⟩ :=
      copy_ctor_throw hrep ctor (k - 1) fuel (by omega)
        (fun j x hj hx => hsome j x.2 (by omega) (by simp [List.getElem?_map, hx]))
        ⟨nodes.get ⟨k - 1, hmlt⟩, List.getElem?_eq_getElem hmlt,
          hnone _ (by simp [List.getElem?_map, List.getElem?_eq_getElem hmlt])⟩
    obtain ⟨hs, hn, hp⟩ := ListRepr_nil_links h2.1
    obtain ⟨hc1, hc2, hc3, hc4, hc5⟩ := count_failed_log built f hnd
    exact ⟨l, _, built, f, hrun, hs, hn, hp,
      toList_repr h2.1 fuel (by rw [hs]; exact Nat.zero_le _), rfl, hlen, hnd, hc1, hc2, hc3,
      hc4, hc5, toList_repr h2.2.1 fuel hf⟩
  · exact ⟨_, rfl, rfl, rfl, rfl⟩

/-- Witness for C19: `List(4, value)` whose third payload constructor throws. -/
theorem failed_construction_leaves_empty_list_witness :
    (1 ≤ 3 ∧ 3 ≤ 4 ∧ (fun i : Nat => if i = 2 then none else some 7) (3 - 1) = none) ∧
    (∃ (l : LinkedList Nat) (log : List MemEvent) (built : List Nat) (f : Nat),
      LinkedList.ctor_fill 4 (fun i => if i = 2 then none else some 7) 4
        = some (.threw l, log) ∧
      l.size = 0 ∧ nextOf l.heap l.end_ = some l.end_ ∧
      prevOf l.heap l.end_ = some l.end_ ∧ l.toList 4 = some [] ∧
      log = buildLog built ++ [MemEvent.allocate f, MemEvent.deallocate f] ++
        teardownLog built ∧
      built.length = 3 - 1 ∧ (f :: built).Nodup) ∧
    (∃ other : LinkedList Nat,
      (LinkedList.mk0 Nat).calls 2 [.push_back 1, .push_back 2] = some other ∧
      RingInv other ∧ other.size = 2 ∧
      ∃ (l : LinkedList Nat) (log : List MemEvent) (ref : List Nat),
        other.toList 2 = some ref ∧
        other.copy_ctor (fun j _ => if j = 1 then none else some 0) 2 = some (.threw l, log) ∧
        l.size = 0 ∧ nextOf l.heap l.end_ = some l.end_ ∧
        prevOf l.heap l.end_ = some l.end_ ∧ (other.inMemoryOf l).toList 2 = some ref) :=
  ⟨⟨by decide, by decide, rfl⟩,
    (match failed_construction_leaves_empty_list.1 Nat 4 3
      (fun i => if i = 2 then none else some 7) 4 (by decide) (by decide) (by decide)
      (fun j hj => by
        have hj2 : j ≠ 2 := by omega
        simp [hj2]) rfl with
    | ⟨l, log, built, f, r1, r2, r3, r4, r5, r6, r7, r8, _⟩ =>
      ⟨l, log, built, f, r1, r2, r3, r4, r5, r6, r7, r8⟩),
    (match reachable_ring Nat [.push_back 1, .push_back 2] [1, 2] 2 rfl (by decide) with
    | ⟨other, h1, h2, h3⟩ =>
      match repr_of_RingInv h2 with
      | ⟨nodes, hrep⟩ =>
        match failed_construction_leaves_empty_list.2.1 Nat other (nodes.map Prod.snd) 2
          (fun j _ => if j = 1 then none else some 0) 2 h2 (Nat.le_of_eq h3)
          (toList_repr hrep 2 (Nat.le_of_eq h3)) (by decide) (Nat.le_of_eq h3.symm)
          (fun j _ hj _ => by
            have hj1 : j ≠ 1 := by omega
            simp [hj1]) (fun _ _ => rfl) with
        | ⟨l, log, _, _, r1, r2, r3, r4, _, _, _, _, _, _, _, _, _, r5⟩ =>
          ⟨other, h1, h2, h3, l, log, nodes.map Prod.snd,
            toList_repr hrep 2 (Nat.le_of_eq h3), r1, r2, r3, r4, r5⟩)⟩

end ListH
namespace ListH

/-! ## The move constructor and the move assignment of `List` -/

section
variable {T : Type}

theorem setNext_reads {h h1 : Heap T} {p v : Nat} (hs : setNext h p v = some h1) :
    (∀ x, nextOf h1 x = if x = p then some v else nextOf h x) ∧
    (∀ x, prevOf h1 x = prevOf h x) ∧ (∀ x, valueOf h1 x = valueOf h x) ∧
    (∀ x, (h1 x).isSome = (h x).isSome) := by
  obtain ⟨c, hc, rfl⟩ := setNext_eq hs
  refine ⟨?_, ?_, ?_, ?_⟩ <;> intro x <;> by_cases hx : x = p <;>
    simp [nextOf, prevOf, valueOf, Heap.store, hx, hc]

theorem setPrevious_reads {h h1 : Heap T} {p v : Nat} (hs : setPrevious h p v = some h1) :
    (∀ x, nextOf h1 x = nextOf h x) ∧
    (∀ x, prevOf h1 x = if x = p then some v else prevOf h x) ∧
    (∀ x, valueOf h1 x = valueOf h x) ∧ (∀ x, (h1 x).isSome = (h x).isSome) := by
  obtain ⟨c, hc, rfl⟩ := setPrevious_eq hs
  refine ⟨?_, ?_, ?_, ?_⟩ <;> intro x <;> by_cases hx : x = p <;>
    simp [nextOf, prevOf, valueOf, Heap.store, hx, hc]

theorem setNext_some {h : Heap T} {p : Nat} (v : Nat) (hp : (h p).isSome = true) :
    ∃ h1, setNext h p v = some h1 := by
  obtain ⟨c, hc⟩ := Option.isSome_iff_exists.1 hp
  exact ⟨h.store p (some { c with next := v }), by simp [setNext, hc]⟩

theorem setPrevious_some {h : Heap T} {p : Nat} (v : Nat) (hp : (h p).isSome = true) :
    ∃ h1, setPrevious h p v = some h1 := by
  obtain ⟨c, hc⟩ := Option.isSome_iff_exists.1 hp
  exact ⟨h.store p (some { c with previous := v }), by simp [setPrevious, hc]⟩

/-- What the memory reads after `BaseNode(BaseNode&& other)` has built the node at the
fresh address `e` from the node at `o`, whose links are `nx` and `pv`. -/
theorem BaseNode_move_ctor_reads {h : Heap T} {e o nx pv : Nat} (hnx : nextOf h o = some nx)
    (hpv : prevOf h o = some pv) (hnxa : (h nx).isSome = true) (hpva : (h pv).isSome = true)
    (hne : nx ≠ e) (hpe : pv ≠ e) (hoe : o ≠ e) :
    ∃ h', BaseNode.move_ctor h e o = some h' ∧
      (∀ x, nextOf h' x = if x = o then some o else if x = pv then some e
        else if x = e then some nx else nextOf h x) ∧
      (∀ x, prevOf h' x = if x = o then some o else if x = nx then some e
        else if x = e then some pv else prevOf h x) ∧
      (∀ x, valueOf h' x = if x = e then none else valueOf h x) := by
  have hoa : (h o).isSome = true := by
    obtain ⟨c, hc⟩ := alloc_of_link (Or.inl hnx)
    simp [hc]
  have hst : ∀ x, x ≠ e → (h.store e (some ⟨nx, pv, none⟩)) x = h x := by
    intro x hx
    simp [Heap.store, hx]
  have hn0 : nextOf (h.store e (some ⟨nx, pv, none⟩)) e = some nx := by
    simp [nextOf, Heap.store]
  obtain ⟨h1, hs1⟩ := setPrevious_some (h := h.store e (some ⟨nx, pv, none⟩)) e
    (by rw [hst nx hne]; exact hnxa)
  obtain ⟨r1n, r1p, r1v, r1a⟩ := setPrevious_reads hs1
  have hp1 : prevOf h1 e = some pv := by
    rw [r1p, if_neg (Ne.symm hne)]
    simp [prevOf, Heap.store]
  obtain ⟨h2, hs2⟩ := setNext_some (h := h1) e (by rw [r1a, hst pv hpe]; exact hpva)
  obtain ⟨r2n, r2p, r2v, r2a⟩ := setNext_reads hs2
  obtain ⟨h3, hs3⟩ := setNext_some (h := h2) o (p := o) (by rw [r2a, r1a, hst o hoe]; exact hoa)
  obtain ⟨r3n, r3p, r3v, r3a⟩ := setNext_reads hs3
  obtain ⟨h4, hs4⟩ := setPrevious_some (h := h3) o (p := o)
    (by rw [r3a, r2a, r1a, hst o hoe]; exact hoa)
  obtain ⟨r4n, r4p, r4v, r4a⟩ := setPrevious_reads hs4
  refine ⟨h4, ?_, ?_, ?_, ?_⟩
  · simp only [BaseNode.move_ctor, hnx, hpv, hn0, hs1, hp1, hs2, hs3, hs4]
  · intro x
    rw [r4n, r3n, r2n, r1n]
    by_cases hxo : x = o
    · simp [hxo]
    · by_cases hxp : x = pv
      · simp [hxo, hxp]
      · by_cases hxe : x = e
        · simp [hxo, hxp, hxe, nextOf, Heap.store]
        · simp [hxo, hxp, hxe, nextOf, Heap.store]
  · intro x
    rw [r4p, r3p, r2p, r1p]
    by_cases hxo : x = o
    · simp [hxo]
    · by_cases hxn : x = nx
      · simp [hxo, hxn]
      · by_cases hxe : x = e
        · simp [hxo, hxn, hxe, prevOf, Heap.store]
        · simp [hxo, hxn, hxe, prevOf, Heap.store]
  · intro x
    rw [r4v, r3v, r2v, r1v]
    by_cases hxe : x = e
    · simp [hxe, valueOf, Heap.store]
    · simp [hxe, valueOf, Heap.store]

theorem Chain_isSome {f : Nat → Option Nat} {e : Nat} :
    ∀ {L : List Nat}, Chain f e L → ∀ x ∈ L, (f x).isSome = true := by
  intro L
  induction L with
  | nil => intro _ x hx; simp at hx
  | cons y rest ih =>
    intro hc x hx
    rw [List.mem_cons] at hx
    rcases hx with hx | hx
    · rw [hx, hc.1]; rfl
    · exact ih hc.2 x hx

/-- The move constructor on a well formed source: the source is left empty, with its
sentinel linked to itself; the new list holds the nodes of a non-empty source in their
order, and after an empty source the links of the new sentinel point to the sentinel of
the source. -/
theorem move_ctor_repr {other : LinkedList T} {nodes : List (Nat × T)}
    (h : ListRepr other nodes) :
    ∃ new other', other.move_ctor = some (new, other') ∧ ListRepr other' [] ∧
      new.size = other.size ∧ new.end_ = other.node_allocator_ ∧ other'.end_ = other.end_ ∧
      new.heap = other'.heap ∧
      (nodes ≠ [] → ListRepr new nodes) ∧
      (nodes = [] → nextOf new.heap new.end_ = some other.end_ ∧
        prevOf new.heap new.end_ = some other.end_) := by
  obtain ⟨hnxc, hpvc, hnd, hebump, hbump, hve, hvals, hsz⟩ := h
  have hlt : ∀ x ∈ other.end_ :: addrs nodes, x < other.node_allocator_ := by
    intro x hx
    rw [List.mem_cons] at hx
    rcases hx with hx | hx
    · rw [hx]; exact hebump
    · exact hbump x hx
  have hnx : nextOf other.heap other.end_ = some ((addrs nodes).headD other.end_) := hnxc.1
  have hpv : prevOf other.heap other.end_ = some ((addrs nodes).getLastD other.end_) := by
    have := hpvc.1
    rwa [headD_reverse] at this
  have hnxm := headD_mem_cons (addrs nodes) other.end_
  have hpvm := getLastD_mem_cons (addrs nodes) other.end_
  have hall : ∀ x ∈ other.end_ :: addrs nodes, (other.heap x).isSome = true := by
    intro x hx
    have := Chain_isSome hnxc x hx
    obtain ⟨y, hy⟩ := Option.isSome_iff_exists.1 this
    obtain ⟨c, hc⟩ := alloc_of_link (Or.inl hy)
    simp [hc]
  obtain ⟨h', hmv, rn, rp, rv⟩ := BaseNode_move_ctor_reads hnx hpv (hall _ hnxm) (hall _ hpvm)
    (Nat.ne_of_lt (hlt _ hnxm)) (Nat.ne_of_lt (hlt _ hpvm)) (Nat.ne_of_lt hebump)
  have hoe : other.end_ ≠ other.node_allocator_ := Nat.ne_of_lt hebump
  refine ⟨⟨h', other.node_allocator_ + 1, other.node_allocator_, other.size_⟩,
    ⟨h', other.node_allocator_ + 1, other.end_, 0⟩, ?_, ?_, rfl, rfl, rfl, rfl, ?_, ?_⟩
  · simp only [LinkedList.move_ctor, hmv]
  · refine ⟨?_, ?_, by simp [addrs], Nat.lt_succ_of_lt hebump, by simp [addrs], ?_,
      by simp, rfl⟩
    · show Chain (nextOf h') other.end_ [other.end_]
      exact ⟨by rw [rn, if_pos rfl]; rfl, trivial⟩
    · show Chain (prevOf h') other.end_ [other.end_]
      exact ⟨by rw [rp, if_pos rfl]; rfl, trivial⟩
    · show valueOf h' other.end_ = none
      rw [rv, if_neg hoe]
      exact hve
  · intro hne
    obtain ⟨x, rest, hxs⟩ := List.exists_cons_of_ne_nil hne
    have hA : addrs nodes = x.1 :: addrs rest := by rw [hxs]; rfl
    have hndA : (addrs nodes).Nodup := (List.nodup_cons.1 hnd).2
    have hoA : other.end_ ∉ addrs nodes := (List.nodup_cons.1 hnd).1
    have heA : other.node_allocator_ ∉ addrs nodes := fun hc =>
      Nat.lt_irrefl _ (hbump _ hc)
    have hfirst : (addrs nodes).headD other.end_ = x.1 := by rw [hA]; rfl
    have hlastm : (addrs nodes).getLastD other.end_ ∈ addrs nodes := by
      rw [hA, List.getLastD_cons]
      exact getLastD_mem_cons _ _
    have hlast' : (addrs nodes).getLastD other.end_ = (addrs rest).getLastD x.1 := by
      rw [hA, List.getLastD_cons]
    refine ⟨?_, ?_, ?_, Nat.lt_succ_self _, ?_, ?_, ?_, hsz⟩
    · show Chain (nextOf h') other.node_allocator_ (other.node_allocator_ :: addrs nodes)
      refine ⟨?_, ?_⟩
      · rw [rn, if_neg (Ne.symm hoe), if_neg, if_pos rfl, hfirst, hA]
        · rfl
        · intro hc
          exact heA (hc ▸ hlastm)
      · rw [hA]
        refine Chain_retarget (addrs rest) x.1 (hA ▸ hndA) (hA ▸ hnxc.2) ?_ ?_
        · intro z hz hzl
          rw [← hA] at hz
          have h1 : ¬ z = other.end_ := fun hc => hoA (hc ▸ hz)
          have h2 : ¬ z = (addrs nodes).getLastD other.end_ := by rw [hlast']; exact hzl
          have h3 : ¬ z = other.node_allocator_ := fun hc => heA (hc ▸ hz)
          rw [rn, if_neg h1, if_neg h2, if_neg h3]
        · have h1 : ¬ (addrs rest).getLastD x.1 = other.end_ := fun hc =>
            hoA (by rw [← hc, ← hlast']; exact hlastm)
          rw [rn, if_neg h1, if_pos hlast'.symm]
    · show Chain (prevOf h') other.node_allocator_
        (other.node_allocator_ :: (addrs nodes).reverse)
      have hrne : (addrs nodes).reverse ≠ [] := by rw [hA]; simp
      obtain ⟨b, B, hB⟩ := List.exists_cons_of_ne_nil hrne
      have hBl : B.getLastD b = x.1 := by
        have := getLastD_reverse (addrs nodes) other.end_
        rw [hB, List.getLastD_cons, hfirst] at this
        exact this
      have hBh : b = (addrs nodes).getLastD other.end_ := by
        have := headD_reverse (addrs nodes) other.end_
        rw [hB] at this
        exact this
      have hmemB : ∀ z, z ∈ b :: B → z ∈ addrs nodes := by
        intro z hz
        rw [← hB] at hz
        exact List.mem_reverse.1 hz
      refine ⟨?_, ?_⟩
      · rw [rp, if_neg (Ne.symm hoe), if_neg, if_pos rfl, hB, hBh]
        · rfl
        · intro hc
          rw [hfirst] at hc
          have hxA : x.1 ∈ addrs nodes := by rw [hA]; exact List.mem_cons_self _ _
          exact heA (hc ▸ hxA)
      · rw [hB]
        have hndB : (b :: B).Nodup := by
          rw [← hB]
          exact List.nodup_reverse.2 hndA
        have hcB : Chain (prevOf other.heap) other.end_ (b :: B) := by
          have := hpvc.2
          rwa [hB] at this
        refine Chain_retarget B b hndB hcB ?_ ?_
        · intro z hz hzl
          have hzA := hmemB z hz
          have h1 : ¬ z = other.end_ := fun hc => hoA (hc ▸ hzA)
          have h2 : ¬ z = (addrs nodes).headD other.end_ := by rw [hfirst, ← hBl]; exact hzl
          have h3 : ¬ z = other.node_allocator_ := fun hc => heA (hc ▸ hzA)
          rw [rp, if_neg h1, if_neg h2, if_neg h3]
        · have hxA : x.1 ∈ addrs nodes := by rw [hA]; exact List.mem_cons_self _ _
          have h1 : ¬ x.1 = other.end_ := fun hc => hoA (hc ▸ hxA)
          rw [hBl, rp, if_neg h1, if_pos hfirst.symm]
    · refine List.nodup_cons.2 ⟨heA, hndA⟩
    · intro a ha
      exact Nat.lt_succ_of_lt (hbump a ha)
    · show valueOf h' other.node_allocator_ = none
      rw [rv, if_pos rfl]
    · intro y hy
      show valueOf h' y.1 = some y.2
      have hyA : y.1 ∈ addrs nodes := List.mem_map.2 ⟨y, hy, rfl⟩
      have h1 : ¬ y.1 = other.node_allocator_ := fun hc => heA (hc ▸ hyA)
      rw [rv, if_neg h1]
      exact hvals y hy
  · intro hnil
    subst hnil
    constructor
    · show nextOf h' other.node_allocator_ = some other.end_
      rw [rn, if_neg (Ne.symm hoe)]
      simp [addrs, Ne.symm hoe]
    · show prevOf h' other.node_allocator_ = some other.end_
      rw [rp, if_neg (Ne.symm hoe)]
      simp [addrs, Ne.symm hoe]

end

/-- C21: move-constructing a `List` from a source that satisfies the ring invariant
returns, leaves the source empty with its sentinel linked to itself, and gives the new
list the size of the source. When the source is not empty the new list holds the former
nodes of the source in the same order, with a closed ring through its own sentinel. When
the source is EMPTY the links of the new sentinel point to the sentinel of the source
instead of the new sentinel itself: `begin()` is not `end()` although `size()` is 0,
the ring invariant fails, and a traversal from `begin()` reads the source's sentinel as a
value node. So `List<int> a; List<int> b(std::move(a));` leaves `b.begin() != b.end()`. -/
theorem move_ctor_of_empty_list_is_not_a_ring :
    (∀ (T : Type) (other : LinkedList T), RingInv other →
      ∃ new other', other.move_ctor = some (new, other') ∧ new.size = other.size ∧
        RingInv other' ∧ other'.size = 0 ∧
        nextOf other'.heap other'.end_ = some other'.end_ ∧
        prevOf other'.heap other'.end_ = some other'.end_ ∧
        (0 < other.size → RingInv new ∧ ∀ fuel, other.size ≤ fuel →
          new.nodesOf fuel = other.nodesOf fuel ∧ new.toList fuel = other.toList fuel) ∧
        (other.size = 0 → new.begin = some other.end ∧ new.begin ≠ some new.end ∧
          ¬ RingInv new ∧ ∀ fuel, new.toList fuel = none)) ∧
    (∃ new other', (LinkedList.mk0 Nat).move_ctor = some (new, other') ∧ new.size = 0 ∧
      new.begin = some 0 ∧ new.end = 1 ∧ new.toList 5 = none) := by
  refine ⟨?_, ?_⟩
  · intro T other hring
    obtain ⟨nodes, hrep⟩ := repr_of_RingInv hring
    have hsz := ListRepr_size hrep
    obtain ⟨new, other', hmv, hrep', hnsz, hne, hoe, hheap, hfull, hempty⟩ := move_ctor_repr hrep
    obtain ⟨hs0, hn0, hp0⟩ := ListRepr_nil_links hrep'
    refine ⟨new, other', hmv, hnsz, RingInv_of_repr hrep', hs0, hn0, hp0, ?_, ?_⟩
    · intro hpos
      have hnn : nodes ≠ [] := by
        intro hc
        rw [hc] at hsz
        simp at hsz
        omega
      have hnew := hfull hnn
      refine ⟨RingInv_of_repr hnew, ?_⟩
      intro fuel hf
      rw [nodesOf_repr hnew fuel (by omega), nodesOf_repr hrep fuel hf,
        toList_repr hnew fuel (by omega), toList_repr hrep fuel hf]
      exact ⟨rfl, rfl⟩
    · intro hzero
      have hnil : nodes = [] := by
        rw [hzero] at hsz
        exact List.length_eq_zero.1 hsz.symm
      obtain ⟨hnx, _⟩ := hempty hnil
      have hlt : other.end_ < other.node_allocator_ := hrep.2.2.2.1
      have hdiff : other.end_ ≠ new.end_ := by rw [hne]; exact Nat.ne_of_lt hlt
      have hve : valueOf new.heap other.end_ = none := by
        rw [hheap, ← hoe]
        exact hrep'.2.2.2.2.2.1
      refine ⟨hnx, ?_, ?_, ?_⟩
      · show nextOf new.heap new.end_ ≠ some new.end_
        rw [hnx]
        intro hc
        exact hdiff (Option.some.inj hc)
      · intro hr
        obtain ⟨ring, hlen, hch, _⟩ := hr
        have hr0 : ring = [] := by
          rw [hnsz, hzero] at hlen
          exact List.length_eq_zero.1 hlen
        subst hr0
        have := hch.1
        rw [hnx] at this
        exact hdiff (Option.some.inj this)
      · intro fuel
        have hb : new.begin = some other.end_ := hnx
        unfold LinkedList.toList
        rw [hb]
        cases fuel with
        | zero => simp [LinkedList.walk, LinkedList.end, hdiff]
        | succ n => simp [LinkedList.walk, LinkedList.end, hdiff, hve]
  · exact ⟨_, _, rfl, rfl, rfl, rfl, rfl⟩

/-- Witness for C21: the move constructor on the default-constructed list. -/
theorem move_ctor_of_empty_list_is_not_a_ring_witness :
    RingInv (LinkedList.mk0 Nat) ∧
    ∃ new other', (LinkedList.mk0 Nat).move_ctor = some (new, other') ∧
      new.size = (LinkedList.mk0 Nat).size ∧ RingInv other' ∧ other'.size = 0 ∧
      ¬ RingInv new :=
  ⟨RingInv_of_repr ListRepr_mk0,
    match move_ctor_of_empty_list_is_not_a_ring.1 Nat (LinkedList.mk0 Nat)
      (RingInv_of_repr ListRepr_mk0) with
    | ⟨new, other', h1, h2, h3, h4, _, _, _, h8⟩ =>
      ⟨new, other', h1, h2, h3, h4, (h8 rfl).2.2.1⟩⟩

section
variable {T : Type}

theorem pop_front_step {l : LinkedList T} {x : Nat × T} {rest : List (Nat × T)}
    (h : ListRepr l (x :: rest)) :
    ∃ l', l.pop_front = some l' ∧ ListRepr l' rest := by
  have hb : l.begin = some x.1 := h.1.1
  have h' : ListRepr l ([] ++ (x.1, x.2) :: rest) := by simpa using h
  obtain ⟨l', her, hrep, _, _⟩ := erase_step h'
  exact ⟨l', by simp [LinkedList.pop_front, hb, her], by simpa using hrep⟩

/-- The loop `for (size_t j = 0; j < size_ - i; ++j) pop_front();` on a list of
`i + r` nodes pops `(r - j + 1) / 2` of them from its round `j` on, because every pop
lowers the bound. -/
theorem pop_front_loop_spec (i : Nat) : ∀ (fuel j : Nat) (cur : List (Nat × T))
    (l : LinkedList T), ListRepr l cur → i ≤ cur.length →
    (cur.length - i - j + 1) / 2 ≤ fuel →
    ∃ l', LinkedList.pop_front_loop i fuel j l = some l' ∧
      ListRepr l' (cur.drop ((cur.length - i - j + 1) / 2)) := by
  intro fuel
  induction fuel with
  | zero =>
    intro j cur l h hi hf
    have hsz : l.size_ = cur.length := ListRepr_size h
    have hk : (cur.length - i - j + 1) / 2 = 0 := by omega
    refine ⟨l, ?_, by rw [hk]; exact h⟩
    have : ¬ j < l.size_ - i := by omega
    simp [LinkedList.pop_front_loop, this]
  | succ fuel ih =>
    intro j cur l h hi hf
    have hsz : l.size_ = cur.length := ListRepr_size h
    by_cases hj : j < l.size_ - i
    · cases cur with
      | nil => simp at hsz; omega
      | cons x rest =>
        obtain ⟨l1, hpop, h1⟩ := pop_front_step h
        simp only [List.length_cons] at hsz hi hf ⊢
        obtain ⟨l', hloop, h'⟩ := ih (j + 1) rest l1 h1 (by omega) (by omega)
        have hk : (rest.length + 1 - i - j + 1) / 2
            = (rest.length - i - (j + 1) + 1) / 2 + 1 := by omega
        refine ⟨l', ?_, ?_⟩
        · simp only [LinkedList.pop_front_loop, hj, if_true, hpop, hloop]
        · rw [hk, List.drop_succ_cons]
          exact h'
    · have hk : (cur.length - i - j + 1) / 2 = 0 := by omega
      refine ⟨l, ?_, by rw [hk]; exact h⟩
      simp [LinkedList.pop_front_loop, hj]

/-- The relocation loop of the move assignment when no `construct` throws: the payloads
of the source are appended to the list, in order. -/
theorem relocate_loop_done : ∀ (rest : List (Nat × T)) (n i : Nat) (done : List (Nat × T))
    (src self : LinkedList T) (cnodes : List (Nat × T)),
    TwoRepr self src cnodes (done ++ rest) → rest.length = n →
    ∃ self' new, LinkedList.relocate_loop (fun _ x => some x) n i
        ((addrs rest).headD src.end_) self = some (.done self', i + n) ∧
      ListRepr self' (cnodes ++ new) ∧ new.map Prod.snd = rest.map Prod.snd := by
  intro rest
  induction rest with
  | nil =>
    intro n i done src self cnodes h hn
    simp only [List.length_nil] at hn
    subst hn
    exact ⟨self, [], rfl, by simpa using h.1, rfl⟩
  | cons x rest ih =>
    intro n i done src self cnodes h hn
    simp only [List.length_cons] at hn
    subst hn
    obtain ⟨hne, hval, self1, hpb, hnx, h2, hbump, hend⟩ := copy_round h x.2
    obtain ⟨self', new, hloop, h3, hpay⟩ :=
      ih rest.length (i + 1) (done ++ [x]) (src.inMemoryOf self1) self1
        (cnodes ++ [(self.node_allocator_, x.2)]) h2 rfl
    refine ⟨self', (self.node_allocator_, x.2) :: new, ?_, by simpa using h3, by simp [hpay]⟩
    have hhead : (addrs (x :: rest)).headD src.end_ = x.1 := rfl
    have hem : self.emplace self.end x.2 = some self1 := hpb
    have hloop' : LinkedList.relocate_loop (fun _ x => some x) rest.length (i + 1)
        ((addrs rest).headD src.end_) self1 = some (.done self', i + 1 + rest.length) := hloop
    rw [hhead]
    simp only [LinkedList.relocate_loop, hval, hem, hnx, hloop']
    rw [Nat.add_assoc, Nat.add_comm 1]

/-- The relocating branch of the move assignment when no `construct` throws: the list
ends with the second half of its old elements followed by the elements of the source. -/
theorem move_assign_relocate {a b : LinkedList T} {na nb : List (Nat × T)}
    (h : TwoRepr a b na nb) (fuel : Nat) (hf : na.length ≤ fuel) :
    ∃ a' b' nodes', a.move_assign b false false (fun _ x => some x) fuel
        = some (.done (a', b')) ∧ ListRepr a' nodes' ∧
      nodes'.map Prod.snd
        = (na.map Prod.snd).drop ((na.length + 1) / 2) ++ nb.map Prod.snd := by
  have hb : b.begin = some ((addrs nb).headD b.end_) := ListRepr_begin h.2.1
  have hbs : b.size_ = nb.length := ListRepr_size h.2.1
  have h0 : TwoRepr a b na ([] ++ nb) := by simpa using h
  obtain ⟨a1, new, hloop, hrep1, hpay⟩ := relocate_loop_done nb nb.length 0 [] b a na h0 rfl
  have hlen : new.length = nb.length := by
    have := congrArg List.length hpay
    simpa using this
  obtain ⟨a2, hpops, hrep2⟩ := pop_front_loop_spec (0 + nb.length) fuel 0 (na ++ new) a1 hrep1
    (by simp [hlen]) (by simp only [List.length_append, hlen]; omega)
  have hk : ((na ++ new).length - (0 + nb.length) - 0 + 1) / 2 = (na.length + 1) / 2 := by
    simp only [List.length_append, hlen]
    congr 1
    omega
  rw [hk] at hrep2
  refine ⟨a2, b.inMemoryOf a2, _, ?_, hrep2, ?_⟩
  · simp only [LinkedList.move_assign, Bool.or_self, Bool.false_eq_true, if_false, hb, hbs,
      hloop, hpops]
  · rw [List.drop_append_of_le_length (by omega), List.map_append, List.map_drop, hpay]

end

/-- The lists holding 1, 2 and 7 in one memory are well formed and share no node. -/
theorem twoLists_repr :
    ∃ a b na nb, twoLists = some (a, b) ∧ TwoRepr a b na nb ∧
      na.map Prod.snd = [1, 2] ∧ nb.map Prod.snd = [7] := by
  obtain ⟨a1, hp1, hr1, _, _, _⟩ := push_back_step (ListRepr_mk0 (T := Nat)) 1
  obtain ⟨a2, hp2, hr2, _, _, _⟩ := push_back_step hr1 2
  have h0 : TwoRepr a2.default_in (a2.inMemoryOf a2.default_in) [] _ := copy_init_two hr2
  obtain ⟨b1, hp3, hr3, _, _, hfr⟩ := push_back_step h0.1 7
  have h1 := TwoRepr_symm (two_step h0 hr3 hfr)
  refine ⟨a2.inMemoryOf b1, b1, _, _, ?_, h1, by simp, by simp⟩
  simp only [twoLists, hp1, hp2, hp3]

/-- C22: when the allocators compare unequal and do not propagate on move assignment,
the move assignment `a = std::move(b)` of two well formed lists returns, and `a` then
iterates as the last `n - (n + 1) / 2` of its `n` former elements followed by the
former sequence of `b`: the loop `for (j = 0; j < size_ - i; ++j) pop_front();` reads
`size_` again after every pop and removes only `(n + 1) / 2` of the old elements. For
`a` holding 1, 2 and `b` holding 7 the list `a` ends as 2, 7; the elements `a` held
before are all removed only when `n` is 0 or 1. -/
theorem move_assign_keeps_old_elements :
    (∀ (T : Type) (a b : LinkedList T) (na nb : List (Nat × T)) (fuel : Nat),
      TwoRepr a b na nb → na.length + nb.length ≤ fuel →
      ∃ a' b', a.move_assign b false false (fun _ x => some x) fuel
          = some (.done (a', b')) ∧
        a'.toList fuel
          = some ((na.map Prod.snd).drop ((na.length + 1) / 2) ++ nb.map Prod.snd) ∧
        a'.size = na.length - (na.length + 1) / 2 + nb.length ∧
        (a'.toList fuel = some (nb.map Prod.snd) ↔ na.length ≤ 1)) ∧
    (∃ a b a' b', twoLists = some (a, b) ∧ a.toList 3 = some [1, 2] ∧
      b.toList 3 = some [7] ∧
      a.move_assign b false false (fun _ x => some x) 3 = some (.done (a', b')) ∧
      a'.toList 3 = some [2, 7] ∧ a'.size = 2) := by
  refine ⟨?_, ?_⟩
  · intro T a b na nb fuel h hf
    obtain ⟨a', b', nodes', hma, hrep, hmap⟩ := move_assign_relocate h fuel (by omega)
    have hlen : nodes'.length = na.length - (na.length + 1) / 2 + nb.length := by
      have := congrArg List.length hmap
      simpa using this
    have hsz : a'.size = nodes'.length := ListRepr_size hrep
    have hlist : a'.toList fuel
        = some ((na.map Prod.snd).drop ((na.length + 1) / 2) ++ nb.map Prod.snd) := by
      rw [toList_repr hrep fuel (by omega), hmap]
    refine ⟨a', b', hma, hlist, by omega, ?_⟩
    rw [hlist]
    constructor
    · intro heq
      have := congrArg List.length (Option.some.inj heq)
      simp only [List.length_append, List.length_drop, List.length_map] at this
      omega
    · intro hle
      have hd : (na.map Prod.snd).drop ((na.length + 1) / 2) = [] := by
        apply List.drop_eq_nil_of_le
        simp only [List.length_map]
        omega
      rw [hd, List.nil_append]
  · exact ⟨_, _, _, _, rfl, rfl, rfl, rfl, rfl, rfl⟩

/-- Witness for C22: the move assignment on the lists holding 1, 2 and 7. -/
theorem move_assign_keeps_old_elements_witness :
    ∃ a b na nb, twoLists = some (a, b) ∧ TwoRepr a b na nb ∧
      na.map Prod.snd = [1, 2] ∧ nb.map Prod.snd = [7] ∧
      ∃ a' b', a.move_assign b false false (fun _ x => some x) 3 = some (.done (a', b')) ∧
        a'.size = na.length - (na.length + 1) / 2 + nb.length :=
  match twoLists_repr with
  | ⟨a, b, na, nb, h1, h2, h3, h4⟩ =>
    match move_assign_keeps_old_elements.1 Nat a b na nb 3 h2
      (by
        have e1 := congrArg List.length h3
        have e2 := congrArg List.length h4
        simp only [List.length_map, List.length_cons, List.length_nil] at e1 e2
        omega) with
    | ⟨a', b', r1, _, r3, _⟩ => ⟨a, b, na, nb, h1, h2, h3, h4, a', b', r1, r3⟩

end ListH
namespace DequeH

open ListH (Outcome)

/-! ## `at`, iterator arithmetic, copy assignment -/

section
variable {T : Type}

theorem at_eq (d : Deque T) (i : Nat) :
    (d.at i = some .out_of_range ↔ d.size ≤ i) ∧
    (i < d.size → d.at i = (d.index i).map AtOutcome.value) := by
  unfold Deque.at Deque.size
  by_cases h : i ≥ d.size_
  · simp only [h, if_true, true_iff]
    exact ⟨trivial, fun hlt => absurd hlt (by omega)⟩
  · simp only [h, if_false]
    constructor
    · constructor
      · intro hc
        cases hi : d.index i with
        | none => simp [hi] at hc
        | some v => simp [hi] at hc
      · intro hle
        exact hle.elim
    · intro _
      cases hi : d.index i <;> simp

end

/-- C23: for every deque and index `i`, `at(i)` throws `std::out_of_range` iff
`i >= size()`, and otherwise returns what `operator[](i)` returns; so `at(size())` throws
for every deque, and on every well formed deque `at(i)` returns the `i`-th element for
every `i < size()`, in particular `at(size() - 1)` returns the last element of a
non-empty deque. -/
theorem at_throws_iff_index_out_of_range :
    (∀ (T : Type) (d : Deque T) (i : Nat),
      (d.at i = some .out_of_range ↔ d.size ≤ i) ∧
      (i < d.size → d.at i = (d.index i).map AtOutcome.value) ∧
      d.at d.size = some .out_of_range) ∧
    (∀ (T : Type) (d : Deque T) (l : List T), Repr d l →
      (∀ i, i < d.size → ∃ v, d.at i = some (.value v) ∧ d.index i = some v ∧
        l[i]? = some v) ∧
      (0 < d.size → ∃ v, d.at (d.size - 1) = some (.value v) ∧ l.getLast? = some v)) := by
  refine ⟨?_, ?_⟩
  · intro T d i
    exact ⟨(at_eq d i).1, (at_eq d i).2, (at_eq d d.size).1.2 (Nat.le_refl _)⟩
  · intro T d l h
    have hsz : d.size = l.length := h.2.2.2.2.2.2.2.1
    have hall : ∀ i, i < d.size → ∃ v, d.at i = some (.value v) ∧ d.index i = some v ∧
        l[i]? = some v := by
      intro i hi
      have hidx := index_of_repr h i hi
      have hget : l[i]? = some (l.get ⟨i, by omega⟩) := List.getElem?_eq_getElem (by omega)
      refine ⟨l.get ⟨i, by omega⟩, ?_, by rw [hidx, hget], hget⟩
      rw [(at_eq d i).2 hi, hidx, hget]
      rfl
    refine ⟨hall, ?_⟩
    intro hpos
    obtain ⟨v, h1, _, h3⟩ := hall (d.size - 1) (by omega)
    refine ⟨v, h1, ?_⟩
    rw [List.getLast?_eq_getElem?, ← hsz]
    exact h3

/-- Witness for C23: the deque after three pushes. -/
theorem at_throws_iff_index_out_of_range_witness :
    ∃ d : Deque Nat, (Deque.mk0 Nat).run [.push_back 7, .push_back 8, .push_front 6] = some d ∧
      Repr d [6, 7, 8] ∧
      (∀ i, i < d.size → ∃ v, d.at i = some (.value v) ∧ d.index i = some v ∧
        [6, 7, 8][i]? = some v) ∧
      d.at d.size = some .out_of_range :=
  match deque_run_repr [.push_back 7, .push_back 8, .push_front 6] (Deque.mk0 Nat) []
      Repr_mk0 (by simp [SeqRef.popsGuarded]) 3 with
  | ⟨d, l, h1, h2, h3, _⟩ =>
    have hl : l = [6, 7, 8] := by
      have h2' : SeqRef.refRun [] [SeqRef.Op.push_back 7, .push_back 8, .push_front 6]
          = some l := h2
      exact (Option.some.inj h2').symm
    ⟨d, h1, hl ▸ h3, (at_throws_iff_index_out_of_range.2 Nat d [6, 7, 8] (hl ▸ h3)).1,
      (at_throws_iff_index_out_of_range.1 Nat d 0).2.2⟩

/-! ### Iterator arithmetic -/

/-- The quotient and remainder that `operator+=` computes, with its correction of a
negative remainder, are the floor quotient and the non-negative remainder. -/
theorem tdiv_tmod_floor (a : Int) :
    (if a.tmod 32 < 0 then a.tdiv 32 - 1 else a.tdiv 32) = a / 32 ∧
    (if a.tmod 32 < 0 then a.tmod 32 + 32 else a.tmod 32) = a % 32 := by
  by_cases ha : 0 ≤ a
  · rw [Int.tdiv_eq_ediv ha (by decide), Int.tmod_eq_emod ha (by decide)]
    have : ¬ a % 32 < 0 := by omega
    simp [this]
  · obtain ⟨b, hb⟩ : ∃ b : Int, a = -b := ⟨-a, by omega⟩
    have hb0 : 0 ≤ b := by omega
    subst hb
    have hm : (-b).tmod 32 = -(b % 32) := by
      rw [Int.tmod_def, Int.neg_tdiv, Int.tdiv_eq_ediv hb0 (by decide)]
      omega
    rw [hm, Int.neg_tdiv, Int.tdiv_eq_ediv hb0 (by decide)]
    by_cases hm : -(b % 32) < 0
    · simp only [hm, if_true]
      omega
    · simp only [hm, if_false]
      omega

theorem addAssign_eq (q : Nat) (it : Iter) (s : Int) (hs1 : INT_MIN ≤ s) (hs2 : s ≤ INT_MAX) :
    it.addAssign q s =
      if 0 ≤ it.bucket_ + ((it.position_ : Int) + s) / 32 ∧
          it.bucket_ + ((it.position_ : Int) + s) / 32 < q then
        some ⟨it.bucket_ + ((it.position_ : Int) + s) / 32,
          (((it.position_ : Int) + s) % 32).toNat⟩
      else none := by
  obtain ⟨h1, h2⟩ := tdiv_tmod_floor ((it.position_ : Int) + s)
  have hb : (if ((it.position_ : Int) + s).tmod 32 < 0
        then it.bucket_ + ((it.position_ : Int) + s).tdiv 32 - 1
        else it.bucket_ + ((it.position_ : Int) + s).tdiv 32)
      = it.bucket_ + ((it.position_ : Int) + s) / 32 := by
    rw [← h1]
    split_ifs <;> omega
  unfold Iter.addAssign
  rw [if_neg (by omega)]
  simp only [Bucket.size, Nat.cast_ofNat]
  rw [hb, h2]

/-- An argument that is not a value of `int` leaves `operator+=` undefined. -/
theorem addAssign_not_int (q : Nat) (it : Iter) (s : Int) (hs : s < INT_MIN ∨ INT_MAX < s) :
    it.addAssign q s = none := by
  unfold Iter.addAssign
  rw [if_pos hs]

/-- A sum `it + n` that is defined has an `int` argument. -/
theorem add_is_int {q : Nat} {it it1 : Iter} {n : Int} (h : it.add q n = some it1) :
    INT_MIN ≤ n ∧ n ≤ INT_MAX := by
  by_contra hc
  have hs : n < INT_MIN ∨ INT_MAX < n := by omega
  unfold Iter.add at h
  rw [addAssign_not_int q it n hs] at h
  exact absurd h (by simp)

theorem toPtrdiff_mod (n : Int) (h1 : -2 ^ 63 ≤ n) (h2 : n < 2 ^ 63) :
    toPtrdiff (n % 2 ^ 64) = n := by
  unfold toPtrdiff
  split_ifs with h <;> omega

/-- The algebra of `operator+`, `operator-` and the difference of iterators. -/
theorem iter_algebra (q : Nat) (it it1 : Iter) (n : Int) (h : it.add q n = some it1) :
    it1.diff it = n ∧
    (∀ m, INT_MIN ≤ m → m ≤ INT_MAX → INT_MIN ≤ n + m → n + m ≤ INT_MAX →
      it1.add q m = it.add q (n + m)) ∧
    (it.position_ < Bucket.size → 0 ≤ it.bucket_ → it.bucket_ < q → n ≠ INT_MIN →
      it1.sub q n = some it) := by
  obtain ⟨hn1, hn2⟩ := add_is_int h
  unfold Iter.add at h
  rw [addAssign_eq q it n hn1 hn2] at h
  split_ifs at h with hin
  simp only [Option.some.injEq] at h
  subst h
  unfold INT_MIN at hn1
  unfold INT_MAX at hn2
  refine ⟨?_, ?_, ?_⟩
  · unfold Iter.diff
    simp only [Bucket.size, Nat.cast_ofNat]
    have : (it.bucket_ + ((it.position_ : Int) + n) / 32 - it.bucket_) * 32
        + (((((it.position_ : Int) + n) % 32).toNat : Nat) : Int) - (it.position_ : Int) = n := by
      omega
    rw [this]
    exact toPtrdiff_mod n (by omega) (by omega)
  · intro m hm1 hm2 hs1 hs2
    unfold Iter.add
    rw [addAssign_eq _ _ m hm1 hm2, addAssign_eq _ _ (n + m) hs1 hs2]
    simp only []
    have e1 : it.bucket_ + ((it.position_ : Int) + n) / 32
        + ((((((it.position_ : Int) + n) % 32).toNat : Nat) : Int) + m) / 32
        = it.bucket_ + ((it.position_ : Int) + (n + m)) / 32 := by omega
    have e2 : ((((((it.position_ : Int) + n) % 32).toNat : Nat) : Int) + m) % 32
        = ((it.position_ : Int) + (n + m)) % 32 := by omega
    rw [e1, e2]
  · intro hp hb0 hbq hn
    unfold Iter.sub Iter.subAssign
    have hn' : ¬ (n < INT_MIN ∨ INT_MAX < n) := by
      unfold INT_MIN INT_MAX
      omega
    have hn3 : n ≠ -2 ^ 31 := hn
    rw [if_neg hn', if_neg hn, addAssign_eq _ _ (-n) (by unfold INT_MIN; omega)
      (by unfold INT_MAX; omega)]
    simp only [Bucket.size] at hp
    have e1 : it.bucket_ + ((it.position_ : Int) + n) / 32
        + ((((((it.position_ : Int) + n) % 32).toNat : Nat) : Int) + -n) / 32
        = it.bucket_ := by omega
    have e2 : (((((((it.position_ : Int) + n) % 32).toNat : Nat) : Int) + -n) % 32).toNat
        = it.position_ := by omega
    simp only []
    rw [e1, e2, if_pos ⟨hb0, hbq⟩]

theorem toInt_of_lt (n : Nat) (h : n < 2 ^ 31) : UnorderedMapH.toInt n = (n : Int) := by
  unfold UnorderedMapH.toInt
  have h1 : n % 2 ^ 32 = n := Nat.mod_eq_of_lt (by omega)
  rw [h1, if_pos h]

section
variable {T : Type}

/-- On a well formed deque of fewer than `2^31` elements `begin() + size()` is `end()`,
and `begin() + i` designates the slot of `operator[](i)`. -/
theorem begin_plus_repr {d : Deque T} {l : List T} (h : Repr d l) (hs : d.size < 2 ^ 31) :
    d.begin = some ⟨d.begin_bucket_, d.begin_index_⟩ ∧
    d.end = some ⟨d.get_end.1, d.get_end.2⟩ ∧
    (⟨d.begin_bucket_, d.begin_index_⟩ : Iter).addSize d.bucket_quantity_ d.size = d.end ∧
    ∀ i, i < d.size →
      ∃ it, (⟨d.begin_bucket_, d.begin_index_⟩ : Iter).addSize d.bucket_quantity_ i = some it ∧
        d.deref it = d.index i := by
  obtain ⟨_, _, _, hbb, hbi, hcap, _, _, _⟩ := h
  unfold Deque.first at hcap
  unfold Deque.size at hs
  simp only [Bucket.size] at hbi hcap
  have hend : d.end = some ⟨d.get_end.1, d.get_end.2⟩ := by
    unfold Deque.end Iter.make Deque.get_end
    simp only [Bucket.size]
    rw [if_pos]
    constructor <;> omega
  refine ⟨?_, hend, ?_, ?_⟩
  · unfold Deque.begin Iter.make
    rw [if_pos]
    constructor <;> omega
  · rw [hend]
    unfold Iter.addSize Iter.add Deque.size
    rw [toInt_of_lt _ hs, addAssign_eq _ _ _ (by unfold INT_MIN; omega)
      (by unfold INT_MAX; omega), if_pos (by constructor <;> simp only [] <;> omega)]
    unfold Deque.get_end
    simp only [Bucket.size, Option.some.injEq, Iter.mk.injEq]
    constructor <;> omega
  · intro i hi
    unfold Deque.size at hi
    unfold Iter.addSize Iter.add
    rw [toInt_of_lt _ (by omega), addAssign_eq _ _ _ (by unfold INT_MIN; omega)
      (by unfold INT_MAX; omega), if_pos (by constructor <;> simp only [] <;> omega)]
    refine ⟨_, rfl, ?_⟩
    unfold Deque.deref Deque.index bucket_index in_bucket_index
    simp only [Bucket.size]
    have e1 : ((d.begin_bucket_ : Int) + ((d.begin_index_ : Int) + (i : Int)) / 32).toNat
        = (i + (d.begin_bucket_ * 32 + d.begin_index_)) / 32 := by omega
    have e2 : (((d.begin_index_ : Int) + (i : Int)) % 32).toNat
        = (i + (d.begin_bucket_ * 32 + d.begin_index_)) % 32 := by omega
    rw [e1, e2]

end

/-! ### Copy assignment -/

section
variable {T : Type}

theorem copyLoop_no_throw (copy : Nat → T → Option T) (src : List (Bucket T))
    (hc : ∀ i x, (copy i x).isSome = true) :
    ∀ (n current i j : Nat) (bs bs' : List (Bucket T)) (c : Nat),
      copyLoop copy src n current i j bs ≠ some (.threw bs', c) := by
  intro n
  induction n with
  | zero =>
    intro current i j bs bs' c h
    simp [copyLoop] at h
  | succ n ih =>
    intro current i j bs bs' c h
    unfold copyLoop at h
    cases hs : slot src i j with
    | none => simp [hs] at h
    | some o =>
      cases o with
      | none => simp [hs] at h
      | some x =>
        obtain ⟨v, hv⟩ := Option.isSome_iff_exists.1 (hc current x)
        simp only [hs, hv] at h
        cases hset : setSlot bs i j (some v) with
        | none => simp [hset] at h
        | some bs1 =>
          simp only [hset] at h
          split_ifs at h
          · exact ih _ _ _ _ _ _ h
          · exact ih _ _ _ _ _ _ h

theorem copy_ctor_done_size {other nd : Deque T} {copy : Nat → T → Option T}
    (h : other.copy_ctor copy = some (.done nd)) : nd.size_ = other.size_ := by
  unfold Deque.copy_ctor at h
  simp only [] at h
  cases hl : copyLoop copy other.buckets_ other.size_ 0 other.begin_bucket_ other.begin_index_
      (newBuckets T other.bucket_quantity_) with
  | none => simp [hl] at h
  | some r =>
    obtain ⟨o, c⟩ := r
    cases o with
    | done bs =>
      simp only [hl, Option.some.injEq, Outcome.done.injEq] at h
      rw [← h]
    | threw bs =>
      simp only [hl] at h
      cases hd : Deque.delete_all
          ({ size_ := other.size_, begin_bucket_ := other.begin_bucket_,
             begin_index_ := other.begin_index_, bucket_quantity_ := other.bucket_quantity_,
             buckets_ := bs } : Deque T) c with
      | none => simp [hd] at h
      | some d1 => simp [hd] at h

theorem dtor_null_buckets (d : Deque T) (h : d.size_ ≠ 0) :
    ({ d with buckets_ := [], bucket_quantity_ := 0 } : Deque T).dtor = none := by
  obtain ⟨k, hk⟩ := Nat.exists_eq_succ_of_ne_zero h
  unfold Deque.dtor Deque.delete_all
  simp only [hk, destroyLoop, destroy, slot, List.getElem?_nil]

/-- The copy assignment completes only from an empty deque. -/
theorem assign_done_only_from_empty {d other r : Deque T} {copy : Nat → T → Option T}
    (h : d.assign other copy = some (.done r)) : other.size = 0 := by
  unfold Deque.assign at h
  cases hc : other.copy_ctor copy with
  | none => simp [hc] at h
  | some o =>
    cases o with
    | threw x => simp [hc] at h
    | done nd =>
      simp only [hc] at h
      cases hd : d.delete_all d.size_ with
      | none => simp [hd] at h
      | some d' =>
        simp only [hd] at h
        by_contra hne
        have hsz : nd.size_ ≠ 0 := by
          rw [copy_ctor_done_size hc]
          exact hne
        rw [dtor_null_buckets nd hsz] at h
        simp at h

end

/-- C25: the copy assignment `a = b` of a deque never completes when `b` is not empty:
when every element copy succeeds, the destructor of the temporary copy, whose `buckets_`
has been set to the null pointer while its `size_` is still that of `b`, destroys
`size()` elements through the null pointer, which is undefined. When an element copy
fails while the temporary copy is being built, the failure is propagated and `a` is
untouched. So `Deque<int> a, b; b.push_back(1); a = b;` is undefined, and the assignment
from an empty `b` completes with `a` empty. -/
theorem copy_assignment_destroys_through_null :
    (∀ (T : Type) (d other r : Deque T) (copy : Nat → T → Option T),
      d.assign other copy = some (.done r) → other.size = 0) ∧
    (∀ (T : Type) (d other : Deque T) (copy : Nat → T → Option T),
      other.size ≠ 0 → (∀ i x, (copy i x).isSome = true) → d.assign other copy = none) ∧
    (∀ (T : Type) (d other r : Deque T) (copy : Nat → T → Option T),
      d.assign other copy = some (.threw r) → r = d) ∧
    (∃ b : Deque Nat, (Deque.mk0 Nat).push_back 1 = some b ∧ b.size = 1 ∧
      b.index 0 = some 1 ∧ (Deque.mk0 Nat).assign b (fun _ x => some x) = none) ∧
    (∃ a b : Deque Nat, (Deque.mk0 Nat).run [.push_back 4, .push_back 5] = some a ∧
      (Deque.mk0 Nat).run [.push_back 1, .push_back 2, .push_back 3] = some b ∧
      a.assign b (fun i x => if i = 1 then none else some x) = some (.threw a) ∧
      ∃ r, a.assign (Deque.mk0 Nat) (fun _ x => some x) = some (.done r) ∧ r.size = 0) := by
  refine ⟨?_, ?_, ?_, ?_, ?_⟩
  · intro T d other r copy h
    exact assign_done_only_from_empty h
  · intro T d other copy hne hc
    cases h : d.assign other copy with
    | none => rfl
    | some o =>
      cases o with
      | done r => exact absurd (assign_done_only_from_empty h) hne
      | threw r =>
        exfalso
        unfold Deque.assign at h
        cases hcc : other.copy_ctor copy with
        | none => simp [hcc] at h
        | some o2 =>
          cases o2 with
          | threw x =>
            unfold Deque.copy_ctor at hcc
            simp only [] at hcc
            cases hl : copyLoop copy other.buckets_ other.size_ 0 other.begin_bucket_
                other.begin_index_ (newBuckets T other.bucket_quantity_) with
            | none => simp [hl] at hcc
            | some p =>
              obtain ⟨o3, c⟩ := p
              cases o3 with
              | done bs => simp [hl] at hcc
              | threw bs => exact copyLoop_no_throw copy _ hc _ _ _ _ _ _ _ hl
          | done nd =>
            simp only [hcc] at h
            cases hd : d.delete_all d.size_ with
            | none => simp [hd] at h
            | some d' =>
              simp only [hd] at h
              split at h <;> simp at h
  · intro T d other r copy h
    unfold Deque.assign at h
    cases hcc : other.copy_ctor copy with
    | none => simp [hcc] at h
    | some o =>
      cases o with
      | threw x =>
        simp only [hcc, Option.some.injEq, Outcome.threw.injEq] at h
        exact h.symm
      | done nd =>
        simp only [hcc] at h
        cases hd : d.delete_all d.size_ with
        | none => simp [hd] at h
        | some d' =>
          simp only [hd] at h
          split at h <;> simp at h
  · exact ⟨_, rfl, rfl, rfl, rfl⟩
  · exact ⟨_, _, rfl, rfl, rfl, _, rfl, rfl⟩

/-- Witness for C25: the assignment from the deque holding 1. -/
theorem copy_assignment_destroys_through_null_witness :
    ∃ b : Deque Nat, (Deque.mk0 Nat).push_back 1 = some b ∧ b.size ≠ 0 ∧
      (∀ (i x : Nat), ((fun (_ : Nat) (x : Nat) => some x) i x).isSome = true) ∧
      (Deque.mk0 Nat).assign b (fun _ x => some x) = none :=
  match copy_assignment_destroys_through_null.2.2.2.1 with
  | ⟨b, h1, h2, _, _⟩ =>
    have hne : b.size ≠ 0 := by rw [h2]; decide
    ⟨b, h1, hne, fun _ _ => rfl,
      copy_assignment_destroys_through_null.2.1 Nat (Deque.mk0 Nat) b (fun _ x => some x) hne
        (fun _ _ => rfl)⟩

end DequeH
namespace UnorderedMapH

open ListH

/-! ## unordered_map.h : `at`, `rehash`, the bucket invariant, `operator[]`, the load factor -/

section
variable {K V : Type}

/-- The member `at` on a key that has no equal in the map throws. -/
theorem at_absent {m : UnorderedMap K V} {groups : List (Group K V)}
    (h : MapRepr m groups) (key : K) (fuel : Nat) (hf : m.size < fuel)
    (hno : ∀ x ∈ flatten groups, m.equaler_ x.2.node.1 key = false) :
    m.at fuel key = some .out_of_range := by
  have hfind := (find_absent h key fuel hf hno).1
  unfold UnorderedMap.at
  simp only [hfind, if_true]

end

/-! ### The maps `rangeMap n bc policy` -/

theorem flatten_map_single {K V : Type} (f : Nat → Nat × HashedNode K V) (xs : List Nat) :
    flatten (xs.map (fun k => (k, [f k]))) = xs.map f := by
  induction xs with
  | nil => rfl
  | cons x xs ih =>
    show [f x] ++ flatten (xs.map (fun k => (k, [f k]))) = f x :: xs.map f
    rw [ih]
    rfl

theorem flatten_rangeGroups (n : Nat) : flatten (rangeGroups n) = rangeEntries n :=
  flatten_map_single (fun k => (k + 1, ⟨(k, 0), k⟩)) (List.range n)

theorem addrs_rangeEntries (n : Nat) : addrs (rangeEntries n) = List.range' 1 n := by
  unfold addrs rangeEntries
  rw [List.map_map, List.range_eq_range']
  have : (Prod.fst ∘ fun k : Nat => (k + 1, (⟨(k, 0), k⟩ : HashedNode Nat Nat)))
      = fun k => k + 1 := rfl
  rw [this]
  have h := List.map_add_range' 1 0 n 1
  rw [show (fun k : Nat => k + 1) = (fun k => 1 + k) from funext (fun k => Nat.add_comm k 1)]
  exact h

theorem rangeMap_next (n bc : Nat) (policy : LoadPolicy) (a : Nat) (ha : a ≤ n) :
    nextOf (rangeMap n bc policy).storage_.heap a = some (if a = n then 0 else a + 1) := by
  unfold nextOf rangeMap
  by_cases h0 : a = 0
  · subst h0
    by_cases hn : n = 0
    · simp [hn]
    · have : ¬ (0 = n) := fun h => hn h.symm
      simp [hn, this]
  · simp [h0, ha]

theorem rangeMap_prev (n bc : Nat) (policy : LoadPolicy) (a : Nat) (h0 : a ≠ 0) (ha : a ≤ n) :
    prevOf (rangeMap n bc policy).storage_.heap a = some (a - 1) := by
  unfold prevOf rangeMap
  simp [h0, ha]

theorem rangeMap_prev_end (n bc : Nat) (policy : LoadPolicy) :
    prevOf (rangeMap n bc policy).storage_.heap 0 = some n := by
  unfold prevOf rangeMap
  simp

theorem rangeMap_value (n bc : Nat) (policy : LoadPolicy) (a : Nat) (h0 : a ≠ 0)
    (ha : a ≤ n) :
    valueOf (rangeMap n bc policy).storage_.heap a = some ⟨(a - 1, 0), a - 1⟩ := by
  unfold valueOf rangeMap
  simp [h0, ha]

theorem rangeMap_chain_next (n bc : Nat) (policy : LoadPolicy) :
    ∀ (len a : Nat), a + len = n + 1 →
      Chain (nextOf (rangeMap n bc policy).storage_.heap) 0 (List.range' a len) := by
  intro len
  induction len with
  | zero => intro a _; trivial
  | succ len ih =>
    intro a ha
    rw [List.range'_succ]
    refine ⟨?_, ih (a + 1) (by omega)⟩
    rw [rangeMap_next n bc policy a (by omega)]
    cases len with
    | zero =>
      have : a = n := by omega
      simp [this]
    | succ len =>
      have : ¬ (a = n) := by omega
      simp [this, List.range'_succ]

theorem rangeMap_chain_prev (n bc : Nat) (policy : LoadPolicy) :
    ∀ (k : Nat), k ≤ n →
      Chain (prevOf (rangeMap n bc policy).storage_.heap) 0 (List.range' 1 k).reverse ∧
      (List.range' 1 k).reverse.headD 0 = k := by
  intro k
  induction k with
  | zero => intro _; exact ⟨trivial, rfl⟩
  | succ k ih =>
    intro hk
    obtain ⟨hc, hh⟩ := ih (by omega)
    have hr : (List.range' 1 (k + 1)).reverse = (k + 1) :: (List.range' 1 k).reverse := by
      rw [List.range'_concat]
      simp [Nat.add_comm]
    rw [hr]
    refine ⟨⟨?_, hc⟩, rfl⟩
    rw [rangeMap_prev n bc policy (k + 1) (by omega) hk, hh]
    rfl

/-- The list of `rangeMap n bc policy` is the closed ring of its `n` entries. -/
theorem rangeMap_list (n bc : Nat) (policy : LoadPolicy) :
    ListRepr (rangeMap n bc policy).storage_ (rangeEntries n) := by
  have hend : (rangeMap n bc policy).storage_.end_ = 0 := rfl
  have hna : (rangeMap n bc policy).storage_.node_allocator_ = n + 1 := rfl
  refine ⟨?_, ?_, ?_, ?_, ?_, ?_, ?_, ?_⟩
  · rw [addrs_rangeEntries, hend]
    have h := rangeMap_chain_next n bc policy (n + 1) 0 (by omega)
    rw [List.range'_succ] at h
    exact h
  · rw [addrs_rangeEntries, hend]
    obtain ⟨hc, hh⟩ := rangeMap_chain_prev n bc policy n (le_refl n)
    refine ⟨?_, hc⟩
    rw [rangeMap_prev_end, hh]
  · rw [addrs_rangeEntries, hend, List.nodup_cons]
    refine ⟨?_, List.nodup_range' 1 n⟩
    rw [List.mem_range']
    rintro ⟨i, _, hi⟩
    omega
  · rw [hend, hna]
    omega
  · rw [addrs_rangeEntries, hna]
    intro a ha
    rw [List.mem_range'] at ha
    obtain ⟨i, hi, rfl⟩ := ha
    omega
  · rfl
  · intro x hx
    unfold rangeEntries at hx
    rw [List.mem_map] at hx
    obtain ⟨k, hk, rfl⟩ := hx
    rw [List.mem_range] at hk
    rw [rangeMap_value n bc policy (k + 1) (by omega) (by omega)]
    rfl
  · show n = (rangeEntries n).length
    simp [rangeEntries]

theorem groupOf_rangeGroups (n b : Nat) :
    groupOf (rangeGroups n) b
      = if b < n then some [(b + 1, (⟨(b, 0), b⟩ : HashedNode Nat Nat))] else none := by
  induction n with
  | zero => rfl
  | succ n ih =>
    unfold rangeGroups at ih ⊢
    rw [List.range_succ, List.map_append, groupOf_append, ih]
    by_cases hb : b < n
    · have : b < n + 1 := by omega
      simp [hb, this]
    · by_cases hbn : b = n
      · subst hbn
        simp [groupOf]
      · have h1 : ¬ (n = b) := fun h => hbn h.symm
        have h2 : ¬ (b < n + 1) := by omega
        simp [hb, groupOf, h1, h2]

/-- The map `rangeMap n bc policy` with `n ≤ bc` is well formed. -/
theorem rangeMap_repr (n bc : Nat) (policy : LoadPolicy) (hn : n ≤ bc) (hbc : 0 < bc) :
    MapRepr (rangeMap n bc policy) (rangeGroups n) := by
  refine ⟨?_, hbc, ⟨?_, ?_⟩, ⟨?_, ?_⟩, ?_, ?_⟩
  · rw [flatten_rangeGroups]
    exact rangeMap_list n bc policy
  · unfold rangeGroups
    rw [List.map_map]
    have : (Prod.fst ∘ fun k : Nat => (k, [(k + 1, (⟨(k, 0), k⟩ : HashedNode Nat Nat))]))
        = id := rfl
    rw [this, List.map_id]
    exact List.nodup_range n
  · intro bg hbg
    unfold rangeGroups at hbg
    rw [List.mem_map] at hbg
    obtain ⟨k, hk, rfl⟩ := hbg
    rw [List.mem_range] at hk
    refine ⟨by simp, ?_, ?_⟩
    · show k < bc
      omega
    · intro x hx
      simp only [List.mem_singleton] at hx
      subst hx
      show k % bc = k
      exact Nat.mod_eq_of_lt (by omega)
  · simp [rangeMap]
  · intro b hb
    have hb1 : b < bc := hb
    unfold headOf
    rw [groupOf_rangeGroups]
    by_cases hbn : b < n
    · simp [rangeMap, hb1, hbn, addrs]
    · simp [rangeMap, hb1, hbn]
  · rw [flatten_rangeGroups]
    intro x hx
    unfold rangeEntries at hx
    rw [List.mem_map] at hx
    obtain ⟨k, _, rfl⟩ := hx
    rfl
  · rw [flatten_rangeGroups]
    unfold rangeEntries
    rw [List.pairwise_map]
    refine List.Pairwise.imp ?_ (List.pairwise_lt_range n)
    intro a b hab
    show decide (a = b) = false
    simp
    omega

theorem rangeMap_size (n bc : Nat) (policy : LoadPolicy) : (rangeMap n bc policy).size = n :=
  rfl

/-! ### rehash -/

section
variable {K V : Type}

/-- The loop of `rehash` making `n` rounds on a list that starts with the entries
`pre ++ rest`, `pre` being `n` entries: the entries `pre` are moved, one by one, into the
runs at the back of the list, the entries `rest` stay at the front. -/
theorem rehashLoop_partial (count : Nat) (hc : 0 < count) :
    ∀ (n : Nat) (pre rest : List (Nat × HashedNode K V)) (l : LinkedList (HashedNode K V))
      (groups : List (Group K V)) (bis : List Nat),
      pre.length = n → ListRepr l (pre ++ rest ++ flatten groups) → GroupsOK count groups →
      IndexOK l.end_ count bis groups →
      ∃ l1 groups1 bis1, rehashLoop count n (l, bis) = some (l1, bis1) ∧
        ListRepr l1 (rest ++ flatten groups1) ∧ GroupsOK count groups1 ∧
        IndexOK l.end_ count bis1 groups1 ∧ l1.end_ = l.end_ ∧
        ((flatten groups1).map Prod.snd).Perm
          (pre.map Prod.snd ++ (flatten groups).map Prod.snd) := by
  intro n
  induction n with
  | zero =>
    intro pre rest l groups bis hlen hl hgr hix
    have hpre : pre = [] := List.length_eq_zero.1 hlen
    subst hpre
    exact ⟨l, groups, bis, rfl, by simpa using hl, hgr, hix, rfl, by simp⟩
  | succ n ih =>
    intro pre rest l groups bis hlen hl hgr hix
    cases pre with
    | nil => simp at hlen
    | cons x pre =>
      have hlen' : pre.length = n := by simpa using hlen
      have hbegin : l.begin = some x.1 := by
        rw [ListRepr_begin hl]
        rfl
      have hl0 : ListRepr l ([] ++ x :: (pre ++ rest ++ flatten groups)) := by simpa using hl
      have hval := (ListRepr_at hl0).2.1
      have hlr : ListRepr l ((x :: pre ++ rest) ++ flatten groups) := by simpa using hl
      obtain ⟨l1, groups1, hbis, hem, hprev, hl1, hgr1, hix1, hperm, hend1, _⟩ :=
        runs_insert hlr hc hgr hix x.2
      have hl1' : ListRepr l1 ([] ++ (x.1, x.2) :: (pre ++ rest ++ flatten groups1)) := by
        simpa using hl1
      obtain ⟨l2, her, hl2, hend2, _⟩ := list_erase_repr hl1'
      have hl2' : ListRepr l2 (pre ++ rest ++ flatten groups1) := by simpa using hl2
      have hix2 : IndexOK l2.end_ count (bis.set (x.2.hash % count) l.node_allocator_)
          groups1 := by
        rw [hend2, hend1]
        exact hix1
      obtain ⟨l3, groups3, bis3, hloop, hl3, hgr3, hix3, hend3, hperm3⟩ :=
        ih pre rest l2 groups1 _ hlen' hl2' hgr1 hix2
      refine ⟨l3, groups3, bis3, ?_, hl3, hgr3, ?_, ?_, ?_⟩
      · unfold rehashLoop
        simp only [hbegin, hval, hbis, hem, hprev, her]
        exact hloop
      · rw [← hend1, ← hend2]
        exact hix3
      · rw [hend3, hend2, hend1]
      · refine hperm3.trans ?_
        have h1 : ((flatten groups1).map Prod.snd).Perm
            (x.2 :: (flatten groups).map Prod.snd) := by
          have := hperm.map Prod.snd
          simpa using this
        refine (List.Perm.append_left _ h1).trans ?_
        simp only [List.map_cons, List.cons_append]
        exact List.perm_middle

theorem toInt_toNat_le (n : Nat) : (toInt n).toNat ≤ n := by
  unfold toInt
  have h1 : n % 2 ^ 32 ≤ n := Nat.mod_le _ _
  split_ifs <;> omega

/-- The member `rehash(n)` with `size() ≤ n` on a map whose list is a closed ring returns:
the bucket count and the length of the index array are `max(n, 2)`, and the list is a
closed ring of the same entries. -/
theorem rehash_entries {m : UnorderedMap K V} {entries : List (Nat × HashedNode K V)}
    (hl : ListRepr m.storage_ entries) (n : Nat) (hn : m.size ≤ n) :
    ∃ m1 entries1, m.rehash n = some m1 ∧ m1.buckets_count_ = max n 2 ∧
      m1.bucket_iterators_.length = max n 2 ∧ ListRepr m1.storage_ entries1 ∧
      m1.size = m.size ∧ (entries1.map Prod.snd).Perm (entries.map Prod.snd) ∧
      m1.hasher_ = m.hasher_ ∧ m1.equaler_ = m.equaler_ ∧
      m1.max_load_factor_ = m.max_load_factor_ := by
  unfold UnorderedMap.rehash
  rw [if_neg (by omega)]
  have hc : 0 < max n 2 := by omega
  have hsize : m.storage_.size = entries.length := ListRepr_size hl
  have hk : (toInt m.storage_.size).toNat ≤ entries.length := by
    rw [← hsize]
    exact toInt_toNat_le _
  have hsplit : entries = entries.take (toInt m.storage_.size).toNat
      ++ entries.drop (toInt m.storage_.size).toNat := (List.take_append_drop _ _).symm
  have hlen : (entries.take (toInt m.storage_.size).toNat).length
      = (toInt m.storage_.size).toNat := by
    rw [List.length_take]
    omega
  have hl0 : ListRepr m.storage_ (entries.take (toInt m.storage_.size).toNat
      ++ entries.drop (toInt m.storage_.size).toNat ++ flatten ([] : List (Group K V))) := by
    rw [← hsplit]
    simpa [flatten] using hl
  have hgr0 : GroupsOK (max n 2) ([] : List (Group K V)) := ⟨by simp, by simp⟩
  have hix0 : IndexOK m.storage_.end_ (max n 2) (List.replicate (max n 2) m.storage_.end)
      ([] : List (Group K V)) := by
    refine ⟨by simp, ?_⟩
    intro b hb
    simp [headOf, groupOf, hb, LinkedList.end]
  obtain ⟨l1, groups1, bis1, hloop, hl1, hgr1, hix1, hend1, hperm⟩ :=
    rehashLoop_partial (max n 2) hc _ _ _ m.storage_ [] _ hlen hl0 hgr0 hix0
  simp only [hloop]
  refine ⟨_, _, rfl, rfl, hix1.1, hl1, ?_, ?_, rfl, rfl, rfl⟩
  · show l1.size = m.storage_.size
    have h1 := hperm.length_eq
    simp only [List.length_map, List.length_append, flatten, List.map_nil,
      List.length_nil, Nat.add_zero] at h1
    have h2 := congrArg List.length hsplit
    rw [List.length_append] at h2
    rw [ListRepr_size hl1, List.length_append, h1]
    omega
  · rw [List.map_append]
    have h1 : ((flatten groups1).map Prod.snd).Perm
        ((entries.take (toInt m.storage_.size).toNat).map Prod.snd) := by
      simpa [flatten] using hperm
    conv_rhs => rw [hsplit]
    rw [List.map_append]
    exact (List.Perm.append_left _ h1).trans List.perm_append_comm

end

/-! ### The bucket invariant -/

section
variable {K V : Type}

/-- A well formed map satisfies the bucket invariant. -/
theorem BucketInv_of_repr {m : UnorderedMap K V} {groups : List (Group K V)}
    (h : MapRepr m groups) : BucketInv m := by
  refine ⟨flatten groups, h.1, h.2.2.2.1.1, ?_⟩
  intro b hb
  have hix := h.2.2.2.1.2 b hb
  cases hgo : groupOf groups b with
  | none =>
    have hhead : headOf groups m.storage_.end_ b = m.storage_.end_ := by
      unfold headOf
      rw [hgo]
    rw [hhead] at hix
    refine ⟨flatten groups, [], [], by simp, by simp, ?_, by simpa [addrs] using hix,
      by simp [hix]⟩
    intro x hx
    have hx1 : x ∈ flatten groups := by simpa using hx
    obtain ⟨bg, hbg, hxg⟩ := mem_flatten.1 hx1
    rw [(h.2.2.1.2 bg hbg).2.2 x hxg]
    intro hc
    rw [groupOf_none] at hgo
    exact hgo (hc ▸ List.mem_map_of_mem Prod.fst hbg)
  | some g =>
    have hhead : headOf groups m.storage_.end_ b = (addrs g).headD m.storage_.end_ := by
      unfold headOf
      rw [hgo]
    rw [hhead] at hix
    obtain ⟨G1, G2, hs, _⟩ := groupOf_split hgo
    have hgr := h.2.2.1
    rw [hs] at hgr
    obtain ⟨hn1, hn2, _⟩ := groups_nodup_split hgr
    have hg := hgr.2 (b, g) (by simp)
    have hfl : flatten groups = flatten G1 ++ g ++ flatten G2 := by
      rw [hs, flatten_append, flatten_cons]
      simp
    refine ⟨flatten G1, g, flatten G2, hfl, hg.2.2, ?_, hix, ?_⟩
    · intro x hx
      rw [List.mem_append] at hx
      have hother : ∀ (G : List (Group K V)), (∀ bg ∈ G, bg ∈ G1 ++ (b, g) :: G2) →
          b ∉ G.map Prod.fst → x ∈ flatten G → x.2.hash % m.buckets_count_ ≠ b := by
        intro G hsub hnb hxG
        obtain ⟨bg, hbg, hxg⟩ := mem_flatten.1 hxG
        rw [(hgr.2 bg (hsub bg hbg)).2.2 x hxg]
        intro hc
        exact hnb (hc ▸ List.mem_map_of_mem Prod.fst hbg)
      rcases hx with hx | hx
      · exact hother G1 (fun bg hbg => by simp [hbg]) hn1 hx
      · exact hother G2 (fun bg hbg => by simp [hbg]) hn2 hx
    · rw [hix]
      have hne : g ≠ [] := hg.1
      constructor
      · intro hc
        exfalso
        cases g with
        | nil => exact hne rfl
        | cons y ys =>
          have hnd := ListRepr_nodup h.1
          rw [hfl] at hnd
          have hmem : y.1 ∈ addrs (flatten G1 ++ y :: ys ++ flatten G2) := by
            simp [addrs]
          have hye : y.1 = m.storage_.end_ := by
            simpa [addrs] using hc
          exact (List.nodup_cons.1 hnd).1 (hye ▸ hmem)
      · intro hc
        exact absurd hc hne

end

/-! ### `float` arithmetic -/

theorem roundHalfEven_int (n : ℤ) : roundHalfEven (n : ℚ) = n := by
  unfold roundHalfEven
  simp

theorem roundHalfEven_le (z : ℚ) (M : ℤ) (h : z ≤ M) : roundHalfEven z ≤ M := by
  have hfl : ⌊z⌋ ≤ M := by
    have := Int.floor_le z
    exact_mod_cast this.trans h
  have hup : ¬ (z - ⌊z⌋ < 1 / 2) → ⌊z⌋ + 1 ≤ M := by
    intro hfr
    have h1 : ((⌊z⌋ : ℤ) : ℚ) < M := by linarith
    have h2 : ⌊z⌋ < M := by exact_mod_cast h1
    omega
  unfold roundHalfEven
  split_ifs with h1 h2 h3
  · exact hfl
  · exact hup h1
  · exact hfl
  · exact hup h1

theorem roundHalfEven_ge (z : ℚ) (M : ℤ) (h : (M : ℚ) ≤ z) : M ≤ roundHalfEven z := by
  have hfl : M ≤ ⌊z⌋ := Int.le_floor.2 h
  unfold roundHalfEven
  split_ifs <;> omega

theorem roundHalfEven_gt_half (z : ℚ) (M : ℤ) (h : (M : ℚ) + 1 / 2 < z) :
    M + 1 ≤ roundHalfEven z := by
  have hfl : M ≤ ⌊z⌋ := Int.le_floor.2 (by linarith)
  have hlow : ¬ (1 / 2 < z - ⌊z⌋) → M + 1 ≤ ⌊z⌋ := by
    intro hfr
    by_contra hc
    have h1 : ⌊z⌋ ≤ M := by omega
    have h2 : ((⌊z⌋ : ℤ) : ℚ) ≤ M := by exact_mod_cast h1
    apply hfr
    linarith
  unfold roundHalfEven
  split_ifs with h1 h2 h3
  · exact hlow (by linarith)
  · omega
  · exact hlow h2
  · omega

theorem roundHalfEven_tie_even (n : ℤ) (hn : n % 2 = 0) :
    roundHalfEven ((n : ℚ) + 1 / 2) = n := by
  have hfl : ⌊(n : ℚ) + 1 / 2⌋ = n := by
    rw [Int.floor_eq_iff]
    constructor <;> linarith
  unfold roundHalfEven
  rw [hfl]
  have h1 : ¬ ((n : ℚ) + 1 / 2 - n < 1 / 2) := by linarith
  have h2 : ¬ (1 / 2 < (n : ℚ) + 1 / 2 - n) := by linarith
  rw [if_neg h1, if_neg h2, if_pos hn]

theorem zpow_two_split (e k : ℤ) : (2 : ℚ) ^ e = 2 ^ k * 2 ^ (e - k) := by
  rw [← zpow_add₀ (two_ne_zero)]
  congr 1
  ring

theorem zpow_two_pos (e : ℤ) : (0 : ℚ) < 2 ^ e := zpow_pos (by norm_num) e

theorem log_eq_of_bounds (x : ℚ) (e : ℤ) (h1 : (2 : ℚ) ^ e ≤ x) (h2 : x < 2 ^ (e + 1)) :
    Int.log 2 x = e := by
  have hx : 0 < x := lt_of_lt_of_le (zpow_two_pos e) h1
  have hb : 1 < 2 := by omega
  have ha : e ≤ Int.log 2 x := by
    rw [← Int.zpow_le_iff_le_log hb hx]
    exact_mod_cast h1
  have hc : Int.log 2 x < e + 1 := by
    rw [← Int.lt_zpow_iff_log_lt hb hx]
    exact_mod_cast h2
  omega

theorem log_bounds (x : ℚ) (hx : 0 < x) :
    (2 : ℚ) ^ (Int.log 2 x) ≤ x ∧ x < 2 ^ (Int.log 2 x + 1) := by
  have hb : 1 < 2 := by omega
  constructor
  · have := Int.zpow_log_le_self hb hx
    exact_mod_cast this
  · have := Int.lt_zpow_succ_log_self hb x
    exact_mod_cast this

/-- The value of `toFloat` on a positive number with `2^e ≤ x < 2^(e+1)`. -/
theorem toFloat_of_bounds (x : ℚ) (e : ℤ) (h1 : (2 : ℚ) ^ e ≤ x) (h2 : x < 2 ^ (e + 1)) :
    toFloat x = (roundHalfEven (x * 2 ^ (23 - e)) : ℚ) * 2 ^ (e - 23) := by
  have hx : 0 < x := lt_of_lt_of_le (zpow_two_pos e) h1
  unfold toFloat
  rw [if_neg (ne_of_gt hx), abs_of_pos hx, log_eq_of_bounds x e h1 h2]

/-- A number `M * 2^(e - 23)` with a significand `M` of 24 bits lies in the binade of
`e`. -/
theorem float_bounds (M e : ℤ) (hM1 : 2 ^ 23 ≤ M) (hM2 : M < 2 ^ 24) :
    (2 : ℚ) ^ e ≤ (M : ℚ) * 2 ^ (e - 23) ∧ (M : ℚ) * 2 ^ (e - 23) < 2 ^ (e + 1) := by
  have hp := zpow_two_pos (e - 23)
  have h1 : (2 : ℚ) ^ e = 2 ^ (23 : ℤ) * 2 ^ (e - 23) := zpow_two_split e 23
  have h2 : (2 : ℚ) ^ (e + 1) = 2 ^ (24 : ℤ) * 2 ^ (e - 23) := by
    rw [zpow_two_split (e + 1) 24]
    congr 2
    ring
  have hM1q : ((2 : ℚ) ^ (23 : ℤ)) ≤ (M : ℚ) := by
    have : ((2 ^ 23 : ℤ) : ℚ) ≤ (M : ℚ) := by exact_mod_cast hM1
    norm_num at this ⊢
    exact this
  have hM2q : (M : ℚ) < (2 : ℚ) ^ (24 : ℤ) := by
    have : (M : ℚ) < ((2 ^ 24 : ℤ) : ℚ) := by exact_mod_cast hM2
    norm_num at this ⊢
    exact this
  rw [h1, h2]
  exact ⟨mul_le_mul_of_nonneg_right hM1q hp.le, mul_lt_mul_of_pos_right hM2q hp⟩

theorem scale_back (x : ℚ) (e : ℤ) : x * 2 ^ (e - 23) * 2 ^ (23 - e) = x := by
  rw [mul_assoc, ← zpow_add₀ (two_ne_zero)]
  have : e - 23 + (23 - e) = 0 := by ring
  rw [this, zpow_zero, mul_one]

/-- A number `M * 2^(e - 23)` with a significand `M` of 24 bits is a `float`. -/
theorem toFloat_exact (M e : ℤ) (hM1 : 2 ^ 23 ≤ M) (hM2 : M < 2 ^ 24) :
    toFloat ((M : ℚ) * 2 ^ (e - 23)) = (M : ℚ) * 2 ^ (e - 23) := by
  obtain ⟨h1, h2⟩ := float_bounds M e hM1 hM2
  rw [toFloat_of_bounds _ e h1 h2, scale_back, roundHalfEven_int]

/-- Rounding does not cross a `float` above. -/
theorem toFloat_le_of_le (x : ℚ) (M e : ℤ) (hM1 : 2 ^ 23 ≤ M) (hM2 : M < 2 ^ 24)
    (hx : 0 < x) (hxy : x ≤ (M : ℚ) * 2 ^ (e - 23)) :
    toFloat x ≤ (M : ℚ) * 2 ^ (e - 23) := by
  obtain ⟨hy1, hy2⟩ := float_bounds M e hM1 hM2
  obtain ⟨hx1, hx2⟩ := log_bounds x hx
  have hlog : Int.log 2 x < e + 1 := by
    have hb : 1 < 2 := by omega
    rw [← Int.lt_zpow_iff_log_lt hb hx]
    exact_mod_cast lt_of_le_of_lt hxy hy2
  rw [toFloat_of_bounds x _ hx1 hx2]
  by_cases hcase : Int.log 2 x = e
  · rw [hcase]
    have hz : x * 2 ^ (23 - e) ≤ (M : ℚ) := by
      have := mul_le_mul_of_nonneg_right hxy (zpow_two_pos (23 - e)).le
      rw [scale_back] at this
      exact this
    have hr := roundHalfEven_le _ M hz
    have hrq : (roundHalfEven (x * 2 ^ (23 - e)) : ℚ) ≤ (M : ℚ) := by exact_mod_cast hr
    exact mul_le_mul_of_nonneg_right hrq (zpow_two_pos (e - 23)).le
  · have hlt : Int.log 2 x + 1 ≤ e := by omega
    have hz : x * 2 ^ (23 - Int.log 2 x) ≤ ((2 ^ 24 : ℤ) : ℚ) := by
      have := mul_le_mul_of_nonneg_right hx2.le (zpow_two_pos (23 - Int.log 2 x)).le
      rw [← zpow_add₀ (two_ne_zero)] at this
      have he : Int.log 2 x + 1 + (23 - Int.log 2 x) = 24 := by ring
      rw [he] at this
      norm_num at this ⊢
      exact this
    have hr := roundHalfEven_le _ _ hz
    have hrq : (roundHalfEven (x * 2 ^ (23 - Int.log 2 x)) : ℚ) ≤ (2 : ℚ) ^ (24 : ℤ) := by
      have : (roundHalfEven (x * 2 ^ (23 - Int.log 2 x)) : ℚ) ≤ ((2 ^ 24 : ℤ) : ℚ) := by
        exact_mod_cast hr
      norm_num at this ⊢
      exact this
    have h3 := mul_le_mul_of_nonneg_right hrq (zpow_two_pos (Int.log 2 x - 23)).le
    rw [← zpow_add₀ (two_ne_zero)] at h3
    have he : (24 : ℤ) + (Int.log 2 x - 23) = Int.log 2 x + 1 := by ring
    rw [he] at h3
    have h4 : (2 : ℚ) ^ (Int.log 2 x + 1) ≤ 2 ^ e :=
      zpow_le_zpow_right₀ (by norm_num) hlt
    exact h3.trans (h4.trans hy1)

/-- Rounding does not cross a `float` below. -/
theorem toFloat_ge_of_ge (x : ℚ) (M e : ℤ) (hM1 : 2 ^ 23 ≤ M) (hM2 : M < 2 ^ 24)
    (hxy : (M : ℚ) * 2 ^ (e - 23) ≤ x) :
    (M : ℚ) * 2 ^ (e - 23) ≤ toFloat x := by
  obtain ⟨hy1, hy2⟩ := float_bounds M e hM1 hM2
  have hx : 0 < x := lt_of_lt_of_le (zpow_two_pos e) (hy1.trans hxy)
  obtain ⟨hx1, hx2⟩ := log_bounds x hx
  have hlog : e ≤ Int.log 2 x := by
    have hb : 1 < 2 := by omega
    rw [← Int.zpow_le_iff_le_log hb hx]
    exact_mod_cast hy1.trans hxy
  rw [toFloat_of_bounds x _ hx1 hx2]
  by_cases hcase : Int.log 2 x = e
  · rw [hcase]
    have hz : (M : ℚ) ≤ x * 2 ^ (23 - e) := by
      have := mul_le_mul_of_nonneg_right hxy (zpow_two_pos (23 - e)).le
      rw [scale_back] at this
      exact this
    have hr := roundHalfEven_ge _ M hz
    have hrq : (M : ℚ) ≤ (roundHalfEven (x * 2 ^ (23 - e)) : ℚ) := by exact_mod_cast hr
    exact mul_le_mul_of_nonneg_right hrq (zpow_two_pos (e - 23)).le
  · have hlt : e + 1 ≤ Int.log 2 x := by omega
    have hz : ((2 ^ 23 : ℤ) : ℚ) ≤ x * 2 ^ (23 - Int.log 2 x) := by
      have := mul_le_mul_of_nonneg_right hx1 (zpow_two_pos (23 - Int.log 2 x)).le
      rw [← zpow_add₀ (two_ne_zero)] at this
      have he : Int.log 2 x + (23 - Int.log 2 x) = 23 := by ring
      rw [he] at this
      norm_num at this ⊢
      exact this
    have hr := roundHalfEven_ge _ _ hz
    have hrq : (2 : ℚ) ^ (23 : ℤ) ≤ (roundHalfEven (x * 2 ^ (23 - Int.log 2 x)) : ℚ) := by
      have : ((2 ^ 23 : ℤ) : ℚ) ≤ (roundHalfEven (x * 2 ^ (23 - Int.log 2 x)) : ℚ) := by
        exact_mod_cast hr
      norm_num at this ⊢
      exact this
    have h3 := mul_le_mul_of_nonneg_right hrq (zpow_two_pos (Int.log 2 x - 23)).le
    rw [← zpow_add₀ (two_ne_zero)] at h3
    have he : (23 : ℤ) + (Int.log 2 x - 23) = Int.log 2 x := by ring
    rw [he] at h3
    have h4 : (2 : ℚ) ^ (e + 1) ≤ 2 ^ (Int.log 2 x) :=
      zpow_le_zpow_right₀ (by norm_num) hlt
    exact hy2.le.trans (h4.trans h3)

theorem toFloat_zero : toFloat 0 = 0 := by
  unfold toFloat
  rw [if_pos rfl]

theorem toFloat_pos (x : ℚ) (hx : 0 < x) : 0 < toFloat x := by
  obtain ⟨hx1, _⟩ := log_bounds x hx
  have h := toFloat_ge_of_ge x (2 ^ 23) (Int.log 2 x) (le_refl _) (by norm_num)
    (by
      have h23 : ((2 ^ 23 : ℤ) : ℚ) = 2 ^ (23 : ℤ) := by norm_num
      rw [h23, ← zpow_two_split (Int.log 2 x) 23]
      exact hx1)
  refine lt_of_lt_of_le ?_ h
  exact mul_pos (by norm_num) (zpow_two_pos _)

/-- Doubling is exact. -/
theorem toFloat_two_mul (x : ℚ) (hx : 0 < x) : toFloat (2 * x) = 2 * toFloat x := by
  obtain ⟨hx1, hx2⟩ := log_bounds x hx
  have h1 : (2 : ℚ) ^ (Int.log 2 x + 1) ≤ 2 * x := by
    rw [zpow_add₀ (two_ne_zero), zpow_one]
    linarith
  have h2 : 2 * x < (2 : ℚ) ^ (Int.log 2 x + 1 + 1) := by
    rw [zpow_add₀ (two_ne_zero) (Int.log 2 x + 1), zpow_one]
    linarith
  rw [toFloat_of_bounds (2 * x) _ h1 h2, toFloat_of_bounds x _ hx1 hx2]
  have h3 : 2 * x * (2 : ℚ) ^ (23 - (Int.log 2 x + 1)) = x * 2 ^ (23 - Int.log 2 x) := by
    have : (23 : ℤ) - Int.log 2 x = 1 + (23 - (Int.log 2 x + 1)) := by ring
    rw [this, zpow_add₀ (two_ne_zero), zpow_one]
    ring
  have h4 : (2 : ℚ) ^ (Int.log 2 x + 1 - 23) = 2 * 2 ^ (Int.log 2 x - 23) := by
    have : Int.log 2 x + 1 - 23 = 1 + (Int.log 2 x - 23) := by ring
    rw [this, zpow_add₀ (two_ne_zero), zpow_one]
  rw [h3, h4]
  ring

/-- The conversion of an integer of at most 24 bits to `float` is exact. -/
theorem toFloat_nat (n : Nat) (hn : n < 2 ^ 24) : toFloat (n : ℚ) = n := by
  rcases Nat.eq_zero_or_pos n with h0 | hpos
  · subst h0
    simpa using toFloat_zero
  have hx : (0 : ℚ) < n := by exact_mod_cast hpos
  obtain ⟨hx1, hx2⟩ := log_bounds (n : ℚ) hx
  have hb : 1 < 2 := by omega
  have hlog : Int.log 2 (n : ℚ) < 24 := by
    rw [← Int.lt_zpow_iff_log_lt hb hx]
    have : (n : ℚ) < ((2 ^ 24 : ℕ) : ℚ) := by exact_mod_cast hn
    norm_num at this ⊢
    exact this
  obtain ⟨k, hk⟩ : ∃ k : ℕ, 23 - Int.log 2 (n : ℚ) = k :=
    ⟨(23 - Int.log 2 (n : ℚ)).toNat, by omega⟩
  rw [toFloat_of_bounds _ _ hx1 hx2]
  have hz : (n : ℚ) * 2 ^ (23 - Int.log 2 (n : ℚ)) = (((n * 2 ^ k : ℕ) : ℤ) : ℚ) := by
    rw [hk, zpow_natCast]
    push_cast
    ring
  rw [hz, roundHalfEven_int]
  have hz2 : ((((n * 2 ^ k : ℕ) : ℤ) : ℚ)) = (n : ℚ) * 2 ^ (23 - Int.log 2 (n : ℚ)) := hz.symm
  rw [hz2, mul_assoc, ← zpow_add₀ (two_ne_zero)]
  have : 23 - Int.log 2 (n : ℚ) + (Int.log 2 (n : ℚ) - 23) = 0 := by ring
  rw [this, zpow_zero, mul_one]

theorem toFloat_nat_le (n : Nat) (hn : n ≤ 2 ^ 24) : toFloat (n : ℚ) = n := by
  rcases Nat.lt_or_ge n (2 ^ 24) with h | h
  · exact toFloat_nat n h
  · have hn2 : n = 2 ^ 24 := by omega
    have := toFloat_exact (2 ^ 23) 24 (le_refl _) (by norm_num)
    rw [hn2]
    norm_num at this ⊢
    exact this

theorem half_float : ((2 ^ 23 : ℤ) : ℚ) * 2 ^ ((-1 : ℤ) - 23) = 1 / 2 := by
  norm_num

theorem one_float : ((2 ^ 23 : ℤ) : ℚ) * 2 ^ ((0 : ℤ) - 23) = 1 := by
  norm_num

/-- A quotient of at most one half rounds to at most one half. -/
theorem toFloat_le_half (q : ℚ) (h0 : 0 ≤ q) (hq : q ≤ 1 / 2) : toFloat q ≤ 1 / 2 := by
  rcases eq_or_lt_of_le h0 with h | h
  · rw [← h, toFloat_zero]
    norm_num
  · have := toFloat_le_of_le q (2 ^ 23) (-1) (le_refl _) (by norm_num) h
      (by rw [half_float]; exact hq)
    rw [half_float] at this
    exact this

/-- A quotient that exceeds one half by more than `2^-25` rounds to more than one
half. -/
theorem toFloat_gt_half (q : ℚ) (hq : 1 / 2 + 1 / 2 ^ 25 < q) : 1 / 2 < toFloat q := by
  rcases lt_or_le q 1 with h1 | h1
  · have hb1 : (2 : ℚ) ^ (-1 : ℤ) ≤ q := by
      norm_num
      have : (0 : ℚ) < 1 / 2 ^ 25 := by norm_num
      linarith
    have hb2 : q < (2 : ℚ) ^ ((-1 : ℤ) + 1) := by
      norm_num
      exact h1
    rw [toFloat_of_bounds q (-1) hb1 hb2]
    have hz : (((2 ^ 23 : ℤ)) : ℚ) + 1 / 2 < q * 2 ^ ((23 : ℤ) - (-1)) := by
      norm_num
      norm_num at hq
      linarith
    have hr := roundHalfEven_gt_half _ _ hz
    have hrq : (((2 ^ 23 + 1 : ℤ)) : ℚ) ≤ (roundHalfEven (q * 2 ^ ((23 : ℤ) - (-1))) : ℚ) := by
      exact_mod_cast hr
    have hp : (0 : ℚ) < 2 ^ ((-1 : ℤ) - 23) := zpow_two_pos _
    have := mul_le_mul_of_nonneg_right hrq hp.le
    refine lt_of_lt_of_le ?_ this
    norm_num
  · have := toFloat_ge_of_ge q (2 ^ 23) 0 (le_refl _) (by norm_num)
      (by rw [one_float]; exact h1)
    rw [one_float] at this
    linarith

/-- The comparison `load_factor() > max_load_factor_` of `emplace` with the default
`max_load_factor_` is exact when the bucket count has at most 24 bits. -/
theorem default_exceeds (s b : Nat) (hb0 : 0 < b) (hb : b < 2 ^ 24) :
    LoadPolicy.default.exceeds s b = decide (b < 2 * s) := by
  have hfb : toFloat (b : ℚ) = b := toFloat_nat b hb
  have hbq : (0 : ℚ) < b := by exact_mod_cast hb0
  have hbq24 : (b : ℚ) < 2 ^ 24 := by exact_mod_cast hb
  show decide ((1 : ℚ) / 2 < toFloat (toFloat (s : ℚ) / toFloat (b : ℚ))) = decide (b < 2 * s)
  rw [hfb]
  by_cases hcase : b < 2 * s
  · rw [decide_eq_true hcase, decide_eq_true_eq]
    apply toFloat_gt_half
    have hfs : (b : ℚ) + 1 ≤ 2 * toFloat (s : ℚ) := by
      rcases Nat.lt_or_ge s (2 ^ 24) with h | h
      · rw [toFloat_nat s h]
        exact_mod_cast hcase
      · have hs : ((2 ^ 23 : ℤ) : ℚ) * 2 ^ ((24 : ℤ) - 23) ≤ (s : ℚ) := by
          have : ((2 ^ 24 : ℕ) : ℚ) ≤ (s : ℚ) := by exact_mod_cast h
          norm_num at this ⊢
          exact this
        have := toFloat_ge_of_ge (s : ℚ) (2 ^ 23) 24 (le_refl _) (by norm_num) hs
        norm_num at this
        linarith
    rw [lt_div_iff₀ hbq]
    have h25 : (1 : ℚ) / 2 ^ 25 * b < 1 / 2 := by
      have : (1 : ℚ) / 2 ^ 25 * b < 1 / 2 ^ 25 * 2 ^ 24 :=
        mul_lt_mul_of_pos_left hbq24 (by norm_num)
      refine lt_of_lt_of_le this ?_
      norm_num
    linarith
  · rw [decide_eq_false hcase, decide_eq_false_iff_not, not_lt]
    have hs : s < 2 ^ 24 := by omega
    rw [toFloat_nat s hs]
    apply toFloat_le_half
    · exact div_nonneg (by exact_mod_cast Nat.zero_le s) hbq.le
    · rw [div_le_iff₀ hbq]
      have : (2 * s : ℚ) ≤ b := by exact_mod_cast Nat.le_of_not_lt hcase
      linarith

/-- The computation `size_t(2 * (storage_.size() / max_load_factor_ + 2))` of `emplace`
with the default `max_load_factor_` is exact for a size below `2^23`. -/
theorem default_target (s : Nat) (hs : s < 2 ^ 23) :
    LoadPolicy.default.target s = 4 * s + 4 := by
  show (toFloat (2 * toFloat (toFloat (toFloat (s : ℚ) / (1 / 2)) + 2))).floor.toNat
    = 4 * s + 4
  rw [toFloat_nat s (by omega)]
  have h1 : (s : ℚ) / (1 / 2) = ((2 * s : ℕ) : ℚ) := by
    push_cast
    ring
  rw [h1, toFloat_nat (2 * s) (by omega)]
  have h2 : ((2 * s : ℕ) : ℚ) + 2 = ((2 * s + 2 : ℕ) : ℚ) := by push_cast; ring
  rw [h2, toFloat_nat_le (2 * s + 2) (by omega)]
  rw [toFloat_two_mul _ (by exact_mod_cast Nat.succ_pos _),
    toFloat_nat_le (2 * s + 2) (by omega)]
  have h3 : (2 : ℚ) * ((2 * s + 2 : ℕ) : ℚ) = (((4 * s + 4 : ℕ) : ℤ) : ℚ) := by
    push_cast
    ring
  rw [h3]
  show (⌊((((4 * s + 4 : ℕ) : ℤ)) : ℚ)⌋).toNat = 4 * s + 4
  rw [Int.floor_intCast]
  exact Int.toNat_ofNat _

/-- The comparison `load_factor() > max_load_factor_` is `false` for every size up to a
size `S` that is a `float`, when the bucket count `b` is a `float` and `2 * S ≤ b`. -/
theorem default_exceeds_false (s S b : Nat) (MS eS Mb eb : ℤ)
    (hS1 : 2 ^ 23 ≤ MS) (hS2 : MS < 2 ^ 24) (hS : (S : ℚ) = (MS : ℚ) * 2 ^ (eS - 23))
    (hb1 : 2 ^ 23 ≤ Mb) (hb2 : Mb < 2 ^ 24) (hb : (b : ℚ) = (Mb : ℚ) * 2 ^ (eb - 23))
    (hs : s ≤ S) (hSb : 2 * S ≤ b) :
    LoadPolicy.default.exceeds s b = false := by
  show decide ((1 : ℚ) / 2 < toFloat (toFloat (s : ℚ) / toFloat (b : ℚ))) = false
  rw [decide_eq_false_iff_not, not_lt]
  have hfb : toFloat (b : ℚ) = b := by
    rw [hb]
    exact toFloat_exact Mb eb hb1 hb2
  have hbq : (0 : ℚ) < b := by
    rw [hb]
    exact mul_pos (by exact_mod_cast lt_of_lt_of_le (by norm_num) hb1) (zpow_two_pos _)
  rw [hfb]
  rcases Nat.eq_zero_or_pos s with h0 | hpos
  · subst h0
    have : toFloat ((0 : ℕ) : ℚ) = 0 := by simpa using toFloat_zero
    rw [this, zero_div, toFloat_zero]
    norm_num
  · have hsq : (0 : ℚ) < s := by exact_mod_cast hpos
    have hfs : toFloat (s : ℚ) ≤ S := by
      rw [hS]
      apply toFloat_le_of_le _ MS eS hS1 hS2 hsq
      rw [← hS]
      exact_mod_cast hs
    apply toFloat_le_half
    · exact div_nonneg (toFloat_pos _ hsq).le hbq.le
    · rw [div_le_iff₀ hbq]
      have : (2 * S : ℚ) ≤ b := by exact_mod_cast hSb
      linarith

theorem default_exceeds_2_32 (s : Nat) (hs : s ≤ 2 ^ 31) :
    LoadPolicy.default.exceeds s (2 ^ 32) = false :=
  default_exceeds_false s (2 ^ 31) (2 ^ 32) (2 ^ 23) 31 (2 ^ 23) 32 (le_refl _) (by norm_num)
    (by norm_num) (le_refl _) (by norm_num) (by norm_num) hs (by norm_num)

theorem default_exceeds_41943032 (s : Nat) (hs : s ≤ 20971516) :
    LoadPolicy.default.exceeds s 41943032 = false :=
  default_exceeds_false s 20971516 41943032 10485758 24 10485758 25 (by norm_num)
    (by norm_num) (by norm_num) (by norm_num) (by norm_num) (by norm_num) hs (by norm_num)

/-- The size 20971517 is not a `float`: it is converted to 20971516, and the quotient by
the bucket count 41943032 is one half. -/
theorem default_exceeds_20971517 :
    LoadPolicy.default.exceeds 20971517 41943032 = false := by
  show decide ((1 : ℚ) / 2 < toFloat (toFloat ((20971517 : ℕ) : ℚ)
    / toFloat ((41943032 : ℕ) : ℚ))) = false
  rw [decide_eq_false_iff_not, not_lt]
  have h1 : toFloat ((20971517 : ℕ) : ℚ) = 20971516 := by
    rw [toFloat_of_bounds _ 24 (by norm_num) (by norm_num)]
    have hz : ((20971517 : ℕ) : ℚ) * 2 ^ ((23 : ℤ) - 24) = ((10485758 : ℤ) : ℚ) + 1 / 2 := by
      norm_num
    rw [hz, roundHalfEven_tie_even _ (by norm_num)]
    norm_num
  have h2 : toFloat ((41943032 : ℕ) : ℚ) = 41943032 := by
    have := toFloat_exact 10485758 25 (by norm_num) (by norm_num)
    norm_num at this ⊢
    exact this
  rw [h1, h2]
  apply toFloat_le_half <;> norm_num

/-! ### emplace, step by step -/

section
variable {K V : Type}

/-- The member `emplace` on a key that has no equal in the map, step by step: the list
insertion returns a list `l1`, the state then is well formed, holds the new entry at the
address `node_allocator_` handed out, and `emplace` goes on with the load factor check. -/
theorem emplace_absent_steps {m : UnorderedMap K V} {groups : List (Group K V)}
    (hk : KeyEquiv m.hasher_ m.equaler_) (h : MapRepr m groups) (key : K) (value : V)
    (fuel : Nat) (hf : m.size < fuel)
    (hno : ∀ x ∈ flatten groups, m.equaler_ x.2.node.1 key = false) :
    ∃ l1 groups1,
      m.storage_.emplace (headOf groups m.storage_.end_ (m.get_hash (m.hasher_ key)))
        { node := (key, value), hash := m.hasher_ key } = some l1 ∧
      MapRepr (afterInsertion m key l1) groups1 ∧
      (flatten groups1).Perm
        ((m.storage_.node_allocator_, { node := (key, value), hash := m.hasher_ key })
          :: flatten groups) ∧
      (afterInsertion m key l1).size = m.size + 1 ∧
      m.emplace fuel key value =
        (match (if m.max_load_factor_.exceeds (m.size + 1) m.buckets_count_ then
            (afterInsertion m key l1).rehash (m.max_load_factor_.target (m.size + 1))
          else some (afterInsertion m key l1)) with
        | none => none
        | some m2 =>
          match m2.bucket_iterators_[m2.get_hash (m.hasher_ key)]? with
          | none => none
          | some r => some (m2, r, true)) := by
  obtain ⟨_, iter, hbis, hiter, hscan⟩ := find_absent h key fuel hf hno
  have hl : ListRepr m.storage_ ([] ++ flatten groups) := by simpa using h.1
  obtain ⟨l1, groups1, _, hem, hprev, hl1, hgr1, hix1, hperm, hend1, _⟩ :=
    runs_insert hl h.2.1 h.2.2.1 h.2.2.2.1
      ({ node := (key, value), hash := m.hasher_ key } : HashedNode K V)
  have hperm1 : ((flatten groups1).map Prod.snd).Perm
      ({ node := (key, value), hash := m.hasher_ key } :: (flatten groups).map Prod.snd) := by
    have := hperm.map Prod.snd
    simpa using this
  have hp := MapRepr_payloads h
  have hm1 : MapRepr (afterInsertion m key l1) groups1 := by
    refine MapRepr_of_perm (m := m) hk rfl rfl (by simpa using hl1) h.2.1 hgr1 ?_ _ hperm1
      ?_ ?_
    · show IndexOK l1.end_ _ _ _
      rw [hend1]
      exact hix1
    · intro p hpm
      rw [List.mem_cons] at hpm
      rcases hpm with hpm | hpm
      · rw [hpm]
      · exact hp.1 p hpm
    · rw [List.pairwise_cons]
      refine ⟨?_, hp.2⟩
      intro q hq
      rw [List.mem_map] at hq
      obtain ⟨x, hx, rfl⟩ := hq
      exact rel_symm hk (hno x hx)
  have hsz1 : l1.size = m.size + 1 := by
    rw [ListRepr_size hl1]
    have := hperm.length_eq
    simp only [List.nil_append, List.length_cons] at this ⊢
    rw [this]
    unfold UnorderedMap.size
    rw [ListRepr_size h.1]
  refine ⟨l1, groups1, hem, hm1, hperm, hsz1, ?_⟩
  have hem1 : m.storage_.emplace iter { node := (key, value), hash := m.hasher_ key }
      = some l1 := by
    rw [hiter]
    exact hem
  have hprev1 : prevOf l1.heap iter = some m.storage_.node_allocator_ := by
    rw [hiter]
    exact hprev
  unfold UnorderedMap.emplace
  simp only [hbis, hscan, hem1, hprev1]
  have hsz2 : l1.size = m.size + 1 := hsz1
  show (match (if m.max_load_factor_.exceeds l1.size m.buckets_count_ then
      (afterInsertion m key l1).rehash (m.max_load_factor_.target l1.size)
    else some (afterInsertion m key l1)) with
    | none => none
    | some m2 =>
      match m2.bucket_iterators_[m2.get_hash (m.hasher_ key)]? with
      | none => none
      | some r => some (m2, r, true)) = _
  rw [hsz2]

/-- The member `emplace` on a key that has no equal in the map, when the load factor check
does not call `rehash`: the returned position is that of the new entry. -/
theorem emplace_absent_plain {m : UnorderedMap K V} {groups : List (Group K V)}
    (hk : KeyEquiv m.hasher_ m.equaler_) (h : MapRepr m groups) (key : K) (value : V)
    (fuel : Nat) (hf : m.size < fuel)
    (hno : ∀ x ∈ flatten groups, m.equaler_ x.2.node.1 key = false)
    (hex : m.max_load_factor_.exceeds (m.size + 1) m.buckets_count_ = false) :
    ∃ l1 groups1,
      m.emplace fuel key value
        = some (afterInsertion m key l1, m.storage_.node_allocator_, true) ∧
      MapRepr (afterInsertion m key l1) groups1 ∧
      (m.storage_.node_allocator_, { node := (key, value), hash := m.hasher_ key })
        ∈ flatten groups1 ∧
      (flatten groups1).Perm
        ((m.storage_.node_allocator_, { node := (key, value), hash := m.hasher_ key })
          :: flatten groups) := by
  obtain ⟨l1, groups1, _, hm1, hperm, _, hem⟩ := emplace_absent_steps hk h key value fuel hf hno
  refine ⟨l1, groups1, ?_, hm1, ?_, hperm⟩
  · rw [hem, hex]
    have hb : m.get_hash (m.hasher_ key) < m.bucket_iterators_.length := by
      rw [h.2.2.2.1.1]
      exact Nat.mod_lt _ h.2.1
    have hr : (afterInsertion m key l1).bucket_iterators_[
        (afterInsertion m key l1).get_hash (m.hasher_ key)]?
        = some m.storage_.node_allocator_ := by
      show (m.bucket_iterators_.set (m.get_hash (m.hasher_ key))
        m.storage_.node_allocator_)[m.get_hash (m.hasher_ key)]? = _
      rw [set_index _ _ _ _ hb, if_pos rfl]
    simp only [Bool.false_eq_true, if_false, hr]
  · rw [hperm.mem_iff]
    exact List.mem_cons_self _ _

end

/-! ### Growing `rangeMap` -/

theorem rangeMap_list_emplace (n bc : Nat) (policy : LoadPolicy) :
    (rangeMap n bc policy).storage_.emplace 0 ⟨(n, 0), n⟩
      = some (rangeMap (n + 1) bc policy).storage_ := by
  by_cases hn : n = 0
  · subst hn
    simp [LinkedList.emplace, rangeMap, prevOf, setPrevious, setNext, Heap.store]
    funext a
    rcases a with _ | _ | a <;> simp [Heap.store]
  · have h1 : n + 1 ≠ 0 := by omega
    have h2 : ¬ (0 = n) := fun h => hn h.symm
    simp [LinkedList.emplace, rangeMap, prevOf, setPrevious, setNext, Heap.store, hn, h2]
    funext a
    by_cases ha0 : a = 0
    · simp [ha0, Heap.store]
    · by_cases ha1 : a = n + 1
      · simp [ha1, Heap.store]
      · by_cases ha2 : a = n
        · simp [ha2, hn, Heap.store]
        · have h3 : (a ≤ n + 1) = (a ≤ n) := by
            apply propext
            constructor <;> intro h <;> omega
          simp [ha0, ha1, ha2, h3, Heap.store]

theorem rangeMap_index (n bc : Nat) (policy : LoadPolicy) (b : Nat) (hb : b < bc) :
    (rangeMap n bc policy).bucket_iterators_[b]? = some (if b < n then b + 1 else 0) := by
  show ((List.range bc).map (fun b => if b < n then b + 1 else 0))[b]? = _
  rw [List.getElem?_map, List.getElem?_range hb]
  rfl

theorem rangeMap_index_set (n bc : Nat) (hn : n < bc) :
    ((List.range bc).map (fun b => if b < n then b + 1 else 0)).set n (n + 1)
      = (List.range bc).map (fun b => if b < n + 1 then b + 1 else 0) := by
  apply List.ext_getElem?
  intro i
  rw [set_index _ _ _ _ (by simpa using hn)]
  by_cases hi : i < bc
  · rw [List.getElem?_map, List.getElem?_map, List.getElem?_range hi]
    by_cases hin : i = n
    · subst hin
      simp
    · have h1 : (i < n + 1) = (i < n) := by
        apply propext
        constructor <;> intro h <;> omega
      simp [hin, h1]
  · have h1 : ∀ (f : Nat → Nat), ((List.range bc).map f)[i]? = none := by
      intro f
      rw [List.getElem?_eq_none]
      simp
      omega
    have hin : ¬ (i = n) := by omega
    rw [h1, h1, if_neg hin]

/-- The member `emplace` of the key `n` on `rangeMap n bc policy`, when the load factor
check does not call `rehash`, gives `rangeMap (n + 1) bc policy`. -/
theorem rangeMap_emplace (n bc : Nat) (policy : LoadPolicy) (hn : n < bc)
    (hex : policy.exceeds (n + 1) bc = false) (fuel : Nat) :
    (rangeMap n bc policy).emplace (fuel + 1) n 0
      = some (rangeMap (n + 1) bc policy, n + 1, true) := by
  have hhash : (rangeMap n bc policy).get_hash ((rangeMap n bc policy).hasher_ n) = n :=
    Nat.mod_eq_of_lt hn
  have hidx : (rangeMap n bc policy).bucket_iterators_[n]? = some 0 := by
    rw [rangeMap_index n bc policy n hn]
    simp
  have hscan : (rangeMap n bc policy).scan n ((rangeMap n bc policy).hasher_ n) (fuel + 1) 0
      = some none := by
    unfold UnorderedMap.scan
    have he : (0 : Nat) = (rangeMap n bc policy).storage_.end := rfl
    rw [if_pos he]
  have hem : (rangeMap n bc policy).storage_.emplace 0
      { node := (n, 0), hash := (rangeMap n bc policy).hasher_ n }
      = some (rangeMap (n + 1) bc policy).storage_ := rangeMap_list_emplace n bc policy
  have hprev := rangeMap_prev_end (n + 1) bc policy
  have hstate : UnorderedMap.mk (rangeMap n bc policy).buckets_count_
      (rangeMap n bc policy).hasher_ (rangeMap n bc policy).equaler_
      (rangeMap (n + 1) bc policy).storage_
      ((rangeMap n bc policy).bucket_iterators_.set n (n + 1))
      (rangeMap n bc policy).max_load_factor_ = rangeMap (n + 1) bc policy := by
    show UnorderedMap.mk bc _ _ _ (((List.range bc).map
      (fun b => if b < n then b + 1 else 0)).set n (n + 1)) policy = rangeMap (n + 1) bc policy
    rw [rangeMap_index_set n bc hn]
    rfl
  have hidx1 : (rangeMap (n + 1) bc policy).bucket_iterators_[n]? = some (n + 1) := by
    rw [rangeMap_index (n + 1) bc policy n hn]
    simp
  unfold UnorderedMap.emplace
  simp only [hhash, hidx, hscan, hem, hprev, hstate]
  have hex1 : (rangeMap n bc policy).max_load_factor_.exceeds
      (rangeMap (n + 1) bc policy).size (rangeMap n bc policy).buckets_count_
      = false := hex
  have hhash1 : (rangeMap (n + 1) bc policy).get_hash ((rangeMap n bc policy).hasher_ n) = n :=
    Nat.mod_eq_of_lt hn
  simp only [hex1, Bool.false_eq_true, if_false, hhash1, hidx1]

theorem calls_cons {K V : Type} (m : UnorderedMap K V) (fuel : Nat) (c : MapCall K V)
    (cs : List (MapCall K V)) :
    m.calls fuel (c :: cs) = match m.call fuel c with
      | none => none
      | some m1 => m1.calls fuel cs := rfl

/-- The inserts of `(k, 0)` for `k = n, ..., n + len - 1` on `rangeMap n bc policy`, none
of which calls `rehash`. -/
theorem rangeMap_inserts (bc : Nat) (policy : LoadPolicy) (fuel : Nat) :
    ∀ (len n : Nat), n + len ≤ bc → (∀ s, s ≤ n + len → policy.exceeds s bc = false) →
      (rangeMap n bc policy).calls (fuel + 1)
          ((List.range' n len).map (fun k => MapCall.insert k 0))
        = some (rangeMap (n + len) bc policy) := by
  intro len
  induction len with
  | zero => intro n _ _; rfl
  | succ len ih =>
    intro n hn hex
    rw [List.range'_succ, List.map_cons]
    have h1 := rangeMap_emplace n bc policy (by omega) (hex (n + 1) (by omega)) fuel
    have h2 := ih (n + 1) (by omega) (fun s hs => hex s (by omega))
    rw [calls_cons]
    have h3 : (rangeMap n bc policy).call (fuel + 1) (MapCall.insert n 0)
        = some (rangeMap (n + 1) bc policy) := by
      simp only [UnorderedMap.call, UnorderedMap.insert, h1]
    rw [h3]
    simp only
    rw [h2]
    congr 2
    omega

/-- The call `reserve(bc)` on the default-constructed map gives `rangeMap 0 bc policy`. -/
theorem rangeMap_reserve (bc : Nat) (policy : LoadPolicy) (hbc : 2 ≤ bc) :
    (UnorderedMap.mk0 (fun k : Nat => k) (fun a b => decide (a = b)) policy :
      UnorderedMap Nat Nat).reserve bc = some (rangeMap 0 bc policy) := by
  unfold UnorderedMap.reserve UnorderedMap.rehash
  have h0 : ¬ (bc < (UnorderedMap.mk0 (fun k : Nat => k) (fun a b => decide (a = b)) policy :
      UnorderedMap Nat Nat).size) := by
    show ¬ (bc < 0)
    omega
  rw [if_neg h0]
  have hmax : max bc 2 = bc := by omega
  have hr : (toInt (UnorderedMap.mk0 (fun k : Nat => k) (fun a b => decide (a = b)) policy :
      UnorderedMap Nat Nat).storage_.size).toNat = 0 := by
    show (toInt 0).toNat = 0
    rfl
  simp only [hmax, hr, rehashLoop]
  have hidx : List.replicate bc 0 = (List.range bc).map (fun b => if b < 0 then b + 1 else 0) := by
    apply List.ext_getElem?
    intro i
    by_cases hi : i < bc
    · rw [List.getElem?_map, List.getElem?_range hi]
      simp [hi]
    · rw [List.getElem?_eq_none (by simpa using hi), List.getElem?_eq_none (by simpa using hi)]
  have hheap : (LinkedList.mk0 (HashedNode Nat Nat)).heap
      = (rangeMap 0 bc policy).storage_.heap := by
    funext a
    by_cases ha : a = 0
    · simp [LinkedList.mk0, rangeMap, Heap.store, ha]
    · simp [LinkedList.mk0, rangeMap, Heap.store, ha]
  show some (UnorderedMap.mk bc _ _ (LinkedList.mk0 (HashedNode Nat Nat))
    (List.replicate bc (LinkedList.mk0 (HashedNode Nat Nat)).end) policy) = _
  have hlist : LinkedList.mk0 (HashedNode Nat Nat) = (rangeMap 0 bc policy).storage_ := by
    show LinkedList.mk (LinkedList.mk0 (HashedNode Nat Nat)).heap 1 0 0 = _
    rw [hheap]
    rfl
  rw [hlist]
  show some (UnorderedMap.mk bc _ _ _ (List.replicate bc 0) policy) = _
  rw [hidx]
  rfl

/-! ### Every call keeps a map of fewer than `2^31 - 1` entries well formed -/

section
variable {K V : Type}

/-- The member `emplace` on a well formed map of fewer than `2^31 - 1` entries returns and
leaves a well formed map. -/
theorem emplace_repr {m : UnorderedMap K V} {groups : List (Group K V)}
    (hk : KeyEquiv m.hasher_ m.equaler_) (h : MapRepr m groups) (hsz : m.size + 1 < 2 ^ 31)
    (fuel : Nat) (hf : m.size < fuel) (key : K) (value : V) :
    ∃ m1 groups1 r b, m.emplace fuel key value = some (m1, r, b) ∧ MapRepr m1 groups1 ∧
      m1.hasher_ = m.hasher_ ∧ m1.equaler_ = m.equaler_ ∧
      m1.max_load_factor_ = m.max_load_factor_ ∧ m1.size ≤ m.size + 1 := by
  by_cases hp : ∃ x ∈ flatten groups, m.equaler_ x.2.node.1 key = true
  · obtain ⟨x, hx, hxe⟩ := hp
    exact ⟨m, groups, x.1, false, emplace_present hk h key value fuel hf hx hxe, h, rfl, rfl,
      rfl, Nat.le_succ _⟩
  · have hno : ∀ x ∈ flatten groups, m.equaler_ x.2.node.1 key = false := by
      intro x hx
      cases hxe : m.equaler_ x.2.node.1 key with
      | false => rfl
      | true => exact absurd ⟨x, hx, hxe⟩ hp
    obtain ⟨m2, groups2, r, hem, hm2, hperm, hh, he, hpol⟩ :=
      emplace_absent hk h key value fuel hf hsz hno
    refine ⟨m2, groups2, r, true, hem, hm2, hh, he, hpol, ?_⟩
    rw [MapRepr_length hm2, MapRepr_length h]
    have := hperm.length_eq
    simp only [List.length_map, List.length_cons] at this
    omega

/-- Every call on a well formed map of fewer than `2^31 - 1` entries, an `erase` being of
a position of the list, returns and leaves a well formed map. -/
theorem map_call_repr {m : UnorderedMap K V} {groups : List (Group K V)}
    (hk : KeyEquiv m.hasher_ m.equaler_) (h : MapRepr m groups) (hsz : m.size + 1 < 2 ^ 31)
    (fuel : Nat) (hf : m.size < fuel) (c : MapCall K V)
    (hc : ∀ i, c = MapCall.erase i → i < m.size) :
    ∃ m1 groups1, m.call fuel c = some m1 ∧ MapRepr m1 groups1 ∧
      m1.hasher_ = m.hasher_ ∧ m1.equaler_ = m.equaler_ ∧
      m1.max_load_factor_ = m.max_load_factor_ ∧ m1.size ≤ m.size + 1 := by
  cases c with
  | emplace k v =>
    obtain ⟨m1, groups1, r, b, hem, hrest⟩ := emplace_repr hk h hsz fuel hf k v
    refine ⟨m1, groups1, ?_, hrest⟩
    simp only [UnorderedMap.call, hem]
  | insert k v =>
    obtain ⟨m1, groups1, r, b, hem, hrest⟩ := emplace_repr hk h hsz fuel hf k v
    refine ⟨m1, groups1, ?_, hrest⟩
    simp only [UnorderedMap.call, UnorderedMap.insert, hem]
  | erase i =>
    have hi : i < (flatten groups).length := by
      rw [← MapRepr_length h]
      exact hc i rfl
    have hit := iterAt_repr h.1 i (by omega)
    rw [List.drop_eq_getElem_cons hi] at hit
    have hx : (flatten groups)[i] ∈ flatten groups := List.getElem_mem _
    obtain ⟨m1, groups1, her, hm1, hperm, hh, he, hpol⟩ := erase_repr hk h hx
    refine ⟨m1, groups1, ?_, hm1, hh, he, hpol, ?_⟩
    · simp only [UnorderedMap.call, hit]
      exact her
    · rw [MapRepr_length hm1, MapRepr_length h]
      have := hperm.length_eq
      simp only [List.length_cons] at this
      omega
  | reserve n =>
    obtain ⟨m1, groups1, hre, hm1, hperm, hh, he, hpol⟩ := rehash_repr hk h (by omega) n
    refine ⟨m1, groups1, ?_, hm1, hh, he, hpol, ?_⟩
    · simp only [UnorderedMap.call, UnorderedMap.reserve, hre]
    · rw [MapRepr_length hm1, MapRepr_length h]
      have := hperm.length_eq
      simp only [List.length_map] at this
      omega
  | rehash n =>
    obtain ⟨m1, groups1, hre, hm1, hperm, hh, he, hpol⟩ := rehash_repr hk h (by omega) n
    refine ⟨m1, groups1, ?_, hm1, hh, he, hpol, ?_⟩
    · simp only [UnorderedMap.call, hre]
    · rw [MapRepr_length hm1, MapRepr_length h]
      have := hperm.length_eq
      simp only [List.length_map] at this
      omega

/-- A sequence of calls on a well formed map, the sizes staying below `2^31 - 1`: either
every call returns and the map is well formed at the end, or the sequence has a call
`erase` of a position past the last entry, made on a well formed map. -/
theorem map_calls_repr (fuel : Nat) :
    ∀ (cs : List (MapCall K V)) (m : UnorderedMap K V) (groups : List (Group K V)) (n : Nat),
      KeyEquiv m.hasher_ m.equaler_ → MapRepr m groups → m.size ≤ n →
      n + cs.length < 2 ^ 31 → n + cs.length ≤ fuel →
      (∃ m1 groups1, m.calls fuel cs = some m1 ∧ MapRepr m1 groups1) ∨
      (∃ pre i post m1 groups1, cs = pre ++ MapCall.erase i :: post ∧
        m.calls fuel pre = some m1 ∧ MapRepr m1 groups1 ∧ m1.size ≤ i) := by
  intro cs
  induction cs with
  | nil =>
    intro m groups n _ h _ _ _
    exact Or.inl ⟨m, groups, rfl, h⟩
  | cons c cs ih =>
    intro m groups n hk h hn hlen hfuel
    rw [List.length_cons] at hlen hfuel
    by_cases hleg : ∀ i, c = MapCall.erase i → i < m.size
    · obtain ⟨m1, groups1, hcall, hm1, hh, he, _, hs1⟩ :=
        map_call_repr hk h (by omega) fuel (by omega) c hleg
      have hk1 : KeyEquiv m1.hasher_ m1.equaler_ := by
        rw [hh, he]
        exact hk
      rcases ih m1 groups1 (n + 1) hk1 hm1 (by omega) (by omega) (by omega) with hgood | hbad
      · obtain ⟨m2, groups2, hrun, hm2⟩ := hgood
        refine Or.inl ⟨m2, groups2, ?_, hm2⟩
        rw [calls_cons, hcall]
        exact hrun
      · obtain ⟨pre, i, post, m2, groups2, hcs, hrun, hm2, hi⟩ := hbad
        refine Or.inr ⟨c :: pre, i, post, m2, groups2, by rw [hcs]; rfl, ?_, hm2, hi⟩
        rw [calls_cons, hcall]
        exact hrun
    · push_neg at hleg
      obtain ⟨i, hci, hi⟩ := hleg
      exact Or.inr ⟨[], i, cs, m, groups, by rw [hci]; rfl, rfl, h, hi⟩

theorem calls_append (fuel : Nat) :
    ∀ (cs1 cs2 : List (MapCall K V)) (m : UnorderedMap K V),
      m.calls fuel (cs1 ++ cs2) = match m.calls fuel cs1 with
        | none => none
        | some m1 => m1.calls fuel cs2 := by
  intro cs1
  induction cs1 with
  | nil => intro cs2 m; rfl
  | cons c cs1 ih =>
    intro cs2 m
    rw [List.cons_append, calls_cons, calls_cons]
    cases m.call fuel c with
    | none => rfl
    | some m1 => exact ih cs2 m1

end

/-! ### `rehash` on a map of `2^31` entries -/

/-- The member `rehash(bc1)` on `rangeMap n bc policy` when the conversion of the size `n`
to `int` is not positive: the loop makes no round, and the new index array holds the end
sentinel only. -/
theorem rangeMap_rehash_wipes (n bc bc1 : Nat) (policy : LoadPolicy) (hn : n ≤ bc1)
    (hbc1 : 2 ≤ bc1) (hint : (toInt n).toNat = 0) :
    (rangeMap n bc policy).rehash bc1
      = some (UnorderedMap.mk bc1 (fun k => k) (fun a b => decide (a = b))
          (rangeMap n bc policy).storage_ (List.replicate bc1 0) policy) := by
  unfold UnorderedMap.rehash
  have h0 : ¬ (bc1 < (rangeMap n bc policy).size) := by
    show ¬ (bc1 < n)
    omega
  rw [if_neg h0]
  have hmax : max bc1 2 = bc1 := by omega
  have hr : (toInt (rangeMap n bc policy).storage_.size).toNat = 0 := hint
  simp only [hmax, hr, rehashLoop]
  rfl

/-- A map with entries whose index array holds the end sentinel only does not satisfy the
bucket invariant. -/
theorem wiped_not_BucketInv (n bc bc1 : Nat) (policy : LoadPolicy) (hn : 0 < n)
    (hbc1 : 0 < bc1) :
    ¬ BucketInv (UnorderedMap.mk bc1 (fun k => k) (fun a b => decide (a = b))
        (rangeMap n bc policy).storage_ (List.replicate bc1 0) policy) := by
  rintro ⟨entries, hl, _, hb⟩
  have hl1 : ListRepr (rangeMap n bc policy).storage_ entries := hl
  have hbegin := ListRepr_begin hl1
  have hnext : (rangeMap n bc policy).storage_.begin = some 1 := by
    show nextOf (rangeMap n bc policy).storage_.heap 0 = some 1
    rw [rangeMap_next n bc policy 0 (by omega)]
    have : ¬ (0 = n) := by omega
    simp [this]
  rw [hnext] at hbegin
  have hend : (rangeMap n bc policy).storage_.end_ = 0 := rfl
  rw [hend] at hbegin
  cases entries with
  | nil => simp [addrs] at hbegin
  | cons x rest =>
    have hx1 : x.1 = 1 := by
      simp only [addrs, List.map_cons, List.headD_cons, Option.some.injEq] at hbegin
      exact hbegin.symm
    have hval := hl1.2.2.2.2.2.2.1 x (List.mem_cons_self _ _)
    rw [hx1, rangeMap_value n bc policy 1 (by omega) (by omega)] at hval
    have hhash : x.2.hash % bc1 = 0 := by
      have : x.2 = ⟨(1 - 1, 0), 1 - 1⟩ := (Option.some.inj hval).symm
      rw [this]
      exact Nat.zero_mod _
    obtain ⟨pre, run, post, hsplit, _, hothers, hidx, _⟩ := hb 0 hbc1
    have hidx0 : (List.replicate bc1 0)[0]? = some ((addrs run).headD 0) := hidx
    rw [List.getElem?_replicate, if_pos hbc1] at hidx0
    cases pre with
    | cons y pre1 =>
      have hy : y = x := by
        simp only [List.cons_append] at hsplit
        exact (List.cons.inj hsplit).1.symm
      exact hothers y (by simp) (hy ▸ hhash)
    | nil =>
      cases run with
      | nil =>
        have hxp : x ∈ post := by
          simp only [List.nil_append] at hsplit
          rw [← hsplit]
          exact List.mem_cons_self _ _
        exact hothers x (by simp [hxp]) hhash
      | cons y run1 =>
        have hy : y = x := by
          simp only [List.nil_append, List.cons_append] at hsplit
          exact (List.cons.inj hsplit).1.symm
        simp only [addrs, List.map_cons, List.headD_cons, Option.some.injEq] at hidx0
        rw [hy, hx1] at hidx0
        omega

/-- On a map whose index array holds the end sentinel only, `find` returns `end()` for
every key. -/
theorem wiped_find (n bc bc1 : Nat) (policy : LoadPolicy) (hbc1 : 0 < bc1) (k fuel : Nat) :
    (UnorderedMap.mk bc1 (fun k => k) (fun a b => decide (a = b))
        (rangeMap n bc policy).storage_ (List.replicate bc1 0) policy).find (fuel + 1) k
      = some 0 := by
  unfold UnorderedMap.find
  have hidx : (List.replicate bc1 0)[k % bc1]? = some 0 := by
    rw [List.getElem?_replicate, if_pos (Nat.mod_lt _ hbc1)]
  show (match (List.replicate bc1 0)[k % bc1]? with
    | none => none
    | some iter =>
      match (UnorderedMap.mk bc1 (fun k => k) (fun a b => decide (a = b))
        (rangeMap n bc policy).storage_ (List.replicate bc1 0) policy).scan k k (fuel + 1)
          iter with
      | none => none
      | some (some it) => some it
      | some none => some 0) = some 0
  rw [hidx]
  have hscan : (UnorderedMap.mk bc1 (fun k => k) (fun a b => decide (a = b))
        (rangeMap n bc policy).storage_ (List.replicate bc1 0) policy).scan k k (fuel + 1) 0
      = some none := by
    unfold UnorderedMap.scan
    have he : (0 : Nat) = (UnorderedMap.mk bc1 (fun k : Nat => k)
      (fun a b => decide (a = b)) (rangeMap n bc policy).storage_ (List.replicate bc1 0)
      policy).storage_.end := rfl
    rw [if_pos he]
  simp only [hscan]

theorem toInt_2_31 : (toInt (2 ^ 31)).toNat = 0 := by decide

theorem rangeMap_emplace_fuel (n bc : Nat) (policy : LoadPolicy) (hn : n < bc)
    (hex : policy.exceeds (n + 1) bc = false) (fuel : Nat) (hfuel : 0 < fuel) :
    (rangeMap n bc policy).emplace fuel n 0
      = some (rangeMap (n + 1) bc policy, n + 1, true) := by
  obtain ⟨f, rfl⟩ : ∃ f, fuel = f + 1 := ⟨fuel - 1, by omega⟩
  exact rangeMap_emplace n bc policy hn hex f

/-- The calls `reserve(bc)` and `insert({k, 0})` for `k = 0, ..., n - 1` on the
default-constructed map, none of the inserts calling `rehash`: the map
`rangeMap n bc policy`. -/
theorem reserve_inserts_calls (n bc : Nat) (policy : LoadPolicy) (fuel : Nat)
    (hfuel : 0 < fuel) (hbc : 2 ≤ bc) (hn : n ≤ bc)
    (hex : ∀ s, s ≤ n → policy.exceeds s bc = false) :
    (UnorderedMap.mk0 (fun k : Nat => k) (fun a b => decide (a = b)) policy :
      UnorderedMap Nat Nat).calls fuel
      (MapCall.reserve bc :: (List.range' 0 n).map (fun k => MapCall.insert k 0))
      = some (rangeMap n bc policy) := by
  obtain ⟨f, rfl⟩ : ∃ f, fuel = f + 1 := ⟨fuel - 1, by omega⟩
  rw [calls_cons]
  simp only [UnorderedMap.call]
  rw [rangeMap_reserve bc policy hbc]
  have h1 := rangeMap_inserts bc policy f n 0 (by omega) (fun s hs => hex s (by omega))
  have h0 : 0 + n = n := Nat.zero_add n
  rw [h0] at h1
  exact h1

/-- The calls `reserve(bc)`, `insert({k, 0})` for `k = 0, ..., n - 1` and `reserve(bc)`
again, when the conversion of `n` to `int` is not positive: the last call leaves the
entries in the list and the end sentinel in every entry of the index array. -/
theorem reserve_inserts_reserve_calls (n bc : Nat) (policy : LoadPolicy) (fuel : Nat)
    (hfuel : 0 < fuel) (hbc : 2 ≤ bc) (hn : n ≤ bc)
    (hex : ∀ s, s ≤ n → policy.exceeds s bc = false) (hint : (toInt n).toNat = 0) :
    (UnorderedMap.mk0 (fun k : Nat => k) (fun a b => decide (a = b)) policy :
      UnorderedMap Nat Nat).calls fuel
      (MapCall.reserve bc :: ((List.range' 0 n).map (fun k => MapCall.insert k 0)
        ++ [MapCall.reserve bc]))
      = some (UnorderedMap.mk bc (fun k => k) (fun a b => decide (a = b))
          (rangeMap n bc policy).storage_ (List.replicate bc 0) policy) := by
  have h1 := reserve_inserts_calls n bc policy fuel hfuel hbc hn hex
  have h2 : MapCall.reserve bc :: ((List.range' 0 n).map (fun k => MapCall.insert k 0)
      ++ [MapCall.reserve bc])
      = (MapCall.reserve bc :: (List.range' 0 n).map (fun k => MapCall.insert k 0))
        ++ [(MapCall.reserve bc : MapCall Nat Nat)] := rfl
  rw [h2, calls_append, h1]
  simp only
  rw [calls_cons]
  simp only [UnorderedMap.call, UnorderedMap.reserve]
  rw [rangeMap_rehash_wipes n bc bc policy hn hbc hint]
  rfl

theorem wiped_find_fuel (n bc bc1 : Nat) (policy : LoadPolicy) (hbc1 : 0 < bc1)
    (k fuel : Nat) (hfuel : 0 < fuel) :
    (UnorderedMap.mk bc1 (fun k => k) (fun a b => decide (a = b))
        (rangeMap n bc policy).storage_ (List.replicate bc1 0) policy).find fuel k
      = some 0 := by
  obtain ⟨f, rfl⟩ : ∃ f, fuel = f + 1 := ⟨fuel - 1, by omega⟩
  exact wiped_find n bc bc1 policy hbc1 k f

theorem rangeMap_absent (n : Nat) :
    ∀ x ∈ flatten (rangeGroups n), decide (x.2.node.1 = n) = false := by
  intro x hx
  rw [flatten_rangeGroups] at hx
  unfold rangeEntries at hx
  rw [List.mem_map] at hx
  obtain ⟨k, hk, rfl⟩ := hx
  rw [List.mem_range] at hk
  show decide (k = n) = false
  rw [decide_eq_false_iff_not]
  omega

/-! ### `operator[]` -/

section
variable {K V : Type}

/-- The assignment of a new value through the position of an entry of a well formed map
leaves a well formed map, the entry being replaced in place. -/
theorem assign_repr {m : UnorderedMap K V} {groups : List (Group K V)}
    (h : MapRepr m groups) {x : Nat × HashedNode K V} (hx : x ∈ flatten groups) (v : V) :
    ∃ l1 groups1 A B,
      m.storage_.assign x.1 { node := (x.2.node.1, v), hash := x.2.hash } = some l1 ∧
      MapRepr (UnorderedMap.mk m.buckets_count_ m.hasher_ m.equaler_ l1 m.bucket_iterators_
        m.max_load_factor_) groups1 ∧
      flatten groups = A ++ x :: B ∧
      flatten groups1 = A ++ (x.1, { node := (x.2.node.1, v), hash := x.2.hash }) :: B := by
  obtain ⟨hl, hbc, hgr, hix, hhash, hpw⟩ := h
  obtain ⟨bg, hbg, hxg⟩ := mem_flatten.1 hx
  obtain ⟨G1, G2, hs⟩ := List.append_of_mem hbg
  obtain ⟨g1, g2, hg⟩ := List.append_of_mem hxg
  obtain ⟨b, g⟩ := bg
  simp only at hg
  subst hg
  subst hs
  obtain ⟨hn1, hn2, _⟩ := groups_nodup_split hgr
  have hfl : flatten (G1 ++ (b, g1 ++ x :: g2) :: G2)
      = (flatten G1 ++ g1) ++ x :: (g2 ++ flatten G2) := by
    rw [flatten_append, flatten_cons]
    simp
  have hfl1 : flatten (G1 ++ (b, g1 ++ (x.1, ({ node := (x.2.node.1, v), hash := x.2.hash } :
      HashedNode K V)) :: g2) :: G2)
      = (flatten G1 ++ g1) ++ (x.1, { node := (x.2.node.1, v), hash := x.2.hash })
        :: (g2 ++ flatten G2) := by
    rw [flatten_append, flatten_cons]
    simp
  have hlst : ListRepr m.storage_ ((flatten G1 ++ g1) ++ (x.1, x.2) :: (g2 ++ flatten G2)) := by
    rw [← hfl]
    exact hl
  obtain ⟨l1, has, hl1, _, hframe⟩ := assign_step hlst
    ({ node := (x.2.node.1, v), hash := x.2.hash } : HashedNode K V)
  have hend : l1.end_ = m.storage_.end_ := hframe.1
  refine ⟨l1, G1 ++ (b, g1 ++ (x.1, { node := (x.2.node.1, v), hash := x.2.hash }) :: g2) :: G2,
    flatten G1 ++ g1, g2 ++ flatten G2, has, ?_, hfl, hfl1⟩
  have hgb := hgr.2 (b, g1 ++ x :: g2) (by simp)
  refine ⟨?_, hbc, ⟨?_, ?_⟩, ⟨hix.1, ?_⟩, ?_, ?_⟩
  · rw [hfl1]
    exact hl1
  · have := hgr.1
    simpa [List.map_append] using this
  · intro bg hbg
    rw [List.mem_append, List.mem_cons] at hbg
    rcases hbg with hbg | hbg | hbg
    · exact hgr.2 bg (by simp [hbg])
    · subst hbg
      refine ⟨by simp, hgb.2.1, ?_⟩
      intro y hy
      rw [List.mem_append, List.mem_cons] at hy
      rcases hy with hy | hy | hy
      · exact hgb.2.2 y (by simp [hy])
      · subst hy
        exact hgb.2.2 x (by simp)
      · exact hgb.2.2 y (by simp [hy])
    · exact hgr.2 bg (by simp [hbg])
  · intro c hc
    show m.bucket_iterators_[c]? = some (headOf _ l1.end_ c)
    rw [hend, hix.2 c hc]
    congr 1
    unfold headOf
    by_cases hcb : c = b
    · subst hcb
      rw [groupOf_mid hn1, groupOf_mid hn1]
      simp [addrs]
    · rw [groupOf_mid_other (g1 ++ x :: g2)
        (g1 ++ (x.1, ({ node := (x.2.node.1, v), hash := x.2.hash } : HashedNode K V)) :: g2)
        hcb]
  · intro y hy
    rw [hfl1] at hy
    have hxh := hhash x hx
    rw [List.mem_append, List.mem_cons] at hy
    rcases hy with hy | hy | hy
    · exact hhash y (by rw [hfl]; exact List.mem_append_left _ hy)
    · subst hy
      exact hxh
    · exact hhash y (by rw [hfl]; exact List.mem_append_right _ (List.mem_cons_of_mem _ hy))
  · rw [hfl1]
    rw [hfl] at hpw
    have hkeys : ((flatten G1 ++ g1) ++ (x.1, ({ node := (x.2.node.1, v), hash := x.2.hash } :
        HashedNode K V)) :: (g2 ++ flatten G2)).map (fun y => y.2.node.1)
        = ((flatten G1 ++ g1) ++ x :: (g2 ++ flatten G2)).map (fun y => y.2.node.1) := by
      simp
    have h1 : (((flatten G1 ++ g1) ++ x :: (g2 ++ flatten G2)).map
        (fun y => y.2.node.1)).Pairwise (fun a b => m.equaler_ a b = false) :=
      List.pairwise_map.2 hpw
    rw [← hkeys] at h1
    exact List.pairwise_map.1 h1

/-- Two well formed maps with the same equality predicate that hold the same entries with
a key equal to `key` give the same outcome of `at(key)`. -/
theorem at_congr {m : UnorderedMap K V} (m1 : UnorderedMap K V)
    {groups groups1 : List (Group K V)}
    (hk : KeyEquiv m.hasher_ m.equaler_) (hh : m1.hasher_ = m.hasher_)
    (he : m1.equaler_ = m.equaler_) (h : MapRepr m groups) (h1 : MapRepr m1 groups1)
    (key : K) (fuel : Nat) (hf : m.size < fuel) (hf1 : m1.size < fuel)
    (hsame : ∀ p : HashedNode K V, m.equaler_ p.node.1 key = true →
      (p ∈ (flatten groups1).map Prod.snd ↔ p ∈ (flatten groups).map Prod.snd)) :
    m1.at fuel key = m.at fuel key := by
  have hk1 : KeyEquiv m1.hasher_ m1.equaler_ := by
    rw [hh, he]
    exact hk
  by_cases hp : ∃ x ∈ flatten groups, m.equaler_ x.2.node.1 key = true
  · obtain ⟨x, hx, hxe⟩ := hp
    have hx1 : x.2 ∈ (flatten groups1).map Prod.snd :=
      (hsame x.2 hxe).2 (List.mem_map_of_mem _ hx)
    rw [List.mem_map] at hx1
    obtain ⟨y, hy, hyx⟩ := hx1
    rw [at_present hk h key fuel hf hx hxe,
      at_present hk1 h1 key fuel hf1 hy (by rw [he, hyx]; exact hxe), hyx]
  · have hno : ∀ x ∈ flatten groups, m.equaler_ x.2.node.1 key = false := by
      intro x hx
      cases hxe : m.equaler_ x.2.node.1 key with
      | false => rfl
      | true => exact absurd ⟨x, hx, hxe⟩ hp
    have hno1 : ∀ y ∈ flatten groups1, m1.equaler_ y.2.node.1 key = false := by
      intro y hy
      rw [he]
      cases hye : m.equaler_ y.2.node.1 key with
      | false => rfl
      | true =>
        have := (hsame y.2 hye).1 (List.mem_map_of_mem _ hy)
        rw [List.mem_map] at this
        obtain ⟨x, hx, hxy⟩ := this
        have hxe := hno x hx
        rw [hxy, hye] at hxe
        exact absurd hxe (by simp)
    rw [at_absent h key fuel hf hno, at_absent h1 key fuel hf1 hno1]

/-- The statement `m[key] = v` when `operator[]` returns the position of an entry `x` of
the well formed map `m1` whose key equals `key`: afterwards `at(key)` is `v`, and `at` of
every key that does not equal `key` is as on `m1`. -/
theorem assign_at {m1 : UnorderedMap K V} {groups1 : List (Group K V)}
    (hk : KeyEquiv m1.hasher_ m1.equaler_) (h1 : MapRepr m1 groups1)
    {x : Nat × HashedNode K V} (hx : x ∈ flatten groups1) (key : K)
    (hxe : m1.equaler_ x.2.node.1 key = true) (v : V) (fuel : Nat) (hf : m1.size < fuel) :
    ∃ l2, m1.storage_.assign x.1 { node := (x.2.node.1, v), hash := x.2.hash } = some l2 ∧
      (UnorderedMap.mk m1.buckets_count_ m1.hasher_ m1.equaler_ l2 m1.bucket_iterators_
        m1.max_load_factor_).at fuel key = some (.value v) ∧
      ∀ key1, m1.equaler_ key key1 = false →
        (UnorderedMap.mk m1.buckets_count_ m1.hasher_ m1.equaler_ l2 m1.bucket_iterators_
          m1.max_load_factor_).at fuel key1 = m1.at fuel key1 := by
  obtain ⟨l2, groups2, A, B, has, hm2, hfl, hfl2⟩ := assign_repr h1 hx v
  have hsz : (UnorderedMap.mk m1.buckets_count_ m1.hasher_ m1.equaler_ l2 m1.bucket_iterators_
      m1.max_load_factor_).size = m1.size := by
    rw [MapRepr_length hm2, MapRepr_length h1, hfl, hfl2]
    simp
  refine ⟨l2, has, ?_, ?_⟩
  · have hmem : (x.1, ({ node := (x.2.node.1, v), hash := x.2.hash } : HashedNode K V))
        ∈ flatten groups2 := by
      rw [hfl2]
      simp
    exact at_present (m := UnorderedMap.mk m1.buckets_count_ m1.hasher_ m1.equaler_ l2
      m1.bucket_iterators_ m1.max_load_factor_) hk hm2 key fuel (by rw [hsz]; exact hf) hmem hxe
  · intro key1 hne
    refine at_congr (UnorderedMap.mk m1.buckets_count_ m1.hasher_ m1.equaler_ l2
      m1.bucket_iterators_ m1.max_load_factor_) hk rfl rfl h1 hm2 key1 fuel hf
      (by rw [hsz]; exact hf) ?_
    intro p hp
    have hpx : ∀ (q : HashedNode K V), q.node.1 = x.2.node.1 → p ≠ q := by
      intro q hq hpq
      rw [hpq, hq] at hp
      have h2 := hk.trans _ _ _ (hk.symm _ _ hxe) hp
      rw [hne] at h2
      exact absurd h2 (by simp)
    have hp1 := hpx x.2 rfl
    have hp2 := hpx ({ node := (x.2.node.1, v), hash := x.2.hash } : HashedNode K V) rfl
    rw [hfl, hfl2]
    simp only [List.map_append, List.map_cons, List.mem_append, List.mem_cons]
    constructor
    · rintro (hA | hq | hB)
      · exact Or.inl hA
      · exact absurd hq hp2
      · exact Or.inr (Or.inr hB)
    · rintro (hA | hq | hB)
      · exact Or.inl hA
      · exact absurd hq hp1
      · exact Or.inr (Or.inr hB)

/-- The statement `m[key] = v` on a well formed map that holds an entry `x` whose key
equals `key`: `operator[]` returns the position of `x`, and afterwards `at(key)` is `v`
and `at` of every other key is as before. -/
theorem index_assign_present {m : UnorderedMap K V} {groups : List (Group K V)}
    (hk : KeyEquiv m.hasher_ m.equaler_) (h : MapRepr m groups)
    {x : Nat × HashedNode K V} (hx : x ∈ flatten groups) (key : K)
    (hxe : m.equaler_ x.2.node.1 key = true) (dflt v : V) (fuel : Nat) (hf : m.size < fuel) :
    m.index fuel key dflt = some (m, x.1) ∧
    ∃ m2, m.index_assign fuel key dflt v = some m2 ∧ m2.at fuel key = some (.value v) ∧
      ∀ key1, m.equaler_ key key1 = false → m2.at fuel key1 = m.at fuel key1 := by
  have hem := emplace_present hk h key dflt fuel hf hx hxe
  have hval := (entry_position h hx).2
  have hidx : m.index fuel key dflt = some (m, x.1) := by
    unfold UnorderedMap.index
    simp only [hem, hval]
  obtain ⟨l2, has, hat, hothers⟩ := assign_at hk h hx key hxe v fuel hf
  refine ⟨hidx, _, ?_, hat, hothers⟩
  unfold UnorderedMap.index_assign
  simp only [hidx, hval, has]

/-- The statement `m[key] = v` on a well formed map that holds no entry whose key equals
`key`, when the load factor check of `emplace` does not call `rehash`: `operator[]`
returns the position of the new entry, which holds `Value()`, and afterwards `at(key)` is
`v` and `at` of every other key is as before. -/
theorem index_assign_absent_plain {m : UnorderedMap K V} {groups : List (Group K V)}
    (hk : KeyEquiv m.hasher_ m.equaler_) (h : MapRepr m groups) (key : K)
    (hno : ∀ x ∈ flatten groups, m.equaler_ x.2.node.1 key = false)
    (hex : m.max_load_factor_.exceeds (m.size + 1) m.buckets_count_ = false)
    (dflt v : V) (fuel : Nat) (hf : m.size + 1 < fuel) :
    ∃ m1 m2, m.index fuel key dflt = some (m1, m.storage_.node_allocator_) ∧
      valueOf m1.storage_.heap m.storage_.node_allocator_
        = some { node := (key, dflt), hash := m.hasher_ key } ∧
      m.index_assign fuel key dflt v = some m2 ∧ m2.at fuel key = some (.value v) ∧
      ∀ key1, m.equaler_ key key1 = false → m2.at fuel key1 = m.at fuel key1 := by
  obtain ⟨l1, groups1, hem, hm1, hmem, hperm⟩ :=
    emplace_absent_plain hk h key dflt fuel (by omega) hno hex
  have hval := (entry_position hm1 hmem).2
  have hval1 : valueOf (afterInsertion m key l1).storage_.heap m.storage_.node_allocator_
      = some { node := (key, dflt), hash := m.hasher_ key } := hval
  have hidx : m.index fuel key dflt
      = some (afterInsertion m key l1, m.storage_.node_allocator_) := by
    unfold UnorderedMap.index
    simp only [hem, hval1]
  have hsz1 : (afterInsertion m key l1).size = m.size + 1 := by
    rw [MapRepr_length hm1, MapRepr_length h, hperm.length_eq]
    rfl
  have hk1 : KeyEquiv (afterInsertion m key l1).hasher_ (afterInsertion m key l1).equaler_ :=
    hk
  obtain ⟨l2, has, hat, hothers⟩ := assign_at hk1 hm1 hmem key (hk.refl key) v fuel
    (by rw [hsz1]; exact hf)
  refine ⟨_, _, hidx, hval1, ?_, hat, ?_⟩
  · unfold UnorderedMap.index_assign
    simp only [hidx, hval1]
    have has1 : (afterInsertion m key l1).storage_.assign m.storage_.node_allocator_
        { node := (key, v), hash := m.hasher_ key } = some l2 := has
    simp only [has1]
  · intro key1 hne
    rw [hothers key1 hne]
    refine at_congr (afterInsertion m key l1) hk rfl rfl h hm1 key1 fuel (by omega)
      (by rw [hsz1]; exact hf) ?_
    intro p hp
    have hpm := (hperm.map Prod.snd).mem_iff (a := p)
    rw [hpm]
    simp only [List.map_cons, List.mem_cons]
    constructor
    · rintro (hq | hold)
      · exfalso
        rw [hq] at hp
        have hp1 : m.equaler_ key key1 = true := hp
        rw [hne] at hp1
        exact absurd hp1 (by simp)
      · exact hold
    · intro hold
      exact Or.inr hold

end

/-! ### The claims on `at`, `rehash`, the bucket invariant and the load factor -/

/-- C28: on every well formed map `m` with a hash function consistent with the equality
predicate, and for every key `k`, the call at(k) returns or throws (the loop of find ends
within `size() + 1` steps), it throws std::out_of_range exactly when no entry of the map
has a key equal to `k` under the equality predicate of the map, and when an entry has such
a key it returns the value of that entry, which is in the list of the map. The call only
reads the state: the embedding of `at` takes the map and gives the outcome. -/
theorem at_throws_iff_key_absent (K V : Type) (m : UnorderedMap K V)
    (groups : List (Group K V)) (hk : KeyEquiv m.hasher_ m.equaler_) (h : MapRepr m groups)
    (fuel : Nat) (hf : m.size < fuel) (key : K) :
    (∃ r, m.at fuel key = some r) ∧
    (m.at fuel key = some .out_of_range ↔
      ∀ x ∈ flatten groups, m.equaler_ x.2.node.1 key = false) ∧
    (∀ x ∈ flatten groups, m.equaler_ x.2.node.1 key = true →
      m.at fuel key = some (.value x.2.node.2) ∧
      ListH.valueOf m.storage_.heap x.1 = some x.2) := by
  have hpres : ∀ x ∈ flatten groups, m.equaler_ x.2.node.1 key = true →
      m.at fuel key = some (.value x.2.node.2) ∧
      ListH.valueOf m.storage_.heap x.1 = some x.2 := by
    intro x hx hxe
    exact ⟨at_present hk h key fuel hf hx hxe, (entry_position h hx).2⟩
  have hiff : m.at fuel key = some .out_of_range ↔
      ∀ x ∈ flatten groups, m.equaler_ x.2.node.1 key = false := by
    constructor
    · intro hat x hx
      cases hxe : m.equaler_ x.2.node.1 key with
      | false => rfl
      | true =>
        have := (hpres x hx hxe).1
        rw [hat] at this
        exact absurd this (by simp)
    · intro hno
      exact at_absent h key fuel hf hno
  refine ⟨?_, hiff, hpres⟩
  by_cases hp : ∃ x ∈ flatten groups, m.equaler_ x.2.node.1 key = true
  · obtain ⟨x, hx, hxe⟩ := hp
    exact ⟨_, (hpres x hx hxe).1⟩
  · refine ⟨_, hiff.2 ?_⟩
    intro x hx
    cases hxe : m.equaler_ x.2.node.1 key with
    | false => rfl
    | true => exact absurd ⟨x, hx, hxe⟩ hp

/-- Witness for C28: the map holding the keys 0, 1, 2 in 4 buckets, and the key 1. -/
theorem at_throws_iff_key_absent_witness :
    KeyEquiv (rangeMap 3 4 LoadPolicy.half).hasher_ (rangeMap 3 4 LoadPolicy.half).equaler_ ∧
    MapRepr (rangeMap 3 4 LoadPolicy.half) (rangeGroups 3) ∧
    (rangeMap 3 4 LoadPolicy.half).size < 4 ∧
    (∃ r, (rangeMap 3 4 LoadPolicy.half).at 4 1 = some r) ∧
    ((rangeMap 3 4 LoadPolicy.half).at 4 1 = some .out_of_range ↔
      ∀ x ∈ flatten (rangeGroups 3),
        (rangeMap 3 4 LoadPolicy.half).equaler_ x.2.node.1 1 = false) ∧
    (∀ x ∈ flatten (rangeGroups 3),
      (rangeMap 3 4 LoadPolicy.half).equaler_ x.2.node.1 1 = true →
      (rangeMap 3 4 LoadPolicy.half).at 4 1 = some (.value x.2.node.2) ∧
      ListH.valueOf (rangeMap 3 4 LoadPolicy.half).storage_.heap x.1 = some x.2) :=
  ⟨natKeys, rangeMap_repr 3 4 _ (by decide) (by decide), by decide,
    at_throws_iff_key_absent Nat Nat (rangeMap 3 4 LoadPolicy.half) (rangeGroups 3) natKeys
      (rangeMap_repr 3 4 _ (by decide) (by decide)) 4 (by decide) 1⟩

/-- C29: on every map `m` whose list is a closed ring of entries and for every `n`,
reserve(n) is rehash(n); rehash(n) returns `m` unchanged when `n < size()`; otherwise it
returns a map whose bucket count is `max(n, 2)`, whose index array has `max(n, 2)`
entries, and whose list is a closed ring with the same size() that holds the same
(key, value, hash) entries, each as often as before; the hash function, the equality
predicate and the maximal load factor are as before; and when `m` is well formed with
fewer than `2^31` entries the map returned is well formed. -/
theorem rehash_keeps_entries (K V : Type) (m : UnorderedMap K V)
    (entries : List (Nat × HashedNode K V)) (hl : ListH.ListRepr m.storage_ entries)
    (n : Nat) :
    m.reserve n = m.rehash n ∧
    (n < m.size → m.rehash n = some m) ∧
    (m.size ≤ n → ∃ m1 entries1, m.rehash n = some m1 ∧ m1.buckets_count_ = max n 2 ∧
      m1.bucket_iterators_.length = max n 2 ∧ ListH.ListRepr m1.storage_ entries1 ∧
      m1.size = m.size ∧ (entries1.map Prod.snd).Perm (entries.map Prod.snd) ∧
      m1.hasher_ = m.hasher_ ∧ m1.equaler_ = m.equaler_ ∧
      m1.max_load_factor_ = m.max_load_factor_ ∧
      (∀ groups, KeyEquiv m.hasher_ m.equaler_ → MapRepr m groups → m.size < 2 ^ 31 →
        ∃ groups1, MapRepr m1 groups1)) := by
  refine ⟨rfl, ?_, ?_⟩
  · intro hn
    unfold UnorderedMap.rehash
    rw [if_pos hn]
  · intro hn
    obtain ⟨m1, entries1, hre, hrest⟩ := rehash_entries hl n hn
    obtain ⟨h1, h2, h3, h4, h5, h6, h7, h8⟩ := hrest
    refine ⟨m1, entries1, hre, h1, h2, h3, h4, h5, h6, h7, h8, ?_⟩
    intro groups hk h hsz
    obtain ⟨m2, groups2, hre2, hm2, _⟩ := rehash_repr hk h hsz n
    rw [hre] at hre2
    have : m1 = m2 := Option.some.inj hre2
    exact ⟨groups2, this ▸ hm2⟩

/-- Witness for C29: the map holding the keys 0, 1, 2 in 4 buckets, and `n = 6`. -/
theorem rehash_keeps_entries_witness :
    ListH.ListRepr (rangeMap 3 4 LoadPolicy.half).storage_ (rangeEntries 3) ∧
    (rangeMap 3 4 LoadPolicy.half).size ≤ 6 ∧
    ∃ m1 entries1, (rangeMap 3 4 LoadPolicy.half).rehash 6 = some m1 ∧
      m1.buckets_count_ = max 6 2 ∧
      m1.bucket_iterators_.length = max 6 2 ∧ ListH.ListRepr m1.storage_ entries1 ∧
      m1.size = (rangeMap 3 4 LoadPolicy.half).size ∧
      (entries1.map Prod.snd).Perm ((rangeEntries 3).map Prod.snd) ∧
      m1.hasher_ = (rangeMap 3 4 LoadPolicy.half).hasher_ ∧
      m1.equaler_ = (rangeMap 3 4 LoadPolicy.half).equaler_ ∧
      m1.max_load_factor_ = (rangeMap 3 4 LoadPolicy.half).max_load_factor_ ∧
      (∀ groups, KeyEquiv (rangeMap 3 4 LoadPolicy.half).hasher_
          (rangeMap 3 4 LoadPolicy.half).equaler_ →
        MapRepr (rangeMap 3 4 LoadPolicy.half) groups →
        (rangeMap 3 4 LoadPolicy.half).size < 2 ^ 31 → ∃ groups1, MapRepr m1 groups1) :=
  ⟨rangeMap_list 3 4 _, by decide,
    (rehash_keeps_entries Nat Nat (rangeMap 3 4 LoadPolicy.half) (rangeEntries 3)
      (rangeMap_list 3 4 _) 6).2.2 (by decide)⟩

/-- C26: the default-constructed map satisfies the bucket invariant (the index array has
`bucket_count` entries, the entries of a bucket are contiguous in the list, and the index
entry of a bucket is the position of the first of them, or the end sentinel exactly when
there is none); every emplace, insert, erase(position), reserve and rehash on a well
formed map of fewer than `2^31 - 1` entries, an erase being of a position of the list,
returns and leaves a well formed map, which satisfies the invariant; a sequence of fewer
than `2^31` such calls on the default-constructed map either returns a map that satisfies
the invariant or has an erase of a position past the last entry, the map satisfying the
invariant up to there. The invariant is lost with `2^31` entries: after
`m.reserve(1 << 32)`, the inserts of the keys `0, ..., 2^31 - 1` and `m.reserve(1 << 32)`
again, the counter `int i = storage_.size()` of rehash is negative, no entry is moved, and
the new index array holds the end sentinel only, so find returns end() for every key. -/
theorem bucket_invariant_kept_below_int_range :
    (∀ (K V : Type) (hasher : K → Nat) (equaler : K → K → Bool) (policy : LoadPolicy),
      BucketInv (UnorderedMap.mk0 hasher equaler policy : UnorderedMap K V)) ∧
    (∀ (K V : Type) (m : UnorderedMap K V) (groups : List (Group K V)),
      KeyEquiv m.hasher_ m.equaler_ → MapRepr m groups → m.size + 1 < 2 ^ 31 →
      ∀ (fuel : Nat), m.size < fuel → ∀ (c : MapCall K V),
        (∀ i, c = MapCall.erase i → i < m.size) →
        ∃ m1 groups1, m.call fuel c = some m1 ∧ MapRepr m1 groups1 ∧ BucketInv m1) ∧
    (∀ (K V : Type) (hasher : K → Nat) (equaler : K → K → Bool) (policy : LoadPolicy),
      KeyEquiv hasher equaler → ∀ (cs : List (MapCall K V)) (fuel : Nat),
        cs.length < 2 ^ 31 → cs.length ≤ fuel →
        (∃ m, (UnorderedMap.mk0 hasher equaler policy).calls fuel cs = some m ∧
          BucketInv m) ∨
        (∃ pre i post m, cs = pre ++ MapCall.erase i :: post ∧
          (UnorderedMap.mk0 hasher equaler policy).calls fuel pre = some m ∧
          BucketInv m ∧ m.size ≤ i)) ∧
    (∃ m, (UnorderedMap.mk0 (fun k : Nat => k) (fun a b => decide (a = b))
          LoadPolicy.default : UnorderedMap Nat Nat).calls 1
          (MapCall.reserve (2 ^ 32) :: ((List.range' 0 (2 ^ 31)).map
            (fun k => MapCall.insert k 0) ++ [MapCall.reserve (2 ^ 32)])) = some m ∧
        m.size = 2 ^ 31 ∧ m.buckets_count_ = 2 ^ 32 ∧ ¬ BucketInv m ∧
        ∀ k, m.find 1 k = some m.end) := by
  refine ⟨?_, ?_, ?_, ?_⟩
  · intro K V hasher equaler policy
    exact BucketInv_of_repr (MapRepr_mk0 hasher equaler policy)
  · intro K V m groups hk h hsz fuel hf c hc
    obtain ⟨m1, groups1, hcall, hm1, _⟩ := map_call_repr hk h hsz fuel hf c hc
    exact ⟨m1, groups1, hcall, hm1, BucketInv_of_repr hm1⟩
  · intro K V hasher equaler policy hk cs fuel hlen hfuel
    have h0 := MapRepr_mk0 (V := V) hasher equaler policy
    rcases map_calls_repr fuel cs (UnorderedMap.mk0 hasher equaler policy) [] 0 hk h0
        (Nat.le_refl 0) (by omega) (by omega) with hgood | hbad
    · obtain ⟨m, groups, hrun, hm⟩ := hgood
      exact Or.inl ⟨m, hrun, BucketInv_of_repr hm⟩
    · obtain ⟨pre, i, post, m, groups, hcs, hrun, hm, hi⟩ := hbad
      exact Or.inr ⟨pre, i, post, m, hcs, hrun, BucketInv_of_repr hm, hi⟩
  · refine ⟨_, reserve_inserts_reserve_calls (2 ^ 31) (2 ^ 32) LoadPolicy.default 1
      (by norm_num) (by norm_num) (by norm_num) (fun s hs => default_exceeds_2_32 s hs)
      toInt_2_31, rfl, rfl, ?_, ?_⟩
    · exact wiped_not_BucketInv (2 ^ 31) (2 ^ 32) (2 ^ 32) _ (by norm_num) (by norm_num)
    · intro k
      exact wiped_find_fuel (2 ^ 31) (2 ^ 32) (2 ^ 32) _ (by norm_num) k 1 (by norm_num)

/-- Witness for C26: the call erase(begin() + 1) on the map holding the keys 0, 1, 2 in 4
buckets. -/
theorem bucket_invariant_kept_below_int_range_witness :
    KeyEquiv (rangeMap 3 4 LoadPolicy.half).hasher_ (rangeMap 3 4 LoadPolicy.half).equaler_ ∧
    MapRepr (rangeMap 3 4 LoadPolicy.half) (rangeGroups 3) ∧
    (rangeMap 3 4 LoadPolicy.half).size + 1 < 2 ^ 31 ∧
    (rangeMap 3 4 LoadPolicy.half).size < 4 ∧
    (∀ i, (MapCall.erase 1 : MapCall Nat Nat) = MapCall.erase i →
      i < (rangeMap 3 4 LoadPolicy.half).size) ∧
    ∃ m1 groups1, (rangeMap 3 4 LoadPolicy.half).call 4 (MapCall.erase 1) = some m1 ∧
      MapRepr m1 groups1 ∧ BucketInv m1 :=
  ⟨natKeys, rangeMap_repr 3 4 _ (by decide) (by decide), by decide, by decide,
    fun i hi => by
      have h1 : 1 = i := MapCall.erase.inj hi
      rw [← h1]
      decide,
    bucket_invariant_kept_below_int_range.2.1 Nat Nat (rangeMap 3 4 LoadPolicy.half)
      (rangeGroups 3) natKeys (rangeMap_repr 3 4 _ (by decide) (by decide)) (by decide) 4
      (by decide) (MapCall.erase 1) (fun i hi => by
        have h1 : 1 = i := MapCall.erase.inj hi
        rw [← h1]
        decide)⟩

/-- C30, counterexample: the map that `reserve(41943032)` and the inserts of the keys
`0, ..., 20971515` leave is well formed and does not hold the key 20971516; the call
`emplace(20971516, 0)` adds the key and returns `true`, the load factor check in `float`
finds `float(20971517) / float(41943032)` to be `20971516 / 41943032`, so there is no
rehash: the bucket count is still 41943032 with 20971517 entries, and `2 * size()` is
greater than the bucket count. -/
theorem load_factor_check_rounds_size_in_float :
    (UnorderedMap.mk0 (fun k : Nat => k) (fun a b => decide (a = b)) LoadPolicy.default :
      UnorderedMap Nat Nat).calls 1
      (MapCall.reserve 41943032 :: (List.range' 0 20971516).map
        (fun k => MapCall.insert k 0))
      = some (rangeMap 20971516 41943032 LoadPolicy.default) ∧
    MapRepr (rangeMap 20971516 41943032 LoadPolicy.default) (rangeGroups 20971516) ∧
    (∀ x ∈ flatten (rangeGroups 20971516),
      (rangeMap 20971516 41943032 LoadPolicy.default).equaler_ x.2.node.1 20971516
        = false) ∧
    (rangeMap 20971516 41943032 LoadPolicy.default).emplace 1 20971516 0
      = some (rangeMap 20971517 41943032 LoadPolicy.default, 20971517, true) ∧
    (rangeMap 20971517 41943032 LoadPolicy.default).size = 20971517 ∧
    (rangeMap 20971517 41943032 LoadPolicy.default).buckets_count_ = 41943032 ∧
    ¬ (2 * (rangeMap 20971517 41943032 LoadPolicy.default).size
      ≤ (rangeMap 20971517 41943032 LoadPolicy.default).buckets_count_) := by
  refine ⟨?_, rangeMap_repr _ _ _ (by norm_num) (by norm_num), rangeMap_absent _, ?_, rfl, rfl,
    ?_⟩
  · exact reserve_inserts_calls 20971516 41943032 LoadPolicy.default 1 (by norm_num)
      (by norm_num) (by norm_num) (fun s hs => default_exceeds_41943032 s hs)
  · exact rangeMap_emplace_fuel 20971516 41943032 LoadPolicy.default (by norm_num)
      default_exceeds_20971517 1 (by norm_num)
  · show ¬ (2 * 20971517 ≤ 41943032)
    norm_num

/-- C30, amended: on a well formed map with the default max load factor 0.5, a bucket
count below `2^24` and fewer than `2^23 - 1` entries, an emplace of a key that is not in
the map returns `true` with size() one more; it calls rehash exactly when
`size() / bucket_count` exceeds 0.5 after the insertion, that is when
`bucket_count < 2 * size()`, the rehash being to `4 * size() + 4` buckets, and otherwise
returns the state that the list insertion left; and `2 * size() <= bucket_count` holds
after the call. -/
theorem load_factor_check_exact_below_float_precision (K V : Type) (m : UnorderedMap K V)
    (groups : List (Group K V)) (hk : KeyEquiv m.hasher_ m.equaler_) (h : MapRepr m groups)
    (hpol : m.max_load_factor_ = LoadPolicy.default) (hsz : m.size + 1 < 2 ^ 23)
    (hbc : m.buckets_count_ < 2 ^ 24) (fuel : Nat) (hf : m.size < fuel) (key : K) (value : V)
    (hno : ∀ x ∈ flatten groups, m.equaler_ x.2.node.1 key = false) :
    ∃ l1 m2 r,
      m.storage_.emplace (headOf groups m.storage_.end_ (m.get_hash (m.hasher_ key)))
        { node := (key, value), hash := m.hasher_ key } = some l1 ∧
      m.emplace fuel key value = some (m2, r, true) ∧ m2.size = m.size + 1 ∧
      (if m.buckets_count_ < 2 * (m.size + 1) then
        (afterInsertion m key l1).rehash (4 * (m.size + 1) + 4) = some m2 ∧
          m2.buckets_count_ = 4 * (m.size + 1) + 4
      else m2 = afterInsertion m key l1 ∧ m2.buckets_count_ = m.buckets_count_) ∧
      2 * m2.size ≤ m2.buckets_count_ := by
  obtain ⟨l1, groups1, hem, hm1, hperm, hsz1, hemp⟩ :=
    emplace_absent_steps hk h key value fuel hf hno
  rw [hpol, default_exceeds _ _ h.2.1 hbc, default_target _ (by omega)] at hemp
  by_cases hcase : m.buckets_count_ < 2 * (m.size + 1)
  · rw [decide_eq_true hcase, if_pos rfl] at hemp
    obtain ⟨m2, entries2, hre, hbc2, hlen2, _, hsz2, _⟩ :=
      rehash_entries hm1.1 (4 * (m.size + 1) + 4) (by rw [hsz1]; omega)
    have hmax : max (4 * (m.size + 1) + 4) 2 = 4 * (m.size + 1) + 4 := by omega
    rw [hmax] at hbc2 hlen2
    have hlt : m2.get_hash (m.hasher_ key) < m2.bucket_iterators_.length := by
      rw [hlen2]
      show m.hasher_ key % m2.buckets_count_ < _
      rw [hbc2]
      exact Nat.mod_lt _ (by omega)
    refine ⟨l1, m2, m2.bucket_iterators_[m2.get_hash (m.hasher_ key)], hem, ?_, ?_, ?_, ?_⟩
    · rw [hemp, hre]
      simp only [List.getElem?_eq_getElem hlt]
    · rw [hsz2, hsz1]
    · rw [if_pos hcase]
      exact ⟨hre, hbc2⟩
    · rw [hsz2, hsz1, hbc2]
      omega
  · rw [decide_eq_false hcase] at hemp
    have hb : m.get_hash (m.hasher_ key) < m.bucket_iterators_.length := by
      rw [h.2.2.2.1.1]
      exact Nat.mod_lt _ h.2.1
    have hr : (afterInsertion m key l1).bucket_iterators_[
        (afterInsertion m key l1).get_hash (m.hasher_ key)]?
        = some m.storage_.node_allocator_ := by
      show (m.bucket_iterators_.set (m.get_hash (m.hasher_ key))
        m.storage_.node_allocator_)[m.get_hash (m.hasher_ key)]? = _
      rw [set_index _ _ _ _ hb, if_pos rfl]
    refine ⟨l1, afterInsertion m key l1, m.storage_.node_allocator_, hem, ?_, hsz1, ?_, ?_⟩
    · rw [hemp]
      simp only [Bool.false_eq_true, if_false, hr]
    · rw [if_neg hcase]
      exact ⟨rfl, rfl⟩
    · rw [hsz1]
      show 2 * (m.size + 1) ≤ m.buckets_count_
      omega

/-- Witness for C30: the key 1 on the map holding the key 0 in 2 buckets; the load factor
is 1 after the insertion and the map is rehashed to 12 buckets. -/
theorem load_factor_check_exact_below_float_precision_witness :
    KeyEquiv (rangeMap 1 2 LoadPolicy.default).hasher_
      (rangeMap 1 2 LoadPolicy.default).equaler_ ∧
    MapRepr (rangeMap 1 2 LoadPolicy.default) (rangeGroups 1) ∧
    (rangeMap 1 2 LoadPolicy.default).max_load_factor_ = LoadPolicy.default ∧
    (rangeMap 1 2 LoadPolicy.default).size + 1 < 2 ^ 23 ∧
    (rangeMap 1 2 LoadPolicy.default).buckets_count_ < 2 ^ 24 ∧
    (rangeMap 1 2 LoadPolicy.default).size < 2 ∧
    (∀ x ∈ flatten (rangeGroups 1),
      (rangeMap 1 2 LoadPolicy.default).equaler_ x.2.node.1 1 = false) ∧
    ∃ l1 m2 r,
      (rangeMap 1 2 LoadPolicy.default).storage_.emplace
        (headOf (rangeGroups 1) (rangeMap 1 2 LoadPolicy.default).storage_.end_
          ((rangeMap 1 2 LoadPolicy.default).get_hash
            ((rangeMap 1 2 LoadPolicy.default).hasher_ 1)))
        { node := (1, 0), hash := (rangeMap 1 2 LoadPolicy.default).hasher_ 1 } = some l1 ∧
      (rangeMap 1 2 LoadPolicy.default).emplace 2 1 0 = some (m2, r, true) ∧
      m2.size = (rangeMap 1 2 LoadPolicy.default).size + 1 ∧
      (if (rangeMap 1 2 LoadPolicy.default).buckets_count_
          < 2 * ((rangeMap 1 2 LoadPolicy.default).size + 1) then
        (afterInsertion (rangeMap 1 2 LoadPolicy.default) 1 l1).rehash
            (4 * ((rangeMap 1 2 LoadPolicy.default).size + 1) + 4) = some m2 ∧
          m2.buckets_count_ = 4 * ((rangeMap 1 2 LoadPolicy.default).size + 1) + 4
      else m2 = afterInsertion (rangeMap 1 2 LoadPolicy.default) 1 l1 ∧
        m2.buckets_count_ = (rangeMap 1 2 LoadPolicy.default).buckets_count_) ∧
      2 * m2.size ≤ m2.buckets_count_ :=
  ⟨natKeys, rangeMap_repr 1 2 _ (by decide) (by decide), rfl, by decide, by decide,
    by decide, rangeMap_absent 1,
    load_factor_check_exact_below_float_precision Nat Nat (rangeMap 1 2 LoadPolicy.default)
      (rangeGroups 1) natKeys (rangeMap_repr 1 2 _ (by decide) (by decide)) rfl (by decide)
      (by decide) 2 (by decide) 1 0 (rangeMap_absent 1)⟩

/-- The exact policy `LoadPolicy.half` gives the results of the `float` computations for a
bucket count below `2^24` and a size below `2^23`. -/
theorem half_is_default (s b : Nat) (hb0 : 0 < b) (hb : b < 2 ^ 24) (hs : s < 2 ^ 23) :
    LoadPolicy.default.exceeds s b = LoadPolicy.half.exceeds s b ∧
    LoadPolicy.default.target s = LoadPolicy.half.target s := by
  refine ⟨default_exceeds s b hb0 hb, ?_⟩
  rw [default_target s hs]
  show 4 * s + 4 = 2 * (2 * s + 2)
  omega

/-- C27: on a well formed map, when an entry has a key equal to `k`, operator[](k) returns
the position of that entry, and after `m[k] = v` at(k) is `v` and at of every key that
does not equal `k` is as before; when no entry has such a key and the insertion does not
call rehash, operator[](k) returns the position of the new entry, which holds the value
`Value()`, and after `m[k] = v` at(k) is `v` and at of every other key is as before. When
the insertion calls rehash, operator[] returns the position at the head of the bucket of
`k` in the new index array, which need not be the new entry: on the default-constructed
map of integers, after `m[0] = 1` the map has size 1 and `at(0) == 1`; `m[12] = 5` then
inserts the key 12, rehashes to 12 buckets, where 0 and 12 share the bucket 0, and writes
5 to the entry of the key 0: `at(12) == 0` and `at(0) == 5`. -/
theorem index_after_rehash_is_the_bucket_head :
    (∀ (K V : Type) (m : UnorderedMap K V) (groups : List (Group K V)),
      KeyEquiv m.hasher_ m.equaler_ → MapRepr m groups → ∀ (fuel : Nat), m.size < fuel →
      ∀ x ∈ flatten groups, ∀ (key : K) (dflt v : V), m.equaler_ x.2.node.1 key = true →
        m.index fuel key dflt = some (m, x.1) ∧
        ∃ m2, m.index_assign fuel key dflt v = some m2 ∧ m2.at fuel key = some (.value v) ∧
          ∀ key1, m.equaler_ key key1 = false → m2.at fuel key1 = m.at fuel key1) ∧
    (∀ (K V : Type) (m : UnorderedMap K V) (groups : List (Group K V)),
      KeyEquiv m.hasher_ m.equaler_ → MapRepr m groups → ∀ (fuel : Nat), m.size + 1 < fuel →
      ∀ (key : K) (dflt v : V), (∀ x ∈ flatten groups, m.equaler_ x.2.node.1 key = false) →
        m.max_load_factor_.exceeds (m.size + 1) m.buckets_count_ = false →
        ∃ m1 m2, m.index fuel key dflt = some (m1, m.storage_.node_allocator_) ∧
          ListH.valueOf m1.storage_.heap m.storage_.node_allocator_
            = some { node := (key, dflt), hash := m.hasher_ key } ∧
          m.index_assign fuel key dflt v = some m2 ∧ m2.at fuel key = some (.value v) ∧
          ∀ key1, m.equaler_ key key1 = false → m2.at fuel key1 = m.at fuel key1) ∧
    (natMap.index_assign 3 0 0 1).map (fun m => (m.size, m.buckets_count_, m.at 3 0))
      = some (1, 2, some (.value 1)) ∧
    ((natMap.index_assign 3 0 0 1).bind (fun m => m.index_assign 3 12 0 5)).map
        (fun m => (m.size, m.buckets_count_, m.at 3 12, m.at 3 0))
      = some (2, 12, some (.value 0), some (.value 5)) := by
  refine ⟨?_, ?_, by decide, by decide⟩
  · intro K V m groups hk h fuel hf x hx key dflt v hxe
    exact index_assign_present hk h hx key hxe dflt v fuel hf
  · intro K V m groups hk h fuel hf key dflt v hno hex
    exact index_assign_absent_plain hk h key hno hex dflt v fuel hf

/-- Witness for C27: `m[1] = 7` on the map holding the keys 0, 1, 2 in 4 buckets. -/
theorem index_after_rehash_is_the_bucket_head_witness :
    KeyEquiv (rangeMap 3 4 LoadPolicy.half).hasher_ (rangeMap 3 4 LoadPolicy.half).equaler_ ∧
    MapRepr (rangeMap 3 4 LoadPolicy.half) (rangeGroups 3) ∧
    (rangeMap 3 4 LoadPolicy.half).size < 4 ∧
    ((2, ⟨(1, 0), 1⟩) : Nat × HashedNode Nat Nat) ∈ flatten (rangeGroups 3) ∧
    (rangeMap 3 4 LoadPolicy.half).equaler_ 1 1 = true ∧
    (rangeMap 3 4 LoadPolicy.half).index 4 1 0 = some (rangeMap 3 4 LoadPolicy.half, 2) ∧
    ∃ m2, (rangeMap 3 4 LoadPolicy.half).index_assign 4 1 0 7 = some m2 ∧
      m2.at 4 1 = some (.value 7) ∧
      ∀ key1, (rangeMap 3 4 LoadPolicy.half).equaler_ 1 key1 = false →
        m2.at 4 key1 = (rangeMap 3 4 LoadPolicy.half).at 4 key1 :=
  ⟨natKeys, rangeMap_repr 3 4 _ (by decide) (by decide), by decide,
    List.mem_cons_of_mem _ (List.mem_cons_self _ _), by decide,
    index_after_rehash_is_the_bucket_head.1 Nat Nat (rangeMap 3 4 LoadPolicy.half)
      (rangeGroups 3) natKeys (rangeMap_repr 3 4 _ (by decide) (by decide)) 4 (by decide)
      (2, ⟨(1, 0), 1⟩) (List.mem_cons_of_mem _ (List.mem_cons_self _ _)) 1 0 7 (by decide)⟩

end UnorderedMapH
namespace SmartPointersH

/-! ## smart_pointers.h : copy assignment of a `SharedPtr` to itself -/

/-- The copy assignment `p = p` of a handle that holds the block `b`: `delete_block()`
releases the handle and sets `block_` to null, and the null `block_` is then read back as
`other.block_`. -/
theorem assign_copy_self {w : World} {self b : Nat}
    (h : w.sharedBlock self = some (some b)) (hcs : 0 < (w.blocks b).count_shared) :
    ∃ w1, SharedPtr.assign_copy w self self = some w1 ∧
      w1.sharedBlock self = some none ∧
      (w1.blocks b).count_shared = (w.blocks b).count_shared - 1 ∧
      (w1.blocks b).count_weak = (w.blocks b).count_weak ∧
      (w1.blocks b).deleted = (w.blocks b).deleted +
        (if (w.blocks b).count_shared = 1 then 1 else 0) ∧
      (w1.blocks b).released = (w.blocks b).released +
        (if (w.blocks b).count_shared = 1 ∧ (w.blocks b).count_weak = 0 then 1 else 0) := by
  obtain ⟨w', hdel, hsh, _, _, _, hcount, hweak, _, hdeleted, hreleased⟩ :=
    shared_delete_block_spec h hcs
  have hlt := sharedBlock_lt h
  have hnull : w'.sharedBlock self = some none := by
    rw [sharedBlock_eq, hsh, List.getElem?_set]
    simp [hlt]
  have hlt' : self < w'.shared.length := sharedBlock_lt hnull
  refine ⟨w'.setShared self none, ?_, ?_, hcount, hweak, hdeleted, hreleased⟩
  · unfold SharedPtr.assign_copy
    simp only [hdel, hnull]
  · rw [sharedBlock_setShared hlt', if_pos rfl]

/-- The copy assignment `p = p` of a null handle changes no control block and leaves the
handle null. -/
theorem assign_copy_self_null {w : World} {self : Nat} (h : w.sharedBlock self = some none) :
    ∃ w1, SharedPtr.assign_copy w self self = some w1 ∧ w1.sharedBlock self = some none ∧
      w1.blocks = w.blocks := by
  have hlt := sharedBlock_lt h
  refine ⟨w.setShared self none, ?_, ?_, rfl⟩
  · unfold SharedPtr.assign_copy SharedPtr.delete_block
    simp only [h]
  · rw [sharedBlock_setShared hlt, if_pos rfl]

/-- C38: the copy assignment of a SharedPtr to itself is not the identity when the handle
holds a control block. For every state, every live handle `self` that holds the block `b`
and every strong count of `b` from 1 on, `self = self` returns, the handle is null
afterwards, the strong count is one less, the weak count is as before, and
delete_object has been invoked exactly when the strong count was 1 (the block being
released as well when the weak count was 0). Only for a null handle is the assignment the
identity. After `SharedPtr<int> p(new int); p = p;` the handle is null, the strong count
is 0, and the object has been deleted. -/
theorem self_copy_assignment_drops_the_handle :
    (∀ (w : World) (self b : Nat), w.sharedBlock self = some (some b) →
      0 < (w.blocks b).count_shared →
      ∃ w1, SharedPtr.assign_copy w self self = some w1 ∧
        w1.sharedBlock self = some none ∧
        (w1.blocks b).count_shared = (w.blocks b).count_shared - 1 ∧
        (w1.blocks b).count_weak = (w.blocks b).count_weak ∧
        (w1.blocks b).deleted = (w.blocks b).deleted +
          (if (w.blocks b).count_shared = 1 then 1 else 0) ∧
        (w1.blocks b).released = (w.blocks b).released +
          (if (w.blocks b).count_shared = 1 ∧ (w.blocks b).count_weak = 0 then 1 else 0)) ∧
    (∀ (w : World) (self : Nat), w.sharedBlock self = some none →
      ∃ w1, SharedPtr.assign_copy w self self = some w1 ∧ w1.sharedBlock self = some none ∧
        w1.blocks = w.blocks) ∧
    (SharedPtr.assign_copy (SharedPtr.ctor_raw World.init 7) 0 0).map
        (fun w => (w.sharedBlock 0, (w.blocks 0).count_shared, (w.blocks 0).deleted,
          (w.blocks 0).released))
      = some (some none, 0, 1, 1) ∧
    (SharedPtr.ctor_raw World.init 7).sharedBlock 0 = some (some 0) ∧
    ((SharedPtr.ctor_raw World.init 7).blocks 0).count_shared = 1 := by
  refine ⟨?_, ?_, by decide, by decide, by decide⟩
  · intro w self b h hcs
    exact assign_copy_self h hcs
  · intro w self h
    exact assign_copy_self_null h

/-- Witness for C38: `SharedPtr<int> p(new int); p = p;`, the strong count being 1 before
the assignment. -/
theorem self_copy_assignment_drops_the_handle_witness :
    (SharedPtr.ctor_raw World.init 7).sharedBlock 0 = some (some 0) ∧
    0 < ((SharedPtr.ctor_raw World.init 7).blocks 0).count_shared ∧
    ∃ w1, SharedPtr.assign_copy (SharedPtr.ctor_raw World.init 7) 0 0 = some w1 ∧
      w1.sharedBlock 0 = some none ∧
      (w1.blocks 0).count_shared
        = ((SharedPtr.ctor_raw World.init 7).blocks 0).count_shared - 1 ∧
      (w1.blocks 0).count_weak
        = ((SharedPtr.ctor_raw World.init 7).blocks 0).count_weak ∧
      (w1.blocks 0).deleted
        = ((SharedPtr.ctor_raw World.init 7).blocks 0).deleted +
          (if ((SharedPtr.ctor_raw World.init 7).blocks 0).count_shared = 1
            then 1 else 0) ∧
      (w1.blocks 0).released
        = ((SharedPtr.ctor_raw World.init 7).blocks 0).released +
          (if ((SharedPtr.ctor_raw World.init 7).blocks 0).count_shared = 1 ∧
            ((SharedPtr.ctor_raw World.init 7).blocks 0).count_weak = 0
            then 1 else 0) :=
  ⟨by decide, by decide,
    self_copy_assignment_drops_the_handle.1 (SharedPtr.ctor_raw World.init 7) 0 0
      (by decide) (by decide)⟩

end SmartPointersH
namespace UnorderedMapH

open ListH

/-! ## unordered_map.h : the returned iterator of `emplace`, `clear`, the move constructor -/

section
variable {K V : Type}

/-- The member `List::clear` on a well formed list returns and leaves the empty ring. -/
theorem clearList_spec {T : Type} {l : LinkedList T} {nodes : List (Nat × T)}
    (h : ListRepr l nodes) (fuel : Nat) (hf : nodes.length ≤ fuel) :
    ∃ l1, clearList l fuel = some l1 ∧ ListRepr l1 [] ∧ l1.size = 0 := by
  obtain ⟨l1, hcl, hrep, _, _⟩ := clear_spec h fuel hf
  refine ⟨{ l1 with size_ := 0 }, by simp [clearList, hcl], ?_, rfl⟩
  obtain ⟨h1, h2, h3, h4, h5, h6, h7, _⟩ := hrep
  exact ⟨h1, h2, h3, h4, h5, h6, h7, rfl⟩

/-- The member `clear()` on a well formed map returns; afterwards the list is the empty
ring, `bucket_iterators_` has no entry and `buckets_count_` is what it was, so that
`find` and `emplace`, which read `bucket_iterators_[hash % buckets_count_]`, index outside
the array for every key. -/
theorem clear_spec_map {m : UnorderedMap K V} {groups : List (Group K V)}
    (h : MapRepr m groups) (fuel : Nat) (hf : m.size ≤ fuel) :
    ∃ m1, m.clear fuel = some m1 ∧ m1.size = 0 ∧ ListRepr m1.storage_ [] ∧
      m1.bucket_iterators_ = [] ∧ m1.buckets_count_ = m.buckets_count_ ∧
      m1.bucket_iterators_.length ≠ m1.buckets_count_ ∧
      (∀ (f : Nat) (key : K), m1.bucket_iterators_[m1.get_hash (m1.hasher_ key)]? = none ∧
        m1.find f key = none) ∧
      (∀ (f : Nat) (key : K) (value : V),
        m1.emplace f key value = none ∧ m1.insert f (key, value) = none) := by
  have hf1 : (flatten groups).length ≤ fuel := by
    rw [← MapRepr_length h]
    exact hf
  obtain ⟨l1, hcl, hrep, hsz⟩ := clearList_spec h.1 fuel hf1
  refine ⟨{ m with bucket_iterators_ := [], storage_ := l1 }, by simp [UnorderedMap.clear, hcl],
    hsz, hrep, rfl, rfl, ?_, ?_, ?_⟩
  · have := h.2.1
    show ([] : List Nat).length ≠ m.buckets_count_
    simp only [List.length_nil]
    omega
  · intro f key
    exact ⟨rfl, by simp [UnorderedMap.find]⟩
  · intro f key value
    exact ⟨by simp [UnorderedMap.emplace], by simp [UnorderedMap.insert, UnorderedMap.emplace]⟩

end


section
variable {K V : Type}

/-- The loop of `find` does not read the index array. -/
theorem scan_index_irrelevant (m : UnorderedMap K V) (bis : List Nat) (key : K)
    (myhash : Nat) :
    ∀ (fuel iter : Nat),
      ({ m with bucket_iterators_ := bis } : UnorderedMap K V).scan key myhash fuel iter
        = m.scan key myhash fuel iter := by
  intro fuel
  induction fuel with
  | zero => intro iter; rfl
  | succ f ih =>
    intro iter
    simp only [UnorderedMap.scan, UnorderedMap.get_hash, ih]

/-- The member `find(key)` reads one entry of the index array, that of the bucket of
`key`. -/
theorem find_index_entry (m : UnorderedMap K V) (bis : List Nat) (key : K) (fuel : Nat)
    (hb : bis[m.get_hash (m.hasher_ key)]? = m.bucket_iterators_[m.get_hash (m.hasher_ key)]?) :
    ({ m with bucket_iterators_ := bis } : UnorderedMap K V).find fuel key
      = m.find fuel key := by
  unfold UnorderedMap.find
  simp only [scan_index_irrelevant]
  show (match bis[m.get_hash (m.hasher_ key)]? with
    | none => none
    | some iter =>
      match m.scan key (m.hasher_ key) fuel iter with
      | none => none
      | some (some it) => some it
      | some none => some m.end) =
    (match m.bucket_iterators_[m.get_hash (m.hasher_ key)]? with
    | none => none
    | some iter =>
      match m.scan key (m.hasher_ key) fuel iter with
      | none => none
      | some (some it) => some it
      | some none => some m.end)
  rw [hb]

/-- The head of a run is the address of an entry. -/
theorem headOf_entry {m : UnorderedMap K V} {groups : List (Group K V)} (h : MapRepr m groups)
    {b : Nat} {g : List (Nat × HashedNode K V)} (hg : groupOf groups b = some g) (e : Nat) :
    ∃ x ∈ flatten groups, headOf groups e b = x.1 := by
  obtain ⟨G1, G2, hs, _⟩ := groupOf_split hg
  have hmem : (b, g) ∈ groups := by
    rw [hs]
    simp
  have hne := (h.2.2.1.2 (b, g) hmem).1
  cases g with
  | nil => exact absurd rfl hne
  | cons x xs =>
    refine ⟨x, groupOf_sub hg x (List.mem_cons_self _ _), ?_⟩
    simp [headOf, hg, addrs]

/-- The index array of a well formed map, re-pointed from the sentinel to another address
that is not the address of an entry, is the index array over that address. -/
theorem repoint_index {m : UnorderedMap K V} {groups : List (Group K V)} (h : MapRepr m groups)
    (e : Nat) :
    IndexOK e m.buckets_count_ (repoint m.storage_.end_ e m.bucket_iterators_) groups := by
  obtain ⟨hlen, hix⟩ := h.2.2.2.1
  refine ⟨by simp [repoint, hlen], ?_⟩
  intro b hb
  unfold repoint
  rw [List.getElem?_map, hix b hb, Option.map_some']
  congr 1
  cases hg : groupOf groups b with
  | none => simp [headOf, hg]
  | some g =>
    obtain ⟨x, hx, hhead⟩ := headOf_entry h hg m.storage_.end_
    obtain ⟨y, hy, hhead2⟩ := headOf_entry h hg e
    have hxa : x.1 ∈ addrs (flatten groups) := List.mem_map_of_mem _ hx
    have hnd := h.1.2.2.1
    rw [List.nodup_cons] at hnd
    have hxe : x.1 ≠ m.storage_.end_ := fun hc => hnd.1 (hc ▸ hxa)
    rw [hhead, if_neg hxe]
    have : headOf groups e b = headOf groups m.storage_.end_ b := by
      obtain ⟨G1, G2, hs, _⟩ := groupOf_split hg
      have hmem : (b, g) ∈ groups := by
        rw [hs]
        simp
      have hne := (h.2.2.1.2 (b, g) hmem).1
      cases g with
      | nil => exact absurd rfl hne
      | cons z zs => simp [headOf, hg, addrs]
    rw [this, hhead]

/-- The move constructor on a well formed map. It returns; the new map has the list
entries of the source when the source is not empty, and the index array of the source as
it was, whose entries of the empty buckets are the sentinel of the source. -/
theorem move_ctor_spec {m : UnorderedMap K V} {groups : List (Group K V)}
    (h : MapRepr m groups) :
    ∃ n m0, m.move_ctor = some (n, m0) ∧
      n.buckets_count_ = m.buckets_count_ ∧ n.bucket_iterators_ = m.bucket_iterators_ ∧
      n.hasher_ = m.hasher_ ∧ n.equaler_ = m.equaler_ ∧
      n.size = m.size ∧ n.storage_.end_ = m.storage_.node_allocator_ ∧
      n.storage_.end_ ≠ m.storage_.end_ ∧
      valueOf n.storage_.heap m.storage_.end_ = none ∧
      (flatten groups ≠ [] → ListRepr n.storage_ (flatten groups)) ∧
      (flatten groups ≠ [] →
        MapRepr (n.repointed m.storage_.end_) groups) ∧
      (flatten groups = [] → nextOf n.storage_.heap n.storage_.end_ = some m.storage_.end_) ∧
      m0.size = 0 ∧ ListRepr m0.storage_ [] ∧ m0.bucket_iterators_ = [] := by
  obtain ⟨new, other0, hmv, hrep0, hsz, hend, hend0, hheap, hne, hemp⟩ := move_ctor_repr h.1
  have hlt : m.storage_.end_ < m.storage_.node_allocator_ := h.1.2.2.2.1
  have hv : valueOf new.heap m.storage_.end_ = none := by
    rw [hheap, ← hend0]
    exact hrep0.2.2.2.2.2.1
  refine ⟨{ m with storage_ := new }, { m with storage_ := other0, bucket_iterators_ := [] },
    by simp [UnorderedMap.move_ctor, hmv], rfl, rfl, rfl, rfl, hsz, hend, ?_, hv, hne, ?_, ?_,
    ?_, hrep0, rfl⟩
  · show new.end_ ≠ m.storage_.end_
    rw [hend]
    omega
  · intro hnn
    refine ⟨hne hnn, h.2.1, h.2.2.1, ?_, h.2.2.2.2.1, h.2.2.2.2.2⟩
    show IndexOK new.end_ m.buckets_count_ (repoint m.storage_.end_ new.end_ m.bucket_iterators_)
      groups
    exact repoint_index h new.end_
  · intro hnil
    exact (hemp hnil).1
  · show other0.size = 0
    have := ListRepr_size hrep0
    simpa using this

end


section
variable {K V : Type}

/-- The member `find` of a map whose index entry for the bucket of `key` is a position
other than `end()` that holds no entry: the loop reads `iter->hash` there, which is
undefined, whatever the fuel. -/
theorem find_at_foreign_sentinel (n : UnorderedMap K V) (key : K) (a : Nat)
    (hb : n.bucket_iterators_[n.get_hash (n.hasher_ key)]? = some a)
    (ha : a ≠ n.storage_.end_) (hv : valueOf n.storage_.heap a = none) (fuel : Nat) :
    n.find fuel key = none := by
  unfold UnorderedMap.find
  simp only [hb]
  cases fuel with
  | zero => rfl
  | succ f =>
    have : n.scan key (n.hasher_ key) (f + 1) a = none := by
      have ha1 : ¬ (a = n.storage_.end) := ha
      unfold UnorderedMap.scan
      rw [if_neg ha1, hv]
    simp only [this]

/-- A map with an index entry that is neither `end()` nor the position of an entry does
not have the bucket invariant. -/
theorem foreign_entry_not_BucketInv (n : UnorderedMap K V) (b a : Nat)
    (hb : b < n.buckets_count_) (hix : n.bucket_iterators_[b]? = some a)
    (ha : a ≠ n.storage_.end_) (hv : valueOf n.storage_.heap a = none) : ¬ BucketInv n := by
  rintro ⟨entries, hl, _, hall⟩
  obtain ⟨pre, run, post, hsplit, _, _, hhead, hiff⟩ := hall b hb
  rw [hix] at hhead
  cases run with
  | nil =>
    simp only [addrs, List.map_nil, List.headD_nil, Option.some.injEq] at hhead
    exact ha hhead
  | cons x xs =>
    simp only [addrs, List.map_cons, List.headD_cons, Option.some.injEq] at hhead
    have hx : x ∈ entries := by
      rw [hsplit]
      simp
    have := hl.2.2.2.2.2.2.1 x hx
    rw [← hhead, hv] at this
    exact absurd this (by simp)

/-- The member `find` on the map that the move constructor built from a well formed map
`m`: an entry of `m` is found through the bucket of its key, which has a run; a key
without an equal is answered with `end()` when its bucket has a run; when its bucket has
no run, the index entry is the sentinel of `m` and `find` reads `iter->hash` of that
sentinel. -/
theorem move_ctor_find {m : UnorderedMap K V} {groups : List (Group K V)}
    (hk : KeyEquiv m.hasher_ m.equaler_) (h : MapRepr m groups) :
    ∃ n m0, m.move_ctor = some (n, m0) ∧ n.size = m.size ∧
      n.buckets_count_ = m.buckets_count_ ∧
      n.bucket_iterators_ = m.bucket_iterators_ ∧ n.storage_.end_ ≠ m.storage_.end_ ∧
      (∀ x ∈ flatten groups, ∀ (key : K) (fuel : Nat), m.size < fuel →
        m.equaler_ x.2.node.1 key = true →
        n.find fuel key = some x.1 ∧ valueOf n.storage_.heap x.1 = some x.2) ∧
      (∀ (key : K) (fuel : Nat), m.size < fuel →
        (∀ x ∈ flatten groups, m.equaler_ x.2.node.1 key = false) →
        groupOf groups (m.get_hash (m.hasher_ key)) ≠ none → n.find fuel key = some n.end) ∧
      (∀ (key : K), groupOf groups (m.get_hash (m.hasher_ key)) = none →
        n.bucket_iterators_[n.get_hash (n.hasher_ key)]? = some m.storage_.end_ ∧
        ∀ fuel, n.find fuel key = none) ∧
      ((∃ b, b < m.buckets_count_ ∧ groupOf groups b = none) → ¬ BucketInv n) ∧
      (flatten groups ≠ [] → MapRepr (n.repointed m.storage_.end_) groups) := by
  obtain ⟨n, m0, hmv, hbc, hbis, hh, he, hsz, hend, hne, hv, hl, hfix, _, _, _, _⟩ :=
    move_ctor_spec h
  have hgh : ∀ key, n.get_hash (n.hasher_ key) = m.get_hash (m.hasher_ key) := by
    intro key
    unfold UnorderedMap.get_hash
    rw [hh, hbc]
  have hixm : ∀ key, m.bucket_iterators_[m.get_hash (m.hasher_ key)]?
      = some (headOf groups m.storage_.end_ (m.get_hash (m.hasher_ key))) := by
    intro key
    exact h.2.2.2.1.2 _ (Nat.mod_lt _ h.2.1)
  -- with a run in the bucket, the index entry is not touched by the re-pointing
  have hsame : ∀ (key : K) (fuel : Nat),
      groupOf groups (m.get_hash (m.hasher_ key)) ≠ none →
      (n.repointed m.storage_.end_).find fuel key = n.find fuel key := by
    intro key fuel hg
    refine find_index_entry n _ key fuel ?_
    rw [hgh, hbis, hixm]
    unfold repoint
    rw [List.getElem?_map, hixm, Option.map_some']
    congr 1
    cases hgo : groupOf groups (m.get_hash (m.hasher_ key)) with
    | none => exact absurd hgo hg
    | some g =>
      obtain ⟨x, hx, hhead⟩ := headOf_entry h hgo m.storage_.end_
      have hxa : x.1 ∈ addrs (flatten groups) := List.mem_map_of_mem _ hx
      have hnd := h.1.2.2.1
      rw [List.nodup_cons] at hnd
      have hxe : x.1 ≠ m.storage_.end_ := fun hc => hnd.1 (hc ▸ hxa)
      rw [hhead, if_neg hxe]
  have hnonempty : ∀ b, groupOf groups b ≠ none → flatten groups ≠ [] := by
    intro b hg hnil
    cases hgo : groupOf groups b with
    | none => exact hg hgo
    | some g =>
      obtain ⟨x, hx, _⟩ := headOf_entry h hgo 0
      rw [hnil] at hx
      simp at hx
  refine ⟨n, m0, hmv, hsz, hbc, hbis, hne, ?_, ?_, ?_, ?_, hfix⟩
  · intro x hx key fuel hf hxe
    have hnn : flatten groups ≠ [] := fun hc => by rw [hc] at hx; simp at hx
    have hr := hfix hnn
    have hk1 : KeyEquiv (n.repointed m.storage_.end_).hasher_
        (n.repointed m.storage_.end_).equaler_ := by
      show KeyEquiv n.hasher_ n.equaler_
      rw [hh, he]
      exact hk
    obtain ⟨g, hgo, _⟩ := mem_run_of_equal hk h hx hxe
    have hg : groupOf groups (m.get_hash (m.hasher_ key)) ≠ none := by
      rw [hgo]
      simp
    rw [← hsame key fuel hg]
    refine ⟨find_present hk1 hr key fuel ?_ hx ?_, (hl hnn).2.2.2.2.2.2.1 x hx⟩
    · show n.size < fuel
      rw [hsz]
      exact hf
    · show n.equaler_ x.2.node.1 key = true
      rw [he]
      exact hxe
  · intro key fuel hf hno hg
    have hr := hfix (hnonempty _ hg)
    rw [← hsame key fuel hg]
    refine (find_absent hr key fuel ?_ ?_).1
    · show n.size < fuel
      rw [hsz]
      exact hf
    · intro x hx
      show n.equaler_ x.2.node.1 key = false
      rw [he]
      exact hno x hx
  · intro key hg
    have hb : n.bucket_iterators_[n.get_hash (n.hasher_ key)]? = some m.storage_.end_ := by
      rw [hgh, hbis, hixm]
      simp [headOf, hg]
    exact ⟨hb, fun fuel => find_at_foreign_sentinel n key _ hb (Ne.symm hne) hv fuel⟩
  · rintro ⟨b, hb, hg⟩
    refine foreign_entry_not_BucketInv n b m.storage_.end_ (by rw [hbc]; exact hb) ?_
      (Ne.symm hne) hv
    rw [hbis, h.2.2.2.1.2 b hb]
    simp [headOf, hg]

end


section
variable {K V : Type}

/-- The member `emplace` on a key that has no equal in a well formed map of fewer than
`2^31 - 1` entries, when the load factor check calls `rehash`: the returned position is
the entry of the new index array for the bucket of the key, the head of that bucket's
run. -/
theorem emplace_absent_rehashed {m : UnorderedMap K V} {groups : List (Group K V)}
    (hk : KeyEquiv m.hasher_ m.equaler_) (h : MapRepr m groups) (key : K) (value : V)
    (fuel : Nat) (hf : m.size < fuel) (hsz : m.size + 1 < 2 ^ 31)
    (hno : ∀ x ∈ flatten groups, m.equaler_ x.2.node.1 key = false)
    (hex : m.max_load_factor_.exceeds (m.size + 1) m.buckets_count_ = true) :
    ∃ m2 groups2,
      m.emplace fuel key value
        = some (m2, headOf groups2 m2.storage_.end_ (m2.get_hash (m.hasher_ key)), true) ∧
      MapRepr m2 groups2 ∧
      ((flatten groups2).map Prod.snd).Perm
        ({ node := (key, value), hash := m.hasher_ key } :: (flatten groups).map Prod.snd) := by
  obtain ⟨l1, groups1, _, hm1, hperm, hsz1, hem⟩ :=
    emplace_absent_steps hk h key value fuel hf hno
  have hk1 : KeyEquiv (afterInsertion m key l1).hasher_ (afterInsertion m key l1).equaler_ := hk
  obtain ⟨m2, groups2, hre, hm2, hperm2, _, _, _⟩ :=
    rehash_repr hk1 hm1 (by rw [hsz1]; exact hsz) (m.max_load_factor_.target (m.size + 1))
  refine ⟨m2, groups2, ?_, hm2, ?_⟩
  · rw [hem, hex, if_pos rfl, hre]
    have hr := hm2.2.2.2.1.2 (m2.get_hash (m.hasher_ key)) (Nat.mod_lt _ hm2.2.1)
    simp only [hr]
  · refine hperm2.trans ?_
    have := hperm.map Prod.snd
    simpa using this

end

/-- C35: on a well formed map, `emplace` of a key that has no equal in the map returns
`true`; when the load factor check does not call `rehash`, the returned position is that
of the new entry, which holds the key and the value; when it calls `rehash`, the returned
position is the head of the run of the key's bucket in the rehashed list, which is the
new entry only when no other entry of that bucket was moved after it. On the
default-constructed map of integers holding the entry (0, 1), both `emplace(12, 5)` and
`insert({12, 5})` rehash to 12 buckets and return `true` with the position of the entry
(0, 1), while the entry (12, 5) is elsewhere in the list. -/
theorem emplace_after_rehash_returns_the_bucket_head :
    (∀ (K V : Type) (m : UnorderedMap K V) (groups : List (Group K V)),
      KeyEquiv m.hasher_ m.equaler_ → MapRepr m groups → ∀ (fuel : Nat), m.size < fuel →
      ∀ (key : K) (value : V), (∀ x ∈ flatten groups, m.equaler_ x.2.node.1 key = false) →
        m.max_load_factor_.exceeds (m.size + 1) m.buckets_count_ = false →
        ∃ m1, m.emplace fuel key value = some (m1, m.storage_.node_allocator_, true) ∧
          ListH.valueOf m1.storage_.heap m.storage_.node_allocator_
            = some { node := (key, value), hash := m.hasher_ key }) ∧
    (∀ (K V : Type) (m : UnorderedMap K V) (groups : List (Group K V)),
      KeyEquiv m.hasher_ m.equaler_ → MapRepr m groups → ∀ (fuel : Nat), m.size < fuel →
      m.size + 1 < 2 ^ 31 →
      ∀ (key : K) (value : V), (∀ x ∈ flatten groups, m.equaler_ x.2.node.1 key = false) →
        m.max_load_factor_.exceeds (m.size + 1) m.buckets_count_ = true →
        ∃ m2 groups2,
          m.emplace fuel key value
            = some (m2, headOf groups2 m2.storage_.end_ (m2.get_hash (m.hasher_ key)),
                true) ∧
          MapRepr m2 groups2 ∧
          ((flatten groups2).map Prod.snd).Perm
            ({ node := (key, value), hash := m.hasher_ key }
              :: (flatten groups).map Prod.snd)) ∧
    ((natMap.insert 3 (0, 1)).bind (fun r => r.1.emplace 3 12 5)).map
        (fun r => (r.2.2, (ListH.valueOf r.1.storage_.heap r.2.1).map (fun hn => hn.node),
          r.1.size, r.1.buckets_count_))
      = some (true, some (0, 1), 2, 12) ∧
    ((natMap.insert 3 (0, 1)).bind (fun r => r.1.emplace 3 12 5)).bind
        (fun r => (r.1.storage_.toList 3).map (fun l => l.map (fun hn => hn.node)))
      = some [(0, 1), (12, 5)] ∧
    ((natMap.insert 3 (0, 1)).bind (fun r => r.1.insert 3 (12, 5))).map
        (fun r => (r.2.2, (ListH.valueOf r.1.storage_.heap r.2.1).map (fun hn => hn.node)))
      = some (true, some (0, 1)) ∧
    ((natMap.insert 3 (0, 1)).bind (fun r => r.1.emplace 3 1 5)).map
        (fun r => (r.2.2, (ListH.valueOf r.1.storage_.heap r.2.1).map (fun hn => hn.node),
          r.1.buckets_count_))
      = some (true, some (1, 5), 12) := by
  refine ⟨?_, ?_, by decide, by decide, by decide, by decide⟩
  · intro K V m groups hk h fuel hf key value hno hex
    obtain ⟨l1, groups1, hem, hm1, hmem, _⟩ :=
      emplace_absent_plain hk h key value fuel hf hno hex
    exact ⟨_, hem, hm1.1.2.2.2.2.2.2.1 _ hmem⟩
  · intro K V m groups hk h fuel hf hsz key value hno hex
    exact emplace_absent_rehashed hk h key value fuel hf hsz hno hex

/-- Witness for C35: `emplace(3, 9)` on the map holding the keys 0, 1, 2 in 8 buckets,
which does not rehash. -/
theorem emplace_after_rehash_returns_the_bucket_head_witness :
    KeyEquiv (rangeMap 3 8 LoadPolicy.half).hasher_ (rangeMap 3 8 LoadPolicy.half).equaler_ ∧
    MapRepr (rangeMap 3 8 LoadPolicy.half) (rangeGroups 3) ∧
    (rangeMap 3 8 LoadPolicy.half).size < 4 ∧
    (∀ x ∈ flatten (rangeGroups 3), (rangeMap 3 8 LoadPolicy.half).equaler_ x.2.node.1 3
      = false) ∧
    (rangeMap 3 8 LoadPolicy.half).max_load_factor_.exceeds
      ((rangeMap 3 8 LoadPolicy.half).size + 1) (rangeMap 3 8 LoadPolicy.half).buckets_count_
      = false ∧
    ∃ m1, (rangeMap 3 8 LoadPolicy.half).emplace 4 3 9
        = some (m1, (rangeMap 3 8 LoadPolicy.half).storage_.node_allocator_, true) ∧
      ListH.valueOf m1.storage_.heap (rangeMap 3 8 LoadPolicy.half).storage_.node_allocator_
        = some { node := (3, 9), hash := (rangeMap 3 8 LoadPolicy.half).hasher_ 3 } :=
  ⟨natKeys, rangeMap_repr 3 8 _ (by decide) (by decide), by decide, by decide, by decide,
    emplace_after_rehash_returns_the_bucket_head.1 Nat Nat (rangeMap 3 8 LoadPolicy.half)
      (rangeGroups 3) natKeys (rangeMap_repr 3 8 _ (by decide) (by decide)) 4 (by decide)
      3 9 (by decide) (by decide)⟩

/-- C39: `clear()` on a well formed map returns and leaves size 0 and the empty list, but
`bucket_iterators_` without any entry while `buckets_count_` keeps its value: the index
array no longer has `bucket_count` entries, and `find`, `emplace` and `insert` of any key
read `bucket_iterators_[hash % buckets_count_]` outside the array. On the
default-constructed map of integers after `insert({1, 10})` and `clear()`: size 0,
`buckets_count_` 2, an empty index array, `find(1)` and `insert({2, 20})` undefined. -/
theorem clear_leaves_the_index_array_empty :
    (∀ (K V : Type) (m : UnorderedMap K V) (groups : List (Group K V)) (fuel : Nat),
      MapRepr m groups → m.size ≤ fuel →
      ∃ m1, m.clear fuel = some m1 ∧ m1.size = 0 ∧ ListH.ListRepr m1.storage_ [] ∧
        m1.bucket_iterators_ = [] ∧ m1.buckets_count_ = m.buckets_count_ ∧
        m1.bucket_iterators_.length ≠ m1.buckets_count_ ∧
        (∀ (f : Nat) (key : K),
          m1.bucket_iterators_[m1.get_hash (m1.hasher_ key)]? = none ∧
          m1.find f key = none) ∧
        (∀ (f : Nat) (key : K) (value : V),
          m1.emplace f key value = none ∧ m1.insert f (key, value) = none)) ∧
    ((natMap.insert 3 (1, 10)).bind (fun r => r.1.clear 3)).map
        (fun m => (m.size, m.buckets_count_, m.bucket_iterators_, m.find 3 1,
          (m.insert 3 (2, 20)).isSome))
      = some (0, 2, [], none, false) ∧
    (natMap.insert 3 (1, 10)).map (fun r => (r.1.size, r.1.bucket_iterators_.length,
        r.1.find 3 1, r.1.find 3 2, r.1.end)) = some (1, 2, some 1, some 0, 0) := by
  refine ⟨?_, by decide, by decide⟩
  intro K V m groups fuel h hf
  exact clear_spec_map h fuel hf

/-- Witness for C39: `clear()` on the map holding the keys 0, 1, 2 in 4 buckets. -/
theorem clear_leaves_the_index_array_empty_witness :
    MapRepr (rangeMap 3 4 LoadPolicy.half) (rangeGroups 3) ∧
    (rangeMap 3 4 LoadPolicy.half).size ≤ 3 ∧
    ∃ m1, (rangeMap 3 4 LoadPolicy.half).clear 3 = some m1 ∧ m1.size = 0 ∧
      m1.bucket_iterators_ = [] ∧ m1.buckets_count_ = 4 ∧ m1.find 4 1 = none := by
  refine ⟨rangeMap_repr 3 4 _ (by decide) (by decide), by decide, ?_⟩
  obtain ⟨m1, h1, h2, _, h4, h5, _, h7, _⟩ :=
    clear_leaves_the_index_array_empty.1 Nat Nat (rangeMap 3 4 LoadPolicy.half)
      (rangeGroups 3) 3 (rangeMap_repr 3 4 _ (by decide) (by decide)) (by decide)
  exact ⟨m1, h1, h2, h4, h5, (h7 4 1).2⟩

/-- C40: the move constructor on a well formed map `m` returns a map with the size, the
bucket count and the index array of `m` and a sentinel of its own. An entry of `m` is
found in the new map at its position; a key without an equal whose bucket has entries is
answered with `end()`. For a key whose bucket has no entry the index entry is still the
sentinel of `m`, not the new map's own, and `find` reads `iter->hash` of it, which is
undefined; with such a bucket the new map does not have the bucket invariant. The index
array with these entries re-pointed to the new sentinel, what the move assignment does,
is the index of a well formed map. On the default-constructed map of integers holding
(0, 1), moved: `find(0)` is the entry, `find(2)` is `end()`, `find(1)` is undefined; moved
when empty, `find` is undefined for every key. -/
theorem moved_map_index_keeps_the_source_sentinel :
    (∀ (K V : Type) (m : UnorderedMap K V) (groups : List (Group K V)),
      KeyEquiv m.hasher_ m.equaler_ → MapRepr m groups →
      ∃ n m0, m.move_ctor = some (n, m0) ∧ n.size = m.size ∧
        n.buckets_count_ = m.buckets_count_ ∧
        n.bucket_iterators_ = m.bucket_iterators_ ∧ n.storage_.end_ ≠ m.storage_.end_ ∧
        (∀ x ∈ flatten groups, ∀ (key : K) (fuel : Nat), m.size < fuel →
          m.equaler_ x.2.node.1 key = true →
          n.find fuel key = some x.1 ∧ ListH.valueOf n.storage_.heap x.1 = some x.2) ∧
        (∀ (key : K) (fuel : Nat), m.size < fuel →
          (∀ x ∈ flatten groups, m.equaler_ x.2.node.1 key = false) →
          groupOf groups (m.get_hash (m.hasher_ key)) ≠ none →
          n.find fuel key = some n.end) ∧
        (∀ (key : K), groupOf groups (m.get_hash (m.hasher_ key)) = none →
          n.bucket_iterators_[n.get_hash (n.hasher_ key)]? = some m.storage_.end_ ∧
          ∀ fuel, n.find fuel key = none) ∧
        ((∃ b, b < m.buckets_count_ ∧ groupOf groups b = none) → ¬ BucketInv n) ∧
        (flatten groups ≠ [] → MapRepr (n.repointed m.storage_.end_) groups)) ∧
    ((natMap.insert 3 (0, 1)).bind (fun r => r.1.move_ctor)).map
        (fun p => (p.1.size, p.1.bucket_iterators_, p.1.storage_.end_))
      = some (1, [1, 0], 2) ∧
    ((natMap.insert 3 (0, 1)).bind (fun r => r.1.move_ctor)).map
        (fun p => (p.1.find 3 0, p.1.find 3 2, p.1.find 3 1, (p.1.repointed 0).find 3 1))
      = some (some 1, some 2, none, some 2) ∧
    natMap.move_ctor.map
        (fun p => (p.1.size, p.1.bucket_iterators_, p.1.storage_.end_, p.1.find 3 0,
          p.1.find 3 1))
      = some (0, [0, 0], 1, none, none) := by
  refine ⟨?_, by decide, by decide, by decide⟩
  intro K V m groups hk h
  exact move_ctor_find hk h

/-- Witness for C40: the move constructor on the map holding the keys 0, 1, 2 in 4
buckets; the bucket 3 has no entry. -/
theorem moved_map_index_keeps_the_source_sentinel_witness :
    KeyEquiv (rangeMap 3 4 LoadPolicy.half).hasher_ (rangeMap 3 4 LoadPolicy.half).equaler_ ∧
    MapRepr (rangeMap 3 4 LoadPolicy.half) (rangeGroups 3) ∧
    ∃ n m0, (rangeMap 3 4 LoadPolicy.half).move_ctor = some (n, m0) ∧ n.size = 3 ∧
      n.find 4 1 = some 2 ∧ n.find 4 3 = none ∧ ¬ BucketInv n := by
  refine ⟨natKeys, rangeMap_repr 3 4 _ (by decide) (by decide), ?_⟩
  obtain ⟨n, m0, h1, h2, _, _, _, h6, _, h8, h9, _⟩ :=
    moved_map_index_keeps_the_source_sentinel.1 Nat Nat (rangeMap 3 4 LoadPolicy.half)
      (rangeGroups 3) natKeys (rangeMap_repr 3 4 _ (by decide) (by decide))
  refine ⟨n, m0, h1, h2, ?_, ?_, ?_⟩
  · exact (h6 (2, ⟨(1, 0), 1⟩) (List.mem_cons_of_mem _ (List.mem_cons_self _ _)) 1 4
      (by decide) (by decide)).1
  · exact (h8 3 rfl).2 4
  · exact h9 ⟨3, by decide, rfl⟩

end UnorderedMapH
namespace ListH

/-! ## The copy assignment of `List` -/

section
variable {T : Type}

/-- The loop of the copy constructor reads, and does not write, the memory below `N`
when the list under construction has its sentinel and nodes at `N` or above. -/
theorem copy_loop_below (N : Nat) : ∀ (rest : List (Nat × T)) (fuel i : Nat)
    (done : List (Nat × T)) (src self : LinkedList T) (cnodes : List (Nat × T)),
    TwoRepr self src cnodes (done ++ rest) → rest.length ≤ fuel →
    (∀ a ∈ self.end_ :: addrs cnodes, N ≤ a) → N ≤ self.node_allocator_ →
    ∃ self' ev, LinkedList.copy_loop (fun _ x => some x) src.end fuel i
        ((addrs rest).headD src.end_) self = some (.done self', ev) ∧
      ∀ x, x < N → nextOf self'.heap x = nextOf self.heap x ∧
        prevOf self'.heap x = prevOf self.heap x ∧ valueOf self'.heap x = valueOf self.heap x := by
  intro rest
  induction rest with
  | nil =>
    intro fuel i done src self cnodes _ _ _ _
    refine ⟨self, [], ?_, fun _ _ => ⟨rfl, rfl, rfl⟩⟩
    cases fuel <;> simp [LinkedList.copy_loop, addrs, LinkedList.end]
  | cons x rest ih =>
    intro fuel i done src self cnodes h hf hN hNb
    cases fuel with
    | zero => simp at hf
    | succ fuel =>
      obtain ⟨hne, hval, self1, hpb, hnx, h2, hbump, hend⟩ := copy_round h x.2
      obtain ⟨l1, hpb1, _, _, _, hfr⟩ := push_back_step h.1 x.2
      have hl1 : l1 = self1 := by
        rw [hpb] at hpb1
        exact (Option.some.inj hpb1).symm
      subst hl1
      have hN1 : ∀ a ∈ l1.end_ :: addrs (cnodes ++ [(self.node_allocator_, x.2)]), N ≤ a := by
        intro a ha
        rw [hend, addrs_append, List.mem_cons, List.mem_append] at ha
        rcases ha with ha | ha | ha
        · exact hN a (by rw [ha]; exact List.mem_cons_self _ _)
        · exact hN a (List.mem_cons_of_mem _ ha)
        · simp only [addrs, List.map_cons, List.map_nil, List.mem_singleton] at ha
          omega
      obtain ⟨self', ev, hloop, hreads⟩ :=
        ih fuel (i + 1) (done ++ [x]) (src.inMemoryOf l1) l1
          (cnodes ++ [(self.node_allocator_, x.2)]) h2 (by simpa using hf) hN1 (by omega)
      refine ⟨self', emplaceLog self ++ ev, ?_, ?_⟩
      · have hhead : (addrs (x :: rest)).headD src.end_ = x.1 := rfl
        have hloop' : LinkedList.copy_loop (fun _ x => some x) src.end fuel (i + 1)
            ((addrs rest).headD src.end_) l1 = some (.done self', ev) := hloop
        rw [hhead]
        simp only [LinkedList.copy_loop, LinkedList.end, hne, if_false, hval, hpb, hnx]
        simp only [LinkedList.end] at hloop'
        rw [hloop']
      · intro y hy
        have hy1 : y ∉ self.end_ :: addrs cnodes := fun hc => by
          have := hN y hc
          omega
        have := hfr.2.2.2 y hy1 (by omega)
        obtain ⟨r1, r2, r3⟩ := hreads y hy
        exact ⟨r1.trans this.1, r2.trans this.2.1, r3.trans this.2.2⟩

/-- The copy constructor, every `construct` returning a copy of its argument: beside what
`copy_ctor_done` says, the memory that was allocated before reads as before. -/
theorem copy_ctor_below {other : LinkedList T} {nodes : List (Nat × T)}
    (h : ListRepr other nodes) (fuel : Nat) (hf : nodes.length ≤ fuel) :
    ∃ c new ev, other.copy_ctor (fun _ x => some x) fuel = some (.done c, ev) ∧
      TwoRepr c (other.inMemoryOf c) new nodes ∧ new.map Prod.snd = nodes.map Prod.snd ∧
      (∀ a ∈ c.end_ :: addrs new, other.node_allocator_ ≤ a) ∧
      ∀ x, x < other.node_allocator_ → nextOf c.heap x = nextOf other.heap x ∧
        prevOf c.heap x = prevOf other.heap x ∧ valueOf c.heap x = valueOf other.heap x := by
  obtain ⟨c, new, hcc, h2, hpay, hfresh⟩ := copy_ctor_done h fuel hf
  have h0 := copy_init_two h
  have hN : ∀ a ∈ other.copy_init.end_ :: addrs ([] : List (Nat × T)),
      other.node_allocator_ ≤ a := by
    intro a ha
    simp only [addrs, List.map_nil, List.mem_cons, List.not_mem_nil, or_false] at ha
    rw [ha]
    exact Nat.le_refl _
  obtain ⟨c', ev, hloop, hreads⟩ :=
    copy_loop_below other.node_allocator_ nodes fuel 0 [] (other.inMemoryOf other.copy_init)
      other.copy_init [] h0 hf hN (Nat.le_succ _)
  have hb : other.begin = some ((addrs nodes).headD other.end_) := ListRepr_begin h
  have hloop' : LinkedList.copy_loop (fun _ x => some x) other.end fuel 0
      ((addrs nodes).headD other.end_) other.copy_init = some (.done c', ev) := hloop
  have hcc' : other.copy_ctor (fun _ x => some x) fuel = some (.done c', ev) := by
    simp only [LinkedList.copy_ctor, hb, hloop']
  have hcc2 : (some (Outcome.done c, buildLog (addrs new)) :
      Option (Outcome (LinkedList T) × List MemEvent)) = some (.done c', ev) := by
    rw [← hcc, hcc']
  have hceq : c = c' := by
    injection hcc2 with h1
    injection h1 with h2 _
    injection h2
  subst hceq
  refine ⟨c, new, _, hcc, h2, hpay, hfresh, ?_⟩
  intro x hx
  have hx0 : x ≠ other.node_allocator_ := Nat.ne_of_lt hx
  have hst : other.copy_init.heap x = other.heap x := by
    simp [LinkedList.copy_init, Heap.store, hx0]
  obtain ⟨r1, r2, r3⟩ := hreads x hx
  refine ⟨r1.trans ?_, r2.trans ?_, r3.trans ?_⟩
  · simp [nextOf, hst]
  · simp [prevOf, hst]
  · simp [valueOf, hst]

end


section
variable {T : Type}

theorem isSome_of_link {h : Heap T} {p r : Nat}
    (hl : nextOf h p = some r ∨ prevOf h p = some r) : (h p).isSome = true := by
  obtain ⟨c, hc⟩ := alloc_of_link hl
  simp [hc]

/-- What the memory reads after `std::swap(x.previous, y.previous)`. -/
theorem swapPrevious_reads {h : Heap T} {x y px py : Nat} (hx : prevOf h x = some px)
    (hy : prevOf h y = some py) :
    ∃ h1, swapPrevious h x y = some h1 ∧ (∀ z, nextOf h1 z = nextOf h z) ∧
      (∀ z, prevOf h1 z = if z = y then some px else if z = x then some py else prevOf h z) ∧
      (∀ z, valueOf h1 z = valueOf h z) ∧ (∀ z, (h1 z).isSome = (h z).isSome) := by
  obtain ⟨h0, hs0⟩ := setPrevious_some (h := h) py (isSome_of_link (Or.inr hx))
  obtain ⟨r0n, r0p, r0v, r0a⟩ := setPrevious_reads hs0
  obtain ⟨h1, hs1⟩ := setPrevious_some (h := h0) (p := y) px
    (by rw [r0a]; exact isSome_of_link (Or.inr hy))
  obtain ⟨r1n, r1p, r1v, r1a⟩ := setPrevious_reads hs1
  refine ⟨h1, by simp only [swapPrevious, hx, hy, hs0, hs1], ?_, ?_, ?_, ?_⟩
  · intro z; rw [r1n, r0n]
  · intro z; rw [r1p, r0p]
  · intro z; rw [r1v, r0v]
  · intro z; rw [r1a, r0a]

/-- What the memory reads after `std::swap(x.next, y.next)`. -/
theorem swapNext_reads {h : Heap T} {x y nx ny : Nat} (hx : nextOf h x = some nx)
    (hy : nextOf h y = some ny) :
    ∃ h1, swapNext h x y = some h1 ∧
      (∀ z, nextOf h1 z = if z = y then some nx else if z = x then some ny else nextOf h z) ∧
      (∀ z, prevOf h1 z = prevOf h z) ∧
      (∀ z, valueOf h1 z = valueOf h z) ∧ (∀ z, (h1 z).isSome = (h z).isSome) := by
  obtain ⟨h0, hs0⟩ := setNext_some (h := h) ny (isSome_of_link (Or.inl hx))
  obtain ⟨r0n, r0p, r0v, r0a⟩ := setNext_reads hs0
  obtain ⟨h1, hs1⟩ := setNext_some (h := h0) (p := y) nx
    (by rw [r0a]; exact isSome_of_link (Or.inl hy))
  obtain ⟨r1n, r1p, r1v, r1a⟩ := setNext_reads hs1
  refine ⟨h1, by simp only [swapNext, hx, hy, hs0, hs1], ?_, ?_, ?_, ?_⟩
  · intro z; rw [r1n, r0n]
  · intro z; rw [r1p, r0p]
  · intro z; rw [r1v, r0v]
  · intro z; rw [r1a, r0a]

/-- What the memory reads after `repair_pointers()` on a list whose sentinel has the
links `nx` and `pv`, `nx` being another node. -/
theorem repair_pointers_reads {l : LinkedList T} {nx pv : Nat}
    (hn : nextOf l.heap l.end_ = some nx) (hp : prevOf l.heap l.end_ = some pv)
    (hnx : nx ≠ l.end_) (hna : (l.heap nx).isSome = true) (hpa : (l.heap pv).isSome = true) :
    ∃ l1, l.repair_pointers = some l1 ∧ l1.end_ = l.end_ ∧ l1.size_ = l.size_ ∧
      l1.node_allocator_ = l.node_allocator_ ∧
      (∀ z, nextOf l1.heap z = if z = pv then some l.end_ else nextOf l.heap z) ∧
      (∀ z, prevOf l1.heap z = if z = nx then some l.end_ else prevOf l.heap z) ∧
      (∀ z, valueOf l1.heap z = valueOf l.heap z) ∧
      (∀ z, (l1.heap z).isSome = (l.heap z).isSome) := by
  obtain ⟨h1, hs1⟩ := setPrevious_some (h := l.heap) l.end_ hna
  obtain ⟨r1n, r1p, r1v, r1a⟩ := setPrevious_reads hs1
  have hp1 : prevOf h1 l.end_ = some pv := by
    rw [r1p, if_neg (Ne.symm hnx)]
    exact hp
  obtain ⟨h2, hs2⟩ := setNext_some (h := h1) l.end_ (by rw [r1a]; exact hpa)
  obtain ⟨r2n, r2p, r2v, r2a⟩ := setNext_reads hs2
  refine ⟨{ l with heap := h2 }, by simp only [LinkedList.repair_pointers, hn, hs1, hp1, hs2],
    rfl, rfl, rfl, ?_, ?_, ?_, ?_⟩
  · intro z; show nextOf h2 z = _; rw [r2n, r1n]
  · intro z; show prevOf h2 z = _; rw [r2p, r1p]
  · intro z; show valueOf h2 z = _; rw [r2v, r1v]
  · intro z; show (h2 z).isSome = _; rw [r2a, r1a]

/-- A ring of nodes seen from another sentinel: when the memory `l2` links the first and
the last node of the non-empty list `l` to the sentinel of `l2` and that sentinel to
them, and reads the other links and the values as `l` does, `l2` is the closed ring of
these nodes. -/
theorem ListRepr_reseat {l l2 : LinkedList T} {nodes : List (Nat × T)} (h : ListRepr l nodes)
    (hne : nodes ≠ []) (he : l2.end_ ∉ addrs nodes)
    (hen : nextOf l2.heap l2.end_ = some ((addrs nodes).headD l.end_))
    (hep : prevOf l2.heap l2.end_ = some ((addrs nodes).getLastD l.end_))
    (hln : nextOf l2.heap ((addrs nodes).getLastD l.end_) = some l2.end_)
    (hfp : prevOf l2.heap ((addrs nodes).headD l.end_) = some l2.end_)
    (hn : ∀ z ∈ addrs nodes, z ≠ (addrs nodes).getLastD l.end_ →
      nextOf l2.heap z = nextOf l.heap z)
    (hp : ∀ z ∈ addrs nodes, z ≠ (addrs nodes).headD l.end_ →
      prevOf l2.heap z = prevOf l.heap z)
    (hv : ∀ z ∈ addrs nodes, valueOf l2.heap z = valueOf l.heap z)
    (hve : valueOf l2.heap l2.end_ = none) (hb : l2.end_ < l2.node_allocator_)
    (hb2 : l.node_allocator_ ≤ l2.node_allocator_) (hsz : l2.size_ = nodes.length) :
    ListRepr l2 nodes := by
  obtain ⟨hnxc, hpvc, hnd, hebump, hbump, _, hvals, _⟩ := h
  obtain ⟨x, rest, hxs⟩ := List.exists_cons_of_ne_nil hne
  have hA : addrs nodes = x.1 :: addrs rest := by rw [hxs]; rfl
  have hndA : (addrs nodes).Nodup := (List.nodup_cons.1 hnd).2
  have hfirst : (addrs nodes).headD l.end_ = x.1 := by rw [hA]; rfl
  have hlast' : (addrs nodes).getLastD l.end_ = (addrs rest).getLastD x.1 := by
    rw [hA, List.getLastD_cons]
  refine ⟨?_, ?_, List.nodup_cons.2 ⟨he, hndA⟩, hb, ?_, hve, ?_, hsz⟩
  · refine ⟨?_, ?_⟩
    · rw [hen, hfirst, hA]
      rfl
    · rw [hA]
      refine Chain_retarget (addrs rest) x.1 (hA ▸ hndA) (hA ▸ hnxc.2) ?_ ?_
      · intro z hz hzl
        rw [← hA] at hz
        exact hn z hz (by rw [hlast']; exact hzl)
      · rw [← hlast']
        exact hln
  · have hrne : (addrs nodes).reverse ≠ [] := by rw [hA]; simp
    obtain ⟨b, B, hB⟩ := List.exists_cons_of_ne_nil hrne
    have hBl : B.getLastD b = x.1 := by
      have := getLastD_reverse (addrs nodes) l.end_
      rw [hB, List.getLastD_cons, hfirst] at this
      exact this
    have hBh : b = (addrs nodes).getLastD l.end_ := by
      have := headD_reverse (addrs nodes) l.end_
      rw [hB] at this
      exact this
    have hmemB : ∀ z, z ∈ b :: B → z ∈ addrs nodes := by
      intro z hz
      rw [← hB] at hz
      exact List.mem_reverse.1 hz
    refine ⟨?_, ?_⟩
    · rw [hep, hB, hBh]
      rfl
    · rw [hB]
      have hndB : (b :: B).Nodup := by
        rw [← hB]
        exact List.nodup_reverse.2 hndA
      have hcB : Chain (prevOf l.heap) l.end_ (b :: B) := by
        have := hpvc.2
        rwa [hB] at this
      refine Chain_retarget B b hndB hcB ?_ ?_
      · intro z hz hzl
        exact hp z (hmemB z hz) (by rw [hfirst, ← hBl]; exact hzl)
      · rw [hBl, ← hfirst]
        exact hfp
  · intro a ha
    exact Nat.lt_of_lt_of_le (hbump a ha) hb2
  · intro y hy
    have hyA : y.1 ∈ addrs nodes := List.mem_map.2 ⟨y, hy, rfl⟩
    rw [hv y.1 hyA]
    exact hvals y hy

end


section
variable {T : Type}

/-- The four exchanges and writes of the copy assignment between the sentinel `A` of the
list, with the links `a1` and `an`, and the sentinel `Tm` of the temporary, with the links
`t1` and `tk`: what the memory reads after `tmp.repair_pointers()`. -/
theorem copy_assign_surgery {h0 : Heap T} {A Tm a1 an t1 tk : Nat} (N sa st : Nat)
    (hAn : nextOf h0 A = some a1) (hAp : prevOf h0 A = some an)
    (hTn : nextOf h0 Tm = some t1) (hTp : prevOf h0 Tm = some tk)
    (hATm : A ≠ Tm) (ht1 : t1 ≠ A) (ha1 : a1 ≠ Tm)
    (ha1s : (h0 a1).isSome = true) (hans : (h0 an).isSome = true)
    (ht1s : (h0 t1).isSome = true) (htks : (h0 tk).isSome = true) :
    ∃ h1 h2 self1 tmp1, swapPrevious h0 A Tm = some h1 ∧ swapNext h1 A Tm = some h2 ∧
      (⟨h2, N, A, st⟩ : LinkedList T).repair_pointers = some self1 ∧
      (⟨self1.heap, N, Tm, sa⟩ : LinkedList T).repair_pointers = some tmp1 ∧
      self1.end_ = A ∧ self1.size_ = st ∧ self1.node_allocator_ = N ∧
      tmp1.end_ = Tm ∧ tmp1.size_ = sa ∧ tmp1.node_allocator_ = N ∧
      (∀ z, nextOf tmp1.heap z = if z = (if Tm = t1 then A else an) then some Tm
        else if z = tk then some A else if z = Tm then some a1
        else if z = A then some t1 else nextOf h0 z) ∧
      (∀ z, prevOf tmp1.heap z = if z = (if Tm = tk then A else a1) then some Tm
        else if z = t1 then some A else if z = Tm then some an
        else if z = A then some tk else prevOf h0 z) ∧
      (∀ z, valueOf tmp1.heap z = valueOf h0 z) ∧
      (∀ z, (tmp1.heap z).isSome = (h0 z).isSome) := by
  have hAs : (h0 A).isSome = true := isSome_of_link (Or.inl hAn)
  obtain ⟨h1, hs1, r1n, r1p, r1v, r1a⟩ := swapPrevious_reads hAp hTp
  have hAn1 : nextOf h1 A = some a1 := by rw [r1n]; exact hAn
  have hTn1 : nextOf h1 Tm = some t1 := by rw [r1n]; exact hTn
  obtain ⟨h2, hs2, r2n, r2p, r2v, r2a⟩ := swapNext_reads hAn1 hTn1
  -- repair_pointers() of the list
  have hn2 : nextOf (⟨h2, N, A, st⟩ : LinkedList T).heap (⟨h2, N, A, st⟩ : LinkedList T).end_
      = some t1 := by
    show nextOf h2 A = some t1
    rw [r2n, if_neg hATm, if_pos rfl]
  have hp2 : prevOf (⟨h2, N, A, st⟩ : LinkedList T).heap (⟨h2, N, A, st⟩ : LinkedList T).end_
      = some tk := by
    show prevOf h2 A = some tk
    rw [r2p, r1p, if_neg hATm, if_pos rfl]
  obtain ⟨self1, hr1, e1, s1, b1, q1n, q1p, q1v, q1a⟩ :=
    repair_pointers_reads (l := (⟨h2, N, A, st⟩ : LinkedList T)) hn2 hp2 ht1
      (by show (h2 t1).isSome = true; rw [r2a, r1a]; exact ht1s)
      (by show (h2 tk).isSome = true; rw [r2a, r1a]; exact htks)
  -- tmp.repair_pointers()
  have hn3 : nextOf (⟨self1.heap, N, Tm, sa⟩ : LinkedList T).heap
      (⟨self1.heap, N, Tm, sa⟩ : LinkedList T).end_ = some (if Tm = tk then A else a1) := by
    show nextOf self1.heap Tm = _
    rw [q1n]
    by_cases hc : Tm = tk
    · rw [if_pos hc, if_pos hc]
    · rw [if_neg hc, if_neg hc]
      show nextOf h2 Tm = some a1
      rw [r2n, if_pos rfl]
  have hp3 : prevOf (⟨self1.heap, N, Tm, sa⟩ : LinkedList T).heap
      (⟨self1.heap, N, Tm, sa⟩ : LinkedList T).end_ = some (if Tm = t1 then A else an) := by
    show prevOf self1.heap Tm = _
    rw [q1p]
    by_cases hc : Tm = t1
    · rw [if_pos hc, if_pos hc]
    · rw [if_neg hc, if_neg hc]
      show prevOf h2 Tm = some an
      rw [r2p, r1p, if_pos rfl]
  have hnx3 : (if Tm = tk then A else a1) ≠ Tm := by
    by_cases hc : Tm = tk
    · rw [if_pos hc]; exact hATm
    · rw [if_neg hc]; exact ha1
  have hs3 : ∀ z, (self1.heap z).isSome = (h0 z).isSome := by
    intro z
    rw [q1a]
    show (h2 z).isSome = _
    rw [r2a, r1a]
  obtain ⟨tmp1, hr2, e2, s2, b2, q2n, q2p, q2v, q2a⟩ :=
    repair_pointers_reads (l := (⟨self1.heap, N, Tm, sa⟩ : LinkedList T)) hn3 hp3 hnx3
      (by
        show (self1.heap (if Tm = tk then A else a1)).isSome = true
        rw [hs3]
        by_cases hc : Tm = tk
        · rw [if_pos hc]; exact hAs
        · rw [if_neg hc]; exact ha1s)
      (by
        show (self1.heap (if Tm = t1 then A else an)).isSome = true
        rw [hs3]
        by_cases hc : Tm = t1
        · rw [if_pos hc]; exact hAs
        · rw [if_neg hc]; exact hans)
  refine ⟨h1, h2, self1, tmp1, hs1, hs2, hr1, hr2, e1, s1, b1, e2, s2, b2, ?_, ?_, ?_, ?_⟩
  · intro z
    rw [q2n]
    show (if z = (if Tm = t1 then A else an) then some Tm else nextOf self1.heap z) = _
    rw [q1n]
    show (if z = (if Tm = t1 then A else an) then some Tm
      else if z = tk then some A else nextOf h2 z) = _
    rw [r2n, r1n]
  · intro z
    rw [q2p]
    show (if z = (if Tm = tk then A else a1) then some Tm else prevOf self1.heap z) = _
    rw [q1p]
    show (if z = (if Tm = tk then A else a1) then some Tm
      else if z = t1 then some A else prevOf h2 z) = _
    rw [r2p, r1p]
  · intro z
    rw [q2v]
    show valueOf self1.heap z = _
    rw [q1v]
    show valueOf h2 z = _
    rw [r2v, r1v]
  · intro z
    rw [q2a]
    exact hs3 z

/-- The state in which the exchanges of the copy assignment `a = b` start: the copy
constructor has built `tmp` from `b` out of fresh nodes, and `a` and `b` are as they
were. -/
theorem copy_assign_setup {a b : LinkedList T} {na nb : List (Nat × T)}
    (h : TwoRepr a b na nb) (fuel : Nat) (hf : nb.length ≤ fuel) :
    ∃ tmp new ev, b.copy_ctor (fun _ x => some x) fuel = some (.done tmp, ev) ∧
      ListRepr tmp new ∧ new.map Prod.snd = nb.map Prod.snd ∧
      ListRepr (a.inMemoryOf tmp) na ∧ ListRepr (b.inMemoryOf tmp) nb ∧
      (∀ x ∈ tmp.end_ :: addrs new, b.node_allocator_ ≤ x) ∧
      b.node_allocator_ ≤ tmp.node_allocator_ := by
  obtain ⟨ha, hb, hh, hbump, hd⟩ := h
  obtain ⟨tmp, new, ev, hcc, h2, hpay, hfresh, hbelow⟩ := copy_ctor_below hb fuel hf
  refine ⟨tmp, new, ev, hcc, h2.1, hpay, ?_, h2.2.1, hfresh, ?_⟩
  · have hle : b.node_allocator_ ≤ tmp.node_allocator_ := by
      have := h2.1.2.2.2.1
      have := hfresh tmp.end_ (List.mem_cons_self _ _)
      omega
    refine ListRepr_of_readers ha rfl rfl (by rw [hbump]; exact hle) ?_
    intro x hx
    have hlt : x < b.node_allocator_ := by
      rw [← hbump]
      rw [List.mem_cons] at hx
      rcases hx with hx | hx
      · rw [hx]; exact ha.2.2.2.1
      · exact ha.2.2.2.2.1 x hx
    rw [hh]
    exact hbelow x hlt
  · have := h2.1.2.2.2.1
    have := hfresh tmp.end_ (List.mem_cons_self _ _)
    omega

end


section
variable {T : Type}

/-- The member `erase` at a position that holds no value, a sentinel, is undefined: it
destroys and deallocates a `Node` that is none. -/
theorem erase_of_no_value (l : LinkedList T) (p : Nat) (hv : valueOf l.heap p = none) :
    l.erase p = none := by
  unfold LinkedList.erase
  split
  · split
    · rfl
    · rename_i h1 hs1
      split
      · split
        · rfl
        · rename_i h2 hs2
          have : valueOf h2 p = none := by
            rw [(setPrevious_reads hs2).2.2.1, (setNext_reads hs1).2.2.1, hv]
          simp only [this]
      · rfl
  · rfl

/-- The member `clear` on a list whose `size_` is not 0 and whose `end_.previous` holds
no value is undefined. -/
theorem clear_of_sentinel_link (l : LinkedList T) (p : Nat) (hs : 0 < l.size_)
    (hp : prevOf l.heap l.end_ = some p) (hv : valueOf l.heap p = none) (fuel : Nat) :
    l.clear fuel = none := by
  unfold LinkedList.clear
  cases fuel with
  | zero => simp [LinkedList.clearE, hs]
  | succ f =>
    have hpop : l.pop_backE = none := by
      unfold LinkedList.pop_backE
      have hp1 : prevOf l.heap l.end = some p := hp
      simp only [hp1, erase_of_no_value l p hv]
    simp [LinkedList.clearE, hs, hpop]

/-- The member `clear` on a list whose `size_` is 0 does nothing. -/
theorem clear_of_size_zero (l : LinkedList T) (hs : l.size_ = 0) (fuel : Nat) :
    l.clear fuel = some l := by
  unfold LinkedList.clear
  cases fuel <;> simp [LinkedList.clearE, hs]

/-- A list whose `begin()` is an address other than `end()` at which no node lives: a
traversal from `begin()` reads released memory, and the ring invariant does not hold. -/
theorem dangling_begin (l : LinkedList T) (t : Nat) (hb : nextOf l.heap l.end_ = some t)
    (ht : t ≠ l.end_) (hd : l.heap t = none) :
    (∀ fuel, l.toList fuel = none) ∧ (∀ fuel, l.nodesOf fuel = none) ∧ ¬ RingInv l := by
  have hte : ¬ (t = l.end) := ht
  have hvn : valueOf l.heap t = none := by simp [valueOf, hd]
  have hnn : nextOf l.heap t = none := by simp [nextOf, hd]
  refine ⟨?_, ?_, ?_⟩
  · intro fuel
    have hbg : l.begin = some t := hb
    unfold LinkedList.toList
    simp only [hbg]
    cases fuel with
    | zero => simp [LinkedList.walk, hte]
    | succ f => simp [LinkedList.walk, hte, hvn]
  · intro fuel
    have hbg : l.begin = some t := hb
    unfold LinkedList.nodesOf
    simp only [hbg]
    cases fuel with
    | zero => simp [LinkedList.walkNodes, hte]
    | succ f => simp [LinkedList.walkNodes, hte, hnn]
  · rintro ⟨ring, _, hch, _, _, _, _⟩
    cases ring with
    | nil =>
      have := hch.1
      rw [hb] at this
      exact ht (Option.some.inj this)
    | cons r rs =>
      have h1 := hch.1
      rw [hb] at h1
      have hr : t = r := Option.some.inj h1
      have h2 := hch.2.1
      rw [← hr, hnn] at h2
      exact absurd h2 (by simp)

end


section
variable {T : Type}

theorem ListRepr_alloc {l : LinkedList T} {nodes : List (Nat × T)} (h : ListRepr l nodes) :
    ∀ x ∈ l.end_ :: addrs nodes, (l.heap x).isSome = true := by
  intro x hx
  have := Chain_isSome h.1 x hx
  obtain ⟨y, hy⟩ := Option.isSome_iff_exists.1 this
  exact isSome_of_link (Or.inl hy)

theorem ListRepr_links {l : LinkedList T} {nodes : List (Nat × T)} (h : ListRepr l nodes) :
    nextOf l.heap l.end_ = some ((addrs nodes).headD l.end_) ∧
    prevOf l.heap l.end_ = some ((addrs nodes).getLastD l.end_) := by
  refine ⟨h.1.1, ?_⟩
  have := h.2.1.1
  rwa [headD_reverse] at this

/-- The copy assignment `a = b` to an EMPTY list `a`: `tmp.repair_pointers()` writes the
address of the sentinel of `tmp` into both links of the sentinel of `a`, which `tmp` got
in the exchange; at the `return` the object `tmp` is gone. Afterwards `a` has the size of
`b`, and `a.begin()` is the address where the sentinel of `tmp` was. The list `b` is as
before. -/
theorem copy_assign_to_empty {a b : LinkedList T} {nb : List (Nat × T)}
    (h : TwoRepr a b [] nb) (fuel : Nat) (hf : nb.length ≤ fuel) :
    ∃ a1 b1 t, a.copy_assign b (fun _ x => some x) fuel = some (.done (a1, b1)) ∧
      a1.end_ = a.end_ ∧ a1.size = nb.length ∧ nextOf a1.heap a1.end_ = some t ∧
      prevOf a1.heap a1.end_ = some t ∧ t ≠ a1.end_ ∧ a1.heap t = none ∧
      ListRepr b1 nb ∧ b1.end_ = b.end_ := by
  obtain ⟨tmp, new, ev, hcc, htmp, hpay, ha0, hb0, hfresh, hle⟩ := copy_assign_setup h fuel hf
  obtain ⟨ha, hb, hh, hbump, hd⟩ := h
  have hAlt : a.end_ < b.node_allocator_ := by rw [← hbump]; exact ha.2.2.2.1
  have hATm : a.end_ ≠ tmp.end_ := by
    have := hfresh tmp.end_ (List.mem_cons_self _ _)
    omega
  obtain ⟨hAn, hAp⟩ := ListRepr_links ha0
  obtain ⟨hTn, hTp⟩ := ListRepr_links htmp
  have hAn0 : nextOf tmp.heap a.end_ = some a.end_ := hAn
  have hAp0 : prevOf tmp.heap a.end_ = some a.end_ := hAp
  have ht1m := headD_mem_cons (addrs new) tmp.end_
  have htkm := getLastD_mem_cons (addrs new) tmp.end_
  have ht1 : (addrs new).headD tmp.end_ ≠ a.end_ := by
    have := hfresh _ ht1m
    omega
  have htk : (addrs new).getLastD tmp.end_ ≠ a.end_ := by
    have := hfresh _ htkm
    omega
  have hAs : (tmp.heap a.end_).isSome = true := isSome_of_link (Or.inl hAn0)
  obtain ⟨h1, h2, self1, tmp1, hs1, hs2, hr1, hr2, e1, s1, b1, e2, s2, b2, rn, rp, rv, ra⟩ :=
    copy_assign_surgery tmp.node_allocator_ a.size_ tmp.size_ hAn0 hAp0 hTn hTp hATm ht1 hATm
      hAs hAs (ListRepr_alloc htmp _ ht1m) (ListRepr_alloc htmp _ htkm)
  have hsz0 : tmp1.size_ = 0 := by
    rw [s2]
    exact ha.2.2.2.2.2.2.2
  have hcl := clear_of_size_zero tmp1 hsz0 fuel
  refine ⟨{ self1 with heap := tmp1.heap.store tmp1.end_ none,
                       node_allocator_ := tmp1.node_allocator_ },
    { b with heap := tmp1.heap.store tmp1.end_ none, node_allocator_ := tmp1.node_allocator_ },
    tmp.end_, ?_, e1, ?_, ?_, ?_, ?_, ?_, ?_, rfl⟩
  · simp only [LinkedList.copy_assign, hcc, hs1, hs2, hr1, hr2, hcl]
  · show self1.size_ = nb.length
    rw [s1, htmp.2.2.2.2.2.2.2, ← List.length_map new Prod.snd, hpay, List.length_map]
  · show nextOf (tmp1.heap.store tmp1.end_ none) self1.end_ = some tmp.end_
    rw [e1, e2]
    have : nextOf (tmp1.heap.store tmp.end_ none) a.end_ = nextOf tmp1.heap a.end_ := by
      simp [nextOf, Heap.store, hATm]
    rw [this, rn]
    simp
  · show prevOf (tmp1.heap.store tmp1.end_ none) self1.end_ = some tmp.end_
    rw [e1, e2]
    have : prevOf (tmp1.heap.store tmp.end_ none) a.end_ = prevOf tmp1.heap a.end_ := by
      simp [prevOf, Heap.store, hATm]
    rw [this, rp]
    simp
  · show tmp.end_ ≠ self1.end_
    rw [e1]
    exact Ne.symm hATm
  · show (tmp1.heap.store tmp1.end_ none) tmp.end_ = none
    rw [e2]
    simp [Heap.store]
  · refine ListRepr_of_readers hb0 rfl rfl (by show tmp.node_allocator_ ≤ tmp1.node_allocator_; omega) ?_
    intro x hx
    have hxb : x ∈ b.end_ :: addrs nb := hx
    have hxlt : x < b.node_allocator_ := by
      rw [List.mem_cons] at hxb
      rcases hxb with hxb | hxb
      · rw [hxb]; exact hb.2.2.2.1
      · exact hb.2.2.2.2.1 x hxb
    have hxA : x ≠ a.end_ := fun hc => hd a.end_ (List.mem_cons_self _ _) (hc ▸ hxb)
    have hxT : x ≠ tmp.end_ := by
      have := hfresh tmp.end_ (List.mem_cons_self _ _)
      omega
    have hx1 : x ≠ (addrs new).headD tmp.end_ := by
      have := hfresh _ ht1m
      omega
    have hxk : x ≠ (addrs new).getLastD tmp.end_ := by
      have := hfresh _ htkm
      omega
    have hst : (tmp1.heap.store tmp1.end_ none) x = tmp1.heap x := by
      rw [e2]
      simp [Heap.store, hxT]
    show nextOf (tmp1.heap.store tmp1.end_ none) x = nextOf tmp.heap x ∧
      prevOf (tmp1.heap.store tmp1.end_ none) x = prevOf tmp.heap x ∧
      valueOf (tmp1.heap.store tmp1.end_ none) x = valueOf tmp.heap x
    refine ⟨?_, ?_, ?_⟩
    · have : nextOf (tmp1.heap.store tmp1.end_ none) x = nextOf tmp1.heap x := by
        simp [nextOf, hst]
      rw [this, rn]
      simp only [ite_self, hxA, hxT, hxk, if_false]
    · have : prevOf (tmp1.heap.store tmp1.end_ none) x = prevOf tmp1.heap x := by
        simp [prevOf, hst]
      rw [this, rp]
      simp only [ite_self, hxA, hxT, hx1, if_false]
    · have : valueOf (tmp1.heap.store tmp1.end_ none) x = valueOf tmp1.heap x := by
        simp [valueOf, hst]
      rw [this, rv]

end


section
variable {T : Type}

/-- The copy assignment `a = b` of an EMPTY list `b` to a list `a` that is not empty: the
exchange gives `tmp` the size of `a` and the two calls of `repair_pointers` link the
sentinels of `a` and `tmp` to each other; the destructor of `tmp` then calls `pop_back`,
which erases, destroys and deallocates the node at `tmp.end_.previous`, the sentinel of
`a`. This is undefined. -/
theorem copy_assign_from_empty {a b : LinkedList T} {na : List (Nat × T)}
    (h : TwoRepr a b na []) (hne : na ≠ []) (fuel : Nat) :
    a.copy_assign b (fun _ x => some x) fuel = none := by
  obtain ⟨tmp, new, ev, hcc, htmp, hpay, ha0, hb0, hfresh, hle⟩ :=
    copy_assign_setup h fuel (Nat.zero_le _)
  obtain ⟨ha, hb, hh, hbump, hd⟩ := h
  have hnew : new = [] := by
    have := congrArg List.length hpay
    simp only [List.length_map, List.length_nil] at this
    exact List.length_eq_zero.1 this
  subst hnew
  have hATm : a.end_ ≠ tmp.end_ := by
    have h1 : a.end_ < b.node_allocator_ := by rw [← hbump]; exact ha.2.2.2.1
    have := hfresh tmp.end_ (List.mem_cons_self _ _)
    omega
  obtain ⟨hAn, hAp⟩ := ListRepr_links ha0
  obtain ⟨hTn, hTp⟩ := ListRepr_links htmp
  have hAn0 : nextOf tmp.heap a.end_ = some ((addrs na).headD a.end_) := hAn
  have hAp0 : prevOf tmp.heap a.end_ = some ((addrs na).getLastD a.end_) := hAp
  have hTn0 : nextOf tmp.heap tmp.end_ = some tmp.end_ := hTn
  have hTp0 : prevOf tmp.heap tmp.end_ = some tmp.end_ := hTp
  have ha1m := headD_mem_cons (addrs na) a.end_
  have hanm := getLastD_mem_cons (addrs na) a.end_
  have hlt : ∀ x ∈ a.end_ :: addrs na, x < b.node_allocator_ := by
    intro x hx
    rw [← hbump]
    rw [List.mem_cons] at hx
    rcases hx with hx | hx
    · rw [hx]; exact ha.2.2.2.1
    · exact ha.2.2.2.2.1 x hx
  have ha1 : (addrs na).headD a.end_ ≠ tmp.end_ := by
    have := hlt _ ha1m
    have := hfresh tmp.end_ (List.mem_cons_self _ _)
    omega
  have hTs : (tmp.heap tmp.end_).isSome = true := isSome_of_link (Or.inl hTn0)
  obtain ⟨h1, h2, self1, tmp1, hs1, hs2, hr1, hr2, e1, s1, b1, e2, s2, b2, rn, rp, rv, ra⟩ :=
    copy_assign_surgery tmp.node_allocator_ a.size_ tmp.size_ hAn0 hAp0 hTn0 hTp0 hATm
      (Ne.symm hATm) ha1 (ListRepr_alloc ha0 _ ha1m) (ListRepr_alloc ha0 _ hanm) hTs hTs
  have hsz : 0 < tmp1.size_ := by
    rw [s2, ha.2.2.2.2.2.2.2]
    exact List.length_pos.2 hne
  have hp : prevOf tmp1.heap tmp1.end_ = some a.end_ := by
    rw [e2, rp]
    simp only [if_true, Ne.symm hATm, if_false]
  have hv : valueOf tmp1.heap a.end_ = none := by
    rw [rv]
    exact ha0.2.2.2.2.2.1
  have hcl := clear_of_sentinel_link tmp1 a.end_ hsz hp hv fuel
  simp only [LinkedList.copy_assign, hcc, hs1, hs2, hr1, hr2, hcl]

end


section
variable {T : Type}

theorem headD_mem_of_ne_nil (X : List Nat) (e : Nat) (h : X ≠ []) : X.headD e ∈ X := by
  cases X with
  | nil => exact absurd rfl h
  | cons x r => simp

theorem getLastD_mem_of_ne_nil (X : List Nat) (e : Nat) (h : X ≠ []) : X.getLastD e ∈ X := by
  cases X with
  | nil => exact absurd rfl h
  | cons x r =>
    rw [List.getLastD_cons]
    exact getLastD_mem_cons r x

theorem addrs_ne_nil {nodes : List (Nat × T)} (h : nodes ≠ []) : addrs nodes ≠ [] := by
  cases nodes with
  | nil => exact absurd rfl h
  | cons x r => simp [addrs]

/-- The copy assignment `a = b` when neither list is empty: it returns, `a` is the closed
ring through its own sentinel of fresh nodes holding the elements of `b` in order, and
`b` is as before. -/
theorem copy_assign_nonempty {a b : LinkedList T} {na nb : List (Nat × T)}
    (h : TwoRepr a b na nb) (hna : na ≠ []) (hnb : nb ≠ []) (fuel : Nat)
    (hfa : na.length ≤ fuel) (hfb : nb.length ≤ fuel) :
    ∃ a1 b1 new, a.copy_assign b (fun _ x => some x) fuel = some (.done (a1, b1)) ∧
      TwoRepr a1 b1 new nb ∧ new.map Prod.snd = nb.map Prod.snd ∧
      a1.end_ = a.end_ ∧ b1.end_ = b.end_ ∧ (∀ x ∈ addrs new, b.node_allocator_ ≤ x) := by
  obtain ⟨tmp, new, ev, hcc, htmp, hpay, ha0, hb0, hfresh, hle⟩ := copy_assign_setup h fuel hfb
  obtain ⟨ha, hb, hh, hbump, hd⟩ := h
  have hnew : new ≠ [] := by
    intro hc
    have := congrArg List.length hpay
    rw [hc] at this
    simp only [List.length_map, List.length_nil] at this
    exact hnb (List.length_eq_zero.1 this.symm)
  have hlta : ∀ x ∈ a.end_ :: addrs na, x < b.node_allocator_ := by
    intro x hx
    rw [← hbump]
    rw [List.mem_cons] at hx
    rcases hx with hx | hx
    · rw [hx]; exact ha.2.2.2.1
    · exact ha.2.2.2.2.1 x hx
  have hltb : ∀ x ∈ b.end_ :: addrs nb, x < b.node_allocator_ := by
    intro x hx
    rw [List.mem_cons] at hx
    rcases hx with hx | hx
    · rw [hx]; exact hb.2.2.2.1
    · exact hb.2.2.2.2.1 x hx
  have hTge := hfresh tmp.end_ (List.mem_cons_self _ _)
  have hAlt := hlta a.end_ (List.mem_cons_self _ _)
  have hATm : a.end_ ≠ tmp.end_ := by omega
  obtain ⟨hAn, hAp⟩ := ListRepr_links ha0
  obtain ⟨hTn, hTp⟩ := ListRepr_links htmp
  have hAn0 : nextOf tmp.heap a.end_ = some ((addrs na).headD a.end_) := hAn
  have hAp0 : prevOf tmp.heap a.end_ = some ((addrs na).getLastD a.end_) := hAp
  have ha1m := headD_mem_of_ne_nil (addrs na) a.end_ (addrs_ne_nil hna)
  have hanm := getLastD_mem_of_ne_nil (addrs na) a.end_ (addrs_ne_nil hna)
  have ht1m := headD_mem_of_ne_nil (addrs new) tmp.end_ (addrs_ne_nil hnew)
  have htkm := getLastD_mem_of_ne_nil (addrs new) tmp.end_ (addrs_ne_nil hnew)
  have hAna : a.end_ ∉ addrs na := (List.nodup_cons.1 ha.2.2.1).1
  have hTnew : tmp.end_ ∉ addrs new := (List.nodup_cons.1 htmp.2.2.1).1
  have ha1lt := hlta _ (List.mem_cons_of_mem _ ha1m)
  have hanlt := hlta _ (List.mem_cons_of_mem _ hanm)
  have ht1ge := hfresh _ (List.mem_cons_of_mem _ ht1m)
  have htkge := hfresh _ (List.mem_cons_of_mem _ htkm)
  have hAan : ¬ a.end_ = (addrs na).getLastD a.end_ := fun hc => hAna (hc ▸ hanm)
  have hAa1 : ¬ a.end_ = (addrs na).headD a.end_ := fun hc => hAna (hc ▸ ha1m)
  have hTt1 : ¬ tmp.end_ = (addrs new).headD tmp.end_ := fun hc => hTnew (hc ▸ ht1m)
  have hTtk : ¬ tmp.end_ = (addrs new).getLastD tmp.end_ := fun hc => hTnew (hc ▸ htkm)
  obtain ⟨h1, h2, self1, tmp1, hs1, hs2, hr1, hr2, e1, s1, b1, e2, s2, b2, rn, rp, rv, ra⟩ :=
    copy_assign_surgery tmp.node_allocator_ a.size_ tmp.size_ hAn0 hAp0 hTn hTp hATm
      (by omega) (by omega) (ListRepr_alloc ha0 _ (List.mem_cons_of_mem _ ha1m))
      (ListRepr_alloc ha0 _ (List.mem_cons_of_mem _ hanm))
      (ListRepr_alloc htmp _ (List.mem_cons_of_mem _ ht1m))
      (ListRepr_alloc htmp _ (List.mem_cons_of_mem _ htkm))
  simp only [if_neg hTt1, if_neg hTtk] at rn rp
  -- the temporary now holds the former nodes of `a`
  have htmp1 : ListRepr tmp1 na := by
    refine ListRepr_reseat ha0 hna ?_ ?_ ?_ ?_ ?_ ?_ ?_ ?_ ?_ ?_ ?_ ?_
    · rw [e2]
      intro hc
      have := hlta _ (List.mem_cons_of_mem _ hc)
      omega
    · show nextOf tmp1.heap tmp1.end_ = some ((addrs na).headD a.end_)
      rw [e2, rn, if_neg (by omega), if_neg hTtk, if_pos rfl]
    · show prevOf tmp1.heap tmp1.end_ = some ((addrs na).getLastD a.end_)
      rw [e2, rp, if_neg (by omega), if_neg hTt1, if_pos rfl]
    · show nextOf tmp1.heap ((addrs na).getLastD a.end_) = some tmp1.end_
      rw [e2, rn, if_pos rfl]
    · show prevOf tmp1.heap ((addrs na).headD a.end_) = some tmp1.end_
      rw [e2, rp, if_pos rfl]
    · intro z hz hzl
      have hzl1 : ¬ z = (addrs na).getLastD a.end_ := hzl
      have hzlt := hlta z (List.mem_cons_of_mem _ hz)
      have hzA : ¬ z = a.end_ := fun hc => hAna (hc ▸ hz)
      show nextOf tmp1.heap z = nextOf tmp.heap z
      rw [rn, if_neg hzl1, if_neg (by omega), if_neg (by omega), if_neg hzA]
    · intro z hz hzl
      have hzl1 : ¬ z = (addrs na).headD a.end_ := hzl
      have hzlt := hlta z (List.mem_cons_of_mem _ hz)
      have hzA : ¬ z = a.end_ := fun hc => hAna (hc ▸ hz)
      show prevOf tmp1.heap z = prevOf tmp.heap z
      rw [rp, if_neg hzl1, if_neg (by omega), if_neg (by omega), if_neg hzA]
    · intro z _
      exact rv z
    · rw [e2, rv]
      exact htmp.2.2.2.2.2.1
    · rw [e2, b2]
      exact htmp.2.2.2.1
    · show tmp.node_allocator_ ≤ tmp1.node_allocator_
      omega
    · rw [s2]
      exact ha.2.2.2.2.2.2.2
  -- and `a` the nodes that the copy constructor made
  have hself2 : ListRepr (⟨tmp1.heap, tmp.node_allocator_, a.end_, tmp.size_⟩ : LinkedList T)
      new := by
    refine ListRepr_reseat htmp hnew ?_ ?_ ?_ ?_ ?_ ?_ ?_ ?_ ?_ ?_ ?_ ?_
    · show a.end_ ∉ addrs new
      intro hc
      have := hfresh _ (List.mem_cons_of_mem _ hc)
      omega
    · show nextOf tmp1.heap a.end_ = some ((addrs new).headD tmp.end_)
      rw [rn, if_neg hAan, if_neg (by omega), if_neg hATm, if_pos rfl]
    · show prevOf tmp1.heap a.end_ = some ((addrs new).getLastD tmp.end_)
      rw [rp, if_neg hAa1, if_neg (by omega), if_neg hATm, if_pos rfl]
    · show nextOf tmp1.heap ((addrs new).getLastD tmp.end_) = some a.end_
      rw [rn, if_neg (by omega), if_pos rfl]
    · show prevOf tmp1.heap ((addrs new).headD tmp.end_) = some a.end_
      rw [rp, if_neg (by omega), if_pos rfl]
    · intro z hz hzl
      have hzl1 : ¬ z = (addrs new).getLastD tmp.end_ := hzl
      have hzge := hfresh z (List.mem_cons_of_mem _ hz)
      have hzT : ¬ z = tmp.end_ := fun hc => hTnew (hc ▸ hz)
      show nextOf tmp1.heap z = nextOf tmp.heap z
      rw [rn, if_neg (by omega), if_neg hzl1, if_neg hzT, if_neg (by omega)]
    · intro z hz hzl
      have hzl1 : ¬ z = (addrs new).headD tmp.end_ := hzl
      have hzge := hfresh z (List.mem_cons_of_mem _ hz)
      have hzT : ¬ z = tmp.end_ := fun hc => hTnew (hc ▸ hz)
      show prevOf tmp1.heap z = prevOf tmp.heap z
      rw [rp, if_neg (by omega), if_neg hzl1, if_neg hzT, if_neg (by omega)]
    · intro z _
      exact rv z
    · show valueOf tmp1.heap a.end_ = none
      rw [rv]
      exact ha0.2.2.2.2.2.1
    · show a.end_ < tmp.node_allocator_
      omega
    · exact Nat.le_refl _
    · exact htmp.2.2.2.2.2.2.2
  have hbmid : ListRepr (⟨tmp1.heap, tmp.node_allocator_, b.end_, b.size_⟩ : LinkedList T)
      nb := by
    refine ListRepr_of_readers hb0 rfl rfl (Nat.le_refl _) ?_
    intro x hx
    have hxb : x ∈ b.end_ :: addrs nb := hx
    have hxlt := hltb x hxb
    have hxna : ∀ y ∈ a.end_ :: addrs na, ¬ x = y := fun y hy hc => hd y hy (hc ▸ hxb)
    show nextOf tmp1.heap x = nextOf tmp.heap x ∧ prevOf tmp1.heap x = prevOf tmp.heap x ∧
      valueOf tmp1.heap x = valueOf tmp.heap x
    refine ⟨?_, ?_, rv x⟩
    · rw [rn, if_neg (hxna _ (List.mem_cons_of_mem _ hanm)), if_neg (by omega),
        if_neg (by omega), if_neg (hxna _ (List.mem_cons_self _ _))]
    · rw [rp, if_neg (hxna _ (List.mem_cons_of_mem _ ha1m)), if_neg (by omega),
        if_neg (by omega), if_neg (hxna _ (List.mem_cons_self _ _))]
  have hT1a : ∀ x ∈ tmp1.end_ :: addrs na, x ∉ a.end_ :: addrs new := by
    intro x hx hc
    rw [e2, List.mem_cons] at hx
    rw [List.mem_cons] at hc
    rcases hx with hx | hx
    · rcases hc with hc | hc
      · exact hATm (hc.symm.trans hx)
      · exact hTnew (hx ▸ hc)
    · rcases hc with hc | hc
      · exact hAna (hc ▸ hx)
      · have := hlta x (List.mem_cons_of_mem _ hx)
        have := hfresh x (List.mem_cons_of_mem _ hc)
        omega
  have hT1b : ∀ x ∈ tmp1.end_ :: addrs na, x ∉ b.end_ :: addrs nb := by
    intro x hx hc
    rw [e2, List.mem_cons] at hx
    rcases hx with hx | hx
    · have := hltb x hc
      omega
    · exact hd x (List.mem_cons_of_mem _ hx) hc
  have htwoA : TwoRepr tmp1 (⟨tmp1.heap, tmp.node_allocator_, a.end_, tmp.size_⟩ : LinkedList T)
      na new := ⟨htmp1, hself2, rfl, b2, hT1a⟩
  have htwoB : TwoRepr tmp1 (⟨tmp1.heap, tmp.node_allocator_, b.end_, b.size_⟩ : LinkedList T)
      na nb := ⟨htmp1, hbmid, rfl, b2, hT1b⟩
  -- the destructor of the temporary
  obtain ⟨tmp2, hcl, hrep2, hb3, hfr⟩ := clear_spec htmp1 fuel hfa
  have hA2 := (two_step htwoA hrep2 hfr).2.1
  have hB2 := (two_step htwoB hrep2 hfr).2.1
  have he3 : tmp2.end_ = tmp.end_ := by rw [hfr.1, e2]
  have hstore : ∀ x, x ≠ tmp.end_ → (tmp2.heap.store tmp2.end_ none) x = tmp2.heap x := by
    intro x hx
    rw [he3]
    simp [Heap.store, hx]
  have hAfin : ListRepr (⟨tmp2.heap.store tmp2.end_ none, tmp2.node_allocator_, self1.end_,
      self1.size_⟩ : LinkedList T) new := by
    refine ListRepr_of_readers hA2 e1 s1 (Nat.le_refl _) ?_
    intro x hx
    have hxa : x ∈ a.end_ :: addrs new := hx
    have hxT : x ≠ tmp.end_ := by
      intro hc
      rw [List.mem_cons] at hxa
      rcases hxa with hxa | hxa
      · exact hATm (hxa.symm.trans hc)
      · exact hTnew (hc ▸ hxa)
    have hst := hstore x hxT
    show nextOf (tmp2.heap.store tmp2.end_ none) x = nextOf tmp2.heap x ∧
      prevOf (tmp2.heap.store tmp2.end_ none) x = prevOf tmp2.heap x ∧
      valueOf (tmp2.heap.store tmp2.end_ none) x = valueOf tmp2.heap x
    simp [nextOf, prevOf, valueOf, hst]
  have hBfin : ListRepr (⟨tmp2.heap.store tmp2.end_ none, tmp2.node_allocator_, b.end_,
      b.size_⟩ : LinkedList T) nb := by
    refine ListRepr_of_readers hB2 rfl rfl (Nat.le_refl _) ?_
    intro x hx
    have hxb : x ∈ b.end_ :: addrs nb := hx
    have hxT : x ≠ tmp.end_ := by
      have := hltb x hxb
      omega
    have hst := hstore x hxT
    show nextOf (tmp2.heap.store tmp2.end_ none) x = nextOf tmp2.heap x ∧
      prevOf (tmp2.heap.store tmp2.end_ none) x = prevOf tmp2.heap x ∧
      valueOf (tmp2.heap.store tmp2.end_ none) x = valueOf tmp2.heap x
    simp [nextOf, prevOf, valueOf, hst]
  refine ⟨_, _, new, ?_, ⟨hAfin, hBfin, rfl, rfl, ?_⟩, hpay, e1, rfl, ?_⟩
  · simp only [LinkedList.copy_assign, hcc, hs1, hs2, hr1, hr2, hcl]
  · intro x hx hc
    have hx1 : x ∈ a.end_ :: addrs new := by
      have : x ∈ self1.end_ :: addrs new := hx
      rwa [e1] at this
    have hc1 : x ∈ b.end_ :: addrs nb := hc
    rw [List.mem_cons] at hx1
    rcases hx1 with hx1 | hx1
    · exact hd a.end_ (List.mem_cons_self _ _) (hx1 ▸ hc1)
    · have := hfresh x (List.mem_cons_of_mem _ hx1)
      have := hltb x hc1
      omega
  · intro x hx
    exact hfresh x (List.mem_cons_of_mem _ hx)

end


/-- C37: the copy assignment `a = b` of two well formed lists in one memory, every copy of
an element succeeding. When neither list is empty it returns, `a` has the size of `b`, a
closed ring through its own sentinel, and iterates as the elements of `b`, and `b` is
unchanged. When `a` is EMPTY it returns with `a.size() == b.size()`, but both links of
the sentinel of `a` hold the address of the sentinel of the temporary, which is gone at
the return: `a.begin()` is that address, a traversal of `a` reads released memory and
`a` has no ring; `b` is unchanged. When `b` is EMPTY and `a` is not, the destructor of the
temporary erases the sentinel of `a` as if it were a value node, which is undefined. For
`a` holding 1, 2 and `b` holding 7, 8, 9 the list `a` ends as 7, 8, 9; for an empty `a`
its `begin()` is the released address 5; for an empty `b` the assignment is undefined;
for both empty `a.begin()` is the released address 2, not `a.end()`. -/
theorem copy_assignment_with_an_empty_list_breaks_the_ring :
    (∀ (T : Type) (a b : LinkedList T) (na nb : List (Nat × T)) (fuel : Nat),
      TwoRepr a b na nb → na ≠ [] → nb ≠ [] → na.length ≤ fuel → nb.length ≤ fuel →
      ∃ a1 b1, a.copy_assign b (fun _ x => some x) fuel = some (.done (a1, b1)) ∧
        a1.size = b.size ∧ RingInv a1 ∧ a1.end = a.end ∧
        a1.toList fuel = some (nb.map Prod.snd) ∧ b.toList fuel = some (nb.map Prod.snd) ∧
        b1.toList fuel = some (nb.map Prod.snd) ∧ RingInv b1 ∧ b1.size = b.size ∧
        b1.nodesOf fuel = b.nodesOf fuel) ∧
    (∀ (T : Type) (a b : LinkedList T) (nb : List (Nat × T)) (fuel : Nat),
      TwoRepr a b [] nb → nb.length ≤ fuel →
      ∃ a1 b1 t, a.copy_assign b (fun _ x => some x) fuel = some (.done (a1, b1)) ∧
        a1.size = b.size ∧ a1.end = a.end ∧ a1.begin = some t ∧ t ≠ a1.end ∧
        a1.heap t = none ∧ (∀ f, a1.toList f = none) ∧ ¬ RingInv a1 ∧
        b1.toList fuel = some (nb.map Prod.snd) ∧ RingInv b1) ∧
    (∀ (T : Type) (a b : LinkedList T) (na : List (Nat × T)) (fuel : Nat),
      TwoRepr a b na [] → na ≠ [] → a.copy_assign b (fun _ x => some x) fuel = none) ∧
    assignOutcome [1, 2] [7, 8, 9] 5
      = some (3, some 8, 0, true, some [7, 8, 9], some [7, 8, 9]) ∧
    assignOutcome [] [7, 8, 9] 5 = some (3, some 5, 0, false, none, some [7, 8, 9]) ∧
    (listsOf [1, 2] ([] : List Nat)).isSome = true ∧ assignOutcome [1, 2] [] 5 = none ∧
    assignOutcome [] [] 5 = some (0, some 2, 0, false, none, some []) := by
  refine ⟨?_, ?_, ?_, rfl, rfl, rfl, rfl, rfl⟩
  · intro T a b na nb fuel h hna hnb hfa hfb
    obtain ⟨a1, b1, new, hca, h2, hpay, hea, _, _⟩ := copy_assign_nonempty h hna hnb fuel hfa hfb
    have hlen : new.length = nb.length := by
      have := congrArg List.length hpay
      simpa using this
    have hsa : a1.size = new.length := ListRepr_size h2.1
    have hsb1 : b1.size = nb.length := ListRepr_size h2.2.1
    have hsb : b.size = nb.length := ListRepr_size h.2.1
    refine ⟨a1, b1, hca, by omega, RingInv_of_repr h2.1, hea, ?_, ?_, ?_,
      RingInv_of_repr h2.2.1, by omega, ?_⟩
    · rw [toList_repr h2.1 fuel (by omega), hpay]
    · exact toList_repr h.2.1 fuel (by omega)
    · exact toList_repr h2.2.1 fuel (by omega)
    · rw [nodesOf_repr h2.2.1 fuel (by omega), nodesOf_repr h.2.1 fuel (by omega)]
  · intro T a b nb fuel h hf
    obtain ⟨a1, b1, t, hca, hea, hsz, hn, _, hte, hd, hb1, _⟩ := copy_assign_to_empty h fuel hf
    have hsb : b.size = nb.length := ListRepr_size h.2.1
    have hsb1 : b1.size = nb.length := ListRepr_size hb1
    obtain ⟨d1, _, d3⟩ := dangling_begin a1 t hn hte hd
    exact ⟨a1, b1, t, hca, by omega, hea, hn, hte, hd, d1, d3,
      toList_repr hb1 fuel (by omega), RingInv_of_repr hb1⟩
  · intro T a b na fuel h hna
    exact copy_assign_from_empty h hna fuel

/-- Witness for C37: the copy assignment on the lists holding 1, 2 and 7. -/
theorem copy_assignment_with_an_empty_list_breaks_the_ring_witness :
    ∃ a b na nb, twoLists = some (a, b) ∧ TwoRepr a b na nb ∧
      na.map Prod.snd = [1, 2] ∧ nb.map Prod.snd = [7] ∧
      ∃ a1 b1, a.copy_assign b (fun _ x => some x) 3 = some (.done (a1, b1)) ∧
        a1.size = b.size ∧ RingInv a1 ∧ a1.toList 3 = some [7] :=
  match twoLists_repr with
  | ⟨a, b, na, nb, h1, h2, h3, h4⟩ =>
    have e1 := congrArg List.length h3
    have e2 := congrArg List.length h4
    match copy_assignment_with_an_empty_list_breaks_the_ring.1 Nat a b na nb 3 h2
      (fun hc => by rw [hc] at e1; simp at e1) (fun hc => by rw [hc] at e2; simp at e2)
      (by simp only [List.length_map, List.length_cons, List.length_nil] at e1; omega)
      (by simp only [List.length_map, List.length_cons, List.length_nil] at e2; omega) with
    | ⟨a1, b1, r1, r2, r3, _, r5, _⟩ => ⟨a, b, na, nb, h1, h2, h3, h4, a1, b1, r1, r2, r3, h4 ▸ r5⟩

end ListH
namespace DequeH

open ListH (Outcome)

/-! ## `insert`, `erase`, growth, and the reachable states of the deque -/

/-! ### Iterators by bucket-major position -/

theorem ofPos_dec (q p : Nat) (hp : 1 ≤ p) (hq : bucket_index (p - 1) < q) :
    (Iter.ofPos p).dec q = some (Iter.ofPos (p - 1)) := by
  unfold Iter.dec Iter.ofPos Iter.make
  unfold bucket_index in_bucket_index Bucket.size at *
  by_cases h0 : p % 32 = 0
  · simp only [h0, if_true]
    have hb : ((p / 32 : Nat) : Int) - 1 = (((p - 1) / 32 : Nat) : Int) := by omega
    rw [hb, if_pos (by constructor <;> omega)]
    simp only [Option.some.injEq, Iter.mk.injEq, true_and]
    omega
  · simp only [h0, if_false, Option.some.injEq, Iter.mk.injEq]
    constructor <;> omega

theorem ofPos_inc (q p : Nat) (hq : bucket_index (p + 1) < q) :
    (Iter.ofPos p).inc q = some (Iter.ofPos (p + 1)) := by
  unfold Iter.inc Iter.ofPos Iter.make
  unfold bucket_index in_bucket_index Bucket.size at *
  by_cases h0 : p % 32 + 1 = 32
  · simp only [h0, if_true]
    have hb : ((p / 32 : Nat) : Int) + 1 = (((p + 1) / 32 : Nat) : Int) := by omega
    rw [hb, if_pos (by constructor <;> omega)]
    simp only [Option.some.injEq, Iter.mk.injEq, true_and]
    omega
  · simp only [h0, if_false, Option.some.injEq, Iter.mk.injEq]
    constructor <;> omega

theorem ofPos_lt (a b : Nat) : (Iter.ofPos a).lt (Iter.ofPos b) = decide (a < b) := by
  unfold Iter.lt Iter.ofPos
  unfold bucket_index in_bucket_index Bucket.size
  simp only [Nat.cast_inj, Nat.cast_lt]
  by_cases h : a < b
  · simp only [h, decide_True]
    by_cases h1 : a / 32 = b / 32
    · have : a % 32 < b % 32 := by omega
      simp [h1, this]
    · have : a / 32 < b / 32 := by omega
      simp [this]
  · simp only [h, decide_False]
    by_cases h1 : a / 32 = b / 32
    · have : ¬ a % 32 < b % 32 := by omega
      simp [h1, this]
    · have : ¬ a / 32 < b / 32 := by omega
      simp [h1, this]

theorem ofPos_ge (a b : Nat) : (Iter.ofPos a).ge (Iter.ofPos b) = decide (b ≤ a) := by
  unfold Iter.ge
  rw [ofPos_lt]
  by_cases h : a < b
  · have : ¬ b ≤ a := by omega
    simp [h, this]
  · have : b ≤ a := by omega
    simp [h, this]

theorem ofPos_add (q p : Nat) (n : Int) (hn1 : INT_MIN ≤ n) (hn2 : n ≤ INT_MAX)
    (h0 : 0 ≤ (p : Int) + n) (hq : bucket_index ((p : Int) + n).toNat < q) :
    (Iter.ofPos p).add q n = some (Iter.ofPos ((p : Int) + n).toNat) := by
  unfold Iter.add
  rw [addAssign_eq _ _ _ hn1 hn2]
  unfold Iter.ofPos
  unfold bucket_index in_bucket_index Bucket.size at *
  simp only []
  have hb : ((p / 32 : Nat) : Int) + (((p % 32 : Nat) : Int) + n) / 32
      = ((((p : Int) + n).toNat / 32 : Nat) : Int) := by omega
  have hm : ((((p % 32 : Nat) : Int) + n) % 32).toNat = ((p : Int) + n).toNat % 32 := by omega
  rw [hb, hm, if_pos (by constructor <;> omega)]

theorem ofPos_sub_one (q p : Nat) (hp : 1 ≤ p) (hq : bucket_index (p - 1) < q) :
    (Iter.ofPos p).sub q 1 = some (Iter.ofPos (p - 1)) := by
  unfold Iter.sub Iter.subAssign
  rw [if_neg (by unfold INT_MIN INT_MAX; omega), if_neg (by unfold INT_MIN; omega)]
  have h := ofPos_add q p (-1) (by unfold INT_MIN; omega) (by unfold INT_MAX; omega)
    (by omega) (by
    have : ((p : Int) + -1).toNat = p - 1 := by omega
    rw [this]
    exact hq)
  have e : ((p : Int) + -1).toNat = p - 1 := by omega
  rw [e] at h
  exact h


section
variable {T : Type}

theorem deref_ofPos (d : Deque T) (p : Nat) :
    d.deref (Iter.ofPos p) = (cell d.buckets_ p).join := by
  unfold Deque.deref Iter.ofPos cell
  simp

/-- The assignment through the iterator at position `p` of a live element writes that
slot and no other. -/
theorem assignThrough_ofPos {d : Deque T} (hwf : WF d.buckets_) {p : Nat} {x : T}
    (hlive : cell d.buckets_ p = some (some x)) (v : T) :
    ∃ bs, d.assignThrough (Iter.ofPos p) v = some { d with buckets_ := bs } ∧
      bs.length = d.buckets_.length ∧ WF bs ∧
      ∀ p', cell bs p' = if p' = p then some (some v) else cell d.buckets_ p' := by
  have hlive' : slot d.buckets_ (bucket_index p) (in_bucket_index p) = some (some x) := hlive
  have hi : bucket_index p < d.buckets_.length := by
    unfold slot at hlive'
    cases hb : d.buckets_[bucket_index p]? with
    | none => simp [hb] at hlive'
    | some b =>
      rw [List.getElem?_eq_some_iff] at hb
      exact hb.1
  have hj : in_bucket_index p < Bucket.size := by
    unfold in_bucket_index Bucket.size
    omega
  obtain ⟨bs, hset⟩ := setSlot_isSome hwf (some v) hi hj
  refine ⟨bs, ?_, setSlot_length hset, setSlot_WF hset hwf, cell_setSlot hset⟩
  unfold Deque.assignThrough Iter.ofPos
  simp only [Int.toNat_ofNat, hlive', hset]
  rw [if_neg (by omega)]

/-- The loop of `insert` from the element at position `a + n` down to the one at `a`:
every element of the positions `a` to `a + n - 1` is copied one slot up. -/
theorem insertLoop_spec (a : Nat) (ha : 1 ≤ a) :
    ∀ (n fuel : Nat) (d : Deque T), n + 1 ≤ fuel → WF d.buckets_ →
      d.buckets_.length = d.bucket_quantity_ → bucket_index (a + n) < d.bucket_quantity_ →
      (∀ p, a ≤ p → p ≤ a + n → ∃ x, cell d.buckets_ p = some (some x)) →
      ∃ bs, Deque.insertLoop (Iter.ofPos a) fuel d (Iter.ofPos (a + n))
          (Iter.ofPos (a + n - 1)) = some { d with buckets_ := bs } ∧
        bs.length = d.buckets_.length ∧ WF bs ∧
        ∀ p, cell bs p = if a < p ∧ p ≤ a + n then cell d.buckets_ (p - 1)
          else cell d.buckets_ p := by
  intro n
  induction n with
  | zero =>
    intro fuel d _ hwf _ _ _
    refine ⟨d.buckets_, ?_, rfl, hwf, ?_⟩
    · have hge : (Iter.ofPos (a - 1)).ge (Iter.ofPos a) = false := by
        rw [ofPos_ge]
        simp only [decide_eq_false_iff_not]
        omega
      cases fuel <;> simp [Deque.insertLoop, hge]
    · intro p
      rw [if_neg (by omega)]
  | succ n ih =>
    intro fuel d hf hwf hlen hq hlive
    obtain ⟨f, rfl⟩ : ∃ f, fuel = f + 1 := ⟨fuel - 1, by omega⟩
    have hge : (Iter.ofPos (a + (n + 1) - 1)).ge (Iter.ofPos a) = true := by
      rw [ofPos_ge]
      simp only [decide_eq_true_eq]
      omega
    have e1 : a + (n + 1) - 1 = a + n := by omega
    obtain ⟨x, hx⟩ := hlive (a + n) (by omega) (by omega)
    obtain ⟨y, hy⟩ := hlive (a + (n + 1)) (by omega) (by omega)
    obtain ⟨bs1, hass, hlen1, hwf1, hcell1⟩ := assignThrough_ofPos hwf hy x
    have hbi : ∀ p, p ≤ a + (n + 1) → bucket_index p < d.bucket_quantity_ := by
      intro p hp
      unfold bucket_index Bucket.size at *
      omega
    have hdec2 := ofPos_dec d.bucket_quantity_ (a + n) (by omega) (hbi _ (by omega))
    have hdec1 := ofPos_dec d.bucket_quantity_ (a + (n + 1)) (by omega) (hbi _ (by omega))
    rw [e1] at hdec1
    obtain ⟨bs, hloop, hlen2, hwf2, hcell2⟩ :=
      ih f ({ d with buckets_ := bs1 } : Deque T) (by omega) hwf1
        (by show bs1.length = d.bucket_quantity_; rw [hlen1, hlen]) (hbi _ (by omega))
        (by
          intro p hp1 hp2
          show ∃ x, cell bs1 p = some (some x)
          rw [hcell1, if_neg (by omega)]
          exact hlive p hp1 (by omega))
    refine ⟨bs, ?_, by rw [hlen2]; exact hlen1, hwf2, ?_⟩
    · rw [e1]
      rw [e1] at hge
      unfold Deque.insertLoop
      rw [if_pos hge, deref_ofPos, hx]
      simp only [Option.join, Option.some_bind, id]
      rw [hass]
      simp only []
      rw [hdec2, hdec1]
      exact hloop
    · intro p
      rw [hcell2]
      show (if a < p ∧ p ≤ a + n then cell bs1 (p - 1) else cell bs1 p) = _
      by_cases h1 : a < p ∧ p ≤ a + n
      · rw [if_pos h1, if_pos (by omega), hcell1, if_neg (by omega)]
      · rw [if_neg h1, hcell1]
        by_cases h2 : p = a + (n + 1)
        · rw [if_pos h2, if_pos (by omega), h2, ← hx]
          congr 1
        · rw [if_neg h2, if_neg (by omega)]

end


section
variable {T : Type}

/-- The loop of `erase` from the element at position `k` on, `E` being the position of
`end()`: every element of the positions `k + 1` to `E - 1` is copied one slot down. -/
theorem eraseLoop_spec (E : Nat) :
    ∀ (n fuel : Nat) (d : Deque T) (k : Nat), n ≤ fuel → WF d.buckets_ →
      d.buckets_.length = d.bucket_quantity_ → d.end = some (Iter.ofPos E) →
      k + 1 + n = E → bucket_index E < d.bucket_quantity_ →
      (∀ p, k ≤ p → p < E → ∃ x, cell d.buckets_ p = some (some x)) →
      ∃ bs, Deque.eraseLoop fuel d (Iter.ofPos k) (Iter.ofPos (k + 1))
          = some { d with buckets_ := bs } ∧
        bs.length = d.buckets_.length ∧ WF bs ∧
        ∀ p, cell bs p = if k ≤ p ∧ p + 1 < E then cell d.buckets_ (p + 1)
          else cell d.buckets_ p := by
  intro n
  induction n with
  | zero =>
    intro fuel d k _ hwf _ hend hk _ _
    refine ⟨d.buckets_, ?_, rfl, hwf, ?_⟩
    · have hlt : (Iter.ofPos (k + 1)).lt (Iter.ofPos E) = false := by
        rw [ofPos_lt]
        simp only [decide_eq_false_iff_not]
        omega
      cases fuel <;> simp [Deque.eraseLoop, hend, hlt]
    · intro p
      rw [if_neg (by omega)]
  | succ n ih =>
    intro fuel d k hf hwf hlen hend hk hq hlive
    obtain ⟨f, rfl⟩ : ∃ f, fuel = f + 1 := ⟨fuel - 1, by omega⟩
    have hlt : (Iter.ofPos (k + 1)).lt (Iter.ofPos E) = true := by
      rw [ofPos_lt]
      simp only [decide_eq_true_eq]
      omega
    obtain ⟨x, hx⟩ := hlive (k + 1) (by omega) (by omega)
    obtain ⟨y, hy⟩ := hlive k (by omega) (by omega)
    obtain ⟨bs1, hass, hlen1, hwf1, hcell1⟩ := assignThrough_ofPos hwf hy x
    have hbi : ∀ p, p ≤ E → bucket_index p < d.bucket_quantity_ := by
      intro p hp
      unfold bucket_index Bucket.size at *
      omega
    have hinc1 := ofPos_inc d.bucket_quantity_ k (hbi _ (by omega))
    have hinc2 := ofPos_inc d.bucket_quantity_ (k + 1) (hbi _ (by omega))
    obtain ⟨bs, hloop, hlen2, hwf2, hcell2⟩ :=
      ih f ({ d with buckets_ := bs1 } : Deque T) (k + 1) (by omega) hwf1
        (by show bs1.length = d.bucket_quantity_; rw [hlen1, hlen]) hend (by omega) hq
        (by
          intro p hp1 hp2
          show ∃ x, cell bs1 p = some (some x)
          rw [hcell1, if_neg (by omega)]
          exact hlive p (by omega) hp2)
    refine ⟨bs, ?_, by rw [hlen2]; exact hlen1, hwf2, ?_⟩
    · unfold Deque.eraseLoop
      simp only [hend]
      rw [if_pos hlt, deref_ofPos, hx]
      simp only [Option.join, Option.some_bind, id]
      rw [hass]
      simp only []
      rw [hinc1, hinc2]
      exact hloop
    · intro p
      rw [hcell2]
      show (if k + 1 ≤ p ∧ p + 1 < E then cell bs1 (p + 1) else cell bs1 p) = _
      by_cases h1 : k + 1 ≤ p ∧ p + 1 < E
      · rw [if_pos h1, if_pos (by omega), hcell1, if_neg (by omega)]
      · rw [if_neg h1, hcell1]
        by_cases h2 : p = k
        · rw [if_pos h2, if_pos (by omega), h2, ← hx]
        · rw [if_neg h2, if_neg (by omega)]

/-- On a well formed deque `end()` is the iterator at the position behind the last
element. -/
theorem end_ofPos {d : Deque T} {l : List T} (h : Repr d l) :
    d.end = some (Iter.ofPos (d.first + d.size_)) ∧
    d.begin = some (Iter.ofPos d.first) ∧
    bucket_index (d.first + d.size_) < d.bucket_quantity_ ∧ Bucket.size ≤ d.first := by
  obtain ⟨_, _, _, hbb, hbi, hcap, _, _, _⟩ := h
  unfold Deque.end Deque.begin Iter.make Deque.get_end Iter.ofPos
  unfold Deque.first bucket_index in_bucket_index Bucket.size at *
  refine ⟨?_, ?_, by omega, by omega⟩
  · simp only []
    rw [if_pos (by constructor <;> omega)]
    simp only [Option.some.injEq, Iter.mk.injEq]
    constructor <;> omega
  · rw [if_pos (by constructor <;> omega)]
    simp only [Option.some.injEq, Iter.mk.injEq]
    constructor <;> omega

/-- On a well formed deque `begin() + i`, for `i` up to `size()` and at most `INT_MAX`,
is the iterator at the position of the element `i`. -/
theorem beginPlus_ofPos {d : Deque T} {l : List T} (h : Repr d l) (i : Nat)
    (hi : i ≤ d.size_) (hint : i < 2 ^ 31) :
    d.beginPlus i = some (Iter.ofPos (d.first + i)) := by
  obtain ⟨_, hb, hq, _⟩ := end_ofPos h
  unfold Deque.beginPlus
  rw [hb]
  simp only []
  unfold Iter.addSize
  rw [toInt_of_lt i hint]
  have e : ((d.first : Int) + (i : Int)).toNat = d.first + i := by omega
  have := ofPos_add d.bucket_quantity_ d.first (i : Int) (by unfold INT_MIN; omega)
    (by unfold INT_MAX; omega) (by omega) (by
    rw [e]
    unfold bucket_index Bucket.size at *
    omega)
  rw [e] at this
  exact this

end


section
variable {T : Type}

theorem shiftLeft_one (q : Nat) : q <<< 1 = 2 * q := by
  simp [Nat.shiftLeft_eq, Nat.mul_comm]

/-- The members that `push_back` leaves, read off its code: the begin marker is
unchanged, `size_` is one more, `bucket_quantity_` is doubled when the slot of the new
element is the last slot of the bucket array and unchanged otherwise. -/
theorem push_back_fields {d d1 : Deque T} {v : T} (hp : d.push_back v = some d1) :
    d1.begin_bucket_ = d.begin_bucket_ ∧ d1.begin_index_ = d.begin_index_ ∧
    d1.size_ = d.size_ + 1 ∧
    d1.bucket_quantity_ =
      (if d.backSlot.1 = d.bucket_quantity_ - 1 ∧ d.backSlot.2 = Bucket.size - 1
        then 2 * d.bucket_quantity_ else d.bucket_quantity_) := by
  rw [push_back_eq] at hp
  by_cases hg : d.backSlot.1 = d.bucket_quantity_ - 1 ∧ d.backSlot.2 = Bucket.size - 1
  · rw [if_pos hg] at hp
    rw [if_pos hg]
    cases hc : copyBuckets d.buckets_ 0 (d.get_rbegin.1 + 1 - d.begin_bucket_) d.begin_bucket_
        (newBuckets T (d.bucket_quantity_ <<< 1)) with
    | none => simp [hc] at hp
    | some nb =>
      simp only [hc] at hp
      cases hk : construct nb d.backSlot.1 d.backSlot.2 v with
      | none => simp [hk] at hp
      | some nb2 =>
        simp only [hk, Option.some.injEq] at hp
        subst hp
        exact ⟨rfl, rfl, rfl, shiftLeft_one _⟩
  · rw [if_neg hg] at hp
    rw [if_neg hg]
    cases hk : construct d.buckets_ d.backSlot.1 d.backSlot.2 v with
    | none => simp [hk] at hp
    | some nb2 =>
      simp only [hk, Option.some.injEq] at hp
      subst hp
      exact ⟨rfl, rfl, rfl, rfl⟩

/-- The members that `push_front` leaves, read off its code. -/
theorem push_front_fields {d d1 : Deque T} {v : T} (hp : d.push_front v = some d1) :
    d1.size_ = d.size_ + 1 ∧
    d1.bucket_quantity_ =
      (if d.begin_bucket_ = 1 ∧ d.begin_index_ = 0 then 2 * d.bucket_quantity_
        else d.bucket_quantity_) ∧
    (d.begin_bucket_ = 1 ∧ d.begin_index_ = 0 →
      d1.begin_bucket_ = d.bucket_quantity_ ∧ d1.begin_index_ = Bucket.size - 1) ∧
    (¬ (d.begin_bucket_ = 1 ∧ d.begin_index_ = 0) →
      (0 < d.begin_index_ → d1.begin_bucket_ = d.begin_bucket_ ∧
        d1.begin_index_ = d.begin_index_ - 1) ∧
      (d.begin_index_ = 0 → d1.begin_bucket_ = d.begin_bucket_ - 1 ∧
        d1.begin_index_ = Bucket.size - 1)) := by
  unfold Deque.push_front at hp
  by_cases hg : d.begin_bucket_ = 1 ∧ d.begin_index_ = 0
  · rw [if_pos hg] at hp
    rw [if_pos hg]
    simp only [] at hp
    cases hc : copyBuckets d.buckets_ d.bucket_quantity_
        (d.get_rbegin.1 + 1 - d.begin_bucket_) d.begin_bucket_
        (newBuckets T (d.bucket_quantity_ <<< 1)) with
    | none => simp [hc] at hp
    | some nb =>
      simp only [hc] at hp
      cases hk : construct nb d.bucket_quantity_ (Bucket.size - 1) v with
      | none => simp [hk] at hp
      | some nb2 =>
        simp only [hk, Option.some.injEq] at hp
        subst hp
        exact ⟨rfl, shiftLeft_one _, fun _ => ⟨rfl, rfl⟩, fun hn => absurd hg hn⟩
  · rw [if_neg hg] at hp
    rw [if_neg hg]
    simp only [] at hp
    by_cases hi : d.begin_index_ > 0
    · simp only [hi, if_true] at hp
      cases hk : construct d.buckets_ d.begin_bucket_ (d.begin_index_ - 1) v with
      | none => simp [hk] at hp
      | some nb2 =>
        simp only [hk, Option.some.injEq] at hp
        subst hp
        exact ⟨rfl, rfl, fun h => absurd h hg,
          fun _ => ⟨fun _ => ⟨rfl, rfl⟩, fun h0 => by omega⟩⟩
    · simp only [hi, if_false] at hp
      cases hk : construct d.buckets_ (d.begin_bucket_ - 1) (Bucket.size - 1) v with
      | none => simp [hk] at hp
      | some nb2 =>
        simp only [hk, Option.some.injEq] at hp
        subst hp
        exact ⟨rfl, rfl, fun h => absurd h hg,
          fun _ => ⟨fun h0 => absurd h0 hi, fun _ => ⟨rfl, rfl⟩⟩⟩

/-- The members that `pop_back` leaves, read off its code. -/
theorem pop_back_fields {d d1 : Deque T} (hp : d.pop_back = some d1) :
    d1.size_ = d.size_ - 1 ∧ d1.bucket_quantity_ = d.bucket_quantity_ ∧
    (d.size_ - 1 ≠ 0 → d1.begin_bucket_ = d.begin_bucket_ ∧
      d1.begin_index_ = d.begin_index_) ∧
    (d.size_ - 1 = 0 → d1.begin_bucket_ = d.bucket_quantity_ >>> 1 ∧ d1.begin_index_ = 0) := by
  unfold Deque.pop_back at hp
  simp only [] at hp
  cases hk : destroy d.buckets_ d.get_rbegin.1 d.get_rbegin.2 with
  | none => simp [hk] at hp
  | some nb =>
    simp only [hk] at hp
    by_cases hs : d.size_ - 1 = 0
    · simp only [hs, if_true, Option.some.injEq] at hp
      subst hp
      exact ⟨hs.symm, rfl, fun h => absurd hs h, fun _ => ⟨rfl, rfl⟩⟩
    · simp only [hs, if_false, Option.some.injEq] at hp
      subst hp
      exact ⟨rfl, rfl, fun _ => ⟨rfl, rfl⟩, fun h => absurd h hs⟩

/-- The members that `pop_front` leaves, read off its code. -/
theorem pop_front_fields {d d1 : Deque T} (hp : d.pop_front = some d1) :
    d1.size_ = d.size_ - 1 ∧ d1.bucket_quantity_ = d.bucket_quantity_ := by
  unfold Deque.pop_front at hp
  simp only [] at hp
  cases hk : destroy d.buckets_ d.begin_bucket_ d.begin_index_ with
  | none => simp [hk] at hp
  | some nb =>
    simp only [hk] at hp
    split at hp <;> split at hp <;>
      (simp only [Option.some.injEq] at hp; subst hp; exact ⟨rfl, rfl⟩)

end


section
variable {T : Type}

theorem getElem?_inserted (l : List T) (i : Nat) (v : T) (hi : i ≤ l.length) (j : Nat) :
    (l.take i ++ v :: l.drop i)[j]? =
      if j < i then l[j]? else if j = i then some v else l[j - 1]? := by
  have hlen : (l.take i).length = i := by simp [List.length_take, hi]
  by_cases h1 : j < i
  · rw [if_pos h1, List.getElem?_append_left (by rw [hlen]; exact h1), List.getElem?_take_of_lt h1]
  · rw [if_neg h1, List.getElem?_append_right (by rw [hlen]; omega), hlen]
    by_cases h2 : j = i
    · rw [if_pos h2, h2]
      simp
    · rw [if_neg h2]
      obtain ⟨k, hk⟩ : ∃ k, j - i = k + 1 := ⟨j - i - 1, by omega⟩
      rw [hk, List.getElem?_cons_succ, List.getElem?_drop]
      congr 1
      omega

theorem getElem?_erased (l : List T) (i : Nat) (hi : i ≤ l.length) (j : Nat) :
    (l.take i ++ l.drop (i + 1))[j]? = if j < i then l[j]? else l[j + 1]? := by
  have hlen : (l.take i).length = i := by simp [List.length_take, hi]
  by_cases h1 : j < i
  · rw [if_pos h1, List.getElem?_append_left (by rw [hlen]; exact h1), List.getElem?_take_of_lt h1]
  · rw [if_neg h1, List.getElem?_append_right (by rw [hlen]; omega), hlen, List.getElem?_drop]
    congr 1
    omega

end


section
variable {T : Type}

/-- Reading the reference that `operator[](j)` returns is reading the cell of the
element `j`. -/
theorem readRef_ref (d : Deque T) (bs : List (Bucket T)) (j : Nat) :
    ({ d with buckets_ := bs } : Deque T).readRef (d.ref j) = (cell bs (d.first + j)).join := by
  unfold Deque.readRef Deque.ref cell Deque.first
  simp only []
  rw [Nat.add_comm j]

/-- The member `insert` at the iterator of the position `i` of a well formed deque, for
`i` up to `size()`, with an argument that is a reference to an object `v` outside the
deque or to the element `j` of the deque, which is `v`. It returns; `push_back` has
appended `v`, the loop has moved the elements from `i` on one slot back, and the last
statement has assigned what the reference then designates, `w`: for an object outside
the deque and for an element `j ≤ i` that is `v`, for an element `j > i` it is the element
`j - 1`, which the loop has copied into the slot of `j`. The deque then holds the
elements with `w` put in front of the element `i`, the begin marker is where it was, and
`bucket_quantity_` is what the `push_back` of `insert` made it. -/
theorem insert_spec {d : Deque T} {l : List T} (h : Repr d l) (i : Nat) (hi : i ≤ l.length)
    (r : ValueRef T) (v w : T)
    (hr : (r = .outside v ∧ w = v) ∨
      ∃ j, j < l.length ∧ r = d.ref j ∧ l[j]? = some v ∧
        (if j ≤ i then l[j]? else l[j - 1]?) = some w)
    (fuel : Nat) (hf : l.length + 1 ≤ fuel) :
    ∃ d1 d2, d.push_back v = some d1 ∧
      d.insert (Iter.ofPos (d.first + i)) r fuel = some d2 ∧
      Repr d2 (l.take i ++ w :: l.drop i) ∧ d2.begin_bucket_ = d.begin_bucket_ ∧
      d2.begin_index_ = d.begin_index_ ∧ d2.bucket_quantity_ = d1.bucket_quantity_ ∧
      d2.size_ = d.size_ + 1 := by
  obtain ⟨d1, hpb, hr1⟩ := deque_push_back_repr h v
  obtain ⟨fbb, fbi, fsz, _⟩ := push_back_fields hpb
  have hfirst1 : d1.first = d.first := by
    unfold Deque.first
    rw [fbb, fbi]
  obtain ⟨hend1, _, hq1, h32⟩ := end_ofPos hr1
  rw [hfirst1, fsz] at hend1 hq1
  rw [hfirst1] at h32
  obtain ⟨hlen1, hwf1, hq2, hbb1, hbi1, hcap1, h01, hsz1, hcells1⟩ := hr1
  have hsz : d.size_ = l.length := h.2.2.2.2.2.2.2.1
  have hbi : d.begin_index_ < Bucket.size := h.2.2.2.2.1
  have hcells := h.2.2.2.2.2.2.2.2
  have hbk : d.begin_bucket_ ≤ bucket_index (d.first + i) := by
    unfold bucket_index Deque.first Bucket.size at *
    omega
  have hpf : (((bucket_index (d.first + i) : Nat) : Int) - (d.begin_bucket_ : Int)).toNat
      = bucket_index (d.first + i) - d.begin_bucket_ := by omega
  have hsum : d.begin_bucket_ + (bucket_index (d.first + i) - d.begin_bucket_)
      = bucket_index (d.first + i) := by omega
  have hbiq : ∀ p, p ≤ d.first + (d.size_ + 1) → bucket_index p < d1.bucket_quantity_ := by
    intro p hp
    unfold bucket_index Bucket.size at *
    omega
  have hstop : Iter.make d1.bucket_quantity_
      ((d1.begin_bucket_ + (bucket_index (d.first + i) - d.begin_bucket_) : Nat) : Int)
      (in_bucket_index (d.first + i)) = some (Iter.ofPos (d.first + i)) := by
    rw [fbb, hsum]
    unfold Iter.make Iter.ofPos
    have := hbiq (d.first + i) (by omega)
    rw [if_pos (by constructor <;> omega)]
  have hiter := ofPos_sub_one d1.bucket_quantity_ (d.first + (d.size_ + 1)) (by omega)
    (hbiq _ (by omega))
  have e1 : d.first + (d.size_ + 1) - 1 = d.first + i + (d.size_ - i) := by omega
  rw [e1] at hiter
  have hiter2 := ofPos_sub_one d1.bucket_quantity_ (d.first + i + (d.size_ - i)) (by omega)
    (hbiq _ (by omega))
  have hlive1 : ∀ p, d.first + i ≤ p → p ≤ d.first + i + (d.size_ - i) →
      ∃ x, cell d1.buckets_ p = some (some x) := by
    intro p hp1 hp2
    obtain ⟨j, rfl⟩ : ∃ j, p = d.first + j := ⟨p - d.first, by omega⟩
    have hj : j < (l ++ [v]).length := by
      rw [List.length_append, List.length_singleton]
      omega
    have := hcells1 j hj
    rw [hfirst1] at this
    rw [this, List.getElem?_eq_getElem hj]
    exact ⟨_, rfl⟩
  obtain ⟨bs, hloop, hlenb, hwfb, hcellb⟩ :=
    insertLoop_spec (d.first + i) (by omega) (d.size_ - i) fuel d1 (by omega) hwf1 hlen1
      (hbiq _ (by omega)) hlive1
  have hc1 : ∀ k, k < l.length → cell d1.buckets_ (d.first + k) = some l[k]? := by
    intro k hk
    have := hcells1 k (by rw [List.length_append, List.length_singleton]; omega)
    rw [hfirst1] at this
    rw [this, List.getElem?_append_left hk]
  -- the two reads of the reference
  have hread0 : d.readRef r = some v := by
    rcases hr with ⟨hr, _⟩ | ⟨j, hj, hr, hv, _⟩
    · rw [hr]
      rfl
    · rw [hr]
      have := readRef_ref d d.buckets_ j
      rw [this, hcells j hj, hv]
      rfl
  have hread1 : ({ d1 with buckets_ := bs } : Deque T).readRef r = some w := by
    rcases hr with ⟨hr, hw⟩ | ⟨j, hj, hr, _, hw⟩
    · rw [hr, hw]
      rfl
    · rw [hr]
      have e : ({ d1 with buckets_ := bs } : Deque T).readRef (d.ref j)
          = (cell bs (d.first + j)).join := by
        unfold Deque.readRef Deque.ref cell Deque.first
        simp only []
        rw [Nat.add_comm j]
      rw [e, hcellb]
      by_cases hji : j ≤ i
      · rw [if_pos hji] at hw
        rw [if_neg (by omega), hc1 j hj, hw]
        rfl
      · rw [if_neg hji] at hw
        rw [if_pos (by omega)]
        have e2 : d.first + j - 1 = d.first + (j - 1) := by omega
        rw [e2, hc1 (j - 1) (by omega), hw]
        rfl
  obtain ⟨x0, hx0⟩ := hlive1 (d.first + i) (by omega) (by omega)
  have hlive2 : cell ({ d1 with buckets_ := bs } : Deque T).buckets_ (d.first + i)
      = some (some x0) := by
    show cell bs (d.first + i) = _
    rw [hcellb, if_neg (by omega)]
    exact hx0
  obtain ⟨bs3, hass, hlen3, hwf3, hcell3⟩ :=
    assignThrough_ofPos (d := ({ d1 with buckets_ := bs } : Deque T)) hwfb hlive2 w
  have hfin : ({ d1 with buckets_ := bs } : Deque T).assignThrough
      ⟨((({ d1 with buckets_ := bs } : Deque T).begin_bucket_
        + (bucket_index (d.first + i) - d.begin_bucket_) : Nat) : Int),
        in_bucket_index (d.first + i)⟩ w
      = some { d1 with buckets_ := bs3 } := by
    have hsum1 : d1.begin_bucket_ + (bucket_index (d.first + i) - d.begin_bucket_)
        = bucket_index (d.first + i) := by rw [fbb]; exact hsum
    show ({ d1 with buckets_ := bs } : Deque T).assignThrough
      ⟨((d1.begin_bucket_ + (bucket_index (d.first + i) - d.begin_bucket_) : Nat) : Int),
        in_bucket_index (d.first + i)⟩ w = _
    rw [hsum1]
    exact hass
  refine ⟨d1, { d1 with buckets_ := bs3 }, hpb, ?_, ?_, fbb, fbi, rfl, fsz⟩
  · unfold Deque.insert
    have hc : ¬ (Iter.ofPos (d.first + i)).bucket_ < (d.begin_bucket_ : Int) := by
      show ¬ ((bucket_index (d.first + i) : Nat) : Int) < (d.begin_bucket_ : Int)
      omega
    rw [if_neg hc]
    have hpf' : ((Iter.ofPos (d.first + i)).bucket_ - (d.begin_bucket_ : Int)).toNat
        = bucket_index (d.first + i) - d.begin_bucket_ := hpf
    have hps : (Iter.ofPos (d.first + i)).position_ = in_bucket_index (d.first + i) := rfl
    simp only [hpf', hps, hread0, hpb, hstop, hend1, hiter, hiter2, hloop, hread1]
    exact hfin
  · refine ⟨?_, hwf3, hq2, hbb1, hbi1, hcap1, ?_, ?_, ?_⟩
    · show bs3.length = d1.bucket_quantity_
      rw [hlen3]
      show bs.length = _
      rw [hlenb, hlen1]
    · intro hc
      have : d1.size_ = 0 := hc
      omega
    · show d1.size_ = _
      rw [fsz, hsz]
      simp only [List.length_append, List.length_take, List.length_cons, List.length_drop]
      omega
    · intro j hj
      have hj' : j < l.length + 1 := by
        simp only [List.length_append, List.length_take, List.length_cons,
          List.length_drop] at hj
        omega
      show cell bs3 (d1.first + j) = _
      rw [hfirst1, hcell3, getElem?_inserted l i w hi j]
      by_cases h1 : j < i
      · rw [if_neg (by omega), if_pos h1]
        show cell bs (d.first + j) = _
        rw [hcellb, if_neg (by omega)]
        exact hc1 j (by omega)
      · rw [if_neg h1]
        by_cases h2 : j = i
        · rw [if_pos (by omega), if_pos h2]
        · rw [if_neg (by omega), if_neg h2]
          show cell bs (d.first + j) = _
          rw [hcellb, if_pos (by omega)]
          have e : d.first + j - 1 = d.first + (j - 1) := by omega
          rw [e]
          exact hc1 (j - 1) (by omega)

end


section
variable {T : Type}

/-- The member `erase` at the iterator of the element `i` of a well formed deque: it
returns, the deque then holds the other elements in their order, `bucket_quantity_` is
unchanged, and the begin marker is where it was unless the deque has become empty, when
`pop_back` resets it. -/
theorem erase_spec {d : Deque T} {l : List T} (h : Repr d l) (i : Nat) (hi : i < l.length)
    (fuel : Nat) (hf : l.length ≤ fuel) :
    ∃ d2, d.erase (Iter.ofPos (d.first + i)) fuel = some d2 ∧
      Repr d2 (l.take i ++ l.drop (i + 1)) ∧ d2.bucket_quantity_ = d.bucket_quantity_ ∧
      d2.size_ = d.size_ - 1 ∧
      (l.length ≠ 1 → d2.begin_bucket_ = d.begin_bucket_ ∧
        d2.begin_index_ = d.begin_index_) ∧
      (l.length = 1 → d2.begin_bucket_ = d.bucket_quantity_ >>> 1 ∧ d2.begin_index_ = 0) := by
  obtain ⟨hend, _, hq, h32⟩ := end_ofPos h
  obtain ⟨hlen, hwf, hq2, hbb, hbi, hcap, h0, hsz, hcells⟩ := h
  have hbiq : ∀ p, p ≤ d.first + d.size_ → bucket_index p < d.bucket_quantity_ := by
    intro p hp
    unfold bucket_index Bucket.size at *
    omega
  have e1 : (((d.first + i : Nat) : Int) + 1).toNat = d.first + i + 1 := by omega
  have hadd := ofPos_add d.bucket_quantity_ (d.first + i) 1 (by unfold INT_MIN; omega)
    (by unfold INT_MAX; omega) (by omega) (by rw [e1]; exact hbiq _ (by omega))
  rw [e1] at hadd
  have hlive : ∀ p, d.first + i ≤ p → p < d.first + d.size_ →
      ∃ x, cell d.buckets_ p = some (some x) := by
    intro p hp1 hp2
    obtain ⟨j, rfl⟩ : ∃ j, p = d.first + j := ⟨p - d.first, by omega⟩
    have hj : j < l.length := by omega
    rw [hcells j hj, List.getElem?_eq_getElem hj]
    exact ⟨_, rfl⟩
  obtain ⟨bs, hloop, hlenb, hwfb, hcellb⟩ :=
    eraseLoop_spec (d.first + d.size_) (d.size_ - i - 1) fuel d (d.first + i) (by omega) hwf
      hlen hend (by omega) hq hlive
  have hlast : l.length - 1 < l.length := by omega
  have hr1 : Repr ({ d with buckets_ := bs } : Deque T)
      ((l.take i ++ l.drop (i + 1)) ++ [l[l.length - 1]]) := by
    have hlen' : (l.take i ++ l.drop (i + 1)).length = l.length - 1 := by
      simp only [List.length_append, List.length_take, List.length_drop]
      omega
    refine ⟨by show bs.length = _; rw [hlenb, hlen], hwfb, hq2, hbb, hbi, hcap, h0, ?_, ?_⟩
    · show d.size_ = _
      rw [List.length_append, hlen', List.length_singleton]
      omega
    · intro j hj
      rw [List.length_append, hlen', List.length_singleton] at hj
      show cell bs (d.first + j) = _
      rw [hcellb]
      by_cases h1 : j < l.length - 1
      · rw [List.getElem?_append_left (by rw [hlen']; exact h1),
          getElem?_erased l i (by omega) j]
        by_cases h2 : j < i
        · rw [if_neg (by omega), if_pos h2]
          exact hcells j (by omega)
        · rw [if_pos (by omega), if_neg h2]
          exact hcells (j + 1) (by omega)
      · have hj2 : j = l.length - 1 := by omega
        rw [if_neg (by omega), hj2, List.getElem?_append_right (by rw [hlen']), hlen',
          Nat.sub_self, hcells _ hlast, List.getElem?_eq_getElem hlast]
        rfl
  obtain ⟨d2, hpop, hr2⟩ := deque_pop_back_repr hr1 (by simp)
  rw [List.dropLast_concat] at hr2
  obtain ⟨p1, p2, p3, p4⟩ := pop_back_fields hpop
  refine ⟨d2, ?_, hr2, p2, p1, ?_, ?_⟩
  · unfold Deque.erase
    rw [hadd]
    simp only [hloop]
    exact hpop
  · intro hne
    exact p3 (by show d.size_ - 1 ≠ 0; omega)
  · intro he
    exact p4 (by show d.size_ - 1 = 0; omega)

end


/-- The deque after `push_back(7); push_back(8); push_front(6);` is well formed and holds
6, 7, 8. -/
theorem three_repr :
    ∃ d : Deque Nat,
      (Deque.mk0 Nat).run [.push_back 7, .push_back 8, .push_front 6] = some d ∧
      Repr d [6, 7, 8] :=
  match deque_run_repr [.push_back 7, .push_back 8, .push_front 6] (Deque.mk0 Nat) []
      Repr_mk0 (by simp [SeqRef.popsGuarded]) 3 with
  | ⟨d, l, h1, h2, h3, _⟩ =>
    have hl : l = [6, 7, 8] := by
      have h2' : SeqRef.refRun [] [SeqRef.Op.push_back 7, .push_back 8, .push_front 6]
          = some l := h2
      exact (Option.some.inj h2').symm
    ⟨d, h1, hl ▸ h3⟩

section
variable {T : Type}

/-- After `push_back` on a well formed deque the last element is in the slot that
`push_back` computed for it. -/
theorem push_back_slot {d d1 : Deque T} {l : List T} (h : Repr d l) {v : T}
    (hp : d.push_back v = some d1) (hr1 : Repr d1 (l ++ [v])) :
    d1.get_rbegin = d.backSlot ∧
    slot d1.buckets_ d.backSlot.1 d.backSlot.2 = some (some v) := by
  obtain ⟨fbb, fbi, fsz, _⟩ := push_back_fields hp
  obtain ⟨_, _, _, hbb, hbi, _, h0, hsz, _⟩ := h
  have hbs := backSlot_eq hbb hbi h0
  constructor
  · rw [hbs]
    unfold Deque.get_rbegin
    rw [fsz, fbb, fbi, if_neg (by omega)]
    unfold bucket_index in_bucket_index Deque.first Bucket.size at *
    refine Prod.ext ?_ ?_ <;> simp only [] <;> omega
  · have hc := hr1.2.2.2.2.2.2.2.2 l.length (by simp)
    have hfirst1 : d1.first = d.first := by
      unfold Deque.first
      rw [fbb, fbi]
    rw [hfirst1, append_getElem?_last, ← hsz] at hc
    rw [hbs]
    exact hc

end

/-- C32: on a well formed deque `push_back` returns with the new element in the slot it
computed, and `bucket_quantity` is doubled exactly when that slot is index 31 of bucket
`bucket_quantity - 1` and unchanged exactly when it is not; `push_front` returns, and
`bucket_quantity` is doubled exactly when the begin marker is at bucket 1, index 0 and
unchanged exactly when it is not; the pops on a deque that is not empty return and leave
`bucket_quantity` unchanged. -/
theorem bucket_quantity_changes_only_by_doubling :
    ∀ (T : Type) (d : Deque T) (l : List T) (v : T), Repr d l →
      (∃ d1, d.push_back v = some d1 ∧ d1.get_rbegin = d.backSlot ∧
        slot d1.buckets_ d.backSlot.1 d.backSlot.2 = some (some v) ∧
        (d1.bucket_quantity_ = 2 * d.bucket_quantity_ ↔
          d.backSlot = (d.bucket_quantity_ - 1, 31)) ∧
        (d1.bucket_quantity_ = d.bucket_quantity_ ↔
          d.backSlot ≠ (d.bucket_quantity_ - 1, 31))) ∧
      (∃ d1, d.push_front v = some d1 ∧
        (d1.bucket_quantity_ = 2 * d.bucket_quantity_ ↔
          (d.begin_bucket_ = 1 ∧ d.begin_index_ = 0)) ∧
        (d1.bucket_quantity_ = d.bucket_quantity_ ↔
          ¬ (d.begin_bucket_ = 1 ∧ d.begin_index_ = 0))) ∧
      (l ≠ [] →
        (∃ d1, d.pop_back = some d1 ∧ d1.bucket_quantity_ = d.bucket_quantity_) ∧
        (∃ d1, d.pop_front = some d1 ∧ d1.bucket_quantity_ = d.bucket_quantity_)) := by
  intro T d l v h
  have hq : 2 ≤ d.bucket_quantity_ := h.2.2.1
  refine ⟨?_, ?_, ?_⟩
  · obtain ⟨d1, hpb, hr1⟩ := deque_push_back_repr h v
    obtain ⟨_, _, _, fq⟩ := push_back_fields hpb
    obtain ⟨s1, s2⟩ := push_back_slot h hpb hr1
    have hiff : (d.backSlot.1 = d.bucket_quantity_ - 1 ∧ d.backSlot.2 = Bucket.size - 1) ↔
        d.backSlot = (d.bucket_quantity_ - 1, 31) := by
      constructor
      · intro hc
        exact Prod.ext hc.1 hc.2
      · intro hc
        rw [hc]
        exact ⟨rfl, rfl⟩
    refine ⟨d1, hpb, s1, s2, ?_, ?_⟩
    · rw [← hiff, fq]
      constructor
      · intro hc
        by_contra hn
        rw [if_neg hn] at hc
        omega
      · intro hc
        rw [if_pos hc]
    · rw [Ne, ← hiff, fq]
      constructor
      · intro hc hn
        rw [if_pos hn] at hc
        omega
      · intro hc
        rw [if_neg hc]
  · obtain ⟨d1, hpf, _⟩ := deque_push_front_repr h v
    obtain ⟨_, fq, _, _⟩ := push_front_fields hpf
    refine ⟨d1, hpf, ?_, ?_⟩
    · rw [fq]
      constructor
      · intro hc
        by_contra hn
        rw [if_neg hn] at hc
        omega
      · intro hc
        rw [if_pos hc]
    · rw [fq]
      constructor
      · intro hc hn
        rw [if_pos hn] at hc
        omega
      · intro hc
        rw [if_neg hc]
  · intro hne
    obtain ⟨d1, hp1, _⟩ := deque_pop_back_repr h hne
    obtain ⟨d2, hp2, _⟩ := deque_pop_front_repr h hne
    exact ⟨⟨d1, hp1, (pop_back_fields hp1).2.1⟩, ⟨d2, hp2, (pop_front_fields hp2).2⟩⟩

/-- Witness for C32: the pushes and pops on the deque holding 6, 7, 8. -/
theorem bucket_quantity_changes_only_by_doubling_witness :
    ∃ d : Deque Nat,
      (Deque.mk0 Nat).run [.push_back 7, .push_back 8, .push_front 6] = some d ∧
      Repr d [6, 7, 8] ∧
      (∃ d1, d.push_back 9 = some d1 ∧ d1.get_rbegin = d.backSlot) ∧
      (∃ d1, d.push_front 5 = some d1) ∧
      (∃ d1, d.pop_back = some d1 ∧ d1.bucket_quantity_ = d.bucket_quantity_) :=
  match three_repr with
  | ⟨d, h1, h2⟩ =>
    match bucket_quantity_changes_only_by_doubling Nat d [6, 7, 8] 9 h2,
      bucket_quantity_changes_only_by_doubling Nat d [6, 7, 8] 5 h2 with
    | ⟨⟨d1, r1, r2, _⟩, _, hpop⟩, ⟨_, ⟨d2, s1, _⟩, _⟩ =>
      ⟨d, h1, h2, ⟨d1, r1, r2⟩, ⟨d2, s1⟩, (hpop (by decide)).1⟩



/-- Counterexample for C33: after `push_back(1)` on the default-constructed deque
(2 buckets, begin marker at bucket 1, index 0) the call `push_front(2)` grows the array
from 2 to 4 buckets; the live buckets are then 2 and 3, and the last live bucket index 3
is not below `3 * 2 / 2`. After 95 calls of `push_back` on the default-constructed deque
there are 4 buckets and the next slot is the last of the array; the 96th call grows the
array from 4 to 8 buckets, and the first live bucket index is still 1, below `4 / 2`. -/
theorem growth_does_not_recentre :
    ((Deque.mk0 Nat).run [.push_back 1]).map
        (fun d => (d.bucket_quantity_, d.begin_bucket_, d.begin_index_))
      = some (2, 1, 0) ∧
    ((Deque.mk0 Nat).run [.push_back 1, .push_front 2]).map
        (fun d => (d.bucket_quantity_, d.begin_bucket_, d.get_rbegin.1))
      = some (4, 2, 3) ∧
    ¬ (3 < 3 * 2 / 2) ∧
    ((Deque.mk0 Nat).run (List.replicate 95 (.push_back 0))).map
        (fun d => (d.bucket_quantity_, d.begin_bucket_, d.backSlot))
      = some (4, 1, (3, 31)) ∧
    ((Deque.mk0 Nat).run (List.replicate 96 (.push_back 0))).map
        (fun d => (d.bucket_quantity_, d.begin_bucket_, d.get_rbegin.1))
      = some (8, 1, 3) ∧
    ¬ (4 / 2 ≤ 1) := by
  refine ⟨by decide, by decide, by decide, by decide, by decide, by decide⟩


section
variable {T : Type}

theorem setSlot_other {bs bs1 : List (Bucket T)} {i j : Nat} {x : Option T}
    (h : setSlot bs i j x = some bs1) (k : Nat) (hk : k ≠ i) : bs1[k]? = bs[k]? := by
  unfold setSlot at h
  cases hb : bs[i]? with
  | none => simp [hb] at h
  | some b =>
    simp only [hb] at h
    split at h
    · injection h with h
      rw [← h, List.getElem?_set_ne (Ne.symm hk)]
    · simp at h

theorem newBuckets_get (n k : Nat) (hk : k < n) :
    (newBuckets T n)[k]? = some (Bucket.mk0 T) := by
  unfold newBuckets
  rw [List.getElem?_replicate, if_pos hk]

/-- The growth of `push_back`: the begin marker is unchanged, the last live bucket is the
bucket `q - 1` of the `2 * q` buckets, and the buckets from `q` on are new and empty. -/
theorem push_back_growth {d d1 : Deque T} {l : List T} (h : Repr d l) {v : T}
    (hp : d.push_back v = some d1)
    (hg : d.backSlot.1 = d.bucket_quantity_ - 1 ∧ d.backSlot.2 = Bucket.size - 1) :
    d1.bucket_quantity_ = 2 * d.bucket_quantity_ ∧ d1.begin_bucket_ = d.begin_bucket_ ∧
    d1.begin_index_ = d.begin_index_ ∧
    (∀ k, d.bucket_quantity_ ≤ k → k < 2 * d.bucket_quantity_ →
      d1.buckets_[k]? = some (Bucket.mk0 T)) := by
  obtain ⟨fbb, fbi, _, fq⟩ := push_back_fields hp
  rw [if_pos hg] at fq
  refine ⟨fq, fbb, fbi, ?_⟩
  obtain ⟨hlen, _, hq, hbb, hbi, hcap, h0, _, _⟩ := h
  have hbs := backSlot_eq hbb hbi h0
  have hs : d.size_ ≠ 0 := by
    intro hs
    have hz := h0 hs
    have h2 := hg.2
    rw [hbs] at h2
    simp only [] at h2
    unfold in_bucket_index Deque.first Bucket.size at h2
    rw [hs, hz] at h2
    omega
  have hlast : d.get_rbegin.1 = d.bucket_quantity_ - 1 := by
    have h1 := hg.1
    have h2 := hg.2
    rw [hbs] at h1 h2
    simp only [] at h1 h2
    unfold Deque.get_rbegin
    unfold bucket_index in_bucket_index Deque.first Bucket.size at *
    simp only [hs, if_false]
    omega
  have hbq : d.begin_bucket_ ≤ d.bucket_quantity_ - 1 := by
    unfold Deque.first Bucket.size at hcap
    have : d.begin_bucket_ < d.bucket_quantity_ := by
      by_contra hc
      have : d.bucket_quantity_ ≤ d.begin_bucket_ := by omega
      have : 32 * d.bucket_quantity_ ≤ d.begin_bucket_ * 32 := by omega
      omega
    omega
  obtain ⟨nb, hcopy, _, hnbget⟩ :=
    copyBuckets_spec d.buckets_ 0 (d.get_rbegin.1 + 1 - d.begin_bucket_)
      d.begin_bucket_ (newBuckets T (d.bucket_quantity_ <<< 1))
      (by rw [hlast, hlen]; omega)
      (by
        simp only [newBuckets, List.length_replicate, shiftLeft_one]
        rw [hlast]
        omega)
  rw [push_back_eq, if_pos hg, hcopy] at hp
  simp only [] at hp
  cases hk : construct nb d.backSlot.1 d.backSlot.2 v with
  | none => simp [hk] at hp
  | some nb2 =>
    simp only [hk, Option.some.injEq] at hp
    subst hp
    intro k hk1 hk2
    show nb2[k]? = _
    rw [setSlot_other hk k (by rw [hg.1]; omega), hnbget, if_neg (by rw [hlast]; omega)]
    exact newBuckets_get _ _ (by rw [shiftLeft_one]; exact hk2)

/-- The growth of `push_front`: the begin marker becomes bucket `q`, index 31, the last
live bucket is `q` buckets further than it was, and the buckets below `q` are new and
empty. -/
theorem push_front_growth {d d1 : Deque T} {l : List T} (h : Repr d l) {v : T}
    (hp : d.push_front v = some d1) (hg : d.begin_bucket_ = 1 ∧ d.begin_index_ = 0) :
    d1.bucket_quantity_ = 2 * d.bucket_quantity_ ∧ d1.begin_bucket_ = d.bucket_quantity_ ∧
    d1.begin_index_ = Bucket.size - 1 ∧
    (d.size_ ≠ 0 → d1.get_rbegin.1 = d.get_rbegin.1 + d.bucket_quantity_) ∧
    (∀ k, k < d.bucket_quantity_ → d1.buckets_[k]? = some (Bucket.mk0 T)) := by
  obtain ⟨fsz, fq, fg, _⟩ := push_front_fields hp
  rw [if_pos hg] at fq
  obtain ⟨fbb, fbi⟩ := fg hg
  obtain ⟨hlen, _, hq, hbb, hbi, hcap, h0, _, _⟩ := h
  refine ⟨fq, fbb, fbi, ?_, ?_⟩
  · intro hs
    unfold Deque.get_rbegin
    rw [fsz, fbb, fbi, hg.1, hg.2, if_neg (by omega), if_neg hs]
    unfold Bucket.size
    simp only []
    omega
  · have hlast : d.get_rbegin.1 + 1 ≤ d.bucket_quantity_ := by
      unfold Deque.get_rbegin
      unfold Deque.first Bucket.size at *
      by_cases hs : d.size_ = 0
      · simp only [hs, if_true]
        omega
      · simp only [hs, if_false]
        omega
    obtain ⟨nb, hcopy, _, hnbget⟩ :=
      copyBuckets_spec d.buckets_ d.bucket_quantity_ (d.get_rbegin.1 + 1 - d.begin_bucket_)
        d.begin_bucket_ (newBuckets T (d.bucket_quantity_ <<< 1))
        (by rw [hlen]; omega)
        (by
          simp only [newBuckets, List.length_replicate, shiftLeft_one]
          omega)
    unfold Deque.push_front at hp
    rw [if_pos hg] at hp
    simp only [hcopy] at hp
    cases hk : construct nb d.bucket_quantity_ (Bucket.size - 1) v with
    | none => simp [hk] at hp
    | some nb2 =>
      simp only [hk, Option.some.injEq] at hp
      subst hp
      intro k hk1
      show nb2[k]? = _
      rw [setSlot_other hk k (by omega), hnbget, if_neg (by omega)]
      exact newBuckets_get _ _ (by rw [shiftLeft_one]; omega)

end

/-- C33, amended: a growth from `q` to `2 * q` buckets does not move the live buckets to
the middle of the new array. When `push_back` grows the array, every live bucket keeps
its index: the begin marker is unchanged, the last live bucket index is `q - 1`, where
the new element is in slot 31, and the buckets `q` to `2 * q - 1` are new and empty. When
`push_front` grows the array, every live bucket index is raised by `q`: the begin marker
is bucket `q`, index 31, the last live bucket index is the former one plus `q`, and the
buckets `0` to `q - 1` are new and empty. In both cases the deque holds the former
elements and the new one. -/
theorem growth_keeps_or_raises_the_live_buckets :
    ∀ (T : Type) (d : Deque T) (l : List T) (v : T), Repr d l →
      (d.backSlot = (d.bucket_quantity_ - 1, 31) →
        ∃ d1, d.push_back v = some d1 ∧ Repr d1 (l ++ [v]) ∧
          d1.bucket_quantity_ = 2 * d.bucket_quantity_ ∧
          d1.begin_bucket_ = d.begin_bucket_ ∧ d1.begin_index_ = d.begin_index_ ∧
          d1.get_rbegin = (d.bucket_quantity_ - 1, 31) ∧
          ∀ k, d.bucket_quantity_ ≤ k → k < 2 * d.bucket_quantity_ →
            d1.buckets_[k]? = some (Bucket.mk0 T)) ∧
      (d.begin_bucket_ = 1 ∧ d.begin_index_ = 0 →
        ∃ d1, d.push_front v = some d1 ∧ Repr d1 (v :: l) ∧
          d1.bucket_quantity_ = 2 * d.bucket_quantity_ ∧
          d1.begin_bucket_ = d.bucket_quantity_ ∧ d1.begin_index_ = 31 ∧
          (l ≠ [] → d1.get_rbegin.1 = d.get_rbegin.1 + d.bucket_quantity_) ∧
          ∀ k, k < d.bucket_quantity_ → d1.buckets_[k]? = some (Bucket.mk0 T)) := by
  intro T d l v h
  constructor
  · intro hg
    have hg' : d.backSlot.1 = d.bucket_quantity_ - 1 ∧ d.backSlot.2 = Bucket.size - 1 := by
      rw [hg]
      exact ⟨rfl, rfl⟩
    obtain ⟨d1, hpb, hr1⟩ := deque_push_back_repr h v
    obtain ⟨g1, g2, g3, g4⟩ := push_back_growth h hpb hg'
    obtain ⟨s1, _⟩ := push_back_slot h hpb hr1
    exact ⟨d1, hpb, hr1, g1, g2, g3, by rw [s1, hg], g4⟩
  · intro hg
    obtain ⟨d1, hpf, hr1⟩ := deque_push_front_repr h v
    obtain ⟨g1, g2, g3, g4, g5⟩ := push_front_growth h hpf hg
    refine ⟨d1, hpf, hr1, g1, g2, g3, ?_, g5⟩
    intro hne
    apply g4
    rw [h.2.2.2.2.2.2.2.1]
    exact fun hc => hne (List.length_eq_zero.1 hc)

/-- Witness for C33: `push_front(2)` on the deque that `push_back(1)` leaves, whose begin
marker is at bucket 1, index 0. -/
theorem growth_keeps_or_raises_the_live_buckets_witness :
    ∃ d : Deque Nat, (Deque.mk0 Nat).run [.push_back 1] = some d ∧ Repr d [1] ∧
      (d.begin_bucket_ = 1 ∧ d.begin_index_ = 0) ∧
      ∃ d1, d.push_front 2 = some d1 ∧ Repr d1 [2, 1] ∧
        d1.bucket_quantity_ = 2 * d.bucket_quantity_ ∧ d1.begin_bucket_ = d.bucket_quantity_ :=
  match deque_push_back_repr (Repr_mk0 (T := Nat)) 1 with
  | ⟨d, h1, h2⟩ =>
    have hb : d.begin_bucket_ = 1 ∧ d.begin_index_ = 0 :=
      ⟨(push_back_fields h1).1, (push_back_fields h1).2.1⟩
    match (growth_keeps_or_raises_the_live_buckets Nat d [1] 2 h2).2 hb with
    | ⟨d1, r1, r2, r3, r4, _⟩ =>
      ⟨d, by simp only [Deque.run, Deque.apply, h1], h2, hb, d1, r1, r2, r3, r4⟩


section
variable {T : Type}

end


section
variable {T : Type}

end


end DequeH
namespace DequeH

open SeqRef

/-! ## deque.h : iterator arithmetic at the limits of `int`, `insert` by reference -/

section
variable {T : Type}

/-- The calls `push_back(v)`, `n` times, on a well formed deque: they return, the deque
then holds `n` more elements `v`, and the begin marker is where it was. -/
theorem push_backs_repr (v : T) : ∀ (n : Nat) (d : Deque T) (l : List T), Repr d l →
    ∃ d1, d.run (List.replicate n (Op.push_back v)) = some d1 ∧
      Repr d1 (l ++ List.replicate n v) ∧ d1.begin_bucket_ = d.begin_bucket_ ∧
      d1.begin_index_ = d.begin_index_ ∧ d1.size_ = d.size_ + n := by
  intro n
  induction n with
  | zero =>
    intro d l h
    exact ⟨d, rfl, by simpa using h, rfl, rfl, rfl⟩
  | succ n ih =>
    intro d l h
    obtain ⟨d1, hpb, hr1⟩ := deque_push_back_repr h v
    obtain ⟨fbb, fbi, fsz, _⟩ := push_back_fields hpb
    obtain ⟨d2, hrun, hr2, gbb, gbi, gsz⟩ := ih d1 (l ++ [v]) hr1
    refine ⟨d2, ?_, ?_, by rw [gbb, fbb], by rw [gbi, fbi], by rw [gsz, fsz]; omega⟩
    · rw [List.replicate_succ]
      show (match d.apply (Op.push_back v) with
        | none => none
        | some d1 => d1.run (List.replicate n (Op.push_back v))) = some d2
      have : d.apply (Op.push_back v) = some d1 := hpb
      rw [this]
      exact hrun
    · have e : l ++ List.replicate (n + 1) v = l ++ [v] ++ List.replicate n v := by
        rw [List.replicate_succ, List.append_assoc]
        rfl
      rw [e]
      exact hr2

/-- The deque that `n` calls `push_back(v)` build from the default-constructed one: it is
well formed, holds `n` elements, its begin marker is bucket 1, index 0, and its bucket
array has room for them. -/
theorem push_backs_mk0 (v : T) (n : Nat) :
    ∃ d, (Deque.mk0 T).run (List.replicate n (Op.push_back v)) = some d ∧
      Repr d (List.replicate n v) ∧ d.begin_bucket_ = 1 ∧ d.begin_index_ = 0 ∧
      d.size_ = n ∧ d.size = n ∧ 32 + n + 1 ≤ 32 * d.bucket_quantity_ := by
  obtain ⟨d, hrun, hr, hbb, hbi, hsz⟩ := push_backs_repr v n (Deque.mk0 T) [] Repr_mk0
  have hbb' : d.begin_bucket_ = 1 := hbb
  have hbi' : d.begin_index_ = 0 := hbi
  have hsz' : d.size_ = n := by
    rw [hsz]
    show 0 + n = n
    omega
  have hcap := hr.2.2.2.2.2.1
  unfold Deque.first Bucket.size at hcap
  rw [hbb', hbi', hsz'] at hcap
  refine ⟨d, hrun, ?_, hbb', hbi', hsz', hsz', by omega⟩
  rw [List.nil_append] at hr
  exact hr

end

/-- The iterators of a deque of `2^31` elements whose begin marker is bucket 1,
index 0. -/
theorem int_limit_iterators {T : Type} (d : Deque T) (hsz : d.size_ = 2 ^ 31)
    (hbb : d.begin_bucket_ = 1) (hbi : d.begin_index_ = 0)
    (hq : 32 + 2 ^ 31 + 1 ≤ 32 * d.bucket_quantity_) :
    d.begin = some ⟨1, 0⟩ ∧ d.end = some ⟨2 ^ 26 + 1, 0⟩ ∧
    ((⟨2 ^ 26 + 1, 0⟩ : Iter).add d.bucket_quantity_ INT_MIN = some ⟨1, 0⟩ ∧
      (⟨1, 0⟩ : Iter).sub d.bucket_quantity_ INT_MIN = none) ∧
    (⟨1, 0⟩ : Iter).addSize d.bucket_quantity_ d.size = none ∧
    ((⟨1, 0⟩ : Iter).add d.bucket_quantity_ (2 ^ 30) = some ⟨2 ^ 25 + 1, 0⟩ ∧
      (⟨2 ^ 25 + 1, 0⟩ : Iter).add d.bucket_quantity_ (2 ^ 30) = some ⟨2 ^ 26 + 1, 0⟩ ∧
      (⟨1, 0⟩ : Iter).add d.bucket_quantity_ (2 ^ 30 + 2 ^ 30) = none) := by
  have hmin : (INT_MIN : Int) = -2147483648 := by decide
  have hmax : (INT_MAX : Int) = 2147483647 := by decide
  have hto : UnorderedMapH.toInt (2 ^ 31) = INT_MIN := by decide
  refine ⟨?_, ?_, ⟨?_, ?_⟩, ?_, ?_, ?_, ?_⟩
  · unfold Deque.begin Iter.make
    rw [hbb, hbi, if_pos (by constructor <;> omega)]
    rfl
  · unfold Deque.end Iter.make Deque.get_end
    simp only [hbb, hbi, hsz, Bucket.size]
    rw [if_pos (by constructor <;> omega)]
    simp only [Option.some.injEq, Iter.mk.injEq]
    constructor <;> omega
  · unfold Iter.add
    rw [addAssign_eq _ _ _ (le_refl _) (by rw [hmin, hmax]; omega), hmin]
    simp only []
    rw [if_pos (by constructor <;> omega)]
    simp only [Option.some.injEq, Iter.mk.injEq]
    constructor <;> omega
  · unfold Iter.sub Iter.subAssign
    rw [if_neg (by rw [hmin, hmax]; omega), if_pos rfl]
  · unfold Iter.addSize Deque.size Iter.add
    rw [hsz, hto, addAssign_eq _ _ _ (le_refl _) (by rw [hmin, hmax]; omega), hmin]
    simp only []
    rw [if_neg (by omega)]
  · unfold Iter.add
    rw [addAssign_eq _ _ _ (by rw [hmin]; omega) (by rw [hmax]; omega)]
    simp only []
    rw [if_pos (by constructor <;> omega)]
    simp only [Option.some.injEq, Iter.mk.injEq]
    constructor <;> omega
  · unfold Iter.add
    rw [addAssign_eq _ _ _ (by rw [hmin]; omega) (by rw [hmax]; omega)]
    simp only []
    rw [if_pos (by constructor <;> omega)]
    simp only [Option.some.injEq, Iter.mk.injEq]
    constructor <;> omega
  · unfold Iter.add
    exact addAssign_not_int _ _ _ (Or.inr (by rw [hmax]; omega))

/-- Counterexample for C24: on the deque that `2^31` calls `push_back(0)` build from the
default-constructed one, `end() + INT_MIN` is `begin()`, inside the bucket array, but
`(end() + INT_MIN) - INT_MIN` is undefined (the negation in `operator-=` overflows) and
not `end()`; `begin() + size()`, whose argument is converted to the `int` value
`INT_MIN`, leaves the bucket array and is not `end()`; and with `n = m = 2^30`, which both
keep the position inside the bucket array, `(begin() + n) + m` is `end()`, but the `int`
sum `n + m` of `begin() + (n + m)` overflows. -/
theorem iterator_arithmetic_at_int_limits :
    ∃ d : Deque Nat,
      (Deque.mk0 Nat).run (List.replicate (2 ^ 31) (Op.push_back 0)) = some d ∧
      Repr d (List.replicate (2 ^ 31) 0) ∧ d.size = 2 ^ 31 ∧
      d.begin = some ⟨1, 0⟩ ∧ d.end = some ⟨2 ^ 26 + 1, 0⟩ ∧
      ((⟨2 ^ 26 + 1, 0⟩ : Iter).add d.bucket_quantity_ INT_MIN = some ⟨1, 0⟩ ∧
        (⟨1, 0⟩ : Iter).sub d.bucket_quantity_ INT_MIN = none) ∧
      (UnorderedMapH.toInt (2 ^ 31) = INT_MIN ∧
        (⟨1, 0⟩ : Iter).addSize d.bucket_quantity_ d.size = none) ∧
      ((⟨1, 0⟩ : Iter).add d.bucket_quantity_ (2 ^ 30) = some ⟨2 ^ 25 + 1, 0⟩ ∧
        (⟨2 ^ 25 + 1, 0⟩ : Iter).add d.bucket_quantity_ (2 ^ 30) = some ⟨2 ^ 26 + 1, 0⟩ ∧
        INT_MAX < (2 ^ 30 + 2 ^ 30 : Int) ∧
        (⟨1, 0⟩ : Iter).add d.bucket_quantity_ (2 ^ 30 + 2 ^ 30) = none) :=
  match push_backs_mk0 (0 : Nat) (2 ^ 31) with
  | ⟨d, hrun, hr, hbb, hbi, hsz, hsz', hq⟩ =>
    match int_limit_iterators d hsz hbb hbi hq with
    | ⟨a1, a2, a3, a4, a5, a6, a7⟩ =>
      ⟨d, hrun, hr, hsz', a1, a2, a3, ⟨by decide, a4⟩, a5, a6, by decide, a7⟩

/-- C24, amended: for every iterator `it` and every `int` `n` that keeps the position
inside the bucket array (negative values and crossings of bucket boundaries included),
`(it + n) - it == n`; `(it + n) + m == it + (n + m)` for every `int` `m` whose sum with
`n` is an `int`; and `(it + n) - n == it` when `n` is not `INT_MIN`. For every well
formed deque with `size()` at most `INT_MAX`, `begin() + size() == end()` and
`*(begin() + i)` is `operator[](i)`, the `i`-th element, for every `i < size()`. -/
theorem iterator_arithmetic_is_element_distance :
    (∀ (q : Nat) (it it1 : Iter) (n : Int), INT_MIN ≤ n → n ≤ INT_MAX →
      it.add q n = some it1 →
      it1.diff it = n ∧
      (∀ m, INT_MIN ≤ m → m ≤ INT_MAX → INT_MIN ≤ n + m → n + m ≤ INT_MAX →
        it1.add q m = it.add q (n + m)) ∧
      (it.position_ < Bucket.size → 0 ≤ it.bucket_ → it.bucket_ < q → n ≠ INT_MIN →
        it1.sub q n = some it)) ∧
    (∀ (T : Type) (d : Deque T) (l : List T), Repr d l → (d.size : Int) ≤ INT_MAX →
      ∃ b e, d.begin = some b ∧ d.end = some e ∧
        b.addSize d.bucket_quantity_ d.size = some e ∧
        ∀ i, i < d.size → ∃ it, b.addSize d.bucket_quantity_ i = some it ∧
          d.deref it = d.index i ∧ d.index i = l[i]?) := by
  refine ⟨?_, ?_⟩
  · intro q it it1 n _ _ h
    exact iter_algebra q it it1 n h
  · intro T d l h hs
    have hs' : d.size < 2 ^ 31 := by
      unfold INT_MAX at hs
      omega
    obtain ⟨hb, he, hsum, hidx⟩ := begin_plus_repr h hs'
    refine ⟨_, _, hb, he, by rw [hsum, he], ?_⟩
    intro i hi
    obtain ⟨it, h1, h2⟩ := hidx i hi
    exact ⟨it, h1, h2, index_of_repr h i hi⟩

/-- Witness for C24: from position 30 of bucket 1, 35 slots back and 3 slots on; and the
deque after three pushes. -/
theorem iterator_arithmetic_is_element_distance_witness :
    ((INT_MIN ≤ -35 ∧ (-35 : Int) ≤ INT_MAX ∧
        (⟨1, 30⟩ : Iter).add 4 (-35) = some ⟨0, 27⟩) ∧
      (⟨0, 27⟩ : Iter).diff ⟨1, 30⟩ = -35 ∧
      (⟨0, 27⟩ : Iter).add 4 3 = (⟨1, 30⟩ : Iter).add 4 (-35 + 3) ∧
      (⟨0, 27⟩ : Iter).sub 4 (-35) = some ⟨1, 30⟩) ∧
    (∃ d : Deque Nat,
      (Deque.mk0 Nat).run [.push_back 7, .push_back 8, .push_front 6] = some d ∧
      Repr d [6, 7, 8] ∧
      ∃ b e, d.begin = some b ∧ d.end = some e ∧
        b.addSize d.bucket_quantity_ d.size = some e) :=
  ⟨⟨⟨by decide, by decide, by decide⟩,
      (iterator_arithmetic_is_element_distance.1 4 ⟨1, 30⟩ ⟨0, 27⟩ (-35) (by decide)
        (by decide) (by decide)).1,
      (iterator_arithmetic_is_element_distance.1 4 ⟨1, 30⟩ ⟨0, 27⟩ (-35) (by decide)
        (by decide) (by decide)).2.1 3 (by decide) (by decide) (by decide) (by decide),
      (iterator_arithmetic_is_element_distance.1 4 ⟨1, 30⟩ ⟨0, 27⟩ (-35) (by decide)
        (by decide) (by decide)).2.2 (by decide) (by decide) (by decide) (by decide)⟩,
    match three_repr with
    | ⟨d, h1, h3⟩ =>
      have hsz : d.size = 3 := h3.2.2.2.2.2.2.2.1
      match iterator_arithmetic_is_element_distance.2 Nat d [6, 7, 8] h3
          (by rw [hsz]; decide) with
      | ⟨b, e, r1, r2, r3, _⟩ => ⟨d, h1, h3, b, e, r1, r2, r3⟩⟩

/-! ### `insert` and `erase` at `begin() + i` -/

/-- The index `2^31` on a deque of more than `2^31` elements: `begin() + i` converts it
to the `int` value `INT_MIN` and leaves the bucket array. -/
theorem beginPlus_beyond_int {T : Type} (d : Deque T) (hbb : d.begin_bucket_ = 1)
    (hbi : d.begin_index_ = 0) (hq : 2 ≤ d.bucket_quantity_) :
    d.beginPlus (2 ^ 31) = none := by
  have hmin : (INT_MIN : Int) = -2147483648 := by decide
  have hmax : (INT_MAX : Int) = 2147483647 := by decide
  have hto : UnorderedMapH.toInt (2 ^ 31) = INT_MIN := by decide
  unfold Deque.beginPlus Deque.begin Iter.make
  rw [hbb, hbi, if_pos (by constructor <;> omega)]
  simp only []
  unfold Iter.addSize Iter.add
  rw [hto, addAssign_eq _ _ _ (le_refl _) (by rw [hmin, hmax]; omega), hmin]
  simp only []
  rw [if_neg (by omega)]

/-- C31 (the code departs from the claim when the argument of `insert` is a reference to
an element of the deque behind the position). On every well formed deque holding `l`,
for every index `i` that is at most `INT_MAX`: `insert(begin() + i, v)` with
`i <= size()` and `v` an object outside the deque returns and leaves the elements before
`i`, then `v`, then the elements from `i` on, with `size()` one more, also when the
`push_back` inside reallocates the bucket array; with the argument `d[j]`, a reference to
the element `j` of the deque, it returns and leaves at the position `i` what the
reference designates after the elements have been moved, which is the element `j` for
`j <= i` and the element `j - 1` for `j > i`; and `erase(begin() + i)` with `i < size()`
returns and leaves the elements other than the one at `i`, in order, with `size()` one
less. On the deque holding 1, 2, 3 the call `insert(begin(), d[2])` leaves 2, 1, 2, 3 and
not 3, 1, 2, 3. On the deque that `2^31 + 32` calls `push_back(0)` build, the index
`2^31` is less than `size()`, but `begin() + i` converts it to the `int` value `INT_MIN`
and leaves the bucket array, so that neither call at it is defined. -/
theorem insert_reads_its_argument_after_the_shift :
    (∀ (T : Type) (d : Deque T) (l : List T) (i : Nat) (fuel : Nat),
      Repr d l → (i : Int) ≤ INT_MAX → l.length + 1 ≤ fuel →
      (i ≤ l.length → ∀ v : T, ∃ d1 d2, d.push_back v = some d1 ∧
        d.insertAt i (.outside v) fuel = some d2 ∧
        Repr d2 (l.take i ++ v :: l.drop i) ∧ d2.size = l.length + 1 ∧
        d2.bucket_quantity_ = d1.bucket_quantity_ ∧
        ∀ k, k < d2.size → d2.index k = (l.take i ++ v :: l.drop i)[k]?) ∧
      (i ≤ l.length → ∀ (j : Nat) (w : T), j < l.length →
        (if j ≤ i then l[j]? else l[j - 1]?) = some w →
        ∃ d2, d.insertAt i (d.ref j) fuel = some d2 ∧
          Repr d2 (l.take i ++ w :: l.drop i) ∧ d2.size = l.length + 1 ∧
          ∀ k, k < d2.size → d2.index k = (l.take i ++ w :: l.drop i)[k]?) ∧
      (i < l.length → ∃ d2, d.eraseAt i fuel = some d2 ∧
        Repr d2 (l.take i ++ l.drop (i + 1)) ∧ d2.size = l.length - 1 ∧
        ∀ k, k < d2.size → d2.index k = (l.take i ++ l.drop (i + 1))[k]?)) ∧
    (((Deque.mk0 Nat).run [.push_back 1, .push_back 2, .push_back 3]).bind
        (fun d => d.insertAt 0 (d.ref 2) 4)).map
        (fun d => (d.size, d.index 0, d.index 1, d.index 2, d.index 3))
      = some (4, some 2, some 1, some 2, some 3) ∧
    (∃ d : Deque Nat,
      (Deque.mk0 Nat).run (List.replicate (2 ^ 31 + 32) (Op.push_back 0)) = some d ∧
      Repr d (List.replicate (2 ^ 31 + 32) 0) ∧ d.size = 2 ^ 31 + 32 ∧
      UnorderedMapH.toInt (2 ^ 31) = INT_MIN ∧ d.beginPlus (2 ^ 31) = none ∧
      (∀ value fuel, d.insertAt (2 ^ 31) value fuel = none) ∧
      (∀ fuel, d.eraseAt (2 ^ 31) fuel = none)) := by
  refine ⟨?_, by decide, ?_⟩
  · intro T d l i fuel h hint hf
    have hi31 : i < 2 ^ 31 := by
      unfold INT_MAX at hint
      omega
    have hsz : d.size_ = l.length := h.2.2.2.2.2.2.2.1
    refine ⟨?_, ?_, ?_⟩
    · intro hi v
      obtain ⟨d1, d2, hpb, hins, hr, _, _, hq, hs2⟩ :=
        insert_spec h i hi (.outside v) v v (Or.inl ⟨rfl, rfl⟩) fuel hf
      refine ⟨d1, d2, hpb, ?_, hr, by show d2.size_ = _; omega, hq,
        fun k hk => index_of_repr hr k hk⟩
      unfold Deque.insertAt
      rw [beginPlus_ofPos h i (by omega) hi31]
      exact hins
    · intro hi j w hj hw
      obtain ⟨_, d2, _, hins, hr, _, _, _, hs2⟩ :=
        insert_spec h i hi (d.ref j) l[j] w
          (Or.inr ⟨j, hj, rfl, List.getElem?_eq_getElem hj, hw⟩) fuel hf
      refine ⟨d2, ?_, hr, by show d2.size_ = _; omega, fun k hk => index_of_repr hr k hk⟩
      unfold Deque.insertAt
      rw [beginPlus_ofPos h i (by omega) hi31]
      exact hins
    · intro hi
      obtain ⟨d2, hers, hr, _, hs2, _, _⟩ := erase_spec h i hi fuel (by omega)
      refine ⟨d2, ?_, hr, by show d2.size_ = _; omega, fun k hk => index_of_repr hr k hk⟩
      unfold Deque.eraseAt
      rw [beginPlus_ofPos h i (by omega) hi31]
      exact hers
  · obtain ⟨d, hrun, hr, hbb, hbi, _, hsz', _⟩ := push_backs_mk0 (0 : Nat) (2 ^ 31 + 32)
    have hb := beginPlus_beyond_int d hbb hbi hr.2.2.1
    refine ⟨d, hrun, hr, hsz', by decide, hb, ?_, ?_⟩
    · intro value fuel
      unfold Deque.insertAt
      rw [hb]
    · intro fuel
      unfold Deque.eraseAt
      rw [hb]

/-- Witness for C31: `insert(begin() + 1, 9)`, `insert(begin() + 1, d[2])` and
`erase(begin() + 1)` on the deque holding 6, 7, 8. -/
theorem insert_reads_its_argument_after_the_shift_witness :
    ∃ d : Deque Nat,
      (Deque.mk0 Nat).run [.push_back 7, .push_back 8, .push_front 6] = some d ∧
      Repr d [6, 7, 8] ∧ ((1 : Nat) : Int) ≤ INT_MAX ∧
      (∃ d2, d.insertAt 1 (.outside 9) 4 = some d2 ∧ Repr d2 [6, 9, 7, 8]) ∧
      (∃ d2, d.insertAt 1 (d.ref 2) 4 = some d2 ∧ Repr d2 [6, 7, 7, 8]) ∧
      (∃ d2, d.eraseAt 1 4 = some d2 ∧ Repr d2 [6, 8]) :=
  match three_repr with
  | ⟨d, h1, h2⟩ =>
    match (insert_reads_its_argument_after_the_shift.1 Nat d [6, 7, 8] 1 4 h2 (by decide)
      (by decide)) with
    | ⟨hins, href, hers⟩ =>
      match hins (by decide) 9, href (by decide) 2 7 (by decide) (by decide),
        hers (by decide) with
      | ⟨_, d2, _, r1, r2, _⟩, ⟨d4, t1, t2, _⟩, ⟨d3, s1, s2, _⟩ =>
        ⟨d, h1, h2, by decide, ⟨d2, r1, r2⟩, ⟨d4, t1, t2⟩, ⟨d3, s1, s2⟩⟩

/-- Counterexample for C34: on the deque that `push_back` of 1, 2, 3, 4 builds, the begin
marker is bucket 1, index 0 and the element 4 is in slot 3 of bucket 1. The position 0 is
closer to the front (`0 < size() / 2`), but `insert(begin() + 0, 9)` leaves the begin
marker where it was and moves the elements behind the position: slot 3 of bucket 1 then
holds 3 and slot 4 holds 4. Likewise `erase(begin() + 0)` leaves the begin marker and
moves the elements behind the position: slot 2 of bucket 1 then holds 4. -/
theorem insert_near_front_shifts_the_back :
    ((Deque.mk0 Nat).run [.push_back 1, .push_back 2, .push_back 3, .push_back 4]).map
        (fun d => (d.size, d.begin_bucket_, d.begin_index_, slot d.buckets_ 1 3))
      = some (4, 1, 0, some (some 4)) ∧
    0 < 4 / 2 ∧
    (((Deque.mk0 Nat).run [.push_back 1, .push_back 2, .push_back 3, .push_back 4]).bind
        (fun d => d.insertAt 0 (.outside 9) 5)).map
        (fun d => (d.begin_bucket_, d.begin_index_, slot d.buckets_ 1 3, slot d.buckets_ 1 4))
      = some (1, 0, some (some 3), some (some 4)) ∧
    (((Deque.mk0 Nat).run [.push_back 1, .push_back 2, .push_back 3, .push_back 4]).bind
        (fun d => d.eraseAt 0 5)).map
        (fun d => (d.begin_bucket_, d.begin_index_, slot d.buckets_ 1 2))
      = some (1, 0, some (some 4)) := by
  refine ⟨by decide, by decide, by decide, by decide⟩

/-- C34, amended: `insert` and `erase` always move the elements behind the position,
whatever the index `i` (at most `INT_MAX`, for `begin() + i`). After
`insert(begin() + i, value)` the begin marker is unchanged, every element before `i` is
in the slot it had, every element from `i` on is one slot further back, and the slot of
position `i` holds what the reference `value` designates after the move: the object `v`
for a reference to an object outside the deque, and for a reference `d[j]` to an element
of the deque the element `j` when `j <= i` and the element `j - 1` when `j > i`. After
`erase(begin() + i)` every element before `i` is in the slot it had and every element
after `i` is one slot nearer the front; the begin marker is unchanged, except that after
the erase of the only element `pop_back` has reset it to bucket `bucket_quantity / 2`,
index 0. -/
theorem insert_and_erase_shift_toward_the_back :
    ∀ (T : Type) (d : Deque T) (l : List T) (i : Nat) (fuel : Nat),
      Repr d l → (i : Int) ≤ INT_MAX → l.length + 1 ≤ fuel →
      (i ≤ l.length → ∀ (value : ValueRef T) (w : T),
        (value = .outside w ∨ ∃ j, j < l.length ∧ value = d.ref j ∧
          (if j ≤ i then l[j]? else l[j - 1]?) = some w) →
        ∃ d2, d.insertAt i value fuel = some d2 ∧
        d2.begin_bucket_ = d.begin_bucket_ ∧ d2.begin_index_ = d.begin_index_ ∧
        (∀ k, k < i → cell d2.buckets_ (d.first + k) = some l[k]? ∧
          cell d.buckets_ (d.first + k) = some l[k]?) ∧
        (∀ k, i ≤ k → k < l.length → cell d2.buckets_ (d.first + k + 1) = some l[k]? ∧
          cell d.buckets_ (d.first + k) = some l[k]?) ∧
        cell d2.buckets_ (d.first + i) = some (some w)) ∧
      (i < l.length → ∃ d2, d.eraseAt i fuel = some d2 ∧
        (l.length ≠ 1 → d2.begin_bucket_ = d.begin_bucket_ ∧
          d2.begin_index_ = d.begin_index_) ∧
        (l.length = 1 → d2.begin_bucket_ = d.bucket_quantity_ >>> 1 ∧
          d2.begin_index_ = 0 ∧ d2.size = 0) ∧
        (∀ k, k < i → cell d2.buckets_ (d.first + k) = some l[k]? ∧
          cell d.buckets_ (d.first + k) = some l[k]?) ∧
        (∀ k, i < k → k < l.length → cell d2.buckets_ (d.first + k - 1) = some l[k]? ∧
          cell d.buckets_ (d.first + k) = some l[k]?)) := by
  intro T d l i fuel h hint hf
  have hi31 : i < 2 ^ 31 := by
    unfold INT_MAX at hint
    omega
  have hsz : d.size_ = l.length := h.2.2.2.2.2.2.2.1
  have hcells := h.2.2.2.2.2.2.2.2
  constructor
  · intro hi value w hvw
    obtain ⟨v, hr0⟩ : ∃ v, (value = .outside v ∧ w = v) ∨
        ∃ j, j < l.length ∧ value = d.ref j ∧ l[j]? = some v ∧
          (if j ≤ i then l[j]? else l[j - 1]?) = some w := by
      rcases hvw with hv | ⟨j, hj, hv, hw⟩
      · exact ⟨w, Or.inl ⟨hv, rfl⟩⟩
      · exact ⟨l[j], Or.inr ⟨j, hj, hv, List.getElem?_eq_getElem hj, hw⟩⟩
    obtain ⟨d1, d2, hpb, hins, hr, hbb, hbi, _, hs2⟩ := insert_spec h i hi value v w hr0 fuel hf
    have hfirst : d2.first = d.first := by
      unfold Deque.first
      rw [hbb, hbi]
    have hc2 := hr.2.2.2.2.2.2.2.2
    have hlen2 : (l.take i ++ w :: l.drop i).length = l.length + 1 := by
      simp only [List.length_append, List.length_take, List.length_cons, List.length_drop]
      omega
    refine ⟨d2, ?_, hbb, hbi, ?_, ?_, ?_⟩
    · unfold Deque.insertAt
      rw [beginPlus_ofPos h i (by omega) hi31]
      exact hins
    · intro k hk
      refine ⟨?_, hcells k (by omega)⟩
      have := hc2 k (by rw [hlen2]; omega)
      rw [hfirst, getElem?_inserted l i w hi, if_pos hk] at this
      exact this
    · intro k hk1 hk2
      refine ⟨?_, hcells k hk2⟩
      have := hc2 (k + 1) (by rw [hlen2]; omega)
      rw [hfirst, getElem?_inserted l i w hi, if_neg (by omega), if_neg (by omega)] at this
      exact this
    · have := hc2 i (by rw [hlen2]; omega)
      rw [hfirst, getElem?_inserted l i w hi, if_neg (by omega), if_pos rfl] at this
      exact this
  · intro hi
    obtain ⟨d2, hers, hr, _, hs2, hm1, hm2⟩ := erase_spec h i hi fuel (by omega)
    have hc2 := hr.2.2.2.2.2.2.2.2
    have hlen2 : (l.take i ++ l.drop (i + 1)).length = l.length - 1 := by
      simp only [List.length_append, List.length_take, List.length_drop]
      omega
    have hfirst : l.length ≠ 1 → d2.first = d.first := by
      intro hne
      unfold Deque.first
      rw [(hm1 hne).1, (hm1 hne).2]
    refine ⟨d2, ?_, hm1, ?_, ?_, ?_⟩
    · unfold Deque.eraseAt
      rw [beginPlus_ofPos h i (by omega) hi31]
      exact hers
    · intro h1
      exact ⟨(hm2 h1).1, (hm2 h1).2, by show d2.size_ = 0; omega⟩
    · intro k hk
      refine ⟨?_, hcells k (by omega)⟩
      have := hc2 k (by rw [hlen2]; omega)
      rw [hfirst (by omega), getElem?_erased l i (by omega), if_pos hk] at this
      exact this
    · intro k hk1 hk2
      refine ⟨?_, hcells k hk2⟩
      have := hc2 (k - 1) (by rw [hlen2]; omega)
      have e : d.first + (k - 1) = d.first + k - 1 := by omega
      have e2 : k - 1 + 1 = k := by omega
      rw [hfirst (by omega), getElem?_erased l i (by omega), if_neg (by omega), e, e2] at this
      exact this

/-- Witness for C34: `insert(begin() + 1, 9)`, `insert(begin() + 1, d[2])` and
`erase(begin() + 1)` on the deque holding 6, 7, 8. -/
theorem insert_and_erase_shift_toward_the_back_witness :
    ∃ d : Deque Nat,
      (Deque.mk0 Nat).run [.push_back 7, .push_back 8, .push_front 6] = some d ∧
      Repr d [6, 7, 8] ∧ ((1 : Nat) : Int) ≤ INT_MAX ∧
      (∃ d2, d.insertAt 1 (.outside 9) 4 = some d2 ∧ d2.begin_bucket_ = d.begin_bucket_ ∧
        d2.begin_index_ = d.begin_index_ ∧ cell d2.buckets_ (d.first + 1) = some (some 9)) ∧
      (∃ d2, d.insertAt 1 (d.ref 2) 4 = some d2 ∧
        cell d2.buckets_ (d.first + 1) = some (some 7)) ∧
      (∃ d2, d.eraseAt 1 4 = some d2 ∧ d2.begin_bucket_ = d.begin_bucket_ ∧
        d2.begin_index_ = d.begin_index_) :=
  match three_repr with
  | ⟨d, h1, h2⟩ =>
    match insert_and_erase_shift_toward_the_back Nat d [6, 7, 8] 1 4 h2 (by decide)
      (by decide) with
    | ⟨hins, hers⟩ =>
      match hins (by decide) (.outside 9) 9 (Or.inl rfl),
        hins (by decide) (d.ref 2) 7 (Or.inr ⟨2, by decide, rfl, by decide⟩),
        hers (by decide) with
      | ⟨d2, r1, r2, r3, _, _, r6⟩, ⟨d4, t1, _, _, _, _, t6⟩, ⟨d3, s1, s2, _⟩ =>
        ⟨d, h1, h2, by decide, ⟨d2, r1, r2, r3, r6⟩, ⟨d4, t1, t6⟩,
          ⟨d3, s1, (s2 (by decide)).1, (s2 (by decide)).2⟩⟩

end DequeH
namespace SmartPointersH

/-! ## Managed objects that own handles -/

theorem modify_sharedBlock (w : World) (b : Nat) (f : BaseControlBlock → BaseControlBlock)
    (i : Nat) : (w.modify b f).sharedBlock i = w.sharedBlock i := rfl

/-- On a handle whose release does not run the destructor of a managed object that owns
handles, `SharedPtr::delete_block` is the one of a managed object without handles. -/
theorem owning_delete_block_eq (members : Members) (fuel : Nat) (w : World) (self : Nat)
    (hm : ∀ b, w.sharedBlock self = some (some b) → dec (w.blocks b).count_shared = 0 →
      members b = []) :
    Owning.SharedPtr.delete_block members (fuel + 1) w self = SharedPtr.delete_block w self := by
  unfold Owning.SharedPtr.delete_block SharedPtr.delete_block
  cases h : w.sharedBlock self with
  | none => rfl
  | some ob =>
    cases ob with
    | none => rfl
    | some b =>
      simp only []
      have hb : ((w.modify b
          (fun blk => { blk with count_shared := dec blk.count_shared })).blocks b).count_shared
          = dec (w.blocks b).count_shared := by
        simp [World.modify]
      by_cases hc : dec (w.blocks b).count_shared = 0
      · rw [if_pos (by rw [hb]; exact hc), if_pos (by rw [hb]; exact hc)]
        have hmb := hm b h hc
        unfold Owning.delete_object
        rw [hmb]
        simp only [destroyMembers]
        split_ifs <;> simp only [World.release, World.delete_object, modify_sharedBlock, h]
      · rw [if_neg (by rw [hb]; exact hc), if_neg (by rw [hb]; exact hc)]

/-- With managed objects that own no handle the operations are those of `step`. -/
theorem owning_step_eq (members : Members) (hm : ∀ b, members b = []) (fuel : Nat)
    (w : World) (op : Op) : Owning.step members (fuel + 1) w op = step w op := by
  have hd : ∀ w self, Owning.SharedPtr.delete_block members (fuel + 1) w self
      = SharedPtr.delete_block w self :=
    fun w self => owning_delete_block_eq members fuel w self (fun b _ _ => hm b)
  cases op <;>
    simp only [Owning.step, step, Owning.SharedPtr.assign_copy, SharedPtr.assign_copy,
      Owning.SharedPtr.assign_move, SharedPtr.assign_move, Owning.SharedPtr.reset,
      SharedPtr.reset, Owning.SharedPtr.reset_raw, SharedPtr.reset_raw,
      Owning.SharedPtr.dtor, SharedPtr.dtor, hd]

/-- With managed objects that own no handle the sequences of operations are those of
`run`. -/
theorem owning_run_eq (members : Members) (hm : ∀ b, members b = []) (fuel : Nat) :
    ∀ (ops : List Op) (w : World), Owning.run members (fuel + 1) w ops = run w ops := by
  intro ops
  induction ops with
  | nil => intro w; rfl
  | cons op ops ih =>
    intro w
    unfold Owning.run run
    rw [owning_step_eq members hm fuel w op]
    cases step w op with
    | none => rfl
    | some w1 => exact ih w1

/-- C7 (the code departs from the claim when the managed object owns the last WeakPtr on
its own block). Resetting or destroying a non-null SharedPtr whose block has strong count
`s` and weak count `k`: if `s ≥ 2` the strong count becomes `s - 1` and neither
delete_object nor the release of the block is invoked, whatever the managed objects own;
if `s = 1` and the managed object owns no handle, the strong count becomes 0,
delete_object is invoked exactly once and the block is released iff `k = 0`; `block_`
becomes null in both cases, and a block that survived with `k ≠ 0` is released by the
WeakPtr release that takes the weak count from 1 to 0 while the strong count is 0. But
after `Node* n = new Node; SharedPtr<Node> p(n); p->self = p;` with
`struct Node { WeakPtr<Node> self; };` the block has `s = 1` and `k = 1`, and `p.reset()`
invokes delete_object once, inside which the destructor of `n->self` takes the weak
count to 0 and releases the block; `delete_block` then reads `count_weak` from the
released block and releases it a second time, although `k` was not 0. -/
theorem release_by_strong_count_and_owned_handles :
    (∀ (members : Members) (fuel : Nat) (w : World) (i b : Nat),
      w.sharedBlock i = some (some b) →
      (2 ≤ (w.blocks b).count_shared →
        ∃ w', Owning.SharedPtr.reset members (fuel + 1) w i = some w' ∧
          Owning.SharedPtr.dtor members (fuel + 1) w i
            = some { w' with shared := w'.shared.set i none } ∧
          (w'.blocks b).count_shared = (w.blocks b).count_shared - 1 ∧
          (w'.blocks b).count_weak = (w.blocks b).count_weak ∧
          (w'.blocks b).deleted = (w.blocks b).deleted ∧
          (w'.blocks b).released = (w.blocks b).released ∧
          w'.sharedBlock i = some none) ∧
      (members b = [] → (w.blocks b).count_shared = 1 →
        ∃ w', Owning.SharedPtr.reset members (fuel + 1) w i = some w' ∧
          Owning.SharedPtr.dtor members (fuel + 1) w i
            = some { w' with shared := w'.shared.set i none } ∧
          (w'.blocks b).count_shared = 0 ∧
          (w'.blocks b).count_weak = (w.blocks b).count_weak ∧
          (w'.blocks b).deleted = (w.blocks b).deleted + 1 ∧
          (w'.blocks b).released = (w.blocks b).released +
            (if (w.blocks b).count_weak = 0 then 1 else 0) ∧
          w'.sharedBlock i = some none)) ∧
    (∀ (w : World) (j b : Nat), w.weakBlock j = some (some b) →
      (w.blocks b).count_shared = 0 → 1 ≤ (w.blocks b).count_weak →
        ∃ w', WeakPtr.delete_block w j = some w' ∧
          (w'.blocks b).count_weak = (w.blocks b).count_weak - 1 ∧
          (w'.blocks b).released = (w.blocks b).released +
            (if (w.blocks b).count_weak = 1 then 1 else 0)) ∧
    (∃ w0, run World.init selfObserverSetup = some w0 ∧
      w0.sharedBlock 0 = some (some 0) ∧ w0.weakBlock 0 = some (some 0) ∧
      (w0.blocks 0).count_shared = 1 ∧ (w0.blocks 0).count_weak = 1 ∧
      (w0.blocks 0).deleted = 0 ∧ (w0.blocks 0).released = 0 ∧
      (∃ w3, Owning.SharedPtr.afterDeleteObject selfObserver 1 w0 0 = some w3 ∧
        (w3.blocks 0).deleted = 1 ∧ (w3.blocks 0).count_weak = 0 ∧
        (w3.blocks 0).released = 1) ∧
      ∃ w', Owning.SharedPtr.reset selfObserver 1 w0 0 = some w' ∧
        (w'.blocks 0).count_shared = 0 ∧ (w'.blocks 0).deleted = 1 ∧
        (w'.blocks 0).released = 2 ∧ w'.sharedBlock 0 = some none) := by
  refine ⟨?_, shared_release_cases.2, ?_⟩
  · intro members fuel w i b h
    constructor
    · intro hs
      have he : Owning.SharedPtr.delete_block members (fuel + 1) w i
          = SharedPtr.delete_block w i := by
        apply owning_delete_block_eq
        intro b' hb' hd
        rw [h] at hb'
        have hbb : b = b' := Option.some.inj (Option.some.inj hb')
        subst hbb
        rw [dec_pos (by omega)] at hd
        omega
      unfold Owning.SharedPtr.reset Owning.SharedPtr.dtor
      rw [he]
      exact (shared_release_cases.1 w i b h).1 hs
    · intro hmb hs
      have he : Owning.SharedPtr.delete_block members (fuel + 1) w i
          = SharedPtr.delete_block w i := by
        apply owning_delete_block_eq
        intro b' hb' _
        rw [h] at hb'
        have hbb : b = b' := Option.some.inj (Option.some.inj hb')
        subst hbb
        exact hmb
      unfold Owning.SharedPtr.reset Owning.SharedPtr.dtor
      rw [he]
      exact (shared_release_cases.1 w i b h).2 hs
  · exact ⟨_, rfl, rfl, rfl, rfl, rfl, rfl, rfl, ⟨_, rfl, rfl, rfl, rfl⟩,
      ⟨_, rfl, rfl, rfl, rfl, rfl⟩⟩

/-- Witness for C7: with two owners the reset of one leaves strong count 1 and deletes
nothing. -/
theorem release_by_strong_count_and_owned_handles_witness :
    (stateAfter [.sp_raw 7, .sp_copy 0]).sharedBlock 1 = some (some 0) ∧
    2 ≤ ((stateAfter [.sp_raw 7, .sp_copy 0]).blocks 0).count_shared ∧
    ∃ w', Owning.SharedPtr.reset selfObserver 1 (stateAfter [.sp_raw 7, .sp_copy 0]) 1
        = some w' ∧
      Owning.SharedPtr.dtor selfObserver 1 (stateAfter [.sp_raw 7, .sp_copy 0]) 1
        = some { w' with shared := w'.shared.set 1 none } ∧
      (w'.blocks 0).count_shared = ((stateAfter [.sp_raw 7, .sp_copy 0]).blocks 0).count_shared - 1 ∧
      (w'.blocks 0).count_weak = ((stateAfter [.sp_raw 7, .sp_copy 0]).blocks 0).count_weak ∧
      (w'.blocks 0).deleted = ((stateAfter [.sp_raw 7, .sp_copy 0]).blocks 0).deleted ∧
      (w'.blocks 0).released = ((stateAfter [.sp_raw 7, .sp_copy 0]).blocks 0).released ∧
      w'.sharedBlock 1 = some none :=
  ⟨rfl, by decide,
    ((release_by_strong_count_and_owned_handles.1 selfObserver 0
      (stateAfter [.sp_raw 7, .sp_copy 0]) 1 0 rfl).1 (by decide))⟩

/-- C9 (the code departs from the claim when a managed object owns the last WeakPtr on
its own block). When no managed object owns a handle: in every state a sequence of
SharedPtr and WeakPtr operations leads to, a block has been released at most once, a
released block has both counts zero, and an allocated block whose counts are both zero has
been released; an operation releases an allocated block exactly when it takes its counts
from not both zero to both zero, which happens in a SharedPtr release that finds strong
count 1 and weak count 0, and in a WeakPtr release that finds strong count 0 and weak
count 1. But after `Node* n = new Node; SharedPtr<Node> p(n); p->self = p; p.reset();`
with `struct Node { WeakPtr<Node> self; };` the block has been released twice: by the
destructor of `n->self` inside delete_object, and again by `SharedPtr::delete_block`,
which reads `count_weak` from the released block. -/
theorem block_release_and_owned_handles :
    (∀ (members : Members) (fuel : Nat), (∀ b, members b = []) →
      ∀ (ops : List Op) (w : World),
      Owning.run members (fuel + 1) World.init ops = some w → ∀ b,
      (w.blocks b).released ≤ 1 ∧
      ((w.blocks b).released = 1 →
        (w.blocks b).count_shared = 0 ∧ (w.blocks b).count_weak = 0) ∧
      (b < w.next_block → (w.blocks b).count_shared = 0 → (w.blocks b).count_weak = 0 →
        (w.blocks b).released = 1)) ∧
    (∀ (members : Members) (fuel : Nat), (∀ b, members b = []) →
      ∀ (ops : List Op) (op : Op) (w w' : World),
      Owning.run members (fuel + 1) World.init ops = some w →
      Owning.step members (fuel + 1) w op = some w' → ∀ b, b < w.next_block →
      (w'.blocks b).released = (w.blocks b).released +
        (if ¬ ((w.blocks b).count_shared = 0 ∧ (w.blocks b).count_weak = 0) ∧
            ((w'.blocks b).count_shared = 0 ∧ (w'.blocks b).count_weak = 0)
          then 1 else 0)) ∧
    (∀ (members : Members) (fuel : Nat) (w : World) (i b : Nat),
      w.sharedBlock i = some (some b) → members b = [] →
      (w.blocks b).count_shared = 1 → (w.blocks b).count_weak = 0 →
      ∃ w', Owning.SharedPtr.delete_block members (fuel + 1) w i = some w' ∧
        (w'.blocks b).released = (w.blocks b).released + 1 ∧
        (w'.blocks b).count_shared = 0 ∧ (w'.blocks b).count_weak = 0) ∧
    (∀ (w : World) (j b : Nat), w.weakBlock j = some (some b) →
      (w.blocks b).count_shared = 0 → (w.blocks b).count_weak = 1 →
      ∃ w', WeakPtr.delete_block w j = some w' ∧
        (w'.blocks b).released = (w.blocks b).released + 1 ∧
        (w'.blocks b).count_shared = 0 ∧ (w'.blocks b).count_weak = 0) ∧
    (∃ w0 w, Owning.run selfObserver 1 World.init selfObserverSetup = some w0 ∧
      (w0.blocks 0).count_shared = 1 ∧ (w0.blocks 0).count_weak = 1 ∧
      (w0.blocks 0).released = 0 ∧
      Owning.run selfObserver 1 World.init (selfObserverSetup ++ [.sp_reset 0]) = some w ∧
      (w.blocks 0).count_shared = 0 ∧ (w.blocks 0).count_weak = 0 ∧
      (w.blocks 0).released = 2) := by
  refine ⟨?_, ?_, ?_, release_cases.2.2.2, ?_⟩
  · intro members fuel hm ops w h
    rw [owning_run_eq members hm fuel] at h
    exact release_cases.1 ops w h
  · intro members fuel hm ops op w w' h hs
    rw [owning_run_eq members hm fuel] at h
    rw [owning_step_eq members hm fuel] at hs
    exact release_cases.2.1 ops op w w' h hs
  · intro members fuel w i b h hmb hs hk
    have he : Owning.SharedPtr.delete_block members (fuel + 1) w i
        = SharedPtr.delete_block w i := by
      apply owning_delete_block_eq
      intro b' hb' _
      rw [h] at hb'
      have hbb : b = b' := Option.some.inj (Option.some.inj hb')
      subst hbb
      exact hmb
    rw [he]
    exact release_cases.2.2.1 w i b h hs hk
  · exact ⟨_, _, rfl, rfl, rfl, rfl, rfl, rfl, rfl, rfl⟩

/-- Witness for C9: no managed object owns a handle; the owner goes first, the observer
last; the observer's release releases the block. -/
theorem block_release_and_owned_handles_witness :
    (∀ b, (fun _ => []  : Members) b = []) ∧
    ∃ w, Owning.run (fun _ => []) 1 World.init
        [.sp_raw 7, .wp_shared 0, .sp_dtor 0, .wp_dtor 0] = some w ∧
      ((w.blocks 0).released ≤ 1 ∧
        ((w.blocks 0).released = 1 →
          (w.blocks 0).count_shared = 0 ∧ (w.blocks 0).count_weak = 0) ∧
        (0 < w.next_block → (w.blocks 0).count_shared = 0 → (w.blocks 0).count_weak = 0 →
          (w.blocks 0).released = 1)) ∧
      (w.blocks 0).released = 1 :=
  ⟨fun _ => rfl, _, rfl,
    block_release_and_owned_handles.1 (fun _ => []) 0 (fun _ => rfl)
      [.sp_raw 7, .wp_shared 0, .sp_dtor 0, .wp_dtor 0] _ rfl 0, rfl⟩

end SmartPointersH
namespace UnorderedMapH

open ListH

/-! ## The load factor computations on large sizes -/

/-- Rounding does not cross a power of two below. -/
theorem toFloat_ge_pow (x : ℚ) (e : ℤ) (h : (2 : ℚ) ^ e ≤ x) : (2 : ℚ) ^ e ≤ toFloat x := by
  have h23 : ((2 ^ 23 : ℤ) : ℚ) = 2 ^ (23 : ℤ) := by norm_num
  have he : ((2 ^ 23 : ℤ) : ℚ) * 2 ^ (e - 23) = 2 ^ e := by
    rw [h23, ← zpow_two_split e 23]
  have := toFloat_ge_of_ge x (2 ^ 23) e (le_refl _) (by norm_num) (by rw [he]; exact h)
  rw [he] at this
  exact this

/-- Rounding does not cross a power of two above. -/
theorem toFloat_le_pow (x : ℚ) (e : ℤ) (hx : 0 < x) (h : x ≤ (2 : ℚ) ^ e) :
    toFloat x ≤ (2 : ℚ) ^ e := by
  have h23 : ((2 ^ 23 : ℤ) : ℚ) = 2 ^ (23 : ℤ) := by norm_num
  have he : ((2 ^ 23 : ℤ) : ℚ) * 2 ^ (e - 23) = 2 ^ e := by
    rw [h23, ← zpow_two_split e 23]
  have := toFloat_le_of_le x (2 ^ 23) e (le_refl _) (by norm_num) hx (by rw [he]; exact h)
  rw [he] at this
  exact this

/-- The comparison `load_factor() > max_load_factor_` holds when the size is at least
twice the bucket count. -/
theorem default_exceeds_twice (s b : Nat) (hb : 0 < b) (hs : 2 * b ≤ s) :
    LoadPolicy.default.exceeds s b = true := by
  show decide ((1 : ℚ) / 2 < toFloat (toFloat (s : ℚ) / toFloat (b : ℚ))) = true
  rw [decide_eq_true_eq]
  have hbq : (0 : ℚ) < b := by exact_mod_cast hb
  obtain ⟨hb1, hb2⟩ := log_bounds (b : ℚ) hbq
  have hsq : (2 : ℚ) * b ≤ s := by exact_mod_cast hs
  have h1 : (2 : ℚ) ^ (Int.log 2 (b : ℚ) + 1) ≤ s := by
    rw [zpow_add₀ (two_ne_zero), zpow_one]
    linarith
  have hfs := toFloat_ge_pow (s : ℚ) _ h1
  have hfb := toFloat_le_pow (b : ℚ) (Int.log 2 (b : ℚ) + 1) hbq hb2.le
  have hfb0 := toFloat_pos (b : ℚ) hbq
  have hq : (2 : ℚ) ^ (0 : ℤ) ≤ toFloat (s : ℚ) / toFloat (b : ℚ) := by
    rw [zpow_zero, le_div_iff₀ hfb0]
    linarith
  have := toFloat_ge_pow _ 0 hq
  rw [zpow_zero] at this
  linarith

/-- The computation `size_t(2 * (storage_.size() / max_load_factor_ + 2))` gives at least
the size. -/
theorem default_target_ge (s : Nat) (hs : 0 < s) : s ≤ LoadPolicy.default.target s := by
  show s ≤ (toFloat (2 * toFloat (toFloat (toFloat (s : ℚ) / (1 / 2)) + 2))).floor.toNat
  have hsq : (0 : ℚ) < s := by exact_mod_cast hs
  obtain ⟨h1, h2⟩ := log_bounds (s : ℚ) hsq
  have ha := toFloat_ge_pow (s : ℚ) _ h1
  have hp := zpow_two_pos (Int.log 2 (s : ℚ))
  have hdiv : toFloat (s : ℚ) / (1 / 2) = 2 * toFloat (s : ℚ) := by ring
  have hb : (2 : ℚ) ^ (Int.log 2 (s : ℚ)) ≤ toFloat (toFloat (s : ℚ) / (1 / 2)) := by
    apply toFloat_ge_pow
    rw [hdiv]
    linarith
  have hc : (2 : ℚ) ^ (Int.log 2 (s : ℚ))
      ≤ toFloat (toFloat (toFloat (s : ℚ) / (1 / 2)) + 2) := by
    apply toFloat_ge_pow
    linarith
  have hd : (2 : ℚ) ^ (Int.log 2 (s : ℚ) + 1)
      ≤ toFloat (2 * toFloat (toFloat (toFloat (s : ℚ) / (1 / 2)) + 2)) := by
    apply toFloat_ge_pow
    rw [zpow_add₀ (two_ne_zero), zpow_one]
    linarith
  have hle : ((s : ℤ) : ℚ)
      ≤ toFloat (2 * toFloat (toFloat (toFloat (s : ℚ) / (1 / 2)) + 2)) := by
    have : ((s : ℤ) : ℚ) = (s : ℚ) := by norm_cast
    rw [this]
    linarith
  have hfl : (s : ℤ) ≤ ⌊toFloat (2 * toFloat (toFloat (toFloat (s : ℚ) / (1 / 2)) + 2))⌋ :=
    Int.le_floor.2 hle
  show s ≤ (⌊toFloat (2 * toFloat (toFloat (toFloat (s : ℚ) / (1 / 2)) + 2))⌋).toNat
  omega

/-- The computation `size_t(2 * (storage_.size() / max_load_factor_ + 2))` on a size of at
most `2^31` gives at most `2^34`. -/
theorem default_target_le (s : Nat) (hs : 0 < s) (hs31 : s ≤ 2 ^ 31) :
    LoadPolicy.default.target s ≤ 2 ^ 34 := by
  show (toFloat (2 * toFloat (toFloat (toFloat (s : ℚ) / (1 / 2)) + 2))).floor.toNat ≤ 2 ^ 34
  have hsq : (0 : ℚ) < s := by exact_mod_cast hs
  have hs31q : (s : ℚ) ≤ (2 : ℚ) ^ (31 : ℤ) := by
    have : (s : ℚ) ≤ ((2 ^ 31 : ℕ) : ℚ) := by exact_mod_cast hs31
    norm_num at this ⊢
    exact this
  have ha0 := toFloat_pos (s : ℚ) hsq
  have ha := toFloat_le_pow (s : ℚ) 31 hsq hs31q
  have hdiv : toFloat (s : ℚ) / (1 / 2) = 2 * toFloat (s : ℚ) := by ring
  have e32 : (2 : ℚ) ^ (32 : ℤ) = 2 * 2 ^ (31 : ℤ) := by norm_num
  have e33 : (2 : ℚ) ^ (33 : ℤ) = 2 * 2 ^ (32 : ℤ) := by norm_num
  have e34 : (2 : ℚ) ^ (34 : ℤ) = 2 * 2 ^ (33 : ℤ) := by norm_num
  have p32 : (2 : ℚ) ≤ 2 ^ (32 : ℤ) := by norm_num
  have hb0 : (0 : ℚ) < toFloat (s : ℚ) / (1 / 2) := by
    rw [hdiv]
    linarith
  have hb := toFloat_le_pow (toFloat (s : ℚ) / (1 / 2)) 32 hb0 (by
    rw [hdiv, e32]
    linarith)
  have hb1 := toFloat_pos _ hb0
  have hc0 : (0 : ℚ) < toFloat (toFloat (s : ℚ) / (1 / 2)) + 2 := by linarith
  have hc := toFloat_le_pow (toFloat (toFloat (s : ℚ) / (1 / 2)) + 2) 33 hc0 (by
    rw [e33]
    linarith)
  have hc1 := toFloat_pos _ hc0
  have hd0 : (0 : ℚ) < 2 * toFloat (toFloat (toFloat (s : ℚ) / (1 / 2)) + 2) := by linarith
  have hd := toFloat_le_pow (2 * toFloat (toFloat (toFloat (s : ℚ) / (1 / 2)) + 2)) 34 hd0 (by
    rw [e34]
    linarith)
  have h34 : (2 : ℚ) ^ (34 : ℤ) = (((2 ^ 34 : ℕ) : ℤ) : ℚ) := by norm_num
  have hfl : ⌊toFloat (2 * toFloat (toFloat (toFloat (s : ℚ) / (1 / 2)) + 2))⌋
      ≤ ((2 ^ 34 : ℕ) : ℤ) := by
    apply Int.floor_le_iff.2
    rw [← h34]
    linarith
  show (⌊toFloat (2 * toFloat (toFloat (toFloat (s : ℚ) / (1 / 2)) + 2))⌋).toNat ≤ 2 ^ 34
  omega

/-! ## `find` after a loop of `rehash` that stopped early -/

theorem toInt_rounds_lt (s : Nat) (h : 2 ^ 31 ≤ s) : (toInt s).toNat < s := by
  unfold toInt
  have h1 : s % 2 ^ 32 < 2 ^ 32 := Nat.mod_lt _ (by norm_num)
  split_ifs <;> omega

section
variable {K V : Type}

/-- The member `find` on a state whose list is `rest ++ flatten groups`, the runs and the
index array being consistent for the entries of `groups` only: a key that has no equal
among the entries of the runs is not found, whether it is the key of an entry of `rest`
or not. -/
theorem find_unindexed {m : UnorderedMap K V} {rest : List (Nat × HashedNode K V)}
    {groups : List (Group K V)} (hl : ListRepr m.storage_ (rest ++ flatten groups))
    (hc : 0 < m.buckets_count_) (hgr : GroupsOK m.buckets_count_ groups)
    (hix : IndexOK m.storage_.end_ m.buckets_count_ m.bucket_iterators_ groups)
    (key : K) (fuel : Nat) (hf : (flatten groups).length < fuel)
    (hno : ∀ x ∈ flatten groups, m.equaler_ x.2.node.1 key = false) :
    m.find fuel key = some m.end := by
  have hb : m.get_hash (m.hasher_ key) < m.buckets_count_ := Nat.mod_lt _ hc
  have hbis := hix.2 _ hb
  have hscan : m.scan key (m.hasher_ key) fuel
      (headOf groups m.storage_.end_ (m.get_hash (m.hasher_ key))) = some none := by
    cases hgo : groupOf groups (m.get_hash (m.hasher_ key)) with
    | none =>
      obtain ⟨f, hf'⟩ : ∃ f, fuel = f + 1 := ⟨fuel - 1, by omega⟩
      subst hf'
      simp [headOf, hgo, UnorderedMap.scan, LinkedList.end]
    | some g =>
      obtain ⟨G1, G2, hs, hn⟩ := groupOf_split hgo
      subst hs
      have hl' : ListRepr m.storage_ ((rest ++ flatten G1) ++ (g ++ flatten G2)) := by
        rw [flatten_append, flatten_cons] at hl
        simpa using hl
      have hne : g ≠ [] := (hgr.2 (m.get_hash (m.hasher_ key), g) (by simp)).1
      have hall : ∀ x ∈ g, m.get_hash x.2.hash = m.get_hash (m.hasher_ key) := by
        intro x hx
        have := (hgr.2 (m.get_hash (m.hasher_ key), g) (by simp)).2.2 x hx
        have hidem : m.get_hash (m.get_hash (m.hasher_ key)) = m.get_hash (m.hasher_ key) :=
          Nat.mod_mod _ _
        rw [← hidem]
        show x.2.hash % m.buckets_count_ = _
        rw [this]
        exact (Nat.mod_eq_of_lt hb).symm
      have hrest' : ∀ y, (flatten G2).head? = some y →
          m.get_hash y.2.hash ≠ m.get_hash (m.hasher_ key) := by
        intro y hy
        exact rest_head_other hgr y hy
      have hlen : g.length < fuel := by
        have := @length_le_of_split K V G1 G2 (m.get_hash (m.hasher_ key)) g
        omega
      have hscan := scan_group m key (m.hasher_ key) (flatten G2) hrest' g
        (rest ++ flatten G1) fuel hl' hall hlen
      have hhead : headOf (G1 ++ (m.get_hash (m.hasher_ key), g) :: G2) m.storage_.end_
          (m.get_hash (m.hasher_ key)) = (addrs (g ++ flatten G2)).headD m.storage_.end_ := by
        unfold headOf
        rw [hgo]
        cases g with
        | nil => exact absurd rfl hne
        | cons z zs => rfl
      rw [hhead, hscan]
      have : g.find? (fun x => m.equaler_ x.2.node.1 key) = none := by
        rw [List.find?_eq_none]
        intro x hx
        simp [hno x (groupOf_sub hgo x hx)]
      rw [this]
      rfl
  unfold UnorderedMap.find
  simp only [hbis, hscan]

/-- The member `rehash(n)` with `size() ≤ n` on a well formed map of `2^31` or more
entries: the `int` counter of its loop starts below `size()`, so that the loop ends with
entries left in front of the runs it has built, and `find` then returns `end()` for the
key of the first of these entries, which is in the map. -/
theorem rehash_loses_keys {m : UnorderedMap K V} {groups : List (Group K V)}
    (h : MapRepr m groups) (hsz : 2 ^ 31 ≤ m.size) (n : Nat) (hn : m.size ≤ n) (fuel : Nat)
    (hf : m.size ≤ fuel) :
    ∃ m1 x, m.rehash n = some m1 ∧ x ∈ flatten groups ∧
      m1.bucket_iterators_.length = max n 2 ∧ m1.buckets_count_ = max n 2 ∧
      m1.hasher_ = m.hasher_ ∧
      m1.find fuel x.2.node.1 = some m1.end := by
  obtain ⟨hl, _, _, _, _, hpw⟩ := h
  unfold UnorderedMap.rehash
  rw [if_neg (by omega)]
  have hc : 0 < max n 2 := by omega
  have hsize : m.storage_.size = (flatten groups).length := ListRepr_size hl
  have hsz' : 2 ^ 31 ≤ m.storage_.size := hsz
  have hr := toInt_rounds_lt m.storage_.size hsz'
  have hsplit : flatten groups = (flatten groups).take (toInt m.storage_.size).toNat
      ++ (flatten groups).drop (toInt m.storage_.size).toNat :=
    (List.take_append_drop _ _).symm
  have hlen : ((flatten groups).take (toInt m.storage_.size).toNat).length
      = (toInt m.storage_.size).toNat := by
    rw [List.length_take]
    omega
  have hl0 : ListRepr m.storage_ ((flatten groups).take (toInt m.storage_.size).toNat
      ++ (flatten groups).drop (toInt m.storage_.size).toNat
      ++ flatten ([] : List (Group K V))) := by
    rw [← hsplit]
    simpa [flatten] using hl
  have hgr0 : GroupsOK (max n 2) ([] : List (Group K V)) := ⟨by simp, by simp⟩
  have hix0 : IndexOK m.storage_.end_ (max n 2) (List.replicate (max n 2) m.storage_.end)
      ([] : List (Group K V)) := by
    refine ⟨by simp, ?_⟩
    intro b hb
    simp [headOf, groupOf, hb, LinkedList.end]
  obtain ⟨l1, groups1, bis1, hloop, hl1, hgr1, hix1, hend1, hperm⟩ :=
    rehashLoop_partial (max n 2) hc _ _ _ m.storage_ [] _ hlen hl0 hgr0 hix0
  simp only [hloop]
  -- the first of the entries that the loop has left
  have hdl : ((flatten groups).drop (toInt m.storage_.size).toNat).length ≠ 0 := by
    rw [List.length_drop]
    omega
  obtain ⟨x, rest, hx⟩ : ∃ x rest,
      (flatten groups).drop (toInt m.storage_.size).toNat = x :: rest := by
    cases hd : (flatten groups).drop (toInt m.storage_.size).toNat with
    | nil => rw [hd] at hdl; exact absurd rfl hdl
    | cons x rest => exact ⟨x, rest, rfl⟩
  have hxm : x ∈ flatten groups := by
    rw [hsplit, hx]
    simp
  have hperm' : ((flatten groups1).map Prod.snd).Perm
      (((flatten groups).take (toInt m.storage_.size).toNat).map Prod.snd) := by
    simpa [flatten] using hperm
  refine ⟨_, x, rfl, hxm, hix1.1, rfl, rfl, ?_⟩
  refine @find_unindexed K V _ ((flatten groups).drop (toInt m.storage_.size).toNat) groups1
    ?_ ?_ ?_ ?_ _ fuel ?_ ?_
  · exact hl1
  · exact hc
  · exact hgr1
  · show IndexOK l1.end_ (max n 2) bis1 groups1
    rw [hend1]
    exact hix1
  · have h1 := hperm'.length_eq
    simp only [List.length_map] at h1
    rw [h1, hlen]
    have : m.storage_.size ≤ fuel := hf
    omega
  · intro y hy
    have hy2 : y.2 ∈ ((flatten groups).take (toInt m.storage_.size).toNat).map Prod.snd := by
      rw [← hperm'.mem_iff]
      exact List.mem_map_of_mem _ hy
    rw [List.mem_map] at hy2
    obtain ⟨z, hz, hzy⟩ := hy2
    have hpw2 := hpw
    rw [hsplit, hx, List.pairwise_append] at hpw2
    have := hpw2.2.2 z hz x (List.mem_cons_self _ _)
    rw [← hzy]
    exact this

end

/-! ## The inserts of the keys 0, 1, 2, ... -/

theorem rehash_count {K V : Type} {m m1 : UnorderedMap K V} {n : Nat}
    (h : m.rehash n = some m1) :
    m1.buckets_count_ = if n < m.size then m.buckets_count_ else max n 2 := by
  unfold UnorderedMap.rehash at h
  by_cases hn : n < m.size
  · rw [if_pos hn] at h
    rw [if_pos hn, ← Option.some.inj h]
  · rw [if_neg hn] at h
    rw [if_neg hn]
    cases hl : rehashLoop (max n 2) (toInt m.storage_.size).toNat
        (m.storage_, List.replicate (max n 2) m.storage_.end) with
    | none => simp [hl] at h
    | some r =>
      simp only [hl] at h
      rw [← Option.some.inj h]

theorem insertsUpTo_succ (n : Nat) : insertsUpTo (n + 1) = insertsUpTo n ++ [.insert n 0] := by
  unfold insertsUpTo
  rw [List.range_succ, List.map_append]
  rfl

theorem insertsUpTo_history (n : Nat) :
    erasesOfPresentKeys (fun a b : Nat => decide (a = b)) (insertsUpTo n) = true ∧
    ∀ k, k < n →
      insertedNotErased (fun a b : Nat => decide (a = b)) k (insertsUpTo n) = true := by
  induction n with
  | zero => exact ⟨rfl, fun k hk => absurd hk (by omega)⟩
  | succ n ih =>
    unfold erasesOfPresentKeys insertedNotErased at *
    rw [insertsUpTo_succ, List.reverse_append]
    simp only [List.reverse_cons, List.reverse_nil, List.nil_append, List.singleton_append,
      erasesOfPresentKeysRev, insertedNotErasedRev]
    refine ⟨ih.1, ?_⟩
    intro k hk
    have e : ([] : List (MapOp Nat Nat)).append (insertsUpTo n).reverse
        = (insertsUpTo n).reverse := rfl
    rw [e]
    by_cases hkn : n = k
    · simp [hkn]
    · rw [ih.2 k (by omega)]
      simp

/-- One more insert: either the map holds one entry more and is well formed, or the
insert has rehashed a map of `2^31` or more entries and `find` does not return the entry
of a key that has been inserted. -/
theorem inserts_step (F n : Nat) (m : UnorderedMap Nat Nat) (hJ : InsertedUpTo n m)
    (hF : n < F) :
    (∃ m1, m.apply F (.insert n 0) = some m1 ∧ InsertedUpTo (n + 1) m1) ∨
    (∃ m1 k, m.apply F (.insert n 0) = some m1 ∧ k < n + 1 ∧ 2 ^ 31 ≤ n + 1 ∧
      m1.find F k = some m1.end) := by
  obtain ⟨groups, h, hsz, hh, he, hpol, hkeys, hbc, hhalf⟩ := hJ
  have hk : KeyEquiv m.hasher_ m.equaler_ := by
    rw [hh, he]
    exact natKeys
  have hno : ∀ x ∈ flatten groups, m.equaler_ x.2.node.1 n = false := by
    intro x hx
    have := hkeys x hx
    rw [he]
    simp only [decide_eq_false_iff_not]
    omega
  obtain ⟨l1, groups1, _, hm1, hperm, hsz1, hem⟩ :=
    emplace_absent_steps hk h n 0 F (by omega) hno
  have hkeys1 : ∀ x ∈ flatten groups1, x.2.node.1 < n + 1 := by
    intro x hx
    rw [hperm.mem_iff, List.mem_cons] at hx
    rcases hx with hx | hx
    · rw [hx]
      exact Nat.lt_succ_self n
    · have := hkeys x hx
      omega
  have happ : ∀ m1 r, m.emplace F n 0 = some (m1, r, true) →
      m.apply F (.insert n 0) = some m1 := by
    intro m1 r hemp
    unfold UnorderedMap.apply
    simp only [hemp]
  rw [hsz, hpol] at hem
  have hk1 : KeyEquiv (afterInsertion m n l1).hasher_ (afterInsertion m n l1).equaler_ := hk
  have hsz1' : (afterInsertion m n l1).size = n + 1 := by rw [hsz1, hsz]
  by_cases hex : LoadPolicy.default.exceeds (n + 1) m.buckets_count_ = true
  · rw [if_pos hex] at hem
    by_cases h31 : n + 1 < 2 ^ 31
    · left
      obtain ⟨m2, groups2, hre, hm2, hperm2, hh2, he2, hpol2⟩ :=
        rehash_repr hk1 hm1 (by rw [hsz1']; exact h31) (LoadPolicy.default.target (n + 1))
      have hidx : ∃ r, m2.bucket_iterators_[m2.get_hash (m.hasher_ n)]? = some r := by
        have hlt : m2.get_hash (m.hasher_ n) < m2.bucket_iterators_.length := by
          rw [hm2.2.2.2.1.1]
          exact Nat.mod_lt _ hm2.2.1
        exact ⟨_, List.getElem?_eq_getElem hlt⟩
      obtain ⟨r, hr⟩ := hidx
      refine ⟨m2, ?_, groups2, hm2, ?_, ?_, ?_, ?_, ?_, ?_, ?_⟩
      · apply happ m2 r
        rw [hem, hre]
        simp only [hr]
      · rw [MapRepr_length hm2]
        have h1 := hperm2.length_eq
        simp only [List.length_map] at h1
        rw [h1, ← MapRepr_length hm1, hsz1']
      · rw [hh2]
        exact hh
      · rw [he2]
        exact he
      · rw [hpol2]
        exact hpol
      · intro x hx
        have hx2 : x.2 ∈ (flatten groups1).map Prod.snd := by
          rw [← hperm2.mem_iff]
          exact List.mem_map_of_mem _ hx
        rw [List.mem_map] at hx2
        obtain ⟨z, hz, hzx⟩ := hx2
        rw [← hzx]
        exact hkeys1 z hz
      · rw [rehash_count hre]
        have ht := default_target_le (n + 1) (by omega) (by omega)
        have hbc1 : (afterInsertion m n l1).buckets_count_ ≤ 2 ^ 34 := hbc
        split_ifs <;> omega
      · intro hc
        omega
    · right
      have ht := default_target_ge (n + 1) (by omega)
      obtain ⟨m2, x, hre, hx, hlen, hcount, _, hfind⟩ :=
        rehash_loses_keys hm1 (by rw [hsz1']; omega) (LoadPolicy.default.target (n + 1))
          (by rw [hsz1']; exact ht) F (by rw [hsz1']; omega)
      have hidx : ∃ r, m2.bucket_iterators_[m2.get_hash (m.hasher_ n)]? = some r := by
        have hlt : m2.get_hash (m.hasher_ n) < m2.bucket_iterators_.length := by
          rw [hlen]
          unfold UnorderedMap.get_hash
          rw [hcount]
          exact Nat.mod_lt _ (by omega)
        exact ⟨_, List.getElem?_eq_getElem hlt⟩
      obtain ⟨r, hr⟩ := hidx
      refine ⟨m2, x.2.node.1, ?_, hkeys1 x hx, by omega, hfind⟩
      apply happ m2 r
      rw [hem, hre]
      simp only [hr]
  · have hex' : LoadPolicy.default.exceeds (n + 1) m.buckets_count_ = false := by
      cases hc : LoadPolicy.default.exceeds (n + 1) m.buckets_count_ with
      | true => exact absurd hc hex
      | false => rfl
    left
    rw [hex'] at hem
    have hidx : ∃ r, (afterInsertion m n l1).bucket_iterators_[
        (afterInsertion m n l1).get_hash (m.hasher_ n)]? = some r := by
      have hlt : (afterInsertion m n l1).get_hash (m.hasher_ n)
          < (afterInsertion m n l1).bucket_iterators_.length := by
        rw [hm1.2.2.2.1.1]
        exact Nat.mod_lt _ hm1.2.1
      exact ⟨_, List.getElem?_eq_getElem hlt⟩
    obtain ⟨r, hr⟩ := hidx
    refine ⟨afterInsertion m n l1, ?_, groups1, hm1, hsz1', hh, he, hpol, hkeys1, hbc, ?_⟩
    · apply happ _ r
      rw [hem]
      simp only [Bool.false_eq_true, if_false, hr]
    · intro hc
      by_contra hcon
      have h2 : 2 * m.buckets_count_ ≤ n + 1 := by
        have : (afterInsertion m n l1).buckets_count_ = m.buckets_count_ := rfl
        rw [this] at hcon
        omega
      have := default_exceeds_twice (n + 1) m.buckets_count_ h.2.1 h2
      rw [this] at hex'
      exact absurd hex' (by simp)

/-- The inserts of the keys `0, ..., n - 1` on the default-constructed map, with fuel `F`
for the loops: up to `n` inserts, either a rehash of `2^31` or more entries has left the
entry of an inserted key out of reach of `find`, or the map is well formed. -/
theorem inserts_reach (F : Nat) : ∀ n, n ≤ F →
    (∃ n' m k, n' ≤ n ∧ 2 ^ 31 ≤ n' ∧ natMapFloat.run F (insertsUpTo n') = some m ∧ k < n' ∧
      m.find F k = some m.end) ∨
    (∃ m, natMapFloat.run F (insertsUpTo n) = some m ∧ InsertedUpTo n m) := by
  intro n
  induction n with
  | zero =>
    intro _
    right
    refine ⟨natMapFloat, rfl, [], MapRepr_mk0 _ _ _, rfl, rfl, rfl, rfl, ?_, ?_, ?_⟩
    · intro x hx
      simp [flatten] at hx
    · show (2 : Nat) ≤ 2 ^ 34
      norm_num
    · intro hc
      norm_num at hc
  | succ n ih =>
    intro hn
    rcases ih (by omega) with ⟨n', m, k, h1, h2, h3, h4, h5⟩ | ⟨m, hrun, hJ⟩
    · left
      exact ⟨n', m, k, by omega, h2, h3, h4, h5⟩
    · have hrun1 : natMapFloat.run F (insertsUpTo (n + 1)) = m.apply F (.insert n 0) := by
        rw [insertsUpTo_succ, map_run_append, hrun]
      rcases inserts_step F n m hJ (by omega) with ⟨m1, ha, hJ1⟩ | ⟨m1, k, ha, hk, h31, hfind⟩
      · right
        exact ⟨m1, by rw [hrun1, ha], hJ1⟩
      · left
        exact ⟨n + 1, m1, k, le_refl _, h31, by rw [hrun1, ha], hk, hfind⟩

/-- Some run of inserts of the keys `0, 1, 2, ...` on the default-constructed map, of at
least `2^31` and at most `2^35` calls, leaves a map on which `find` returns `end()` for a
key that has been inserted and not erased. -/
theorem inserts_lose_a_key :
    ∃ (n k : Nat) (m : UnorderedMap Nat Nat), k < n ∧ 2 ^ 31 ≤ n ∧ n ≤ 2 ^ 35 ∧
      natMapFloat.run (2 ^ 35 + 1) (insertsUpTo n) = some m ∧
      m.find (2 ^ 35 + 1) k = some m.end := by
  rcases inserts_reach (2 ^ 35 + 1) (2 ^ 35) (by omega) with
    ⟨n', m, k, h1, h2, h3, h4, h5⟩ | ⟨m, _, hJ⟩
  · exact ⟨n', k, m, h4, h2, h1, h3, h5⟩
  · obtain ⟨groups, _, _, _, _, _, _, hbc, hhalf⟩ := hJ
    have := hhalf (by norm_num)
    omega

/-- C3 (the code departs from the claim on a map of `2^31` or more entries). For every
hash function consistent with the equality predicate (`KeyEquiv`) and every sequence
`ops` of insert/emplace and erase(find(k)) calls on a default-constructed UnorderedMap,
each erase being of a key that is in the map (erase(end()) is undefined) and the sequence
being shorter than `2^31` calls, the calls return a map on which find(k) returns, for
every `k`, a position that is not end() exactly when `k` has been inserted and not erased
since, that position holding an entry whose key equals `k`; the loops of find and emplace
end within `ops.length + 1` steps, and the load policy is arbitrary. On the map of
integers with bucket count 2, the second insert rehashes to 12 buckets and both keys are
found afterwards. But rehash counts its loop with `int i = storage_.size()`: among the
runs `insert({0, 0}), insert({1, 0}), ..., insert({n - 1, 0})` on the default-constructed
`UnorderedMap<size_t, size_t>` there is one, of at least `2^31` and at most `2^35` calls,
whose last insert rehashes and after which find(k) returns end() for a key `k` that has
been inserted and not erased. -/
theorem find_loses_keys_beyond_int_range :
    (∀ (K V : Type) (hasher : K → Nat) (equaler : K → K → Bool) (policy : LoadPolicy),
      KeyEquiv hasher equaler →
      ∀ (ops : List (MapOp K V)) (fuel : Nat), erasesOfPresentKeys equaler ops = true →
        ops.length < 2 ^ 31 → ops.length < fuel →
        ∃ m, (UnorderedMap.mk0 hasher equaler policy).run fuel ops = some m ∧
          ∀ k, ∃ it, m.find fuel k = some it ∧
            (it ≠ m.end ↔ insertedNotErased equaler k ops = true) ∧
            (it ≠ m.end → ∃ hn, ListH.valueOf m.storage_.heap it = some hn ∧
              equaler hn.node.1 k = true)) ∧
    (natMap.run 3 [.insert 1 10]).map (fun m => m.buckets_count_) = some 2 ∧
    (natMap.run 3 [.insert 1 10, .insert 3 30]).map
        (fun m => (m.buckets_count_, m.at 3 1, m.at 3 3, m.at 3 5))
      = some (12, some (.value 10), some (.value 30), some .out_of_range) ∧
    (∃ (n k : Nat) (m : UnorderedMap Nat Nat), k < n ∧ 2 ^ 31 ≤ n ∧ n ≤ 2 ^ 35 ∧
      KeyEquiv (fun k : Nat => k) (fun a b => decide (a = b)) ∧
      erasesOfPresentKeys (fun a b : Nat => decide (a = b)) (insertsUpTo n) = true ∧
      (insertsUpTo n).length < 2 ^ 35 + 1 ∧
      natMapFloat.run (2 ^ 35 + 1) (insertsUpTo n) = some m ∧
      insertedNotErased (fun a b : Nat => decide (a = b)) k (insertsUpTo n) = true ∧
      m.find (2 ^ 35 + 1) k = some m.end) := by
  refine ⟨find_tracks_below_int_range.1, find_tracks_below_int_range.2.1,
    find_tracks_below_int_range.2.2, ?_⟩
  obtain ⟨n, k, m, hk, h31, h35, hrun, hfind⟩ := inserts_lose_a_key
  refine ⟨n, k, m, hk, h31, h35, natKeys, (insertsUpTo_history n).1, ?_, hrun,
    (insertsUpTo_history n).2 k hk, hfind⟩
  unfold insertsUpTo
  rw [List.length_map, List.length_range]
  omega

/-- Witness for C3: two colliding inserts (with the rehash), an erase and a further
insert on the map of integers. -/
theorem find_loses_keys_beyond_int_range_witness :
    KeyEquiv (fun k : Nat => k) (fun a b => decide (a = b)) ∧
    erasesOfPresentKeys (fun a b : Nat => decide (a = b))
      ([.insert 1 10, .insert 3 30, .erase_found 1, .insert 5 50] : List (MapOp Nat Nat))
      = true ∧
    ([.insert 1 10, .insert 3 30, .erase_found 1, .insert 5 50] :
      List (MapOp Nat Nat)).length < 2 ^ 31 ∧
    ([.insert 1 10, .insert 3 30, .erase_found 1, .insert 5 50] :
      List (MapOp Nat Nat)).length < 5 ∧
    ∃ m, (UnorderedMap.mk0 (fun k : Nat => k) (fun a b => decide (a = b))
        LoadPolicy.half).run 5
        ([.insert 1 10, .insert 3 30, .erase_found 1, .insert 5 50] : List (MapOp Nat Nat))
        = some m ∧
      ∀ k, ∃ it, m.find 5 k = some it ∧
        (it ≠ m.end ↔ insertedNotErased (fun a b : Nat => decide (a = b)) k
          ([.insert 1 10, .insert 3 30, .erase_found 1, .insert 5 50] : List (MapOp Nat Nat))
          = true) ∧
        (it ≠ m.end → ∃ hn, ListH.valueOf m.storage_.heap it = some hn ∧
          decide (hn.node.1 = k) = true) :=
  ⟨natKeys, by decide, by decide, by decide,
    find_loses_keys_beyond_int_range.1 Nat Nat _ _ LoadPolicy.half natKeys _ 5 (by decide)
      (by decide) (by decide)⟩

end UnorderedMapH
